import Mathlib

/-!
# FST: a succinct trie index (LOUDS-Sparse tier, builder, iterator)

Shallow embedding of `fst_builder.hpp`, `bitvector.hpp`, `label_vector.hpp`,
`louds_sparse.hpp` and of the helpers of `config.hpp`.

Conventions of the embedding
* a `std::string` is a `List Nat` of bytes, a `std::vector<T>` is a `List T`;
* a `word_t` is a `Nat` below `2 ^ 64`; a left shift is truncated to 64 bits;
* `position_t` / `level_t` counters are `Nat`: the positions inside a trie stay far
  below `2 ^ 32`; the 32-bit and 64-bit expressions that can wrap (the memory estimates,
  the dense bit positions, the serialized sizes, the node tags, and the guards of
  `simdSearch` in the run with its reads, whose arguments are arbitrary) are reduced
  modulo `2 ^ 32` and `2 ^ 64`;
* a buffer of bytes is a `List Nat`, an address in it is an offset from its start;
* a function returns `none` when the C++ code would violate one of its `assert`s or
  read a vector outside its bounds; otherwise it returns `some` of the new state.
-/

namespace FST

/-! ## config.hpp -/

def kFanout : Nat := 256

def kWordSize : Nat := 64

def kMsbMask : Nat := 0x8000000000000000

def kTerminator : Nat := 255

structure KeyPartValue where
  value : Nat
  key_part : List Nat
deriving Repr, DecidableEq

/-- Left shift of a `word_t`: the bits shifted past bit 63 are lost. -/
def shl64 (w s : Nat) : Nat := (w <<< s) % 2 ^ 64

/-- An `assert(c)`: `none` when the condition is violated. -/
def check (c : Bool) : Option Unit := if c then some () else none

/-- The comparison `a < b` of two `std::string`s (bytewise, unsigned, shorter first). -/
def strLt : List Nat → List Nat → Bool
  | [], [] => false
  | [], _ :: _ => true
  | _ :: _, [] => false
  | a :: as, b :: bs => decide (a < b) || (decide (a = b) && strLt as bs)

/-! ## fst_builder.hpp -/

structure FSTBuilder where
  include_dense_ : Bool
  sparse_dense_ratio_ : Nat
  sparse_start_level_ : Nat
  values_ : List (List Nat)
  labels_ : List (List Nat)
  child_indicator_bits_ : List (List Nat)
  louds_bits_ : List (List Nat)
  values_sparse_ : List Nat
  bitmap_labels_ : List (List Nat)
  bitmap_child_indicator_bits_ : List (List Nat)
  prefixkey_indicator_bits_ : List (List Nat)
  values_dense_ : List Nat
  node_counts_ : List Nat
  is_last_item_terminator_ : List Bool
deriving Repr, DecidableEq

namespace FSTBuilder

/-- The default constructor `FSTBuilder()`: no dense tier, sparse start level 0. -/
def new : FSTBuilder :=
  { include_dense_ := false, sparse_dense_ratio_ := 0, sparse_start_level_ := 0,
    values_ := [], labels_ := [], child_indicator_bits_ := [], louds_bits_ := [],
    values_sparse_ := [], bitmap_labels_ := [], bitmap_child_indicator_bits_ := [],
    prefixkey_indicator_bits_ := [], values_dense_ := [], node_counts_ := [],
    is_last_item_terminator_ := [] }

/-- The constructor `FSTBuilder(include_dense, sparse_dense_ratio)`. -/
def mk2 (include_dense : Bool) (sparse_dense_ratio : Nat) : FSTBuilder :=
  { new with include_dense_ := include_dense, sparse_dense_ratio_ := sparse_dense_ratio }

def readBit (bits : List Nat) (pos : Nat) : Option Bool :=
  if pos < bits.length * kWordSize then
    some ((bits.getD (pos / kWordSize) 0 &&& (kMsbMask >>> (pos % kWordSize))) != 0)
  else none

def setBit (bits : List Nat) (pos : Nat) : Option (List Nat) :=
  if pos < bits.length * kWordSize then
    some (bits.set (pos / kWordSize)
      (bits.getD (pos / kWordSize) 0 ||| (kMsbMask >>> (pos % kWordSize))))
  else none

def getTreeHeight (b : FSTBuilder) : Nat := b.labels_.length

def getNumItems (b : FSTBuilder) (level : Nat) : Option Nat :=
  (b.labels_[level]?).map List.length

/-- The overload `isSameKey(string_view, string_view)`. -/
def isSameKey (a b : List Nat) : Option Bool := do
  check (a.length == b.length)
  some (a == b)

def isCharCommonPrefix (b : FSTBuilder) (c level : Nat) : Option Bool :=
  if level < b.getTreeHeight then do
    let t ← b.is_last_item_terminator_[level]?
    if !t then do
      let l ← b.labels_[level]?
      let last ← l.getLast?
      some (c == last)
    else some false
  else some false

def isLevelEmpty (b : FSTBuilder) (level : Nat) : Option Bool :=
  if level ≥ b.getTreeHeight then some true
  else do
    let l ← b.labels_[level]?
    some l.isEmpty

/-- The statement `setBit(child_indicator_bits_[level], pos)`. -/
def setChildBit (b : FSTBuilder) (level pos : Nat) : Option FSTBuilder := do
  let w ← b.child_indicator_bits_[level]?
  let w1 ← setBit w pos
  some { b with child_indicator_bits_ := b.child_indicator_bits_.set level w1 }

/-- The statement `setBit(louds_bits_[level], pos)`. -/
def setLoudsBit (b : FSTBuilder) (level pos : Nat) : Option FSTBuilder := do
  let w ← b.louds_bits_[level]?
  let w1 ← setBit w pos
  some { b with louds_bits_ := b.louds_bits_.set level w1 }

def addLevel (b : FSTBuilder) : FSTBuilder :=
  { b with
    labels_ := b.labels_ ++ [[]]
    values_ := b.values_ ++ [[]]
    child_indicator_bits_ := b.child_indicator_bits_ ++ [[0]]
    louds_bits_ := b.louds_bits_ ++ [[0]]
    node_counts_ := b.node_counts_ ++ [0]
    is_last_item_terminator_ := b.is_last_item_terminator_ ++ [false] }

def moveToNextItemSlot (b : FSTBuilder) (level : Nat) : Option FSTBuilder := do
  check (decide (level < b.getTreeHeight))
  let num_items ← b.getNumItems level
  if num_items % kWordSize == 0 then do
    let c ← b.child_indicator_bits_[level]?
    let l ← b.louds_bits_[level]?
    some { b with
      child_indicator_bits_ := b.child_indicator_bits_.set level (c ++ [0])
      louds_bits_ := b.louds_bits_.set level (l ++ [0]) }
  else some b

def insertKeyByte (b : FSTBuilder) (c level : Nat) (is_start_of_node is_term : Bool) :
    Option FSTBuilder := do
  let b1 := if level ≥ b.getTreeHeight then b.addLevel else b
  check (decide (level < b1.getTreeHeight))
  let b2 ← (if level > 0 then (do
      let n ← b1.getNumItems (level - 1)
      check (decide (0 < n))
      b1.setChildBit (level - 1) (n - 1))
    else some b1)
  let l ← b2.labels_[level]?
  let b3 := { b2 with labels_ := b2.labels_.set level (l ++ [c]) }
  let b4 ← (if is_start_of_node then (do
      let n ← b3.getNumItems level
      let b3a ← b3.setLoudsBit level (n - 1)
      let nc ← b3a.node_counts_[level]?
      some { b3a with node_counts_ := b3a.node_counts_.set level (nc + 1) })
    else some b3)
  check (decide (level < b4.is_last_item_terminator_.length))
  let b5 := { b4 with is_last_item_terminator_ := b4.is_last_item_terminator_.set level is_term }
  b5.moveToNextItemSlot level

/-- The `while` loop of `skipCommonPrefix`; `fuel` bounds the number of iterations. -/
def skipCommonPrefixLoop (key : List Nat) ( skip_prefix : Nat) :
    Nat → FSTBuilder → Nat → Option (FSTBuilder × Nat)
  | 0, _, _ => none
  | fuel + 1, b, level =>
    if level + skip_prefix < key.length then do
      let c ← key[level + skip_prefix]?
      if (← b.isCharCommonPrefix c level) then do
        let n ← b.getNumItems level
        check (decide (0 < n))
        let b1 ← b.setChildBit level (n - 1)
        skipCommonPrefixLoop key skip_prefix fuel b1 (level + 1)
      else some (b, level)
    else some (b, level)

def skipCommonPrefix (b : FSTBuilder) (key : List Nat) ( skip_prefix : Nat) :
    Option (FSTBuilder × Nat) := do
  let (b1, level) ← skipCommonPrefixLoop key skip_prefix (key.length + 1) b 0
  check (decide (level + skip_prefix < key.length))
  some (b1, level)

/-- The `while` loop of `insertKeyBytesToTrieUntilUnique`. -/
def insertLoop (key next_key : List Nat) ( skip_prefix : Nat) :
    Nat → FSTBuilder → Nat → Option (FSTBuilder × Nat)
  | 0, _, _ => none
  | fuel + 1, b, level =>
    if level + skip_prefix < key.length && level + skip_prefix < next_key.length then do
      check (decide (0 < level + skip_prefix))
      let x ← key[level + skip_prefix - 1]?
      let y ← next_key[level + skip_prefix - 1]?
      if x == y then do
        let c ← key[level + skip_prefix]?
        let b1 ← b.insertKeyByte c level true false
        insertLoop key next_key skip_prefix fuel b1 (level + 1)
      else some (b, level)
    else some (b, level)

/-- The statement `values_[level].emplace_back(value)`. -/
def pushValue (b : FSTBuilder) (level value : Nat) : Option FSTBuilder := do
  let v ← b.values_[level]?
  some { b with values_ := b.values_.set level (v ++ [value]) }

def insertKeyBytesToTrieUntilUnique (b : FSTBuilder) (key : List Nat) (value : Nat)
    (next_key : List Nat) (start_level : Nat) ( skip_prefix : Nat) :
    Option (FSTBuilder × Nat) := do
  check (decide (start_level + skip_prefix < key.length))
  let level := start_level
  let is_start_of_node ← b.isLevelEmpty level
  let c ← key[level + skip_prefix]?
  let b1 ← b.insertKeyByte c level is_start_of_node false
  let level := level + 1
  if level + skip_prefix > next_key.length then do
    let b2 ← b1.pushValue (level - 1) value
    some (b2, level)
  else do
    let same ← isSameKey ((key.drop skip_prefix).take level) ((next_key.drop skip_prefix).take level)
    if !same then do
      let b2 ← b1.pushValue (level - 1) value
      some (b2, level)
    else do
      let (b2, level) ← insertLoop key next_key skip_prefix (key.length + 1) b1 level
      let b3 ← b2.pushValue (level - 1) value
      some (b3, level)

/-- The inner loop `while ((i + 1 < keys.size()) && isSameKey(keys[curpos], keys[i + 1])) i++`. -/
def skipSameKeys (keys : List (List Nat)) (curpos : Nat) : Nat → Nat → Option Nat
  | 0, _ => none
  | fuel + 1, i =>
    if i + 1 < keys.length then do
      let a ← keys[curpos]?
      let n ← keys[i + 1]?
      if (← isSameKey a n) then skipSameKeys keys curpos fuel (i + 1)
      else some i
    else some i

/-- The `for` loop of `buildSparse(keys, values)`, from index `i` on. -/
def buildSparseLoop (keys : List (List Nat)) (values : List Nat) :
    Nat → FSTBuilder → Nat → Option FSTBuilder
  | 0, _, _ => none
  | fuel + 1, b, i =>
    if i < keys.length then do
      let k ← keys[i]?
      let (b1, level) ← b.skipCommonPrefix k 0
      let curpos := i
      let i ← skipSameKeys keys curpos (keys.length + 1) i
      let key ← keys[curpos]?
      let value ← values[curpos]?
      let (b2, _) ←
        (if i < keys.length - 1 then (do
          let next_key ← keys[i + 1]?
          b1.insertKeyBytesToTrieUntilUnique key value next_key level 0)
        else
          b1.insertKeyBytesToTrieUntilUnique key value [] level 0)
      buildSparseLoop keys values fuel b2 (i + 1)
    else some b

def buildSparse (b : FSTBuilder) (keys : List (List Nat)) (values : List Nat) :
    Option FSTBuilder :=
  buildSparseLoop keys values (keys.length + 1) b 0

end FSTBuilder

/-- A `for (x = start; x < start + n; x++) body` loop over a state. -/
def forRange {σ : Type} (body : Nat → σ → Option σ) : Nat → Nat → σ → Option σ
  | 0, _, s => some s
  | n + 1, x, s => do
    let s1 ← body x s
    forRange body n (x + 1) s1

namespace FSTBuilder

/-- The overload `isSameKey(const std::string &a, const std::string &b, label_t skip_prefix)`:
the bytes from `skip_prefix` on are compared. -/
def isSameKeySkip (a b : List Nat) ( skip_prefix : Nat) : Option Bool := do
  check (a.length == b.length && decide (a.length > skip_prefix))
  some (a.drop skip_prefix == b.drop skip_prefix)

/-- The inner loop of `buildSparse(key_values, skip_prefix)`.  The third parameter of
`isSameKey` is a `label_t`: the `level_t` argument is narrowed to 8 bits at the call. -/
def skipSameParts (key_values : List KeyPartValue) (curpos : Nat) ( skip_prefix : Nat) :
    Nat → Nat → Option Nat
  | 0, _ => none
  | fuel + 1, i =>
    if i + 1 < key_values.length then do
      let a ← key_values[curpos]?
      let n ← key_values[i + 1]?
      if (← isSameKeySkip a.key_part n.key_part ( skip_prefix % 2 ^ 8)) then
        skipSameParts key_values curpos skip_prefix fuel (i + 1)
      else some i
    else some i

/-- The `for` loop of `buildSparse(key_values, skip_prefix)`, from index `i` on. -/
def buildSparseSpanLoop (key_values : List KeyPartValue) ( skip_prefix : Nat) :
    Nat → FSTBuilder → Nat → Option FSTBuilder
  | 0, _, _ => none
  | fuel + 1, b, i =>
    if i < key_values.length then do
      let k ← key_values[i]?
      let (b1, level) ← b.skipCommonPrefix k.key_part skip_prefix
      let curpos := i
      let i ← skipSameParts key_values curpos skip_prefix (key_values.length + 1) i
      let kv ← key_values[curpos]?
      let (b2, _) ←
        (if i < key_values.length - 1 then (do
          let next ← key_values[i + 1]?
          b1.insertKeyBytesToTrieUntilUnique kv.key_part kv.value next.key_part level
            skip_prefix)
        else
          b1.insertKeyBytesToTrieUntilUnique kv.key_part kv.value [] level skip_prefix)
      buildSparseSpanLoop key_values skip_prefix fuel b2 (i + 1)
    else some b

/-- The overload `buildSparse(std::span<KeyPartValue> key_values, level_t skip_prefix)`. -/
def buildSparseSpan (b : FSTBuilder) (key_values : List KeyPartValue) ( skip_prefix : Nat) :
    Option FSTBuilder :=
  buildSparseSpanLoop key_values skip_prefix (key_values.length + 1) b 0

/-- The memory estimate of the dense tier down to `downto_level`.  The terms
`2 * kFanout * node_counts_[level]` and `node_counts_[level - 1] / 8 + 1` are 32-bit
expressions, the sum is a 64-bit one. -/
def computeDenseMem (b : FSTBuilder) (downto_level : Nat) : Option Nat := do
  check (decide (downto_level ≤ b.getTreeHeight))
  forRange (fun level mem => do
      let nc ← b.node_counts_[level]?
      let mem1 := (mem + (2 * kFanout * nc) % 2 ^ 32) % 2 ^ 64
      if level > 0 then do
        let p ← b.node_counts_[level - 1]?
        some ((mem1 + (p / 8 + 1) % 2 ^ 32) % 2 ^ 64)
      else some mem1) downto_level 0 0

/-- The memory estimate of the sparse tier from `start_level` on; `num_items` is a
32-bit counter. -/
def computeSparseMem (b : FSTBuilder) (start_level : Nat) : Option Nat :=
  forRange (fun level mem => do
      let l ← b.labels_[level]?
      let num_items := l.length
      some ((mem + (num_items + (2 * num_items) % 2 ^ 32 / 8 + 1) % 2 ^ 32) % 2 ^ 64))
    (b.getTreeHeight - start_level) start_level 0

/-- The `while` loop of `determineCutoffLevel`; the product `dense_mem * sparse_dense_ratio_`
is a 64-bit one. -/
def cutoffLoop (b : FSTBuilder) : Nat → Nat → Nat → Nat → Option Nat
  | 0, _, _, _ => none
  | fuel + 1, cutoff_level, dense_mem, sparse_mem =>
    if cutoff_level < b.getTreeHeight &&
        decide ((dense_mem * b.sparse_dense_ratio_) % 2 ^ 64 < sparse_mem) then do
      let d ← b.computeDenseMem (cutoff_level + 1)
      let s ← b.computeSparseMem (cutoff_level + 1)
      cutoffLoop b fuel (cutoff_level + 1) d s
    else some cutoff_level

def determineCutoffLevel (b : FSTBuilder) : Option FSTBuilder := do
  let dense_mem ← b.computeDenseMem 0
  let sparse_mem ← b.computeSparseMem 0
  let cutoff_level ← cutoffLoop b (b.getTreeHeight + 1) 0 dense_mem sparse_mem
  let b1 := { b with sparse_start_level_ := cutoff_level }
  let vd ← forRange (fun level acc => do
      let v ← b1.values_[level]?
      some (acc ++ v)) b1.sparse_start_level_ 0 b1.values_dense_
  let vs ← forRange (fun level acc => do
      let v ← b1.values_[level]?
      some (acc ++ v)) (b1.values_.length - b1.sparse_start_level_) b1.sparse_start_level_
        b1.values_sparse_
  some { b1 with values_dense_ := vd, values_sparse_ := vs, values_ := [] }

def initDenseVectors (b : FSTBuilder) (level : Nat) : Option FSTBuilder := do
  let b1 := { b with
    bitmap_labels_ := b.bitmap_labels_ ++ [[]]
    bitmap_child_indicator_bits_ := b.bitmap_child_indicator_bits_ ++ [[]]
    prefixkey_indicator_bits_ := b.prefixkey_indicator_bits_ ++ [[]] }
  let count ← b1.node_counts_[level]?
  forRange (fun nc b => do
      let bl ← b.bitmap_labels_[level]?
      let bc ← b.bitmap_child_indicator_bits_[level]?
      let b2 := { b with
        bitmap_labels_ := b.bitmap_labels_.set level (bl ++ List.replicate (kFanout / kWordSize) 0)
        bitmap_child_indicator_bits_ :=
          b.bitmap_child_indicator_bits_.set level (bc ++ List.replicate (kFanout / kWordSize) 0) }
      if nc % kWordSize == 0 then do
        let pk ← b2.prefixkey_indicator_bits_[level]?
        some { b2 with prefixkey_indicator_bits_ := b2.prefixkey_indicator_bits_.set level (pk ++ [0]) }
      else some b2) count 0 b1

/-- The statement `setBit(prefixkey_indicator_bits_[level], pos)`. -/
def setPrefixkeyBit (b : FSTBuilder) (level pos : Nat) : Option FSTBuilder := do
  let w ← b.prefixkey_indicator_bits_[level]?
  let w1 ← setBit w pos
  some { b with prefixkey_indicator_bits_ := b.prefixkey_indicator_bits_.set level w1 }

/-- The bit position `node_num * kFanout + label` is a 32-bit expression. -/
def setLabelAndChildIndicatorBitmap (b : FSTBuilder) (level node_num pos : Nat) :
    Option FSTBuilder := do
  let l ← b.labels_[level]?
  let label ← l[pos]?
  let bl ← b.bitmap_labels_[level]?
  let bl1 ← setBit bl ((node_num * kFanout + label) % 2 ^ 32)
  let b1 := { b with bitmap_labels_ := b.bitmap_labels_.set level bl1 }
  let c ← b1.child_indicator_bits_[level]?
  if (← readBit c pos) then do
    let bc ← b1.bitmap_child_indicator_bits_[level]?
    let bc1 ← setBit bc ((node_num * kFanout + label) % 2 ^ 32)
    some { b1 with
      bitmap_child_indicator_bits_ := b1.bitmap_child_indicator_bits_.set level bc1 }
  else some b1

def isStartOfNode (b : FSTBuilder) (level pos : Nat) : Option Bool := do
  let w ← b.louds_bits_[level]?
  readBit w pos

def isTerminator (b : FSTBuilder) (level pos : Nat) : Option Bool := do
  let l ← b.labels_[level]?
  let label ← l[pos]?
  if label == kTerminator then do
    let c ← b.child_indicator_bits_[level]?
    let bit ← readBit c pos
    some (!bit)
  else some false

/-- The body of the loop `for (pos = 1; pos < getNumItems(level); pos++)` of `buildDense`;
the state is the builder and `node_num`. -/
def buildDenseItem (level pos : Nat) (st : FSTBuilder × Nat) : Option (FSTBuilder × Nat) := do
  if (← st.1.isStartOfNode level pos) then do
    let node_num := st.2 + 1
    if (← st.1.isTerminator level pos) then do
      let b1 ← st.1.setPrefixkeyBit level node_num
      some (b1, node_num)
    else do
      let b1 ← st.1.setLabelAndChildIndicatorBitmap level node_num pos
      some (b1, node_num)
  else do
    let b1 ← st.1.setLabelAndChildIndicatorBitmap level st.2 pos
    some (b1, st.2)

/-- The body of the loop over the levels of `buildDense`. -/
def buildDenseLevel (level : Nat) (b : FSTBuilder) : Option FSTBuilder := do
  let b1 ← b.initDenseVectors level
  let n ← b1.getNumItems level
  if n == 0 then some b1
  else do
    let b2 ← (if (← b1.isTerminator level 0) then b1.setPrefixkeyBit level 0
      else b1.setLabelAndChildIndicatorBitmap level 0 0)
    let st ← forRange (buildDenseItem level) (n - 1) 1 (b2, 0)
    some st.1

def buildDense (b : FSTBuilder) : Option FSTBuilder :=
  forRange buildDenseLevel b.sparse_start_level_ 0 b

/-- The overload `build(keys, values)`. -/
def build (b : FSTBuilder) (keys : List (List Nat)) (values : List Nat) :
    Option FSTBuilder := do
  check (decide (keys.length > 0))
  let b1 ← b.buildSparse keys values
  if b1.include_dense_ then do
    let b2 ← b1.determineCutoffLevel
    b2.buildDense
  else some b1

/-- The overload `build(key_values, skip_prefix)`. -/
def buildSpan (b : FSTBuilder) (key_values : List KeyPartValue) ( skip_prefix : Nat) :
    Option FSTBuilder := do
  check (decide (key_values.length > 0))
  let b1 ← b.buildSparseSpan key_values skip_prefix
  if b1.include_dense_ then do
    let b2 ← b1.determineCutoffLevel
    b2.buildDense
  else some b1

end FSTBuilder

/-- The decrement `x - 1` of an unsigned 32-bit counter (wraps at 0). -/
def decr32 (x : Nat) : Nat := if x = 0 then 2 ^ 32 - 1 else x - 1

/-- The scan behind `clzll`: the first bit position from `i` on (MSB first) that is set. -/
def clzFrom (w : Nat) : Nat → Nat → Nat
  | 0, i => i
  | fuel + 1, i => if w.testBit (63 - i) then i else clzFrom w fuel (i + 1)

/-- The builtin `__builtin_clzll` on a non-zero 64-bit word: the number of leading zero
bits. -/
def clzll (w : Nat) : Nat := clzFrom w 64 0

/-- The scan behind `ctzll`: the first bit position from `i` on (LSB first) that is set. -/
def ctzFrom (w : Nat) : Nat → Nat → Nat
  | 0, i => i
  | fuel + 1, i => if w.testBit i then i else ctzFrom w fuel (i + 1)

/-- The builtin `__builtin_ctzll` on a non-zero 64-bit word: the number of trailing zero
bits. -/
def ctzll (w : Nat) : Nat := ctzFrom w 64 0

/-! ## bitvector.hpp -/

structure Bitvector where
  num_bits_ : Nat
  bits_ : List Nat
deriving Repr, DecidableEq

namespace Bitvector

def numBits (bv : Bitvector) : Nat := bv.num_bits_

def numWords (bv : Bitvector) : Nat :=
  if bv.num_bits_ % kWordSize == 0 then bv.num_bits_ / kWordSize
  else bv.num_bits_ / kWordSize + 1

def readBit (bv : Bitvector) (pos : Nat) : Option Bool := do
  check (decide (pos < bv.num_bits_))
  let w ← bv.bits_[pos / kWordSize]?
  some ((w &&& (kMsbMask >>> (pos % kWordSize))) != 0)

/-- The scan `while (word_id < numWords() - 1)` of `distanceToNextSetBit`. -/
def distanceLoop (bv : Bitvector) : Nat → Nat → Nat → Option Nat
  | 0, _, _ => none
  | fuel + 1, word_id, distance =>
    if word_id < decr32 bv.numWords then do
      let word_id := word_id + 1
      let test_bits ← bv.bits_[word_id]?
      if test_bits > 0 then some (distance + clzll test_bits)
      else distanceLoop bv fuel word_id (distance + kWordSize)
    else some distance

def distanceToNextSetBit (bv : Bitvector) (pos : Nat) : Option Nat := do
  check (decide (pos < bv.num_bits_))
  let distance := 1
  let word_id := (pos + 1) / kWordSize
  let offset := (pos + 1) % kWordSize
  let w ← bv.bits_[word_id]?
  let test_bits := shl64 w offset
  if test_bits > 0 then some (distance + clzll test_bits)
  else if word_id == decr32 bv.numWords then some (bv.num_bits_ - pos)
  else distanceLoop bv (bv.numWords + 1) word_id (distance + (kWordSize - offset))

/-- The scan `while (word_id > 0)` of `distanceToPrevSetBit`. -/
def distancePrevLoop (bv : Bitvector) : Nat → Nat → Nat → Option Nat
  | 0, _, _ => none
  | fuel + 1, word_id, distance =>
    if word_id > 0 then do
      let word_id := word_id - 1
      let test_bits ← bv.bits_[word_id]?
      if test_bits > 0 then some (distance + ctzll test_bits)
      else distancePrevLoop bv fuel word_id (distance + kWordSize)
    else some distance

def distanceToPrevSetBit (bv : Bitvector) (pos : Nat) : Option Nat := do
  check (decide (pos ≤ bv.num_bits_))
  if pos == 0 then some 0
  else do
    let distance := 1
    let word_id := (pos - 1) / kWordSize
    let offset := (pos - 1) % kWordSize
    let w ← bv.bits_[word_id]?
    let test_bits := w >>> (kWordSize - 1 - offset)
    if test_bits > 0 then some (distance + ctzll test_bits)
    else distancePrevLoop bv (word_id + 1) word_id (distance + (offset + 1))

def totalNumBits (num_bits_per_level : List Nat) (start_level end_level : Nat) : Option Nat :=
  forRange (fun level num_bits => do
      let n ← num_bits_per_level[level]?
      some (num_bits + n))
    (end_level - start_level) start_level 0

/-- The statement `bits_[word_id] |= w`. -/
def orAt (bits : List Nat) (word_id w : Nat) : Option (List Nat) := do
  let old ← bits[word_id]?
  some (bits.set word_id (old ||| w))

/-- The state of `concatenateBitvectors`: `bits_`, `bit_shift`, `word_id`. -/
structure ConcatState where
  bits : List Nat
  bit_shift : Nat
  word_id : Nat
deriving Repr, DecidableEq

/-- The body of the loop over the complete words of one level. -/
def concatWord (src : List Nat) (word : Nat) (s : ConcatState) : Option ConcatState := do
  let w ← src[word]?
  let bits1 ← orAt s.bits s.word_id (w >>> s.bit_shift)
  let word_id := s.word_id + 1
  let bits2 ← if s.bit_shift > 0 then orAt bits1 word_id (shl64 w (kWordSize - s.bit_shift))
    else some bits1
  some { bits := bits2, bit_shift := s.bit_shift, word_id := word_id }

/-- The body of the loop over the levels in `concatenateBitvectors`. -/
def concatLevel (bitvector_per_level : List (List Nat)) (num_bits_per_level : List Nat)
    (level : Nat) (s : ConcatState) : Option ConcatState := do
  let n ← num_bits_per_level[level]?
  if n == 0 then some s
  else do
    let src ← bitvector_per_level[level]?
    let num_complete_words := n / kWordSize
    let s1 ← forRange (concatWord src) num_complete_words 0 s
    let bits_remain := n - num_complete_words * kWordSize
    if bits_remain > 0 then do
      let last_word ← src[num_complete_words]?
      let bits1 ← orAt s1.bits s1.word_id (last_word >>> s1.bit_shift)
      if s1.bit_shift + bits_remain < kWordSize then
        some { bits := bits1, bit_shift := s1.bit_shift + bits_remain, word_id := s1.word_id }
      else if s1.bit_shift + bits_remain == kWordSize then
        some { bits := bits1, bit_shift := 0, word_id := s1.word_id + 1 }
      else do
        let bits2 ← orAt bits1 (s1.word_id + 1) (shl64 last_word (kWordSize - s1.bit_shift))
        some { bits := bits2, bit_shift := s1.bit_shift + bits_remain - kWordSize,
               word_id := s1.word_id + 1 }
    else some s1

def concatenateBitvectors (bits : List Nat) (bitvector_per_level : List (List Nat))
    (num_bits_per_level : List Nat) (start_level end_level : Nat) : Option (List Nat) := do
  let s ← forRange (concatLevel bitvector_per_level num_bits_per_level)
    (end_level - start_level) start_level { bits := bits, bit_shift := 0, word_id := 0 }
  some s.bits

/-- The constructor `Bitvector(bitvector_per_level, num_bits_per_level, start_level, end_level)`. -/
def new (bitvector_per_level : List (List Nat)) (num_bits_per_level : List Nat)
    (start_level end_level : Nat) : Option Bitvector := do
  let end_level := if end_level == 0 then bitvector_per_level.length else end_level
  let num_bits ← totalNumBits num_bits_per_level start_level end_level
  let bv0 : Bitvector := { num_bits_ := num_bits, bits_ := [] }
  let bits ← concatenateBitvectors (List.replicate bv0.numWords 0) bitvector_per_level
    num_bits_per_level start_level end_level
  some { num_bits_ := num_bits, bits_ := bits }

/-- Modelled from the spec: `rank.hpp` (class `BitvectorRank`) is not among the sources.
`rank(pos)` is the number of set bits at positions `0 .. pos`, the bit at `pos` included
(sec. 4.2: the cumulative block count plus the popcount of the partial block up to `pos`;
sec. 4.7 step 5 and sec. 4.3 use it so: the child of the first internal edge is node 1,
the root being node 0). -/
def rank (bv : Bitvector) (pos : Nat) : Nat :=
  ((List.range (pos + 1)).filter (fun q => bv.readBit q == some true)).length

/-- Modelled from the spec: `select.hpp` (class `BitvectorSelect`) is not among the sources.
`select(k)` is the position of the `k`-th set bit, counted from 1 (sec. 4.3, glossary);
there is no answer when the vector has fewer than `k` set bits. -/
def select (bv : Bitvector) (k : Nat) : Option Nat :=
  if k = 0 then none
  else ((List.range bv.num_bits_).filter (fun q => bv.readBit q == some true))[k - 1]?

/-- Modelled from the spec: `numOnes()` of `BitvectorSelect` (`select.hpp` is not among the
sources): the number of set bits of the vector. -/
def numOnes (bv : Bitvector) : Nat :=
  ((List.range bv.num_bits_).filter (fun q => bv.readBit q == some true)).length

end Bitvector

/-! ## label_vector.hpp -/

/-- A read of `simdSearch` relative to the start of the label array `labels_`: a 16-byte
load (`_mm_loadu_si128`) from `labels_ + start`, or the read of the single label
`labels_[index]`. -/
inductive Access where
  | block (start : Nat)
  | byte (index : Nat)
deriving Repr, DecidableEq

/-- A run of `simdSearch`: its reads in order, and the returned flag with the value of the
reference parameter `pos`; `none` when an assertion failed. -/
structure SimdRun where
  accesses : List Access
  result : Option (Bool × Nat)
deriving Repr, DecidableEq

/-- The label array: `labels_` holds the `num_bytes_ - 1` bytes the constructor writes;
the last byte of the C++ array is never initialised and reading it is an error. -/
structure LabelVector where
  num_bytes_ : Nat
  labels_ : List Nat
deriving Repr, DecidableEq

namespace LabelVector

/-- The constructor `LabelVector(labels_per_level, start_level, end_level)`. -/
def new (labels_per_level : List (List Nat)) (start_level end_level : Nat) :
    Option LabelVector := do
  let end_level := if end_level == 0 then labels_per_level.length else end_level
  let bytes ← forRange (fun level (acc : List Nat) => do
      let l ← labels_per_level[level]?
      some (acc ++ l))
    (end_level - start_level) start_level []
  some { num_bytes_ := 1 + bytes.length, labels_ := bytes }

def read (lv : LabelVector) (pos : Nat) : Option Nat := lv.labels_[pos]?

def linearSearch (lv : LabelVector) (target pos search_len : Nat) : Option (Bool × Nat) :=
  let rec go : Nat → Nat → Option (Bool × Nat)
    | 0, _ => some (false, pos)
    | n + 1, i => do
      let l ← lv.read (pos + i)
      if target == l then some (true, pos + i) else go n (i + 1)
  go search_len 0

def binarySearch (lv : LabelVector) (target pos search_len : Nat) : Option (Bool × Nat) :=
  let rec go : Nat → Nat → Nat → Option (Bool × Nat)
    | 0, _, _ => none
    | fuel + 1, l, r =>
      if l < r then do
        let m := (l + r) >>> 1
        let x ← lv.read m
        if target < x then go fuel l m
        else if target == x then some (true, m)
        else go fuel (m + 1) r
      else some (false, pos)
  go (search_len + 1) pos (pos + search_len)

/-- The 16-byte compare of `simdSearch` (`_mm_cmpeq_epi8`, `_mm_movemask_epi8`,
`__builtin_ctz`): the lowest of the `n` lanes from lane `i` on that holds `target`.  A lane
that was never written is indeterminate: it is an error unless a lower lane matches. -/
def simdLanes (lv : LabelVector) (target start : Nat) : Nat → Nat → Option (Option Nat)
  | 0, _ => some none
  | n + 1, i => do
    let l ← lv.read (start + i)
    if l == target then some (some i) else simdLanes lv target start n (i + 1)

def simdSearch (lv : LabelVector) (target pos search_len : Nat) : Option (Bool × Nat) :=
  let rec tail : Nat → Nat → Option (Bool × Nat)
    | 0, _ => some (false, pos)
    | num_labels_left + 1, num_labels_searched => do
      check (decide (pos + num_labels_searched < lv.num_bytes_))
      let l ← lv.read (pos + num_labels_searched)
      if l == target then some (true, pos + num_labels_searched)
      else tail num_labels_left (num_labels_searched + 1)
  let rec blocks : Nat → Nat → Nat → Option (Bool × Nat)
    | 0, _, _ => none
    | fuel + 1, num_labels_searched, num_labels_left =>
      if (num_labels_left >>> 4) > 0 && pos + num_labels_searched + 15 < lv.num_bytes_ then do
        check (decide (lv.num_bytes_ - (pos + num_labels_searched) ≥ 16))
        match (← simdLanes lv target (pos + num_labels_searched) 16 0) with
        | some i => some (true, pos + (num_labels_searched + i))
        | none => blocks fuel (num_labels_searched + 16) (num_labels_left - 16)
      else tail num_labels_left num_labels_searched
  blocks (search_len + 1) 0 search_len

/-- The compare of one 16-byte block (`_mm_cmpeq_epi8`, `_mm_movemask_epi8`,
`__builtin_ctz`) on the memory `mem`: the lowest of the `n` lanes from lane `i` on that
holds `target`. -/
def simdFirstLane (mem : Nat → Nat) (target start : Nat) : Nat → Nat → Option Nat
  | 0, _ => none
  | n + 1, i => if mem (start + i) == target then some i
    else simdFirstLane mem target start n (i + 1)

/-- The second loop of `simdSearch`, label by label.  The index `pos + num_labels_searched`
is a 32-bit expression; the assertion precedes the read. -/
def simdRunTail (mem : Nat → Nat) (num_bytes target pos : Nat) :
    Nat → Nat → List Access → SimdRun
  | 0, _, acc => { accesses := acc, result := some (false, pos) }
  | num_labels_left + 1, num_labels_searched, acc =>
    let index := (pos + num_labels_searched) % 2 ^ 32
    if index < num_bytes then
      if mem index == target then
        { accesses := acc ++ [Access.byte index], result := some (true, index) }
      else simdRunTail mem num_bytes target pos num_labels_left (num_labels_searched + 1)
        (acc ++ [Access.byte index])
    else { accesses := acc, result := none }

/-- The first loop of `simdSearch`, block by block.  The guard
`pos + num_labels_searched + 15 < num_bytes_` is a 32-bit expression; the start of the load
`labels_ + pos + num_labels_searched` is pointer arithmetic, and the assertion compares
`num_bytes_ - start_ptr + labels_` in 64-bit arithmetic. -/
def simdRunBlocks (mem : Nat → Nat) (num_bytes target pos : Nat) :
    Nat → Nat → Nat → List Access → SimdRun
  | 0, _, _, acc => { accesses := acc, result := none }
  | fuel + 1, num_labels_searched, num_labels_left, acc =>
    if (num_labels_left >>> 4) > 0 ∧ (pos + num_labels_searched + 15) % 2 ^ 32 < num_bytes then
      let start := pos + num_labels_searched
      if (num_bytes + 2 ^ 64 - start) % 2 ^ 64 ≥ 16 then
        match simdFirstLane mem target start 16 0 with
        | some i =>
          { accesses := acc ++ [Access.block start],
            result := some (true, (pos + (num_labels_searched + i)) % 2 ^ 32) }
        | none => simdRunBlocks mem num_bytes target pos fuel (num_labels_searched + 16)
            (num_labels_left - 16) (acc ++ [Access.block start])
      else { accesses := acc, result := none }
    else simdRunTail mem num_bytes target pos num_labels_left num_labels_searched acc

/-- The function `simdSearch(target, pos, search_len)` on a label array of `num_bytes`
bytes, with the reads it makes; `mem i` is the byte at the address `labels_ + i`, inside the
array or not. -/
def simdSearchRun (mem : Nat → Nat) (num_bytes target pos search_len : Nat) : SimdRun :=
  simdRunBlocks mem num_bytes target pos (search_len + 1) 0 search_len []

/-- The first statement of `search` and of `searchGreaterThan`: a leading terminator label
is skipped (`pos++`, `search_len--`) when the range has more than one label. -/
def skipTerminator (lv : LabelVector) (pos search_len : Nat) : Option (Nat × Nat) :=
  if search_len > 1 then do
    let l ← lv.read pos
    if l == kTerminator then some (pos + 1, search_len - 1) else some (pos, search_len)
  else some (pos, search_len)

def search (lv : LabelVector) (target pos search_len : Nat) : Option (Bool × Nat) := do
  let (pos, search_len) ← lv.skipTerminator pos search_len
  if search_len < 3 then lv.linearSearch target pos search_len
  else if search_len < 12 then lv.binarySearch target pos search_len
  else lv.simdSearch target pos search_len

def linearSearchGreaterThan (lv : LabelVector) (target pos search_len : Nat) :
    Option (Bool × Nat) :=
  let rec go : Nat → Nat → Option (Bool × Nat)
    | 0, _ => some (false, pos)
    | n + 1, i => do
      let l ← lv.read (pos + i)
      if l > target then some (true, pos + i) else go n (i + 1)
  go search_len 0

def binarySearchGreaterThan (lv : LabelVector) (target pos search_len : Nat) :
    Option (Bool × Nat) :=
  let rec go : Nat → Nat → Nat → Option (Bool × Nat)
    | 0, _, _ => none
    | fuel + 1, l, r =>
      if l < r then do
        let m := (l + r) >>> 1
        let x ← lv.read m
        if target < x then go fuel l m
        else if target == x then
          (if m < pos + search_len - 1 then some (true, m + 1) else some (false, pos))
        else go fuel (m + 1) r
      else if l < pos + search_len then some (true, l)
      else some (false, pos)
  go (search_len + 1) pos (pos + search_len)

def searchGreaterThan (lv : LabelVector) (target pos search_len : Nat) :
    Option (Bool × Nat) := do
  let (pos, search_len) ← lv.skipTerminator pos search_len
  if search_len < 3 then lv.linearSearchGreaterThan target pos search_len
  else lv.binarySearchGreaterThan target pos search_len

end LabelVector

/-! ## louds_sparse.hpp -/

/-- Modelled from the spec: `FSTBuilder::getSparseOffsets`, which the `LoudsSparse`
constructor calls, is not defined in `fst_builder.hpp`.  Sec. 3: the sparse values are
the per-level `values[l]` for the levels `l >= sparse_start_level`, flattened in level
order. -/
def FSTBuilder.getSparseOffsets (b : FSTBuilder) : List Nat :=
  (b.values_.drop b.sparse_start_level_).flatten

structure LoudsSparse where
  positions_sparse_ : List Nat
  height_ : Nat
  start_level_ : Nat
  node_count_dense_ : Nat
  child_count_dense_ : Nat
  labels_ : LabelVector
  child_indicator_bits_ : Bitvector
  louds_bits_ : Bitvector
  keys_ : List (List Nat)
deriving Repr, DecidableEq

/-- The iterator `LoudsSparse::Iter`; the trie it points to is passed to every method. -/
structure Iter where
  is_valid_ : Bool
  start_level_ : Nat
  start_node_num_ : Nat
  key_len_ : Nat
  key_ : List Nat
  pos_in_trie_ : List Nat
  value_pos_ : List Nat
  value_pos_initialized_ : List Bool
  is_at_terminator_ : Bool
deriving Repr, DecidableEq

namespace LoudsSparse

def kRankBasicBlockSize : Nat := 512

def kSelectSampleInterval : Nat := 64

/-- The constructor `LoudsSparse(builder, keys)`. -/
def new (builder : FSTBuilder) (keys : List (List Nat)) : Option LoudsSparse := do
  let height := builder.labels_.length
  let start_level := builder.sparse_start_level_
  let node_count_dense ← forRange (fun level acc => do
      let n ← builder.node_counts_[level]?
      some (acc + n)) start_level 0 0
  let child_count_dense ←
    (if start_level == 0 then some 0
    else (do
      let n ← builder.node_counts_[start_level]?
      check (decide (0 < node_count_dense + n))
      some (node_count_dense + n - 1)))
  let labels ← LabelVector.new builder.labels_ start_level height
  let num_items_per_level := builder.labels_.map List.length
  let child ← Bitvector.new builder.child_indicator_bits_ num_items_per_level start_level height
  let louds ← Bitvector.new builder.louds_bits_ num_items_per_level start_level height
  some { positions_sparse_ := builder.getSparseOffsets, height_ := height,
         start_level_ := start_level, node_count_dense_ := node_count_dense,
         child_count_dense_ := child_count_dense, labels_ := labels,
         child_indicator_bits_ := child, louds_bits_ := louds, keys_ := keys }

def getHeight (t : LoudsSparse) : Nat := t.height_

def getStartLevel (t : LoudsSparse) : Nat := t.start_level_

def getChildNodeNum (t : LoudsSparse) (pos : Nat) : Nat :=
  t.child_indicator_bits_.rank pos + t.child_count_dense_

def getFirstLabelPos (t : LoudsSparse) (node_num : Nat) : Option Nat := do
  check (decide (t.node_count_dense_ ≤ node_num + 1))
  t.louds_bits_.select (node_num + 1 - t.node_count_dense_)

def getLastLabelPos (t : LoudsSparse) (node_num : Nat) : Option Nat := do
  check (decide (t.node_count_dense_ ≤ node_num + 2))
  let next_rank := node_num + 2 - t.node_count_dense_
  if next_rank > t.louds_bits_.numOnes then some (decr32 t.louds_bits_.numBits)
  else do
    let p ← t.louds_bits_.select next_rank
    check (decide (0 < p))
    some (p - 1)

def nodeSize (t : LoudsSparse) (pos : Nat) : Option Nat := do
  let b ← t.louds_bits_.readBit pos
  check b
  t.louds_bits_.distanceToNextSetBit pos

def isEndofNode (t : LoudsSparse) (pos : Nat) : Option Bool :=
  if pos == decr32 t.louds_bits_.numBits then some true
  else t.louds_bits_.readBit (pos + 1)

/-- The `for` loop of `lookupKey` over the key bytes from index `level` on; the result is
the returned flag and the value of the reference parameter `offset`. -/
def lookupKeyLoop (t : LoudsSparse) (offset : Nat) : List Nat → Nat → Option (Bool × Nat)
  | [], _ => some (false, offset)
  | c :: rest, pos => do
    let sz ← t.nodeSize pos
    let (found, pos) ← t.labels_.search c pos sz
    if !found then some (false, offset)
    else if !(← t.child_indicator_bits_.readBit pos) then do
      let r := t.child_indicator_bits_.rank pos
      check (decide (r ≤ pos))
      let value_pos := pos - r
      let v ← t.positions_sparse_[value_pos]?
      some (true, v)
    else do
      let node_num := t.getChildNodeNum pos
      let pos ← t.getFirstLabelPos node_num
      lookupKeyLoop t offset rest pos

def lookupKey (t : LoudsSparse) (key : List Nat) (in_node_num offset : Nat) :
    Option (Bool × Nat) := do
  let pos ← t.getFirstLabelPos in_node_num
  lookupKeyLoop t offset (key.drop t.start_level_) pos

/-- The `for` loop of `lookupKeyAtNode`, which is also the loop of `lookupKey` (started at
`start_level_` with `key_length = key.length()`); the result is the returned flag, the value
of the reference parameter `offset` and the value of the loop variable `level` at the
return. -/
def lookupKeyAtLoop (t : LoudsSparse) (key : List Nat) (key_length offset : Nat) :
    Nat → Nat → Nat → Option (Bool × Nat × Nat)
  | 0, _, _ => none
  | fuel + 1, level, pos =>
    if level < key_length then do
      let c ← key[level]?
      let sz ← t.nodeSize pos
      let (found, pos) ← t.labels_.search c pos sz
      if !found then some (false, offset, level)
      else if !(← t.child_indicator_bits_.readBit pos) then do
        let r := t.child_indicator_bits_.rank pos
        check (decide (r ≤ pos))
        let value_pos := pos - r
        let v ← t.positions_sparse_[value_pos]?
        some (true, v, level)
      else do
        let node_num := t.getChildNodeNum pos
        let pos ← t.getFirstLabelPos node_num
        lookupKeyAtLoop t key key_length offset fuel (level + 1) pos
    else some (false, offset, level)

/-- The function `lookupKeyAtNode(key, key_length, in_node_num, offset, level)`. -/
def lookupKeyAtNode (t : LoudsSparse) (key : List Nat) (key_length in_node_num offset level : Nat) :
    Option (Bool × Nat) := do
  let pos ← t.getFirstLabelPos in_node_num
  let (found, offset, _) ←
    t.lookupKeyAtLoop key key_length offset (key_length - level + 1) level pos
  some (found, offset)

/-- The function `lookupKey(key, in_node_num, offset)` with the value of its loop variable
`level` at the return added to the result. -/
def lookupKeyLevel (t : LoudsSparse) (key : List Nat) (in_node_num offset : Nat) :
    Option (Bool × Nat × Nat) := do
  let pos ← t.getFirstLabelPos in_node_num
  t.lookupKeyAtLoop key key.length offset (key.length - t.start_level_ + 1) t.start_level_ pos

/-- The function `findNextNodeOrValue(keyByte, node_num)`: the returned flag and the value
of the reference parameter `node_num` (a `size_t`).  `getChildNodeNum(pos) << 2u` is a
32-bit expression, `offset << 2u` a 64-bit one. -/
def findNextNodeOrValue (t : LoudsSparse) (keyByte node_num : Nat) : Option (Bool × Nat) := do
  let pos ← t.getFirstLabelPos (node_num % 2 ^ 32)
  let sz ← t.nodeSize pos
  let (found, pos) ← t.labels_.search keyByte pos sz
  if !found then some (false, node_num)
  else if !(← t.child_indicator_bits_.readBit pos) then do
    let r := t.child_indicator_bits_.rank pos
    check (decide (r ≤ pos))
    let value_pos := pos - r
    let offset ← t.positions_sparse_[value_pos]?
    some (true, (offset <<< 2) % 2 ^ 64 ||| 1)
  else some (true, (t.getChildNodeNum pos <<< 2) % 2 ^ 32 ||| 3)

/-- The function `getNode(nodeNumber, labels, values)`: the two vectors after the call. -/
def getNode (t : LoudsSparse) (nodeNumber : Nat) (labels values : List Nat) :
    Option (List Nat × List Nat) := do
  let pos ← t.getFirstLabelPos (nodeNumber % 2 ^ 32)
  let size ← t.nodeSize pos
  forRange (fun i (st : List Nat × List Nat) => do
      let l ← t.labels_.read i
      if (← t.child_indicator_bits_.readBit i) then
        some (st.1 ++ [l], st.2 ++ [(t.getChildNodeNum i <<< 2) % 2 ^ 32 ||| 3])
      else do
        let r := t.child_indicator_bits_.rank i
        check (decide (r ≤ i))
        let offset ← t.positions_sparse_[i - r]?
        some (st.1 ++ [l], st.2 ++ [(offset <<< 2) % 2 ^ 64 ||| 1])) size pos (labels, values)

end LoudsSparse

namespace Iter

/-- The constructor `Iter(trie)`. -/
def new (t : LoudsSparse) : Iter :=
  { is_valid_ := false, start_level_ := t.getStartLevel, start_node_num_ := 0, key_len_ := 0,
    key_ := List.replicate (t.getHeight - t.getStartLevel) 0,
    pos_in_trie_ := List.replicate (t.getHeight - t.getStartLevel) 0,
    value_pos_ := List.replicate (t.getHeight - t.getStartLevel) 0,
    value_pos_initialized_ := List.replicate (t.getHeight - t.getStartLevel) false,
    is_at_terminator_ := false }

def isValid (it : Iter) : Bool := it.is_valid_

def getKey (it : Iter) : List Nat :=
  if !it.is_valid_ then []
  else
    let len := if it.is_at_terminator_ then decr32 it.key_len_ else it.key_len_
    it.key_.take len

/-- The overload `append(label, pos)`. -/
def append (it : Iter) (label pos : Nat) : Option Iter := do
  check (decide (it.key_len_ < it.key_.length))
  check (decide (it.key_len_ < it.pos_in_trie_.length))
  some { it with key_ := it.key_.set it.key_len_ label
                 pos_in_trie_ := it.pos_in_trie_.set it.key_len_ pos
                 key_len_ := it.key_len_ + 1 }

/-- The overload `append(pos)`, which reads the label at `pos`. -/
def appendPos (it : Iter) (t : LoudsSparse) (pos : Nat) : Option Iter := do
  check (decide (it.key_len_ < it.key_.length))
  let label ← t.labels_.read pos
  check (decide (it.key_len_ < it.pos_in_trie_.length))
  some { it with key_ := it.key_.set it.key_len_ label
                 pos_in_trie_ := it.pos_in_trie_.set it.key_len_ pos
                 key_len_ := it.key_len_ + 1 }

def set (it : Iter) (t : LoudsSparse) (level pos : Nat) : Option Iter := do
  check (decide (level < it.key_.length))
  let label ← t.labels_.read pos
  check (decide (level < it.pos_in_trie_.length))
  some { it with key_ := it.key_.set level label
                 pos_in_trie_ := it.pos_in_trie_.set level pos }

def getValue (it : Iter) (t : LoudsSparse) : Option Nat := do
  let vp ← it.value_pos_[decr32 it.key_len_]?
  t.positions_sparse_[vp]?

def rankValuePosition (it : Iter) (t : LoudsSparse) (pos : Nat) : Option Iter := do
  let i := decr32 it.key_len_
  if (← it.value_pos_initialized_[i]?) then do
    let vp ← it.value_pos_[i]?
    some { it with value_pos_ := it.value_pos_.set i (vp + 1) }
  else do
    check (decide (i < it.value_pos_.length))
    let r := t.child_indicator_bits_.rank pos
    check (decide (r ≤ pos))
    some { it with value_pos_initialized_ := it.value_pos_initialized_.set i true
                   value_pos_ := it.value_pos_.set i (pos - r) }

/-- The `while (level < trie_->getHeight())` loop of `moveToLeftMostKey`; running out of
the loop is the `assert(false)` of the source. -/
def moveToLeftMostKeyLoop (t : LoudsSparse) : Nat → Iter → Nat → Nat → Option Iter
  | 0, _, _, _ => none
  | fuel + 1, it, level, pos =>
    if level < t.getHeight then do
      let node_num := t.getChildNodeNum pos
      let pos ← t.getFirstLabelPos node_num
      let label ← t.labels_.read pos
      if !(← t.child_indicator_bits_.readBit pos) then do
        let it1 ← it.append label pos
        let term ← (if label == kTerminator then (do
            let e ← t.isEndofNode pos
            some (if !e then true else it1.is_at_terminator_))
          else some it1.is_at_terminator_)
        let it2 ← ({ it1 with is_at_terminator_ := term } : Iter).rankValuePosition t pos
        some { it2 with is_valid_ := true }
      else do
        let it1 ← it.append label pos
        moveToLeftMostKeyLoop t fuel it1 (level + 1) pos
    else none

def moveToLeftMostKey (it : Iter) (t : LoudsSparse) : Option Iter := do
  let it ← (if it.key_len_ == 0 then (do
      let pos ← t.getFirstLabelPos it.start_node_num_
      let label ← t.labels_.read pos
      it.append label pos)
    else some it)
  let level := decr32 it.key_len_
  let pos ← it.pos_in_trie_[level]?
  let label ← t.labels_.read pos
  if !(← t.child_indicator_bits_.readBit pos) then do
    let term ← (if label == kTerminator then (do
        let e ← t.isEndofNode pos
        some (if !e then true else it.is_at_terminator_))
      else some it.is_at_terminator_)
    ({ it with is_at_terminator_ := term, is_valid_ := true } : Iter).rankValuePosition t pos
  else moveToLeftMostKeyLoop t (t.getHeight + 1) it level pos

/-- The `while (level < trie_->getHeight())` loop of `moveToRightMostKey`. -/
def moveToRightMostKeyLoop (t : LoudsSparse) : Nat → Iter → Nat → Nat → Option Iter
  | 0, _, _, _ => none
  | fuel + 1, it, level, pos =>
    if level < t.getHeight then do
      let node_num := t.getChildNodeNum pos
      let pos ← t.getLastLabelPos node_num
      let label ← t.labels_.read pos
      if !(← t.child_indicator_bits_.readBit pos) then do
        let it1 ← it.append label pos
        let term ← (if label == kTerminator then (do
            let e ← t.isEndofNode pos
            some (if !e then true else it1.is_at_terminator_))
          else some it1.is_at_terminator_)
        some { it1 with is_at_terminator_ := term, is_valid_ := true }
      else do
        let it1 ← it.append label pos
        moveToRightMostKeyLoop t fuel it1 (level + 1) pos
    else none

def moveToRightMostKey (it : Iter) (t : LoudsSparse) : Option Iter := do
  let it ← (if it.key_len_ == 0 then (do
      let _ ← t.getFirstLabelPos it.start_node_num_
      let pos ← t.getLastLabelPos it.start_node_num_
      let label ← t.labels_.read pos
      it.append label pos)
    else some it)
  let level := decr32 it.key_len_
  let pos ← it.pos_in_trie_[level]?
  let label ← t.labels_.read pos
  if !(← t.child_indicator_bits_.readBit pos) then do
    let term ← (if label == kTerminator then (do
        let e ← t.isEndofNode pos
        some (if !e then true else it.is_at_terminator_))
      else some it.is_at_terminator_)
    some { it with is_at_terminator_ := term, is_valid_ := true }
  else moveToRightMostKeyLoop t (t.getHeight + 1) it level pos

/-- The `while` loop of `operator++`: the result is the iterator and the position to go on
from, or the invalidated iterator alone when every depth was popped. -/
def incrLoop (t : LoudsSparse) : Nat → Iter → Nat → Option (Iter × Option Nat)
  | 0, _, _ => none
  | fuel + 1, it, pos => do
    let pop ← (if pos ≥ t.louds_bits_.numBits then some true else t.louds_bits_.readBit pos)
    if pop then
      let it1 := { it with key_len_ := decr32 it.key_len_ }
      if it1.key_len_ == 0 then some ({ it1 with is_valid_ := false }, none)
      else do
        let pos ← it1.pos_in_trie_[decr32 it1.key_len_]?
        incrLoop t fuel it1 (pos + 1)
    else some (it, some pos)

/-- The postfix `operator++`. -/
def incr (it : Iter) (t : LoudsSparse) : Option Iter := do
  check (decide (it.key_len_ > 0))
  let it := { it with is_at_terminator_ := false }
  let pos ← it.pos_in_trie_[decr32 it.key_len_]?
  let (it1, res) ← incrLoop t (it.key_len_ + 1) it (pos + 1)
  match res with
  | none => some it1
  | some pos => do
    let it2 ← it1.set t (decr32 it1.key_len_) pos
    it2.moveToLeftMostKey t

/-- The `while` loop of `operator--`. -/
def decrLoop (t : LoudsSparse) : Nat → Iter → Nat → Option (Iter × Option Nat)
  | 0, _, _ => none
  | fuel + 1, it, pos => do
    if (← t.louds_bits_.readBit pos) then
      let it1 := { it with key_len_ := decr32 it.key_len_ }
      if it1.key_len_ == 0 then some ({ it1 with is_valid_ := false }, none)
      else do
        let pos ← it1.pos_in_trie_[decr32 it1.key_len_]?
        decrLoop t fuel it1 pos
    else some (it, some pos)

/-- The postfix `operator--`. -/
def decr (it : Iter) (t : LoudsSparse) : Option Iter := do
  check (decide (it.key_len_ > 0))
  let it := { it with is_at_terminator_ := false }
  let pos ← it.pos_in_trie_[decr32 it.key_len_]?
  if pos == 0 then some { it with is_valid_ := false }
  else do
    let (it1, res) ← decrLoop t (it.key_len_ + 1) it pos
    match res with
    | none => some it1
    | some pos => do
      let it2 ← it1.set t (decr32 it1.key_len_) (pos - 1)
      it2.moveToRightMostKey t

end Iter

namespace LoudsSparse

def moveToLeftInNextSubtrie (t : LoudsSparse) (pos node_size label : Nat) (it : Iter) :
    Option Iter := do
  let (found, pos) ← t.labels_.searchGreaterThan label pos node_size
  if !found then do
    check (decide (0 < pos + node_size))
    let it1 ← it.appendPos t (pos + node_size - 1)
    it1.incr t
  else do
    let it1 ← it.appendPos t pos
    it1.moveToLeftMostKey t

/-- The `for` loop of `moveToKeyGreaterThan(searched_key, inclusive, iter)` over the key
bytes from index `level` on (`rest`); `none` in the second component means the function
returned from inside the loop. -/
def moveToKeyGreaterThanLoop (t : LoudsSparse) (searched_key : List Nat) (inclusive : Bool) :
    List Nat → Iter → Nat → Option (Iter × Option Nat)
  | [], it, pos => some (it, some pos)
  | c :: rest, it, pos => do
    let node_size ← t.nodeSize pos
    let (found, pos) ← t.labels_.search c pos node_size
    if !found then do
      let it1 ← t.moveToLeftInNextSubtrie pos node_size c it
      some (it1, none)
    else do
      let it1 ← it.append c pos
      if !(← t.child_indicator_bits_.readBit pos) then do
        let it2 ← it1.rankValuePosition t pos
        let found_key ← t.keys_[← it2.getValue t]?
        if strLt searched_key found_key then some ({ it2 with is_valid_ := true }, none)
        else if strLt found_key searched_key then do
          let it3 ← it2.incr t
          some (it3, none)
        else if !inclusive then do
          let it3 ← it2.incr t
          some (it3, none)
        else some ({ it2 with is_valid_ := true }, none)
      else do
        let node_num := t.getChildNodeNum pos
        let pos ← t.getFirstLabelPos node_num
        moveToKeyGreaterThanLoop t searched_key inclusive rest it1 pos

/-- The overload `moveToKeyGreaterThan(searched_key, inclusive, iter)`. -/
def moveToKeyGreaterThan (t : LoudsSparse) (searched_key : List Nat) (inclusive : Bool)
    (it : Iter) : Option Iter := do
  let node_num := it.start_node_num_
  let pos ← t.getFirstLabelPos node_num
  let (it1, res) ← moveToKeyGreaterThanLoop t searched_key inclusive
    (searched_key.drop t.start_level_) it pos
  match res with
  | none => some it1
  | some pos => do
    let level := max t.start_level_ searched_key.length
    let isTerm ← do
      let l ← t.labels_.read pos
      if l == kTerminator then do
        if !(← t.child_indicator_bits_.readBit pos) then do
          let e ← t.isEndofNode pos
          some (!e)
        else some false
      else some false
    if isTerm then do
      let it2 ← it1.append kTerminator pos
      let it3 := { it2 with is_at_terminator_ := true }
      let it4 ← (if !inclusive then it3.incr t else some it3)
      some { it4 with is_valid_ := true }
    else if searched_key.length ≤ level then it1.moveToLeftMostKey t
    else some { it1 with is_valid_ := true }

end LoudsSparse

/-! ## Serialization (`louds_sparse.hpp`, `label_vector.hpp`) and the helpers of `config.hpp` -/

/-- The `n` bytes of an unsigned integer in memory, least significant byte first (the
source of a `memcpy(dst, &x, n)`). -/
def toBytes (n x : Nat) : List Nat := (List.range n).map (fun i => x / 256 ^ i % 256)

/-- The unsigned integer of `n` bytes at the offset `p` of a buffer (a
`memcpy(&x, src, n)`); reading past the end of the buffer is an error. -/
def fromBytes (src : List Nat) (p n : Nat) : Option Nat :=
  if p + n ≤ src.length then
    some (((src.drop p).take n).foldr (fun b acc => b + 256 * acc) 0)
  else none

/-- The function `align(ptr)` on an offset into a buffer that starts at an aligned address:
the next multiple of 8. -/
def alignOffset (p : Nat) : Nat := (p + 7) / 8 * 8

/-- The call `align(dst)` on the write pointer: the bytes that are skipped are not written,
0 stands for them. -/
def alignBuffer (dst : List Nat) : List Nat :=
  dst ++ List.replicate (alignOffset dst.length - dst.length) 0

/-- The function `sizeAlign(position_t &size)`: `(size + 7) & ~7` in 32-bit arithmetic. -/
def sizeAlign (size : Nat) : Nat := ((size + 7) % 2 ^ 32) &&& 0xFFFFFFF8

/-- The builtin `__builtin_bswap32`. -/
def bswap32 (w : Nat) : Nat :=
  w % 256 * 2 ^ 24 + w / 2 ^ 8 % 256 * 2 ^ 16 + w / 2 ^ 16 % 256 * 2 ^ 8 + w / 2 ^ 24 % 256

/-- The function `uint32ToString(word)`: the four bytes that the byte-swapped word has in
memory (least significant byte first, as on the x86 targets of the SIMD code). -/
def uint32ToString (word : Nat) : List Nat := toBytes 4 (bswap32 (word % 2 ^ 32))

namespace LabelVector

/-- The method `serializedSize`; the sum `sizeof(num_bytes_) + num_bytes_` is stored in a
`position_t`. -/
def serializedSize (lv : LabelVector) : Nat := sizeAlign ((4 + lv.num_bytes_) % 2 ^ 32)

/-- The method `serialize`: `num_bytes_`, then the `num_bytes_` bytes of the array (0 stands
for the last one, which the constructor does not write). -/
def serialize (lv : LabelVector) (dst : List Nat) : List Nat :=
  alignBuffer (dst ++ toBytes 4 lv.num_bytes_ ++ lv.labels_
    ++ List.replicate (lv.num_bytes_ - lv.labels_.length) 0)

/-- The method `deSerialize`: the label array points into the buffer; the result is the
vector and the offset after it. -/
def deSerialize (src : List Nat) (p : Nat) : Option (LabelVector × Nat) := do
  let num_bytes ← fromBytes src p 4
  some ({ num_bytes_ := num_bytes, labels_ := (src.drop (p + 4)).take (num_bytes - 1) },
    alignOffset (p + 4 + num_bytes))

end LabelVector

namespace Bitvector

/-- The words of the bit array at the offset `p` of a buffer. -/
def wordsFrom (src : List Nat) (p : Nat) : Nat → Option (List Nat)
  | 0 => some []
  | n + 1 => do
    let w ← fromBytes src p 8
    let ws ← wordsFrom src (p + 8) n
    some (w :: ws)

/-- Modelled from the spec: `BitvectorRank::serialize` (`rank.hpp` is not among the sources).
Sec. 4.9: the rank-augmented bitvector is written as length + words + block sums; there is
one 32-bit block sum for every block of 512 bits, plus one. -/
def serializeRank (bv : Bitvector) (dst : List Nat) : List Nat :=
  alignBuffer (dst ++ toBytes 4 bv.num_bits_ ++ (bv.bits_.map (toBytes 8)).flatten
    ++ ((List.range (bv.num_bits_ / 512 + 1)).map
        (fun i => toBytes 4 (if i = 0 then 0 else bv.rank (i * 512 - 1)))).flatten)

/-- Modelled from the spec: `BitvectorRank::deSerialize` (`rank.hpp` is not among the
sources).  Sec. 4.9: the buffer is read back section by section, no derived state is
recomputed. -/
def deSerializeRank (src : List Nat) (p : Nat) : Option (Bitvector × Nat) := do
  let num_bits ← fromBytes src p 4
  let bv0 : Bitvector := { num_bits_ := num_bits, bits_ := [] }
  let words ← wordsFrom src (p + 4) bv0.numWords
  some ({ num_bits_ := num_bits, bits_ := words },
    alignOffset (p + 4 + 8 * bv0.numWords + 4 * (num_bits / 512 + 1)))

/-- Modelled from the spec: `BitvectorSelect::serialize` (`select.hpp` is not among the
sources).  Sec. 4.9: the select-augmented bitvector is written as length + words + samples;
there is one 32-bit sample for every 64 set bits, plus one. -/
def serializeSelect (bv : Bitvector) (dst : List Nat) : List Nat :=
  alignBuffer (dst ++ toBytes 4 bv.num_bits_ ++ (bv.bits_.map (toBytes 8)).flatten
    ++ ((List.range (bv.numOnes / 64 + 1)).map
        (fun i => toBytes 4 ((bv.select (i * 64 + 1)).getD 0))).flatten)

/-- Modelled from the spec: `BitvectorSelect::deSerialize` (`select.hpp` is not among the
sources): the length and the words are read back, the samples are skipped. -/
def deSerializeSelect (src : List Nat) (p : Nat) : Option (Bitvector × Nat) := do
  let num_bits ← fromBytes src p 4
  let bv0 : Bitvector := { num_bits_ := num_bits, bits_ := [] }
  let words ← wordsFrom src (p + 4) bv0.numWords
  let bv : Bitvector := { num_bits_ := num_bits, bits_ := words }
  some (bv, alignOffset (p + 4 + 8 * bv0.numWords + 4 * (bv.numOnes / 64 + 1)))

end Bitvector

namespace LoudsSparse

/-- The method `serialize`: the four header fields, the label vector, the child indicator
bits and the LOUDS bits.  `positions_sparse_` and `keys_` are not written. -/
def serialize (t : LoudsSparse) : List Nat :=
  let dst := toBytes 4 t.height_ ++ toBytes 4 t.start_level_ ++ toBytes 4 t.node_count_dense_
    ++ toBytes 4 t.child_count_dense_
  let dst := alignBuffer dst
  let dst := t.labels_.serialize dst
  let dst := t.child_indicator_bits_.serializeRank dst
  let dst := t.louds_bits_.serializeSelect dst
  alignBuffer dst

/-- The method `deSerialize`: the object is default-constructed and the fields that
`serialize` wrote are read back.  `positions_sparse_` stays the empty vector and `keys_` is
not set: `[]` stands for both, reading an entry of either is an error. -/
def deSerialize (src : List Nat) : Option LoudsSparse := do
  let height ← fromBytes src 0 4
  let start_level ← fromBytes src 4 4
  let node_count_dense ← fromBytes src 8 4
  let child_count_dense ← fromBytes src 12 4
  let p := alignOffset 16
  let (labels, p) ← LabelVector.deSerialize src p
  let (child, p) ← Bitvector.deSerializeRank src p
  let (louds, _) ← Bitvector.deSerializeSelect src p
  some { positions_sparse_ := [], height_ := height, start_level_ := start_level,
         node_count_dense_ := node_count_dense, child_count_dense_ := child_count_dense,
         labels_ := labels, child_indicator_bits_ := child, louds_bits_ := louds, keys_ := [] }

end LoudsSparse

/-! ## The range scan of the top-level index -/

namespace Iter

/-- Modelled from the spec: the comparison of two iterators is part of `surf.hpp`, which is
not among the sources.  Sec. 4.8: two iterators compare equal iff both are invalid, or both
are valid with equal `key[]`. -/
def equal (a b : Iter) : Bool :=
  (!a.is_valid_ && !b.is_valid_) || (a.is_valid_ && b.is_valid_ && a.getKey == b.getKey)

end Iter

namespace LoudsSparse

/-- Modelled from the spec: `lookupRange` is part of `surf.hpp`, which is not among the
sources.  Sec. 4.8: `begin` is the search of `lo` with the flag `lo_inclusive`, `end` is the
search of `hi` that stops on `hi` when `hi` is excluded from the range and advances past
`hi` when it is included (the flag `!hi_inclusive`, as the unit tests of the range lookup
expect); if `lo > hi` both iterators are invalid. -/
def lookupRange (t : LoudsSparse) (lo : List Nat) (lo_inclusive : Bool) (hi : List Nat)
    (hi_inclusive : Bool) : Option (Iter × Iter) :=
  if strLt hi lo then some (Iter.new t, Iter.new t)
  else do
    let first ← t.moveToKeyGreaterThan lo lo_inclusive (Iter.new t)
    let last ← t.moveToKeyGreaterThan hi (!hi_inclusive) (Iter.new t)
    some (first, last)

end LoudsSparse

end FST

/-! # Definitions of the verification: bit lists, the abstract trie, the builder state -/

namespace FST

/-- Bit `pos` (MSB first) of a packed vector of 64-bit words; `false` outside the vector. -/
def bitAt (ws : List Nat) (pos : Nat) : Bool :=
  (ws.getD (pos / 64) 0).testBit (63 - pos % 64)

/-- The first `n` bits of a packed vector, as a list. -/
def bitsOf (ws : List Nat) (n : Nat) : List Bool := (List.range n).map (bitAt ws)

/-- All words fit in 64 bits. -/
def Words64 (ws : List Nat) : Prop := ∀ w ∈ ws, w < 2 ^ 64

/-- No bit is set from position `n` on. -/
def ZeroFrom (ws : List Nat) (n : Nat) : Prop := ∀ q, n ≤ q → bitAt ws q = false

end FST

namespace FST

/-- The 64 bits of a word, MSB first. -/
def wordBits (w : Nat) : List Bool := (List.range 64).map (fun j => w.testBit (63 - j))

/-- The state of the concatenation holds exactly the bits `flat`. -/
structure CInv (NW : Nat) (flat : List Bool) (s : Bitvector.ConcatState) : Prop where
  shift_lt : s.bit_shift < 64
  len : s.bits.length = NW
  w64 : Words64 s.bits
  pos : flat.length = 64 * s.word_id + s.bit_shift
  bits : ∀ q, bitAt s.bits q = flat.getD q false

end FST

namespace FST

/-- A per-level packed vector as the builder keeps it: `n` bits, one word more than the
complete ones, nothing set past the `n` bits. -/
structure PackedOK (ws : List Nat) (n : Nat) : Prop where
  len : ws.length = n / 64 + 1
  w64 : Words64 ws
  zero : ZeroFrom ws n

end FST

namespace FST

/-- The bits of the levels `start, start + 1, ..., start + cnt - 1`, one after the other. -/
def levelsBits (wss : List (List Nat)) (ns : List Nat) (start cnt : Nat) : List Bool :=
  ((List.range' start cnt).map (fun l => bitsOf (wss.getD l []) (ns.getD l 0))).flatten

/-- The number of bits of these levels. -/
def levelsLen (ns : List Nat) (start cnt : Nat) : Nat :=
  ((List.range' start cnt).map (fun l => ns.getD l 0)).sum

/-- The packed bit vector `bv` holds exactly the bits `flat`. -/
structure BVRepr (bv : Bitvector) (flat : List Bool) : Prop where
  nbits : bv.num_bits_ = flat.length
  len : bv.bits_.length = bv.numWords
  w64 : Words64 bv.bits_
  bits : ∀ q, bitAt bv.bits_ q = flat.getD q false

end FST

namespace FST

/-- The result of the word scan: the distance to the next set bit, or the distance to the
end of the last word when there is none. -/
def DistResult (bits : List Nat) (NW p d : Nat) : Prop :=
  (bitAt bits (p + d) = true ∧ ∀ q, p < q → q < p + d → bitAt bits q = false) ∨
  (d = 64 * NW - p ∧ ∀ q, p < q → q < 64 * NW → bitAt bits q = false)

end FST

namespace FST

/-- The number of positions below `p` that satisfy `f`. -/
def cntBefore (f : Nat → Bool) (p : Nat) : Nat := ((List.range p).filter f).length

/-- The positions of the set bits, in increasing order. -/
def ones (flat : List Bool) : List Nat :=
  (List.range flat.length).filter (fun q => flat.getD q false)

/-- The number of set bits at the positions `0 .. p`. -/
def rankL (flat : List Bool) (p : Nat) : Nat := cntBefore (fun q => flat.getD q false) (p + 1)

end FST

namespace FST

/-- The label vector `lv` holds exactly the labels `LAB` (and one byte more, never written). -/
structure LRepr (lv : LabelVector) (LAB : List Nat) : Prop where
  labels : lv.labels_ = LAB
  nbytes : lv.num_bytes_ = LAB.length + 1

/-- Every position in `[a, b)` holds a label, and none of them is `target`. -/
def NoneIn (LAB : List Nat) (target a b : Nat) : Prop :=
  ∀ q, a ≤ q → q < b → ∃ x, LAB[q]? = some x ∧ x ≠ target

/-- The labels at the positions `[a, b)` are strictly increasing. -/
def IncrOn (LAB : List Nat) (a b : Nat) : Prop :=
  ∀ q1 q2, a ≤ q1 → q1 < q2 → q2 < b → LAB.getD q1 0 < LAB.getD q2 0

end FST

namespace FST

/-- The order `a ≤ b` of byte strings. -/
def strLe (a b : List Nat) : Prop := strLt b a = false

end FST

namespace FST

/-- The order of the trie positions: shorter paths first, paths of one length in the order
of their bytes. -/
def lvlLt (a b : List Nat) : Prop :=
  a.length < b.length ∨ (a.length = b.length ∧ strLt a b = true)

def lvlLe (a b : List Nat) : Prop := a = b ∨ lvlLt a b

/-- The key list of an association list of keys and values. -/
def keysOf (TV : List (List Nat × Nat)) : List (List Nat) := TV.map Prod.fst

/-- The abstract trie of the stored keys `TV`: `ENT` lists, in the order of the trie
positions, every non-empty prefix of a stored key. -/
structure FlatTrie (TV : List (List Nat × Nat)) (ENT : List (List Nat)) : Prop where
  nonemptyT : TV ≠ []
  keyne : ∀ t ∈ keysOf TV, t ≠ []
  sortedT : (keysOf TV).Pairwise (fun a b => strLt a b = true)
  pfree : ∀ a ∈ keysOf TV, ∀ b ∈ keysOf TV, a <+: b → a = b
  sortedE : ENT.Pairwise lvlLt
  memE : ∀ e, e ∈ ENT ↔ e ≠ [] ∧ ∃ t ∈ keysOf TV, e <+: t
  sibling : ∀ t ∈ keysOf TV, 2 ≤ t.length → ∃ s ∈ keysOf TV, s ≠ t ∧ t.dropLast <+: s

/-- The child-indicator bits: an entry has children iff it is not a stored key. -/
def chOf (TV : List (List Nat × Nat)) (ENT : List (List Nat)) : List Bool :=
  ENT.map (fun e => decide (e ∉ keysOf TV))

/-- The LOUDS bits: an entry starts a node iff its parent differs from the parent of the
entry before it. -/
def loOf (ENT : List (List Nat)) : List Bool :=
  (List.range ENT.length).map
    (fun g => decide (g = 0 ∨ (ENT.getD g []).dropLast ≠ (ENT.getD (g - 1) []).dropLast))

/-- The labels: the last byte of each entry. -/
def labOf (ENT : List (List Nat)) : List Nat := ENT.map (fun e => e.getLastD 0)

/-- The values, in the order of the entries that are stored keys. -/
def valOf (TV : List (List Nat × Nat)) (ENT : List (List Nat)) : List Nat :=
  ENT.filterMap (fun e => TV.lookup e)

end FST

namespace FST

/-- The parent path of the entry at position `g`. -/
def par (ENT : List (List Nat)) (g : Nat) : List Nat := (ENT.getD g []).dropLast

/-- The positions `[a, b)` are exactly the entries whose parent path is `e`. -/
structure NodeOf (ENT : List (List Nat)) (e : List Nat) (a b : Nat) : Prop where
  lt : a < b
  le : b ≤ ENT.length
  mem : ∀ g, g < ENT.length → (par ENT g = e ↔ a ≤ g ∧ g < b)

end FST

namespace FST

namespace FlatTrie

variable {TV : List (List Nat × Nat)} {ENT : List (List Nat)}

/-- The entries with children, in the order of their positions. -/
def internals (TV : List (List Nat × Nat)) (ENT : List (List Nat)) : List (List Nat) :=
  (ones (chOf TV ENT)).map (fun p => ENT.getD p [])

/-- The parent paths of the nodes other than the root, in the order of the nodes. -/
def parents (ENT : List (List Nat)) : List (List Nat) :=
  (ones (loOf ENT)).tail.map (fun g => par ENT g)

end FlatTrie

end FST

namespace FST

/-- The sparse tier `t` holds the abstract trie of `TV`, all of it (start level 0). -/
structure TRepr (t : LoudsSparse) (TV : List (List Nat × Nat)) (ENT : List (List Nat)) :
    Prop where
  start : t.start_level_ = 0
  ncd : t.node_count_dense_ = 0
  ccd : t.child_count_dense_ = 0
  lab : LRepr t.labels_ (labOf ENT)
  ch : BVRepr t.child_indicator_bits_ (chOf TV ENT)
  lo : BVRepr t.louds_bits_ (loOf ENT)
  vals : t.positions_sparse_ = valOf TV ENT
  height : ∀ e ∈ ENT, e.length ≤ t.height_
  bytes : (∀ x ∈ labOf ENT, x ≠ kTerminator) ∨ (∀ x ∈ labOf ENT, x < 256)

/-- The size computation is exact on the last node: the position after the last set LOUDS
bit lies in the last word of the LOUDS vector. -/
def LoudsSparse.lastNodeInLastWord (t : LoudsSparse) : Prop :=
  ∀ a, t.louds_bits_.select t.louds_bits_.numOnes = some a →
    (a + 1) / kWordSize + 1 = t.louds_bits_.numWords

/-- The same condition as a check that can be evaluated. -/
def LoudsSparse.lastNodeFits (t : LoudsSparse) : Bool :=
  match t.louds_bits_.select t.louds_bits_.numOnes with
  | some a => (a + 1) / kWordSize + 1 == t.louds_bits_.numWords
  | none => true

end FST

namespace FST

/-- The labels of level `l`. -/
def labL (b : FSTBuilder) (l : Nat) : List Nat := b.labels_.getD l []

/-- The packed child-indicator words of level `l`. -/
def cwL (b : FSTBuilder) (l : Nat) : List Nat := b.child_indicator_bits_.getD l []

/-- The packed LOUDS words of level `l`. -/
def lwL (b : FSTBuilder) (l : Nat) : List Nat := b.louds_bits_.getD l []

/-- The child-indicator bits of level `l`. -/
def chL (b : FSTBuilder) (l : Nat) : List Bool := bitsOf (cwL b l) (labL b l).length

/-- The LOUDS bits of level `l`. -/
def loL (b : FSTBuilder) (l : Nat) : List Bool := bitsOf (lwL b l) (labL b l).length

/-- The values of level `l`. -/
def valL (b : FSTBuilder) (l : Nat) : List Nat := b.values_.getD l []

/-- The builder has `H` levels, with the labels, bit words and values given level by
level by `lab`, `cw`, `lw` and `val`; no terminator flag is set. -/
structure Shape (b : FSTBuilder) (H : Nat) (lab cw lw val : Nat → List Nat) : Prop where
  lenLab : b.labels_.length = H
  lenC : b.child_indicator_bits_.length = H
  lenL : b.louds_bits_.length = H
  lenV : b.values_.length = H
  lenN : b.node_counts_.length = H
  lenT : b.is_last_item_terminator_.length = H
  lab : ∀ l, labL b l = lab l
  cw : ∀ l, cwL b l = cw l
  lw : ∀ l, lwL b l = lw l
  val : ∀ l, valL b l = val l
  term : ∀ l, l < H → b.is_last_item_terminator_[l]? = some false
  ssl : b.sparse_start_level_ = 0

end FST

namespace FST

/-- The builder holds `H` levels whose labels, child-indicator bits, LOUDS bits and values
are the lists `lab l`, `ch l`, `lo l` and `val l`. -/
def BAbs (b : FSTBuilder) (H : Nat) (lab : Nat → List Nat) (ch lo : Nat → List Bool)
    (val : Nat → List Nat) : Prop :=
  ∃ cw lw, Shape b H lab cw lw val ∧
    (∀ l, l < H → PackedOK (cw l) (lab l).length) ∧
    (∀ l, l < H → PackedOK (lw l) (lab l).length) ∧
    (∀ l, ch l = bitsOf (cw l) (lab l).length) ∧
    (∀ l, lo l = bitsOf (lw l) (lab l).length)

end FST

namespace FST

/-- The length of the longest common prefix of two byte strings. -/
def lcp : List Nat → List Nat → Nat
  | a :: as, b :: bs => if a = b then lcp as bs + 1 else 0
  | _, _ => 0

/-- The `j`-th key (empty past the end, as the look-ahead of the last key). -/
def kAt (keys : List (List Nat)) (j : Nat) : List Nat := keys.getD j []

/-- The level at which key `j` starts to insert: the bytes shared with the key before. -/
def sOf (keys : List (List Nat)) (j : Nat) : Nat :=
  if j = 0 then 0 else lcp (kAt keys (j - 1)) (kAt keys j)

/-- The bytes key `j` shares with the key after it. -/
def nOf (keys : List (List Nat)) (j : Nat) : Nat := lcp (kAt keys j) (kAt keys (j + 1))

/-- The depth of key `j` in the trie: the length of its stored unique prefix. -/
def dOf (keys : List (List Nat)) (j : Nat) : Nat := max (sOf keys j) (nOf keys j) + 1

/-- The keys among the first `i` that own an item at level `l`. -/
def lvl (keys : List (List Nat)) (i l : Nat) : List Nat :=
  (List.range i).filter (fun j => decide (sOf keys j ≤ l ∧ l < dOf keys j))

/-- The labels of level `l` after `i` keys and the bytes of key `i` above level `x`. -/
def labS (keys : List (List Nat)) (i x l : Nat) : List Nat :=
  (lvl keys i l).map (fun j => (kAt keys j).getD l 0) ++
    (if sOf keys i ≤ l ∧ l < x then [(kAt keys i).getD l 0] else [])

def chS (keys : List (List Nat)) (i x l : Nat) : List Bool :=
  (lvl keys i l).map (fun j => decide (l + 1 < dOf keys j)) ++
    (if sOf keys i ≤ l ∧ l < x then [decide (l + 1 < x)] else [])

def loS (keys : List (List Nat)) (i x l : Nat) : List Bool :=
  (lvl keys i l).map (fun j => decide (j = 0 ∨ sOf keys j < l)) ++
    (if sOf keys i ≤ l ∧ l < x then [decide (i = 0 ∨ sOf keys i < l)] else [])

/-- The values of level `l` after `i` keys. -/
def valS (keys : List (List Nat)) (values : List Nat) (i l : Nat) : List Nat :=
  ((List.range i).filter (fun j => decide (dOf keys j = l + 1))).map (fun j => values.getD j 0)

/-- The height of the trie after `i` keys. -/
def HS (keys : List (List Nat)) : Nat → Nat
  | 0 => 0
  | i + 1 => max (HS keys i) (dOf keys i)

end FST

namespace FST

/-- The builder after `i` keys and the bytes of key `i` above level `x`. -/
def BState (keys : List (List Nat)) (values : List Nat) (i x : Nat) (b : FSTBuilder) : Prop :=
  BAbs b (max (HS keys i) x) (labS keys i x) (chS keys i x) (loS keys i x) (valS keys values i)

end FST

namespace FST

/-- The accepted input of the builder: a non-empty list of keys of one length `L > 0`, in
strictly increasing order. -/
structure KeysOK (keys : List (List Nat)) (L : Nat) : Prop where
  ne : keys ≠ []
  len : ∀ k ∈ keys, k.length = L
  pos : 0 < L
  sorted : keys.Pairwise (fun a b => strLt a b = true)

end FST

namespace FST

/-- The levels `0 .. H - 1` one after the other. -/
def flatOf {α : Type} (f : Nat → List α) (H : Nat) : List α := ((List.range H).map f).flatten

/-- The sparse trie holds the flat lists `LAB`, `CH`, `LO` and `VAL`, from level 0 on. -/
structure TAbs (t : LoudsSparse) (H : Nat) (LAB : List Nat) (CH LO : List Bool)
    (VAL : List Nat) : Prop where
  start : t.start_level_ = 0
  ncd : t.node_count_dense_ = 0
  ccd : t.child_count_dense_ = 0
  lab : LRepr t.labels_ LAB
  ch : BVRepr t.child_indicator_bits_ CH
  lo : BVRepr t.louds_bits_ LO
  vals : t.positions_sparse_ = VAL
  height : t.height_ = H

end FST

namespace FST

/-- The stored unique prefix of key `j`. -/
def tK (keys : List (List Nat)) (j : Nat) : List Nat := (kAt keys j).take (dOf keys j)

/-- The stored keys with their values. -/
def tvOf (keys : List (List Nat)) (values : List Nat) : List (List Nat × Nat) :=
  (List.range keys.length).map (fun j => (tK keys j, values.getD j 0))

/-- The paths of level `l`. -/
def entL (keys : List (List Nat)) (l : Nat) : List (List Nat) :=
  (lvl keys keys.length l).map (fun j => (kAt keys j).take (l + 1))

/-- The paths of the trie, level by level. -/
def entOf (keys : List (List Nat)) : List (List Nat) :=
  flatOf (entL keys) (HS keys keys.length)

end FST

namespace FST

/-- The start-of-node bits of a list of paths that follows the path `p`. -/
def startBits (p : Option (List Nat)) : List (List Nat) → List Bool
  | [] => []
  | e :: es =>
    (match p with
      | none => true
      | some q => decide (e.dropLast ≠ q.dropLast)) :: startBits (some e) es

/-- The last path of `a`, or `p` when `a` is empty. -/
def lastOr (p : Option (List Nat)) (a : List (List Nat)) : Option (List Nat) :=
  match a.getLast? with
  | some x => some x
  | none => p

end FST

namespace FST

/-- The bytes of the keys leave the terminator unambiguous: no key holds the byte 255, or
every element of every key is a byte.  In the second case a label 255 is the greatest label
of its node. -/
def TermOK (keys : List (List Nat)) : Prop :=
  (∀ k ∈ keys, kTerminator ∉ k) ∨ (∀ k ∈ keys, ∀ c ∈ k, c < 256)

end FST

namespace FST

/-- The vectors of the iterator have the height of the trie, and the iterator starts at
the root. -/
structure ItOK (t : LoudsSparse) (it : Iter) : Prop where
  klen : it.key_.length = t.height_
  plen : it.pos_in_trie_.length = t.height_
  vlen : it.value_pos_.length = t.height_
  ilen : it.value_pos_initialized_.length = t.height_
  snn : it.start_node_num_ = 0

/-- The iterator holds the path `e`: the bytes of `e` and, for every level, the position
of the prefix of `e` that ends there. -/
def OnPath (ENT : List (List Nat)) (it : Iter) (e : List Nat) : Prop :=
  it.key_len_ = e.length ∧ ∀ l, l < e.length →
    it.key_[l]? = some (e.getD l 0) ∧
    ∃ g, it.pos_in_trie_[l]? = some g ∧ g < ENT.length ∧ ENT.getD g [] = e.take (l + 1)

/-- The fields that moving along a path leaves alone. -/
structure SameAux (a b : Iter) : Prop where
  vp : b.value_pos_ = a.value_pos_
  vi : b.value_pos_initialized_ = a.value_pos_initialized_
  term : b.is_at_terminator_ = a.is_at_terminator_
  valid : b.is_valid_ = a.is_valid_

/-- The key `u` is the least stored key that extends `e`. -/
def IsLeastWith (TV : List (List Nat × Nat)) (e u : List Nat) : Prop :=
  u ∈ keysOf TV ∧ e <+: u ∧ ∀ w ∈ keysOf TV, e <+: w → strLe u w

/-- The index of the value of the stored key at position `g`. -/
def vidx (TV : List (List Nat × Nat)) (ENT : List (List Nat)) (g : Nat) : Nat :=
  g - rankL (chOf TV ENT) g

end FST

namespace FST

/-- The value bookkeeping of `rankValuePosition` at level `m` for the terminal position `g`:
the level is marked, and its value position is advanced by one, or computed from the rank
when the level was not visited before. -/
def ValStep (TV : List (List Nat × Nat)) (ENT : List (List Nat)) (it it1 : Iter) (m g : Nat) :
    Prop :=
  it1.value_pos_initialized_ = it.value_pos_initialized_.set m true ∧
  it1.value_pos_ = it.value_pos_.set m
    (if it.value_pos_initialized_.getD m false then it.value_pos_.getD m 0 + 1
     else vidx TV ENT g)

end FST

namespace FST

/-- The iterator `it1` was brought from `it` onto the stored key `u`. -/
structure Landed (t : LoudsSparse) (TV : List (List Nat × Nat)) (ENT : List (List Nat))
    (it it1 : Iter) (u : List Nat) : Prop where
  path : OnPath ENT it1 u
  ok : ItOK t it1
  valid : it1.is_valid_ = true
  term : it1.is_at_terminator_ = it.is_at_terminator_
  key : u ∈ keysOf TV
  val : ∃ g, g < ENT.length ∧ ENT.getD g [] = u ∧ ValStep TV ENT it it1 (u.length - 1) g

end FST

namespace FST

/-- Every stored key above `t` is above it already within the first `m` bytes. -/
def Above (TV : List (List Nat × Nat)) (t : List Nat) (m : Nat) : Prop :=
  ∀ w ∈ keysOf TV, strLt t w = true → strLt (t.take m) (w.take m) = true

/-- The key `u` is the stored key that follows `t`. -/
def IsSucc (TV : List (List Nat × Nat)) (t u : List Nat) : Prop :=
  u ∈ keysOf TV ∧ strLt t u = true ∧ ∀ w ∈ keysOf TV, strLt t w = true → strLe u w

/-- The position `g` is the last of its node. -/
def LastInNode (ENT : List (List Nat)) (g : Nat) : Prop :=
  ∀ g2, g < g2 → g2 < ENT.length → par ENT g2 ≠ par ENT g

end FST

namespace FST

/-- The value bookkeeping of an iterator that has visited the stored keys in `S`: a level
is marked iff a key of its length was visited, and then its value position is that of the
greatest such key. -/
def VInv (TV : List (List Nat × Nat)) (ENT : List (List Nat)) (it : Iter)
    (S : List Nat → Prop) : Prop :=
  ∀ m, (it.value_pos_initialized_.getD m false = true →
      ∃ w ∈ keysOf TV, w.length = m + 1 ∧ S w ∧
        (∀ w2 ∈ keysOf TV, w2.length = m + 1 → S w2 → strLe w2 w) ∧
        ∃ g, g < ENT.length ∧ ENT.getD g [] = w ∧ it.value_pos_.getD m 0 = vidx TV ENT g) ∧
    (it.value_pos_initialized_.getD m false = false →
      ∀ w ∈ keysOf TV, w.length = m + 1 → ¬ S w)

/-- The iterator holds the path of the stored key `u`, having come to it by steps of
`operator++` from the stored key `a`, where its value bookkeeping began. -/
structure HoldsKey (t : LoudsSparse) (TV : List (List Nat × Nat)) (ENT : List (List Nat))
    (it : Iter) (a u : List Nat) : Prop where
  path : OnPath ENT it u
  ok : ItOK t it
  key : u ∈ keysOf TV
  first : strLe a u
  vinv : VInv TV ENT it (fun w => strLe a w ∧ strLe w u)

/-- The iterator is valid on the stored key `u`. -/
structure AtKey (t : LoudsSparse) (TV : List (List Nat × Nat)) (ENT : List (List Nat))
    (it : Iter) (a u : List Nat) : Prop where
  holds : HoldsKey t TV ENT it a u
  valid : it.is_valid_ = true
  term : it.is_at_terminator_ = false

end FST

namespace FST

/-- The iterator after `n` applications of `operator++`. -/
def Iter.incrTimes (t : LoudsSparse) : Nat → Iter → Option Iter
  | 0, it => some it
  | n + 1, it => (Iter.incrTimes t n it).bind fun it1 => it1.incr t

end FST

namespace FST

/-- The key `u` is the greatest stored key that extends `e`. -/
def IsGreatestWith (TV : List (List Nat × Nat)) (e u : List Nat) : Prop :=
  u ∈ keysOf TV ∧ e <+: u ∧ ∀ w ∈ keysOf TV, e <+: w → strLe w u

end FST

namespace FST

/-- The iterator `it1` was brought from `it` onto the stored key `u` by a backward move,
which leaves the value bookkeeping as it was. -/
structure RLanded (t : LoudsSparse) (TV : List (List Nat × Nat)) (ENT : List (List Nat))
    (it it1 : Iter) (u : List Nat) : Prop where
  path : OnPath ENT it1 u
  ok : ItOK t it1
  valid : it1.is_valid_ = true
  term : it1.is_at_terminator_ = it.is_at_terminator_
  key : u ∈ keysOf TV
  vp : it1.value_pos_ = it.value_pos_
  vi : it1.value_pos_initialized_ = it.value_pos_initialized_

end FST

namespace FST

/-- Every stored key below `t` is below it already within the first `m` bytes. -/
def Below (TV : List (List Nat × Nat)) (t : List Nat) (m : Nat) : Prop :=
  ∀ w ∈ keysOf TV, strLt w t = true → strLt (w.take m) (t.take m) = true

/-- The key `u` is the stored key that precedes `t`. -/
def IsPred (TV : List (List Nat × Nat)) (t u : List Nat) : Prop :=
  u ∈ keysOf TV ∧ strLt u t = true ∧ ∀ w ∈ keysOf TV, strLt w t = true → strLe w u

/-- The position `g` is the first of its node. -/
def FirstInNode (ENT : List (List Nat)) (g : Nat) : Prop :=
  ∀ g2, g2 < g → par ENT g2 ≠ par ENT g

end FST

namespace FST

/-- The iterator after `n` applications of `operator--`. -/
def Iter.decrTimes (t : LoudsSparse) : Nat → Iter → Option Iter
  | 0, it => some it
  | n + 1, it => (Iter.decrTimes t n it).bind fun it1 => it1.decr t

/-- The iterator is valid on the path of the stored key `u`. -/
structure OnKey (t : LoudsSparse) (TV : List (List Nat × Nat)) (ENT : List (List Nat))
    (it : Iter) (u : List Nat) : Prop where
  path : OnPath ENT it u
  ok : ItOK t it
  valid : it.is_valid_ = true
  term : it.is_at_terminator_ = false
  key : u ∈ keysOf TV

end FST

namespace FST

/-- The outcome of a search for the probe `p` that ends on the stored key that follows `p`,
or invalid when no stored key follows. -/
def SearchDone (t : LoudsSparse) (TV : List (List Nat × Nat)) (ENT : List (List Nat))
    (p : List Nat) (r : Option Iter) : Prop :=
  (∃ u it1, IsSucc TV p u ∧ r = some it1 ∧ AtKey t TV ENT it1 u u) ∨
  ((∀ w ∈ keysOf TV, ¬ strLt p w = true) ∧ ∃ it1, r = some it1 ∧ it1.is_valid_ = false)

end FST

namespace FST

/-- The key `k` qualifies for the probe `p`: it is at least `p`, and above `p` when the
search is exclusive. -/
def qualifies (inclusive : Bool) (p k : List Nat) : Bool :=
  if inclusive then !(strLt k p) else strLt p k

/-- The outcome of a search among the keys: the index of the first key that qualifies, or
nothing when no key qualifies. -/
def Ans (keys : List (List Nat)) (inclusive : Bool) (p : List Nat) : Option Nat → Prop
  | some i => i < keys.length ∧ qualifies inclusive p (kAt keys i) = true ∧
      ∀ j, j < i → qualifies inclusive p (kAt keys j) = false
  | none => ∀ j, j < keys.length → qualifies inclusive p (kAt keys j) = false

end FST

namespace FST

/-- The iterator that a search returns for the outcome `o`: valid on the key of index `i`,
with the stored unique prefix of the key and its value, or invalid. -/
def SearchRes (t : LoudsSparse) (keys : List (List Nat)) (values : List Nat)
    (r : Option Iter) : Option Nat → Prop
  | some i => ∃ it, r = some it ∧ it.isValid = true ∧ it.getKey = tK keys i ∧
      it.getValue t = some (values.getD i 0)
  | none => ∃ it, r = some it ∧ it.isValid = false

end FST

namespace FST

/-- The contribution of level `l` to the dense estimate, as the specification words it:
`2 * 256 * node_count[l]`, plus `node_count[l - 1] / 8 + 1` for `l > 0`. -/
def denseTerm (nc : List Nat) (l : Nat) : Nat :=
  2 * 256 * nc.getD l 0 + (if l > 0 then nc.getD (l - 1) 0 / 8 + 1 else 0)

/-- The estimate `dense_mem(n)` of the specification: the sum of `denseTerm` over the
levels `l < n`. -/
def denseMemSpec (nc : List Nat) (n : Nat) : Nat := ((List.range n).map (denseTerm nc)).sum

/-- The contribution of level `l` to the sparse estimate, as the specification words it:
`|labels[l]| + (2 * |labels[l]|) / 8 + 1`. -/
def sparseTerm (labels : List (List Nat)) (l : Nat) : Nat :=
  (labels.getD l []).length + 2 * (labels.getD l []).length / 8 + 1

/-- The estimate `sparse_mem(s)` of the specification: the sum of `sparseTerm` over the
levels `s <= l < height`. -/
def sparseMemSpec (labels : List (List Nat)) (s : Nat) : Nat :=
  ((List.range (labels.length - s)).map (fun j => sparseTerm labels (s + j))).sum

/-- The 32-bit and 64-bit expressions of the cutoff computation do not wrap for the
builder `b` and the ratio `R`. -/
structure NoOverflow (b : FSTBuilder) (R : Nat) : Prop where
  nodes : ∀ l, l < b.labels_.length → 2 * 256 * b.node_counts_.getD l 0 < 2 ^ 32
  items : ∀ l, l < b.labels_.length → 2 * (b.labels_.getD l []).length < 2 ^ 32
  dense : denseMemSpec b.node_counts_ b.labels_.length < 2 ^ 64
  sparse : sparseMemSpec b.labels_ 0 < 2 ^ 64
  prod : denseMemSpec b.node_counts_ b.labels_.length * R < 2 ^ 64

/-- The per-level vectors of the builder all have one entry per level. -/
structure LevelsOK (b : FSTBuilder) : Prop where
  counts : b.node_counts_.length = b.labels_.length
  values : b.values_.length = b.labels_.length

/-- The level `c` is the smallest one in `[0, H]` at which the dense estimate times the
ratio reaches the sparse estimate. -/
structure IsCutoff (nc : List Nat) (labels : List (List Nat)) (R c : Nat) : Prop where
  le : c ≤ labels.length
  reach : sparseMemSpec labels c ≤ denseMemSpec nc c * R
  least : ∀ l, l < c → denseMemSpec nc l * R < sparseMemSpec labels l

end FST

namespace FST

/-- The records that follow the run of the key `k`; `none` when the first record with another
key has another length (the assertion of `isSameKey`). -/
def dropSame (k : List Nat) : List (List Nat × Nat) → Option (List (List Nat × Nat))
  | [] => some []
  | y :: rest =>
    match FSTBuilder.isSameKey k y.1 with
    | none => none
    | some true => dropSame k rest
    | some false => some (y :: rest)

/-- The key of the first record, the empty string when there is none. -/
def nextKey : List (List Nat × Nat) → List Nat
  | [] => []
  | y :: _ => y.1

/-- The loop of `buildSparse` on the records that are left. -/
def buildList : Nat → FSTBuilder → List (List Nat × Nat) → Option FSTBuilder
  | 0, _, _ => none
  | _ + 1, b, [] => some b
  | fuel + 1, b, y :: rest =>
    (b.skipCommonPrefix y.1 0).bind fun p =>
      (dropSame y.1 rest).bind fun r =>
        (p.1.insertKeyBytesToTrieUntilUnique y.1 y.2 (nextKey r) p.2 0).bind fun q =>
          buildList fuel q.1 r

/-- The list in which every run of records with equal keys is replaced by its first record:
the records after one with the key `k`. -/
def dedupFrom (k : List Nat) : List (List Nat × Nat) → List (List Nat × Nat)
  | [] => []
  | y :: rest => if y.1 = k then dedupFrom k rest else y :: dedupFrom y.1 rest

/-- The list in which every run of records with equal keys is replaced by its first
record. -/
def firstOfRuns : List (List Nat × Nat) → List (List Nat × Nat)
  | [] => []
  | x :: rest => x :: dedupFrom x.1 rest

/-- Two consecutive records have keys of different lengths. -/
def BadLen : List (List Nat × Nat) → Prop
  | [] => False
  | [_] => False
  | x :: y :: r => x.1.length ≠ y.1.length ∨ BadLen (y :: r)

end FST

namespace FST

/-- The keys of the records without their first `s` bytes. -/
def strippedKeys (key_values : List KeyPartValue) (s : Nat) : List (List Nat) :=
  key_values.map (fun kv => kv.key_part.drop s)

/-- The values of the records. -/
def recordValues (key_values : List KeyPartValue) : List Nat :=
  key_values.map (fun kv => kv.value)

end FST

namespace FST

/-- The fields of the builder that belong to the dense tier and to the configuration are the
same in `b1` as in `b`. -/
structure DenseSame (b b1 : FSTBuilder) : Prop where
  incl : b1.include_dense_ = b.include_dense_
  ratio : b1.sparse_dense_ratio_ = b.sparse_dense_ratio_
  vs : b1.values_sparse_ = b.values_sparse_
  vd : b1.values_dense_ = b.values_dense_
  bl : b1.bitmap_labels_ = b.bitmap_labels_
  bc : b1.bitmap_child_indicator_bits_ = b.bitmap_child_indicator_bits_
  pk : b1.prefixkey_indicator_bits_ = b.prefixkey_indicator_bits_

end FST

namespace FST

/-- The invariant of the sparse build: the levels are packed as the builder keeps them, the
node count of every level is the number of its set LOUDS bits, the first item of every level
starts a node, and every label is a byte below 255. -/
structure BInv (b : FSTBuilder) : Prop where
  packed : ∃ H, BAbs b H (labL b) (chL b) (loL b) (valL b)
  counts : ∀ l, b.node_counts_.getD l 0 = (loL b l).count true
  heads : ∀ l, labL b l ≠ [] → (loL b l).head? = some true
  bytes : ∀ l c, c ∈ labL b l → c < 255

end FST

namespace FST

/-- The builder `b` with the three bitmaps of the dense tier replaced. -/
def withDense (b : FSTBuilder) (bl bc pk : List (List Nat)) : FSTBuilder :=
  { b with bitmap_labels_ := bl, bitmap_child_indicator_bits_ := bc,
           prefixkey_indicator_bits_ := pk }

/-- What `buildDense` reads of level `l`: the labels `lab`, the child-indicator words `cw`
and the LOUDS words `lw` with room for every item, the node count `nc` equal to the number of
set LOUDS bits, a node start at the first item, and no label 255. -/
structure LevelReady (b : FSTBuilder) (l : Nat) (lab cw lw : List Nat) (nc : Nat) : Prop where
  hlab : b.labels_[l]? = some lab
  hcw : b.child_indicator_bits_[l]? = some cw
  hlw : b.louds_bits_[l]? = some lw
  hnc : b.node_counts_[l]? = some nc
  capc : lab.length < cw.length * 64
  capl : lab.length < lw.length * 64
  cnt : nc = (bitsOf lw lab.length).count true
  head : lab ≠ [] → bitAt lw 0 = true
  bytes : ∀ c ∈ lab, c < 255

end FST

namespace FST

variable {b : FSTBuilder} {level : Nat} {lab cw lw : List Nat} {nc : Nat}

/-- The state of the loop over the items of a level, before the item `pos`: the two bitmaps
of the level have four words per node, and `node_num` counts the node starts among the items
`1 .. pos - 1`. -/
def ItemInv (b : FSTBuilder) (bl bc pk : List (List Nat)) (lw : List Nat) (nc pos : Nat)
    (st : FSTBuilder × Nat) : Prop :=
  ∃ x y, st.1 = withDense b (bl ++ [x]) (bc ++ [y]) pk ∧ x.length = 4 * nc ∧
    y.length = 4 * nc ∧ st.2 + 1 = (bitsOf lw pos).count true

end FST

namespace FST

/-- The iterator that a search returns for the outcome `o`: on the key of index `i`, in the
state that the traversal keeps, or invalid. -/
def SearchAt (t : LoudsSparse) (keys : List (List Nat)) (values : List Nat)
    (r : Option Iter) : Option Nat → Prop
  | some i => ∃ it a, r = some it ∧ AtKey t (tvOf keys values) (entOf keys) it a (tK keys i)
  | none => ∃ it, r = some it ∧ it.isValid = false

end FST

namespace FST

/-- The iterator is on the key of index `i` (in the state that the traversal keeps), or is
invalid when `i` is the number of keys. -/
def IterAt (t : LoudsSparse) (keys : List (List Nat)) (values : List Nat) (it : Iter)
    (i : Nat) : Prop :=
  (i < keys.length → ∃ a, AtKey t (tvOf keys values) (entOf keys) it a (tK keys i)) ∧
  (keys.length ≤ i → it.isValid = false)

/-- The index that a search outcome stands for: the number of keys when no key qualifies. -/
def cutOf (keys : List (List Nat)) (o : Option Nat) : Nat := o.getD keys.length

end FST

namespace FST

/-- The builder `b` with the ratio `R`. -/
def withRatio (b : FSTBuilder) (R : Nat) : FSTBuilder := { b with sparse_dense_ratio_ := R }

/-- The per-level vectors of the trie of "aa", "ab", "bc" in a builder with the ratio `R`. -/
def smallLevels (R : Nat) : FSTBuilder :=
  withRatio { FSTBuilder.new with
    labels_ := [[97, 98], [97, 98]]
    node_counts_ := [1, 1]
    values_ := [[30], [10, 20]] } R

/-- A row of 410 items. -/
def wideRow : List Nat := List.replicate 410 0

/-- Per-level vectors with one node and 3 labels on level 0 and 3 nodes and 410 labels on
level 1, in a builder with the ratio `R`. -/
def wideLevels (R : Nat) : FSTBuilder :=
  withRatio { FSTBuilder.new with
    labels_ := [[0, 1, 2], wideRow]
    node_counts_ := [1, 3]
    values_ := [[], wideRow] } R

end FST

namespace FST

/-- A builder state with a terminator edge, as the trie of the keys "a" (value 7) and "ab"
(value 8) with a terminator would look: level 0 holds the label 'a' with its child bit set,
level 1 holds the terminator 255 (child bit 0) and the label 'b'. -/
def terminatorLevels : FSTBuilder :=
  { FSTBuilder.new with
    labels_ := [[97], [255, 98]]
    child_indicator_bits_ := [[kMsbMask], [0]]
    louds_bits_ := [[kMsbMask], [kMsbMask]]
    values_ := [[], [7, 8]]
    node_counts_ := [1, 1]
    is_last_item_terminator_ := [false, false] }

/-- The sparse trie that the constructor makes of `terminatorLevels`. -/
def terminatorTrie : LoudsSparse :=
  { positions_sparse_ := [7, 8], height_ := 2, start_level_ := 0, node_count_dense_ := 0,
    child_count_dense_ := 0, labels_ := { num_bytes_ := 4, labels_ := [97, 255, 98] },
    child_indicator_bits_ := { num_bits_ := 3, bits_ := [9223372036854775808] },
    louds_bits_ := { num_bits_ := 3, bits_ := [13835058055282163712] }, keys_ := [] }

/-- From the position `pos` on, every byte of the key is found on an edge whose child bit is
set (and the first label of the child node exists). -/
def ConsumedOnInternalEdges (t : LoudsSparse) : List Nat → Nat → Prop
  | [], _ => True
  | c :: rest, pos =>
    ∃ sz g p2, t.nodeSize pos = some sz ∧ t.labels_.search c pos sz = some (true, g) ∧
      t.child_indicator_bits_.readBit g = some true ∧
      t.getFirstLabelPos (t.getChildNodeNum g) = some p2 ∧
      ConsumedOnInternalEdges t rest p2

end FST

namespace FST

/-- A key of 257 bytes: 256 zero bytes, then 'a'. -/
def longKeyA : List Nat := List.replicate 256 0 ++ [97]

/-- A key of 257 bytes: the byte 1, 255 zero bytes, then 'a'. -/
def longKeyB : List Nat := 1 :: List.replicate 255 0 ++ [97]

end FST

namespace FST

/-- The first position `search` compares with the target: the position after a leading
terminator when the range has more than one label, the start of the range otherwise. -/
def searchStart (LAB : List Nat) (pos len : Nat) : Nat :=
  if 1 < len ∧ LAB.getD pos 0 = kTerminator then pos + 1 else pos

end FST

namespace FST

/-- The result of the backward scan from `p`: the distance to the set bit below `p` that is
nearest, or `p + 1` when no bit below `p` is set. -/
def PrevResult (bits : List Nat) (p d : Nat) : Prop :=
  (d ≤ p ∧ bitAt bits (p - d) = true ∧ ∀ q, p - d < q → q < p → bitAt bits q = false) ∨
  (d = p + 1 ∧ ∀ q, q < p → bitAt bits q = false)

end FST

namespace FST

/-- A per-level packed vector that holds `n` bits: it has the words for them, and nothing is
set past the `n` bits. -/
structure LevelOK (ws : List Nat) (n : Nat) : Prop where
  room : n ≤ 64 * ws.length
  w64 : Words64 ws
  zero : ZeroFrom ws n

/-- The end level the constructors use: `0` stands for the number of levels. -/
def endLevel (wss : List (List Nat)) (e : Nat) : Nat := if e = 0 then wss.length else e

end FST

namespace FST

/-- The invariant of the sparse build for keys of any bytes: the levels are packed as the
builder keeps them, the node count of every level is the number of its set LOUDS bits, and
the first item of every level starts a node. -/
structure WInv (b : FSTBuilder) : Prop where
  packed : ∃ H, BAbs b H (labL b) (chL b) (loL b) (valL b)
  counts : ∀ l, b.node_counts_.getD l 0 = (loL b l).count true
  heads : ∀ l, labL b l ≠ [] → (loL b l).head? = some true

end FST

namespace FST

/-- The number of set bits of a vector of words, read bit by bit. -/
def numSetBits (ws : List Nat) : Nat :=
  ((List.range (64 * ws.length)).filter (fun q => FSTBuilder.readBit ws q == some true)).length

end FST

namespace FST

/-- What `buildDense` reads of level `l`: the labels `lab`, bytes all of them, the
child-indicator words `cw` and the LOUDS words `lw` with a bit for every item, the node count
`nc` equal to the number of set LOUDS bits, a node start at the first item, and bit positions
`node * 256 + label` that fit the 32-bit `position_t`. -/
structure DenseLevel (b : FSTBuilder) (l : Nat) (lab cw lw : List Nat) (nc : Nat) : Prop where
  hlab : b.labels_[l]? = some lab
  hcw : b.child_indicator_bits_[l]? = some cw
  hlw : b.louds_bits_[l]? = some lw
  hnc : b.node_counts_[l]? = some nc
  capc : lab.length ≤ cw.length * 64
  capl : lab.length ≤ lw.length * 64
  cnt : nc = (bitsOf lw lab.length).count true
  head : lab ≠ [] → bitAt lw 0 = true
  bytes : ∀ c ∈ lab, c < 256
  fits : nc * 256 ≤ 2 ^ 32

/-- The number of the node that holds the item `p` of a level: the node starts among the
items `0 .. p`, less one. -/
def nodeNum (lw : List Nat) (p : Nat) : Nat := (bitsOf lw (p + 1)).count true - 1

/-- The item `p` is entered in the prefix-key bits: it is the first label of its node, the
label is the terminator 255 and its child bit is 0. -/
def isPrefixItem (lab cw lw : List Nat) (p : Nat) : Bool :=
  bitAt lw p && ((lab.getD p 0 == kTerminator) && !bitAt cw p)

/-- The three bitmaps `x` (labels), `y` (child indicators) and `z` (prefix keys) of a level
hold the bits of the items before `pos`, and no other bit. -/
structure DenseBits (lab cw lw : List Nat) (pos : Nat) (x y z : List Nat) : Prop where
  labels : ∀ q, bitAt x q = true ↔ ∃ p, p < pos ∧ isPrefixItem lab cw lw p = false ∧
    q = nodeNum lw p * 256 + lab.getD p 0
  child : ∀ q, bitAt y q = true ↔ ∃ p, p < pos ∧ isPrefixItem lab cw lw p = false ∧
    bitAt cw p = true ∧ q = nodeNum lw p * 256 + lab.getD p 0
  pfx : ∀ q, bitAt z q = true ↔ ∃ p, p < pos ∧ isPrefixItem lab cw lw p = true ∧
    q = nodeNum lw p

/-- The state of the loop over the items of a level, before the item `pos`: the bitmaps of
the level have their full lengths and hold the bits of the items before `pos`, and
`node_num` is the number of the node of the item `pos - 1`. -/
def ItemBits (b : FSTBuilder) (bl bc pk : List (List Nat)) (lab cw lw : List Nat)
    (nc pos : Nat) (st : FSTBuilder × Nat) : Prop :=
  ∃ x y z, st.1 = withDense b (bl ++ [x]) (bc ++ [y]) (pk ++ [z]) ∧ x.length = 4 * nc ∧
    y.length = 4 * nc ∧ z.length = (nc + 63) / 64 ∧
    st.2 + 1 = (bitsOf lw pos).count true ∧ DenseBits lab cw lw pos x y z

end FST

namespace FST

/-- The 65 keys of one byte: 0, 1, ..., 64. -/
def keys65 : List (List Nat) := (List.range 65).map (fun i => [i])

end FST

namespace FST

/-- A builder state with a prefix key: the keys "a" and "ab" as the terminator convention
stores them, level 0 with the label 97 (child bit 1), level 1 with one node that holds the
terminator 255 and the label 98 (child bits 0), both levels below the cutoff. -/
def prefixKeySample : FSTBuilder :=
  { FSTBuilder.new with
    include_dense_ := true
    sparse_start_level_ := 2
    labels_ := [[97], [255, 98]]
    child_indicator_bits_ := [[2 ^ 63], [0]]
    louds_bits_ := [[2 ^ 63], [2 ^ 63]]
    node_counts_ := [1, 1]
    is_last_item_terminator_ := [false, false] }

end FST

namespace FST

/-- The outcome of a search for the first label above `target` in `[a, a + len)`: the least
position of the range with a greater label, or false with the position `a` when no label of
the range is greater. -/
def GTRes (LAB : List Nat) (target a len : Nat) (r : Bool × Nat) : Prop :=
  (r.1 = true ∧ a ≤ r.2 ∧ r.2 < a + len ∧ target < LAB.getD r.2 0 ∧
    ∀ q, a ≤ q → q < r.2 → ¬ target < LAB.getD q 0) ∨
  (r = (false, a) ∧ ∀ q, a ≤ q → q < a + len → ¬ target < LAB.getD q 0)

end FST

namespace FST

/-- The reads that a part of a run of `simdSearch` over the labels `[lo, hi)` may add to the
reads `acc` made before: 16-byte loads and single reads inside `[lo, hi)` and below
`num_bytes`. -/
def SimdSafe (num_bytes lo hi : Nat) (acc : List Access) (a : Access) : Prop :=
  a ∈ acc ∨
  (∃ s, a = Access.block s ∧ s + 15 < num_bytes ∧ lo ≤ s ∧ s + 16 ≤ hi) ∨
  (∃ i, a = Access.byte i ∧ i < num_bytes ∧ lo ≤ i ∧ i < hi)

end FST

namespace FST

/-- The sizes of the levels during the sparse build: there are at most `m` levels, the levels
below `lev` hold at most `n + 1` labels and the other levels at most `n`. -/
def SzInv (b : FSTBuilder) (n lev m : Nat) : Prop :=
  b.labels_.length ≤ m ∧ ∀ l, (labL b l).length ≤ if l < lev then n + 1 else n

/-- The cutoff level and the labels of two builder states are the same. -/
def SameTrie (b b1 : FSTBuilder) : Prop :=
  b1.sparse_start_level_ = b.sparse_start_level_ ∧ b1.labels_ = b.labels_

end FST

namespace FST

end FST

namespace FST

/-- The value index of a terminal position as the specification states it:
`pos - rank(child_indicator_bits, pos)`. -/
def valueIndexSpec (t : LoudsSparse) (pos : Nat) : Nat :=
  pos - t.child_indicator_bits_.rank pos

end FST

namespace FST

/-- The index built from "aa", "ab", "ba" with the values 10, 20, 30: the root has the edge
`a` to the node 1 and the terminal edge `b` with the value 30. -/
def tagTrie : LoudsSparse :=
  { positions_sparse_ := [30, 10, 20], height_ := 2, start_level_ := 0, node_count_dense_ := 0,
    child_count_dense_ := 0, labels_ := { num_bytes_ := 5, labels_ := [97, 98, 97, 98] },
    child_indicator_bits_ := { num_bits_ := 4, bits_ := [9223372036854775808] },
    louds_bits_ := { num_bits_ := 4, bits_ := [11529215046068469760] },
    keys_ := [[97, 97], [97, 98], [98, 97]] }

end FST

namespace FST

/-- A row of `n` items. -/
def hugeRow (n : Nat) : List Nat := List.replicate n 0

/-- The per-level vectors of a trie of five levels over 2 ^ 29 keys of five bytes: 1, 256,
65536, 2 ^ 24 and 2 ^ 25 nodes and 256, 65536, 2 ^ 24, 2 ^ 25 and 2 ^ 29 labels on the
levels 0 to 4, in a builder with the ratio 16. -/
def hugeLevels : FSTBuilder :=
  withRatio { FSTBuilder.new with
    labels_ := [hugeRow 256, hugeRow 65536, hugeRow 16777216, hugeRow 33554432,
      hugeRow 536870912]
    node_counts_ := [1, 256, 65536, 16777216, 33554432]
    values_ := [[], [], [], [], hugeRow 536870912] } 16

/-- The level sizes of `hugeLevels`: the rows of labels enter by their lengths only. -/
structure HugeShape (b : FSTBuilder) (r0 r1 r2 r3 r4 : List Nat) : Prop where
  labels : b.labels_ = [r0, r1, r2, r3, r4]
  counts : b.node_counts_ = [1, 256, 65536, 16777216, 33554432]
  ratio : b.sparse_dense_ratio_ = 16
  h0 : r0.length = 256
  h1 : r1.length = 65536
  h2 : r2.length = 16777216
  h3 : r3.length = 33554432
  h4 : r4.length = 536870912

end FST

/-! # Theorems -/

namespace FST

/-! ## Bits of packed word vectors -/

theorem msb_shift (off : Nat) (h : off < 64) : kMsbMask >>> off = 2 ^ (63 - off) := by
  have : kMsbMask = 2 ^ 63 := by decide
  rw [this, Nat.shiftRight_eq_div_pow, Nat.pow_div (by omega) (by decide)]

theorem mask_test (w off : Nat) (h : off < 64) :
    ((w &&& (kMsbMask >>> off)) != 0) = w.testBit (63 - off) := by
  rw [msb_shift off h, Nat.and_two_pow]
  cases hb : w.testBit (63 - off) <;> simp

theorem bitsOf_length (ws : List Nat) (n : Nat) : (bitsOf ws n).length = n := by
  simp [bitsOf]

theorem bitsOf_getElem? (ws : List Nat) (n q : Nat) (h : q < n) :
    (bitsOf ws n)[q]? = some (bitAt ws q) := by
  simp [bitsOf, List.getElem?_range h]

theorem bitsOf_succ (ws : List Nat) (n : Nat) :
    bitsOf ws (n + 1) = bitsOf ws n ++ [bitAt ws n] := by
  simp [bitsOf, List.range_succ]

theorem builder_readBit_eq (ws : List Nat) (pos : Nat) (h : pos < ws.length * 64) :
    FSTBuilder.readBit ws pos = some (bitAt ws pos) := by
  have h2 : pos % 64 < 64 := Nat.mod_lt _ (by decide)
  simp only [FSTBuilder.readBit, kWordSize, h, if_true, bitAt]
  rw [mask_test _ _ h2]

theorem setBit_eq (ws : List Nat) (pos : Nat) (h : pos < ws.length * 64) :
    ∃ ws1, FSTBuilder.setBit ws pos = some ws1 ∧ ws1.length = ws.length ∧
      (∀ q, bitAt ws1 q = (decide (q = pos) || bitAt ws q)) ∧
      (Words64 ws → Words64 ws1) := by
  have h2 : pos % 64 < 64 := Nat.mod_lt _ (by decide)
  have h3 : pos / 64 < ws.length := by omega
  refine ⟨ws.set (pos / 64) (ws.getD (pos / 64) 0 ||| (kMsbMask >>> (pos % 64))), ?_, ?_, ?_, ?_⟩
  · simp only [FSTBuilder.setBit, kWordSize, h, if_true]
  · simp
  · intro q
    simp only [bitAt, List.getD_eq_getElem?_getD, List.getElem?_set, msb_shift _ h2]
    by_cases hq : pos / 64 = q / 64
    · simp only [hq, if_true]
      have h4 : q / 64 < ws.length := by omega
      simp only [h4, if_true, Option.getD_some, Nat.testBit_or, Nat.testBit_two_pow]
      rw [hq] at h3
      have : (decide (63 - pos % 64 = 63 - q % 64)) = decide (q = pos) := by
        have hq2 : q % 64 < 64 := Nat.mod_lt _ (by decide)
        apply decide_eq_decide.mpr
        constructor <;> intro h5 <;> omega
      rw [this, Bool.or_comm]
    · simp only [hq, if_false]
      have : decide (q = pos) = false := by
        apply decide_eq_false; intro h5; subst h5; exact hq rfl
      simp [this]
  · intro hw w hmem
    rcases List.mem_or_eq_of_mem_set hmem with h5 | h5
    · exact hw w h5
    · subst h5
      rw [msb_shift _ h2]
      apply Nat.or_lt_two_pow
      · have : ws.getD (pos / 64) 0 ∈ ws := by
          rw [List.getD_eq_getElem?_getD, List.getElem?_eq_getElem h3]
          simp
        exact hw _ this
      · exact Nat.pow_lt_pow_right (by decide) (by omega)

theorem bitAt_append_zero (ws : List Nat) (q : Nat) : bitAt (ws ++ [0]) q = bitAt ws q := by
  simp only [bitAt, List.getD_eq_getElem?_getD]
  by_cases h : q / 64 < ws.length
  · rw [List.getElem?_append_left h]
  · rw [List.getElem?_append_right (by omega)]
    have : ws[q / 64]? = none := List.getElem?_eq_none (by omega)
    rw [this]
    by_cases h2 : q / 64 - ws.length = 0
    · simp [h2]
    · have : ([0] : List Nat)[q / 64 - ws.length]? = none :=
        List.getElem?_eq_none (by simp; omega)
      rw [this]

theorem bitsOf_append_zero (ws : List Nat) (n : Nat) : bitsOf (ws ++ [0]) n = bitsOf ws n := by
  simp only [bitsOf]
  apply List.map_congr_left
  intro q _
  exact bitAt_append_zero ws q

theorem words64_append_zero (ws : List Nat) (h : Words64 ws) : Words64 (ws ++ [0]) := by
  intro w hw
  rcases List.mem_append.mp hw with h1 | h1
  · exact h w h1
  · simp at h1; subst h1; decide

theorem bitAt_of_length_le (ws : List Nat) (q : Nat) (h : ws.length * 64 ≤ q) :
    bitAt ws q = false := by
  simp only [bitAt, List.getD_eq_getElem?_getD]
  have : ws[q / 64]? = none := List.getElem?_eq_none (by omega)
  simp [this]

end FST

namespace FST

theorem orAt_eq (bits : List Nat) (i x : Nat) (h : i < bits.length) :
    ∃ bits1, Bitvector.orAt bits i x = some bits1 ∧ bits1.length = bits.length ∧
      (∀ q, bitAt bits1 q = (bitAt bits q || (decide (q / 64 = i) && x.testBit (63 - q % 64)))) ∧
      (Words64 bits → x < 2 ^ 64 → Words64 bits1) := by
  refine ⟨bits.set i (bits[i] ||| x), ?_, ?_, ?_, ?_⟩
  · simp [Bitvector.orAt, List.getElem?_eq_getElem h]
  · simp
  · intro q
    simp only [bitAt, List.getD_eq_getElem?_getD, List.getElem?_set]
    by_cases hq : i = q / 64
    · subst hq
      simp [h, Nat.testBit_or]
    · have : ¬ q / 64 = i := fun h5 => hq h5.symm
      simp [hq, this]
  · intro hw hx w hmem
    rcases List.mem_or_eq_of_mem_set hmem with h5 | h5
    · exact hw w h5
    · subst h5
      exact Nat.or_lt_two_pow (hw _ (List.getElem_mem h)) hx

theorem testBit_high (w i : Nat) (hw : w < 2 ^ 64) (hi : 64 ≤ i) : w.testBit i = false := by
  apply Nat.testBit_lt_two_pow
  exact lt_of_lt_of_le hw (Nat.pow_le_pow_right (by decide) hi)

theorem shl64_lt (w s : Nat) : shl64 w s < 2 ^ 64 := Nat.mod_lt _ (by positivity)

theorem shr_lt (w s : Nat) (hw : w < 2 ^ 64) : w >>> s < 2 ^ 64 := by
  rw [Nat.shiftRight_eq_div_pow]
  exact lt_of_le_of_lt (Nat.div_le_self _ _) hw

/-- Writing the first `r` bits of `w` at the current position. -/
theorem write_single (NW : Nat) (flat : List Bool) (s : Bitvector.ConcatState) (w r : Nat)
    (hinv : CInv NW flat s) (hw : w < 2 ^ 64) (hr : s.bit_shift + r ≤ 64)
    (hz : ∀ j, r ≤ j → j < 64 → w.testBit (63 - j) = false)
    (hroom : s.word_id < NW) :
    ∃ bits1, Bitvector.orAt s.bits s.word_id (w >>> s.bit_shift) = some bits1 ∧
      bits1.length = NW ∧ Words64 bits1 ∧
      ∀ q, bitAt bits1 q = (flat ++ (wordBits w).take r).getD q false := by
  obtain ⟨hs, hlen, hw64, hpos, hbits⟩ := hinv
  obtain ⟨bits1, h1, h2, h3, h4⟩ := orAt_eq s.bits s.word_id (w >>> s.bit_shift) (by omega)
  refine ⟨bits1, h1, by omega, h4 hw64 (shr_lt _ _ hw), ?_⟩
  intro q
  rw [h3 q, hbits q, Nat.testBit_shiftRight]
  have hq2 : q % 64 < 64 := Nat.mod_lt _ (by decide)
  simp only [List.getD_eq_getElem?_getD]
  by_cases hq : q < flat.length
  · rw [List.getElem?_append_left hq]
    have : (w.testBit (s.bit_shift + (63 - q % 64))) = false ∨ ¬ (q / 64 = s.word_id) := by
      by_cases h5 : q / 64 = s.word_id
      · left; apply testBit_high _ _ hw; omega
      · right; exact h5
    rcases this with h5 | h5
    · simp [h5]
    · simp [h5]
  · rw [List.getElem?_append_right (by omega)]
    have hnone : flat[q]? = none := List.getElem?_eq_none (by omega)
    rw [hnone]
    simp only [Option.getD_none, Bool.false_or]
    by_cases h5 : q / 64 = s.word_id
    · have hj : q - flat.length = q % 64 - s.bit_shift := by omega
      have hj2 : s.bit_shift ≤ q % 64 := by omega
      by_cases h6 : q - flat.length < r
      · have h7 : ((wordBits w).take r)[q - flat.length]? = some (w.testBit (63 - (q - flat.length))) := by
          rw [List.getElem?_take_of_lt h6]
          simp only [wordBits]
          rw [List.getElem?_map, List.getElem?_range (by omega)]
          rfl
        rw [h7]
        simp only [h5, decide_True, Bool.true_and, Option.getD_some]
        congr 1
        omega
      · have h7 : ((wordBits w).take r)[q - flat.length]? = none :=
          List.getElem?_eq_none (by simp [wordBits]; omega)
        rw [h7]
        simp only [h5, decide_True, Bool.true_and, Option.getD_none]
        have := hz (q % 64 - s.bit_shift) (by omega) (by omega)
        rw [← this]
        congr 1
        omega
    · have h7 : ((wordBits w).take r)[q - flat.length]? = none :=
        List.getElem?_eq_none (by simp [wordBits]; omega)
      rw [h7]
      simp [h5]

/-- Writing all 64 bits of `w` at the current position, across a word boundary. -/
theorem write_double (NW : Nat) (flat : List Bool) (s : Bitvector.ConcatState) (w r : Nat)
    (hinv : CInv NW flat s) (hw : w < 2 ^ 64) (hsh : 0 < s.bit_shift) (hr : r ≤ 64)
    (hr2 : 64 < s.bit_shift + r)
    (hz : ∀ j, r ≤ j → j < 64 → w.testBit (63 - j) = false)
    (hroom : s.word_id + 1 < NW) :
    ∃ bits1 bits2, Bitvector.orAt s.bits s.word_id (w >>> s.bit_shift) = some bits1 ∧
      Bitvector.orAt bits1 (s.word_id + 1) (shl64 w (kWordSize - s.bit_shift)) = some bits2 ∧
      bits2.length = NW ∧ Words64 bits2 ∧
      ∀ q, bitAt bits2 q = (flat ++ (wordBits w).take r).getD q false := by
  obtain ⟨hs, hlen, hw64, hpos, hbits⟩ := hinv
  obtain ⟨bits1, h1, h2, h3, h4⟩ := orAt_eq s.bits s.word_id (w >>> s.bit_shift) (by omega)
  obtain ⟨bits2, g1, g2, g3, g4⟩ :=
    orAt_eq bits1 (s.word_id + 1) (shl64 w (kWordSize - s.bit_shift)) (by omega)
  refine ⟨bits1, bits2, h1, g1, by omega, g4 (h4 hw64 (shr_lt _ _ hw)) (shl64_lt _ _), ?_⟩
  intro q
  rw [g3 q, h3 q, hbits q, Nat.testBit_shiftRight]
  have hq2 : q % 64 < 64 := Nat.mod_lt _ (by decide)
  simp only [List.getD_eq_getElem?_getD, shl64, kWordSize, Nat.testBit_mod_two_pow,
    Nat.testBit_shiftLeft]
  by_cases hq : q < flat.length
  · rw [List.getElem?_append_left hq]
    have e1 : (decide (q / 64 = s.word_id) && w.testBit (s.bit_shift + (63 - q % 64))) = false := by
      by_cases h5 : q / 64 = s.word_id
      · have : w.testBit (s.bit_shift + (63 - q % 64)) = false := by
          apply testBit_high _ _ hw; omega
        simp [this]
      · simp [h5]
    have e2 : decide (q / 64 = s.word_id + 1) = false := by
      apply decide_eq_false; omega
    rw [e1, e2]; simp
  · rw [List.getElem?_append_right (by omega)]
    have hnone : flat[q]? = none := List.getElem?_eq_none (by omega)
    rw [hnone]
    simp only [Option.getD_none, Bool.false_or]
    by_cases h6 : q - flat.length < r
    · have h7 : ((wordBits w).take r)[q - flat.length]? =
          some (w.testBit (63 - (q - flat.length))) := by
        rw [List.getElem?_take_of_lt h6]
        simp only [wordBits]
        rw [List.getElem?_map, List.getElem?_range (by omega)]
        rfl
      rw [h7]
      simp only [Option.getD_some]
      by_cases h5 : q / 64 = s.word_id
      · have e2 : decide (q / 64 = s.word_id + 1) = false := by
          apply decide_eq_false; omega
        rw [e2]
        simp only [h5, decide_True, Bool.true_and, Bool.false_and, Bool.or_false]
        congr 1
        omega
      · have h8 : q / 64 = s.word_id + 1 := by omega
        have e3 : decide (63 - q % 64 < 64) = true := by
          apply decide_eq_true; omega
        have e4 : decide (63 - q % 64 ≥ 64 - s.bit_shift) = true := by
          apply decide_eq_true; omega
        simp only [h5, h8, decide_False, decide_True, Bool.false_and, Bool.false_or, e3, e4,
          Bool.true_and]
        have e5 : 63 - q % 64 - (64 - s.bit_shift) = 63 - (q - flat.length) := by
          have := Nat.div_add_mod q 64
          omega
        rw [e5]
        simp
    · have h7 : ((wordBits w).take r)[q - flat.length]? = none :=
        List.getElem?_eq_none (by simp [wordBits]; omega)
      rw [h7]
      simp only [Option.getD_none]
      by_cases h5 : q / 64 = s.word_id
      · exfalso; omega
      · by_cases h8 : q / 64 = s.word_id + 1
        · by_cases h9 : q % 64 < s.bit_shift
          · have := hz (q - flat.length) (by omega) (by omega)
            have e5 : 63 - q % 64 - (64 - s.bit_shift) = 63 - (q - flat.length) := by omega
            rw [e5, this]
            simp [h5]
          · have e4 : decide (63 - q % 64 ≥ 64 - s.bit_shift) = false := by
              apply decide_eq_false; omega
            rw [e4]
            simp [h5]
        · simp [h5, h8]

end FST

namespace FST

theorem bitAt_word (ws : List Nat) (i j : Nat) (hi : i < ws.length) (hj : j < 64) :
    bitAt ws (64 * i + j) = ws[i].testBit (63 - j) := by
  simp only [bitAt, List.getD_eq_getElem?_getD]
  have h1 : (64 * i + j) / 64 = i := by omega
  have h2 : (64 * i + j) % 64 = j := by omega
  rw [h1, h2, List.getElem?_eq_getElem hi]
  rfl

theorem bitsOf_add (ws : List Nat) (a k : Nat) :
    bitsOf ws (a + k) = bitsOf ws a ++ (List.range k).map (fun j => bitAt ws (a + j)) := by
  induction k with
  | zero => simp
  | succ k ih =>
    rw [← Nat.add_assoc, bitsOf_succ, ih, List.range_succ]
    simp

theorem bitsOf_word (ws : List Nat) (i r : Nat) (hi : i < ws.length) (hr : r ≤ 64) :
    bitsOf ws (64 * i + r) = bitsOf ws (64 * i) ++ (wordBits ws[i]).take r := by
  rw [bitsOf_add]
  congr 1
  apply List.ext_getElem?
  intro j
  by_cases hj : j < r
  · rw [List.getElem?_take_of_lt hj]
    simp only [wordBits, List.getElem?_map]
    rw [List.getElem?_range hj, List.getElem?_range (by omega)]
    simp only [Option.map_some']
    rw [bitAt_word ws i j hi (by omega)]
  · rw [List.getElem?_eq_none (by simp; omega), List.getElem?_eq_none (by simp [wordBits]; omega)]

theorem word_zero_of_zeroFrom (ws : List Nat) (n c : Nat) (hz : ZeroFrom ws n)
    (hc : c < ws.length) (hn : 64 * c ≤ n) :
    ∀ j, n - 64 * c ≤ j → j < 64 → ws[c].testBit (63 - j) = false := by
  intro j h1 h2
  rw [← bitAt_word ws c j hc h2]
  exact hz _ (by omega)

theorem forRange_zero {σ : Type} (body : Nat → σ → Option σ) (x : Nat) (s : σ) :
    forRange body 0 x s = some s := rfl

theorem forRange_succ {σ : Type} (body : Nat → σ → Option σ) (n x : Nat) (s : σ) :
    forRange body (n + 1) x s = (body x s).bind (fun s1 => forRange body n (x + 1) s1) := rfl

theorem concatWord_ok (NW : Nat) (flat : List Bool) (s : Bitvector.ConcatState)
    (src : List Nat) (word : Nat) (hinv : CInv NW flat s) (hsrc : Words64 src)
    (hword : word < src.length) (hroom : flat.length + 64 ≤ 64 * NW) :
    ∃ s1, Bitvector.concatWord src word s = some s1 ∧ CInv NW (flat ++ wordBits src[word]) s1 ∧
      s1.bit_shift = s.bit_shift := by
  have hw : src[word] < 2 ^ 64 := hsrc _ (List.getElem_mem hword)
  have hp := hinv.pos
  have hs := hinv.shift_lt
  have htake : (wordBits src[word]).take 64 = wordBits src[word] := by
    apply List.take_of_length_le; simp [wordBits]
  by_cases hsh : 0 < s.bit_shift
  · obtain ⟨bits1, bits2, h1, h2, h3, h4, h5⟩ :=
      write_double NW flat s src[word] 64 hinv hw hsh (le_refl _) (by omega)
        (by intro j h1 h2; omega) (by omega)
    refine ⟨⟨bits2, s.bit_shift, s.word_id + 1⟩, ?_, ?_, rfl⟩
    · have hgt : s.bit_shift > 0 := hsh
      simp only [Bitvector.concatWord, List.getElem?_eq_getElem hword, Option.bind_eq_bind,
        Option.some_bind, h1, hgt, if_true, h2]
    · rw [htake] at h5
      exact ⟨hs, h3, h4, by simp [wordBits]; omega, h5⟩
  · have hsh0 : s.bit_shift = 0 := by omega
    obtain ⟨bits1, h1, h3, h4, h5⟩ :=
      write_single NW flat s src[word] 64 hinv hw (by omega)
        (by intro j h1 h2; omega) (by omega)
    refine ⟨⟨bits1, s.bit_shift, s.word_id + 1⟩, ?_, ?_, rfl⟩
    · have hgt : ¬ s.bit_shift > 0 := hsh
      simp only [Bitvector.concatWord, List.getElem?_eq_getElem hword, Option.bind_eq_bind,
        Option.some_bind, h1, hgt, if_false]
    · rw [htake] at h5
      exact ⟨hs, h3, h4, by simp [wordBits]; omega, h5⟩

theorem concatWords_ok (NW : Nat) (src : List Nat) (hsrc : Words64 src) (flat0 : List Bool) :
    ∀ (cnt word : Nat) (s : Bitvector.ConcatState),
      CInv NW (flat0 ++ bitsOf src (64 * word)) s → word + cnt ≤ src.length →
      flat0.length + 64 * (word + cnt) ≤ 64 * NW →
      ∃ s1, forRange (Bitvector.concatWord src) cnt word s = some s1 ∧
        CInv NW (flat0 ++ bitsOf src (64 * (word + cnt))) s1 := by
  intro cnt
  induction cnt with
  | zero => intro word s h _ _; exact ⟨s, rfl, h⟩
  | succ cnt ih =>
    intro word s hinv hlen hroom
    obtain ⟨s1, h1, h2, _⟩ := concatWord_ok NW _ s src word hinv hsrc (by omega)
      (by simp [bitsOf_length]; omega)
    have h3 : CInv NW (flat0 ++ bitsOf src (64 * (word + 1))) s1 := by
      have := bitsOf_word src word 64 (by omega) (le_refl _)
      rw [List.take_of_length_le (by simp [wordBits])] at this
      rw [Nat.mul_add, Nat.mul_one, this, ← List.append_assoc]
      exact h2
    obtain ⟨s2, h4, h5⟩ := ih (word + 1) s1 h3 (by omega) (by omega)
    refine ⟨s2, ?_, ?_⟩
    · rw [forRange_succ, h1]; exact h4
    · have : word + (cnt + 1) = word + 1 + cnt := by omega
      rw [this]; exact h5

theorem concatLevel_ok (NW : Nat) (wss : List (List Nat)) (ns : List Nat) (level : Nat)
    (ws : List Nat) (n : Nat) (hws : wss[level]? = some ws) (hn : ns[level]? = some n)
    (hp : PackedOK ws n) (flat : List Bool) (s : Bitvector.ConcatState)
    (hinv : CInv NW flat s) (hroom : flat.length + n ≤ 64 * NW) :
    ∃ s1, Bitvector.concatLevel wss ns level s = some s1 ∧ CInv NW (flat ++ bitsOf ws n) s1 := by
  by_cases hn0 : n = 0
  · subst hn0
    refine ⟨s, by simp [Bitvector.concatLevel, hn], ?_⟩
    simpa [bitsOf] using hinv
  have hbeq : (n == 0) = false := by simpa using hn0
  have hinv0 : CInv NW (flat ++ bitsOf ws (64 * 0)) s := by simpa [bitsOf] using hinv
  obtain ⟨s1, h1, h2⟩ := concatWords_ok NW ws hp.w64 flat (n / 64) 0 s hinv0
    (by rw [hp.len]; omega) (by omega)
  simp only [Nat.zero_add] at h2
  have hs1 := h2.shift_lt
  have hpos1 := h2.pos
  simp only [List.length_append, bitsOf_length] at hpos1
  have hc : n / 64 < ws.length := by rw [hp.len]; omega
  by_cases hr : 0 < n - n / 64 * 64
  · have hr64 : n - n / 64 * 64 < 64 := by omega
    have hw : ws[n / 64] < 2 ^ 64 := hp.w64 _ (List.getElem_mem hc)
    have hz := word_zero_of_zeroFrom ws n (n / 64) hp.zero hc (by omega)
    have hbits : bitsOf ws n = bitsOf ws (64 * (n / 64)) ++ (wordBits ws[n / 64]).take (n - n / 64 * 64) := by
      have := bitsOf_word ws (n / 64) (n - n / 64 * 64) hc (by omega)
      rw [← this]; congr 1; omega
    have hz2 : ∀ j, n - n / 64 * 64 ≤ j → j < 64 → ws[n / 64].testBit (63 - j) = false := by
      intro j h3 h4; exact hz j (by omega) h4
    by_cases hcase : s1.bit_shift + (n - n / 64 * 64) ≤ 64
    · obtain ⟨bits1, g1, g3, g4, g5⟩ :=
        write_single NW _ s1 ws[n / 64] (n - n / 64 * 64) h2 hw hcase hz2 (by omega)
      rw [List.append_assoc, ← hbits] at g5
      by_cases hlt : s1.bit_shift + (n - n / 64 * 64) < 64
      · refine ⟨⟨bits1, s1.bit_shift + (n - n / 64 * 64), s1.word_id⟩, ?_, ?_⟩
        · have hr' : n - n / 64 * 64 > 0 := hr
          simp only [Bitvector.concatLevel, hn, hbeq, hws, h1, kWordSize, hr', Option.bind_eq_bind,
            Option.some_bind, List.getElem?_eq_getElem hc, g1, hlt, if_true, Bool.false_eq_true,
            if_false]
        · exact ⟨hlt, g3, g4, by simp only [List.length_append, bitsOf_length]; omega, g5⟩
      · have heq : s1.bit_shift + (n - n / 64 * 64) = 64 := by omega
        refine ⟨⟨bits1, 0, s1.word_id + 1⟩, ?_, ?_⟩
        · have hr' : n - n / 64 * 64 > 0 := hr
          have hbeq2 : (s1.bit_shift + (n - n / 64 * 64) == 64) = true := by simpa using heq
          simp only [Bitvector.concatLevel, hn, hbeq, hws, h1, kWordSize, hr', Option.bind_eq_bind,
            Option.some_bind, List.getElem?_eq_getElem hc, g1, hlt, if_true, Bool.false_eq_true,
            if_false, hbeq2]
        · exact ⟨by show 0 < 64; decide, g3, g4,
            by simp only [List.length_append, bitsOf_length]; omega, g5⟩
    · obtain ⟨bits1, bits2, g1, g2, g3, g4, g5⟩ :=
        write_double NW _ s1 ws[n / 64] (n - n / 64 * 64) h2 hw (by omega) (by omega)
          (by omega) hz2 (by omega)
      rw [List.append_assoc, ← hbits] at g5
      refine ⟨⟨bits2, s1.bit_shift + (n - n / 64 * 64) - 64, s1.word_id + 1⟩, ?_, ?_⟩
      · have hlt : ¬ s1.bit_shift + (n - n / 64 * 64) < 64 := by omega
        have hne : (s1.bit_shift + (n - n / 64 * 64) == 64) = false := by
          simp only [beq_eq_false_iff_ne]; omega
        have hr' : n - n / 64 * 64 > 0 := hr
        simp only [kWordSize] at g2
        simp only [Bitvector.concatLevel, hn, hbeq, hws, h1, kWordSize, hr', Option.bind_eq_bind,
          Option.some_bind, List.getElem?_eq_getElem hc, g1, hlt, if_true, Bool.false_eq_true,
          if_false, hne, g2]
      · exact ⟨by show s1.bit_shift + (n - n / 64 * 64) - 64 < 64; omega, g3, g4,
          by simp only [List.length_append, bitsOf_length]; omega, g5⟩
  · have hdiv : n = 64 * (n / 64) := by omega
    refine ⟨s1, ?_, ?_⟩
    · have hr' : ¬ n - n / 64 * 64 > 0 := hr
      simp only [Bitvector.concatLevel, hn, hbeq, hws, h1, kWordSize, hr', Option.bind_eq_bind,
        Option.some_bind, if_false, Bool.false_eq_true]
    · rw [← hdiv] at h2; exact h2

end FST

namespace FST

theorem levelsBits_length (wss : List (List Nat)) (ns : List Nat) (start cnt : Nat) :
    (levelsBits wss ns start cnt).length = levelsLen ns start cnt := by
  induction cnt generalizing start with
  | zero => simp [levelsBits, levelsLen]
  | succ cnt ih =>
    have := ih (start + 1)
    simp only [levelsBits, levelsLen, List.range'_succ, List.map_cons, List.flatten_cons,
      List.length_append, bitsOf_length, List.sum_cons] at this ⊢
    omega

theorem levelsBits_succ (wss : List (List Nat)) (ns : List Nat) (start cnt : Nat) :
    levelsBits wss ns start (cnt + 1) =
      bitsOf (wss.getD start []) (ns.getD start 0) ++ levelsBits wss ns (start + 1) cnt := by
  simp [levelsBits, List.range'_succ]

theorem levelsLen_succ (ns : List Nat) (start cnt : Nat) :
    levelsLen ns start (cnt + 1) = ns.getD start 0 + levelsLen ns (start + 1) cnt := by
  simp [levelsLen, List.range'_succ]

theorem totalNumBits_loop (ns : List Nat) :
    ∀ (cnt start acc : Nat), start + cnt ≤ ns.length →
      forRange (fun level num_bits => (ns[level]?).bind fun n => some (num_bits + n))
        cnt start acc = some (acc + levelsLen ns start cnt) := by
  intro cnt
  induction cnt with
  | zero => intro start acc _; simp [forRange_zero, levelsLen]
  | succ cnt ih =>
    intro start acc h
    have hlt : start < ns.length := by omega
    rw [forRange_succ]
    simp only [List.getElem?_eq_getElem hlt, Option.some_bind]
    rw [ih (start + 1) _ (by omega), levelsLen_succ]
    simp only [List.getD_eq_getElem?_getD, List.getElem?_eq_getElem hlt, Option.getD_some]
    congr 1; omega

theorem concatLevels_ok (NW : Nat) (wss : List (List Nat)) (ns : List Nat) :
    ∀ (cnt start : Nat) (flat : List Bool) (s : Bitvector.ConcatState),
      CInv NW flat s →
      (∀ l, start ≤ l → l < start + cnt → ∃ ws n, wss[l]? = some ws ∧ ns[l]? = some n ∧
        PackedOK ws n) →
      flat.length + levelsLen ns start cnt ≤ 64 * NW →
      ∃ s1, forRange (Bitvector.concatLevel wss ns) cnt start s = some s1 ∧
        CInv NW (flat ++ levelsBits wss ns start cnt) s1 := by
  intro cnt
  induction cnt with
  | zero =>
    intro start flat s h _ _
    exact ⟨s, rfl, by simpa [levelsBits] using h⟩
  | succ cnt ih =>
    intro start flat s hinv hlev hroom
    obtain ⟨ws, n, h1, h2, h3⟩ := hlev start (le_refl _) (by omega)
    have hn : ns.getD start 0 = n := by simp [List.getD_eq_getElem?_getD, h2]
    have hw : wss.getD start [] = ws := by simp [List.getD_eq_getElem?_getD, h1]
    rw [levelsLen_succ, hn] at hroom
    obtain ⟨s1, g1, g2⟩ := concatLevel_ok NW wss ns start ws n h1 h2 h3 flat s hinv (by omega)
    obtain ⟨s2, g3, g4⟩ := ih (start + 1) _ s1 g2
      (by intro l hl1 hl2; exact hlev l (by omega) (by omega))
      (by simp only [List.length_append, bitsOf_length]; omega)
    refine ⟨s2, ?_, ?_⟩
    · rw [forRange_succ, g1]; exact g3
    · rw [levelsBits_succ, hn, hw, ← List.append_assoc]; exact g4

theorem numWords_bound (bv : Bitvector) : bv.num_bits_ ≤ 64 * bv.numWords := by
  simp only [Bitvector.numWords, kWordSize]
  split <;> rename_i h
  · simp only [beq_iff_eq] at h; omega
  · omega

theorem cinv_zero (NW : Nat) : CInv NW [] ⟨List.replicate NW 0, 0, 0⟩ := by
  refine ⟨by show 0 < 64; omega, by simp, ?_, by simp, ?_⟩
  · intro w hw
    rw [List.mem_replicate] at hw
    rw [hw.2]; decide
  · intro q
    simp only [bitAt, List.getD_eq_getElem?_getD]
    by_cases h : q / 64 < NW
    · simp [List.getElem?_replicate, h]
    · simp [List.getElem?_replicate, h]

theorem Bitvector_new_ok (wss : List (List Nat)) (ns : List Nat) (start e : Nat)
    (he : e = wss.length) (hlen : ns.length = wss.length) (hse : start ≤ e)
    (hlev : ∀ l, l < e → ∃ ws n, wss[l]? = some ws ∧ ns[l]? = some n ∧ PackedOK ws n) :
    ∃ bv, Bitvector.new wss ns start e = some bv ∧
      BVRepr bv (levelsBits wss ns start (e - start)) := by
  have hend : (if (e == 0) = true then wss.length else e) = e := by
    split <;> simp_all
  have htot := totalNumBits_loop ns (e - start) start 0 (by omega)
  simp only [Nat.zero_add] at htot
  let bv0 : Bitvector := { num_bits_ := levelsLen ns start (e - start), bits_ := [] }
  have hb := numWords_bound bv0
  obtain ⟨s1, g1, g2⟩ := concatLevels_ok bv0.numWords wss ns (e - start) start [] _
    (cinv_zero _) (by intro l h1 h2; exact hlev l (by omega))
    (by simpa using hb)
  refine ⟨⟨levelsLen ns start (e - start), s1.bits⟩, ?_, ?_⟩
  · simp only [Bitvector.new, hend, Bitvector.totalNumBits, htot, Option.bind_eq_bind,
      Option.some_bind, Bitvector.concatenateBitvectors, g1]
  · simp only [List.nil_append] at g2
    exact ⟨by simp [levelsBits_length], g2.len, g2.w64, g2.bits⟩

theorem BVRepr.readBit_eq {bv : Bitvector} {flat : List Bool} (h : BVRepr bv flat) (q : Nat)
    (hq : q < flat.length) : bv.readBit q = some (flat.getD q false) := by
  have h1 : q < bv.num_bits_ := by rw [h.nbits]; exact hq
  have h2 := numWords_bound bv
  have h3 : q / 64 < bv.bits_.length := by rw [h.len]; omega
  have h4 : q % 64 < 64 := Nat.mod_lt _ (by decide)
  simp only [Bitvector.readBit, check, h1, decide_True, if_true, Option.bind_eq_bind,
    Option.some_bind, kWordSize, List.getElem?_eq_getElem h3]
  rw [mask_test _ _ h4, ← h.bits q]
  simp [bitAt, List.getD_eq_getElem?_getD, List.getElem?_eq_getElem h3]

theorem BVRepr.readBit_none {bv : Bitvector} {flat : List Bool} (h : BVRepr bv flat) (q : Nat)
    (hq : flat.length ≤ q) : bv.readBit q = none := by
  have h1 : ¬ q < bv.num_bits_ := by rw [h.nbits]; omega
  simp [Bitvector.readBit, check, h1]

theorem BVRepr.readBit_true {bv : Bitvector} {flat : List Bool} (h : BVRepr bv flat) (q : Nat) :
    (bv.readBit q == some true) = flat.getD q false := by
  by_cases hq : q < flat.length
  · rw [h.readBit_eq q hq]
    cases flat.getD q false <;> simp
  · rw [h.readBit_none q (by omega)]
    have : flat.getD q false = false := by
      simp [List.getD_eq_getElem?_getD, List.getElem?_eq_none (show flat.length ≤ q by omega)]
    rw [this]; simp

end FST

namespace FST

theorem clzFrom_spec (w : Nat) :
    ∀ (fuel i : Nat), i + fuel = 64 → (∀ j, j < i → w.testBit (63 - j) = false) →
      (∃ j, j < 64 ∧ w.testBit (63 - j) = true) →
      clzFrom w fuel i < 64 ∧ w.testBit (63 - clzFrom w fuel i) = true ∧
        ∀ j, j < clzFrom w fuel i → w.testBit (63 - j) = false := by
  intro fuel
  induction fuel with
  | zero =>
    intro i hi hz hex
    obtain ⟨j, hj, hb⟩ := hex
    rw [hz j (by omega)] at hb
    exact Bool.noConfusion hb
  | succ fuel ih =>
    intro i hi hz hex
    simp only [clzFrom]
    by_cases hb : w.testBit (63 - i) = true
    · rw [if_pos hb]
      exact ⟨by omega, hb, hz⟩
    · rw [if_neg hb]
      apply ih (i + 1) (by omega) _ hex
      intro j hj
      by_cases e : j = i
      · subst e; simpa using hb
      · exact hz j (by omega)

theorem clz_spec (w : Nat) (hw : w < 2 ^ 64) (h0 : 0 < w) :
    clzll w < 64 ∧ w.testBit (63 - clzll w) = true ∧
      ∀ j, j < clzll w → w.testBit (63 - j) = false := by
  apply clzFrom_spec w 64 0 (by omega) (fun j hj => by omega)
  have hne : w ≠ 0 := by omega
  obtain ⟨k, hk⟩ := Nat.ne_zero_implies_bit_true hne
  have hk64 : k < 64 := by
    by_contra hc
    have : w.testBit k = false :=
      Nat.testBit_lt_two_pow (lt_of_lt_of_le hw (Nat.pow_le_pow_right (by decide) (by omega)))
    rw [this] at hk
    exact Bool.noConfusion hk
  exact ⟨63 - k, by omega, by rw [show 63 - (63 - k) = k by omega]; exact hk⟩

theorem shl64_testBit (w off j : Nat) (hj : j < 64) :
    (shl64 w off).testBit (63 - j) = (decide (off + j < 64) && w.testBit (63 - (off + j))) := by
  simp only [shl64, Nat.testBit_mod_two_pow, Nat.testBit_shiftLeft]
  by_cases h : off + j < 64
  · have e1 : decide (63 - j < 64) = true := by apply decide_eq_true; omega
    have e2 : decide (63 - j ≥ off) = true := by apply decide_eq_true; omega
    have e3 : 63 - j - off = 63 - (off + j) := by omega
    simp [e1, e2, e3, h]
  · have e2 : decide (63 - j ≥ off) = false := by apply decide_eq_false; omega
    simp [e2, h]

theorem pos_of_testBit (w i : Nat) (h : w.testBit i = true) : 0 < w := by
  rcases Nat.eq_zero_or_pos w with h0 | h0
  · subst h0; simp at h
  · exact h0

/-- What the shifted first word of `distanceToNextSetBit` tells. -/
theorem first_word_spec (bits : List Nat) (i off : Nat) (hi : i < bits.length) (hoff : off < 64)
    (hw : Words64 bits) :
    (shl64 bits[i] off = 0 → ∀ j, off ≤ j → j < 64 → bitAt bits (64 * i + j) = false) ∧
    (0 < shl64 bits[i] off →
      off + clzll (shl64 bits[i] off) < 64 ∧
      bitAt bits (64 * i + (off + clzll (shl64 bits[i] off))) = true ∧
      ∀ j, off ≤ j → j < off + clzll (shl64 bits[i] off) → bitAt bits (64 * i + j) = false) := by
  constructor
  · intro h0 j h1 h2
    rw [bitAt_word bits i j hi h2]
    have := shl64_testBit bits[i] off (j - off) (by omega)
    rw [h0] at this
    simp only [Nat.zero_testBit] at this
    have e1 : decide (off + (j - off) < 64) = true := by apply decide_eq_true; omega
    rw [e1, Bool.true_and] at this
    have e2 : off + (j - off) = j := by omega
    rw [e2] at this
    exact this.symm
  · intro hpos
    obtain ⟨c1, c2, c3⟩ := clz_spec _ (shl64_lt bits[i] off) hpos
    have hc := shl64_testBit bits[i] off (clzll (shl64 bits[i] off)) c1
    rw [c2] at hc
    have hlt : off + clzll (shl64 bits[i] off) < 64 := by
      by_contra hcon
      simp [hcon] at hc
    refine ⟨hlt, ?_, ?_⟩
    · rw [bitAt_word bits i _ hi hlt]
      simp only [hlt, decide_True, Bool.true_and] at hc
      exact hc.symm
    · intro j h1 h2
      rw [bitAt_word bits i j hi (by omega)]
      have := shl64_testBit bits[i] off (j - off) (by omega)
      rw [c3 (j - off) (by omega)] at this
      have e1 : decide (off + (j - off) < 64) = true := by apply decide_eq_true; omega
      rw [e1, Bool.true_and] at this
      have e2 : off + (j - off) = j := by omega
      rw [e2] at this
      exact this.symm

theorem shl64_zero (w : Nat) (hw : w < 2 ^ 64) : shl64 w 0 = w := by
  unfold shl64
  rw [Nat.shiftLeft_zero, Nat.mod_eq_of_lt hw]

theorem decr32_pos (n : Nat) (h : 0 < n) : decr32 n = n - 1 := by
  simp [decr32]; omega

theorem distanceLoop_spec (bv : Bitvector) (hlen : bv.bits_.length = bv.numWords)
    (hw : Words64 bv.bits_) (p : Nat) (hNW : 0 < bv.numWords) :
    ∀ (fuel word_id distance : Nat), bv.numWords ≤ fuel + word_id →
      word_id < bv.numWords →
      p + distance = 64 * (word_id + 1) →
      (∀ q, p < q → q < 64 * (word_id + 1) → bitAt bv.bits_ q = false) →
      ∃ d, bv.distanceLoop fuel word_id distance = some d ∧ distance ≤ d ∧
        DistResult bv.bits_ bv.numWords p d := by
  intro fuel
  induction fuel with
  | zero =>
    intro word_id distance h1 h2 h3 h4
    exfalso; omega
  | succ fuel ih =>
    intro word_id distance h1 h2 h3 h4
    rw [Bitvector.distanceLoop, decr32_pos _ hNW]
    by_cases hlast : word_id < bv.numWords - 1
    · have hi : word_id + 1 < bv.bits_.length := by omega
      simp only [hlast, if_true, List.getElem?_eq_getElem hi, Option.bind_eq_bind,
        Option.some_bind, kWordSize]
      obtain ⟨f1, f2⟩ := first_word_spec bv.bits_ (word_id + 1) 0 hi (by decide) hw
      have hz := shl64_zero bv.bits_[word_id + 1] (hw _ (List.getElem_mem hi))
      rw [hz] at f1 f2
      by_cases hpos : bv.bits_[word_id + 1] > 0
      · simp only [hpos, if_true]
        obtain ⟨g1, g2, g3⟩ := f2 hpos
        refine ⟨_, rfl, by omega, Or.inl ⟨?_, ?_⟩⟩
        · have : p + (distance + clzll bv.bits_[word_id + 1]) =
              64 * (word_id + 1) + (0 + clzll bv.bits_[word_id + 1]) := by omega
          rw [this]; exact g2
        · intro q hq1 hq2
          by_cases hq3 : q < 64 * (word_id + 1)
          · exact h4 q hq1 hq3
          · have := g3 (q - 64 * (word_id + 1)) (by omega) (by omega)
            have e : 64 * (word_id + 1) + (q - 64 * (word_id + 1)) = q := by omega
            rw [e] at this; exact this
      · simp only [hpos, if_false]
        have hzero : bv.bits_[word_id + 1] = 0 := by omega
        obtain ⟨d, k1, k2, k3⟩ := ih (word_id + 1) (distance + 64) (by omega) (by omega) (by omega)
          (by
            intro q hq1 hq2
            by_cases hq3 : q < 64 * (word_id + 1)
            · exact h4 q hq1 hq3
            · have := f1 hzero (q - 64 * (word_id + 1)) (by omega) (by omega)
              have e : 64 * (word_id + 1) + (q - 64 * (word_id + 1)) = q := by omega
              rw [e] at this; exact this)
        exact ⟨d, k1, by omega, k3⟩
    · simp only [hlast, if_false]
      have e : word_id + 1 = bv.numWords := by omega
      refine ⟨distance, rfl, le_refl _, Or.inr ⟨by rw [← e]; omega, ?_⟩⟩
      rw [← e]; exact h4

/-- The word-level behaviour of `distanceToNextSetBit`. -/
theorem distance_words (bv : Bitvector) (hlen : bv.bits_.length = bv.numWords)
    (hw : Words64 bv.bits_) (p : Nat) (hp : p < bv.num_bits_)
    (hroom : p + 1 < 64 * bv.numWords) :
    ∃ d, bv.distanceToNextSetBit p = some d ∧
      ((bitAt bv.bits_ (p + d) = true ∧ 1 ≤ d ∧ ∀ q, p < q → q < p + d → bitAt bv.bits_ q = false) ∨
       ((∀ q, p < q → q < 64 * bv.numWords → bitAt bv.bits_ q = false) ∧
          ((d = bv.num_bits_ - p ∧ (p + 1) / 64 = bv.numWords - 1) ∨
           (d = 64 * bv.numWords - p ∧ (p + 1) / 64 < bv.numWords - 1)))) := by
  have hNW : 0 < bv.numWords := by omega
  have hi : (p + 1) / 64 < bv.bits_.length := by omega
  have hoff : (p + 1) % 64 < 64 := Nat.mod_lt _ (by decide)
  have hpe : 64 * ((p + 1) / 64) + (p + 1) % 64 = p + 1 := Nat.div_add_mod _ _
  obtain ⟨f1, f2⟩ := first_word_spec bv.bits_ ((p + 1) / 64) ((p + 1) % 64) hi hoff hw
  simp only [Bitvector.distanceToNextSetBit, check, hp, decide_True, if_true, Option.bind_eq_bind,
    Option.some_bind, kWordSize, List.getElem?_eq_getElem hi, decr32_pos _ hNW]
  by_cases hpos : shl64 bv.bits_[(p + 1) / 64] ((p + 1) % 64) > 0
  · simp only [hpos, if_true]
    obtain ⟨g1, g2, g3⟩ := f2 hpos
    refine ⟨_, rfl, Or.inl ⟨?_, by omega, ?_⟩⟩
    · have : p + (1 + clzll (shl64 bv.bits_[(p + 1) / 64] ((p + 1) % 64))) =
          64 * ((p + 1) / 64) + ((p + 1) % 64 + clzll (shl64 bv.bits_[(p + 1) / 64] ((p + 1) % 64))) := by
        omega
      rw [this]; exact g2
    · intro q hq1 hq2
      have := g3 (q - 64 * ((p + 1) / 64)) (by omega) (by omega)
      have e : 64 * ((p + 1) / 64) + (q - 64 * ((p + 1) / 64)) = q := by omega
      rw [e] at this; exact this
  · simp only [hpos, if_false]
    have hzero : shl64 bv.bits_[(p + 1) / 64] ((p + 1) % 64) = 0 := by omega
    have hfirst : ∀ q, p < q → q < 64 * ((p + 1) / 64 + 1) → bitAt bv.bits_ q = false := by
      intro q hq1 hq2
      have := f1 hzero (q - 64 * ((p + 1) / 64)) (by omega) (by omega)
      have e : 64 * ((p + 1) / 64) + (q - 64 * ((p + 1) / 64)) = q := by omega
      rw [e] at this; exact this
    by_cases hlast : (p + 1) / 64 = bv.numWords - 1
    · have hb : ((p + 1) / 64 == bv.numWords - 1) = true := by simpa using hlast
      simp only [hb, if_true]
      refine ⟨_, rfl, Or.inr ⟨?_, Or.inl ⟨rfl, hlast⟩⟩⟩
      intro q hq1 hq2
      exact hfirst q hq1 (by omega)
    · have hb : ((p + 1) / 64 == bv.numWords - 1) = false := by simpa using hlast
      simp only [hb, Bool.false_eq_true, if_false]
      obtain ⟨d, hd1, hd0, hd2⟩ := distanceLoop_spec bv hlen hw p hNW (bv.numWords + 1)
        ((p + 1) / 64) (1 + (64 - (p + 1) % 64)) (by omega) (by omega) (by omega) hfirst
      refine ⟨d, hd1, ?_⟩
      rcases hd2 with ⟨k1, k2⟩ | ⟨k1, k2⟩
      · left
        exact ⟨k1, by omega, k2⟩
      · right
        exact ⟨k2, Or.inr ⟨k1, by omega⟩⟩

end FST

namespace FST

/-! ## Rank, select and distance on the list of bits -/

theorem cntBefore_succ (f : Nat → Bool) (p : Nat) :
    cntBefore f (p + 1) = cntBefore f p + (if f p then 1 else 0) := by
  simp only [cntBefore, List.range_succ, List.filter_append, List.length_append]
  by_cases h : f p <;> simp [h]

theorem cntBefore_le (f : Nat → Bool) (p : Nat) : cntBefore f p ≤ p := by
  simp only [cntBefore]
  calc ((List.range p).filter f).length ≤ (List.range p).length := List.length_filter_le _ _
    _ = p := List.length_range p

theorem cntBefore_mono (f : Nat → Bool) {p q : Nat} (h : p ≤ q) : cntBefore f p ≤ cntBefore f q := by
  induction q with
  | zero => have : p = 0 := by omega
            subst this; exact le_refl _
  | succ q ih =>
    by_cases hq : p = q + 1
    · subst hq; exact le_refl _
    · have := ih (by omega)
      rw [cntBefore_succ]; omega

theorem cntBefore_not (f : Nat → Bool) (p : Nat) :
    cntBefore f p + cntBefore (fun q => !f q) p = p := by
  induction p with
  | zero => simp [cntBefore]
  | succ p ih =>
    rw [cntBefore_succ, cntBefore_succ]
    by_cases h : f p <;> simp [h] <;> omega

theorem cntBefore_lt (f : Nat → Bool) {p q : Nat} (h : p < q) (hf : f p = true) :
    cntBefore f p < cntBefore f q := by
  have h1 := cntBefore_mono f (show p + 1 ≤ q by omega)
  rw [cntBefore_succ, hf] at h1
  simp only [if_true] at h1
  omega

theorem filter_range_index (f : Nat → Bool) (n p : Nat) (hp : p < n) (hf : f p = true) :
    ((List.range n).filter f)[cntBefore f p]? = some p := by
  induction n with
  | zero => omega
  | succ n ih =>
    rw [List.range_succ, List.filter_append]
    by_cases hpn : p < n
    · have h1 : cntBefore f p < ((List.range n).filter f).length := cntBefore_lt f hpn hf
      rw [List.getElem?_append_left h1]
      exact ih hpn
    · have hpn2 : p = n := by omega
      subst hpn2
      have e : cntBefore f p = ((List.range p).filter f).length := rfl
      rw [e, List.getElem?_append_right (le_refl _)]
      simp [hf]

theorem filter_range_length (f : Nat → Bool) (n : Nat) :
    ((List.range n).filter f).length = cntBefore f n := rfl

theorem filter_range_getElem (f : Nat → Bool) (n k g : Nat)
    (h : ((List.range n).filter f)[k]? = some g) :
    g < n ∧ f g = true ∧ cntBefore f g = k := by
  have hmem : g ∈ (List.range n).filter f := List.getElem?_mem h
  rw [List.mem_filter, List.mem_range] at hmem
  refine ⟨hmem.1, hmem.2, ?_⟩
  have h2 := filter_range_index f n g hmem.1 hmem.2
  have hnd : ((List.range n).filter f).Nodup := (List.nodup_range n).filter _
  have hk : k < ((List.range n).filter f).length := by
    by_contra hc
    rw [List.getElem?_eq_none (by omega)] at h
    exact absurd h (by simp)
  have hc : cntBefore f g < ((List.range n).filter f).length := by
    by_contra hc
    rw [List.getElem?_eq_none (by omega)] at h2
    exact absurd h2 (by simp)
  rw [List.getElem?_eq_getElem hk] at h
  rw [List.getElem?_eq_getElem hc] at h2
  have h3 : ((List.range n).filter f)[cntBefore f g] = ((List.range n).filter f)[k] := by
    rw [Option.some.inj h, Option.some.inj h2]
  exact (List.Nodup.getElem_inj_iff hnd).mp h3

theorem BVRepr.rank_eq {bv : Bitvector} {flat : List Bool} (h : BVRepr bv flat) (p : Nat) :
    bv.rank p = rankL flat p := by
  simp only [Bitvector.rank, rankL, cntBefore]
  congr 1
  apply List.filter_congr
  intro q _
  exact h.readBit_true q

theorem BVRepr.select_eq {bv : Bitvector} {flat : List Bool} (h : BVRepr bv flat) (k : Nat)
    (hk : 0 < k) : bv.select k = (ones flat)[k - 1]? := by
  have hk0 : ¬ k = 0 := by omega
  simp only [Bitvector.select, hk0, if_false, ones, h.nbits]
  congr 1
  apply List.filter_congr
  intro q _
  exact h.readBit_true q

theorem BVRepr.numOnes_eq {bv : Bitvector} {flat : List Bool} (h : BVRepr bv flat) :
    bv.numOnes = (ones flat).length := by
  simp only [Bitvector.numOnes, ones, h.nbits]
  congr 1
  apply List.filter_congr
  intro q _
  exact h.readBit_true q

theorem getD_false_of_le (flat : List Bool) (q : Nat) (h : flat.length ≤ q) :
    flat.getD q false = false := by
  simp [List.getD_eq_getElem?_getD, List.getElem?_eq_none h]

/-- The size `distanceToNextSetBit` reports at `p`: exact when a set bit follows or when
`p + 1` lies in the last word; otherwise the distance to the end of the last word. -/
theorem BVRepr.distance {bv : Bitvector} {flat : List Bool} (h : BVRepr bv flat) (p : Nat)
    (hp : p < flat.length) (hroom : p + 1 < flat.length ∨ flat.length % 64 ≠ 0) :
    ∃ d, bv.distanceToNextSetBit p = some d ∧ 1 ≤ d ∧
      ((p + d < flat.length ∧ flat.getD (p + d) false = true ∧
          ∀ q, p < q → q < p + d → flat.getD q false = false) ∨
       ((∀ q, p < q → flat.getD q false = false) ∧
          (d = flat.length - p ∨
            (flat.length - p ≤ d ∧ 66 ≤ d ∧ (p + 1) / 64 + 1 < bv.numWords)))) := by
  have hn := h.nbits
  have hb := numWords_bound bv
  have hNW : 64 * bv.numWords < bv.num_bits_ + 64 := by
    simp only [Bitvector.numWords, kWordSize]
    split <;> rename_i hh
    · simp only [beq_iff_eq] at hh; omega
    · simp only [beq_iff_eq] at hh; omega
  have hroom2 : p + 1 < 64 * bv.numWords := by
    rcases hroom with h1 | h1
    · omega
    · have : ¬ (bv.num_bits_ % 64 = 0) := by rw [hn]; exact h1
      have h2 : bv.numWords = bv.num_bits_ / 64 + 1 := by
        simp only [Bitvector.numWords, kWordSize]
        split <;> rename_i hh
        · simp only [beq_iff_eq] at hh; exact absurd hh this
        · rfl
      omega
  obtain ⟨d, h1, h2⟩ := distance_words bv h.len h.w64 p (by omega) hroom2
  refine ⟨d, h1, ?_⟩
  rcases h2 with ⟨k1, k2, k3⟩ | ⟨k1, k2⟩
  · refine ⟨k2, Or.inl ⟨?_, ?_, ?_⟩⟩
    · by_contra hc
      rw [h.bits, getD_false_of_le _ _ (by omega)] at k1
      exact absurd k1 (by simp)
    · rw [← h.bits]; exact k1
    · intro q hq1 hq2
      rw [← h.bits]; exact k3 q hq1 hq2
  · have hz : ∀ q, p < q → flat.getD q false = false := by
      intro q hq
      by_cases hq2 : q < 64 * bv.numWords
      · rw [← h.bits]; exact k1 q hq hq2
      · exact getD_false_of_le _ _ (by omega)
    rcases k2 with ⟨k3, k4⟩ | ⟨k3, k4⟩
    · exact ⟨by omega, Or.inr ⟨hz, Or.inl (by omega)⟩⟩
    · exact ⟨by omega, Or.inr ⟨hz, Or.inr ⟨by omega, by omega, by omega⟩⟩⟩

end FST

namespace FST

/-! ## Searching the label vector -/

theorem LRepr.read_eq {lv : LabelVector} {LAB : List Nat} (h : LRepr lv LAB) (q : Nat) :
    lv.read q = LAB[q]? := by
  simp [LabelVector.read, h.labels]

theorem getD_of_getElem? (LAB : List Nat) (q x : Nat) (h : LAB[q]? = some x) :
    LAB.getD q 0 = x := by
  simp [List.getD_eq_getElem?_getD, h]

theorem getElem?_of_lt (LAB : List Nat) (q : Nat) (h : q < LAB.length) :
    LAB[q]? = some (LAB.getD q 0) := by
  simp [List.getD_eq_getElem?_getD, List.getElem?_eq_getElem h]

theorem noneIn_of_incr (LAB : List Nat) (a g b : Nat) (hs : IncrOn LAB a b) (hg : g < b)
    (hb : b ≤ LAB.length) : NoneIn LAB (LAB.getD g 0) a g := by
  intro q h1 h2
  refine ⟨LAB.getD q 0, getElem?_of_lt LAB q (by omega), ?_⟩
  have := hs q g h1 h2 hg
  omega

theorem linear_found {lv : LabelVector} {LAB : List Nat} (h : LRepr lv LAB) (target pos g : Nat) :
    ∀ (cnt i : Nat), pos + i ≤ g → g < pos + i + cnt → LAB[g]? = some target →
      NoneIn LAB target (pos + i) g →
      LabelVector.linearSearch.go lv target pos cnt i = some (true, g) := by
  intro cnt
  induction cnt with
  | zero => intro i h1 h2; omega
  | succ cnt ih =>
    intro i h1 h2 h3 h4
    rw [LabelVector.linearSearch.go, h.read_eq]
    by_cases hg : g = pos + i
    · subst hg
      simp [h3]
    · obtain ⟨x, hx1, hx2⟩ := h4 (pos + i) (le_refl _) (by omega)
      have hne : (target == x) = false := by
        simp only [beq_eq_false_iff_ne]; exact fun e => hx2 e.symm
      simp only [hx1, Option.bind_eq_bind, Option.some_bind, hne, Bool.false_eq_true, if_false]
      apply ih (i + 1) (by omega) (by omega) h3
      intro q hq1 hq2
      exact h4 q (by omega) hq2

theorem linear_notfound {lv : LabelVector} {LAB : List Nat} (h : LRepr lv LAB) (target pos : Nat) :
    ∀ (cnt i : Nat), NoneIn LAB target (pos + i) (pos + i + cnt) →
      LabelVector.linearSearch.go lv target pos cnt i = some (false, pos) := by
  intro cnt
  induction cnt with
  | zero => intro i _; rfl
  | succ cnt ih =>
    intro i h4
    rw [LabelVector.linearSearch.go, h.read_eq]
    obtain ⟨x, hx1, hx2⟩ := h4 (pos + i) (le_refl _) (by omega)
    have hne : (target == x) = false := by
      simp only [beq_eq_false_iff_ne]; exact fun e => hx2 e.symm
    simp only [hx1, Option.bind_eq_bind, Option.some_bind, hne, Bool.false_eq_true, if_false]
    apply ih (i + 1)
    intro q hq1 hq2
    exact h4 q (by omega) (by omega)

theorem tail_found {lv : LabelVector} {LAB : List Nat} (h : LRepr lv LAB) (target pos g : Nat)
    (hgn : g < LAB.length) :
    ∀ (cnt i : Nat), pos + i ≤ g → g < pos + i + cnt → LAB[g]? = some target →
      NoneIn LAB target (pos + i) g →
      LabelVector.simdSearch.tail lv target pos cnt i = some (true, g) := by
  intro cnt
  induction cnt with
  | zero => intro i h1 h2; omega
  | succ cnt ih =>
    intro i h1 h2 h3 h4
    have hb : pos + i < lv.num_bytes_ := by rw [h.nbytes]; omega
    rw [LabelVector.simdSearch.tail, h.read_eq]
    simp only [check, hb, decide_True, if_true, Option.bind_eq_bind, Option.some_bind]
    by_cases hg : g = pos + i
    · subst hg
      simp [h3]
    · obtain ⟨x, hx1, hx2⟩ := h4 (pos + i) (le_refl _) (by omega)
      have hne : (x == target) = false := by
        simp only [beq_eq_false_iff_ne]; exact hx2
      simp only [hx1, Option.some_bind, hne, Bool.false_eq_true, if_false]
      apply ih (i + 1) (by omega) (by omega) h3
      intro q hq1 hq2
      exact h4 q (by omega) hq2

theorem tail_notfound {lv : LabelVector} {LAB : List Nat} (h : LRepr lv LAB) (target pos : Nat) :
    ∀ (cnt i : Nat), NoneIn LAB target (pos + i) (pos + i + cnt) →
      LabelVector.simdSearch.tail lv target pos cnt i = some (false, pos) := by
  intro cnt
  induction cnt with
  | zero => intro i _; rfl
  | succ cnt ih =>
    intro i h4
    obtain ⟨x, hx1, hx2⟩ := h4 (pos + i) (le_refl _) (by omega)
    have hlt : pos + i < LAB.length := by
      by_contra hc
      rw [List.getElem?_eq_none (by omega)] at hx1
      exact absurd hx1 (by simp)
    have hb : pos + i < lv.num_bytes_ := by rw [h.nbytes]; omega
    rw [LabelVector.simdSearch.tail, h.read_eq]
    have hne : (x == target) = false := by
      simp only [beq_eq_false_iff_ne]; exact hx2
    simp only [check, hb, decide_True, if_true, Option.bind_eq_bind, Option.some_bind, hx1, hne,
      Bool.false_eq_true, if_false]
    apply ih (i + 1)
    intro q hq1 hq2
    exact h4 q (by omega) (by omega)

theorem lanes_found {lv : LabelVector} {LAB : List Nat} (h : LRepr lv LAB) (target start g : Nat) :
    ∀ (cnt i : Nat), start + i ≤ g → g < start + i + cnt → LAB[g]? = some target →
      NoneIn LAB target (start + i) g →
      LabelVector.simdLanes lv target start cnt i = some (some (g - start)) := by
  intro cnt
  induction cnt with
  | zero => intro i h1 h2; omega
  | succ cnt ih =>
    intro i h1 h2 h3 h4
    rw [LabelVector.simdLanes, h.read_eq]
    by_cases hg : g = start + i
    · subst hg
      simp [h3]
    · obtain ⟨x, hx1, hx2⟩ := h4 (start + i) (le_refl _) (by omega)
      have hne : (x == target) = false := by
        simp only [beq_eq_false_iff_ne]; exact hx2
      simp only [hx1, Option.bind_eq_bind, Option.some_bind, hne, Bool.false_eq_true, if_false]
      apply ih (i + 1) (by omega) (by omega) h3
      intro q hq1 hq2
      exact h4 q (by omega) hq2

theorem lanes_notfound {lv : LabelVector} {LAB : List Nat} (h : LRepr lv LAB) (target start : Nat) :
    ∀ (cnt i : Nat), NoneIn LAB target (start + i) (start + i + cnt) →
      LabelVector.simdLanes lv target start cnt i = some none := by
  intro cnt
  induction cnt with
  | zero => intro i _; rfl
  | succ cnt ih =>
    intro i h4
    rw [LabelVector.simdLanes, h.read_eq]
    obtain ⟨x, hx1, hx2⟩ := h4 (start + i) (le_refl _) (by omega)
    have hne : (x == target) = false := by
      simp only [beq_eq_false_iff_ne]; exact hx2
    simp only [hx1, Option.bind_eq_bind, Option.some_bind, hne, Bool.false_eq_true, if_false]
    apply ih (i + 1)
    intro q hq1 hq2
    exact h4 q (by omega) (by omega)

theorem shr4_pos (n : Nat) : (n >>> 4 > 0) ↔ 16 ≤ n := by
  rw [Nat.shiftRight_eq_div_pow]
  constructor
  · intro h
    by_contra hc
    have : n / 2 ^ 4 = 0 := Nat.div_eq_of_lt (by omega)
    omega
  · intro h
    exact Nat.div_pos h (by decide)

theorem blocks_found {lv : LabelVector} {LAB : List Nat} (h : LRepr lv LAB) (target pos g : Nat)
    (hgn : g < LAB.length) :
    ∀ (fuel searched left : Nat), left < fuel → pos + searched ≤ g → g < pos + searched + left →
      LAB[g]? = some target → NoneIn LAB target (pos + searched) g →
      LabelVector.simdSearch.blocks lv target pos fuel searched left = some (true, g) := by
  intro fuel
  induction fuel with
  | zero => intro s l h1; omega
  | succ fuel ih =>
    intro searched left h1 h2 h3 h4 h5
    rw [LabelVector.simdSearch.blocks]
    by_cases hc : (left >>> 4 > 0) ∧ pos + searched + 15 < lv.num_bytes_
    · have hcb : ((decide (left >>> 4 > 0)) && decide (pos + searched + 15 < lv.num_bytes_)) = true := by
        simp [hc.1, hc.2]
      have h16 := (shr4_pos left).mp hc.1
      have hck : lv.num_bytes_ - (pos + searched) ≥ 16 := by omega
      simp only [hcb, if_true, check, hck, decide_True, Option.bind_eq_bind, Option.some_bind]
      by_cases hin : g < pos + searched + 16
      · have := lanes_found h target (pos + searched) g 16 0 (by omega) (by omega) h4
          (by intro q hq1 hq2; exact h5 q (by omega) hq2)
        rw [this]
        simp only [Option.some_bind]
        congr 2
        omega
      · have := lanes_notfound h target (pos + searched) 16 0
          (by intro q hq1 hq2; exact h5 q (by omega) (by omega))
        rw [this]
        simp only [Option.some_bind]
        apply ih (searched + 16) (left - 16) (by omega) (by omega) (by omega) h4
        intro q hq1 hq2
        exact h5 q (by omega) hq2
    · have hcb : ((decide (left >>> 4 > 0)) && decide (pos + searched + 15 < lv.num_bytes_)) = false := by
        rcases not_and_or.mp hc with h6 | h6 <;> simp [h6]
      simp only [hcb, Bool.false_eq_true, if_false]
      exact tail_found h target pos g hgn left searched h2 h3 h4 h5

theorem blocks_notfound {lv : LabelVector} {LAB : List Nat} (h : LRepr lv LAB) (target pos : Nat) :
    ∀ (fuel searched left : Nat), left < fuel →
      NoneIn LAB target (pos + searched) (pos + searched + left) →
      LabelVector.simdSearch.blocks lv target pos fuel searched left = some (false, pos) := by
  intro fuel
  induction fuel with
  | zero => intro s l h1; omega
  | succ fuel ih =>
    intro searched left h1 h5
    rw [LabelVector.simdSearch.blocks]
    by_cases hc : (left >>> 4 > 0) ∧ pos + searched + 15 < lv.num_bytes_
    · have hcb : ((decide (left >>> 4 > 0)) && decide (pos + searched + 15 < lv.num_bytes_)) = true := by
        simp [hc.1, hc.2]
      have h16 := (shr4_pos left).mp hc.1
      have hck : lv.num_bytes_ - (pos + searched) ≥ 16 := by omega
      simp only [hcb, if_true, check, hck, decide_True, Option.bind_eq_bind, Option.some_bind]
      have := lanes_notfound h target (pos + searched) 16 0
        (by intro q hq1 hq2; exact h5 q (by omega) (by omega))
      rw [this]
      simp only [Option.some_bind]
      apply ih (searched + 16) (left - 16) (by omega)
      intro q hq1 hq2
      exact h5 q (by omega) (by omega)
    · have hcb : ((decide (left >>> 4 > 0)) && decide (pos + searched + 15 < lv.num_bytes_)) = false := by
        rcases not_and_or.mp hc with h6 | h6 <;> simp [h6]
      simp only [hcb, Bool.false_eq_true, if_false]
      exact tail_notfound h target pos left searched h5

end FST

namespace FST

theorem shr1 (n : Nat) : n >>> 1 = n / 2 := by
  simp [Nat.shiftRight_eq_div_pow]

theorem binary_found {lv : LabelVector} {LAB : List Nat} (h : LRepr lv LAB) (target pos g : Nat)
    (hval : LAB.getD g 0 = target) :
    ∀ (fuel l r : Nat), r - l < fuel → l ≤ g → g < r → r ≤ LAB.length → IncrOn LAB l r →
      LabelVector.binarySearch.go lv target pos fuel l r = some (true, g) := by
  intro fuel
  induction fuel with
  | zero => intro l r h1; omega
  | succ fuel ih =>
    intro l r h1 h2 h3 h4 h5
    simp only [LabelVector.binarySearch.go, h.read_eq, shr1]
    have hlr : l < r := by omega
    have hm1 : l ≤ (l + r) / 2 := by omega
    have hm2 : (l + r) / 2 < r := by omega
    simp only [hlr, if_true, getElem?_of_lt LAB _ (show (l + r) / 2 < LAB.length by omega),
      Option.bind_eq_bind, Option.some_bind]
    by_cases hlt : target < LAB.getD ((l + r) / 2) 0
    · simp only [hlt, if_true]
      have hgm : g < (l + r) / 2 := by
        by_contra hc
        by_cases he : g = (l + r) / 2
        · rw [← he, hval] at hlt; omega
        · have := h5 ((l + r) / 2) g hm1 (by omega) h3
          omega
      exact ih l ((l + r) / 2) (by omega) h2 hgm (by omega)
        (by intro q1 q2 a b c; exact h5 q1 q2 a b (by omega))
    · simp only [hlt, if_false]
      by_cases heq : target = LAB.getD ((l + r) / 2) 0
      · have hb : (target == LAB.getD ((l + r) / 2) 0) = true := by simpa using heq
        simp only [hb, if_true]
        have : (l + r) / 2 = g := by
          by_contra hc
          rcases Nat.lt_or_gt_of_ne hc with h6 | h6
          · have := h5 _ g hm1 h6 h3
            omega
          · have := h5 g _ h2 h6 hm2
            omega
        rw [this]
      · have hb : (target == LAB.getD ((l + r) / 2) 0) = false := by simpa using heq
        simp only [hb, Bool.false_eq_true, if_false]
        have hgm : (l + r) / 2 < g := by
          by_contra hc
          by_cases he : g = (l + r) / 2
          · rw [← he, hval] at heq; exact heq rfl
          · have := h5 g ((l + r) / 2) h2 (by omega) hm2
            omega
        exact ih ((l + r) / 2 + 1) r (by omega) (by omega) h3 h4
          (by intro q1 q2 a b c; exact h5 q1 q2 (by omega) b c)

theorem binary_notfound {lv : LabelVector} {LAB : List Nat} (h : LRepr lv LAB) (target pos : Nat) :
    ∀ (fuel l r : Nat), r - l < fuel → r ≤ LAB.length →
      (∀ q, l ≤ q → q < r → LAB.getD q 0 ≠ target) →
      LabelVector.binarySearch.go lv target pos fuel l r = some (false, pos) := by
  intro fuel
  induction fuel with
  | zero => intro l r h1; omega
  | succ fuel ih =>
    intro l r h1 h4 h5
    simp only [LabelVector.binarySearch.go, h.read_eq, shr1]
    by_cases hlr : l < r
    · have hm1 : l ≤ (l + r) / 2 := by omega
      have hm2 : (l + r) / 2 < r := by omega
      simp only [hlr, if_true, getElem?_of_lt LAB _ (show (l + r) / 2 < LAB.length by omega),
        Option.bind_eq_bind, Option.some_bind]
      by_cases hlt : target < LAB.getD ((l + r) / 2) 0
      · simp only [hlt, if_true]
        exact ih l ((l + r) / 2) (by omega) (by omega)
          (by intro q a b; exact h5 q a (by omega))
      · simp only [hlt, if_false]
        have heq : ¬ target = LAB.getD ((l + r) / 2) 0 := fun e => h5 _ hm1 hm2 e.symm
        have hb : (target == LAB.getD ((l + r) / 2) 0) = false := by simpa using heq
        simp only [hb, Bool.false_eq_true, if_false]
        exact ih ((l + r) / 2 + 1) r (by omega) h4
          (by intro q a b; exact h5 q (by omega) b)
    · simp only [hlr, if_false]

theorem skipTerminator_none {lv : LabelVector} {LAB : List Nat} (h : LRepr lv LAB)
    (pos len : Nat) (hpos : pos < LAB.length)
    (h255 : 1 < len → LAB.getD pos 0 ≠ kTerminator) :
    lv.skipTerminator pos len = some (pos, len) := by
  simp only [LabelVector.skipTerminator]
  split
  · rename_i hlen
    have hskip : (LAB.getD pos 0 == kTerminator) = false := by
      simpa using h255 (by simpa using hlen)
    rw [h.read_eq, getElem?_of_lt LAB pos hpos]
    simp only [Option.bind_eq_bind, Option.some_bind, hskip, Bool.false_eq_true, if_false]
  · rfl

/-- The position `search` reports for a label that is in the node: the node `[pos, pos + sz)`
has strictly increasing labels, holds `target` at `g`, and the length handed to `search` is
the node size or an over-long length of at least 12. -/
theorem search_found {lv : LabelVector} {LAB : List Nat} (h : LRepr lv LAB)
    (target pos sz len g : Nat) (hsz : pos + sz ≤ LAB.length) (hg1 : pos ≤ g) (hg2 : g < pos + sz)
    (hval : LAB.getD g 0 = target) (hs : IncrOn LAB pos (pos + sz))
    (h255 : 1 < len → LAB.getD pos 0 ≠ kTerminator)
    (hlen : len = sz ∨ (sz ≤ len ∧ 12 ≤ len)) :
    lv.search target pos len = some (true, g) := by
  have hpos : pos < LAB.length := by omega
  have hget : LAB[g]? = some target := by rw [getElem?_of_lt LAB g (by omega), hval]
  have hnone : NoneIn LAB target pos g := by
    have := noneIn_of_incr LAB pos g (pos + sz) hs hg2 hsz
    rw [hval] at this; exact this
  have hpre := skipTerminator_none h pos len hpos h255
  simp only [LabelVector.search, Option.bind_eq_bind, hpre, Option.some_bind]
  by_cases h3 : len < 3
  · simp only [h3, if_true, LabelVector.linearSearch]
    exact linear_found h target pos g len 0 (by omega) (by omega) hget
      (by intro q a b; exact hnone q (by omega) b)
  · simp only [h3, if_false]
    by_cases h12 : len < 12
    · simp only [h12, if_true, LabelVector.binarySearch]
      have hl : len = sz := by omega
      subst hl
      exact binary_found h target pos g hval (len + 1) pos (pos + len) (by omega) hg1 hg2 hsz hs
    · simp only [h12, if_false, LabelVector.simdSearch]
      exact blocks_found h target pos g (by omega) (len + 1) 0 len (by omega) (by omega)
        (by omega) hget (by intro q a b; exact hnone q (by omega) b)

/-- A label that is not in the node is not found, when `search` gets the exact node size. -/
theorem search_notfound {lv : LabelVector} {LAB : List Nat} (h : LRepr lv LAB)
    (target pos len : Nat) (hsz : pos + len ≤ LAB.length) (hlen : 1 ≤ len)
    (habs : ∀ q, pos ≤ q → q < pos + len → LAB.getD q 0 ≠ target)
    (h255 : 1 < len → LAB.getD pos 0 ≠ kTerminator) :
    lv.search target pos len = some (false, pos) := by
  have hpos : pos < LAB.length := by omega
  have hnone : NoneIn LAB target pos (pos + len) := by
    intro q a b
    exact ⟨_, getElem?_of_lt LAB q (by omega), habs q a b⟩
  have hpre := skipTerminator_none h pos len hpos h255
  simp only [LabelVector.search, Option.bind_eq_bind, hpre, Option.some_bind]
  by_cases h3 : len < 3
  · simp only [h3, if_true, LabelVector.linearSearch]
    exact linear_notfound h target pos len 0 (by intro q a b; exact hnone q (by omega) (by omega))
  · simp only [h3, if_false]
    by_cases h12 : len < 12
    · simp only [h12, if_true, LabelVector.binarySearch]
      exact binary_notfound h target pos (len + 1) pos (pos + len) (by omega) hsz habs
    · simp only [h12, if_false, LabelVector.simdSearch]
      exact blocks_notfound h target pos (len + 1) 0 len (by omega)
        (by intro q a b; exact hnone q (by omega) (by omega))

end FST

namespace FST

/-- The scan of `linearSearchGreaterThan`: `g` is the first position of the range with a
label above `target`, or the end of the range. -/
theorem linearGT_spec {lv : LabelVector} {LAB : List Nat} (h : LRepr lv LAB)
    (target pos len g : Nat) (hsz : pos + len ≤ LAB.length) :
    ∀ (cnt i : Nat), pos + i ≤ g → g ≤ pos + len → pos + i + cnt = pos + len →
      (∀ q, pos + i ≤ q → q < g → ¬ target < LAB.getD q 0) →
      (g < pos + len → target < LAB.getD g 0) →
      LabelVector.linearSearchGreaterThan.go lv target pos cnt i =
        some (if g < pos + len then (true, g) else (false, pos)) := by
  intro cnt
  induction cnt with
  | zero =>
    intro i h1 h2 h3 _ _
    rw [LabelVector.linearSearchGreaterThan.go, if_neg (by omega)]
  | succ cnt ih =>
    intro i h1 h2 h3 h4 h5
    rw [LabelVector.linearSearchGreaterThan.go, h.read_eq,
      getElem?_of_lt LAB _ (show pos + i < LAB.length by omega)]
    simp only [Option.bind_eq_bind, Option.some_bind]
    by_cases hg : g = pos + i
    · subst hg
      have hd : LAB.getD (pos + i) 0 > target := h5 (by omega)
      rw [if_pos hd, if_pos (by omega)]
    · have hd : ¬ LAB.getD (pos + i) 0 > target := h4 (pos + i) (Nat.le_refl _) (by omega)
      rw [if_neg hd]
      exact ih (i + 1) (by omega) h2 (by omega) (fun q a b => h4 q (by omega) b) h5

/-- The bisection of `binarySearchGreaterThan` for a target that is not in the range. -/
theorem binaryGT_spec {lv : LabelVector} {LAB : List Nat} (h : LRepr lv LAB)
    (target pos len g : Nat) (hsz : pos + len ≤ LAB.length) :
    ∀ (fuel l r : Nat), r - l < fuel → l ≤ g → g ≤ r → r ≤ pos + len →
      (∀ q, l ≤ q → q < g → LAB.getD q 0 < target) →
      (∀ q, g ≤ q → q < r → target < LAB.getD q 0) →
      LabelVector.binarySearchGreaterThan.go lv target pos len fuel l r =
        some (if g < pos + len then (true, g) else (false, pos)) := by
  intro fuel
  induction fuel with
  | zero => intro l r h1; omega
  | succ fuel ih =>
    intro l r h1 h2 h3 h4 h5 h6
    simp only [LabelVector.binarySearchGreaterThan.go, h.read_eq, shr1]
    by_cases hlr : l < r
    · have hm1 : l ≤ (l + r) / 2 := by omega
      have hm2 : (l + r) / 2 < r := by omega
      simp only [hlr, if_true, getElem?_of_lt LAB _ (show (l + r) / 2 < LAB.length by omega),
        Option.bind_eq_bind, Option.some_bind]
      by_cases hmg : (l + r) / 2 < g
      · have hlt := h5 _ hm1 hmg
        have c1 : ¬ target < LAB.getD ((l + r) / 2) 0 := by omega
        have c2 : (target == LAB.getD ((l + r) / 2) 0) = false := by
          rw [beq_eq_false_iff_ne]; omega
        simp only [c1, if_false, c2, Bool.false_eq_true]
        exact ih ((l + r) / 2 + 1) r (by omega) (by omega) h3 h4
          (fun q a b => h5 q (by omega) b) h6
      · have hlt := h6 _ (by omega) hm2
        simp only [hlt, if_true]
        exact ih l ((l + r) / 2) (by omega) h2 (by omega) (by omega) h5
          (fun q a b => h6 q a (by omega))
    · have hlg : l = g := by omega
      subst hlg
      simp only [hlr, if_false]
      by_cases hl : l < pos + len
      · simp only [hl, if_true]
      · simp only [hl, if_false]

/-- The position `searchGreaterThan` reports in a node with increasing labels that does not
hold `target`: the first position `g` with a label above `target`, when there is one. -/
theorem searchGT_spec {lv : LabelVector} {LAB : List Nat} (h : LRepr lv LAB)
    (target pos len g : Nat) (hsz : pos + len ≤ LAB.length) (hlen : 1 ≤ len)
    (hg1 : pos ≤ g) (hg2 : g ≤ pos + len)
    (hlow : ∀ q, pos ≤ q → q < g → LAB.getD q 0 < target)
    (hhigh : ∀ q, g ≤ q → q < pos + len → target < LAB.getD q 0)
    (h255 : 1 < len → LAB.getD pos 0 ≠ kTerminator) :
    lv.searchGreaterThan target pos len =
      some (if g < pos + len then (true, g) else (false, pos)) := by
  have hpos : pos < LAB.length := by omega
  have hpre := skipTerminator_none h pos len hpos h255
  simp only [LabelVector.searchGreaterThan, Option.bind_eq_bind, hpre, Option.some_bind]
  by_cases h3 : len < 3
  · simp only [h3, if_true, LabelVector.linearSearchGreaterThan]
    exact linearGT_spec h target pos len g hsz len 0 (by omega) hg2 (by omega)
      (fun q a b => by have := hlow q (by omega) b; omega)
      (fun hh => hhigh g (Nat.le_refl _) hh)
  · simp only [h3, if_false, LabelVector.binarySearchGreaterThan]
    exact binaryGT_spec h target pos len g hsz (len + 1) pos (pos + len) (by omega) hg1 hg2
      (Nat.le_refl _) hlow hhigh

/-- In a range with increasing labels that does not hold `target`, the labels below
`target` come first. -/
theorem split_exists (LAB : List Nat) (target a : Nat) :
    ∀ n, IncrOn LAB a (a + n) → (∀ q, a ≤ q → q < a + n → LAB.getD q 0 ≠ target) →
      ∃ g, a ≤ g ∧ g ≤ a + n ∧ (∀ q, a ≤ q → q < g → LAB.getD q 0 < target) ∧
        (∀ q, g ≤ q → q < a + n → target < LAB.getD q 0) := by
  intro n
  induction n with
  | zero => intro _ _; exact ⟨a, Nat.le_refl _, Nat.le_refl _, fun q a b => by omega,
      fun q a b => by omega⟩
  | succ n ih =>
    intro hs habs
    obtain ⟨g, g1, g2, g3, g4⟩ := ih (fun q1 q2 a b c => hs q1 q2 a b (by omega))
      (fun q a b => habs q a (by omega))
    by_cases hgn : g < a + n
    · refine ⟨g, g1, by omega, g3, ?_⟩
      intro q q1 q2
      by_cases hq : q < a + n
      · exact g4 q q1 hq
      · have e : q = a + n := by omega
        subst e
        have := hs g (a + n) g1 hgn (by omega)
        have := g4 g (Nat.le_refl _) hgn
        omega
    · have e : g = a + n := by omega
      subst e
      have hne := habs (a + n) (by omega) (by omega)
      by_cases hlt : LAB.getD (a + n) 0 < target
      · refine ⟨a + n + 1, by omega, by omega, ?_, fun q a b => by omega⟩
        intro q q1 q2
        by_cases hq : q < a + n
        · exact g3 q q1 hq
        · have e : q = a + n := by omega
          subst e; exact hlt
      · refine ⟨a + n, g1, by omega, g3, ?_⟩
        intro q q1 q2
        have e : q = a + n := by omega
        subst e
        omega

end FST

namespace FST

/-! ## The order of byte strings -/

theorem strLt_nil_right (a : List Nat) : strLt a [] = false := by
  cases a <;> rfl

theorem strLt_cons (a b : Nat) (as bs : List Nat) :
    strLt (a :: as) (b :: bs) = (decide (a < b) || (decide (a = b) && strLt as bs)) := rfl

theorem strLt_irrefl (a : List Nat) : strLt a a = false := by
  induction a with
  | nil => rfl
  | cons x xs ih => simp [strLt_cons, ih]

theorem strLt_trans {a b c : List Nat} (h1 : strLt a b = true) (h2 : strLt b c = true) :
    strLt a c = true := by
  induction a generalizing b c with
  | nil =>
    cases c with
    | nil => rw [strLt_nil_right] at h2; exact absurd h2 (by simp)
    | cons z zs => rfl
  | cons x xs ih =>
    cases b with
    | nil => rw [strLt_nil_right] at h1; exact absurd h1 (by simp)
    | cons y ys =>
      cases c with
      | nil => rw [strLt_nil_right] at h2; exact absurd h2 (by simp)
      | cons z zs =>
        simp only [strLt_cons, Bool.or_eq_true, Bool.and_eq_true, decide_eq_true_eq] at h1 h2 ⊢
        rcases h1 with h1 | ⟨h1, h1'⟩
        · rcases h2 with h2 | ⟨h2, _⟩
          · left; omega
          · left; omega
        · rcases h2 with h2 | ⟨h2, h2'⟩
          · left; omega
          · right; exact ⟨by omega, ih h1' h2'⟩

theorem strLt_asymm {a b : List Nat} (h1 : strLt a b = true) : strLt b a = false := by
  by_contra h2
  have := strLt_trans h1 (by simpa using h2)
  rw [strLt_irrefl] at this
  exact absurd this (by simp)

theorem strLt_total (a b : List Nat) : strLt a b = true ∨ a = b ∨ strLt b a = true := by
  induction a generalizing b with
  | nil =>
    cases b with
    | nil => right; left; rfl
    | cons y ys => left; rfl
  | cons x xs ih =>
    cases b with
    | nil => right; right; rfl
    | cons y ys =>
      simp only [strLt_cons, Bool.or_eq_true, Bool.and_eq_true, decide_eq_true_eq]
      rcases Nat.lt_trichotomy x y with h | h | h
      · left; left; exact h
      · rcases ih ys with h2 | h2 | h2
        · left; right; exact ⟨h, h2⟩
        · right; left; rw [h, h2]
        · right; right; right; exact ⟨h.symm, h2⟩
      · right; right; left; exact h

theorem strLt_ne {a b : List Nat} (h : strLt a b = true) : a ≠ b := by
  intro e; subst e; rw [strLt_irrefl] at h; exact absurd h (by simp)

theorem strLe_refl (a : List Nat) : strLe a a := strLt_irrefl a

theorem strLe_of_lt {a b : List Nat} (h : strLt a b = true) : strLe a b := strLt_asymm h

theorem strLe_iff (a b : List Nat) : strLe a b ↔ a = b ∨ strLt a b = true := by
  unfold strLe
  constructor
  · intro h
    rcases strLt_total a b with h1 | h1 | h1
    · right; exact h1
    · left; exact h1
    · rw [h] at h1; exact absurd h1 (by simp)
  · intro h
    rcases h with h | h
    · subst h; exact strLt_irrefl a
    · exact strLt_asymm h

theorem strLe_antisymm {a b : List Nat} (h1 : strLe a b) (h2 : strLe b a) : a = b := by
  rcases (strLe_iff a b).mp h1 with h | h
  · exact h
  · unfold strLe at h2; rw [h] at h2; exact absurd h2 (by simp)

theorem strLe_trans {a b c : List Nat} (h1 : strLe a b) (h2 : strLe b c) : strLe a c := by
  rcases (strLe_iff a b).mp h1 with h | h
  · subst h; exact h2
  · rcases (strLe_iff b c).mp h2 with h' | h'
    · subst h'; exact h1
    · exact strLe_of_lt (strLt_trans h h')

theorem strLt_of_lt_of_le {a b c : List Nat} (h1 : strLt a b = true) (h2 : strLe b c) :
    strLt a c = true := by
  rcases (strLe_iff b c).mp h2 with h | h
  · subst h; exact h1
  · exact strLt_trans h1 h

theorem strLt_of_le_of_lt {a b c : List Nat} (h1 : strLe a b) (h2 : strLt b c = true) :
    strLt a c = true := by
  rcases (strLe_iff a b).mp h1 with h | h
  · subst h; exact h2
  · exact strLt_trans h h2

theorem strLt_append_left (p a b : List Nat) : strLt (p ++ a) (p ++ b) = strLt a b := by
  induction p with
  | nil => rfl
  | cons x xs ih => simp [strLt_cons, ih]

theorem strLt_of_pfx {a b : List Nat} (h : a <+: b) (hne : a ≠ b) : strLt a b = true := by
  obtain ⟨s, rfl⟩ := h
  have : strLt (a ++ []) (a ++ s) = strLt [] s := strLt_append_left a [] s
  rw [List.append_nil] at this
  rw [this]
  cases s with
  | nil => simp at hne
  | cons y ys => rfl

/-- Taking prefixes of a fixed length is monotone. -/
theorem take_mono (c : Nat) {a b : List Nat} (h : strLt a b = true) :
    strLe (a.take c) (b.take c) := by
  induction c generalizing a b with
  | zero => simp [strLe, strLt]
  | succ c ih =>
    cases a with
    | nil => simp [strLe, strLt_nil_right]
    | cons x xs =>
      cases b with
      | nil => rw [strLt_nil_right] at h; exact absurd h (by simp)
      | cons y ys =>
        simp only [strLt_cons, Bool.or_eq_true, Bool.and_eq_true, decide_eq_true_eq] at h
        simp only [List.take_succ_cons, strLe, strLt_cons, Bool.or_eq_false_iff,
          Bool.and_eq_false_imp, decide_eq_false_iff_not, decide_eq_true_eq]
        rcases h with h | ⟨h, h'⟩
        · exact ⟨by omega, fun e => by omega⟩
        · exact ⟨by omega, fun _ => ih h'⟩

theorem take_mono_le (c : Nat) {a b : List Nat} (h : strLe a b) :
    strLe (a.take c) (b.take c) := by
  rcases (strLe_iff a b).mp h with h | h
  · subst h; exact strLe_refl _
  · exact take_mono c h

theorem prefix_iff_take (p a : List Nat) : p <+: a ↔ a.take p.length = p := by
  constructor
  · intro h; exact List.prefix_iff_eq_take.mp h |>.symm
  · intro h; rw [← h]; exact List.take_prefix _ _

/-- A string between two strings with the common prefix `p` has the prefix `p` too. -/
theorem prefix_convex {a b c p : List Nat} (h1 : strLe a b) (h2 : strLe b c)
    (ha : p <+: a) (hc : p <+: c) : p <+: b := by
  have e1 := (prefix_iff_take p a).mp ha
  have e2 := (prefix_iff_take p c).mp hc
  have g1 := take_mono_le p.length h1
  have g2 := take_mono_le p.length h2
  rw [e1] at g1
  rw [e2] at g2
  exact (prefix_iff_take p b).mpr (strLe_antisymm g2 g1)

theorem strLt_snoc (p : List Nat) (x y : Nat) : strLt (p ++ [x]) (p ++ [y]) = decide (x < y) := by
  rw [strLt_append_left]
  simp [strLt]

end FST

namespace FST

/-! ## The trie as a sorted list of paths -/

theorem lvlLt_irrefl (a : List Nat) : ¬ lvlLt a a := by
  intro h
  rcases h with h | ⟨_, h⟩
  · omega
  · rw [strLt_irrefl] at h; exact absurd h (by simp)

theorem lvlLt_trans {a b c : List Nat} (h1 : lvlLt a b) (h2 : lvlLt b c) : lvlLt a c := by
  rcases h1 with h1 | ⟨h1, h1'⟩ <;> rcases h2 with h2 | ⟨h2, h2'⟩
  · left; omega
  · left; omega
  · left; omega
  · right; exact ⟨by omega, strLt_trans h1' h2'⟩

theorem lvlLt_asymm {a b : List Nat} (h1 : lvlLt a b) : ¬ lvlLt b a :=
  fun h2 => lvlLt_irrefl a (lvlLt_trans h1 h2)

theorem lvlLt_total (a b : List Nat) : lvlLt a b ∨ a = b ∨ lvlLt b a := by
  rcases Nat.lt_trichotomy a.length b.length with h | h | h
  · left; left; exact h
  · rcases strLt_total a b with h2 | h2 | h2
    · left; right; exact ⟨h, h2⟩
    · right; left; exact h2
    · right; right; right; exact ⟨h.symm, h2⟩
  · right; right; left; exact h

theorem lvlLe_refl (a : List Nat) : lvlLe a a := Or.inl rfl

theorem lvlLe_antisymm {a b : List Nat} (h1 : lvlLe a b) (h2 : lvlLe b a) : a = b := by
  rcases h1 with h1 | h1
  · exact h1
  · rcases h2 with h2 | h2
    · exact h2.symm
    · exact absurd h2 (lvlLt_asymm h1)

theorem lvlLe_trans {a b c : List Nat} (h1 : lvlLe a b) (h2 : lvlLe b c) : lvlLe a c := by
  rcases h1 with h1 | h1
  · subst h1; exact h2
  · rcases h2 with h2 | h2
    · subst h2; exact Or.inr h1
    · exact Or.inr (lvlLt_trans h1 h2)

theorem lvlLt_of_le_of_lt {a b c : List Nat} (h1 : lvlLe a b) (h2 : lvlLt b c) : lvlLt a c := by
  rcases h1 with h1 | h1
  · subst h1; exact h2
  · exact lvlLt_trans h1 h2

theorem lvlLt_of_lt_of_le {a b c : List Nat} (h1 : lvlLt a b) (h2 : lvlLe b c) : lvlLt a c := by
  rcases h2 with h2 | h2
  · subst h2; exact h1
  · exact lvlLt_trans h1 h2

theorem lvlLe_of_not_lt {a b : List Nat} (h : ¬ lvlLt b a) : lvlLe a b := by
  rcases lvlLt_total a b with h1 | h1 | h1
  · exact Or.inr h1
  · exact Or.inl h1
  · exact absurd h1 h

theorem dropLast_mono {a b : List Nat} (h : lvlLt a b) (ha : a ≠ []) :
    lvlLe a.dropLast b.dropLast := by
  have hla : 0 < a.length := List.length_pos.mpr ha
  rcases h with h | ⟨h, h'⟩
  · right; left
    simp only [List.length_dropLast]; omega
  · have := take_mono (a.length - 1) h'
    rw [List.dropLast_eq_take, List.dropLast_eq_take, ← h]
    rcases (strLe_iff _ _).mp this with e | e
    · left; exact e
    · right; right
      refine ⟨?_, e⟩
      simp only [List.length_take]; omega

theorem dropLast_mono_le {a b : List Nat} (h : lvlLe a b) (ha : a ≠ []) :
    lvlLe a.dropLast b.dropLast := by
  rcases h with h | h
  · subst h; exact lvlLe_refl _
  · exact dropLast_mono h ha

theorem chOf_length (TV : List (List Nat × Nat)) (ENT : List (List Nat)) :
    (chOf TV ENT).length = ENT.length := by simp [chOf]

theorem loOf_length (ENT : List (List Nat)) : (loOf ENT).length = ENT.length := by simp [loOf]

theorem labOf_length (ENT : List (List Nat)) : (labOf ENT).length = ENT.length := by simp [labOf]

theorem chOf_getD (TV : List (List Nat × Nat)) (ENT : List (List Nat)) (g : Nat)
    (hg : g < ENT.length) :
    (chOf TV ENT).getD g false = decide (ENT.getD g [] ∉ keysOf TV) := by
  simp [chOf, List.getD_eq_getElem?_getD, List.getElem?_eq_getElem hg]

theorem loOf_getD (ENT : List (List Nat)) (g : Nat) (hg : g < ENT.length) :
    (loOf ENT).getD g false =
      decide (g = 0 ∨ (ENT.getD g []).dropLast ≠ (ENT.getD (g - 1) []).dropLast) := by
  simp only [loOf, List.getD_eq_getElem?_getD, List.getElem?_map, List.getElem?_range hg]
  rfl

theorem labOf_getD (ENT : List (List Nat)) (g : Nat) (hg : g < ENT.length) :
    (labOf ENT).getD g 0 = (ENT.getD g []).getLastD 0 := by
  simp [labOf, List.getD_eq_getElem?_getD, List.getElem?_eq_getElem hg]

theorem getD_mem (ENT : List (List Nat)) (g : Nat) (hg : g < ENT.length) :
    ENT.getD g [] ∈ ENT := by
  simp [List.getD_eq_getElem?_getD, List.getElem?_eq_getElem hg]

theorem exists_pos_of_mem (ENT : List (List Nat)) (e : List Nat) (h : e ∈ ENT) :
    ∃ g, g < ENT.length ∧ ENT.getD g [] = e := by
  obtain ⟨g, hg, he⟩ := List.getElem_of_mem h
  exact ⟨g, hg, by simp [List.getD_eq_getElem?_getD, List.getElem?_eq_getElem hg, he]⟩

namespace FlatTrie

variable {TV : List (List Nat × Nat)} {ENT : List (List Nat)}

theorem lt_of_pos (F : FlatTrie TV ENT) {g1 g2 : Nat} (h : g1 < g2) (h2 : g2 < ENT.length) :
    lvlLt (ENT.getD g1 []) (ENT.getD g2 []) := by
  have := List.pairwise_iff_getElem.mp F.sortedE g1 g2 (by omega) h2 h
  simpa [List.getD_eq_getElem?_getD, List.getElem?_eq_getElem h2,
    List.getElem?_eq_getElem (show g1 < ENT.length by omega)] using this

theorem le_of_pos (F : FlatTrie TV ENT) {g1 g2 : Nat} (h : g1 ≤ g2) (h2 : g2 < ENT.length) :
    lvlLe (ENT.getD g1 []) (ENT.getD g2 []) := by
  rcases Nat.lt_or_eq_of_le h with h3 | h3
  · exact Or.inr (F.lt_of_pos h3 h2)
  · subst h3; exact lvlLe_refl _

theorem pos_lt_of_lt (F : FlatTrie TV ENT) {g1 g2 : Nat} (h1 : g1 < ENT.length)
    (h2 : g2 < ENT.length) (h : lvlLt (ENT.getD g1 []) (ENT.getD g2 [])) : g1 < g2 := by
  by_contra hc
  have := F.le_of_pos (show g2 ≤ g1 by omega) h1
  exact lvlLt_irrefl _ (lvlLt_of_lt_of_le h this)

theorem pos_inj (F : FlatTrie TV ENT) {g1 g2 : Nat} (h1 : g1 < ENT.length)
    (h2 : g2 < ENT.length) (h : ENT.getD g1 [] = ENT.getD g2 []) : g1 = g2 := by
  rcases Nat.lt_trichotomy g1 g2 with h3 | h3 | h3
  · have := F.lt_of_pos h3 h2
    rw [h] at this; exact absurd this (lvlLt_irrefl _)
  · exact h3
  · have := F.lt_of_pos h3 h1
    rw [h] at this; exact absurd this (lvlLt_irrefl _)

theorem ne_nil (F : FlatTrie TV ENT) {g : Nat} (h : g < ENT.length) : ENT.getD g [] ≠ [] :=
  ((F.memE _).mp (getD_mem ENT g h)).1

end FlatTrie

end FST

namespace FST

namespace FlatTrie

variable {TV : List (List Nat × Nat)} {ENT : List (List Nat)}

theorem par_mono (F : FlatTrie TV ENT) {g1 g2 : Nat} (h : g1 ≤ g2) (h2 : g2 < ENT.length) :
    lvlLe (par ENT g1) (par ENT g2) :=
  dropLast_mono_le (F.le_of_pos h h2) (F.ne_nil (by omega))

theorem par_between (F : FlatTrie TV ENT) {g1 g g2 : Nat} (h1 : g1 ≤ g) (h2 : g ≤ g2)
    (h3 : g2 < ENT.length) (he : par ENT g1 = par ENT g2) : par ENT g = par ENT g1 := by
  have k1 := F.par_mono h1 (by omega)
  have k2 := F.par_mono h2 h3
  rw [← he] at k2
  exact lvlLe_antisymm k2 k1

/-- Every parent path that occurs has its node. -/
theorem node_exists (F : FlatTrie TV ENT) (e : List Nat)
    (h : ∃ g, g < ENT.length ∧ par ENT g = e) : ∃ a b, NodeOf ENT e a b := by
  classical
  let a := Nat.find h
  have ha : a < ENT.length ∧ par ENT a = e := Nat.find_spec h
  have hamin : ∀ g, g < a → ¬ (g < ENT.length ∧ par ENT g = e) := fun g hg => Nat.find_min h hg
  have hb : ∃ g, a < g ∧ (ENT.length ≤ g ∨ par ENT g ≠ e) := ⟨ENT.length, ha.1, Or.inl (le_refl _)⟩
  let b := Nat.find hb
  have hbs : a < b ∧ (ENT.length ≤ b ∨ par ENT b ≠ e) := Nat.find_spec hb
  have hbmin : ∀ g, g < b → ¬ (a < g ∧ (ENT.length ≤ g ∨ par ENT g ≠ e)) :=
    fun g hg => Nat.find_min hb hg
  have hble : b ≤ ENT.length := by
    by_contra hc
    exact hbmin ENT.length (by omega) ⟨ha.1, Or.inl (le_refl _)⟩
  refine ⟨a, b, hbs.1, hble, ?_⟩
  intro g hg
  constructor
  · intro hpe
    have h1 : a ≤ g := by
      by_contra hc
      exact hamin g (by omega) ⟨hg, hpe⟩
    refine ⟨h1, ?_⟩
    by_contra hc
    have hbl : b < ENT.length := by omega
    have := F.par_between (show a ≤ b by omega) (show b ≤ g by omega) hg (by rw [ha.2, hpe])
    rcases hbs.2 with h3 | h3
    · omega
    · exact h3 (by rw [this, ha.2])
  · intro ⟨h1, h2⟩
    rcases Nat.lt_or_eq_of_le h1 with h3 | h3
    · have := hbmin g h2
      by_contra hc
      exact this ⟨h3, Or.inr hc⟩
    · rw [← h3]; exact ha.2

theorem node_unique (F : FlatTrie TV ENT) {e : List Nat} {a b a2 b2 : Nat}
    (h1 : NodeOf ENT e a b) (h2 : NodeOf ENT e a2 b2) : a = a2 ∧ b = b2 := by
  have k1 := (h1.mem a (by have := h1.lt; have := h1.le; omega)).mpr ⟨le_refl _, h1.lt⟩
  have k2 := (h2.mem a2 (by have := h2.lt; have := h2.le; omega)).mpr ⟨le_refl _, h2.lt⟩
  have k3 := (h2.mem a (by have := h1.lt; have := h1.le; omega)).mp k1
  have k4 := (h1.mem a2 (by have := h2.lt; have := h2.le; omega)).mp k2
  have hl1 := h1.lt
  have hl2 := h2.lt
  have hle1 := h1.le
  have hle2 := h2.le
  have ea : a = a2 := by omega
  refine ⟨ea, ?_⟩
  subst ea
  by_contra hc
  rcases Nat.lt_or_gt_of_ne hc with h | h
  · have := (h2.mem b (by omega)).mpr ⟨by omega, h⟩
    have := (h1.mem b (by omega)).mp this
    omega
  · have := (h1.mem b2 (by omega)).mpr ⟨by omega, h⟩
    have := (h2.mem b2 (by omega)).mp this
    omega

theorem lo_true_iff (ENT : List (List Nat)) (g : Nat) (hg : g < ENT.length) :
    (loOf ENT).getD g false = true ↔ (g = 0 ∨ par ENT g ≠ par ENT (g - 1)) := by
  rw [loOf_getD ENT g hg]
  simp [par]

/-- The LOUDS bits of a node: set at its first position, clear at the others, set again
right after the node. -/
theorem node_lo (F : FlatTrie TV ENT) {e : List Nat} {a b : Nat} (h : NodeOf ENT e a b) :
    (loOf ENT).getD a false = true ∧
    (∀ g, a < g → g < b → (loOf ENT).getD g false = false) ∧
    (b < ENT.length → (loOf ENT).getD b false = true) := by
  have hl := h.lt
  have hle := h.le
  have hpa : par ENT a = e := (h.mem a (by omega)).mpr ⟨le_refl _, hl⟩
  refine ⟨?_, ?_, ?_⟩
  · rw [lo_true_iff ENT a (by omega)]
    by_cases h0 : a = 0
    · left; exact h0
    · right
      intro hc
      have := (h.mem (a - 1) (by omega)).mp (by rw [← hc, hpa])
      omega
  · intro g h1 h2
    have hpg : par ENT g = e := (h.mem g (by omega)).mpr ⟨by omega, h2⟩
    have hpg1 : par ENT (g - 1) = e := (h.mem (g - 1) (by omega)).mpr ⟨by omega, by omega⟩
    by_contra hc
    have hc2 : (loOf ENT).getD g false = true := by simpa using hc
    rw [lo_true_iff ENT g (by omega)] at hc2
    rcases hc2 with h3 | h3
    · omega
    · exact h3 (by rw [hpg, hpg1])
  · intro hb
    rw [lo_true_iff ENT b hb]
    right
    intro hc
    have hpb1 : par ENT (b - 1) = e := (h.mem (b - 1) (by omega)).mpr ⟨by omega, by omega⟩
    have := (h.mem b hb).mp (by rw [hc, hpb1])
    omega

end FlatTrie

end FST

namespace FST

namespace FlatTrie

variable {TV : List (List Nat × Nat)} {ENT : List (List Nat)}

theorem entry_pfx (F : FlatTrie TV ENT) {g : Nat} (hg : g < ENT.length) :
    ∃ t ∈ keysOf TV, ENT.getD g [] <+: t :=
  ((F.memE _).mp (getD_mem ENT g hg)).2

theorem pos_of_pfx (F : FlatTrie TV ENT) {e t : List Nat} (he : e ≠ []) (ht : t ∈ keysOf TV)
    (hp : e <+: t) : ∃ g, g < ENT.length ∧ ENT.getD g [] = e :=
  exists_pos_of_mem ENT e ((F.memE e).mpr ⟨he, t, ht, hp⟩)

theorem ch_true_iff (F : FlatTrie TV ENT) {g : Nat} (hg : g < ENT.length) :
    (chOf TV ENT).getD g false = true ↔ ENT.getD g [] ∉ keysOf TV := by
  rw [chOf_getD TV ENT g hg]; simp

theorem ch_false_iff (F : FlatTrie TV ENT) {g : Nat} (hg : g < ENT.length) :
    (chOf TV ENT).getD g false = false ↔ ENT.getD g [] ∈ keysOf TV := by
  rw [chOf_getD TV ENT g hg]; simp

theorem par_length (ENT : List (List Nat)) (g : Nat) :
    (par ENT g).length = (ENT.getD g []).length - 1 := by
  simp [par]

theorem par_pfx (ENT : List (List Nat)) (g : Nat) : par ENT g <+: ENT.getD g [] :=
  List.dropLast_prefix _

/-- The parent of an entry of length at least 2 is an entry with the child bit set. -/
theorem parent_pos (F : FlatTrie TV ENT) {g : Nat} (hg : g < ENT.length)
    (hlen : 2 ≤ (ENT.getD g []).length) :
    ∃ p, p < ENT.length ∧ ENT.getD p [] = par ENT g ∧ (chOf TV ENT).getD p false = true := by
  obtain ⟨t, ht, hpt⟩ := F.entry_pfx hg
  have hne : par ENT g ≠ [] := by
    intro e
    have h1 := par_length ENT g
    rw [e, List.length_nil] at h1
    omega
  have hpp : par ENT g <+: t := (par_pfx ENT g).trans hpt
  obtain ⟨p, hp, hpe⟩ := F.pos_of_pfx hne ht hpp
  refine ⟨p, hp, hpe, ?_⟩
  rw [F.ch_true_iff hp, hpe]
  intro hmem
  have := F.pfree _ hmem t ht hpp
  have h1 := par_length ENT g
  have h2 := hpt.length_le
  rw [this] at h1
  omega

/-- An entry with the child bit set has a child. -/
theorem child_pos (F : FlatTrie TV ENT) {p : Nat} (hp : p < ENT.length)
    (hch : (chOf TV ENT).getD p false = true) :
    ∃ g, g < ENT.length ∧ par ENT g = ENT.getD p [] := by
  obtain ⟨t, ht, hpt⟩ := F.entry_pfx hp
  have hnk := (F.ch_true_iff hp).mp hch
  have hlt : (ENT.getD p []).length < t.length := by
    rcases Nat.lt_or_eq_of_le hpt.length_le with h | h
    · exact h
    · exact absurd (hpt.eq_of_length h ▸ ht) hnk
  have hne : t.take ((ENT.getD p []).length + 1) ≠ [] := by
    intro e
    have h1 := congrArg List.length e
    rw [List.length_take, List.length_nil] at h1
    omega
  obtain ⟨g, hg, hge⟩ := F.pos_of_pfx hne ht (List.take_prefix _ _)
  refine ⟨g, hg, ?_⟩
  simp only [par, hge]
  rw [List.dropLast_eq_take, List.length_take, List.take_take]
  have e1 : min ((ENT.getD p []).length + 1) t.length - 1 = (ENT.getD p []).length := by omega
  rw [e1, Nat.min_eq_left (by omega)]
  exact (List.prefix_iff_eq_take.mp hpt).symm

theorem length_pos (F : FlatTrie TV ENT) : 0 < ENT.length := by
  obtain ⟨⟨t, v⟩, hm⟩ := List.exists_mem_of_ne_nil _ F.nonemptyT
  have ht : t ∈ keysOf TV := List.mem_map.mpr ⟨(t, v), hm, rfl⟩
  obtain ⟨g, hg, _⟩ := F.pos_of_pfx (F.keyne t ht) ht (List.prefix_refl t)
  omega

theorem first_length (F : FlatTrie TV ENT) : (ENT.getD 0 []).length = 1 := by
  obtain ⟨⟨t, v⟩, hm⟩ := List.exists_mem_of_ne_nil _ F.nonemptyT
  have ht : t ∈ keysOf TV := List.mem_map.mpr ⟨(t, v), hm, rfl⟩
  have htn := F.keyne t ht
  have hne : t.take 1 ≠ [] := by
    cases t with
    | nil => exact absurd rfl htn
    | cons x xs => simp
  obtain ⟨g, hg, hge⟩ := F.pos_of_pfx hne ht (List.take_prefix _ _)
  have h0 := F.ne_nil F.length_pos
  have hl0 : 0 < (ENT.getD 0 []).length := List.length_pos.mpr h0
  have := F.le_of_pos (Nat.zero_le g) hg
  rw [hge] at this
  have hl1 : (t.take 1).length ≤ 1 := by simp
  rcases this with h | h | ⟨h, _⟩
  · rw [h]; have : 0 < (t.take 1).length := List.length_pos.mpr hne
    omega
  · omega
  · omega

theorem par_nil_iff (F : FlatTrie TV ENT) {g : Nat} (hg : g < ENT.length) :
    par ENT g = [] ↔ (ENT.getD g []).length = 1 := by
  have h0 : 0 < (ENT.getD g []).length := List.length_pos.mpr (F.ne_nil hg)
  constructor
  · intro h
    have h1 := par_length ENT g
    rw [h, List.length_nil] at h1
    omega
  · intro h
    apply List.eq_nil_of_length_eq_zero
    rw [par_length, h]

/-- The root node starts at position 0. -/
theorem root_node (F : FlatTrie TV ENT) : ∃ b, NodeOf ENT [] 0 b := by
  have h0 := (F.par_nil_iff F.length_pos).mpr F.first_length
  obtain ⟨a, b, hn⟩ := F.node_exists [] ⟨0, F.length_pos, h0⟩
  have := (hn.mem 0 F.length_pos).mp h0
  have ha : a = 0 := by omega
  subst ha
  exact ⟨b, hn⟩

theorem ones_mem (flat : List Bool) (g : Nat) :
    g ∈ ones flat ↔ g < flat.length ∧ flat.getD g false = true := by
  simp [ones, List.mem_filter, List.mem_range]

theorem ones_sorted (flat : List Bool) : (ones flat).Pairwise (· < ·) :=
  (List.pairwise_lt_range _).filter _

theorem ones_head (flat : List Bool) (h0 : flat.getD 0 false = true) (hn : 0 < flat.length) :
    (ones flat)[0]? = some 0 := by
  have h := filter_range_index (fun q => flat.getD q false) flat.length 0 hn h0
  have e : cntBefore (fun q => flat.getD q false) 0 = 0 := rfl
  rw [e] at h
  exact h

theorem ones_tail_mem (flat : List Bool) (g : Nat) (hg : g ∈ (ones flat).tail)
    (h0 : flat.getD 0 false = true) (hn : 0 < flat.length) :
    0 < g ∧ g < flat.length ∧ flat.getD g false = true := by
  have hs := ones_sorted flat
  have hh := ones_head flat h0 hn
  cases hl : ones flat with
  | nil => rw [hl] at hg; simp at hg
  | cons x xs =>
    rw [hl] at hg hs hh
    simp only [List.getElem?_cons_zero, Option.some.injEq] at hh
    subst hh
    simp only [List.tail_cons] at hg
    have h1 := (List.pairwise_cons.mp hs).1 g hg
    have h2 := (ones_mem flat g).mp (by rw [hl]; exact List.mem_cons_of_mem _ hg)
    exact ⟨h1, h2.1, h2.2⟩

theorem mem_ones_tail (flat : List Bool) (g : Nat) (h1 : 0 < g) (h2 : g < flat.length)
    (h3 : flat.getD g false = true) (h0 : flat.getD 0 false = true) :
    g ∈ (ones flat).tail := by
  have hm := (ones_mem flat g).mpr ⟨h2, h3⟩
  have hh := ones_head flat h0 (by omega)
  cases hl : ones flat with
  | nil => rw [hl] at hm; simp at hm
  | cons x xs =>
    rw [hl] at hm
    simp only [List.tail_cons]
    rcases List.mem_cons.mp hm with h | h
    · exfalso
      rw [hl] at hh
      simp only [List.getElem?_cons_zero, Option.some.injEq] at hh
      omega
    · exact h

end FlatTrie

end FST

namespace FST

namespace FlatTrie

variable {TV : List (List Nat × Nat)} {ENT : List (List Nat)}

theorem lo_zero (F : FlatTrie TV ENT) : (loOf ENT).getD 0 false = true := by
  rw [lo_true_iff ENT 0 F.length_pos]; left; rfl

theorem internals_sorted (F : FlatTrie TV ENT) : (internals TV ENT).Pairwise lvlLt := by
  apply List.pairwise_map.mpr
  apply List.Pairwise.imp_of_mem _ (ones_sorted (chOf TV ENT))
  intro a b _ hb hab
  have := ((ones_mem _ b).mp hb).1
  rw [chOf_length] at this
  exact F.lt_of_pos hab this

theorem parents_sorted (F : FlatTrie TV ENT) : (parents ENT).Pairwise lvlLt := by
  apply List.pairwise_map.mpr
  have hs : (ones (loOf ENT)).tail.Pairwise (· < ·) :=
    (ones_sorted (loOf ENT)).sublist (List.tail_sublist _)
  apply List.Pairwise.imp_of_mem _ hs
  intro a b ha hb hab
  have hn : 0 < (loOf ENT).length := by rw [loOf_length]; exact F.length_pos
  obtain ⟨a1, a2, a3⟩ := ones_tail_mem _ a ha F.lo_zero hn
  obtain ⟨b1, b2, b3⟩ := ones_tail_mem _ b hb F.lo_zero hn
  rw [loOf_length] at a2 b2
  have k1 := F.par_mono (show a ≤ b - 1 by omega) (by omega)
  have k2 := F.par_mono (show b - 1 ≤ b by omega) b2
  rw [lo_true_iff ENT b b2] at b3
  rcases b3 with h | h
  · omega
  · rcases k2 with k2 | k2
    · exact absurd k2.symm h
    · exact lvlLt_of_le_of_lt k1 k2

theorem mem_internals (F : FlatTrie TV ENT) (e : List Nat) :
    e ∈ internals TV ENT ↔ e ∈ ENT ∧ e ∉ keysOf TV := by
  simp only [internals, List.mem_map, ones_mem, chOf_length]
  constructor
  · rintro ⟨p, ⟨hp, hch⟩, rfl⟩
    exact ⟨getD_mem ENT p hp, (F.ch_true_iff hp).mp hch⟩
  · rintro ⟨h1, h2⟩
    obtain ⟨p, hp, hpe⟩ := exists_pos_of_mem ENT e h1
    exact ⟨p, ⟨hp, (F.ch_true_iff hp).mpr (by rw [hpe]; exact h2)⟩, hpe⟩

theorem mem_parents (F : FlatTrie TV ENT) (e : List Nat) :
    e ∈ parents ENT ↔ e ∈ ENT ∧ e ∉ keysOf TV := by
  have hn : 0 < (loOf ENT).length := by rw [loOf_length]; exact F.length_pos
  constructor
  · intro h
    simp only [parents, List.mem_map] at h
    obtain ⟨g, hg, rfl⟩ := h
    obtain ⟨g1, g2, g3⟩ := ones_tail_mem _ g hg F.lo_zero hn
    rw [loOf_length] at g2
    have hlen : 2 ≤ (ENT.getD g []).length := by
      by_contra hc
      have h0 : 0 < (ENT.getD g []).length := List.length_pos.mpr (F.ne_nil g2)
      have h1 : (ENT.getD g []).length = 1 := by omega
      have hp1 := (F.par_nil_iff g2).mpr h1
      have hle := F.le_of_pos (show g - 1 ≤ g by omega) g2
      have h00 : 0 < (ENT.getD (g - 1) []).length :=
        List.length_pos.mpr (F.ne_nil (show g - 1 < ENT.length by omega))
      have h11 : (ENT.getD (g - 1) []).length = 1 := by
        rcases hle with h | h | ⟨h, _⟩
        · rw [h]; exact h1
        · omega
        · omega
      have hp2 := (F.par_nil_iff (show g - 1 < ENT.length by omega)).mpr h11
      rw [lo_true_iff ENT g g2] at g3
      rcases g3 with h | h
      · omega
      · exact h (by rw [hp1, hp2])
    obtain ⟨p, hp, hpe, hch⟩ := F.parent_pos g2 hlen
    rw [← hpe]
    exact ⟨getD_mem ENT p hp, (F.ch_true_iff hp).mp hch⟩
  · rintro ⟨h1, h2⟩
    obtain ⟨p, hp, hpe⟩ := exists_pos_of_mem ENT e h1
    have hch := (F.ch_true_iff hp).mpr (by rw [hpe]; exact h2)
    obtain ⟨g, hg, hge⟩ := F.child_pos hp hch
    obtain ⟨a, b, hn2⟩ := F.node_exists e ⟨g, hg, by rw [hge, hpe]⟩
    have hlo := (F.node_lo hn2).1
    have hal := hn2.lt
    have hbl := hn2.le
    have hpa : par ENT a = e := (hn2.mem a (by omega)).mpr ⟨le_refl _, hal⟩
    have ha0 : 0 < a := by
      by_contra hc
      have ha : a = 0 := by omega
      subst ha
      have := (F.par_nil_iff F.length_pos).mpr F.first_length
      rw [hpa] at this
      rw [← hpe] at this
      exact F.ne_nil hp this
    simp only [parents, List.mem_map]
    exact ⟨a, mem_ones_tail _ a ha0 (by rw [loOf_length]; omega) hlo F.lo_zero, hpa⟩

/-- The nodes other than the root are aligned with the entries that have children. -/
theorem internals_eq_parents (F : FlatTrie TV ENT) : internals TV ENT = parents ENT := by
  haveI : IsAntisymm (List Nat) lvlLt := ⟨fun a b h1 h2 => absurd h2 (lvlLt_asymm h1)⟩
  have hA := F.internals_sorted
  have hB := F.parents_sorted
  have hne : ∀ {a b : List Nat}, lvlLt a b → a ≠ b := by
    intro a b h e
    subst e
    exact lvlLt_irrefl _ h
  have hnA : (internals TV ENT).Nodup := List.Pairwise.imp hne hA
  have hnB : (parents ENT).Nodup := List.Pairwise.imp hne hB
  apply List.eq_of_perm_of_sorted _ hA hB
  apply (List.perm_ext_iff_of_nodup hnA hnB).mpr
  intro e
  rw [F.mem_internals, F.mem_parents]

/-- The node of the children of an entry with the child bit set starts at the position
that `select` gives for the rank of that entry. -/
theorem child_node (F : FlatTrie TV ENT) {p : Nat} (hp : p < ENT.length)
    (hch : (chOf TV ENT).getD p false = true) :
    ∃ a b, (ones (loOf ENT))[rankL (chOf TV ENT) p]? = some a ∧ NodeOf ENT (ENT.getD p []) a b := by
  have hidx := filter_range_index (fun q => (chOf TV ENT).getD q false) (chOf TV ENT).length p
    (by rw [chOf_length]; exact hp) hch
  have hrank : rankL (chOf TV ENT) p = cntBefore (fun q => (chOf TV ENT).getD q false) p + 1 := by
    simp only [rankL]
    rw [cntBefore_succ, hch]; simp
  have hA : (internals TV ENT)[cntBefore (fun q => (chOf TV ENT).getD q false) p]? =
      some (ENT.getD p []) := by
    simp only [internals, List.getElem?_map, ones]
    rw [hidx]; rfl
  rw [F.internals_eq_parents] at hA
  simp only [parents, List.getElem?_map, List.getElem?_tail] at hA
  cases hq : (ones (loOf ENT))[cntBefore (fun q => (chOf TV ENT).getD q false) p + 1]? with
  | none => rw [hq] at hA; simp at hA
  | some a =>
    rw [hq] at hA
    simp only [Option.map_some', Option.some.injEq] at hA
    have hmem := (ones_mem _ a).mp (List.getElem?_mem hq)
    rw [loOf_length] at hmem
    obtain ⟨a2, b2, hn⟩ := F.node_exists (ENT.getD p []) ⟨a, hmem.1, hA⟩
    have hin := (hn.mem a hmem.1).mp hA
    have ha : a2 = a := by
      by_contra hc
      have := (F.node_lo hn).2.1 a (by omega) hin.2
      rw [hmem.2] at this
      exact absurd this (by simp)
    subst ha
    exact ⟨a2, b2, by rw [hrank]; exact hq, hn⟩

/-- The labels of a node are strictly increasing. -/
theorem node_incr (F : FlatTrie TV ENT) {e : List Nat} {a b : Nat} (h : NodeOf ENT e a b) :
    IncrOn (labOf ENT) a b := by
  intro q1 q2 h1 h2 h3
  have hle := h.le
  have hq1 : q1 < ENT.length := by omega
  have hq2 : q2 < ENT.length := by omega
  rw [labOf_getD ENT q1 hq1, labOf_getD ENT q2 hq2]
  have p1 : par ENT q1 = e := (h.mem q1 hq1).mpr ⟨h1, by omega⟩
  have p2 : par ENT q2 = e := (h.mem q2 hq2).mpr ⟨by omega, h3⟩
  have n1 := F.ne_nil hq1
  have n2 := F.ne_nil hq2
  have e1 := List.dropLast_append_getLast n1
  have e2 := List.dropLast_append_getLast n2
  have hlt := F.lt_of_pos h2 hq2
  simp only [par] at p1 p2
  rw [p1] at e1
  rw [p2] at e2
  have g1 : (ENT.getD q1 []).getLastD 0 = (ENT.getD q1 []).getLast n1 := by
    rw [List.getLastD_eq_getLast?, List.getLast?_eq_getLast _ n1]; rfl
  have g2 : (ENT.getD q2 []).getLastD 0 = (ENT.getD q2 []).getLast n2 := by
    rw [List.getLastD_eq_getLast?, List.getLast?_eq_getLast _ n2]; rfl
  rw [g1, g2]
  rw [← e1, ← e2] at hlt
  rcases hlt with hl | ⟨_, hl⟩
  · simp at hl
  · rw [strLt_snoc] at hl
    simpa using hl

/-- An entry of a node is its parent path followed by its label. -/
theorem entry_eq (F : FlatTrie TV ENT) {g : Nat} (hg : g < ENT.length) :
    ENT.getD g [] = par ENT g ++ [(labOf ENT).getD g 0] := by
  have n1 := F.ne_nil hg
  rw [labOf_getD ENT g hg]
  have g1 : (ENT.getD g []).getLastD 0 = (ENT.getD g []).getLast n1 := by
    rw [List.getLastD_eq_getLast?, List.getLast?_eq_getLast _ n1]; rfl
  rw [g1]
  exact (List.dropLast_append_getLast n1).symm

end FlatTrie

end FST

namespace FST

theorem filterMap_take_length {α β : Type} (f : α → Option β) (l : List α) (d : α) (p : Nat)
    (hp : p ≤ l.length) :
    ((l.take p).filterMap f).length = cntBefore (fun q => (f (l.getD q d)).isSome) p := by
  induction p with
  | zero => simp [cntBefore]
  | succ p ih =>
    have hlt : p < l.length := by omega
    rw [List.take_succ, List.filterMap_append, List.length_append, ih (by omega), cntBefore_succ]
    simp only [List.getElem?_eq_getElem hlt, Option.toList_some, List.getD_eq_getElem?_getD,
      Option.getD_some]
    cases h : f l[p] <;> simp [h]

theorem filterMap_index {α β : Type} (f : α → Option β) (l : List α) (p : Nat) (x : α) (v : β)
    (hx : l[p]? = some x) (hv : f x = some v) :
    (l.filterMap f)[((l.take p).filterMap f).length]? = some v := by
  have hp : p < l.length := by
    by_contra hc
    rw [List.getElem?_eq_none (by omega)] at hx
    exact absurd hx (by simp)
  have hsplit : l = l.take p ++ x :: l.drop (p + 1) := by
    rw [List.getElem?_eq_getElem hp] at hx
    have hx2 : l[p] = x := Option.some.inj hx
    rw [← hx2]
    conv_lhs => rw [← List.take_append_drop p l]
    congr 1
    exact List.drop_eq_getElem_cons hp
  conv_lhs => rw [hsplit]
  rw [List.filterMap_append, List.take_append_eq_append_take]
  simp only [List.length_take, Nat.min_eq_left (Nat.le_of_lt hp), Nat.sub_self, List.take_zero,
    List.append_nil]
  have e : List.take p (List.take p l) = List.take p l := by simp
  rw [e, List.getElem?_append_right (le_refl _)]
  simp [List.filterMap_cons, hv]

theorem lookup_isSome_iff (TV : List (List Nat × Nat)) (e : List Nat) :
    (TV.lookup e).isSome = true ↔ e ∈ keysOf TV := by
  induction TV with
  | nil => simp [keysOf]
  | cons hd tl ih =>
    obtain ⟨k, v⟩ := hd
    simp only [List.lookup_cons, keysOf, List.map_cons, List.mem_cons]
    by_cases h : e = k
    · subst h; simp
    · have h2 : (e == k) = false := by simpa using h
      rw [h2]
      simp only [keysOf] at ih
      rw [ih]
      simp [h]

namespace FlatTrie

variable {TV : List (List Nat × Nat)} {ENT : List (List Nat)}

/-- The value index `pos - rank(pos)` of a terminal entry selects the value of its key. -/
theorem value_at (F : FlatTrie TV ENT) {p : Nat} (hp : p < ENT.length) (v : Nat)
    (hv : TV.lookup (ENT.getD p []) = some v) :
    rankL (chOf TV ENT) p ≤ p ∧ (valOf TV ENT)[p - rankL (chOf TV ENT) p]? = some v := by
  have hmem : ENT.getD p [] ∈ keysOf TV := (lookup_isSome_iff TV _).mp (by rw [hv]; rfl)
  have hch := (F.ch_false_iff hp).mpr hmem
  have hx : ENT[p]? = some (ENT.getD p []) := by
    simp [List.getD_eq_getElem?_getD, List.getElem?_eq_getElem hp]
  have h1 := filterMap_index (fun e => TV.lookup e) ENT p _ v hx hv
  rw [filterMap_take_length _ ENT [] p (by omega)] at h1
  have hrank : rankL (chOf TV ENT) p = cntBefore (fun q => (chOf TV ENT).getD q false) p := by
    simp only [rankL]
    rw [cntBefore_succ, hch]; simp
  have hcompl := cntBefore_not (fun q => (chOf TV ENT).getD q false) p
  have hsame : cntBefore (fun q => (TV.lookup (ENT.getD q [])).isSome) p =
      cntBefore (fun q => !(chOf TV ENT).getD q false) p := by
    simp only [cntBefore]
    congr 1
    apply List.filter_congr
    intro q hq
    have hq2 : q < ENT.length := by
      have := List.mem_range.mp hq; omega
    rw [chOf_getD TV ENT q hq2]
    by_cases hm : ENT.getD q [] ∈ keysOf TV
    · have := (lookup_isSome_iff TV _).mpr hm
      rw [this]
      simp only [hm, not_true_eq_false, decide_False, Bool.not_false]
    · have : (TV.lookup (ENT.getD q [])).isSome = false := by
        by_contra hc
        exact hm ((lookup_isSome_iff TV _).mp (by simpa using hc))
      rw [this]
      simp only [hm, not_false_eq_true, decide_True, Bool.not_true]
  have hle := cntBefore_le (fun q => (chOf TV ENT).getD q false) p
  refine ⟨by omega, ?_⟩
  have e : p - rankL (chOf TV ENT) p = cntBefore (fun q => (TV.lookup (ENT.getD q [])).isSome) p := by
    rw [hsame, hrank]; omega
  rw [e]
  exact h1

/-- The last position is a node of its own only in the trie with one entry. -/
theorem node_room (F : FlatTrie TV ENT) {e : List Nat} {a b : Nat} (h : NodeOf ENT e a b) :
    a + 1 < ENT.length ∨ ENT.length = 1 := by
  by_contra hc
  have hl := h.lt
  have hle := h.le
  have hn := F.length_pos
  have ha : a + 1 = ENT.length := by omega
  have hb : b = ENT.length := by omega
  have hpa : par ENT a = e := (h.mem a (by omega)).mpr ⟨le_refl _, hl⟩
  -- the last entry has no child: it is a stored key
  have hkey : ENT.getD a [] ∈ keysOf TV := by
    by_contra hk
    obtain ⟨g, hg, hge⟩ := F.child_pos (show a < ENT.length by omega)
      ((F.ch_true_iff (by omega)).mpr hk)
    have h1 := par_length ENT g
    rw [hge] at h1
    have h2 : lvlLt (ENT.getD a []) (ENT.getD g []) := by
      left
      have := List.length_pos.mpr (F.ne_nil hg)
      omega
    have := F.pos_lt_of_lt (by omega) hg h2
    omega
  by_cases hlen : 2 ≤ (ENT.getD a []).length
  · obtain ⟨s, hs, hne, hpre⟩ := F.sibling _ hkey hlen
    have hslen : (ENT.getD a []).length ≤ s.length := by
      by_contra hcc
      have h1 : s.length ≤ (ENT.getD a []).dropLast.length := by
        simp only [List.length_dropLast]; omega
      have h2 := hpre.eq_of_length_le h1
      have h3 : s <+: ENT.getD a [] := by rw [← h2]; exact List.dropLast_prefix _
      exact hne (F.pfree s hs _ hkey h3)
    have hne2 : s.take (ENT.getD a []).length ≠ [] := by
      intro e2
      have h1 := congrArg List.length e2
      rw [List.length_take, List.length_nil] at h1
      omega
    obtain ⟨g, hg, hge⟩ := F.pos_of_pfx hne2 hs (List.take_prefix _ _)
    have hpg : par ENT g = e := by
      rw [← hpa]
      simp only [par, hge]
      rw [List.dropLast_eq_take, List.length_take, Nat.min_eq_left hslen, List.take_take,
        Nat.min_eq_left (by omega)]
      have h1 := List.prefix_iff_eq_take.mp hpre
      rw [List.length_dropLast] at h1
      exact h1.symm
    have := (h.mem g hg).mp hpg
    have hga : g = a := by omega
    subst hga
    have h3 : ENT.getD g [] <+: s := by rw [hge]; exact List.take_prefix _ _
    exact hne (F.pfree _ hkey s hs h3).symm
  · have h0 := List.length_pos.mpr (F.ne_nil (show a < ENT.length by omega))
    have h1 : (ENT.getD a []).length = 1 := by omega
    have hpe := (F.par_nil_iff (show a < ENT.length by omega)).mpr h1
    rw [hpa] at hpe
    subst hpe
    obtain ⟨b2, hroot⟩ := F.root_node
    have := (F.node_unique h hroot).1
    omega

end FlatTrie

end FST

namespace FST

theorem lastNodeFits_spec (t : LoudsSparse) (h : t.lastNodeFits = true) :
    t.lastNodeInLastWord := by
  intro a ha
  simp only [LoudsSparse.lastNodeFits, ha, beq_iff_eq] at h
  exact h

namespace TRepr

variable {t : LoudsSparse} {TV : List (List Nat × Nat)} {ENT : List (List Nat)}

theorem readCh (R : TRepr t TV ENT) {g : Nat} (hg : g < ENT.length) :
    t.child_indicator_bits_.readBit g = some ((chOf TV ENT).getD g false) :=
  R.ch.readBit_eq g (by rw [chOf_length]; exact hg)

theorem readLo (R : TRepr t TV ENT) {g : Nat} (hg : g < ENT.length) :
    t.louds_bits_.readBit g = some ((loOf ENT).getD g false) :=
  R.lo.readBit_eq g (by rw [loOf_length]; exact hg)

theorem readLab (R : TRepr t TV ENT) {g : Nat} (hg : g < ENT.length) :
    t.labels_.read g = some ((labOf ENT).getD g 0) := by
  rw [R.lab.read_eq, getElem?_of_lt _ _ (by rw [labOf_length]; exact hg)]

theorem childNum (R : TRepr t TV ENT) (g : Nat) :
    t.getChildNodeNum g = rankL (chOf TV ENT) g := by
  simp [LoudsSparse.getChildNodeNum, R.ccd, R.ch.rank_eq]

theorem firstLabelPos (R : TRepr t TV ENT) (N : Nat) :
    t.getFirstLabelPos N = (ones (loOf ENT))[N]? := by
  simp only [LoudsSparse.getFirstLabelPos, R.ncd, check, Nat.zero_le, decide_True, if_true,
    Option.bind_eq_bind, Option.some_bind, Nat.sub_zero]
  rw [R.lo.select_eq (N + 1) (by omega)]
  simp

theorem numBits_lo (R : TRepr t TV ENT) : t.louds_bits_.numBits = ENT.length := by
  simp [Bitvector.numBits, R.lo.nbits, loOf_length]

/-- A label 255 is the greatest label of its node: no label of the same node follows it. -/
theorem term_last (R : TRepr t TV ENT) (F : FlatTrie TV ENT) {e : List Nat} {a b g : Nat}
    (h : NodeOf ENT e a b) (h1 : a ≤ g) (h2 : g + 1 < b) :
    (labOf ENT).getD g 0 ≠ kTerminator := by
  have hle := h.le
  have hmem : ∀ q, q < ENT.length → (labOf ENT).getD q 0 ∈ labOf ENT := by
    intro q hq
    have : q < (labOf ENT).length := by rw [labOf_length]; exact hq
    simp [List.getD_eq_getElem?_getD, List.getElem?_eq_getElem this]
  rcases R.bytes with hb | hb
  · exact hb _ (hmem g (by omega))
  · have hinc := F.node_incr h g (g + 1) h1 (by omega) h2
    have := hb _ (hmem (g + 1) (by omega))
    simp only [kTerminator]
    omega

/-- A position that holds the label 255 is the end of its node. -/
theorem term_end (R : TRepr t TV ENT) (F : FlatTrie TV ENT) {g : Nat} (hg : g < ENT.length)
    (h255 : (labOf ENT).getD g 0 = kTerminator) : t.isEndofNode g = some true := by
  obtain ⟨a, b, hn⟩ := F.node_exists (par ENT g) ⟨g, hg, rfl⟩
  obtain ⟨g1, g2⟩ := (hn.mem g hg).mp rfl
  have hle := hn.le
  have hb : b = g + 1 := by
    by_contra hc
    exact R.term_last F hn g1 (by omega) h255
  obtain ⟨_, _, l3⟩ := F.node_lo hn
  have hpos : 0 < t.louds_bits_.numBits := by rw [R.numBits_lo]; omega
  have hd : decr32 t.louds_bits_.numBits = ENT.length - 1 := by
    rw [decr32_pos _ hpos, R.numBits_lo]
  simp only [LoudsSparse.isEndofNode, hd]
  by_cases hlast : g = ENT.length - 1
  · have he : (g == ENT.length - 1) = true := by simpa using hlast
    rw [he]
    rfl
  · have hne : (g == ENT.length - 1) = false := by simpa using hlast
    rw [hne]
    simp only [Bool.false_eq_true, if_false]
    rw [R.readLo (show g + 1 < ENT.length by omega), ← hb, l3 (by omega)]

/-- The flag `is_at_terminator_` keeps its value on every position of the trie: a label
255 is the end of its node. -/
theorem term_flag (R : TRepr t TV ENT) (F : FlatTrie TV ENT) {g : Nat} (hg : g < ENT.length)
    (x : Bool) :
    (if ((labOf ENT).getD g 0 == kTerminator) = true then
        (t.isEndofNode g).bind fun e => some (if (!e) = true then true else x)
      else some x) = some x := by
  by_cases h : (labOf ENT).getD g 0 = kTerminator
  · have e : ((labOf ENT).getD g 0 == kTerminator) = true := by simpa using h
    rw [if_pos e, R.term_end F hg h]
    rfl
  · have e : ((labOf ENT).getD g 0 == kTerminator) = false := by simpa using h
    rw [e]
    rfl

/-- The size `nodeSize` reports for a node: its number of labels, or, for the last node,
possibly an over-long length of at least 12. -/
theorem nodeSize_spec (R : TRepr t TV ENT) (F : FlatTrie TV ENT) {e : List Nat} {a b : Nat}
    (h : NodeOf ENT e a b) :
    ∃ sz, t.nodeSize a = some sz ∧
      (sz = b - a ∨
        (b = ENT.length ∧ b - a ≤ sz ∧ 12 ≤ sz ∧ ¬ t.lastNodeInLastWord ∧ a + 1 < b)) := by
  have hl := h.lt
  have hle := h.le
  obtain ⟨l1, l2, l3⟩ := F.node_lo h
  have hroom : a + 1 < (loOf ENT).length ∨ (loOf ENT).length % 64 ≠ 0 := by
    rw [loOf_length]
    rcases F.node_room h with h1 | h1
    · left; exact h1
    · right; rw [h1]; decide
  obtain ⟨d, hd1, hd2, hd3⟩ := R.lo.distance a (by rw [loOf_length]; omega) hroom
  rw [loOf_length] at hd3
  refine ⟨d, ?_, ?_⟩
  · simp only [LoudsSparse.nodeSize, R.readLo (show a < ENT.length by omega), l1,
      Option.bind_eq_bind, Option.some_bind, check, if_true, hd1]
  · rcases hd3 with ⟨k1, k2, k3⟩ | ⟨k1, k2⟩
    · left
      by_contra hc
      rcases Nat.lt_or_gt_of_ne hc with h4 | h4
      · have := l2 (a + d) (by omega) (by omega)
        rw [k2] at this
        exact absurd this (by simp)
      · have hbn : b < ENT.length := by omega
        have := k3 b (by omega) (by omega)
        rw [l3 hbn] at this
        exact absurd this (by simp)
    · have hb : b = ENT.length := by
        by_contra hc
        have hbn : b < ENT.length := by omega
        have := k1 b (by omega)
        rw [l3 hbn] at this
        exact absurd this (by simp)
      rcases k2 with k2 | ⟨k2, k3, k4⟩
      · left; omega
      · right
        have hroom2 : a + 1 < b := by
          have hNW := numWords_bound t.louds_bits_
          have hnb := R.lo.nbits
          rw [loOf_length] at hnb
          have hw : 64 * t.louds_bits_.numWords < t.louds_bits_.num_bits_ + 64 := by
            simp only [Bitvector.numWords, kWordSize]
            split <;> rename_i hh
            · simp only [beq_iff_eq] at hh; omega
            · simp only [beq_iff_eq] at hh; omega
          omega
        refine ⟨hb, by omega, by omega, ?_, hroom2⟩
        intro hfit
        have hsel : t.louds_bits_.select t.louds_bits_.numOnes = some a := by
          have hidx := filter_range_index (fun q => (loOf ENT).getD q false) (loOf ENT).length a
            (by rw [loOf_length]; omega) l1
          have hcnt : cntBefore (fun q => (loOf ENT).getD q false) (loOf ENT).length =
              cntBefore (fun q => (loOf ENT).getD q false) a + 1 := by
            have h5 : ∀ m, a < m → cntBefore (fun q => (loOf ENT).getD q false) m =
                cntBefore (fun q => (loOf ENT).getD q false) a + 1 := by
              intro m hm
              induction m with
              | zero => omega
              | succ m ih =>
                rw [cntBefore_succ]
                by_cases hma : m = a
                · subst hma; rw [l1]; simp
                · rw [ih (by omega), k1 m (by omega)]; simp
            exact h5 _ (by rw [loOf_length]; omega)
          have hno : t.louds_bits_.numOnes =
              cntBefore (fun q => (loOf ENT).getD q false) a + 1 := by
            rw [R.lo.numOnes_eq]
            simp only [ones]
            rw [filter_range_length, hcnt]
          rw [hno, R.lo.select_eq _ (by omega)]
          simp only [Nat.add_sub_cancel]
          exact hidx
        have := hfit a hsel
        simp only [kWordSize] at this
        omega

/-- The node size is exact when the last node lies in the last word. -/
theorem nodeSize_exact (R : TRepr t TV ENT) (F : FlatTrie TV ENT) {e : List Nat} {a b : Nat}
    (h : NodeOf ENT e a b) (hfit : t.lastNodeInLastWord) : t.nodeSize a = some (b - a) := by
  obtain ⟨sz, h1, h2⟩ := R.nodeSize_spec F h
  rcases h2 with h2 | ⟨_, _, _, h2, _⟩
  · rw [h1, h2]
  · exact absurd hfit h2

/-- The first label of a node that is searched with a length above 1 is not the
terminator. -/
theorem first_ne (R : TRepr t TV ENT) (F : FlatTrie TV ENT) {e : List Nat} {a b sz : Nat}
    (h : NodeOf ENT e a b) (hs : t.nodeSize a = some sz) (h1 : 1 < sz) :
    (labOf ENT).getD a 0 ≠ kTerminator := by
  obtain ⟨sz2, e1, e2⟩ := R.nodeSize_spec F h
  rw [hs] at e1
  have e3 := Option.some.inj e1
  subst e3
  apply R.term_last F h (Nat.le_refl _)
  rcases e2 with e2 | ⟨_, _, _, _, e2⟩
  · omega
  · exact e2

end TRepr

end FST

namespace FST

namespace TRepr

variable {t : LoudsSparse} {TV : List (List Nat × Nat)} {ENT : List (List Nat)}

/-- The entry `c ++ [x]`, when it exists, is found by `search` in the node of `c`. -/
theorem search_entry (R : TRepr t TV ENT) (F : FlatTrie TV ENT) {c : List Nat} {a b g x : Nat}
    (h : NodeOf ENT c a b) (hg : g < ENT.length) (hge : ENT.getD g [] = c ++ [x]) :
    a ≤ g ∧ g < b ∧ ∃ sz, t.nodeSize a = some sz ∧ t.labels_.search x a sz = some (true, g) := by
  have hl := h.lt
  have hle := h.le
  have hpar : par ENT g = c := by
    simp only [par]
    rw [hge]
    simp
  obtain ⟨g1, g2⟩ := (h.mem g hg).mp hpar
  have hlab : (labOf ENT).getD g 0 = x := by
    rw [labOf_getD ENT g hg, hge]; simp
  obtain ⟨sz, hs1, hs2⟩ := R.nodeSize_spec F h
  refine ⟨g1, g2, sz, hs1, ?_⟩
  apply search_found R.lab x a (b - a) sz g (by rw [labOf_length]; omega) g1 (by omega) hlab
  · have := F.node_incr h
    have e : a + (b - a) = b := by omega
    rw [e]; exact this
  · exact R.first_ne F h hs1
  · rcases hs2 with h1 | ⟨_, h2, h3, _⟩
    · left; exact h1
    · right; exact ⟨h2, h3⟩

/-- A byte that labels no entry of the node is not found, when the node size is exact. -/
theorem search_absent (R : TRepr t TV ENT) (F : FlatTrie TV ENT) {c : List Nat} {a b x : Nat}
    (h : NodeOf ENT c a b) (hfit : t.lastNodeInLastWord) (habs : c ++ [x] ∉ ENT) :
    t.nodeSize a = some (b - a) ∧ t.labels_.search x a (b - a) = some (false, a) := by
  have hl := h.lt
  have hle := h.le
  refine ⟨R.nodeSize_exact F h hfit, ?_⟩
  apply search_notfound R.lab x a (b - a) (by rw [labOf_length]; omega) (by omega)
  · intro q h1 h2 hlab
    have hq : q < ENT.length := by omega
    have hpar : par ENT q = c := (h.mem q hq).mpr ⟨h1, by omega⟩
    have := F.entry_eq hq
    rw [hpar, hlab] at this
    exact habs (this ▸ getD_mem ENT q hq)
  · intro h1
    exact R.term_last F h (Nat.le_refl _) (by omega)

theorem lookupLoop_found (R : TRepr t TV ENT) (F : FlatTrie TV ENT) (offset : Nat)
    (tk : List Nat) (v : Nat) (htk : tk ∈ keysOf TV) (hv : TV.lookup tk = some v) :
    ∀ (rest c : List Nat) (a b : Nat), NodeOf ENT c a b → c <+: tk → c ≠ tk →
      tk <+: c ++ rest → t.lookupKeyLoop offset rest a = some (true, v) := by
  intro rest
  induction rest with
  | nil =>
    intro c a b _ h1 h2 h3
    rw [List.append_nil] at h3
    exact absurd (h1.eq_of_length_le h3.length_le) h2
  | cons x r ih =>
    intro c a b hn h1 h2 h3
    -- the entry `c ++ [x]` is a prefix of `tk`
    have hlen : c.length < tk.length := by
      rcases Nat.lt_or_eq_of_le h1.length_le with h | h
      · exact h
      · exact absurd (h1.eq_of_length h) h2
    have hpre : c ++ [x] <+: tk := by
      have e1 : c ++ x :: r = (c ++ [x]) ++ r := by simp
      rw [e1] at h3
      exact List.prefix_of_prefix_length_le (List.prefix_append _ _) h3 (by simp; omega)
    obtain ⟨g, hg, hge⟩ := F.pos_of_pfx (by simp) htk hpre
    obtain ⟨g1, g2, sz, hs1, hs2⟩ := R.search_entry F hn hg hge
    rw [LoudsSparse.lookupKeyLoop]
    simp only [hs1, hs2, Option.bind_eq_bind, Option.some_bind, Bool.not_true,
      Bool.false_eq_true, if_false, R.readCh hg]
    by_cases hkey : c ++ [x] ∈ keysOf TV
    · have heq : c ++ [x] = tk := F.pfree _ hkey tk htk hpre
      have hch := (F.ch_false_iff hg).mpr (by rw [hge]; exact hkey)
      obtain ⟨hr1, hr2⟩ := F.value_at hg v (by rw [hge, heq]; exact hv)
      simp only [hch, Bool.not_false, if_true, R.ch.rank_eq, check, hr1, decide_True,
        Option.some_bind, R.vals, hr2]
    · have hch := (F.ch_true_iff hg).mpr (by rw [hge]; exact hkey)
      obtain ⟨a2, b2, hsel, hn2⟩ := F.child_node hg hch
      simp only [hch, Bool.not_true, Bool.false_eq_true, if_false, R.childNum, R.firstLabelPos,
        hsel, Option.some_bind]
      rw [hge] at hn2
      apply ih (c ++ [x]) a2 b2 hn2 hpre (fun e => hkey (e ▸ htk))
      simpa using h3

theorem lookupLoop_notfound (R : TRepr t TV ENT) (F : FlatTrie TV ENT) (offset : Nat)
    (hfit : t.lastNodeInLastWord) :
    ∀ (rest c : List Nat) (a b : Nat), NodeOf ENT c a b →
      (∀ tk ∈ keysOf TV, ¬ tk <+: c ++ rest) →
      t.lookupKeyLoop offset rest a = some (false, offset) := by
  intro rest
  induction rest with
  | nil => intro c a b _ _; rfl
  | cons x r ih =>
    intro c a b hn hno
    rw [LoudsSparse.lookupKeyLoop]
    by_cases hmem : c ++ [x] ∈ ENT
    · obtain ⟨g, hg, hge⟩ := exists_pos_of_mem ENT _ hmem
      obtain ⟨g1, g2, sz, hs1, hs2⟩ := R.search_entry F hn hg hge
      simp only [hs1, hs2, Option.bind_eq_bind, Option.some_bind, Bool.not_true,
        Bool.false_eq_true, if_false, R.readCh hg]
      have hkey : c ++ [x] ∉ keysOf TV := by
        intro hk
        apply hno _ hk
        have e1 : c ++ x :: r = (c ++ [x]) ++ r := by simp
        rw [e1]; exact List.prefix_append _ _
      have hch := (F.ch_true_iff hg).mpr (by rw [hge]; exact hkey)
      obtain ⟨a2, b2, hsel, hn2⟩ := F.child_node hg hch
      simp only [hch, Bool.not_true, Bool.false_eq_true, if_false, R.childNum, R.firstLabelPos,
        hsel, Option.some_bind]
      rw [hge] at hn2
      apply ih (c ++ [x]) a2 b2 hn2
      intro tk htk
      have := hno tk htk
      simpa using this
    · obtain ⟨hs1, hs2⟩ := R.search_absent F hn hfit hmem
      simp only [hs1, hs2, Option.bind_eq_bind, Option.some_bind, Bool.not_false, if_true]

/-- The point lookup of a key that extends the stored key `tk` returns the value of `tk`. -/
theorem lookupKey_found (R : TRepr t TV ENT) (F : FlatTrie TV ENT) (offset : Nat)
    (key tk : List Nat) (v : Nat) (htk : tk ∈ keysOf TV) (hv : TV.lookup tk = some v)
    (hpre : tk <+: key) : t.lookupKey key 0 offset = some (true, v) := by
  obtain ⟨b, hroot⟩ := F.root_node
  have hsel : (ones (loOf ENT))[0]? = some 0 :=
    FlatTrie.ones_head _ F.lo_zero (by rw [loOf_length]; exact F.length_pos)
  simp only [LoudsSparse.lookupKey, R.firstLabelPos, hsel, Option.bind_eq_bind,
    Option.some_bind, R.start, List.drop_zero]
  exact R.lookupLoop_found F offset tk v htk hv key [] 0 b hroot List.nil_prefix
    (fun e => F.keyne tk htk e.symm) (by simpa using hpre)

/-- The point lookup of a key that no stored key is a prefix of reports absent. -/
theorem lookupKey_notfound (R : TRepr t TV ENT) (F : FlatTrie TV ENT) (offset : Nat)
    (hfit : t.lastNodeInLastWord) (key : List Nat)
    (hno : ∀ tk ∈ keysOf TV, ¬ tk <+: key) : t.lookupKey key 0 offset = some (false, offset) := by
  obtain ⟨b, hroot⟩ := F.root_node
  have hsel : (ones (loOf ENT))[0]? = some 0 :=
    FlatTrie.ones_head _ F.lo_zero (by rw [loOf_length]; exact F.length_pos)
  simp only [LoudsSparse.lookupKey, R.firstLabelPos, hsel, Option.bind_eq_bind,
    Option.some_bind, R.start, List.drop_zero]
  exact R.lookupLoop_notfound F offset hfit key [] 0 b hroot (by simpa using hno)

end TRepr

end FST

namespace FST

/-! ## The builder, level by level -/

theorem shape_self (b : FSTBuilder) (h1 : b.child_indicator_bits_.length = b.labels_.length)
    (h2 : b.louds_bits_.length = b.labels_.length) (h3 : b.values_.length = b.labels_.length)
    (h4 : b.node_counts_.length = b.labels_.length)
    (h5 : b.is_last_item_terminator_.length = b.labels_.length)
    (h6 : ∀ l, l < b.labels_.length → b.is_last_item_terminator_[l]? = some false)
    (h7 : b.sparse_start_level_ = 0) :
    Shape b b.labels_.length (labL b) (cwL b) (lwL b) (valL b) :=
  ⟨rfl, h1, h2, h3, h4, h5, fun _ => rfl, fun _ => rfl, fun _ => rfl, fun _ => rfl, h6, h7⟩

theorem getD_of_lt {α : Type} (l : List α) (i : Nat) (d : α) (h : i < l.length) :
    l[i]? = some (l.getD i d) := by
  simp [List.getD_eq_getElem?_getD, List.getElem?_eq_getElem h]

theorem getD_set {α : Type} (l : List α) (i j : Nat) (x d : α) (h : i < l.length) :
    (l.set i x).getD j d = if j = i then x else l.getD j d := by
  by_cases hj : j = i
  · subst hj; simp [List.getD_eq_getElem?_getD, List.getElem?_set, h]
  · have : ¬ i = j := fun e => hj e.symm
    simp [List.getD_eq_getElem?_getD, List.getElem?_set, hj, this]

theorem getD_append_left {α : Type} (l l2 : List α) (i : Nat) (d : α) (h : i < l.length) :
    (l ++ l2).getD i d = l.getD i d := by
  simp [List.getD_eq_getElem?_getD, List.getElem?_append_left h]

theorem getD_append_self {α : Type} (l : List α) (x d : α) :
    (l ++ [x]).getD l.length d = x := by
  simp [List.getD_eq_getElem?_getD]

theorem getD_ge {α : Type} (l : List α) (i : Nat) (d : α) (h : l.length ≤ i) :
    l.getD i d = d := by
  simp [List.getD_eq_getElem?_getD, List.getElem?_eq_none h]

theorem getD_append_one {α : Type} (l : List α) (x d : α) (i : Nat) :
    (l ++ [x]).getD i d = if i = l.length then x else l.getD i d := by
  by_cases h : i = l.length
  · subst h; simp [getD_append_self]
  · simp only [h, if_false]
    by_cases h2 : i < l.length
    · exact getD_append_left _ _ _ _ h2
    · rw [getD_ge l i d (by omega), getD_ge (l ++ [x]) i d (by simp; omega)]

namespace Shape

variable {b : FSTBuilder} {H : Nat} {lab cw lw val : Nat → List Nat}

theorem addLevel_shape (S : Shape b H lab cw lw val) :
    Shape b.addLevel (H + 1) lab (Function.update cw H [0]) (Function.update lw H [0]) val := by
  refine ⟨?_, ?_, ?_, ?_, ?_, ?_, ?_, ?_, ?_, ?_, ?_, S.ssl⟩
  · simp [FSTBuilder.addLevel, S.lenLab]
  · simp [FSTBuilder.addLevel, S.lenC]
  · simp [FSTBuilder.addLevel, S.lenL]
  · simp [FSTBuilder.addLevel, S.lenV]
  · simp [FSTBuilder.addLevel, S.lenN]
  · simp [FSTBuilder.addLevel, S.lenT]
  · intro l
    rw [← S.lab l]
    simp only [labL, FSTBuilder.addLevel, getD_append_one, S.lenLab]
    split
    · rename_i h; subst h; rw [getD_ge _ _ _ (by rw [S.lenLab])]
    · rfl
  · intro l
    simp only [cwL, FSTBuilder.addLevel, getD_append_one, S.lenC, Function.update_apply]
    split
    · rfl
    · exact S.cw l
  · intro l
    simp only [lwL, FSTBuilder.addLevel, getD_append_one, S.lenL, Function.update_apply]
    split
    · rfl
    · exact S.lw l
  · intro l
    rw [← S.val l]
    simp only [valL, FSTBuilder.addLevel, getD_append_one, S.lenV]
    split
    · rename_i h; subst h; rw [getD_ge _ _ _ (by rw [S.lenV])]
    · rfl
  · intro l hl
    simp only [FSTBuilder.addLevel]
    by_cases h : l = H
    · subst h
      rw [← S.lenT]; simp
    · rw [List.getElem?_append_left (by have := S.lenT; omega)]
      exact S.term l (by omega)

theorem getNumItems_shape (S : Shape b H lab cw lw val) {l : Nat} (hl : l < H) :
    b.getNumItems l = some (lab l).length := by
  simp only [FSTBuilder.getNumItems]
  rw [getD_of_lt b.labels_ l [] (by rw [S.lenLab]; exact hl)]
  simp only [Option.map_some']
  rw [← S.lab l]; rfl

theorem labels_get (S : Shape b H lab cw lw val) {l : Nat} (hl : l < H) :
    b.labels_[l]? = some (lab l) := by
  rw [getD_of_lt b.labels_ l [] (by rw [S.lenLab]; exact hl), ← S.lab l]; rfl

theorem setChildBit_shape (S : Shape b H lab cw lw val) {l pos : Nat} (hl : l < H) (w1 : List Nat)
    (hset : FSTBuilder.setBit (cw l) pos = some w1) :
    ∃ b1, b.setChildBit l pos = some b1 ∧ Shape b1 H lab (Function.update cw l w1) lw val := by
  have hget : b.child_indicator_bits_[l]? = some (cw l) := by
    rw [getD_of_lt b.child_indicator_bits_ l [] (by rw [S.lenC]; exact hl), ← S.cw l]; rfl
  refine ⟨{ b with child_indicator_bits_ := b.child_indicator_bits_.set l w1 }, by
    simp only [FSTBuilder.setChildBit, hget, Option.bind_eq_bind, Option.some_bind, hset], ?_⟩
  refine ⟨S.lenLab, by simp [S.lenC], S.lenL, S.lenV, S.lenN, S.lenT, S.lab, ?_, S.lw, S.val,
    S.term, S.ssl⟩
  intro j
  simp only [cwL, Function.update_apply]
  rw [getD_set _ _ _ _ _ (by rw [S.lenC]; exact hl)]
  split
  · rfl
  · exact S.cw j

theorem setLoudsBit_shape (S : Shape b H lab cw lw val) {l pos : Nat} (hl : l < H) (w1 : List Nat)
    (hset : FSTBuilder.setBit (lw l) pos = some w1) :
    ∃ b1, b.setLoudsBit l pos = some b1 ∧ Shape b1 H lab cw (Function.update lw l w1) val := by
  have hget : b.louds_bits_[l]? = some (lw l) := by
    rw [getD_of_lt b.louds_bits_ l [] (by rw [S.lenL]; exact hl), ← S.lw l]; rfl
  refine ⟨{ b with louds_bits_ := b.louds_bits_.set l w1 }, by
    simp only [FSTBuilder.setLoudsBit, hget, Option.bind_eq_bind, Option.some_bind, hset], ?_⟩
  refine ⟨S.lenLab, S.lenC, by simp [S.lenL], S.lenV, S.lenN, S.lenT, S.lab, S.cw, ?_, S.val,
    S.term, S.ssl⟩
  intro j
  simp only [lwL, Function.update_apply]
  rw [getD_set _ _ _ _ _ (by rw [S.lenL]; exact hl)]
  split
  · rfl
  · exact S.lw j

theorem pushLabel (S : Shape b H lab cw lw val) {l : Nat} (hl : l < H) (c : Nat) :
    Shape { b with labels_ := b.labels_.set l (lab l ++ [c]) } H
      (Function.update lab l (lab l ++ [c])) cw lw val := by
  refine ⟨by simp [S.lenLab], S.lenC, S.lenL, S.lenV, S.lenN, S.lenT, ?_, S.cw, S.lw, S.val,
    S.term, S.ssl⟩
  intro j
  simp only [labL, Function.update_apply]
  rw [getD_set _ _ _ _ _ (by rw [S.lenLab]; exact hl)]
  split
  · rfl
  · exact S.lab j

theorem setNodeCount (S : Shape b H lab cw lw val) (l nc : Nat) :
    Shape { b with node_counts_ := b.node_counts_.set l nc } H lab cw lw val :=
  ⟨S.lenLab, S.lenC, S.lenL, S.lenV, by simp [S.lenN], S.lenT, S.lab, S.cw, S.lw, S.val, S.term, S.ssl⟩

theorem setTerm (S : Shape b H lab cw lw val) (l : Nat) :
    Shape { b with is_last_item_terminator_ := b.is_last_item_terminator_.set l false } H
      lab cw lw val := by
  refine ⟨S.lenLab, S.lenC, S.lenL, S.lenV, S.lenN, by simp [S.lenT], S.lab, S.cw, S.lw, S.val,
    ?_, S.ssl⟩
  intro j hj
  rw [List.getElem?_set]
  split
  · rename_i h; subst h
    simp [S.lenT, hj]
  · exact S.term j hj

theorem moveToNextItemSlot_shape (S : Shape b H lab cw lw val) {l : Nat} (hl : l < H) :
    ∃ b1, b.moveToNextItemSlot l = some b1 ∧
      Shape b1 H lab
        (if (lab l).length % 64 = 0 then Function.update cw l (cw l ++ [0]) else cw)
        (if (lab l).length % 64 = 0 then Function.update lw l (lw l ++ [0]) else lw) val := by
  have hc : b.child_indicator_bits_[l]? = some (cw l) := by
    rw [getD_of_lt b.child_indicator_bits_ l [] (by rw [S.lenC]; exact hl), ← S.cw l]; rfl
  have hlo : b.louds_bits_[l]? = some (lw l) := by
    rw [getD_of_lt b.louds_bits_ l [] (by rw [S.lenL]; exact hl), ← S.lw l]; rfl
  have hH : l < b.getTreeHeight := by simp [FSTBuilder.getTreeHeight, S.lenLab, hl]
  by_cases hm : (lab l).length % 64 = 0
  · have hm2 : ((lab l).length % kWordSize == 0) = true := by simpa [kWordSize] using hm
    refine ⟨{ b with child_indicator_bits_ := b.child_indicator_bits_.set l (cw l ++ [0]),
                     louds_bits_ := b.louds_bits_.set l (lw l ++ [0]) }, by
      simp only [FSTBuilder.moveToNextItemSlot, check, hH, decide_True, if_true,
      S.getNumItems_shape hl, Option.bind_eq_bind, Option.some_bind, hm2, hc, hlo], ?_⟩
    simp only [hm, if_true]
    refine ⟨S.lenLab, by simp [S.lenC], by simp [S.lenL], S.lenV, S.lenN, S.lenT, S.lab, ?_, ?_,
      S.val, S.term, S.ssl⟩
    · intro j
      simp only [cwL, Function.update_apply]
      rw [getD_set _ _ _ _ _ (by rw [S.lenC]; exact hl)]
      split
      · rfl
      · exact S.cw j
    · intro j
      simp only [lwL, Function.update_apply]
      rw [getD_set _ _ _ _ _ (by rw [S.lenL]; exact hl)]
      split
      · rfl
      · exact S.lw j
  · have hm2 : ((lab l).length % kWordSize == 0) = false := by simpa [kWordSize] using hm
    refine ⟨b, by simp only [FSTBuilder.moveToNextItemSlot, check, hH, decide_True, if_true,
      S.getNumItems_shape hl, Option.bind_eq_bind, Option.some_bind, hm2, Bool.false_eq_true,
      if_false], ?_⟩
    simp only [hm, if_false]
    exact S

theorem pushValue_shape (S : Shape b H lab cw lw val) {l : Nat} (hl : l < H) (v : Nat) :
    ∃ b1, b.pushValue l v = some b1 ∧
      Shape b1 H lab cw lw (Function.update val l (val l ++ [v])) := by
  have hget : b.values_[l]? = some (val l) := by
    rw [getD_of_lt b.values_ l [] (by rw [S.lenV]; exact hl), ← S.val l]; rfl
  refine ⟨{ b with values_ := b.values_.set l (val l ++ [v]) }, by
    simp only [FSTBuilder.pushValue, hget, Option.bind_eq_bind, Option.some_bind], ?_⟩
  refine ⟨S.lenLab, S.lenC, S.lenL, by simp [S.lenV], S.lenN, S.lenT, S.lab, S.cw, S.lw, ?_,
    S.term, S.ssl⟩
  intro j
  simp only [valL, Function.update_apply]
  rw [getD_set _ _ _ _ _ (by rw [S.lenV]; exact hl)]
  split
  · rfl
  · exact S.val j

end Shape

end FST

namespace FST

theorem packed_zero : PackedOK [0] 0 := by
  refine ⟨by simp, ?_, ?_⟩
  · intro w hw; simp at hw; subst hw; decide
  · intro q _
    simp only [bitAt, List.getD_eq_getElem?_getD]
    by_cases h : q / 64 = 0
    · rw [h]; simp
    · have : ([0] : List Nat)[q / 64]? = none := List.getElem?_eq_none (by simp; omega)
      simp [this]

theorem bitsOf_set (ws ws1 : List Nat) (n pos : Nat)
    (h : ∀ q, bitAt ws1 q = (decide (q = pos) || bitAt ws q)) :
    bitsOf ws1 n = (bitsOf ws n).set pos true := by
  apply List.ext_getElem?
  intro q
  by_cases hq : q < n
  · rw [bitsOf_getElem? _ _ _ hq, List.getElem?_set, bitsOf_getElem? _ _ _ hq, h q]
    by_cases e : pos = q
    · subst e; simp [bitsOf_length, hq]
    · have : ¬ q = pos := fun x => e x.symm
      simp [e, this]
  · rw [List.getElem?_eq_none (by rw [bitsOf_length]; omega),
      List.getElem?_eq_none (by rw [List.length_set, bitsOf_length]; omega)]

theorem packed_set (ws ws1 : List Nat) (n pos : Nat) (hp : PackedOK ws n) (hpos : pos < n)
    (hlen : ws1.length = ws.length)
    (h : ∀ q, bitAt ws1 q = (decide (q = pos) || bitAt ws q))
    (hw : Words64 ws → Words64 ws1) : PackedOK ws1 n := by
  refine ⟨by rw [hlen, hp.len], hw hp.w64, ?_⟩
  intro q hq
  rw [h q, hp.zero q hq]
  have : ¬ q = pos := by omega
  simp [this]

/-- Appending one item to a packed level: the bit at position `n` is written (or not), and
a fresh word is added when the next position starts a new word. -/
theorem packed_grow (ws ws1 : List Nat) (n : Nat) (st : Bool) (hp : PackedOK ws n)
    (hlen : ws1.length = ws.length)
    (h : ∀ q, bitAt ws1 q = ((decide (q = n) && st) || bitAt ws q))
    (hw : Words64 ws1) :
    PackedOK (if (n + 1) % 64 = 0 then ws1 ++ [0] else ws1) (n + 1) ∧
    bitsOf (if (n + 1) % 64 = 0 then ws1 ++ [0] else ws1) (n + 1) = bitsOf ws n ++ [st] := by
  have hb : bitsOf ws1 (n + 1) = bitsOf ws n ++ [st] := by
    rw [bitsOf_succ]
    have e1 : bitsOf ws1 n = bitsOf ws n := by
      simp only [bitsOf]
      apply List.map_congr_left
      intro q hq
      rw [h q]
      have : ¬ q = n := by have := List.mem_range.mp hq; omega
      simp [this]
    rw [e1, h n, hp.zero n (Nat.le_refl _)]
    simp
  have hz : ZeroFrom ws1 (n + 1) := by
    intro q hq
    rw [h q, hp.zero q (by omega)]
    have : ¬ q = n := by omega
    simp [this]
  by_cases hm : (n + 1) % 64 = 0
  · simp only [hm, if_true]
    refine ⟨⟨?_, words64_append_zero _ hw, ?_⟩, ?_⟩
    · rw [List.length_append, hlen, hp.len]; simp; omega
    · intro q hq; rw [bitAt_append_zero]; exact hz q hq
    · rw [bitsOf_append_zero]; exact hb
  · simp only [hm, if_false]
    exact ⟨⟨by rw [hlen, hp.len]; omega, hw, hz⟩, hb⟩

theorem Shape.lab_nil_shape {b : FSTBuilder} {H : Nat} {lab cw lw val : Nat → List Nat}
    (S : Shape b H lab cw lw val) {l : Nat} (hl : H ≤ l) : lab l = [] := by
  rw [← S.lab l]
  exact getD_ge _ _ _ (by rw [S.lenLab]; exact hl)

theorem BAbs.addLevel_abs {b : FSTBuilder} {H : Nat} {lab : Nat → List Nat}
    {ch lo : Nat → List Bool} {val : Nat → List Nat} (h : BAbs b H lab ch lo val) :
    BAbs b.addLevel (H + 1) lab ch lo val := by
  obtain ⟨cw, lw, S, p1, p2, e1, e2⟩ := h
  have hn : lab H = [] := S.lab_nil_shape (Nat.le_refl _)
  refine ⟨_, _, S.addLevel_shape, ?_, ?_, ?_, ?_⟩
  · intro l hl
    by_cases e : l = H
    · subst e; rw [Function.update_same, hn]; exact packed_zero
    · rw [Function.update_noteq e]; exact p1 l (by omega)
  · intro l hl
    by_cases e : l = H
    · subst e; rw [Function.update_same, hn]; exact packed_zero
    · rw [Function.update_noteq e]; exact p2 l (by omega)
  · intro l
    by_cases e : l = H
    · subst e; rw [e1, hn]; rfl
    · rw [Function.update_noteq e]; exact e1 l
  · intro l
    by_cases e : l = H
    · subst e; rw [e2, hn]; rfl
    · rw [Function.update_noteq e]; exact e2 l

theorem BAbs.height {b : FSTBuilder} {H : Nat} {lab : Nat → List Nat}
    {ch lo : Nat → List Bool} {val : Nat → List Nat} (h : BAbs b H lab ch lo val) :
    b.getTreeHeight = H := by
  obtain ⟨cw, lw, S, _⟩ := h
  exact S.lenLab

theorem BAbs.lab_nil_abs {b : FSTBuilder} {H : Nat} {lab : Nat → List Nat}
    {ch lo : Nat → List Bool} {val : Nat → List Nat} (h : BAbs b H lab ch lo val)
    {l : Nat} (hl : H ≤ l) : lab l = [] := by
  obtain ⟨cw, lw, S, _⟩ := h
  exact S.lab_nil_shape hl

/-- Setting the child bit of the last item of a level. -/
theorem BAbs.setChildBit_abs {b : FSTBuilder} {H : Nat} {lab : Nat → List Nat}
    {ch lo : Nat → List Bool} {val : Nat → List Nat} (h : BAbs b H lab ch lo val)
    {l : Nat} (hl : l < H) (hne : lab l ≠ []) :
    ∃ b1, b.setChildBit l ((lab l).length - 1) = some b1 ∧
      BAbs b1 H lab (Function.update ch l ((ch l).set ((lab l).length - 1) true)) lo val := by
  obtain ⟨cw, lw, S, p1, p2, e1, e2⟩ := h
  have hpos : 0 < (lab l).length := List.length_pos.mpr hne
  have hP := p1 l hl
  obtain ⟨w1, hs, hlen, hbits, hw⟩ :=
    setBit_eq (cw l) ((lab l).length - 1) (by rw [hP.len]; omega)
  obtain ⟨b1, hb1, S1⟩ := S.setChildBit_shape hl w1 hs
  refine ⟨b1, hb1, _, _, S1, ?_, p2, ?_, e2⟩
  · intro j hj
    by_cases e : j = l
    · subst e; rw [Function.update_same]
      exact packed_set _ _ _ _ hP (by omega) hlen hbits hw
    · rw [Function.update_noteq e]; exact p1 j hj
  · intro j
    by_cases e : j = l
    · subst e; rw [Function.update_same, Function.update_same, e1]
      exact (bitsOf_set _ _ _ _ hbits).symm
    · rw [Function.update_noteq e, Function.update_noteq e]; exact e1 j

end FST

namespace FST

theorem insertKeyByte_core {b b1 : FSTBuilder} {H : Nat} {lab : Nat → List Nat}
    {ch lo : Nat → List Bool} {val : Nat → List Nat} (c level : Nat) (start : Bool)
    (hb1 : (if level ≥ b.getTreeHeight then b.addLevel else b) = b1)
    (h : BAbs b1 H lab ch lo val) (hlev : level < H)
    (hpar : 0 < level → lab (level - 1) ≠ []) :
    ∃ b2, b.insertKeyByte c level start false = some b2 ∧
      BAbs b2 H (Function.update lab level (lab level ++ [c]))
        (Function.update
          (if 0 < level then
            Function.update ch (level - 1)
              ((ch (level - 1)).set ((lab (level - 1)).length - 1) true)
           else ch) level (ch level ++ [false]))
        (Function.update lo level (lo level ++ [start])) val := by
  have hH : level < b1.getTreeHeight := by rw [h.height]; exact hlev
  -- the child bit of the parent
  have step2 : ∃ b2, (if level > 0 then (do
        let n ← b1.getNumItems (level - 1)
        check (decide (0 < n))
        b1.setChildBit (level - 1) (n - 1))
      else some b1) = some b2 ∧
      BAbs b2 H lab (if 0 < level then
            Function.update ch (level - 1)
              ((ch (level - 1)).set ((lab (level - 1)).length - 1) true)
           else ch) lo val := by
    by_cases h0 : 0 < level
    · obtain ⟨b2, e2, A2⟩ := h.setChildBit_abs (show level - 1 < H by omega) (hpar h0)
      obtain ⟨cw, lw, S, _⟩ := h
      have hpos : 0 < (lab (level - 1)).length := List.length_pos.mpr (hpar h0)
      refine ⟨b2, ?_, ?_⟩
      · simp only [gt_iff_lt, h0, if_true, S.getNumItems_shape (show level - 1 < H by omega),
          Option.bind_eq_bind, Option.some_bind, check, hpos, decide_True, e2]
      · simp only [h0, if_true]; exact A2
    · refine ⟨b1, by simp only [gt_iff_lt, h0, if_false], ?_⟩
      simp only [h0, if_false]; exact h
  obtain ⟨b2, e2, A2⟩ := step2
  obtain ⟨cw, lw, S, p1, p2, c1, c2⟩ := A2
  -- the label
  have S3 := S.pushLabel hlev c
  have hlab3 : (Function.update lab level (lab level ++ [c]) level).length
      = (lab level).length + 1 := by
    rw [Function.update_same]; simp
  -- the LOUDS bit
  have step4 : ∃ b4 w1, (if start = true then (do
        let n ← FSTBuilder.getNumItems
          { b2 with labels_ := b2.labels_.set level (lab level ++ [c]) } level
        let b3a ← FSTBuilder.setLoudsBit
          { b2 with labels_ := b2.labels_.set level (lab level ++ [c]) } level (n - 1)
        let nc ← b3a.node_counts_[level]?
        some { b3a with node_counts_ := b3a.node_counts_.set level (nc + 1) })
      else some { b2 with labels_ := b2.labels_.set level (lab level ++ [c]) }) = some b4 ∧
      Shape b4 H (Function.update lab level (lab level ++ [c])) cw
        (Function.update lw level w1) val ∧
      w1.length = (lw level).length ∧
      (∀ q, bitAt w1 q = ((decide (q = (lab level).length) && start) || bitAt (lw level) q)) ∧
      Words64 w1 := by
    have hP := p2 level hlev
    cases start with
    | true =>
      obtain ⟨w1, hs, hlen, hbits, hw⟩ :=
        setBit_eq (lw level) (lab level).length (by rw [hP.len]; omega)
      obtain ⟨b3a, e3a, S3a⟩ := S3.setLoudsBit_shape hlev w1 hs
      have hnc : b3a.node_counts_[level]? = some (b3a.node_counts_.getD level 0) :=
        getD_of_lt _ _ _ (by rw [S3a.lenN]; exact hlev)
      refine ⟨{ b3a with node_counts_ :=
          b3a.node_counts_.set level (b3a.node_counts_.getD level 0 + 1) }, w1, ?_,
        S3a.setNodeCount _ _, hlen, ?_, hw hP.w64⟩
      · simp only [if_true, S3.getNumItems_shape hlev, hlab3, Option.bind_eq_bind, Option.some_bind,
          Nat.add_sub_cancel, e3a, hnc]
      · intro q; rw [hbits q]; simp
    | false =>
      refine ⟨{ b2 with labels_ := b2.labels_.set level (lab level ++ [c]) }, lw level,
        by simp only [Bool.false_eq_true, if_false], ?_, rfl, ?_, hP.w64⟩
      · rw [Function.update_eq_self]; exact S3
      · intro q; simp
  obtain ⟨b4, w1, e4, S4, hlen1, hbits1, hw1⟩ := step4
  have hT : level < b4.is_last_item_terminator_.length := by rw [S4.lenT]; exact hlev
  have S5 := S4.setTerm level
  obtain ⟨b6, e6, S6⟩ := S5.moveToNextItemSlot_shape hlev
  refine ⟨b6, ?_, ?_⟩
  · have k1 : check (decide (level < b1.getTreeHeight)) = some () := by
      simp only [check, hH, decide_True, if_true]
    have k2 : check (decide (level < b4.is_last_item_terminator_.length)) = some () := by
      simp only [check, hT, decide_True, if_true]
    simp only [Option.bind_eq_bind] at e2 e4
    simp only [FSTBuilder.insertKeyByte, hb1, k1, Option.bind_eq_bind, Option.some_bind, e2,
      S.labels_get hlev, e4, k2, e6]
  · have hP1 := p1 level hlev
    have hP2 := p2 level hlev
    have g1 := packed_grow (cw level) (cw level) (lab level).length false hP1 rfl
      (by intro q; simp) hP1.w64
    have g2 := packed_grow (lw level) w1 (lab level).length start hP2 hlen1 hbits1 hw1
    refine ⟨_, _, S6, ?_, ?_, ?_, ?_⟩
    · intro l hl
      by_cases e : l = level
      · subst e
        rw [hlab3]
        by_cases hm : ((lab l).length + 1) % 64 = 0
        · simp only [hm, if_true, Function.update_same] at g1 ⊢
          exact g1.1
        · simp only [hm, if_false] at g1 ⊢
          exact g1.1
      · rw [Function.update_noteq e]
        split
        · rw [Function.update_noteq e]; exact p1 l hl
        · exact p1 l hl
    · intro l hl
      by_cases e : l = level
      · subst e
        rw [hlab3]
        by_cases hm : ((lab l).length + 1) % 64 = 0
        · simp only [hm, if_true, Function.update_same] at g2 ⊢
          exact g2.1
        · simp only [hm, if_false, Function.update_same] at g2 ⊢
          exact g2.1
      · rw [Function.update_noteq e]
        split
        · rw [Function.update_noteq e, Function.update_noteq e]; exact p2 l hl
        · rw [Function.update_noteq e]; exact p2 l hl
    · intro l
      by_cases e : l = level
      · subst e
        rw [hlab3, Function.update_same]
        have hc : ch l = bitsOf (cw l) (lab l).length := by
          rw [← c1 l]
          split
          · rw [Function.update_noteq (by omega)]
          · rfl
        by_cases hm : ((lab l).length + 1) % 64 = 0
        · simp only [hm, if_true, Function.update_same] at g1 ⊢
          rw [g1.2, hc]
        · simp only [hm, if_false] at g1 ⊢
          rw [g1.2, hc]
      · rw [Function.update_noteq e, Function.update_noteq e, c1 l]
        split
        · rw [Function.update_noteq e]
        · rfl
    · intro l
      by_cases e : l = level
      · subst e
        rw [hlab3, Function.update_same]
        by_cases hm : ((lab l).length + 1) % 64 = 0
        · simp only [hm, if_true, Function.update_same] at g2 ⊢
          rw [g2.2, c2 l]
        · simp only [hm, if_false, Function.update_same] at g2 ⊢
          rw [g2.2, c2 l]
      · rw [Function.update_noteq e, Function.update_noteq e, c2 l]
        split
        · rw [Function.update_noteq e, Function.update_noteq e]
        · rw [Function.update_noteq e]

/-- One key byte is inserted at `level`: the label is appended to the level, with an unset
child bit and the LOUDS bit `start`; the child bit of the last item one level up is set. -/
theorem insertKeyByte_abs {b : FSTBuilder} {H : Nat} {lab : Nat → List Nat}
    {ch lo : Nat → List Bool} {val : Nat → List Nat} (c level : Nat) (start : Bool)
    (h : BAbs b H lab ch lo val) (hlev : level ≤ H)
    (hpar : 0 < level → lab (level - 1) ≠ []) :
    ∃ b2, b.insertKeyByte c level start false = some b2 ∧
      BAbs b2 (max H (level + 1)) (Function.update lab level (lab level ++ [c]))
        (Function.update
          (if 0 < level then
            Function.update ch (level - 1)
              ((ch (level - 1)).set ((lab (level - 1)).length - 1) true)
           else ch) level (ch level ++ [false]))
        (Function.update lo level (lo level ++ [start])) val := by
  by_cases e : level = H
  · have hb1 : (if level ≥ b.getTreeHeight then b.addLevel else b) = b.addLevel := by
      rw [h.height, if_pos (by omega)]
    have := insertKeyByte_core c level start hb1 h.addLevel_abs (by omega) hpar
    rw [show max H (level + 1) = H + 1 by omega]
    exact this
  · have hb1 : (if level ≥ b.getTreeHeight then b.addLevel else b) = b := by
      rw [h.height, if_neg (by omega)]
    have := insertKeyByte_core c level start hb1 h (by omega) hpar
    rw [show max H (level + 1) = H by omega]
    exact this

end FST

namespace FST

/-! ## The shape of the trie in terms of the key list -/

theorem lcp_le_left (a b : List Nat) : lcp a b ≤ a.length := by
  induction a generalizing b with
  | nil => simp [lcp]
  | cons x xs ih =>
    cases b with
    | nil => simp [lcp]
    | cons y ys =>
      simp only [lcp]
      split
      · have := ih ys; simp; omega
      · simp

theorem lcp_le_right (a b : List Nat) : lcp a b ≤ b.length := by
  induction a generalizing b with
  | nil => simp [lcp]
  | cons x xs ih =>
    cases b with
    | nil => simp [lcp]
    | cons y ys =>
      simp only [lcp]
      split
      · have := ih ys; simp; omega
      · simp

theorem lcp_get (a b : List Nat) (l : Nat) (h : l < lcp a b) : a[l]? = b[l]? := by
  induction a generalizing b l with
  | nil => simp [lcp] at h
  | cons x xs ih =>
    cases b with
    | nil => simp [lcp] at h
    | cons y ys =>
      simp only [lcp] at h
      split at h
      · rename_i e
        cases l with
        | zero => simp [e]
        | succ l => simp only [List.getElem?_cons_succ]; exact ih ys l (by omega)
      · omega

theorem lcp_getD (a b : List Nat) (l : Nat) (h : l < lcp a b) : a.getD l 0 = b.getD l 0 := by
  simp only [List.getD_eq_getElem?_getD, lcp_get a b l h]

theorem lcp_ne (a b : List Nat) (h1 : lcp a b < a.length) (h2 : lcp a b < b.length) :
    a.getD (lcp a b) 0 ≠ b.getD (lcp a b) 0 := by
  induction a generalizing b with
  | nil => simp at h1
  | cons x xs ih =>
    cases b with
    | nil => simp at h2
    | cons y ys =>
      simp only [lcp] at h1 h2 ⊢
      split
      · rename_i e
        rw [if_pos e] at h1 h2
        simp only [List.length_cons] at h1 h2
        simp only [List.getD_cons_succ]
        exact ih ys (by omega) (by omega)
      · rename_i e
        simpa using e

theorem lcp_take (a b : List Nat) (l : Nat) (h : l ≤ lcp a b) : a.take l = b.take l := by
  induction a generalizing b l with
  | nil =>
    simp only [lcp] at h
    have : l = 0 := by omega
    subst this; simp
  | cons x xs ih =>
    cases b with
    | nil =>
      simp only [lcp] at h
      have : l = 0 := by omega
      subst this; simp
    | cons y ys =>
      simp only [lcp] at h
      cases l with
      | zero => simp
      | succ l =>
        split at h
        · rename_i e
          simp only [List.take_succ_cons, e]
          rw [ih ys l (by omega)]
        · omega

theorem le_lcp_of_take (a b : List Nat) (l : Nat) (h1 : l ≤ a.length) (h2 : l ≤ b.length)
    (h : a.take l = b.take l) : l ≤ lcp a b := by
  induction a generalizing b l with
  | nil => simp at h1; omega
  | cons x xs ih =>
    cases l with
    | zero => omega
    | succ l =>
      cases b with
      | nil => simp at h2
      | cons y ys =>
        simp only [List.take_succ_cons, List.cons.injEq] at h
        simp only [List.length_cons] at h1 h2
        simp only [lcp, h.1, if_true]
        have := ih ys l (by omega) (by omega) h.2
        omega

theorem sOf_zero (keys : List (List Nat)) : sOf keys 0 = 0 := by simp [sOf]

theorem sOf_succ (keys : List (List Nat)) (j : Nat) : sOf keys (j + 1) = nOf keys j := by
  simp [sOf, nOf]

theorem sOf_lt_dOf (keys : List (List Nat)) (j : Nat) : sOf keys j < dOf keys j := by
  simp only [dOf]; omega

theorem nOf_lt_dOf (keys : List (List Nat)) (j : Nat) : nOf keys j < dOf keys j := by
  simp only [dOf]; omega

theorem dOf_le_HS (keys : List (List Nat)) (i j : Nat) (h : j < i) : dOf keys j ≤ HS keys i := by
  induction i with
  | zero => omega
  | succ i ih =>
    simp only [HS]
    by_cases e : j = i
    · subst e; omega
    · have := ih (by omega); omega

theorem sOf_le_HS (keys : List (List Nat)) (i : Nat) : sOf keys i ≤ HS keys i := by
  cases i with
  | zero => simp [sOf]
  | succ i =>
    rw [sOf_succ]
    have := nOf_lt_dOf keys i
    have := dOf_le_HS keys (i + 1) i (by omega)
    omega

theorem lvl_succ (keys : List (List Nat)) (i l : Nat) :
    lvl keys (i + 1) l =
      lvl keys i l ++ (if sOf keys i ≤ l ∧ l < dOf keys i then [i] else []) := by
  simp only [lvl, List.range_succ, List.filter_append, List.filter_cons, List.filter_nil]
  by_cases h : sOf keys i ≤ l ∧ l < dOf keys i
  · simp [h]
  · simp [h]

theorem mem_lvl (keys : List (List Nat)) (i l j : Nat) :
    j ∈ lvl keys i l ↔ j < i ∧ sOf keys j ≤ l ∧ l < dOf keys j := by
  simp [lvl]

/-- The last item of every level above the depth of the last key lies on the path of that
key, and has its child bit set when it is not the leaf. -/
theorem last_path (keys : List (List Nat)) (i l : Nat) (h : l < dOf keys i) :
    ∃ j, (lvl keys (i + 1) l).getLast? = some j ∧
      (kAt keys j).getD l 0 = (kAt keys i).getD l 0 ∧
      (l + 1 < dOf keys i → l + 1 < dOf keys j) := by
  induction i with
  | zero =>
    refine ⟨0, ?_, rfl, fun x => x⟩
    rw [lvl_succ, if_pos ⟨by simp [sOf], h⟩]
    simp
  | succ i ih =>
    by_cases hs : sOf keys (i + 1) ≤ l
    · refine ⟨i + 1, ?_, rfl, fun x => x⟩
      rw [lvl_succ, if_pos ⟨hs, h⟩]
      simp
    · have hs2 : l < nOf keys i := by rw [sOf_succ] at hs; omega
      obtain ⟨j, h1, h2, h3⟩ := ih (by have := nOf_lt_dOf keys i; omega)
      refine ⟨j, ?_, ?_, ?_⟩
      · rw [lvl_succ, if_neg (by omega)]
        simpa using h1
      · rw [h2]
        exact lcp_getD _ _ _ hs2
      · intro _
        exact h3 (by have := nOf_lt_dOf keys i; omega)

end FST

namespace FST

namespace BAbs

variable {b : FSTBuilder} {H : Nat} {lab : Nat → List Nat} {ch lo : Nat → List Bool}
  {val : Nat → List Nat}

theorem getNumItems_abs (h : BAbs b H lab ch lo val) {l : Nat} (hl : l < H) :
    b.getNumItems l = some (lab l).length := by
  obtain ⟨cw, lw, S, _⟩ := h
  exact S.getNumItems_shape hl

theorem isLevelEmpty_ge (h : BAbs b H lab ch lo val) {l : Nat} (hl : H ≤ l) :
    b.isLevelEmpty l = some true := by
  simp only [FSTBuilder.isLevelEmpty, h.height, ge_iff_le, hl, if_true]

theorem isLevelEmpty_lt (h : BAbs b H lab ch lo val) {l : Nat} (hl : l < H) :
    b.isLevelEmpty l = some (lab l).isEmpty := by
  obtain ⟨cw, lw, S, _⟩ := h
  have : ¬ (l ≥ b.getTreeHeight) := by
    simp only [FSTBuilder.getTreeHeight, S.lenLab]; omega
  simp only [FSTBuilder.isLevelEmpty, this, if_false, S.labels_get hl, Option.bind_eq_bind,
    Option.some_bind]

theorem isCharCommonPrefix_ge (h : BAbs b H lab ch lo val) (c : Nat) {l : Nat} (hl : H ≤ l) :
    b.isCharCommonPrefix c l = some false := by
  have : ¬ (l < b.getTreeHeight) := by rw [h.height]; omega
  simp only [FSTBuilder.isCharCommonPrefix, this, if_false]

theorem isCharCommonPrefix_lt (h : BAbs b H lab ch lo val) (c : Nat) {l x : Nat} (hl : l < H)
    (hx : (lab l).getLast? = some x) : b.isCharCommonPrefix c l = some (c == x) := by
  have hh : l < b.getTreeHeight := by rw [h.height]; exact hl
  obtain ⟨cw, lw, S, _⟩ := h
  simp only [FSTBuilder.isCharCommonPrefix, hh, if_true, S.term l hl, Option.bind_eq_bind,
    Option.some_bind, Bool.not_false, S.labels_get hl, hx]

theorem pushValue_abs (h : BAbs b H lab ch lo val) {l : Nat} (hl : l < H) (v : Nat) :
    ∃ b1, b.pushValue l v = some b1 ∧
      BAbs b1 H lab ch lo (Function.update val l (val l ++ [v])) := by
  obtain ⟨cw, lw, S, p1, p2, e1, e2⟩ := h
  obtain ⟨b1, hb, S1⟩ := S.pushValue_shape hl v
  exact ⟨b1, hb, cw, lw, S1, p1, p2, e1, e2⟩

theorem congr {H2 : Nat} {lab2 : Nat → List Nat} {ch2 lo2 : Nat → List Bool}
    {val2 : Nat → List Nat} (h : BAbs b H lab ch lo val) (e0 : H = H2)
    (e1 : ∀ l, lab l = lab2 l) (e2 : ∀ l, ch l = ch2 l) (e3 : ∀ l, lo l = lo2 l)
    (e4 : ∀ l, val l = val2 l) : BAbs b H2 lab2 ch2 lo2 val2 := by
  have a1 : lab = lab2 := funext e1
  have a2 : ch = ch2 := funext e2
  have a3 : lo = lo2 := funext e3
  have a4 : val = val2 := funext e4
  subst e0 a1 a2 a3 a4
  exact h

end BAbs

theorem set_last_true (l : List Bool) (h : l.getLast? = some true) :
    l.set (l.length - 1) true = l := by
  apply List.ext_getElem?
  intro q
  rw [List.getElem?_set]
  split
  · rename_i e
    subst e
    have : l ≠ [] := by intro e; rw [e] at h; simp at h
    have hpos := List.length_pos.mpr this
    rw [List.getLast?_eq_getElem?] at h
    simp [hpos, h]
  · rfl

theorem set_last_append (l : List Bool) (a c : Bool) (n : Nat) (h : n = l.length + 1) :
    (l ++ [a]).set (n - 1) c = l ++ [c] := by
  subst h
  simp

theorem labS_length (keys : List (List Nat)) (i x l : Nat) :
    (labS keys i x l).length = (chS keys i x l).length := by
  simp only [labS, chS, List.length_append, List.length_map]
  split <;> rfl

theorem state_lab_next (keys : List (List Nat)) (i l : Nat) :
    labS keys i (dOf keys i) l = labS keys (i + 1) (sOf keys (i + 1)) l := by
  simp only [labS, lvl_succ, List.map_append]
  rw [if_neg (show ¬ (sOf keys (i + 1) ≤ l ∧ l < sOf keys (i + 1)) by omega)]
  by_cases h : sOf keys i ≤ l ∧ l < dOf keys i
  · simp [h]
  · simp [h]

theorem state_ch_next (keys : List (List Nat)) (i l : Nat) :
    chS keys i (dOf keys i) l = chS keys (i + 1) (sOf keys (i + 1)) l := by
  simp only [chS, lvl_succ, List.map_append]
  rw [if_neg (show ¬ (sOf keys (i + 1) ≤ l ∧ l < sOf keys (i + 1)) by omega)]
  by_cases h : sOf keys i ≤ l ∧ l < dOf keys i
  · simp [h]
  · simp [h]

theorem state_lo_next (keys : List (List Nat)) (i l : Nat) :
    loS keys i (dOf keys i) l = loS keys (i + 1) (sOf keys (i + 1)) l := by
  simp only [loS, lvl_succ, List.map_append]
  rw [if_neg (show ¬ (sOf keys (i + 1) ≤ l ∧ l < sOf keys (i + 1)) by omega)]
  by_cases h : sOf keys i ≤ l ∧ l < dOf keys i
  · simp [h]
  · simp [h]

theorem state_val_next (keys : List (List Nat)) (values : List Nat) (i l : Nat) :
    Function.update (valS keys values i) (dOf keys i - 1)
        (valS keys values i (dOf keys i - 1) ++ [values.getD i 0]) l =
      valS keys values (i + 1) l := by
  have hd : 0 < dOf keys i := by simp [dOf]
  simp only [valS, List.range_succ, List.filter_append, List.map_append, List.filter_cons,
    List.filter_nil]
  by_cases e : l = dOf keys i - 1
  · subst e
    rw [Function.update_same]
    have : dOf keys i = dOf keys i - 1 + 1 := by omega
    simp [← this]
  · rw [Function.update_noteq e]
    have : ¬ dOf keys i = l + 1 := by omega
    simp [this, valS]

/-- The last label of level `l` of the state before key `i`, for a level above the depth of
key `i - 1`. -/
theorem base_last (keys : List (List Nat)) (i l : Nat) (hi : 0 < i) (h : l < dOf keys (i - 1)) :
    ∃ j, (lvl keys i l).getLast? = some j ∧
      (kAt keys j).getD l 0 = (kAt keys (i - 1)).getD l 0 ∧
      (l + 1 < dOf keys (i - 1) → l + 1 < dOf keys j) := by
  have := last_path keys (i - 1) l h
  rw [show i - 1 + 1 = i by omega] at this
  exact this

theorem sOf_lt_prev (keys : List (List Nat)) (i : Nat) (hi : 0 < i) :
    sOf keys i < dOf keys (i - 1) := by
  have := sOf_succ keys (i - 1)
  rw [show i - 1 + 1 = i by omega] at this
  rw [this]
  exact nOf_lt_dOf keys (i - 1)

end FST

namespace FST

theorem labS_parent_ne (keys : List (List Nat)) (i x : Nat) (hx : sOf keys i ≤ x)
    (h0 : 0 < x) : labS keys i x (x - 1) ≠ [] := by
  by_cases hs : sOf keys i ≤ x - 1
  · simp only [labS]
    rw [if_pos ⟨hs, by omega⟩]
    simp
  · have hi : 0 < i := by
      rcases Nat.eq_zero_or_pos i with e | e
      · subst e; simp [sOf] at hs
      · exact e
    obtain ⟨j, h1, _⟩ := base_last keys i (x - 1) hi (by have := sOf_lt_prev keys i hi; omega)
    simp only [labS]
    intro e
    have e2 := (List.append_eq_nil.mp e).1
    rw [List.map_eq_nil_iff] at e2
    rw [e2] at h1
    simp at h1

/-- One byte of key `i` is inserted at level `x`. -/
theorem BState.insert {keys : List (List Nat)} {values : List Nat} {i x : Nat}
    {b : FSTBuilder} (h : BState keys values i x b) (hx : sOf keys i ≤ x) :
    ∃ b2, b.insertKeyByte ((kAt keys i).getD x 0) x (decide (i = 0 ∨ sOf keys i < x)) false
        = some b2 ∧ BState keys values i (x + 1) b2 := by
  obtain ⟨b2, e2, A⟩ := insertKeyByte_abs ((kAt keys i).getD x 0) x
    (decide (i = 0 ∨ sOf keys i < x)) h (by omega) (labS_parent_ne keys i x hx)
  refine ⟨b2, e2, ?_⟩
  apply A.congr (by omega)
  · intro l
    by_cases e : l = x
    · subst e
      rw [Function.update_same]
      simp only [labS]
      rw [if_neg (by omega), if_pos ⟨hx, by omega⟩]
      simp
    · rw [Function.update_noteq e]
      simp only [labS]
      by_cases c : sOf keys i ≤ l ∧ l < x
      · rw [if_pos c, if_pos ⟨c.1, by omega⟩]
      · rw [if_neg c, if_neg (by omega)]
  · intro l
    by_cases e : l = x
    · subst e
      rw [Function.update_same]
      simp only [chS]
      rw [if_neg (by omega), if_pos ⟨hx, by omega⟩]
      simp
    · rw [Function.update_noteq e]
      by_cases e0 : 0 < x ∧ l = x - 1
      · obtain ⟨h0, e1⟩ := e0
        rw [if_pos h0]
        subst e1
        rw [Function.update_same, labS_length]
        by_cases hs : sOf keys i ≤ x - 1
        · simp only [chS]
          rw [if_pos ⟨hs, by omega⟩, if_pos ⟨hs, by omega⟩]
          rw [set_last_append _ _ _ _ (by simp)]
          have : x - 1 + 1 < x + 1 := by omega
          simp [this]
        · have hi : 0 < i := by
            rcases Nat.eq_zero_or_pos i with e | e
            · subst e; simp [sOf] at hs
            · exact e
          have hsx : sOf keys i = x := by omega
          obtain ⟨j, h1, _, h3⟩ :=
            base_last keys i (x - 1) hi (by have := sOf_lt_prev keys i hi; omega)
          have h4 := h3 (by have := sOf_lt_prev keys i hi; omega)
          simp only [chS]
          rw [if_neg (by omega), if_neg (by omega)]
          simp only [List.append_nil]
          apply set_last_true
          rw [List.getLast?_map, h1]
          simp [h4]
      · have : (if 0 < x then
            Function.update (chS keys i x) (x - 1)
              ((chS keys i x (x - 1)).set ((labS keys i x (x - 1)).length - 1) true)
            else chS keys i x) l = chS keys i x l := by
          split
          · rw [Function.update_noteq (by omega)]
          · rfl
        rw [this]
        simp only [chS]
        by_cases c : sOf keys i ≤ l ∧ l < x
        · rw [if_pos c, if_pos ⟨c.1, by omega⟩]
          have a1 : l + 1 < x := by omega
          have a2 : l + 1 < x + 1 := by omega
          simp [a1, a2]
        · rw [if_neg c, if_neg (by omega)]
  · intro l
    by_cases e : l = x
    · subst e
      rw [Function.update_same]
      simp only [loS]
      rw [if_neg (by omega), if_pos ⟨hx, by omega⟩]
      simp
    · rw [Function.update_noteq e]
      simp only [loS]
      by_cases c : sOf keys i ≤ l ∧ l < x
      · rw [if_pos c, if_pos ⟨c.1, by omega⟩]
      · rw [if_neg c, if_neg (by omega)]
  · intro l; rfl

end FST

namespace FST

theorem kAt_get (keys : List (List Nat)) (i l : Nat) (h : l < (kAt keys i).length) :
    (kAt keys i)[l]? = some ((kAt keys i).getD l 0) := getD_of_lt _ _ _ h

theorem sOf_pos_index (keys : List (List Nat)) (i : Nat) (h : 0 < sOf keys i) : 0 < i := by
  rcases Nat.eq_zero_or_pos i with e | e
  · subst e; simp [sOf] at h
  · exact e

theorem sOf_eq_lcp (keys : List (List Nat)) (i : Nat) (h : 0 < i) :
    sOf keys i = lcp (kAt keys (i - 1)) (kAt keys i) := by
  simp only [sOf]
  rw [if_neg (by omega)]

/-- The walk down the common prefix stops at the level `sOf keys i` and leaves the trie as
it is. -/
theorem BState.skipLoop {keys : List (List Nat)} {values : List Nat} {i : Nat}
    (hk : sOf keys i < (kAt keys i).length)
    (hp : 0 < i → sOf keys i < (kAt keys (i - 1)).length) :
    ∀ (n l fuel : Nat) (b : FSTBuilder), l + n = sOf keys i → n < fuel →
      BState keys values i (sOf keys i) b →
      ∃ b2, FSTBuilder.skipCommonPrefixLoop (kAt keys i) 0 fuel b l = some (b2, sOf keys i) ∧
        BState keys values i (sOf keys i) b2 := by
  intro n
  induction n with
  | zero =>
    intro l fuel b hl hf h
    obtain ⟨f, rfl⟩ : ∃ f, fuel = f + 1 := ⟨fuel - 1, by omega⟩
    have hls : l = sOf keys i := by omega
    subst hls
    have hc : FSTBuilder.isCharCommonPrefix b ((kAt keys i).getD (sOf keys i) 0) (sOf keys i)
        = some false := by
      rcases Nat.eq_zero_or_pos i with e | hi
      · subst e
        apply BAbs.isCharCommonPrefix_ge h
        simp [HS, sOf]
      · obtain ⟨j, h1, h2, _⟩ := base_last keys i (sOf keys i) hi (sOf_lt_prev keys i hi)
        have hH : sOf keys i < max (HS keys i) (sOf keys i) := by
          have := sOf_lt_prev keys i hi
          have := dOf_le_HS keys i (i - 1) (by omega)
          omega
        have hlast : (labS keys i (sOf keys i) (sOf keys i)).getLast?
            = some ((kAt keys (i - 1)).getD (sOf keys i) 0) := by
          simp only [labS]
          rw [if_neg (by omega), List.append_nil, List.getLast?_map, h1, Option.map_some', h2]
        rw [BAbs.isCharCommonPrefix_lt h _ hH hlast]
        have hne := lcp_ne (kAt keys (i - 1)) (kAt keys i)
          (by rw [← sOf_eq_lcp keys i hi]; exact hp hi)
          (by rw [← sOf_eq_lcp keys i hi]; exact hk)
        rw [← sOf_eq_lcp keys i hi] at hne
        simp only [beq_eq_false_iff_ne, ne_eq, Option.some.injEq]
        exact fun e => hne e.symm
    refine ⟨b, ?_, h⟩
    simp only [FSTBuilder.skipCommonPrefixLoop, Nat.add_zero, hk, if_true, kAt_get keys i _ hk,
      Option.bind_eq_bind, Option.some_bind, hc, Bool.false_eq_true, if_false]
  | succ n ih =>
    intro l fuel b hl hf h
    obtain ⟨f, rfl⟩ : ∃ f, fuel = f + 1 := ⟨fuel - 1, by omega⟩
    have hi : 0 < i := sOf_pos_index keys i (by omega)
    have hlk : l < (kAt keys i).length := by omega
    have hprev := sOf_lt_prev keys i hi
    obtain ⟨j, h1, h2, h3⟩ := base_last keys i l hi (by omega)
    have hH : l < max (HS keys i) (sOf keys i) := by
      have := dOf_le_HS keys i (i - 1) (by omega)
      omega
    have hlabl : labS keys i (sOf keys i) l
        = (lvl keys i l).map (fun j => (kAt keys j).getD l 0) := by
      simp only [labS]
      rw [if_neg (by omega), List.append_nil]
    have hchl : chS keys i (sOf keys i) l
        = (lvl keys i l).map (fun j => decide (l + 1 < dOf keys j)) := by
      simp only [chS]
      rw [if_neg (by omega), List.append_nil]
    have hlast : (labS keys i (sOf keys i) l).getLast?
        = some ((kAt keys (i - 1)).getD l 0) := by
      rw [hlabl, List.getLast?_map, h1, Option.map_some', h2]
    have hkk : (kAt keys (i - 1)).getD l 0 = (kAt keys i).getD l 0 :=
      lcp_getD _ _ _ (by rw [← sOf_eq_lcp keys i hi]; omega)
    have hc : FSTBuilder.isCharCommonPrefix b ((kAt keys i).getD l 0) l = some true := by
      rw [BAbs.isCharCommonPrefix_lt h _ hH hlast, hkk]
      simp
    have hne : labS keys i (sOf keys i) l ≠ [] := by
      intro e; rw [e] at hlast; simp at hlast
    obtain ⟨b1, e1, A1⟩ := BAbs.setChildBit_abs h hH hne
    have hpos : 0 < (labS keys i (sOf keys i) l).length := List.length_pos.mpr hne
    have B1 : BState keys values i (sOf keys i) b1 := by
      apply A1.congr rfl (fun _ => rfl) _ (fun _ => rfl) (fun _ => rfl)
      intro q
      by_cases e : q = l
      · subst e
        rw [Function.update_same, labS_length]
        apply set_last_true
        rw [hchl, List.getLast?_map, h1]
        have := h3 (by omega)
        simp [this]
      · rw [Function.update_noteq e]
    obtain ⟨b2, e2, A2⟩ := ih (l + 1) f b1 (by omega) (by omega) B1
    refine ⟨b2, ?_, A2⟩
    have k1 : check (decide (0 < (labS keys i (sOf keys i) l).length)) = some () := by
      simp only [check, hpos, decide_True, if_true]
    simp only [FSTBuilder.skipCommonPrefixLoop, Nat.add_zero, hlk, if_true,
      kAt_get keys i _ hlk, Option.bind_eq_bind, Option.some_bind, hc,
      BAbs.getNumItems_abs h hH, k1, e1, e2]

theorem BState.skip {keys : List (List Nat)} {values : List Nat} {i : Nat} {b : FSTBuilder}
    (hk : sOf keys i < (kAt keys i).length)
    (hp : 0 < i → sOf keys i < (kAt keys (i - 1)).length)
    (h : BState keys values i (sOf keys i) b) :
    ∃ b2, b.skipCommonPrefix (kAt keys i) 0 = some (b2, sOf keys i) ∧
      BState keys values i (sOf keys i) b2 := by
  obtain ⟨b2, e2, A2⟩ := BState.skipLoop hk hp (sOf keys i) 0 ((kAt keys i).length + 1) b
    (by omega) (by omega) h
  refine ⟨b2, ?_, A2⟩
  have k1 : check (decide (sOf keys i + 0 < (kAt keys i).length)) = some () := by
    simp only [check, Nat.add_zero, hk, decide_True, if_true]
  simp only [FSTBuilder.skipCommonPrefix, e2, Option.bind_eq_bind, Option.some_bind, k1]

end FST

namespace FST

/-- The loop that inserts the bytes shared with the next key: it ends one level below the
common prefix of the two keys. -/
theorem BState.insertLoop_state {keys : List (List Nat)} {values : List Nat} {i : Nat}
    (hn1 : nOf keys i < (kAt keys i).length) (hn2 : nOf keys i < (kAt keys (i + 1)).length) :
    ∀ (n x fuel : Nat) (b : FSTBuilder), x + n = nOf keys i + 1 → n < fuel →
      sOf keys i < x → BState keys values i x b →
      ∃ b2, FSTBuilder.insertLoop (kAt keys i) (kAt keys (i + 1)) 0 fuel b x
          = some (b2, nOf keys i + 1) ∧ BState keys values i (nOf keys i + 1) b2 := by
  intro n
  induction n with
  | zero =>
    intro x fuel b hx hf hs h
    obtain ⟨f, rfl⟩ : ∃ f, fuel = f + 1 := ⟨fuel - 1, by omega⟩
    have hx2 : x = nOf keys i + 1 := by omega
    subst hx2
    refine ⟨b, ?_, h⟩
    by_cases hc : nOf keys i + 1 < (kAt keys i).length ∧
        nOf keys i + 1 < (kAt keys (i + 1)).length
    · have hne := lcp_ne (kAt keys i) (kAt keys (i + 1)) hn1 hn2
      have hne2 : ((kAt keys i).getD (nOf keys i) 0 == (kAt keys (i + 1)).getD (nOf keys i) 0)
          = false := by
        simp only [beq_eq_false_iff_ne, ne_eq]
        exact hne
      have k1 : check (decide (0 < nOf keys i + 1)) = some () := by
        simp [check]
      simp only [FSTBuilder.insertLoop, Nat.add_zero, hc.1, hc.2, decide_True, Bool.and_self,
        if_true, k1, Nat.add_sub_cancel, kAt_get keys i _ hn1, kAt_get keys (i + 1) _ hn2,
        Option.bind_eq_bind, Option.some_bind, hne2, Bool.false_eq_true, if_false]
    · have hc2 : (decide (nOf keys i + 1 < (kAt keys i).length) &&
          decide (nOf keys i + 1 < (kAt keys (i + 1)).length)) = false := by
        rw [Bool.and_eq_false_iff]
        by_cases c1 : nOf keys i + 1 < (kAt keys i).length
        · right; simp only [decide_eq_false_iff_not]; exact fun c2 => hc ⟨c1, c2⟩
        · left; simp only [decide_eq_false_iff_not]; exact c1
      simp only [FSTBuilder.insertLoop, Nat.add_zero, hc2, Bool.false_eq_true, if_false]
  | succ n ih =>
    intro x fuel b hx hf hs h
    obtain ⟨f, rfl⟩ : ∃ f, fuel = f + 1 := ⟨fuel - 1, by omega⟩
    have c1 : x < (kAt keys i).length := by omega
    have c2 : x < (kAt keys (i + 1)).length := by omega
    have c3 : x - 1 < (kAt keys i).length := by omega
    have c4 : x - 1 < (kAt keys (i + 1)).length := by omega
    have heq : (kAt keys i).getD (x - 1) 0 = (kAt keys (i + 1)).getD (x - 1) 0 :=
      lcp_getD _ _ _ (show x - 1 < nOf keys i by omega)
    have k1 : check (decide (0 < x)) = some () := by
      have : 0 < x := by omega
      simp only [check, this, decide_True, if_true]
    obtain ⟨b1, e1, A1⟩ := BState.insert h (show sOf keys i ≤ x by omega)
    have hst : decide (i = 0 ∨ sOf keys i < x) = true := by
      simp only [decide_eq_true_eq]; right; exact hs
    rw [hst] at e1
    obtain ⟨b2, e2, A2⟩ := ih (x + 1) f b1 (by omega) (by omega) (by omega) A1
    refine ⟨b2, ?_, A2⟩
    simp only [FSTBuilder.insertLoop, Nat.add_zero, c1, c2, decide_True, Bool.and_self, if_true,
      k1, kAt_get keys i _ c3, kAt_get keys (i + 1) _ c4, kAt_get keys i _ c1,
      Option.bind_eq_bind, Option.some_bind, heq, beq_self_eq_true, e1, e2]

end FST

namespace FST

theorem BState.finish {keys : List (List Nat)} {values : List Nat} {i : Nat} {b : FSTBuilder}
    (h : BState keys values i (dOf keys i) b) :
    ∃ b2, b.pushValue (dOf keys i - 1) (values.getD i 0) = some b2 ∧
      BState keys values (i + 1) (sOf keys (i + 1)) b2 := by
  have hd : 0 < dOf keys i := by simp [dOf]
  obtain ⟨b2, e2, A2⟩ := BAbs.pushValue_abs h (show dOf keys i - 1 < max (HS keys i) (dOf keys i)
    by omega) (values.getD i 0)
  refine ⟨b2, e2, ?_⟩
  apply A2.congr
  · have := nOf_lt_dOf keys i
    rw [sOf_succ]
    simp only [HS]
    omega
  · exact state_lab_next keys i
  · exact state_ch_next keys i
  · exact state_lo_next keys i
  · exact state_val_next keys values i

theorem take_eq_iff_le_lcp (a b : List Nat) (l : Nat) (h1 : l ≤ a.length) (h2 : l ≤ b.length) :
    a.take l = b.take l ↔ l ≤ lcp a b :=
  ⟨le_lcp_of_take a b l h1 h2, lcp_take a b l⟩

/-- The insertion of key `i` below the common prefix: the bytes down to the depth
`dOf keys i` are inserted and the value is stored at the last of them. -/
theorem BState.insertKey {keys : List (List Nat)} {values : List Nat} {i : Nat}
    {b : FSTBuilder} (h : BState keys values i (sOf keys i) b)
    (hs : sOf keys i < (kAt keys i).length) (hn1 : nOf keys i < (kAt keys i).length)
    (hn2 : nOf keys i < (kAt keys (i + 1)).length ∨ kAt keys (i + 1) = []) :
    ∃ b2, b.insertKeyBytesToTrieUntilUnique (kAt keys i) (values.getD i 0) (kAt keys (i + 1))
        (sOf keys i) 0 = some (b2, dOf keys i) ∧
      BState keys values (i + 1) (sOf keys (i + 1)) b2 := by
  have k0 : check (decide (sOf keys i < (kAt keys i).length)) = some () := by
    simp only [check, hs, decide_True, if_true]
  have hemp : b.isLevelEmpty (sOf keys i) = some (decide (i = 0 ∨ sOf keys i < sOf keys i)) := by
    rcases Nat.eq_zero_or_pos i with e | hi
    · subst e
      rw [BAbs.isLevelEmpty_ge h (by simp [HS, sOf])]
      simp
    · have hH : sOf keys i < max (HS keys i) (sOf keys i) := by
        have := sOf_lt_prev keys i hi
        have := dOf_le_HS keys i (i - 1) (by omega)
        omega
      rw [BAbs.isLevelEmpty_lt h hH]
      obtain ⟨j, h1, _⟩ := base_last keys i (sOf keys i) hi (sOf_lt_prev keys i hi)
      have hne : labS keys i (sOf keys i) (sOf keys i) ≠ [] := by
        simp only [labS]
        intro e
        have e2 := (List.append_eq_nil.mp e).1
        rw [List.map_eq_nil_iff] at e2
        rw [e2] at h1
        simp at h1
      have h0 : ¬ i = 0 := by omega
      simp [h0, hne]
  obtain ⟨b1, e1, A1⟩ := BState.insert h (Nat.le_refl _)
  by_cases cA : (kAt keys (i + 1)).length < sOf keys i + 1
  · -- the next key is too short: it is the empty look-ahead of the last key
    have hd : dOf keys i = sOf keys i + 1 := by
      have := lcp_le_right (kAt keys i) (kAt keys (i + 1))
      simp only [dOf, nOf]
      omega
    rw [← hd] at A1
    obtain ⟨b2, e2, A2⟩ := BState.finish A1
    refine ⟨b2, ?_, A2⟩
    have cA2 : sOf keys i + 1 + 0 > (kAt keys (i + 1)).length := by omega
    rw [hd] at e2 ⊢
    rw [Nat.add_sub_cancel] at e2
    simp only [FSTBuilder.insertKeyBytesToTrieUntilUnique, k0, hemp, Nat.add_zero,
      kAt_get keys i _ hs, Option.bind_eq_bind, Option.some_bind, e1, cA2, if_true,
      Nat.add_sub_cancel, e2] 
  · have cA2 : ¬ (sOf keys i + 1 + 0 > (kAt keys (i + 1)).length) := by omega
    have hlen : (((kAt keys i).drop 0).take (sOf keys i + 1)).length ==
        (((kAt keys (i + 1)).drop 0).take (sOf keys i + 1)).length := by
      simp only [List.drop_zero, List.length_take, beq_iff_eq]
      omega
    have hsame : FSTBuilder.isSameKey (((kAt keys i).drop 0).take (sOf keys i + 1))
        (((kAt keys (i + 1)).drop 0).take (sOf keys i + 1))
        = some (decide (sOf keys i + 1 ≤ nOf keys i)) := by
      have e0 : FSTBuilder.isSameKey (((kAt keys i).drop 0).take (sOf keys i + 1))
          (((kAt keys (i + 1)).drop 0).take (sOf keys i + 1))
          = some ((((kAt keys i).drop 0).take (sOf keys i + 1)) ==
              (((kAt keys (i + 1)).drop 0).take (sOf keys i + 1))) := by
        simp only [FSTBuilder.isSameKey, check, hlen, if_true, Option.bind_eq_bind,
          Option.some_bind]
      rw [e0]
      have := take_eq_iff_le_lcp (kAt keys i) (kAt keys (i + 1)) (sOf keys i + 1)
        (by omega) (by omega)
      simp only [List.drop_zero, Option.some.injEq]
      by_cases c : sOf keys i + 1 ≤ nOf keys i
      · have e := this.mpr c
        simp only [c, decide_True, beq_iff_eq]
        exact e
      · have e : ¬ _ := fun x => c (this.mp x)
        simp only [c, decide_False, beq_eq_false_iff_ne, ne_eq]
        exact e
    by_cases cB : sOf keys i + 1 ≤ nOf keys i
    · have hn2b : nOf keys i < (kAt keys (i + 1)).length := by
        rcases hn2 with x | x
        · exact x
        · rw [x] at cA; simp at cA
      have hd : dOf keys i = nOf keys i + 1 := by
        simp only [dOf]; omega
      obtain ⟨b2, e2, A2⟩ := BState.insertLoop_state hn1 hn2b (nOf keys i - sOf keys i)
        (sOf keys i + 1) ((kAt keys i).length + 1) b1 (by omega) (by omega) (by omega) A1
      rw [← hd] at A2
      obtain ⟨b3, e3, A3⟩ := BState.finish A2
      refine ⟨b3, ?_, A3⟩
      rw [hd] at e3 ⊢
      rw [Nat.add_sub_cancel] at e3
      simp only [FSTBuilder.insertKeyBytesToTrieUntilUnique, k0, hemp, Nat.add_zero,
        kAt_get keys i _ hs, Option.bind_eq_bind, Option.some_bind, e1, cA2, if_false,
        hsame, cB, decide_True, Bool.not_true, Bool.false_eq_true, e2, Nat.add_sub_cancel, e3]
    · have hd : dOf keys i = sOf keys i + 1 := by
        simp only [dOf]; omega
      rw [← hd] at A1
      obtain ⟨b2, e2, A2⟩ := BState.finish A1
      refine ⟨b2, ?_, A2⟩
      rw [hd] at e2 ⊢
      rw [Nat.add_sub_cancel] at e2
      simp only [FSTBuilder.insertKeyBytesToTrieUntilUnique, k0, hemp, Nat.add_zero,
        kAt_get keys i _ hs, Option.bind_eq_bind, Option.some_bind, e1, cA2, if_false,
        hsame, cB, decide_False, Bool.not_false, if_true, Nat.add_sub_cancel, e2]

end FST

namespace FST

namespace KeysOK

variable {keys : List (List Nat)} {L : Nat}

theorem kAt_mem (i : Nat) (h : i < keys.length) : kAt keys i ∈ keys := by
  simp only [kAt, List.getD_eq_getElem?_getD, List.getElem?_eq_getElem h, Option.getD_some]
  exact List.getElem_mem h

theorem kAt_len (K : KeysOK keys L) (i : Nat) (h : i < keys.length) :
    (kAt keys i).length = L := K.len _ (kAt_mem i h)

theorem kAt_nil (i : Nat) (h : keys.length ≤ i) : kAt keys i = [] := getD_ge _ _ _ h

theorem kAt_lt (K : KeysOK keys L) (i j : Nat) (hij : i < j) (hj : j < keys.length) :
    strLt (kAt keys i) (kAt keys j) = true := by
  have := List.pairwise_iff_getElem.mp K.sorted i j (by omega) hj hij
  simp only [kAt, List.getD_eq_getElem?_getD, List.getElem?_eq_getElem hj,
    List.getElem?_eq_getElem (show i < keys.length by omega), Option.getD_some]
  exact this

theorem keys_get (i : Nat) (h : i < keys.length) : keys[i]? = some (kAt keys i) :=
  getD_of_lt _ _ _ h

theorem lcp_lt (K : KeysOK keys L) (i j : Nat) (hij : i < j) (hj : j < keys.length) :
    lcp (kAt keys i) (kAt keys j) < L := by
  have h1 := K.kAt_len i (by omega)
  have h2 := K.kAt_len j hj
  have h3 := lcp_le_left (kAt keys i) (kAt keys j)
  by_contra hc
  have h4 : lcp (kAt keys i) (kAt keys j) = L := by omega
  have h5 := lcp_take (kAt keys i) (kAt keys j) L (by omega)
  rw [List.take_of_length_le (by omega), List.take_of_length_le (by omega)] at h5
  have h6 := K.kAt_lt i j hij hj
  rw [h5, strLt_irrefl] at h6
  exact Bool.noConfusion h6

theorem nOf_lt (K : KeysOK keys L) (i : Nat) (h : i < keys.length) : nOf keys i < L := by
  by_cases h2 : i + 1 < keys.length
  · exact K.lcp_lt i (i + 1) (by omega) h2
  · have := lcp_le_right (kAt keys i) (kAt keys (i + 1))
    rw [kAt_nil (i + 1) (by omega)] at this
    simp only [nOf]
    rw [kAt_nil (i + 1) (by omega)]
    simp only [List.length_nil] at this
    have := K.pos
    omega

theorem sOf_lt (K : KeysOK keys L) (i : Nat) (h : i < keys.length) : sOf keys i < L := by
  cases i with
  | zero => rw [sOf_zero]; exact K.pos
  | succ i => rw [sOf_succ]; exact K.nOf_lt i (by omega)

theorem dOf_le (K : KeysOK keys L) (i : Nat) (h : i < keys.length) : dOf keys i ≤ L := by
  have := K.nOf_lt i h
  have := K.sOf_lt i h
  simp only [dOf]
  omega

theorem sOf_end (keys : List (List Nat)) : sOf keys keys.length = 0 := by
  cases hn : keys.length with
  | zero => rw [sOf_zero]
  | succ n =>
    rw [sOf_succ]
    have := lcp_le_right (kAt keys n) (kAt keys (n + 1))
    rw [kAt_nil (n + 1) (by omega)] at this
    simp only [List.length_nil] at this
    simp only [nOf]
    rw [kAt_nil (n + 1) (by omega)]
    omega

end KeysOK

theorem skipSameKeys_none (keys : List (List Nat)) (L : Nat) (K : KeysOK keys L) (i fuel : Nat)
    (hi : i < keys.length) :
    FSTBuilder.skipSameKeys keys i (fuel + 1) i = some i := by
  by_cases h : i + 1 < keys.length
  · have h1 := K.kAt_len i hi
    have h2 := K.kAt_len (i + 1) h
    have hne : (kAt keys i == kAt keys (i + 1)) = false := by
      simp only [beq_eq_false_iff_ne, ne_eq]
      intro e
      have := K.kAt_lt i (i + 1) (by omega) h
      rw [e, strLt_irrefl] at this
      exact Bool.noConfusion this
    have hs : FSTBuilder.isSameKey (kAt keys i) (kAt keys (i + 1)) = some false := by
      have hl : ((kAt keys i).length == (kAt keys (i + 1)).length) = true := by
        rw [h1, h2]; simp
      simp only [FSTBuilder.isSameKey, check, hl, if_true, Option.bind_eq_bind,
        Option.some_bind, hne]
    simp only [FSTBuilder.skipSameKeys, h, if_true, KeysOK.keys_get i hi,
      KeysOK.keys_get (i + 1) h, Option.bind_eq_bind, Option.some_bind, hs, Bool.false_eq_true,
      if_false]
  · simp only [FSTBuilder.skipSameKeys, h, if_false]

/-- The loop over the keys: every key is inserted in turn. -/
theorem buildSparseLoop_state (keys : List (List Nat)) (values : List Nat) (L : Nat)
    (K : KeysOK keys L) (hv : values.length = keys.length) :
    ∀ (m i fuel : Nat) (b : FSTBuilder), i + m = keys.length → m < fuel →
      BState keys values i (sOf keys i) b →
      ∃ b2, FSTBuilder.buildSparseLoop keys values fuel b i = some b2 ∧
        BState keys values keys.length 0 b2 := by
  intro m
  induction m with
  | zero =>
    intro i fuel b hi hf h
    obtain ⟨f, rfl⟩ : ∃ f, fuel = f + 1 := ⟨fuel - 1, by omega⟩
    have e : i = keys.length := by omega
    subst e
    rw [KeysOK.sOf_end] at h
    refine ⟨b, ?_, h⟩
    simp only [FSTBuilder.buildSparseLoop, Nat.lt_irrefl, if_false]
  | succ m ih =>
    intro i fuel b hi hf h
    obtain ⟨f, rfl⟩ : ∃ f, fuel = f + 1 := ⟨fuel - 1, by omega⟩
    have hin : i < keys.length := by omega
    have hs := K.sOf_lt i hin
    have hn := K.nOf_lt i hin
    have hlen := K.kAt_len i hin
    obtain ⟨b1, e1, A1⟩ := BState.skip (by omega)
      (by intro h0; rw [K.kAt_len (i - 1) (by omega)]; exact hs) h
    have hn2 : nOf keys i < (kAt keys (i + 1)).length ∨ kAt keys (i + 1) = [] := by
      by_cases c : i + 1 < keys.length
      · left; rw [K.kAt_len (i + 1) c]; exact hn
      · right; exact KeysOK.kAt_nil (i + 1) (by omega)
    obtain ⟨b2, e2, A2⟩ := BState.insertKey A1 (by omega) (by omega) hn2
    obtain ⟨b3, e3, A3⟩ := ih (i + 1) f b2 (by omega) (by omega) A2
    refine ⟨b3, ?_, A3⟩
    have hval : values[i]? = some (values.getD i 0) := getD_of_lt _ _ _ (by omega)
    by_cases c : i < keys.length - 1
    · have c2 : i + 1 < keys.length := by omega
      simp only [FSTBuilder.buildSparseLoop, hin, if_true, KeysOK.keys_get i hin,
        Option.bind_eq_bind, Option.some_bind, e1, skipSameKeys_none keys L K i _ hin, hval,
        c, KeysOK.keys_get (i + 1) c2, e2, e3]
    · have c2 : kAt keys (i + 1) = [] := KeysOK.kAt_nil (i + 1) (by omega)
      rw [c2] at e2
      simp only [FSTBuilder.buildSparseLoop, hin, if_true, KeysOK.keys_get i hin,
        Option.bind_eq_bind, Option.some_bind, e1, skipSameKeys_none keys L K i _ hin, hval,
        c, if_false, e2, e3]

theorem BState_init (keys : List (List Nat)) (values : List Nat) :
    BState keys values 0 (sOf keys 0) FSTBuilder.new := by
  rw [sOf_zero]
  refine ⟨fun _ => [], fun _ => [], ?_, ?_, ?_, ?_, ?_⟩
  · refine ⟨rfl, rfl, rfl, rfl, rfl, rfl, ?_, ?_, ?_, ?_, ?_, rfl⟩
    · intro l; simp [labL, labS, lvl, FSTBuilder.new]
    · intro l; simp [cwL, FSTBuilder.new]
    · intro l; simp [lwL, FSTBuilder.new]
    · intro l; simp [valL, valS, FSTBuilder.new]
    · intro l hl; simp [HS] at hl
  · intro l hl; simp [HS] at hl
  · intro l hl; simp [HS] at hl
  · intro l; simp [chS, labS, lvl, bitsOf]
  · intro l; simp [loS, labS, lvl, bitsOf]

/-- The builder accepts every key list of one length in strictly increasing order, and
ends in the state described by the key list. -/
theorem buildSparse_state (keys : List (List Nat)) (values : List Nat) (L : Nat)
    (K : KeysOK keys L) (hv : values.length = keys.length) :
    ∃ b, FSTBuilder.new.buildSparse keys values = some b ∧
      BState keys values keys.length 0 b :=
  buildSparseLoop_state keys values L K hv keys.length 0 (keys.length + 1) FSTBuilder.new
    (by omega) (by omega) (BState_init keys values)

end FST

namespace FST

theorem labels_loop (lpl : List (List Nat)) :
    ∀ (n start : Nat) (acc : List Nat), start + n ≤ lpl.length →
      forRange (fun level (acc : List Nat) => (lpl[level]?).bind fun l => some (acc ++ l))
          n start acc
        = some (acc ++ ((List.range' start n).map (fun l => lpl.getD l [])).flatten) := by
  intro n
  induction n with
  | zero => intro start acc _; simp [forRange]
  | succ n ih =>
    intro start acc h
    have hg : lpl[start]? = some (lpl.getD start []) := getD_of_lt _ _ _ (by omega)
    rw [forRange_succ]
    simp only [hg, Option.some_bind]
    rw [ih (start + 1) _ (by omega)]
    simp [List.range'_succ]

theorem LabelVector_new_ok (lpl : List (List Nat)) (H : Nat) (h : H = lpl.length) :
    ∃ lv, LabelVector.new lpl 0 H = some lv ∧
      LRepr lv (flatOf (fun l => lpl.getD l []) H) := by
  have hend : (if (H == 0) = true then lpl.length else H) = H := by
    split
    · rename_i e; simp at e; omega
    · rfl
  refine ⟨{ num_bytes_ := 1 + (flatOf (fun l => lpl.getD l []) H).length,
            labels_ := flatOf (fun l => lpl.getD l []) H }, ?_, ⟨rfl, by simp; omega⟩⟩
  have := labels_loop lpl H 0 [] (by omega)
  simp only [List.nil_append] at this
  simp only [LabelVector.new, hend, Nat.sub_zero, Option.bind_eq_bind]
  rw [this]
  simp [flatOf, List.range_eq_range']

theorem flatOf_congr {α : Type} (f g : Nat → List α) (H : Nat) (h : ∀ l, l < H → f l = g l) :
    flatOf f H = flatOf g H := by
  simp only [flatOf]
  congr 1
  apply List.map_congr_left
  intro l hl
  exact h l (List.mem_range.mp hl)

/-- The constructor of the sparse trie concatenates the levels of the builder. -/
theorem LoudsSparse_new_abs {b : FSTBuilder} {H : Nat} {lab : Nat → List Nat}
    {ch lo : Nat → List Bool} {val : Nat → List Nat} (keys : List (List Nat))
    (h : BAbs b H lab ch lo val) :
    ∃ t, LoudsSparse.new b keys = some t ∧
      TAbs t H (flatOf lab H) (flatOf ch H) (flatOf lo H) (flatOf val H) ∧ t.keys_ = keys := by
  obtain ⟨cw, lw, S, p1, p2, e1, e2⟩ := h
  obtain ⟨lv, hlv, Rlv⟩ := LabelVector_new_ok b.labels_ H S.lenLab.symm
  have hns : ∀ l, (b.labels_.map List.length).getD l 0 = (lab l).length := by
    intro l
    rw [← S.lab l]
    simp only [labL, List.getD_eq_getElem?_getD, List.getElem?_map]
    cases b.labels_[l]? <;> simp
  have hlevC : ∀ l, l < H → ∃ ws n, b.child_indicator_bits_[l]? = some ws ∧
      (b.labels_.map List.length)[l]? = some n ∧ PackedOK ws n := by
    intro l hl
    refine ⟨cw l, (lab l).length, ?_, ?_, p1 l hl⟩
    · rw [getD_of_lt _ l [] (by rw [S.lenC]; exact hl), ← S.cw l]; rfl
    · rw [getD_of_lt _ l 0 (by rw [List.length_map, S.lenLab]; exact hl), hns l]
  have hlevL : ∀ l, l < H → ∃ ws n, b.louds_bits_[l]? = some ws ∧
      (b.labels_.map List.length)[l]? = some n ∧ PackedOK ws n := by
    intro l hl
    refine ⟨lw l, (lab l).length, ?_, ?_, p2 l hl⟩
    · rw [getD_of_lt _ l [] (by rw [S.lenL]; exact hl), ← S.lw l]; rfl
    · rw [getD_of_lt _ l 0 (by rw [List.length_map, S.lenLab]; exact hl), hns l]
  obtain ⟨bc, hbc, Rbc⟩ := Bitvector_new_ok b.child_indicator_bits_
    (b.labels_.map List.length) 0 H S.lenC.symm (by rw [List.length_map, S.lenLab, S.lenC])
    (by omega) hlevC
  obtain ⟨bl, hbl, Rbl⟩ := Bitvector_new_ok b.louds_bits_
    (b.labels_.map List.length) 0 H S.lenL.symm (by rw [List.length_map, S.lenLab, S.lenL])
    (by omega) hlevL
  refine ⟨{ positions_sparse_ := b.getSparseOffsets, height_ := H, start_level_ := 0,
            node_count_dense_ := 0, child_count_dense_ := 0, labels_ := lv,
            child_indicator_bits_ := bc, louds_bits_ := bl, keys_ := keys }, ?_, ?_, rfl⟩
  · simp only [LoudsSparse.new, S.ssl, forRange, Option.bind_eq_bind, Option.some_bind,
      beq_self_eq_true, if_true, S.lenLab, hlv, hbc, hbl]
  · refine ⟨rfl, rfl, rfl, ?_, ?_, ?_, ?_, rfl⟩
    · have : flatOf lab H = flatOf (fun l => b.labels_.getD l []) H :=
        flatOf_congr _ _ _ (fun l _ => (S.lab l).symm)
      rw [this]; exact Rlv
    · have : flatOf ch H = levelsBits b.child_indicator_bits_ (b.labels_.map List.length) 0
          (H - 0) := by
        simp only [levelsBits, flatOf, Nat.sub_zero, List.range_eq_range']
        congr 1
        apply List.map_congr_left
        intro l _
        rw [e1 l, hns l, ← S.cw l]; rfl
      rw [this]; exact Rbc
    · have : flatOf lo H = levelsBits b.louds_bits_ (b.labels_.map List.length) 0
          (H - 0) := by
        simp only [levelsBits, flatOf, Nat.sub_zero, List.range_eq_range']
        congr 1
        apply List.map_congr_left
        intro l _
        rw [e2 l, hns l, ← S.lw l]; rfl
      rw [this]; exact Rbl
    · show b.getSparseOffsets = flatOf val H
      simp only [FSTBuilder.getSparseOffsets, S.ssl, List.drop_zero, flatOf]
      congr 1
      apply List.ext_getElem?
      intro l
      by_cases hl : l < H
      · rw [getD_of_lt _ l [] (by rw [S.lenV]; exact hl), List.getElem?_map,
          List.getElem?_range hl]
        simp only [Option.map_some', Option.some.injEq]
        rw [← S.val l]; rfl
      · rw [List.getElem?_eq_none (by rw [S.lenV]; omega),
          List.getElem?_eq_none (by simp; omega)]

end FST

namespace FST

namespace KeysOK

variable {keys : List (List Nat)} {L : Nat}

theorem kAt_le (K : KeysOK keys L) (i j : Nat) (hij : i ≤ j) (hj : j < keys.length) :
    strLe (kAt keys i) (kAt keys j) := by
  rcases Nat.eq_or_lt_of_le hij with e | e
  · subst e; exact strLe_refl _
  · exact strLe_of_lt (K.kAt_lt i j e hj)

/-- Keys between two keys with a common prefix share this prefix. -/
theorem take_convex (K : KeysOK keys L) (i m j c : Nat) (h1 : i ≤ m) (h2 : m ≤ j)
    (hj : j < keys.length) (h : (kAt keys i).take c = (kAt keys j).take c) :
    (kAt keys m).take c = (kAt keys i).take c := by
  have a1 := take_mono_le c (K.kAt_le i m h1 (by omega))
  have a2 := take_mono_le c (K.kAt_le m j h2 hj)
  rw [← h] at a2
  exact strLe_antisymm a2 a1

theorem lcp_le_nOf (K : KeysOK keys L) (i j : Nat) (hij : i < j) (hj : j < keys.length) :
    lcp (kAt keys i) (kAt keys j) ≤ nOf keys i := by
  have h := lcp_take (kAt keys i) (kAt keys j) _ (Nat.le_refl _)
  have h2 := K.take_convex i (i + 1) j _ (by omega) (by omega) hj h
  have := lcp_le_left (kAt keys i) (kAt keys j)
  exact le_lcp_of_take _ _ _ this
    (by rw [K.kAt_len (i + 1) (by omega), ← K.kAt_len i (by omega)]; exact this) h2.symm

theorem lcp_le_sOf (K : KeysOK keys L) (i j : Nat) (hij : i < j) (hj : j < keys.length) :
    lcp (kAt keys i) (kAt keys j) ≤ sOf keys j := by
  have h := lcp_take (kAt keys i) (kAt keys j) _ (Nat.le_refl _)
  have h2 := K.take_convex i (j - 1) j _ (by omega) (by omega) hj h
  have := lcp_le_left (kAt keys i) (kAt keys j)
  rw [sOf_eq_lcp keys j (by omega)]
  exact le_lcp_of_take _ _ _
    (by rw [K.kAt_len (j - 1) (by omega), ← K.kAt_len i (by omega)]; exact this)
    (by rw [K.kAt_len j hj, ← K.kAt_len i (by omega)]; exact this) (h2.trans h)

/-- Two different keys differ above both of their depths. -/
theorem take_ne (K : KeysOK keys L) (i j c : Nat) (hij : i < j) (hj : j < keys.length)
    (hc : c ≤ L) (h : (kAt keys i).take c = (kAt keys j).take c) :
    c < dOf keys i ∧ c < dOf keys j := by
  have h1 := le_lcp_of_take _ _ c (by rw [K.kAt_len i (by omega)]; exact hc)
    (by rw [K.kAt_len j hj]; exact hc) h
  have h2 := K.lcp_le_nOf i j hij hj
  have h3 := K.lcp_le_sOf i j hij hj
  have h4 := nOf_lt_dOf keys i
  have h5 := sOf_lt_dOf keys j
  omega

theorem take_ne2 (K : KeysOK keys L) (i j c : Nat) (hij : i ≠ j) (hi : i < keys.length)
    (hj : j < keys.length) (hc : c ≤ L) (h : (kAt keys i).take c = (kAt keys j).take c) :
    c < dOf keys i ∧ c < dOf keys j := by
  rcases Nat.lt_or_gt_of_ne hij with e | e
  · exact K.take_ne i j c e hj hc h
  · exact (K.take_ne j i c e hi hc h.symm).symm

theorem tK_length (K : KeysOK keys L) (j : Nat) (hj : j < keys.length) :
    (tK keys j).length = dOf keys j := by
  simp only [tK, List.length_take]
  have := K.dOf_le j hj
  have := K.kAt_len j hj
  omega

theorem take_length (K : KeysOK keys L) (j c : Nat) (hj : j < keys.length) (hc : c ≤ L) :
    ((kAt keys j).take c).length = c := by
  simp only [List.length_take]
  have := K.kAt_len j hj
  omega

end KeysOK

/-- Every level above the depth of a key holds the path of this key, owned by this key or
by an earlier one. -/
theorem owner (keys : List (List Nat)) (j l : Nat) (h : l < dOf keys j) :
    ∃ j2, j2 ≤ j ∧ sOf keys j2 ≤ l ∧ l < dOf keys j2 ∧
      (kAt keys j2).take (l + 1) = (kAt keys j).take (l + 1) := by
  induction j with
  | zero => exact ⟨0, Nat.le_refl _, by simp [sOf], h, rfl⟩
  | succ j ih =>
    by_cases hs : sOf keys (j + 1) ≤ l
    · exact ⟨j + 1, Nat.le_refl _, hs, h, rfl⟩
    · have hs2 : l < nOf keys j := by rw [sOf_succ] at hs; omega
      obtain ⟨j2, a1, a2, a3, a4⟩ := ih (by have := nOf_lt_dOf keys j; omega)
      refine ⟨j2, by omega, a2, a3, ?_⟩
      rw [a4]
      exact lcp_take _ _ _ (by simp only [nOf] at hs2; omega)

/-- An item that continues the node of the item before it has an earlier item in its
level with the same parent. -/
theorem same_node (keys : List (List Nat)) (j l : Nat) (hj : j ≠ 0) (hs : sOf keys j = l) :
    ∃ j2, j2 < j ∧ sOf keys j2 ≤ l ∧ l < dOf keys j2 ∧
      (kAt keys j2).take l = (kAt keys j).take l := by
  have h0 : 0 < j := Nat.pos_of_ne_zero hj
  have hp := sOf_lt_prev keys j h0
  obtain ⟨j2, a1, a2, a3, a4⟩ := owner keys (j - 1) l (by omega)
  refine ⟨j2, by omega, a2, a3, ?_⟩
  have e1 : (kAt keys j2).take l = (kAt keys (j - 1)).take l := by
    have := congrArg (List.take l) a4
    simpa [List.take_take] using this
  rw [e1]
  exact lcp_take _ _ _ (by rw [← sOf_eq_lcp keys j h0]; omega)

theorem strLt_take_of_lcp (x y : List Nat) (a b : Nat) (h : strLt x y = true)
    (ha : lcp x y < a) (hb : lcp x y < b) : strLt (x.take a) (y.take b) = true := by
  induction x generalizing y a b with
  | nil =>
    cases y with
    | nil => simp [strLt] at h
    | cons y ys =>
      cases b with
      | zero => omega
      | succ b => simp [strLt]
  | cons x xs ih =>
    cases y with
    | nil => simp [strLt] at h
    | cons y ys =>
      cases a with
      | zero => omega
      | succ a =>
        cases b with
        | zero => omega
        | succ b =>
          simp only [List.take_succ_cons, strLt_cons] at h ⊢
          simp only [lcp] at ha hb
          by_cases e : x = y
          · subst e
            simp only [Nat.lt_irrefl, decide_False, decide_True, Bool.true_and,
              Bool.false_or] at h ⊢
            rw [if_pos rfl] at ha hb
            exact ih ys a b h (by omega) (by omega)
          · simp only [e, decide_False, Bool.false_and, Bool.or_false] at h ⊢
            exact h

end FST

namespace FST

theorem keysOf_tvOf (keys : List (List Nat)) (values : List Nat) :
    keysOf (tvOf keys values) = (List.range keys.length).map (tK keys) := by
  simp [keysOf, tvOf, List.map_map, Function.comp_def]

theorem mem_keysOf_tvOf (keys : List (List Nat)) (values : List Nat) (t : List Nat) :
    t ∈ keysOf (tvOf keys values) ↔ ∃ j, j < keys.length ∧ tK keys j = t := by
  rw [keysOf_tvOf]
  simp [List.mem_map]

theorem mem_entL (keys : List (List Nat)) (l : Nat) (e : List Nat) :
    e ∈ entL keys l ↔ ∃ j, j < keys.length ∧ sOf keys j ≤ l ∧ l < dOf keys j ∧
      (kAt keys j).take (l + 1) = e := by
  simp only [entL, List.mem_map, mem_lvl]
  constructor
  · rintro ⟨j, ⟨a, b, c⟩, d⟩; exact ⟨j, a, b, c, d⟩
  · rintro ⟨j, a, b, c, d⟩; exact ⟨j, ⟨a, b, c⟩, d⟩

theorem mem_flatOf {α : Type} (f : Nat → List α) (H : Nat) (x : α) :
    x ∈ flatOf f H ↔ ∃ l, l < H ∧ x ∈ f l := by
  simp only [flatOf, List.mem_flatten, List.mem_map, List.mem_range]
  constructor
  · rintro ⟨_, ⟨l, hl, rfl⟩, hx⟩; exact ⟨l, hl, hx⟩
  · rintro ⟨l, hl, hx⟩; exact ⟨_, ⟨l, hl, rfl⟩, hx⟩

theorem mem_entOf (keys : List (List Nat)) (e : List Nat) :
    e ∈ entOf keys ↔ ∃ l j, j < keys.length ∧ sOf keys j ≤ l ∧ l < dOf keys j ∧
      (kAt keys j).take (l + 1) = e := by
  simp only [entOf, mem_flatOf, mem_entL]
  constructor
  · rintro ⟨l, _, j, h⟩; exact ⟨l, j, h⟩
  · rintro ⟨l, j, a, b, c, d⟩
    exact ⟨l, by have := dOf_le_HS keys keys.length j a; omega, j, a, b, c, d⟩

theorem KeysOK.tK_lt {keys : List (List Nat)} {L : Nat} (K : KeysOK keys L) (i j : Nat)
    (hij : i < j) (hj : j < keys.length) : strLt (tK keys i) (tK keys j) = true := by
  have h2 := K.lcp_le_nOf i j hij hj
  have h3 := K.lcp_le_sOf i j hij hj
  have h4 := nOf_lt_dOf keys i
  have h5 := sOf_lt_dOf keys j
  exact strLt_take_of_lcp _ _ _ _ (K.kAt_lt i j hij hj) (by omega) (by omega)

theorem take_prefix_take (a : List Nat) (m n : Nat) (h : m ≤ n) : a.take m <+: a.take n := by
  rw [List.prefix_iff_eq_take]
  rw [List.take_take, List.length_take]
  by_cases c : m ≤ a.length
  · rw [show min (min m a.length) n = m by omega]
  · rw [show min (min m a.length) n = min a.length n by omega]
    rw [List.take_of_length_le (show a.length ≤ m by omega)]
    by_cases c2 : a.length ≤ n
    · rw [show min a.length n = a.length by omega, List.take_of_length_le (Nat.le_refl _)]
    · exfalso; omega

/-- The paths listed level by level form the trie of the stored unique prefixes. -/
theorem KeysOK.flatTrie {keys : List (List Nat)} {L : Nat} (K : KeysOK keys L)
    (values : List Nat) : FlatTrie (tvOf keys values) (entOf keys) := by
  have hn : 0 < keys.length := List.length_pos.mpr K.ne
  have hd : ∀ j, 0 < dOf keys j := fun j => by simp [dOf]
  refine ⟨?_, ?_, ?_, ?_, ?_, ?_, ?_⟩
  · -- nonemptyT
    intro e
    have := congrArg List.length e
    simp only [tvOf, List.length_map, List.length_range, List.length_nil] at this
    omega
  · -- keyne
    intro t ht
    obtain ⟨j, hj, rfl⟩ := (mem_keysOf_tvOf keys values t).mp ht
    intro e
    have := K.tK_length j hj
    rw [e] at this
    have := hd j
    simp at *
    omega
  · -- sortedT
    rw [keysOf_tvOf, List.pairwise_map]
    apply List.Pairwise.imp_of_mem _ (List.pairwise_lt_range keys.length)
    intro a b _ hb hab
    exact K.tK_lt a b hab (List.mem_range.mp hb)
  · -- pfree
    intro a ha b hb hab
    obtain ⟨i, hi, rfl⟩ := (mem_keysOf_tvOf keys values a).mp ha
    obtain ⟨j, hj, rfl⟩ := (mem_keysOf_tvOf keys values b).mp hb
    by_cases e : i = j
    · subst e; rfl
    · exfalso
      have h1 := (prefix_iff_take _ _).mp hab
      rw [K.tK_length i hi] at h1
      have hle : dOf keys i ≤ dOf keys j := by
        have := hab.length_le
        rw [K.tK_length i hi, K.tK_length j hj] at this
        exact this
      simp only [tK, List.take_take] at h1
      rw [show min (dOf keys i) (dOf keys j) = dOf keys i by omega] at h1
      have := K.take_ne2 i j (dOf keys i) e hi hj (K.dOf_le i hi) h1.symm
      omega
  · -- sortedE
    simp only [entOf, flatOf]
    rw [List.pairwise_flatten]
    constructor
    · intro lv hlv
      obtain ⟨l, _, rfl⟩ := List.mem_map.mp hlv
      simp only [entL]
      rw [List.pairwise_map]
      have hp : (lvl keys keys.length l).Pairwise (· < ·) :=
        List.Pairwise.filter _ (List.pairwise_lt_range keys.length)
      apply List.Pairwise.imp_of_mem _ hp
      intro a b ha hb hab
      obtain ⟨a1, a2, a3⟩ := (mem_lvl keys _ l a).mp ha
      obtain ⟨b1, b2, b3⟩ := (mem_lvl keys _ l b).mp hb
      right
      refine ⟨?_, ?_⟩
      · rw [K.take_length a _ a1 (by have := K.dOf_le a a1; omega),
          K.take_length b _ b1 (by have := K.dOf_le b b1; omega)]
      · have := K.lcp_le_sOf a b hab b1
        exact strLt_take_of_lcp _ _ _ _ (K.kAt_lt a b hab b1) (by omega) (by omega)
    · rw [List.pairwise_map]
      apply List.Pairwise.imp_of_mem _ (List.pairwise_lt_range _)
      intro l1 l2 _ _ h12 x hx y hy
      obtain ⟨a, a1, a2, a3, rfl⟩ := (mem_entL keys l1 x).mp hx
      obtain ⟨b, b1, b2, b3, rfl⟩ := (mem_entL keys l2 y).mp hy
      left
      rw [K.take_length a _ a1 (by have := K.dOf_le a a1; omega),
        K.take_length b _ b1 (by have := K.dOf_le b b1; omega)]
      omega
  · -- memE
    intro e
    rw [mem_entOf]
    constructor
    · rintro ⟨l, j, a, b, c, rfl⟩
      refine ⟨?_, tK keys j, (mem_keysOf_tvOf keys values _).mpr ⟨j, a, rfl⟩, ?_⟩
      · intro e
        have := K.take_length j (l + 1) a (by have := K.dOf_le j a; omega)
        rw [e] at this
        simp at this
      · exact take_prefix_take _ _ _ (by omega)
    · rintro ⟨hne, t, ht, hpre⟩
      obtain ⟨j, hj, rfl⟩ := (mem_keysOf_tvOf keys values t).mp ht
      have hlen := hpre.length_le
      rw [K.tK_length j hj] at hlen
      have hpos : 0 < e.length := List.length_pos.mpr hne
      obtain ⟨j2, a1, a2, a3, a4⟩ := owner keys j (e.length - 1) (by omega)
      refine ⟨e.length - 1, j2, by omega, a2, a3, ?_⟩
      rw [a4, show e.length - 1 + 1 = e.length by omega]
      have h1 := (prefix_iff_take _ _).mp hpre
      simp only [tK, List.take_take] at h1
      rw [show min e.length (dOf keys j) = e.length by omega] at h1
      exact h1
  · -- sibling
    intro t ht hlen
    obtain ⟨j, hj, rfl⟩ := (mem_keysOf_tvOf keys values t).mp ht
    rw [K.tK_length j hj] at hlen
    have hdrop : (tK keys j).dropLast = (kAt keys j).take (dOf keys j - 1) := by
      rw [List.dropLast_eq_take, K.tK_length j hj]
      simp only [tK, List.take_take]
      rw [show min (dOf keys j - 1) (dOf keys j) = dOf keys j - 1 by omega]
    rw [hdrop]
    by_cases c : nOf keys j ≤ sOf keys j
    · have hs : dOf keys j - 1 = sOf keys j := by simp only [dOf]; omega
      have h0 : 0 < j := sOf_pos_index keys j (by omega)
      refine ⟨tK keys (j - 1), (mem_keysOf_tvOf keys values _).mpr ⟨j - 1, by omega, rfl⟩,
        strLt_ne (K.tK_lt (j - 1) j (by omega) hj), ?_⟩
      rw [hs]
      have e1 : (kAt keys j).take (sOf keys j) = (kAt keys (j - 1)).take (sOf keys j) :=
        (lcp_take _ _ _ (by rw [← sOf_eq_lcp keys j h0])).symm
      rw [e1]
      exact take_prefix_take _ _ _ (by have := sOf_lt_prev keys j h0; omega)
    · have hs : dOf keys j - 1 = nOf keys j := by simp only [dOf]; omega
      have hj1 : j + 1 < keys.length := by
        by_contra hc
        have := lcp_le_right (kAt keys j) (kAt keys (j + 1))
        rw [KeysOK.kAt_nil (j + 1) (by omega)] at this
        simp only [List.length_nil] at this
        simp only [nOf] at c
        rw [KeysOK.kAt_nil (j + 1) (by omega)] at c
        omega
      refine ⟨tK keys (j + 1), (mem_keysOf_tvOf keys values _).mpr ⟨j + 1, hj1, rfl⟩,
        (strLt_ne (K.tK_lt j (j + 1) (by omega) hj1)).symm, ?_⟩
      rw [hs]
      have e1 : (kAt keys j).take (nOf keys j) = (kAt keys (j + 1)).take (nOf keys j) :=
        lcp_take _ _ _ (Nat.le_refl _)
      rw [e1]
      apply take_prefix_take
      have := sOf_lt_dOf keys (j + 1)
      rw [sOf_succ] at this
      omega

end FST

namespace FST

theorem map_flatOf {α β : Type} (f : Nat → List α) (g : α → β) (H : Nat) :
    (flatOf f H).map g = flatOf (fun l => (f l).map g) H := by
  simp only [flatOf, List.map_flatten, List.map_map, Function.comp_def]

theorem filterMap_flatten_lists {α β : Type} (g : α → Option β) (ls : List (List α)) :
    ls.flatten.filterMap g = (ls.map (List.filterMap g)).flatten := by
  induction ls with
  | nil => rfl
  | cons x xs ih => simp [List.filterMap_append, ih]

theorem filterMap_flatOf {α β : Type} (f : Nat → List α) (g : α → Option β) (H : Nat) :
    (flatOf f H).filterMap g = flatOf (fun l => (f l).filterMap g) H := by
  simp only [flatOf, filterMap_flatten_lists, List.map_map, Function.comp_def]

theorem getLastD_take (a : List Nat) (l : Nat) (h : l < a.length) :
    (a.take (l + 1)).getLastD 0 = a.getD l 0 := by
  have hlen : (a.take (l + 1)).length = l + 1 := by rw [List.length_take]; omega
  have hne : a.take (l + 1) ≠ [] := by
    intro e; rw [e] at hlen; simp at hlen
  rw [List.getLastD_eq_getLast?, List.getLast?_eq_getElem?, hlen]
  simp only [Nat.add_sub_cancel, List.getD_eq_getElem?_getD]
  rw [List.getElem?_take_of_lt (by omega)]

theorem labS_end (keys : List (List Nat)) (i l : Nat) :
    labS keys i 0 l = (lvl keys i l).map (fun j => (kAt keys j).getD l 0) := by
  simp only [labS]
  rw [if_neg (by omega), List.append_nil]

theorem chS_end (keys : List (List Nat)) (i l : Nat) :
    chS keys i 0 l = (lvl keys i l).map (fun j => decide (l + 1 < dOf keys j)) := by
  simp only [chS]
  rw [if_neg (by omega), List.append_nil]

theorem loS_end (keys : List (List Nat)) (i l : Nat) :
    loS keys i 0 l = (lvl keys i l).map (fun j => decide (j = 0 ∨ sOf keys j < l)) := by
  simp only [loS]
  rw [if_neg (by omega), List.append_nil]

theorem KeysOK.labOf_eq {keys : List (List Nat)} {L : Nat} (K : KeysOK keys L) :
    labOf (entOf keys) = flatOf (labS keys keys.length 0) (HS keys keys.length) := by
  simp only [labOf, entOf, map_flatOf]
  apply flatOf_congr
  intro l _
  rw [labS_end]
  simp only [entL, List.map_map]
  apply List.map_congr_left
  intro j hj
  obtain ⟨a1, a2, a3⟩ := (mem_lvl keys _ l j).mp hj
  exact getLastD_take _ _ (by rw [K.kAt_len j a1]; have := K.dOf_le j a1; omega)

/-- A path is a stored key iff it ends at the depth of its key. -/
theorem KeysOK.entry_is_key {keys : List (List Nat)} {L : Nat} (K : KeysOK keys L)
    (values : List Nat) (j l : Nat) (hj : j < keys.length) (hl : l < dOf keys j) :
    (kAt keys j).take (l + 1) ∈ keysOf (tvOf keys values) ↔ l + 1 = dOf keys j := by
  constructor
  · intro h
    obtain ⟨m, hm, e⟩ := (mem_keysOf_tvOf keys values _).mp h
    have hlen := congrArg List.length e
    rw [K.tK_length m hm, K.take_length j _ hj (by have := K.dOf_le j hj; omega)] at hlen
    by_cases c : m = j
    · subst c; omega
    · exfalso
      simp only [tK] at e
      rw [hlen] at e
      have := K.take_ne2 m j (l + 1) c hm hj (by have := K.dOf_le j hj; omega) e
      omega
  · intro h
    exact (mem_keysOf_tvOf keys values _).mpr ⟨j, hj, by simp only [tK]; rw [h]⟩

theorem KeysOK.chOf_eq {keys : List (List Nat)} {L : Nat} (K : KeysOK keys L)
    (values : List Nat) :
    chOf (tvOf keys values) (entOf keys)
      = flatOf (chS keys keys.length 0) (HS keys keys.length) := by
  simp only [chOf, entOf, map_flatOf]
  apply flatOf_congr
  intro l _
  rw [chS_end]
  simp only [entL, List.map_map]
  apply List.map_congr_left
  intro j hj
  obtain ⟨a1, a2, a3⟩ := (mem_lvl keys _ l j).mp hj
  have := K.entry_is_key values j l a1 a3
  simp only [Function.comp_apply]
  by_cases c : l + 1 = dOf keys j
  · have h1 := this.mpr c
    have h2 : ¬ (l + 1 < dOf keys j) := by omega
    simp [h1, h2]
  · have h1 : ¬ _ := fun x => c (this.mp x)
    have h2 : l + 1 < dOf keys j := by omega
    simp [h1, h2]

theorem lookup_of_sorted (TV : List (List Nat × Nat))
    (h : (keysOf TV).Pairwise (fun a b => strLt a b = true)) (k : List Nat) (v : Nat)
    (hm : (k, v) ∈ TV) : TV.lookup k = some v := by
  induction TV with
  | nil => simp at hm
  | cons hd tl ih =>
    obtain ⟨k1, v1⟩ := hd
    simp only [keysOf, List.map_cons, List.pairwise_cons] at h
    rcases List.mem_cons.mp hm with e | e
    · simp only [Prod.mk.injEq] at e
      obtain ⟨rfl, rfl⟩ := e
      simp [List.lookup]
    · have hk : k ∈ tl.map Prod.fst := List.mem_map.mpr ⟨(k, v), e, rfl⟩
      have hne : k ≠ k1 := (strLt_ne (h.1 k hk)).symm
      have : (k == k1) = false := by simpa using hne
      simp only [List.lookup, this]
      exact ih h.2 e

theorem KeysOK.lookup_tK {keys : List (List Nat)} {L : Nat} (K : KeysOK keys L)
    (values : List Nat) (j : Nat) (hj : j < keys.length) :
    (tvOf keys values).lookup (tK keys j) = some (values.getD j 0) := by
  apply lookup_of_sorted _ (K.flatTrie values).sortedT
  simp only [tvOf, List.mem_map, List.mem_range]
  exact ⟨j, hj, rfl⟩

theorem lookup_none_of_not_mem (TV : List (List Nat × Nat)) (e : List Nat)
    (h : e ∉ keysOf TV) : TV.lookup e = none := by
  have := lookup_isSome_iff TV e
  cases hl : TV.lookup e with
  | none => rfl
  | some v => rw [hl] at this; exact absurd (this.mp rfl) h

theorem KeysOK.valOf_eq {keys : List (List Nat)} {L : Nat} (K : KeysOK keys L)
    (values : List Nat) :
    valOf (tvOf keys values) (entOf keys)
      = flatOf (valS keys values keys.length) (HS keys keys.length) := by
  simp only [valOf, entOf, filterMap_flatOf]
  apply flatOf_congr
  intro l _
  simp only [entL, valS, lvl, List.filterMap_map]
  rw [← List.filterMap_eq_filter, List.filterMap_filterMap, ← List.filterMap_eq_map,
    ← List.filterMap_eq_filter, List.filterMap_filterMap]
  apply List.filterMap_congr
  intro j hj
  have hjn := List.mem_range.mp hj
  simp only [Option.guard, Function.comp_apply]
  by_cases c : dOf keys j = l + 1
  · have c2 : sOf keys j ≤ l ∧ l < dOf keys j := by
      have := sOf_lt_dOf keys j; omega
    have e : (kAt keys j).take (l + 1) = tK keys j := by simp only [tK]; rw [c]
    simp [c, c2, e, K.lookup_tK values j hjn]
  · by_cases c2 : sOf keys j ≤ l ∧ l < dOf keys j
    · have hnm : (kAt keys j).take (l + 1) ∉ keysOf (tvOf keys values) := by
        intro h
        have := (K.entry_is_key values j l hjn c2.2).mp h
        omega
      simp [c, c2, lookup_none_of_not_mem _ _ hnm]
    · simp [c, c2]

end FST

namespace FST

theorem lastOr_nil (p : Option (List Nat)) : lastOr p [] = p := rfl

theorem lastOr_cons (p : Option (List Nat)) (e : List Nat) (es : List (List Nat)) :
    lastOr p (e :: es) = lastOr (some e) es := by
  cases es with
  | nil => simp [lastOr]
  | cons x xs =>
    simp only [lastOr, List.getLast?_cons_cons]
    cases h : (x :: xs).getLast? with
    | none => simp at h
    | some y => rfl

theorem startBits_append (p : Option (List Nat)) (a b : List (List Nat)) :
    startBits p (a ++ b) = startBits p a ++ startBits (lastOr p a) b := by
  induction a generalizing p with
  | nil => simp [startBits, lastOr_nil]
  | cons e es ih =>
    rw [List.cons_append]
    simp only [startBits]
    rw [ih, lastOr_cons, List.cons_append]

theorem lastOr_append (p : Option (List Nat)) (a b : List (List Nat)) :
    lastOr p (a ++ b) = lastOr (lastOr p a) b := by
  induction a generalizing p with
  | nil => simp [lastOr_nil]
  | cons e es ih => simp only [List.cons_append, lastOr_cons, ih]

theorem loOf_shift (pre ENT : List (List Nat)) :
    (List.range ENT.length).map (fun g => decide (g + pre.length = 0 ∨
        ((pre ++ ENT).getD (g + pre.length) []).dropLast
          ≠ ((pre ++ ENT).getD (g + pre.length - 1) []).dropLast))
      = startBits pre.getLast? ENT := by
  induction ENT generalizing pre with
  | nil => simp [startBits]
  | cons e es ih =>
    simp only [List.length_cons, List.range_succ_eq_map, List.map_cons, List.map_map,
      startBits, Nat.zero_add]
    congr 1
    · have h1 : (pre ++ e :: es).getD pre.length [] = e := by
        rw [List.getD_eq_getElem?_getD, List.getElem?_append_right (Nat.le_refl _),
          Nat.sub_self]
        simp
      rw [h1]
      cases hp : pre.getLast? with
      | none =>
        have : pre = [] := by
          cases pre with
          | nil => rfl
          | cons x xs => simp [List.getLast?_cons] at hp
        subst this; simp
      | some q =>
        have hne : pre ≠ [] := by intro e; rw [e] at hp; simp at hp
        have hpos : 0 < pre.length := List.length_pos.mpr hne
        have h2 : (pre ++ e :: es).getD (pre.length - 1) [] = q := by
          rw [List.getLast?_eq_getElem?] at hp
          simp only [List.getD_eq_getElem?_getD]
          rw [List.getElem?_append_left (by omega), hp]
          rfl
        rw [h2]
        have : ¬ pre.length = 0 := by omega
        simp [this]
    · have := ih (pre ++ [e])
      have hl : (pre ++ [e]).getLast? = some e := by simp
      rw [hl] at this
      simp only [List.length_append, List.length_singleton, List.append_assoc,
        List.singleton_append] at this
      rw [← this]
      apply List.map_congr_left
      intro g _
      simp only [Function.comp_apply]
      rw [show g + (pre.length + 1) = g + 1 + pre.length by omega]

theorem loOf_eq_startBits (ENT : List (List Nat)) : loOf ENT = startBits none ENT := by
  have := loOf_shift [] ENT
  simp only [List.length_nil, Nat.add_zero, List.nil_append, List.getLast?_nil] at this
  rw [← this]
  rfl

theorem flatOf_succ {α : Type} (f : Nat → List α) (H : Nat) :
    flatOf f (H + 1) = flatOf f H ++ f H := by
  simp [flatOf, List.range_succ]

theorem lvl_last_max (keys : List (List Nat)) (i l jp : Nat)
    (h : (lvl keys i l).getLast? = some jp) : ∀ j ∈ lvl keys i l, j ≤ jp := by
  induction i generalizing jp with
  | zero => simp [lvl] at h
  | succ i ih =>
    rw [lvl_succ] at h ⊢
    by_cases c : sOf keys i ≤ l ∧ l < dOf keys i
    · rw [if_pos c] at h ⊢
      have hl : (lvl keys i l ++ [i]).getLast? = some i := by simp
      rw [hl] at h
      simp only [Option.some.injEq] at h
      subst h
      intro j hj
      rcases List.mem_append.mp hj with e | e
      · have := ((mem_lvl keys i l j).mp e).1; omega
      · simp at e; omega
    · rw [if_neg c] at h ⊢
      simp only [List.append_nil] at h ⊢
      exact ih jp h

theorem dropLast_take (a : List Nat) (l : Nat) (h : l < a.length) :
    (a.take (l + 1)).dropLast = a.take l := by
  rw [List.dropLast_eq_take, List.length_take, List.take_take]
  rw [show min (min (l + 1) a.length - 1) (l + 1) = l by omega]

end FST

namespace FST

/-- The start-of-node bits of one level. -/
theorem KeysOK.level_lo {keys : List (List Nat)} {L : Nat} (K : KeysOK keys L) (l : Nat)
    (p : Option (List Nat)) (hp : ∀ q, p = some q → 1 ≤ q.length ∧ q.length ≤ l) :
    ∀ i, i ≤ keys.length →
      startBits p ((lvl keys i l).map (fun j => (kAt keys j).take (l + 1)))
        = (lvl keys i l).map (fun j => decide (j = 0 ∨ sOf keys j < l)) := by
  intro i
  induction i with
  | zero => intro _; simp [lvl, startBits]
  | succ i ih =>
    intro hi
    have ih2 := ih (by omega)
    rw [lvl_succ]
    by_cases c : sOf keys i ≤ l ∧ l < dOf keys i
    · rw [if_pos c, List.map_append, List.map_append, startBits_append, ih2]
      congr 1
      have hin : i < keys.length := by omega
      have hlk : l < (kAt keys i).length := by
        rw [K.kAt_len i hin]; have := K.dOf_le i hin; omega
      simp only [List.map_cons, List.map_nil, startBits, List.cons.injEq, and_true]
      rw [dropLast_take _ _ hlk]
      cases hlast : (lvl keys i l).getLast? with
      | none =>
        have hemp : lvl keys i l = [] := by
          cases h : lvl keys i l with
          | nil => rfl
          | cons x xs => rw [h] at hlast; simp [List.getLast?_cons] at hlast
        have hR : i = 0 ∨ sOf keys i < l := by
          by_contra hc
          have h1 : i ≠ 0 := fun e => hc (Or.inl e)
          have h2 : sOf keys i = l := by omega
          obtain ⟨j2, a1, a2, a3, _⟩ := same_node keys i l h1 h2
          have : j2 ∈ lvl keys i l := (mem_lvl keys i l j2).mpr ⟨a1, a2, a3⟩
          rw [hemp] at this
          simp at this
        have hlo : lastOr p ((lvl keys i l).map (fun j => (kAt keys j).take (l + 1))) = p := by
          rw [hemp]; rfl
        rw [hlo]
        cases p with
        | none => simp [hR]
        | some q =>
          obtain ⟨q1, q2⟩ := hp q rfl
          have hne : (kAt keys i).take l ≠ q.dropLast := by
            intro e
            have := congrArg List.length e
            rw [List.length_take, List.length_dropLast] at this
            omega
          simp [hR, hne]
      | some jp =>
        have hmem : jp ∈ lvl keys i l := List.mem_of_getLast?_eq_some hlast
        obtain ⟨b1, b2, b3⟩ := (mem_lvl keys i l jp).mp hmem
        have hjk : l < (kAt keys jp).length := by
          rw [K.kAt_len jp (by omega)]; have := K.dOf_le jp (by omega); omega
        have hlo : lastOr p ((lvl keys i l).map (fun j => (kAt keys j).take (l + 1)))
            = some ((kAt keys jp).take (l + 1)) := by
          simp only [lastOr, List.getLast?_map, hlast, Option.map_some']
        rw [hlo]
        simp only
        rw [dropLast_take _ _ hjk]
        have h0 : i ≠ 0 := by omega
        by_cases cs : sOf keys i < l
        · have hne : (kAt keys i).take l ≠ (kAt keys jp).take l := by
            intro e
            have h1 := le_lcp_of_take _ _ l (by omega) (by omega) e.symm
            have h2 := K.lcp_le_sOf jp i b1 hin
            omega
          simp [cs, hne]
        · have h2 : sOf keys i = l := by omega
          obtain ⟨j2, a1, a2, a3, a4⟩ := same_node keys i l h0 h2
          have hj2 : j2 ∈ lvl keys i l := (mem_lvl keys i l j2).mpr ⟨a1, a2, a3⟩
          have hle := lvl_last_max keys i l jp hlast j2 hj2
          have := K.take_convex j2 jp i l hle (by omega) hin a4
          have he : (kAt keys i).take l = (kAt keys jp).take l := by rw [this, a4]
          simp [h0, cs, he]
    · rw [if_neg c, List.append_nil]
      exact ih2

theorem KeysOK.entL_length {keys : List (List Nat)} {L : Nat} (K : KeysOK keys L) (l : Nat)
    (e : List Nat) (h : e ∈ entL keys l) : e.length = l + 1 := by
  obtain ⟨j, a1, a2, a3, rfl⟩ := (mem_entL keys l e).mp h
  exact K.take_length j _ a1 (by have := K.dOf_le j a1; omega)

theorem lastOr_mem (a : List (List Nat)) (q : List Nat) (h : lastOr none a = some q) :
    q ∈ a := by
  simp only [lastOr] at h
  cases hl : a.getLast? with
  | none => rw [hl] at h; simp at h
  | some x =>
    rw [hl] at h
    simp only [Option.some.injEq] at h
    subst h
    exact List.mem_of_getLast?_eq_some hl

theorem KeysOK.levels_lo {keys : List (List Nat)} {L : Nat} (K : KeysOK keys L) (H : Nat) :
    startBits none (flatOf (entL keys) H) = flatOf (loS keys keys.length 0) H := by
  induction H with
  | zero => simp [flatOf, startBits]
  | succ H ih =>
    rw [flatOf_succ, flatOf_succ, startBits_append, ih]
    congr 1
    rw [loS_end]
    apply K.level_lo H _ _ keys.length (Nat.le_refl _)
    intro q hq
    have hm := lastOr_mem _ q hq
    obtain ⟨l, hl, hml⟩ := (mem_flatOf _ _ _).mp hm
    have := K.entL_length l q hml
    omega

theorem KeysOK.loOf_eq {keys : List (List Nat)} {L : Nat} (K : KeysOK keys L) :
    loOf (entOf keys) = flatOf (loS keys keys.length 0) (HS keys keys.length) := by
  rw [loOf_eq_startBits]
  exact K.levels_lo _

end FST

namespace FST

/-- The sparse trie built from an accepted key list represents the trie of the stored
unique prefixes. -/
theorem build_repr (keys : List (List Nat)) (values : List Nat) (L : Nat)
    (K : KeysOK keys L) (hv : values.length = keys.length)
    (hno : TermOK keys) :
    ∃ b t, FSTBuilder.new.buildSparse keys values = some b ∧
      LoudsSparse.new b keys = some t ∧
      TRepr t (tvOf keys values) (entOf keys) ∧ t.keys_ = keys ∧
      t.height_ = HS keys keys.length := by
  obtain ⟨b, hb, B⟩ := buildSparse_state keys values L K hv
  have B2 : BAbs b (HS keys keys.length) (labS keys keys.length 0) (chS keys keys.length 0)
      (loS keys keys.length 0) (valS keys values keys.length) :=
    BAbs.congr B (by omega) (fun _ => rfl) (fun _ => rfl) (fun _ => rfl) (fun _ => rfl)
  obtain ⟨t, ht, T, hk⟩ := LoudsSparse_new_abs keys B2
  refine ⟨b, t, hb, ht, ?_, hk, T.height⟩
  refine ⟨T.start, T.ncd, T.ccd, ?_, ?_, ?_, ?_, ?_, ?_⟩
  · rw [K.labOf_eq]; exact T.lab
  · rw [K.chOf_eq]; exact T.ch
  · rw [K.loOf_eq]; exact T.lo
  · rw [K.valOf_eq]; exact T.vals
  · intro e he
    obtain ⟨l, hl, hm⟩ := (mem_flatOf _ _ _).mp he
    rw [K.entL_length l e hm, T.height]
    omega
  · have hkey : ∀ x ∈ labOf (entOf keys), ∃ j, j < keys.length ∧ x ∈ kAt keys j := by
      intro x hx
      rw [K.labOf_eq] at hx
      obtain ⟨l, _, hm⟩ := (mem_flatOf _ _ _).mp hx
      rw [labS_end] at hm
      obtain ⟨j, hj, rfl⟩ := List.mem_map.mp hm
      obtain ⟨a1, a2, a3⟩ := (mem_lvl keys _ l j).mp hj
      have hlk : l < (kAt keys j).length := by
        rw [K.kAt_len j a1]; have := K.dOf_le j a1; omega
      refine ⟨j, a1, ?_⟩
      rw [List.getD_eq_getElem?_getD, List.getElem?_eq_getElem hlk]
      exact List.getElem_mem hlk
    rcases hno with hno | hno
    · left
      intro x hx e
      obtain ⟨j, a1, hmem⟩ := hkey x hx
      rw [e] at hmem
      exact hno _ (KeysOK.kAt_mem j a1) hmem
    · right
      intro x hx
      obtain ⟨j, a1, hmem⟩ := hkey x hx
      exact hno _ (KeysOK.kAt_mem j a1) x hmem

/-- Every inserted key is found with its value. -/
theorem build_lookup (keys : List (List Nat)) (values : List Nat) (L : Nat)
    (K : KeysOK keys L) (hv : values.length = keys.length)
    (hno : TermOK keys) :
    ∃ b t, FSTBuilder.new.buildSparse keys values = some b ∧
      LoudsSparse.new b keys = some t ∧
      ∀ i, i < keys.length → ∀ offset,
        t.lookupKey (kAt keys i) 0 offset = some (true, values.getD i 0) := by
  obtain ⟨b, t, hb, ht, R, _, _⟩ := build_repr keys values L K hv hno
  refine ⟨b, t, hb, ht, ?_⟩
  intro i hi offset
  exact R.lookupKey_found (K.flatTrie values) offset (kAt keys i) (tK keys i) _
    ((mem_keysOf_tvOf keys values _).mpr ⟨i, hi, rfl⟩) (K.lookup_tK values i hi)
    (List.take_prefix _ _)

end FST

namespace FST

/-! ## The iterator on the abstract trie -/

theorem sameAux_refl (a : Iter) : SameAux a a := ⟨rfl, rfl, rfl, rfl⟩

theorem sameAux_trans {a b c : Iter} (h1 : SameAux a b) (h2 : SameAux b c) : SameAux a c :=
  ⟨h2.vp.trans h1.vp, h2.vi.trans h1.vi, h2.term.trans h1.term, h2.valid.trans h1.valid⟩

theorem getD_take_of_lt (e : List Nat) (l m : Nat) (h : l < m) :
    (e.take m).getD l 0 = e.getD l 0 := by
  simp only [List.getD_eq_getElem?_getD]
  rw [List.getElem?_take_of_lt h]

theorem OnPath.getKey_eq {ENT : List (List Nat)} {it : Iter} {e : List Nat}
    (h : OnPath ENT it e) : it.key_.take it.key_len_ = e := by
  apply List.ext_getElem?
  intro l
  rw [h.1]
  by_cases hl : l < e.length
  · rw [List.getElem?_take_of_lt hl, (h.2 l hl).1]
    simp [List.getD_eq_getElem?_getD, List.getElem?_eq_getElem hl]
  · rw [List.getElem?_eq_none (by simp; omega), List.getElem?_eq_none (by omega)]

theorem OnPath.cur {ENT : List (List Nat)} {it : Iter} {e : List Nat}
    (h : OnPath ENT it e) (he : e ≠ []) :
    ∃ g, it.pos_in_trie_[decr32 it.key_len_]? = some g ∧ g < ENT.length ∧
      ENT.getD g [] = e := by
  have hpos : 0 < e.length := List.length_pos.mpr he
  obtain ⟨_, g, h1, h2, h3⟩ := h.2 (e.length - 1) (by omega)
  refine ⟨g, ?_, h2, ?_⟩
  · rw [h.1]
    simp only [decr32]
    rw [if_neg (by omega)]
    exact h1
  · rw [h3, show e.length - 1 + 1 = e.length by omega, List.take_length]

/-- Appending the byte of a child. -/
theorem OnPath.append_ok {t : LoudsSparse} {ENT : List (List Nat)} {it : Iter} {e : List Nat}
    (h : OnPath ENT it e) (hok : ItOK t it) (c g : Nat) (hlen : e.length < t.height_)
    (hg : g < ENT.length) (hge : ENT.getD g [] = e ++ [c]) :
    ∃ it1, it.append c g = some it1 ∧ OnPath ENT it1 (e ++ [c]) ∧ ItOK t it1 ∧
      SameAux it it1 := by
  have k1 : check (decide (it.key_len_ < it.key_.length)) = some () := by
    have : it.key_len_ < it.key_.length := by rw [h.1, hok.klen]; exact hlen
    simp only [check, this, decide_True, if_true]
  have k2 : check (decide (it.key_len_ < it.pos_in_trie_.length)) = some () := by
    have : it.key_len_ < it.pos_in_trie_.length := by rw [h.1, hok.plen]; exact hlen
    simp only [check, this, decide_True, if_true]
  refine ⟨{ it with key_ := it.key_.set it.key_len_ c
                    pos_in_trie_ := it.pos_in_trie_.set it.key_len_ g
                    key_len_ := it.key_len_ + 1 }, ?_, ?_, ?_, ⟨rfl, rfl, rfl, rfl⟩⟩
  · simp only [Iter.append, k1, k2, Option.bind_eq_bind, Option.some_bind]
  · refine ⟨by simp [h.1], ?_⟩
    intro l hl
    simp only [List.length_append, List.length_singleton] at hl
    by_cases c1 : l = e.length
    · subst c1
      refine ⟨?_, g, ?_, hg, ?_⟩
      · show (it.key_.set it.key_len_ c)[e.length]? = _
        rw [h.1, List.getElem?_set]
        simp [hok.klen, hlen, List.getD_eq_getElem?_getD]
      · show (it.pos_in_trie_.set it.key_len_ g)[e.length]? = _
        rw [h.1, List.getElem?_set]
        simp [hok.plen, hlen]
      · rw [hge, List.take_of_length_le (by simp)]
    · have hl2 : l < e.length := by omega
      obtain ⟨a1, g1, a2, a3, a4⟩ := h.2 l hl2
      refine ⟨?_, g1, ?_, a3, ?_⟩
      · show (it.key_.set it.key_len_ c)[l]? = _
        rw [h.1, List.getElem?_set]
        rw [if_neg (by omega), a1]
        simp only [List.getD_eq_getElem?_getD, List.getElem?_append_left hl2]
      · show (it.pos_in_trie_.set it.key_len_ g)[l]? = _
        rw [h.1, List.getElem?_set, if_neg (by omega)]
        exact a2
      · rw [a4, List.take_append_of_le_length (by omega)]
  · exact ⟨by simp [hok.klen], by simp [hok.plen], hok.vlen, hok.ilen, hok.snn⟩

/-- Dropping the last level. -/
theorem OnPath.pop {ENT : List (List Nat)} {it : Iter} {e : List Nat}
    (h : OnPath ENT it e) (he : e ≠ []) :
    OnPath ENT { it with key_len_ := decr32 it.key_len_ } e.dropLast := by
  have hpos : 0 < e.length := List.length_pos.mpr he
  refine ⟨?_, ?_⟩
  · show decr32 it.key_len_ = _
    rw [h.1, List.length_dropLast]
    simp only [decr32]
    rw [if_neg (by omega)]
  · intro l hl
    rw [List.length_dropLast] at hl
    obtain ⟨a1, g1, a2, a3, a4⟩ := h.2 l (by omega)
    refine ⟨?_, g1, a2, a3, ?_⟩
    · show it.key_[l]? = _
      rw [a1, List.dropLast_eq_take, getD_take_of_lt _ _ _ hl]
    · rw [a4, List.dropLast_eq_take, List.take_take]
      rw [show min (l + 1) (e.length - 1) = l + 1 by omega]

/-- Replacing the last level by a sibling. -/
theorem OnPath.set_ok {t : LoudsSparse} {TV : List (List Nat × Nat)} {ENT : List (List Nat)}
    {it : Iter} {e : List Nat} (R : TRepr t TV ENT)
    (h : OnPath ENT it e) (hok : ItOK t it) (he : e ≠ []) (hlen : e.length ≤ t.height_)
    (c g : Nat) (hg : g < ENT.length) (hge : ENT.getD g [] = e.dropLast ++ [c]) :
    ∃ it1, it.set t (decr32 it.key_len_) g = some it1 ∧ OnPath ENT it1 (e.dropLast ++ [c]) ∧
      ItOK t it1 ∧ SameAux it it1 := by
  have hpos : 0 < e.length := List.length_pos.mpr he
  have hd : decr32 it.key_len_ = e.length - 1 := by
    rw [h.1]; simp only [decr32]; rw [if_neg (by omega)]
  have hlab : t.labels_.read g = some c := by
    rw [R.readLab hg, labOf_getD ENT g hg, hge]
    simp
  have k1 : check (decide (e.length - 1 < it.key_.length)) = some () := by
    have : e.length - 1 < it.key_.length := by rw [hok.klen]; omega
    simp only [check, this, decide_True, if_true]
  have k2 : check (decide (e.length - 1 < it.pos_in_trie_.length)) = some () := by
    have : e.length - 1 < it.pos_in_trie_.length := by rw [hok.plen]; omega
    simp only [check, this, decide_True, if_true]
  refine ⟨{ it with key_ := it.key_.set (e.length - 1) c
                    pos_in_trie_ := it.pos_in_trie_.set (e.length - 1) g }, ?_, ?_, ?_,
    ⟨rfl, rfl, rfl, rfl⟩⟩
  · simp only [Iter.set, hd, k1, k2, hlab, Option.bind_eq_bind, Option.some_bind]
  · have hl0 : (e.dropLast ++ [c]).length = e.length := by
      simp [List.length_dropLast]; omega
    refine ⟨by rw [hl0]; exact h.1, ?_⟩
    intro l hl
    rw [hl0] at hl
    by_cases c1 : l = e.length - 1
    · subst c1
      refine ⟨?_, g, ?_, hg, ?_⟩
      · show (it.key_.set (e.length - 1) c)[e.length - 1]? = _
        rw [List.getElem?_set]
        have : e.length - 1 < it.key_.length := by rw [hok.klen]; omega
        simp only [this, if_true, List.getD_eq_getElem?_getD]
        rw [List.getElem?_append_right (by simp [List.length_dropLast])]
        simp [List.length_dropLast]
      · show (it.pos_in_trie_.set (e.length - 1) g)[e.length - 1]? = _
        rw [List.getElem?_set]
        have : e.length - 1 < it.pos_in_trie_.length := by rw [hok.plen]; omega
        simp [this]
      · rw [hge, List.take_of_length_le (by rw [hl0]; omega)]
    · have hl2 : l < e.length - 1 := by omega
      obtain ⟨a1, g1, a2, a3, a4⟩ := h.2 l (by omega)
      refine ⟨?_, g1, ?_, a3, ?_⟩
      · show (it.key_.set (e.length - 1) c)[l]? = _
        rw [List.getElem?_set, if_neg (by omega), a1]
        simp only [List.getD_eq_getElem?_getD]
        rw [List.getElem?_append_left (by rw [List.length_dropLast]; exact hl2),
          List.dropLast_eq_take, List.getElem?_take_of_lt hl2]
      · show (it.pos_in_trie_.set (e.length - 1) g)[l]? = _
        rw [List.getElem?_set, if_neg (by omega)]
        exact a2
      · rw [a4, List.take_append_of_le_length (by rw [List.length_dropLast]; omega),
          List.dropLast_eq_take, List.take_take]
        rw [show min (l + 1) (e.length - 1) = l + 1 by omega]
  · exact ⟨by simp [hok.klen], by simp [hok.plen], hok.vlen, hok.ilen, hok.snn⟩

end FST

namespace FST

theorem strLt_of_take {x y u w : List Nat} (hxy : strLt x y = true)
    (hlen : x.length = y.length) (hx : x <+: u) (hy : y <+: w) : strLt u w = true := by
  by_contra hc
  have hle : strLe w u := by simpa [strLe] using hc
  have := take_mono_le x.length hle
  rw [(prefix_iff_take x u).mp hx, hlen, (prefix_iff_take y w).mp hy] at this
  rw [strLe, hxy] at this
  exact Bool.noConfusion this

theorem par_of_append (ENT : List (List Nat)) (g : Nat) (e : List Nat) (c : Nat)
    (h : ENT.getD g [] = e ++ [c]) : par ENT g = e := by
  simp only [par]; rw [h]; simp

theorem FlatTrie.node_first {TV : List (List Nat × Nat)} {ENT : List (List Nat)}
    (F : FlatTrie TV ENT) {e : List Nat} {a b : Nat} (hn : NodeOf ENT e a b) :
    a < ENT.length ∧ ENT.getD a [] = e ++ [(labOf ENT).getD a 0] := by
  have hl := hn.lt
  have hle := hn.le
  have ha : a < ENT.length := by omega
  have hp : par ENT a = e := (hn.mem a ha).mpr ⟨Nat.le_refl _, hl⟩
  have := F.entry_eq ha
  rw [hp] at this
  exact ⟨ha, this⟩

theorem least_leaf {TV : List (List Nat × Nat)} {ENT : List (List Nat)} (F : FlatTrie TV ENT)
    {e u : List Nat} (he : e ∈ keysOf TV) (hu : IsLeastWith TV e u) : u = e :=
  (F.pfree e he u hu.1 hu.2.1).symm

/-- The least key below an internal path lies below its first child. -/
theorem least_child {TV : List (List Nat × Nat)} {ENT : List (List Nat)} (F : FlatTrie TV ENT)
    {e u : List Nat} {a b : Nat} (hn : NodeOf ENT e a b) (hu : IsLeastWith TV e u)
    (hne : e ∉ keysOf TV) : IsLeastWith TV (ENT.getD a []) u := by
  obtain ⟨hu1, hu2, hu3⟩ := hu
  obtain ⟨ha, hea⟩ := F.node_first hn
  have hlen : e.length < u.length := by
    rcases Nat.lt_or_ge e.length u.length with h | h
    · exact h
    · exact absurd (hu2.eq_of_length_le h ▸ hu1) hne
  -- the child of `e` on the path to `u`
  have hx1 : u.take (e.length + 1) ≠ [] := by
    intro h
    have := congrArg List.length h
    rw [List.length_take, List.length_nil] at this
    omega
  obtain ⟨gx, hgx, hgxe⟩ := F.pos_of_pfx hx1 hu1 (List.take_prefix _ _)
  have hxe : u.take (e.length + 1) = e ++ [u.getD e.length 0] := by
    obtain ⟨s, rfl⟩ := hu2
    cases s with
    | nil => simp at hlen
    | cons c s =>
      rw [List.take_append_eq_append_take, List.take_of_length_le (by omega)]
      have hc : (e ++ c :: s).getD e.length 0 = c := by
        rw [List.getD_eq_getElem?_getD, List.getElem?_append_right (Nat.le_refl _),
          Nat.sub_self]
        simp
      rw [hc]
      simp
  have hpar : par ENT gx = e := par_of_append ENT gx e _ (hgxe.trans hxe)
  obtain ⟨g1, g2⟩ := (hn.mem gx hgx).mp hpar
  have hfirst : gx = a := by
    by_contra hc
    have hlt : a < gx := by omega
    obtain ⟨u0, hu0, hpre0⟩ := F.entry_pfx ha
    have he0 : e <+: u0 := by
      have : e <+: ENT.getD a [] := by rw [hea]; exact List.prefix_append _ _
      exact this.trans hpre0
    have h1 := hu3 u0 hu0 he0
    have h2 := F.lt_of_pos hlt hgx
    have hl2 : (ENT.getD a []).length = (ENT.getD gx []).length := by
      rw [hea, hgxe, hxe]; simp
    rcases h2 with h2 | ⟨_, h2⟩
    · omega
    · have h3 := strLt_of_take h2 hl2 hpre0 (hgxe ▸ List.take_prefix _ _)
      rw [strLe, h3] at h1
      exact Bool.noConfusion h1
  subst hfirst
  refine ⟨hu1, hgxe ▸ List.take_prefix _ _, ?_⟩
  intro w hw hpw
  apply hu3 w hw
  have : e <+: ENT.getD gx [] := by rw [hea]; exact List.prefix_append _ _
  exact this.trans hpw

theorem set_true_of_getD (l : List Bool) (m : Nat) (h : l[m]? = some true) :
    l.set m true = l := by
  apply List.ext_getElem?
  intro q
  rw [List.getElem?_set]
  split
  · rename_i e
    subst e
    have : m < l.length := by
      by_contra hc
      rw [List.getElem?_eq_none (by omega)] at h
      exact Option.noConfusion h
    simp [this, h]
  · rfl

/-- The contract of `rankValuePosition` at a terminal position. -/
theorem rankValuePosition_spec {t : LoudsSparse} {TV : List (List Nat × Nat)}
    {ENT : List (List Nat)} (R : TRepr t TV ENT) (F : FlatTrie TV ENT) (it : Iter) (g : Nat)
    (hok : ItOK t it) (hk : 0 < it.key_len_) (hk2 : it.key_len_ ≤ t.height_)
    (hg : g < ENT.length) (hleaf : ENT.getD g [] ∈ keysOf TV) :
    ∃ it1, it.rankValuePosition t g = some it1 ∧
      ValStep TV ENT it it1 (it.key_len_ - 1) g ∧
      it1.key_ = it.key_ ∧ it1.pos_in_trie_ = it.pos_in_trie_ ∧ it1.key_len_ = it.key_len_ ∧
      it1.is_valid_ = it.is_valid_ ∧ it1.is_at_terminator_ = it.is_at_terminator_ ∧
      it1.start_node_num_ = it.start_node_num_ := by
  have hd : decr32 it.key_len_ = it.key_len_ - 1 := by
    simp only [decr32]; rw [if_neg (by omega)]
  have hm : it.key_len_ - 1 < it.value_pos_initialized_.length := by rw [hok.ilen]; omega
  have hm2 : it.key_len_ - 1 < it.value_pos_.length := by rw [hok.vlen]; omega
  have hi := getD_of_lt it.value_pos_initialized_ _ false hm
  have hv := getD_of_lt it.value_pos_ _ 0 hm2
  cases hb : it.value_pos_initialized_.getD (it.key_len_ - 1) false with
  | true =>
    rw [hb] at hi
    refine ⟨{ it with
        value_pos_ := it.value_pos_.set (it.key_len_ - 1)
          (it.value_pos_.getD (it.key_len_ - 1) 0 + 1) }, ?_, ⟨?_, ?_⟩, rfl, rfl, rfl, rfl,
        rfl, rfl⟩
    · simp only [Iter.rankValuePosition, hd, hi, hv, Option.bind_eq_bind, Option.some_bind,
        if_true]
    · exact (set_true_of_getD _ _ hi).symm
    · simp only [hb, if_true]
  | false =>
    rw [hb] at hi
    obtain ⟨v, hlook⟩ := Option.isSome_iff_exists.mp ((lookup_isSome_iff TV _).mpr hleaf)
    have hr := (F.value_at hg v hlook).1
    have k1 : check (decide (it.key_len_ - 1 < it.value_pos_.length)) = some () := by
      simp only [check, hm2, decide_True, if_true]
    have k2 : check (decide (rankL (chOf TV ENT) g ≤ g)) = some () := by
      simp only [check, hr, decide_True, if_true]
    refine ⟨{ it with
        value_pos_initialized_ := it.value_pos_initialized_.set (it.key_len_ - 1) true
        value_pos_ := it.value_pos_.set (it.key_len_ - 1) (g - rankL (chOf TV ENT) g) }, ?_,
        ⟨rfl, ?_⟩, rfl, rfl, rfl, rfl, rfl, rfl⟩
    · simp only [Iter.rankValuePosition, hd, hi, Option.bind_eq_bind, Option.some_bind,
        Bool.false_eq_true, if_false, k1, R.ch.rank_eq, k2]
    · simp only [hb, Bool.false_eq_true, if_false, vidx]

end FST

namespace FST

theorem height_eq (t : LoudsSparse) : t.getHeight = t.height_ := rfl

/-- The loop of `moveToLeftMostKey`: from an internal path it descends along the first
labels to the least key below the path. -/
theorem leftLoop_spec {t : LoudsSparse} {TV : List (List Nat × Nat)} {ENT : List (List Nat)}
    (R : TRepr t TV ENT) (F : FlatTrie TV ENT) (u : List Nat) :
    ∀ (n fuel : Nat) (it : Iter) (e : List Nat) (g : Nat), e.length + n = t.height_ →
      n < fuel → ItOK t it → OnPath ENT it e → g < ENT.length → ENT.getD g [] = e →
      (chOf TV ENT).getD g false = true → IsLeastWith TV e u →
      ∃ it1, Iter.moveToLeftMostKeyLoop t fuel it (e.length - 1) g = some it1 ∧
        Landed t TV ENT it it1 u := by
  intro n
  induction n with
  | zero =>
    intro fuel it e g hn _ _ _ hg hge hch _
    exfalso
    obtain ⟨a, b, _, hnode⟩ := F.child_node hg hch
    obtain ⟨ha, hea⟩ := F.node_first hnode
    have := R.height _ (getD_mem ENT a ha)
    rw [hea, hge] at this
    simp at this
    omega
  | succ n ih =>
    intro fuel it e g hn hf hok hp hg hge hch hu
    obtain ⟨f, rfl⟩ : ∃ f, fuel = f + 1 := ⟨fuel - 1, by omega⟩
    have hene : e ≠ [] := hge ▸ F.ne_nil hg
    have hpos : 0 < e.length := List.length_pos.mpr hene
    have hlev : e.length - 1 < t.getHeight := by rw [height_eq]; omega
    obtain ⟨a, b, hsel, hnode⟩ := F.child_node hg hch
    rw [hge] at hnode
    obtain ⟨ha, hea⟩ := F.node_first hnode
    have hnk : e ∉ keysOf TV := by
      have := (F.ch_true_iff hg).mp hch
      rw [hge] at this; exact this
    have hu2 := least_child F hnode hu hnk
    have hfirst : t.getFirstLabelPos (t.getChildNodeNum g) = some a := by
      rw [R.childNum, R.firstLabelPos]; exact hsel
    have hlab := R.readLab ha
    have h255 := R.term_flag F ha
    obtain ⟨it1, e1, p1, ok1, s1⟩ := hp.append_ok hok ((labOf ENT).getD a 0) a (by omega) ha hea
    cases hca : (chOf TV ENT).getD a false with
    | false =>
      have hleaf : ENT.getD a [] ∈ keysOf TV := (F.ch_false_iff ha).mp hca
      have hue : u = ENT.getD a [] := least_leaf F hleaf hu2
      have hk1 : it1.key_len_ = e.length + 1 := by rw [p1.1]; simp
      obtain ⟨it2, e2, v2, a1, a2, a3, a4, a5, a6⟩ :=
        rankValuePosition_spec R F it1 a ok1 (by omega) (by omega) ha hleaf
      refine ⟨{ it2 with is_valid_ := true }, ?_, ?_⟩
      · simp only [Iter.moveToLeftMostKeyLoop, hlev, if_true, hfirst, hlab, R.readCh ha, hca,
          Option.bind_eq_bind, Option.some_bind, Bool.not_false, e1, h255, Bool.false_eq_true,
          if_false, e2]
      · have hul : u.length - 1 = it1.key_len_ - 1 := by rw [hue, hea, hk1]; simp
        refine ⟨?_, ?_, rfl, ?_, hue ▸ hleaf, a, ha, hue.symm, ?_⟩
        · rw [hue, hea]
          refine ⟨by show it2.key_len_ = _; rw [a3]; exact p1.1, ?_⟩
          intro l hl
          have := p1.2 l hl
          show it2.key_[l]? = _ ∧ ∃ g, it2.pos_in_trie_[l]? = some g ∧ _
          rw [a1, a2]; exact this
        · exact ⟨by show it2.key_.length = _; rw [a1]; exact ok1.klen,
            by show it2.pos_in_trie_.length = _; rw [a2]; exact ok1.plen,
            by show it2.value_pos_.length = _; rw [v2.2]; simp [ok1.vlen],
            by show it2.value_pos_initialized_.length = _; rw [v2.1]; simp [ok1.ilen],
            by show it2.start_node_num_ = _; rw [a6]; exact ok1.snn⟩
        · show it2.is_at_terminator_ = _
          rw [a5, s1.term]
        · rw [hul]
          refine ⟨?_, ?_⟩
          · show it2.value_pos_initialized_ = _
            rw [v2.1, s1.vi]
          · show it2.value_pos_ = _
            rw [v2.2, s1.vi, s1.vp]
    | true =>
      have hlen2 : (e ++ [(labOf ENT).getD a 0]).length = e.length + 1 := by simp
      obtain ⟨it3, e3, L3⟩ := ih f it1 (e ++ [(labOf ENT).getD a 0]) a (by omega) (by omega)
        ok1 p1 ha hea hca (hea ▸ hu2)
      refine ⟨it3, ?_, ?_⟩
      · rw [hlen2, Nat.add_sub_cancel] at e3
        have hl1 : e.length - 1 + 1 = e.length := by omega
        simp only [Iter.moveToLeftMostKeyLoop, hlev, if_true, hfirst, hlab, R.readCh ha, hca,
          Option.bind_eq_bind, Option.some_bind, Bool.not_true, Bool.false_eq_true, if_false,
          e1, hl1, e3]
      · obtain ⟨gv, b1, b2, b3⟩ := L3.val
        refine ⟨L3.path, L3.ok, L3.valid, L3.term.trans s1.term, L3.key, gv, b1, b2, ?_⟩
        refine ⟨?_, ?_⟩
        · rw [b3.1, s1.vi]
        · rw [b3.2, s1.vi, s1.vp]

end FST

namespace FST

theorem Landed.of_sameAux {t : LoudsSparse} {TV : List (List Nat × Nat)}
    {ENT : List (List Nat)} {it it0 it1 : Iter} {u : List Nat} (s : SameAux it it0)
    (L : Landed t TV ENT it0 it1 u) : Landed t TV ENT it it1 u := by
  obtain ⟨gv, b1, b2, b3⟩ := L.val
  refine ⟨L.path, L.ok, L.valid, L.term.trans s.term, L.key, gv, b1, b2, ?_, ?_⟩
  · rw [b3.1, s.vi]
  · rw [b3.2, s.vi, s.vp]

/-- From a path `e` of the trie, `moveToLeftMostKey` reaches the least stored key that
extends `e`. -/
theorem leftmost_from_path {t : LoudsSparse} {TV : List (List Nat × Nat)}
    {ENT : List (List Nat)} (R : TRepr t TV ENT) (F : FlatTrie TV ENT) (it : Iter)
    (e u : List Nat) (hok : ItOK t it) (hp : OnPath ENT it e) (he : e ≠ [])
    (hu : IsLeastWith TV e u) :
    ∃ it1, it.moveToLeftMostKey t = some it1 ∧ Landed t TV ENT it it1 u := by
  have hpos : 0 < e.length := List.length_pos.mpr he
  obtain ⟨g, hcur, hg, hge⟩ := hp.cur he
  have hk0 : (it.key_len_ == 0) = false := by
    rw [hp.1, beq_eq_false_iff_ne]; omega
  have hlab := R.readLab hg
  have h255 := R.term_flag F hg
  have hH : e.length ≤ t.height_ := by
    have := R.height _ (getD_mem ENT g hg)
    rw [hge] at this; exact this
  cases hca : (chOf TV ENT).getD g false with
  | false =>
    have hleaf : ENT.getD g [] ∈ keysOf TV := (F.ch_false_iff hg).mp hca
    have hue : u = e := least_leaf F (hge ▸ hleaf) hu
    have okv : ItOK t { it with is_at_terminator_ := it.is_at_terminator_, is_valid_ := true } :=
      ⟨hok.klen, hok.plen, hok.vlen, hok.ilen, hok.snn⟩
    obtain ⟨it2, e2, v2, a1, a2, a3, a4, a5, a6⟩ :=
      rankValuePosition_spec R F
        { it with is_at_terminator_ := it.is_at_terminator_, is_valid_ := true } g okv
        (by show 0 < it.key_len_; rw [hp.1]; exact hpos)
        (by show it.key_len_ ≤ _; rw [hp.1]; exact hH) hg hleaf
    refine ⟨it2, ?_, ?_⟩
    · simp only [Iter.moveToLeftMostKey, hk0, Bool.false_eq_true, if_false, Option.bind_eq_bind,
        Option.some_bind, hcur, hlab, R.readCh hg, hca, Bool.not_false, if_true, h255, e2]
    · subst hue
      refine ⟨?_, ?_, a4, a5, hge ▸ hleaf, g, hg, hge, ?_⟩
      · refine ⟨by rw [a3]; exact hp.1, ?_⟩
        intro l hl
        rw [a1, a2]; exact hp.2 l hl
      · exact ⟨by rw [a1]; exact hok.klen, by rw [a2]; exact hok.plen,
          by rw [v2.2]; simp; exact hok.vlen, by rw [v2.1]; simp; exact hok.ilen,
          by rw [a6]; exact hok.snn⟩
      · have : u.length - 1 = it.key_len_ - 1 := by rw [hp.1]
        rw [this]
        exact v2
  | true =>
    have hnk : e ∉ keysOf TV := by
      have := (F.ch_true_iff hg).mp hca
      rw [hge] at this; exact this
    obtain ⟨it1, e1, L1⟩ := leftLoop_spec R F u (t.height_ - e.length) (t.getHeight + 1) it e g
      (by omega) (by rw [height_eq]; omega) hok hp hg hge hca hu
    refine ⟨it1, ?_, L1⟩
    have hd : decr32 it.key_len_ = e.length - 1 := by
      rw [hp.1]; simp only [decr32]; rw [if_neg (by omega)]
    rw [hd] at hcur
    simp only [Iter.moveToLeftMostKey, hk0, Bool.false_eq_true, if_false, Option.bind_eq_bind,
      Option.some_bind, hd, hcur, hlab, R.readCh hg, hca, Bool.not_true, e1]

/-- From the fresh iterator, `moveToLeftMostKey` reaches the least stored key. -/
theorem leftmost_fresh {t : LoudsSparse} {TV : List (List Nat × Nat)}
    {ENT : List (List Nat)} (R : TRepr t TV ENT) (F : FlatTrie TV ENT) (it : Iter)
    (u : List Nat) (hok : ItOK t it) (hp : OnPath ENT it []) (hu : IsLeastWith TV [] u) :
    ∃ it1, it.moveToLeftMostKey t = some it1 ∧ Landed t TV ENT it it1 u := by
  obtain ⟨b, hroot⟩ := F.root_node
  obtain ⟨ha, hea⟩ := F.node_first hroot
  have hnk : [] ∉ keysOf TV := fun h => F.keyne [] h rfl
  have hu2 := least_child F hroot hu hnk
  have hsel : (ones (loOf ENT))[0]? = some 0 :=
    FlatTrie.ones_head _ F.lo_zero (by rw [loOf_length]; exact F.length_pos)
  have hfirst : t.getFirstLabelPos it.start_node_num_ = some 0 := by
    rw [hok.snn, R.firstLabelPos]; exact hsel
  have hH : 0 < t.height_ := by
    have := R.height _ (getD_mem ENT 0 ha)
    rw [hea] at this
    simp at this
    omega
  obtain ⟨it0, e0, p0, ok0, s0⟩ :=
    hp.append_ok hok ((labOf ENT).getD 0 0) 0 (by simpa using hH) ha (by simpa using hea)
  simp only [List.nil_append] at p0 hea
  obtain ⟨it1, e1, L1⟩ := leftmost_from_path R F it0 _ u ok0 p0 (by simp) (hea ▸ hu2)
  refine ⟨it1, ?_, L1.of_sameAux s0⟩
  have hk0 : (it.key_len_ == 0) = true := by rw [hp.1]; rfl
  have e1b := e1
  simp only [Iter.moveToLeftMostKey, Option.bind_eq_bind] at e1b ⊢
  simp only [hk0, if_true, hfirst, Option.some_bind, R.readLab ha, e0]
  have hk1 : (it0.key_len_ == 0) = false := by rw [p0.1]; rfl
  simp only [hk1, Bool.false_eq_true, if_false, Option.some_bind] at e1b
  exact e1b

end FST

namespace FST

theorem strLt_of_take_lt {u w : List Nat} (k : Nat)
    (h : strLt (u.take k) (w.take k) = true) : strLt u w = true := by
  by_contra hc
  have hle : strLe w u := by simpa [strLe] using hc
  have := take_mono_le k hle
  rw [strLe, h] at this
  exact Bool.noConfusion this

theorem strLt_proper_false (p : List Nat) (x : Nat) (r : List Nat) :
    strLt (p ++ x :: r) p = false := by
  have : strLt p (p ++ x :: r) = true :=
    strLt_of_pfx (List.prefix_append _ _) (by
      intro e
      have := congrArg List.length e
      simp at this)
  exact strLt_asymm this

theorem above_init {TV : List (List Nat × Nat)} {ENT : List (List Nat)} (F : FlatTrie TV ENT)
    {t : List Nat} (ht : t ∈ keysOf TV) : Above TV t t.length := by
  intro w hw hlt
  have h1 := take_mono t.length hlt
  rw [List.take_length] at h1 ⊢
  rcases (strLe_iff _ _).mp h1 with h2 | h2
  · exfalso
    have hp : t <+: w := by rw [h2]; exact List.take_prefix _ _
    have := F.pfree t ht w hw hp
    rw [this, strLt_irrefl] at hlt
    exact Bool.noConfusion hlt
  · exact h2

theorem above_zero {TV : List (List Nat × Nat)} {t : List Nat} (h : Above TV t 0) :
    ∀ w ∈ keysOf TV, ¬ strLt t w = true := by
  intro w hw hlt
  have := h w hw hlt
  simp [strLt] at this

theorem last_of_lo {TV : List (List Nat × Nat)} {ENT : List (List Nat)} (F : FlatTrie TV ENT)
    {g : Nat} (hg : g < ENT.length)
    (h : ENT.length ≤ g + 1 ∨ (loOf ENT).getD (g + 1) false = true) : LastInNode ENT g := by
  intro g2 h1 h2 he
  rcases h with h | h
  · omega
  · have hg1 : g + 1 < ENT.length := by omega
    have := (FlatTrie.lo_true_iff ENT (g + 1) hg1).mp h
    rcases this with h3 | h3
    · omega
    · rw [Nat.add_sub_cancel] at h3
      exact h3 (F.par_between (show g ≤ g + 1 by omega) (show g + 1 ≤ g2 by omega) h2 he.symm)

theorem sibling_of_lo (ENT : List (List Nat)) {g : Nat} (hg1 : g + 1 < ENT.length)
    (h : (loOf ENT).getD (g + 1) false = false) : par ENT (g + 1) = par ENT g := by
  by_contra hc
  have := (FlatTrie.lo_true_iff ENT (g + 1) hg1).mpr (Or.inr (by rw [Nat.add_sub_cancel]; exact hc))
  rw [h] at this
  exact Bool.noConfusion this

/-- A key above `t` that agrees with `t` on `m - 1` bytes has its own entry of length `m`,
behind the entry of `t`. -/
theorem above_entry {TV : List (List Nat × Nat)} {ENT : List (List Nat)} (F : FlatTrie TV ENT)
    {t w : List Nat} {m g : Nat} (hm : 1 ≤ m) (hmt : m ≤ t.length)
    (hg : g < ENT.length) (hge : ENT.getD g [] = t.take m) (hw : w ∈ keysOf TV)
    (hlt : strLt (t.take m) (w.take m) = true)
    (heq : t.take (m - 1) = w.take (m - 1)) :
    ∃ g2, g < g2 ∧ g2 < ENT.length ∧ ENT.getD g2 [] = w.take m ∧ par ENT g2 = par ENT g := by
  have hwl : m ≤ w.length := by
    by_contra hc
    have h1 : w.length = m - 1 := by
      have := congrArg List.length heq
      simp only [List.length_take] at this
      omega
    have h2 : w.take m = w := List.take_of_length_le (by omega)
    have h3 : w = t.take (m - 1) := by
      rw [heq, List.take_of_length_le (by omega)]
    have h4 : t.take m = t.take (m - 1) ++ [t.getD (m - 1) 0] := by
      have := List.take_succ (l := t) (n := m - 1)
      rw [show m - 1 + 1 = m by omega] at this
      rw [this]
      congr 1
      have hlt2 : m - 1 < t.length := by omega
      simp [List.getD_eq_getElem?_getD, List.getElem?_eq_getElem hlt2]
    rw [h2, h3, h4, strLt_proper_false] at hlt
    exact Bool.noConfusion hlt
  have hne : w.take m ≠ [] := by
    intro e
    have := congrArg List.length e
    rw [List.length_take, List.length_nil] at this
    omega
  obtain ⟨g2, hg2, hge2⟩ := F.pos_of_pfx hne hw (List.take_prefix _ _)
  have hlv : lvlLt (ENT.getD g []) (ENT.getD g2 []) := by
    rw [hge, hge2]
    right
    refine ⟨?_, hlt⟩
    rw [List.length_take, List.length_take]; omega
  refine ⟨g2, F.pos_lt_of_lt hg hg2 hlv, hg2, hge2, ?_⟩
  simp only [par]
  rw [hge, hge2, List.dropLast_eq_take, List.dropLast_eq_take, List.take_take, List.take_take,
    List.length_take, List.length_take]
  rw [show min (min m w.length - 1) m = m - 1 by omega,
    show min (min m t.length - 1) m = m - 1 by omega]
  exact heq.symm

/-- Leaving a node at its last position keeps every larger key above. -/
theorem above_pop {TV : List (List Nat × Nat)} {ENT : List (List Nat)} (F : FlatTrie TV ENT)
    {t : List Nat} {m g : Nat} (hm : 1 ≤ m) (hmt : m ≤ t.length)
    (hg : g < ENT.length) (hge : ENT.getD g [] = t.take m) (hlast : LastInNode ENT g)
    (hab : Above TV t m) : Above TV t (m - 1) := by
  intro w hw hlt
  have h0 := hab w hw hlt
  have h1 := take_mono (m - 1) hlt
  rcases (strLe_iff _ _).mp h1 with h2 | h2
  · exfalso
    obtain ⟨g2, a1, a2, _, a4⟩ := above_entry F hm hmt hg hge hw h0 h2
    exact hlast g2 a1 a2 a4
  · exact h2

/-- The least key below the next sibling is the key that follows. -/
theorem succ_of_sibling {TV : List (List Nat × Nat)} {ENT : List (List Nat)}
    (F : FlatTrie TV ENT) {t u : List Nat} {m g : Nat} (hm : 1 ≤ m) (hmt : m ≤ t.length)
    (hg1 : g + 1 < ENT.length) (hge : ENT.getD g [] = t.take m)
    (hsib : par ENT (g + 1) = par ENT g) (hab : Above TV t m)
    (hu : IsLeastWith TV (ENT.getD (g + 1) []) u) : IsSucc TV t u := by
  obtain ⟨hu1, hu2, hu3⟩ := hu
  have hg : g < ENT.length := by omega
  have hlv := F.lt_of_pos (show g < g + 1 by omega) hg1
  have hlen : (ENT.getD (g + 1) []).length = m := by
    have h1 := congrArg List.length hsib
    rw [FlatTrie.par_length, FlatTrie.par_length, hge, List.length_take] at h1
    have h2 := F.ne_nil hg1
    have h3 := List.length_pos.mpr h2
    rw [show min m t.length = m by omega] at h1
    omega
  have hst : strLt (t.take m) (ENT.getD (g + 1) []) = true := by
    rcases hlv with h | ⟨_, h⟩
    · rw [hge, List.length_take, hlen] at h; omega
    · rw [hge] at h; exact h
  have hutake : u.take m = ENT.getD (g + 1) [] := by
    have := (prefix_iff_take _ _).mp hu2
    rw [hlen] at this; exact this
  refine ⟨hu1, ?_, ?_⟩
  · apply strLt_of_take_lt m
    rw [hutake]; exact hst
  · intro w hw hlt
    have h0 := hab w hw hlt
    by_contra hc
    have hwu : strLt w u = true := by
      rcases strLt_total u w with h | h | h
      · exact absurd (strLe_of_lt h) hc
      · exact absurd (h ▸ strLe_refl u) hc
      · exact h
    have h1 := take_mono m hwu
    rw [hutake] at h1
    -- the first `m - 1` bytes of `w` are those of `t`
    have hpre : t.take (m - 1) = w.take (m - 1) := by
      have hp1 : t.take (m - 1) <+: t.take m := take_prefix_take _ _ _ (by omega)
      have hp2 : t.take (m - 1) <+: ENT.getD (g + 1) [] := by
        have : par ENT (g + 1) <+: ENT.getD (g + 1) [] := FlatTrie.par_pfx ENT (g + 1)
        rw [hsib] at this
        simp only [par] at this
        rw [hge, List.dropLast_eq_take, List.take_take, List.length_take] at this
        rw [show min (min m t.length - 1) m = m - 1 by omega] at this
        exact this
      have := prefix_convex (strLe_of_lt h0) h1 hp1 hp2
      have h2 := (prefix_iff_take _ _).mp this
      rw [List.take_take, List.length_take] at h2
      rw [show min (min (m - 1) t.length) m = m - 1 by omega] at h2
      exact h2.symm
    obtain ⟨g2, a1, a2, a3, _⟩ := above_entry F hm hmt hg hge hw h0 hpre
    have h3 : lvlLe (ENT.getD (g + 1) []) (ENT.getD g2 []) := F.le_of_pos (by omega) a2
    rw [a3] at h3
    rcases h3 with h3 | h3
    · have : ENT.getD (g + 1) [] <+: w := by rw [h3]; exact List.take_prefix _ _
      exact hc (hu3 w hw this)
    · rcases h3 with h3 | ⟨_, h3⟩
      · have := FST.lvlLt_irrefl
        rw [hlen, List.length_take] at h3
        omega
      · rw [strLe, h3] at h1
        exact Bool.noConfusion h1

end FST

namespace FST

theorem exists_least_of_sorted (T : List (List Nat)) (P : List Nat → Prop)
    (hs : T.Pairwise (fun a b => strLt a b = true)) (h : ∃ w ∈ T, P w) :
    ∃ u ∈ T, P u ∧ ∀ w ∈ T, P w → strLe u w := by
  classical
  induction T with
  | nil => obtain ⟨w, hw, _⟩ := h; simp at hw
  | cons x xs ih =>
    rw [List.pairwise_cons] at hs
    by_cases hx : P x
    · refine ⟨x, List.mem_cons_self _ _, hx, ?_⟩
      intro w hw _
      rcases List.mem_cons.mp hw with e | e
      · rw [e]; exact strLe_refl _
      · exact strLe_of_lt (hs.1 w e)
    · have h2 : ∃ w ∈ xs, P w := by
        obtain ⟨w, hw, hp⟩ := h
        rcases List.mem_cons.mp hw with e | e
        · rw [e] at hp; exact absurd hp hx
        · exact ⟨w, e, hp⟩
      obtain ⟨u, hu, hpu, hmin⟩ := ih hs.2 h2
      refine ⟨u, List.mem_cons_of_mem _ hu, hpu, ?_⟩
      intro w hw hp
      rcases List.mem_cons.mp hw with e | e
      · rw [e] at hp; exact absurd hp hx
      · exact hmin w e hp

theorem exists_least {TV : List (List Nat × Nat)} {ENT : List (List Nat)} (F : FlatTrie TV ENT)
    {g : Nat} (hg : g < ENT.length) : ∃ u, IsLeastWith TV (ENT.getD g []) u := by
  obtain ⟨w, hw, hp⟩ := F.entry_pfx hg
  obtain ⟨u, h1, h2, h3⟩ := exists_least_of_sorted (keysOf TV) (fun w => ENT.getD g [] <+: w)
    F.sortedT ⟨w, hw, hp⟩
  exact ⟨u, h1, h2, h3⟩

/-- The loop of `operator++`: it leaves the nodes whose last position the path holds, and
stops at the next sibling; when every level is left there is no larger key. -/
theorem incrLoop_spec {t : LoudsSparse} {TV : List (List Nat × Nat)} {ENT : List (List Nat)}
    (R : TRepr t TV ENT) (F : FlatTrie TV ENT) (k : List Nat) :
    ∀ (m fuel : Nat) (it : Iter) (g : Nat), 1 ≤ m → m ≤ k.length → m < fuel →
      ItOK t it → OnPath ENT it (k.take m) → g < ENT.length → ENT.getD g [] = k.take m →
      Above TV k m →
      (∃ m2 it1 g2, 1 ≤ m2 ∧ m2 ≤ m ∧
        Iter.incrLoop t fuel it (g + 1) = some (it1, some (g2 + 1)) ∧
        OnPath ENT it1 (k.take m2) ∧ ItOK t it1 ∧ SameAux it it1 ∧ g2 + 1 < ENT.length ∧
        ENT.getD g2 [] = k.take m2 ∧ par ENT (g2 + 1) = par ENT g2 ∧ Above TV k m2) ∨
      (∃ it1, Iter.incrLoop t fuel it (g + 1) = some (it1, none) ∧ it1.is_valid_ = false ∧
        it1.key_len_ = 0 ∧ ItOK t it1 ∧ it1.is_at_terminator_ = it.is_at_terminator_ ∧
        Above TV k 0) := by
  intro m
  induction m with
  | zero => intro fuel it g h; omega
  | succ m ih =>
    intro fuel it g _ hmk hf hok hp hg hge hab
    obtain ⟨f, rfl⟩ : ∃ f, fuel = f + 1 := ⟨fuel - 1, by omega⟩
    have hlen : (k.take (m + 1)).length = m + 1 := by rw [List.length_take]; omega
    by_cases hpop : ENT.length ≤ g + 1 ∨ (loOf ENT).getD (g + 1) false = true
    · -- the position is the last of its node
      have hpopv : (if g + 1 ≥ t.louds_bits_.numBits then some true
          else t.louds_bits_.readBit (g + 1)) = some true := by
        rw [R.numBits_lo]
        rcases hpop with h | h
        · rw [if_pos h]
        · by_cases c : g + 1 ≥ ENT.length
          · rw [if_pos c]
          · rw [if_neg c, R.readLo (by omega), h]
      have hlast := last_of_lo F hg hpop
      have hab2 := above_pop F (by omega) hmk hg hge hlast hab
      rw [Nat.add_sub_cancel] at hab2
      have hp2 := hp.pop (by intro e; rw [e] at hlen; simp at hlen)
      have hdl : (k.take (m + 1)).dropLast = k.take m := by
        rw [List.dropLast_eq_take, hlen, List.take_take]
        simp
      rw [hdl] at hp2
      have hkl : decr32 it.key_len_ = m := by
        rw [hp.1, hlen]; simp [decr32]
      by_cases hm0 : m = 0
      · right
        subst hm0
        refine ⟨{ it with key_len_ := decr32 it.key_len_, is_valid_ := false }, ?_, rfl, hkl,
          ⟨hok.klen, hok.plen, hok.vlen, hok.ilen, hok.snn⟩, rfl, hab2⟩
        simp only [Iter.incrLoop, hpopv, Option.bind_eq_bind, Option.some_bind, if_true, hkl,
          beq_self_eq_true]
      · have hk0 : (decr32 it.key_len_ == 0) = false := by
          rw [hkl, beq_eq_false_iff_ne]; exact hm0
        have ok2 : ItOK t { it with key_len_ := decr32 it.key_len_ } :=
          ⟨hok.klen, hok.plen, hok.vlen, hok.ilen, hok.snn⟩
        have hne2 : k.take m ≠ [] := by
          intro e
          have := congrArg List.length e
          rw [List.length_take, List.length_nil] at this
          omega
        obtain ⟨g1, hcur, hg1, hge1⟩ := hp2.cur hne2
        have hcur2 : it.pos_in_trie_[decr32 (decr32 it.key_len_)]? = some g1 := hcur
        rcases ih f { it with key_len_ := decr32 it.key_len_ } g1 (by omega) (by omega)
          (by omega) ok2 hp2 hg1 hge1 hab2 with
          ⟨m2, it1, g2, b1, b2, b3, b4, b5, b6, b7, b8, b9, b10⟩ |
          ⟨it1, b1, b2, b3, b4, b5, b6⟩
        · left
          refine ⟨m2, it1, g2, b1, by omega, ?_, b4, b5,
            ⟨b6.vp, b6.vi, b6.term, b6.valid⟩, b7, b8, b9, b10⟩
          simp only [Iter.incrLoop, hpopv, Option.bind_eq_bind, Option.some_bind, if_true,
            hk0, Bool.false_eq_true, if_false, hcur2, b3]
        · right
          refine ⟨it1, ?_, b2, b3, b4, b5, b6⟩
          simp only [Iter.incrLoop, hpopv, Option.bind_eq_bind, Option.some_bind, if_true,
            hk0, Bool.false_eq_true, if_false, hcur2, b1]
    · -- the next position is a sibling
      left
      have hg1 : g + 1 < ENT.length := by
        by_contra hc; exact hpop (Or.inl (by omega))
      have hlo : (loOf ENT).getD (g + 1) false = false := by
        cases h : (loOf ENT).getD (g + 1) false with
        | true => exact absurd (Or.inr h) hpop
        | false => rfl
      have hpopv : (if g + 1 ≥ t.louds_bits_.numBits then some true
          else t.louds_bits_.readBit (g + 1)) = some false := by
        rw [R.numBits_lo, if_neg (by omega), R.readLo hg1, hlo]
      refine ⟨m + 1, it, g, by omega, Nat.le_refl _, ?_, hp, hok, sameAux_refl it, hg1, hge,
        sibling_of_lo ENT hg1 hlo, hab⟩
      simp only [Iter.incrLoop, hpopv, Option.bind_eq_bind, Option.some_bind,
        Bool.false_eq_true, if_false]

end FST

namespace FST

/-- The contract of `operator++` on an iterator that holds the stored key `k`: it lands on
the stored key that follows `k`, or, when `k` is the largest key, becomes invalid with key
length 0. -/
theorem incr_spec {t : LoudsSparse} {TV : List (List Nat × Nat)} {ENT : List (List Nat)}
    (R : TRepr t TV ENT) (F : FlatTrie TV ENT) (it : Iter) (k : List Nat)
    (hok : ItOK t it) (hp : OnPath ENT it k) (hk : k ∈ keysOf TV) :
    (∃ u it1, IsSucc TV k u ∧ it.incr t = some it1 ∧
      Landed t TV ENT { it with is_at_terminator_ := false } it1 u) ∨
    ((∀ w ∈ keysOf TV, ¬ strLt k w = true) ∧ ∃ it1, it.incr t = some it1 ∧
      it1.is_valid_ = false ∧ it1.key_len_ = 0 ∧ ItOK t it1) := by
  have hne : k ≠ [] := F.keyne k hk
  have hpos : 0 < k.length := List.length_pos.mpr hne
  have k1 : check (decide (it.key_len_ > 0)) = some () := by
    have : it.key_len_ > 0 := by rw [hp.1]; exact hpos
    simp only [check, this, decide_True, if_true]
  have hok1 : ItOK t { it with is_at_terminator_ := false } :=
    ⟨hok.klen, hok.plen, hok.vlen, hok.ilen, hok.snn⟩
  have hp1 : OnPath ENT { it with is_at_terminator_ := false } k := hp
  obtain ⟨g, hcur, hg, hge⟩ := hp.cur hne
  have htk : k.take k.length = k := List.take_length k
  have hfuel : it.key_len_ + 1 = k.length + 1 := by rw [hp.1]
  rcases incrLoop_spec R F k k.length (k.length + 1) { it with is_at_terminator_ := false } g
      hpos (Nat.le_refl _) (Nat.lt_succ_self _) hok1 (by rw [htk]; exact hp1) hg
      (by rw [htk]; exact hge) (above_init F hk) with
    ⟨m2, it1, g2, b1, b2, b3, b4, b5, b6, b7, b8, b9, b10⟩ | ⟨it1, b1, b2, b3, b4, b5, b6⟩
  · left
    have hg2 : g2 < ENT.length := by omega
    have hne2 : k.take m2 ≠ [] := by
      intro e
      have := congrArg List.length e
      rw [List.length_take, List.length_nil] at this
      omega
    have hH : (k.take m2).length ≤ t.height_ := by
      have := R.height _ (getD_mem ENT g2 hg2)
      rw [b8] at this; exact this
    have hent : ENT.getD (g2 + 1) [] = (k.take m2).dropLast ++ [(labOf ENT).getD (g2 + 1) 0] := by
      have h1 := F.entry_eq b7
      rw [b9] at h1
      rw [← b8]
      exact h1
    obtain ⟨it2, c1, c2, c3, c4⟩ := b4.set_ok R b5 hne2 hH _ (g2 + 1) b7 hent
    rw [← hent] at c2
    obtain ⟨u, hu⟩ := exists_least F b7
    obtain ⟨it3, d1, d2⟩ := leftmost_from_path R F it2 _ u c3 c2 (F.ne_nil b7) hu
    refine ⟨u, it3, succ_of_sibling F b1 b2 b7 b8 b9 b10 hu, ?_,
      Landed.of_sameAux (sameAux_trans b6 c4) d2⟩
    simp only [Iter.incr, k1, Option.bind_eq_bind, Option.some_bind, hcur, hfuel, b3, c1, d1]
  · right
    refine ⟨above_zero b6, it1, ?_, b2, b3, b4⟩
    simp only [Iter.incr, k1, Option.bind_eq_bind, Option.some_bind, hcur, hfuel, b1]

/-- The fresh iterator of a trie holds the empty path. -/
theorem new_ok {t : LoudsSparse} {TV : List (List Nat × Nat)} {ENT : List (List Nat)}
    (R : TRepr t TV ENT) : ItOK t (Iter.new t) ∧ OnPath ENT (Iter.new t) [] := by
  refine ⟨⟨?_, ?_, ?_, ?_, rfl⟩, rfl, ?_⟩
  · simp [Iter.new, LoudsSparse.getHeight, LoudsSparse.getStartLevel, R.start]
  · simp [Iter.new, LoudsSparse.getHeight, LoudsSparse.getStartLevel, R.start]
  · simp [Iter.new, LoudsSparse.getHeight, LoudsSparse.getStartLevel, R.start]
  · simp [Iter.new, LoudsSparse.getHeight, LoudsSparse.getStartLevel, R.start]
  · intro l hl; simp at hl

end FST

namespace FST

theorem cntBefore_gap (f : Nat → Bool) (a : Nat) :
    ∀ b, a ≤ b → (∀ q, a ≤ q → q < b → f q = false) → cntBefore f b = cntBefore f a := by
  intro b
  induction b with
  | zero => intro h _; have : a = 0 := by omega
            subst this; rfl
  | succ b ih =>
    intro h hz
    by_cases hb : a = b + 1
    · subst hb; rfl
    · rw [cntBefore_succ, ih (by omega) (fun q h1 h2 => hz q h1 (by omega)),
        hz b (by omega) (by omega)]
      simp

theorem vidx_eq (TV : List (List Nat × Nat)) (ENT : List (List Nat)) (g : Nat)
    (h : (chOf TV ENT).getD g false = false) :
    vidx TV ENT g = cntBefore (fun q => !(chOf TV ENT).getD q false) g := by
  have h1 := cntBefore_not (fun q => (chOf TV ENT).getD q false) g
  have h2 := cntBefore_le (fun q => (chOf TV ENT).getD q false) g
  simp only [vidx, rankL]
  rw [cntBefore_succ]
  simp only [h, Bool.false_eq_true, if_false]
  omega

/-- Two stored keys with no stored key between their positions have consecutive value
indices. -/
theorem vidx_next {TV : List (List Nat × Nat)} {ENT : List (List Nat)} {g1 g2 : Nat}
    (h12 : g1 < g2) (h1 : (chOf TV ENT).getD g1 false = false)
    (h2 : (chOf TV ENT).getD g2 false = false)
    (hgap : ∀ q, g1 < q → q < g2 → (chOf TV ENT).getD q false = true) :
    vidx TV ENT g2 = vidx TV ENT g1 + 1 := by
  have e1 := vidx_eq TV ENT g1 h1
  have e2 := vidx_eq TV ENT g2 h2
  have e3 := cntBefore_gap (fun q => !(chOf TV ENT).getD q false) (g1 + 1) g2 (by omega)
    (fun q a b => by
      show (!(chOf TV ENT).getD q false) = false
      rw [hgap q (by omega) b]; rfl)
  rw [cntBefore_succ] at e3
  simp only [h1, Bool.not_false, if_true] at e3
  omega

theorem getD_set_eq {α : Type} (l : List α) (m : Nat) (x d : α) (h : m < l.length) :
    (l.set m x).getD m d = x := by
  simp [List.getD_eq_getElem?_getD, List.getElem?_set, h]

theorem getD_set_ne {α : Type} (l : List α) (m q : Nat) (x d : α) (h : m ≠ q) :
    (l.set m x).getD q d = l.getD q d := by
  simp [List.getD_eq_getElem?_getD, List.getElem?_set, h]

theorem vinv_congr {TV : List (List Nat × Nat)} {ENT : List (List Nat)} {it : Iter}
    {S S2 : List Nat → Prop} (h : ∀ w ∈ keysOf TV, S w ↔ S2 w) (hv : VInv TV ENT it S) :
    VInv TV ENT it S2 := by
  intro m
  constructor
  · intro hi
    obtain ⟨w, hw, a1, a2, a3, a4⟩ := (hv m).1 hi
    exact ⟨w, hw, a1, (h w hw).mp a2, fun w2 hw2 b1 b2 => a3 w2 hw2 b1 ((h w2 hw2).mpr b2), a4⟩
  · intro hi w hw a1 a2
    exact (hv m).2 hi w hw a1 ((h w hw).mpr a2)

/-- Landing on the next key in order keeps the value bookkeeping. -/
theorem vinv_step {TV : List (List Nat × Nat)} {ENT : List (List Nat)} (F : FlatTrie TV ENT)
    {it it1 : Iter} {S : List Nat → Prop} {u : List Nat} {g : Nat}
    (hv : VInv TV ENT it S) (hS1 : ∀ w ∈ keysOf TV, S w → strLt w u = true)
    (hS2 : ∀ w ∈ keysOf TV, ∀ x ∈ keysOf TV, S w → strLt w x = true → strLt x u = true → S x)
    (hu : u ∈ keysOf TV) (hg : g < ENT.length) (hge : ENT.getD g [] = u)
    (hl1 : u.length - 1 < it.value_pos_initialized_.length)
    (hl2 : u.length - 1 < it.value_pos_.length)
    (hs : ValStep TV ENT it it1 (u.length - 1) g) :
    VInv TV ENT it1 (fun w => S w ∨ w = u) := by
  have hune : u ≠ [] := F.keyne u hu
  have hupos : 0 < u.length := List.length_pos.mpr hune
  have hleS : ∀ w ∈ keysOf TV, w.length ≠ u.length → ((S w ∨ w = u) ↔ S w) := by
    intro w hw hlen
    constructor
    · rintro (h | h)
      · exact h
      · rw [h] at hlen; exact absurd rfl hlen
    · intro h; exact Or.inl h
  intro m
  by_cases hm : m = u.length - 1
  · subst hm
    have hi : it1.value_pos_initialized_.getD (u.length - 1) false = true := by
      rw [hs.1, getD_set_eq _ _ _ _ hl1]
    constructor
    · intro _
      refine ⟨u, hu, by omega, Or.inr rfl, ?_, g, hg, hge, ?_⟩
      · intro w2 hw2 _ h
        rcases h with h | h
        · exact strLe_of_lt (hS1 w2 hw2 h)
        · rw [h]; exact strLe_refl u
      rw [hs.2, getD_set_eq _ _ _ _ hl2]
      cases hb : it.value_pos_initialized_.getD (u.length - 1) false with
      | false => simp
      | true =>
        simp only [if_true]
        obtain ⟨w, hw, a1, a2, a3, gw, a4, a5, a6⟩ := (hv (u.length - 1)).1 hb
        rw [a6]
        have hwu : strLt w u = true := hS1 w hw a2
        have hlw : w.length = u.length := by omega
        have hgw : gw < g := by
          apply F.pos_lt_of_lt a4 hg
          rw [a5, hge]
          exact Or.inr ⟨hlw, hwu⟩
        symm
        apply vidx_next hgw
        · rw [chOf_getD TV ENT gw a4, a5]; simp [hw]
        · rw [chOf_getD TV ENT g hg, hge]; simp [hu]
        · intro q q1 q2
          have hq : q < ENT.length := by omega
          rw [chOf_getD TV ENT q hq]
          simp only [decide_eq_true_eq]
          intro hx
          have l1 := F.lt_of_pos q1 hq
          have l2 := F.lt_of_pos q2 hg
          rw [a5] at l1
          rw [hge] at l2
          have hxl : (ENT.getD q []).length = u.length := by
            rcases l1 with l1 | ⟨l1, _⟩ <;> rcases l2 with l2 | ⟨l2, _⟩ <;> omega
          have hwx : strLt w (ENT.getD q []) = true := by
            rcases l1 with l1 | ⟨_, l1⟩
            · omega
            · exact l1
          have hxu : strLt (ENT.getD q []) u = true := by
            rcases l2 with l2 | ⟨_, l2⟩
            · omega
            · exact l2
          have := a3 _ hx (by omega) (hS2 w hw _ hx a2 hwx hxu)
          rw [strLe, hwx] at this
          exact Bool.noConfusion this
    · intro h; rw [hi] at h; exact Bool.noConfusion h
  · have hi : it1.value_pos_initialized_.getD m false =
        it.value_pos_initialized_.getD m false := by
      rw [hs.1, getD_set_ne _ _ _ _ _ (Ne.symm hm)]
    have hvp : it1.value_pos_.getD m 0 = it.value_pos_.getD m 0 := by
      rw [hs.2, getD_set_ne _ _ _ _ _ (Ne.symm hm)]
    rw [hi, hvp]
    constructor
    · intro h
      obtain ⟨w, hw, a1, a2, a3, a4⟩ := (hv m).1 h
      refine ⟨w, hw, a1, (hleS w hw (by omega)).mpr a2, ?_, a4⟩
      intro w2 hw2 b1 b2
      exact a3 w2 hw2 b1 ((hleS w2 hw2 (by omega)).mp b2)
    · intro h w hw a1 a2
      exact (hv m).2 h w hw a1 ((hleS w hw (by omega)).mp a2)

end FST

namespace FST

theorem atKey_of_landed {t : LoudsSparse} {TV : List (List Nat × Nat)} {ENT : List (List Nat)}
    (R : TRepr t TV ENT) (F : FlatTrie TV ENT) {it it1 : Iter} {S : List Nat → Prop}
    {a u : List Nat} (L : Landed t TV ENT it it1 u) (hok : ItOK t it)
    (hterm : it.is_at_terminator_ = false) (hv : VInv TV ENT it S) (hau : strLe a u)
    (hS : ∀ w ∈ keysOf TV, S w ↔ strLe a w ∧ strLt w u = true) : AtKey t TV ENT it1 a u := by
  obtain ⟨g, hg, hge, hs⟩ := L.val
  have hH : u.length ≤ t.height_ := by
    have := R.height _ (getD_mem ENT g hg)
    rw [hge] at this; exact this
  have hpos : 0 < u.length := List.length_pos.mpr (F.keyne u L.key)
  refine ⟨⟨L.path, L.ok, L.key, hau, ?_⟩, L.valid, L.term.trans hterm⟩
  have h1 := vinv_step F hv (fun w hw h => ((hS w hw).mp h).2)
    (fun w hw x hx h h2 h3 =>
      (hS x hx).mpr ⟨strLe_trans ((hS w hw).mp h).1 (strLe_of_lt h2), h3⟩)
    L.key hg hge (by rw [hok.ilen]; omega) (by rw [hok.vlen]; omega) hs
  apply vinv_congr _ h1
  intro w hw
  rw [hS w hw]
  constructor
  · rintro (⟨h2, h3⟩ | h2)
    · exact ⟨h2, strLe_of_lt h3⟩
    · rw [h2]; exact ⟨hau, strLe_refl u⟩
  · rintro ⟨h2, h3⟩
    rcases (strLe_iff _ _).mp h3 with h4 | h4
    · exact Or.inr h4
    · exact Or.inl ⟨h2, h4⟩

/-- The fresh iterator is brought onto the least stored key by `moveToLeftMostKey`. -/
theorem atKey_first {t : LoudsSparse} {TV : List (List Nat × Nat)} {ENT : List (List Nat)}
    (R : TRepr t TV ENT) (F : FlatTrie TV ENT) (u : List Nat) (hu : u ∈ keysOf TV)
    (hmin : ∀ w ∈ keysOf TV, strLe u w) :
    ∃ it1, (Iter.new t).moveToLeftMostKey t = some it1 ∧ AtKey t TV ENT it1 u u := by
  obtain ⟨hok, hp⟩ := new_ok R
  obtain ⟨it1, h1, h2⟩ := leftmost_fresh R F (Iter.new t) u hok hp
    ⟨hu, List.nil_prefix, fun w hw _ => hmin w hw⟩
  refine ⟨it1, h1, atKey_of_landed (S := fun _ => False) R F h2 hok rfl ?_ (strLe_refl u) ?_⟩
  · intro m
    constructor
    · intro h
      exfalso
      simp only [Iter.new, List.getD_eq_getElem?_getD, List.getElem?_replicate] at h
      split at h <;> simp at h
    · intro _ w _ _ h; exact h
  · intro w hw
    constructor
    · intro h; exact h.elim
    · rintro ⟨h1, h2⟩
      rw [strLe, h2] at h1
      exact Bool.noConfusion h1

theorem le_iff_lt_succ {TV : List (List Nat × Nat)} {k u : List Nat} (hs : IsSucc TV k u) :
    ∀ w ∈ keysOf TV, strLe w k ↔ strLt w u = true := by
  intro w hw
  constructor
  · intro h; exact strLt_of_le_of_lt h hs.2.1
  · intro h
    by_contra hc
    have hkw : strLt k w = true := by
      cases hb : strLt k w with
      | true => rfl
      | false => exact absurd hb hc
    have := hs.2.2 w hw hkw
    rw [strLe, h] at this
    exact Bool.noConfusion this

theorem isSucc_unique {TV : List (List Nat × Nat)} {k u u2 : List Nat} (h1 : IsSucc TV k u)
    (h2 : IsSucc TV k u2) : u = u2 :=
  strLe_antisymm (h1.2.2 u2 h2.1 h2.2.1) (h2.2.2 u h1.1 h1.2.1)

/-- From a stored key, `operator++` goes to the stored key that follows. -/
theorem atKey_incr {t : LoudsSparse} {TV : List (List Nat × Nat)} {ENT : List (List Nat)}
    (R : TRepr t TV ENT) (F : FlatTrie TV ENT) {it : Iter} {a k u : List Nat}
    (h : HoldsKey t TV ENT it a k) (hs : IsSucc TV k u) :
    ∃ it1, it.incr t = some it1 ∧ AtKey t TV ENT it1 a u := by
  rcases incr_spec R F it k h.ok h.path h.key with ⟨u2, it1, a1, a2, a3⟩ | ⟨a1, _⟩
  · have := isSucc_unique a1 hs
    subst this
    refine ⟨it1, a2, atKey_of_landed (S := fun w => strLe a w ∧ strLe w k) R F a3
      ⟨h.ok.klen, h.ok.plen, h.ok.vlen, h.ok.ilen, h.ok.snn⟩ rfl h.vinv
      (strLe_trans h.first (strLe_of_lt a1.2.1)) ?_⟩
    intro w hw
    show strLe a w ∧ strLe w k ↔ _
    rw [le_iff_lt_succ a1 w hw]
  · exact absurd hs.2.1 (a1 u hs.1)

/-- From the largest stored key, `operator++` makes the iterator invalid. -/
theorem atKey_incr_last {t : LoudsSparse} {TV : List (List Nat × Nat)} {ENT : List (List Nat)}
    (R : TRepr t TV ENT) (F : FlatTrie TV ENT) {it : Iter} {a k : List Nat}
    (h : HoldsKey t TV ENT it a k) (hmax : ∀ w ∈ keysOf TV, strLe w k) :
    ∃ it1, it.incr t = some it1 ∧ it1.is_valid_ = false ∧ it1.key_len_ = 0 ∧ ItOK t it1 := by
  rcases incr_spec R F it k h.ok h.path h.key with ⟨u2, it1, a1, _, _⟩ | ⟨_, a2⟩
  · exfalso
    have := hmax u2 a1.1
    rw [strLe, a1.2.1] at this
    exact Bool.noConfusion this
  · exact a2

theorem atKey_getKey {t : LoudsSparse} {TV : List (List Nat × Nat)} {ENT : List (List Nat)}
    {it : Iter} {a u : List Nat} (h : AtKey t TV ENT it a u) : it.getKey = u := by
  simp only [Iter.getKey, h.valid, h.term, Bool.not_true, Bool.false_eq_true, if_false]
  exact h.holds.path.getKey_eq

theorem atKey_getValue {t : LoudsSparse} {TV : List (List Nat × Nat)} {ENT : List (List Nat)}
    (R : TRepr t TV ENT) (F : FlatTrie TV ENT) {it : Iter} {a u : List Nat} {v : Nat}
    (h : HoldsKey t TV ENT it a u) (hv : TV.lookup u = some v) : it.getValue t = some v := by
  have hpos : 0 < u.length := List.length_pos.mpr (F.keyne u h.key)
  have hd : decr32 it.key_len_ = u.length - 1 := by
    rw [h.path.1]; simp only [decr32]; rw [if_neg (by omega)]
  obtain ⟨g0, _, hg0, hge0⟩ := h.path.cur (F.keyne u h.key)
  have hH : u.length ≤ t.height_ := by
    have := R.height _ (getD_mem ENT g0 hg0)
    rw [hge0] at this; exact this
  have hinit : it.value_pos_initialized_.getD (u.length - 1) false = true := by
    cases hb : it.value_pos_initialized_.getD (u.length - 1) false with
    | true => rfl
    | false =>
      exact absurd ⟨h.first, strLe_refl u⟩ ((h.vinv (u.length - 1)).2 hb u h.key (by omega))
  obtain ⟨w, hw, a1, a2, a3, g, a4, a5, a6⟩ := (h.vinv (u.length - 1)).1 hinit
  have hwu : w = u := strLe_antisymm a2.2 (a3 u h.key (by omega) ⟨h.first, strLe_refl u⟩)
  subst hwu
  have hlt : w.length - 1 < it.value_pos_.length := by rw [h.ok.vlen]; omega
  have hvp : it.value_pos_[w.length - 1]? = some (vidx TV ENT g) := by
    rw [← a6, List.getD_eq_getElem?_getD, List.getElem?_eq_getElem hlt]; rfl
  rw [← a5] at hv
  have := (F.value_at a4 v hv).2
  simp only [Iter.getValue, hd, hvp, Option.bind_eq_bind, Option.some_bind, R.vals]
  exact this

end FST

namespace FST

theorem KeysOK.tK_le {keys : List (List Nat)} {L : Nat} (K : KeysOK keys L) (i j : Nat)
    (hij : i ≤ j) (hj : j < keys.length) : strLe (tK keys i) (tK keys j) := by
  rcases Nat.lt_or_eq_of_le hij with h | h
  · exact strLe_of_lt (K.tK_lt i j h hj)
  · rw [h]; exact strLe_refl _

theorem KeysOK.tK_isSucc {keys : List (List Nat)} {L : Nat} (K : KeysOK keys L)
    (values : List Nat) (i : Nat) (hi : i + 1 < keys.length) :
    IsSucc (tvOf keys values) (tK keys i) (tK keys (i + 1)) := by
  refine ⟨(mem_keysOf_tvOf keys values _).mpr ⟨i + 1, hi, rfl⟩,
    K.tK_lt i (i + 1) (Nat.lt_succ_self i) hi, ?_⟩
  intro w hw hlt
  obtain ⟨j, hj, rfl⟩ := (mem_keysOf_tvOf keys values _).mp hw
  by_cases hji : j ≤ i
  · have := K.tK_le j i hji (by omega)
    rw [strLe, hlt] at this
    exact Bool.noConfusion this
  · exact K.tK_le (i + 1) j (by omega) hj

theorem KeysOK.tK_least {keys : List (List Nat)} {L : Nat} (K : KeysOK keys L)
    (values : List Nat) : ∀ w ∈ keysOf (tvOf keys values), strLe (tK keys 0) w := by
  intro w hw
  obtain ⟨j, hj, rfl⟩ := (mem_keysOf_tvOf keys values _).mp hw
  exact K.tK_le 0 j (Nat.zero_le j) hj

theorem KeysOK.tK_greatest {keys : List (List Nat)} {L : Nat} (K : KeysOK keys L)
    (values : List Nat) :
    ∀ w ∈ keysOf (tvOf keys values), strLe w (tK keys (keys.length - 1)) := by
  intro w hw
  obtain ⟨j, hj, rfl⟩ := (mem_keysOf_tvOf keys values _).mp hw
  exact K.tK_le j _ (by omega) (by omega)

/-- Applying `operator++` `i` times to the iterator on the first key brings it onto the key
of index `i`. -/
theorem traverse {keys : List (List Nat)} {L : Nat} (K : KeysOK keys L) (values : List Nat)
    {t : LoudsSparse} (R : TRepr t (tvOf keys values) (entOf keys)) {it0 : Iter} {a : List Nat}
    (j : Nat) (h0 : AtKey t (tvOf keys values) (entOf keys) it0 a (tK keys j)) :
    ∀ i, j + i < keys.length → ∃ it, Iter.incrTimes t i it0 = some it ∧
      AtKey t (tvOf keys values) (entOf keys) it a (tK keys (j + i)) := by
  intro i
  induction i with
  | zero => intro _; exact ⟨it0, rfl, h0⟩
  | succ i ih =>
    intro hi
    obtain ⟨it, h1, h2⟩ := ih (by omega)
    obtain ⟨it1, h3, h4⟩ := atKey_incr R (K.flatTrie values) h2.holds
      (K.tK_isSucc values (j + i) (by omega))
    refine ⟨it1, ?_, h4⟩
    simp only [Iter.incrTimes, h1, Option.bind_eq_bind, Option.some_bind, h3]

/-- The whole forward traversal of a built trie. -/
theorem forward_traversal (keys : List (List Nat)) (values : List Nat) (L : Nat)
    (K : KeysOK keys L) (hv : values.length = keys.length)
    (hno : TermOK keys) :
    ∃ b t it0, FSTBuilder.new.buildSparse keys values = some b ∧
      LoudsSparse.new b keys = some t ∧ (Iter.new t).moveToLeftMostKey t = some it0 ∧
      (∀ i, i < keys.length → ∃ it, Iter.incrTimes t i it0 = some it ∧
        AtKey t (tvOf keys values) (entOf keys) it (tK keys 0) (tK keys i) ∧
        it.getValue t = some (values.getD i 0)) ∧
      ∃ it it1, Iter.incrTimes t (keys.length - 1) it0 = some it ∧ it.incr t = some it1 ∧
        it1.is_valid_ = false ∧ it1.key_len_ = 0 := by
  obtain ⟨b, t, hb, ht, R, _, _⟩ := build_repr keys values L K hv hno
  have F := K.flatTrie values
  have hn : 0 < keys.length := List.length_pos.mpr K.ne
  obtain ⟨it0, h0, A0⟩ := atKey_first R F (tK keys 0)
    ((mem_keysOf_tvOf keys values _).mpr ⟨0, hn, rfl⟩) (K.tK_least values)
  have T := traverse K values R 0 A0
  refine ⟨b, t, it0, hb, ht, h0, ?_, ?_⟩
  · intro i hi
    obtain ⟨it, h1, h2⟩ := T i (by omega)
    rw [Nat.zero_add] at h2
    exact ⟨it, h1, h2, atKey_getValue R F h2.holds (K.lookup_tK values i hi)⟩
  · obtain ⟨it, h1, h2⟩ := T (keys.length - 1) (by omega)
    rw [Nat.zero_add] at h2
    obtain ⟨it1, h3, h4, h5, _⟩ := atKey_incr_last R F h2.holds (K.tK_greatest values)
    exact ⟨it, it1, h1, h3, h4, h5⟩

end FST

namespace FST

theorem vinv_none_of_sameAux {TV : List (List Nat × Nat)} {ENT : List (List Nat)}
    {it0 it : Iter} (s : SameAux it0 it) (h : VInv TV ENT it0 (fun _ => False)) :
    VInv TV ENT it (fun _ => False) := by
  intro m
  rw [s.vi, s.vp]
  exact h m

/-- An iterator without value bookkeeping that is put on a stored key and ranked there
holds this key. -/
theorem holdsKey_fresh {t : LoudsSparse} {TV : List (List Nat × Nat)} {ENT : List (List Nat)}
    (R : TRepr t TV ENT) (F : FlatTrie TV ENT) {it it2 : Iter} {u : List Nat} {g : Nat}
    (hp : OnPath ENT it2 u) (hok2 : ItOK t it2)
    (hl1 : it.value_pos_initialized_.length = t.height_)
    (hl2 : it.value_pos_.length = t.height_) (hu : u ∈ keysOf TV)
    (hg : g < ENT.length) (hge : ENT.getD g [] = u) (hv : VInv TV ENT it (fun _ => False))
    (hs : ValStep TV ENT it it2 (u.length - 1) g) : HoldsKey t TV ENT it2 u u := by
  have hH : u.length ≤ t.height_ := by
    have := R.height _ (getD_mem ENT g hg)
    rw [hge] at this; exact this
  have hpos : 0 < u.length := List.length_pos.mpr (F.keyne u hu)
  refine ⟨hp, hok2, hu, strLe_refl u, ?_⟩
  have h1 := vinv_step F hv (fun w _ h => h.elim) (fun w _ x _ h _ _ => h.elim) hu hg hge
    (by rw [hl1]; omega) (by rw [hl2]; omega) hs
  apply vinv_congr _ h1
  intro w _
  constructor
  · rintro (h | h)
    · exact h.elim
    · rw [h]; exact ⟨strLe_refl u, strLe_refl u⟩
  · rintro ⟨h2, h3⟩
    exact Or.inr (strLe_antisymm h3 h2)

/-- The loop of `moveToKeyGreaterThan` on a probe that extends the stored key `u`: it walks
to the terminal position of `u`, ranks the value position there, and compares the probe
with the key that the value of `u` selects in the key list. -/
theorem mtkLoop_stored {t : LoudsSparse} {TV : List (List Nat × Nat)} {ENT : List (List Nat)}
    (R : TRepr t TV ENT) (F : FlatTrie TV ENT) (p : List Nat) (inclusive : Bool)
    (u : List Nat) (v : Nat) (fk : List Nat) (hu : u ∈ keysOf TV)
    (hv : TV.lookup u = some v) (hfk : t.keys_[v]? = some fk) (it0 : Iter)
    (hv0 : VInv TV ENT it0 (fun _ => False)) :
    ∀ (rest c : List Nat) (a b : Nat) (it : Iter), NodeOf ENT c a b → c <+: u → c ≠ u →
      u <+: c ++ rest → ItOK t it → OnPath ENT it c → SameAux it0 it →
      ∃ it2, HoldsKey t TV ENT it2 u u ∧ it2.is_at_terminator_ = it0.is_at_terminator_ ∧
        t.moveToKeyGreaterThanLoop p inclusive rest it a =
          (if strLt p fk then some ({ it2 with is_valid_ := true }, none)
           else if strLt fk p then (it2.incr t).bind fun it3 => some (it3, none)
           else if !inclusive then (it2.incr t).bind fun it3 => some (it3, none)
           else some ({ it2 with is_valid_ := true }, none)) := by
  intro rest
  induction rest with
  | nil =>
    intro c a b it _ h1 h2 h3
    rw [List.append_nil] at h3
    exact absurd (h1.eq_of_length_le h3.length_le) h2
  | cons x r ih =>
    intro c a b it hn h1 h2 h3 hok hp hs
    have hlen : c.length < u.length := by
      rcases Nat.lt_or_eq_of_le h1.length_le with h | h
      · exact h
      · exact absurd (h1.eq_of_length h) h2
    have hpre : c ++ [x] <+: u := by
      have e1 : c ++ x :: r = (c ++ [x]) ++ r := by simp
      rw [e1] at h3
      exact List.prefix_of_prefix_length_le (List.prefix_append _ _) h3 (by simp; omega)
    obtain ⟨g, hg, hge⟩ := F.pos_of_pfx (by simp) hu hpre
    obtain ⟨g1, g2, sz, hs1, hs2⟩ := R.search_entry F hn hg hge
    have hH : c.length < t.height_ := by
      have := R.height _ (getD_mem ENT g hg)
      rw [hge] at this
      simp at this
      omega
    obtain ⟨it1, e1, p1, ok1, s1⟩ := hp.append_ok hok x g hH hg hge
    rw [LoudsSparse.moveToKeyGreaterThanLoop]
    simp only [hs1, hs2, Option.bind_eq_bind, Option.some_bind, Bool.not_true,
      Bool.false_eq_true, if_false, e1, R.readCh hg]
    by_cases hkey : c ++ [x] ∈ keysOf TV
    · have heq : c ++ [x] = u := F.pfree _ hkey u hu hpre
      have hch := (F.ch_false_iff hg).mpr (by rw [hge]; exact hkey)
      have hk1 : it1.key_len_ = u.length := by rw [p1.1, heq]
      obtain ⟨it2, r1, r2, r3, r4, r5, r6, r7, r8⟩ := rankValuePosition_spec R F it1 g ok1
        (by rw [hk1]; omega) (by rw [p1.1]; simp; omega) hg (by rw [hge]; exact hkey)
      have ok2 : ItOK t it2 := by
        refine ⟨r3 ▸ ok1.klen, r4 ▸ ok1.plen, ?_, ?_, r8 ▸ ok1.snn⟩
        · rw [r2.2]; simp [ok1.vlen]
        · rw [r2.1]; simp [ok1.ilen]
      have p2 : OnPath ENT it2 u := by
        rw [← heq]
        refine ⟨r5 ▸ p1.1, ?_⟩
        intro l hl
        rw [r3, r4]
        exact p1.2 l hl
      have st : ValStep TV ENT it0 it2 (u.length - 1) g := by
        have s01 := sameAux_trans hs s1
        rw [hk1] at r2
        exact ⟨by rw [r2.1, s01.vi], by rw [r2.2, s01.vi, s01.vp]⟩
      have hl1 : it0.value_pos_initialized_.length = t.height_ := by
        rw [← hs.vi]; exact hok.ilen
      have hl2 : it0.value_pos_.length = t.height_ := by
        rw [← hs.vp]; exact hok.vlen
      have H : HoldsKey t TV ENT it2 u u :=
        holdsKey_fresh R F p2 ok2 hl1 hl2 hu hg (by rw [hge, heq]) hv0 st
      have hgv := atKey_getValue R F H hv
      refine ⟨it2, H, by rw [r7, s1.term, hs.term], ?_⟩
      simp only [hch, Bool.not_false, if_true, r1, Option.some_bind, hgv, hfk]
    · have hch := (F.ch_true_iff hg).mpr (by rw [hge]; exact hkey)
      obtain ⟨a2, b2, hsel, hn2⟩ := F.child_node hg hch
      simp only [hch, Bool.not_true, Bool.false_eq_true, if_false, R.childNum, R.firstLabelPos,
        hsel, Option.some_bind]
      rw [hge] at hn2
      exact ih (c ++ [x]) a2 b2 it1 hn2 hpre (fun e => hkey (e ▸ hu)) (by simpa using h3) ok1 p1
        (sameAux_trans hs s1)

theorem HoldsKey.set_valid {t : LoudsSparse} {TV : List (List Nat × Nat)}
    {ENT : List (List Nat)} {it : Iter} {a u : List Nat} (H : HoldsKey t TV ENT it a u)
    (hterm : it.is_at_terminator_ = false) :
    AtKey t TV ENT { it with is_valid_ := true } a u :=
  ⟨⟨H.path, ⟨H.ok.klen, H.ok.plen, H.ok.vlen, H.ok.ilen, H.ok.snn⟩, H.key, H.first, H.vinv⟩,
    rfl, hterm⟩

theorem vinv_new (t : LoudsSparse) (TV : List (List Nat × Nat)) (ENT : List (List Nat)) :
    VInv TV ENT (Iter.new t) (fun _ => False) := by
  intro m
  constructor
  · intro h
    exfalso
    simp only [Iter.new, List.getD_eq_getElem?_getD, List.getElem?_replicate] at h
    split at h <;> simp at h
  · intro _ w _ _ h; exact h

/-- The search `moveToKeyGreaterThan` from the fresh iterator with a probe that extends the
stored key `u`, whose value selects the key `fk` of the key list. -/
theorem mtk_stored {t : LoudsSparse} {TV : List (List Nat × Nat)} {ENT : List (List Nat)}
    (R : TRepr t TV ENT) (F : FlatTrie TV ENT) (p : List Nat) (inclusive : Bool)
    (u : List Nat) (v : Nat) (fk : List Nat) (hu : u ∈ keysOf TV)
    (hv : TV.lookup u = some v) (hfk : t.keys_[v]? = some fk) (hup : u <+: p) :
    ∃ it2, HoldsKey t TV ENT it2 u u ∧ it2.is_at_terminator_ = false ∧
      t.moveToKeyGreaterThan p inclusive (Iter.new t) =
        (if strLt p fk then some { it2 with is_valid_ := true }
         else if strLt fk p then it2.incr t
         else if !inclusive then it2.incr t
         else some { it2 with is_valid_ := true }) := by
  obtain ⟨hok, hp⟩ := new_ok R
  obtain ⟨b, hroot⟩ := F.root_node
  have hsel : (ones (loOf ENT))[0]? = some 0 :=
    FlatTrie.ones_head _ F.lo_zero (by rw [loOf_length]; exact F.length_pos)
  have hfirst : t.getFirstLabelPos (Iter.new t).start_node_num_ = some 0 := by
    rw [hok.snn, R.firstLabelPos]; exact hsel
  obtain ⟨it2, H, hterm, hloop⟩ := mtkLoop_stored R F p inclusive u v fk hu hv hfk (Iter.new t)
    (vinv_new t TV ENT) p [] 0 b (Iter.new t) hroot List.nil_prefix
    (fun e => F.keyne u hu e.symm) (by simpa using hup) hok hp (sameAux_refl _)
  refine ⟨it2, H, hterm, ?_⟩
  simp only [LoudsSparse.moveToKeyGreaterThan, hfirst, Option.bind_eq_bind, Option.some_bind,
    R.start, List.drop_zero, hloop]
  by_cases c1 : strLt p fk = true
  · simp only [c1, if_true, Option.some_bind]
  · by_cases c2 : strLt fk p = true
    · simp only [c1, c2, if_true, Bool.false_eq_true, if_false]
      cases it2.incr t <;> rfl
    · cases inclusive
      · simp only [c1, c2, Bool.false_eq_true, if_false, Bool.not_false, if_true]
        cases it2.incr t <;> rfl
      · simp only [c1, c2, Bool.false_eq_true, if_false, Bool.not_true, Option.some_bind]

/-- The searches of C5 and C6 on a built trie whose values are the indices of the keys. -/
theorem search_stored (keys : List (List Nat)) (values : List Nat) (L : Nat)
    (K : KeysOK keys L) (hv : values.length = keys.length)
    (hno : TermOK keys) (hidx : ∀ i, i < keys.length → values.getD i 0 = i) :
    ∃ b t, FSTBuilder.new.buildSparse keys values = some b ∧
      LoudsSparse.new b keys = some t ∧
      (∀ i, i < keys.length → ∃ it,
        t.moveToKeyGreaterThan (kAt keys i) true (Iter.new t) = some it ∧
        AtKey t (tvOf keys values) (entOf keys) it (tK keys i) (tK keys i) ∧
        it.getValue t = some (values.getD i 0)) ∧
      (∀ i, i + 1 < keys.length → ∃ it,
        t.moveToKeyGreaterThan (kAt keys i) false (Iter.new t) = some it ∧
        AtKey t (tvOf keys values) (entOf keys) it (tK keys i) (tK keys (i + 1)) ∧
        it.getValue t = some (values.getD (i + 1) 0)) ∧
      ∃ it, t.moveToKeyGreaterThan (kAt keys (keys.length - 1)) false (Iter.new t) = some it ∧
        it.is_valid_ = false ∧ it.key_len_ = 0 := by
  obtain ⟨b, t, hb, ht, R, hk, _⟩ := build_repr keys values L K hv hno
  have F := K.flatTrie values
  have hn : 0 < keys.length := List.length_pos.mpr K.ne
  have key : ∀ i, i < keys.length → ∀ inclusive, ∃ it2,
      HoldsKey t (tvOf keys values) (entOf keys) it2 (tK keys i) (tK keys i) ∧
      it2.is_at_terminator_ = false ∧
      t.moveToKeyGreaterThan (kAt keys i) inclusive (Iter.new t) =
        (if !inclusive then it2.incr t else some { it2 with is_valid_ := true }) := by
    intro i hi inclusive
    have hfk : t.keys_[values.getD i 0]? = some (kAt keys i) := by
      rw [hk, hidx i hi, kAt, List.getD_eq_getElem?_getD, List.getElem?_eq_getElem hi]
      rfl
    obtain ⟨it2, H, hterm, e⟩ := mtk_stored R F (kAt keys i) inclusive (tK keys i) _ _
      ((mem_keysOf_tvOf keys values _).mpr ⟨i, hi, rfl⟩) (K.lookup_tK values i hi) hfk
      (List.take_prefix _ _)
    refine ⟨it2, H, hterm, ?_⟩
    rw [e]
    simp only [strLt_irrefl, Bool.false_eq_true, if_false]
  refine ⟨b, t, hb, ht, ?_, ?_, ?_⟩
  · intro i hi
    obtain ⟨it2, H, hterm, e⟩ := key i hi true
    have A := H.set_valid hterm
    exact ⟨_, e, A, atKey_getValue R F A.holds (K.lookup_tK values i hi)⟩
  · intro i hi
    obtain ⟨it2, H, hterm, e⟩ := key i (by omega) false
    obtain ⟨it3, h3, A⟩ := atKey_incr R F H (K.tK_isSucc values i hi)
    refine ⟨it3, ?_, A, atKey_getValue R F A.holds (K.lookup_tK values (i + 1) hi)⟩
    rw [e]; exact h3
  · obtain ⟨it2, H, hterm, e⟩ := key (keys.length - 1) (by omega) false
    obtain ⟨it3, h3, h4, h5, _⟩ := atKey_incr_last R F H (K.tK_greatest values)
    exact ⟨it3, by rw [e]; exact h3, h4, h5⟩

end FST

namespace FST

/-! ## The backward moves of the iterator -/

theorem exists_greatest_of_sorted (T : List (List Nat)) (P : List Nat → Prop)
    (hs : T.Pairwise (fun a b => strLt a b = true)) (h : ∃ w ∈ T, P w) :
    ∃ u ∈ T, P u ∧ ∀ w ∈ T, P w → strLe w u := by
  classical
  induction T with
  | nil => obtain ⟨w, hw, _⟩ := h; simp at hw
  | cons x xs ih =>
    rw [List.pairwise_cons] at hs
    by_cases h2 : ∃ w ∈ xs, P w
    · obtain ⟨u, hu, hpu, hmax⟩ := ih hs.2 h2
      refine ⟨u, List.mem_cons_of_mem _ hu, hpu, ?_⟩
      intro w hw hp
      rcases List.mem_cons.mp hw with e | e
      · rw [e]; exact strLe_of_lt (hs.1 u hu)
      · exact hmax w e hp
    · obtain ⟨w, hw, hp⟩ := h
      rcases List.mem_cons.mp hw with e | e
      · subst e
        refine ⟨w, List.mem_cons_self _ _, hp, ?_⟩
        intro w2 hw2 hp2
        rcases List.mem_cons.mp hw2 with e2 | e2
        · rw [e2]; exact strLe_refl _
        · exact absurd ⟨w2, e2, hp2⟩ h2
      · exact absurd ⟨w, e, hp⟩ h2

theorem exists_greatest {TV : List (List Nat × Nat)} {ENT : List (List Nat)}
    (F : FlatTrie TV ENT) {g : Nat} (hg : g < ENT.length) :
    ∃ u, IsGreatestWith TV (ENT.getD g []) u := by
  obtain ⟨w, hw, hp⟩ := F.entry_pfx hg
  obtain ⟨u, h1, h2, h3⟩ := exists_greatest_of_sorted (keysOf TV)
    (fun w => ENT.getD g [] <+: w) F.sortedT ⟨w, hw, hp⟩
  exact ⟨u, h1, h2, h3⟩

theorem FlatTrie.node_last {TV : List (List Nat × Nat)} {ENT : List (List Nat)}
    (F : FlatTrie TV ENT) {e : List Nat} {a b : Nat} (hn : NodeOf ENT e a b) :
    b - 1 < ENT.length ∧ ENT.getD (b - 1) [] = e ++ [(labOf ENT).getD (b - 1) 0] := by
  have hl := hn.lt
  have hle := hn.le
  have ha : b - 1 < ENT.length := by omega
  have hp : par ENT (b - 1) = e := (hn.mem (b - 1) ha).mpr ⟨by omega, by omega⟩
  have := F.entry_eq ha
  rw [hp] at this
  exact ⟨ha, this⟩

theorem greatest_leaf {TV : List (List Nat × Nat)} {ENT : List (List Nat)}
    (F : FlatTrie TV ENT) {e u : List Nat} (he : e ∈ keysOf TV) (hu : IsGreatestWith TV e u) :
    u = e :=
  (F.pfree e he u hu.1 hu.2.1).symm

/-- The greatest key below an internal path lies below its last child. -/
theorem greatest_child {TV : List (List Nat × Nat)} {ENT : List (List Nat)}
    (F : FlatTrie TV ENT) {e u : List Nat} {a b : Nat} (hn : NodeOf ENT e a b)
    (hu : IsGreatestWith TV e u) (hne : e ∉ keysOf TV) :
    IsGreatestWith TV (ENT.getD (b - 1) []) u := by
  obtain ⟨hu1, hu2, hu3⟩ := hu
  obtain ⟨ha, hea⟩ := F.node_last hn
  have hlen : e.length < u.length := by
    rcases Nat.lt_or_ge e.length u.length with h | h
    · exact h
    · exact absurd (hu2.eq_of_length_le h ▸ hu1) hne
  have hx1 : u.take (e.length + 1) ≠ [] := by
    intro h
    have := congrArg List.length h
    rw [List.length_take, List.length_nil] at this
    omega
  obtain ⟨gx, hgx, hgxe⟩ := F.pos_of_pfx hx1 hu1 (List.take_prefix _ _)
  have hxe : u.take (e.length + 1) = e ++ [u.getD e.length 0] := by
    obtain ⟨s, rfl⟩ := hu2
    cases s with
    | nil => simp at hlen
    | cons c s =>
      rw [List.take_append_eq_append_take, List.take_of_length_le (by omega)]
      have hc : (e ++ c :: s).getD e.length 0 = c := by
        rw [List.getD_eq_getElem?_getD, List.getElem?_append_right (Nat.le_refl _),
          Nat.sub_self]
        simp
      rw [hc]
      simp
  have hpar : par ENT gx = e := par_of_append ENT gx e _ (hgxe.trans hxe)
  obtain ⟨g1, g2⟩ := (hn.mem gx hgx).mp hpar
  have hlast : gx = b - 1 := by
    by_contra hc
    have hlt : gx < b - 1 := by omega
    obtain ⟨u0, hu0, hpre0⟩ := F.entry_pfx ha
    have he0 : e <+: u0 := by
      have : e <+: ENT.getD (b - 1) [] := by rw [hea]; exact List.prefix_append _ _
      exact this.trans hpre0
    have h1 := hu3 u0 hu0 he0
    have h2 := F.lt_of_pos hlt ha
    have hl2 : (ENT.getD gx []).length = (ENT.getD (b - 1) []).length := by
      rw [hea, hgxe, hxe]; simp
    rcases h2 with h2 | ⟨_, h2⟩
    · omega
    · have h3 := strLt_of_take h2 hl2 (hgxe ▸ List.take_prefix _ _) hpre0
      rw [strLe, h3] at h1
      exact Bool.noConfusion h1
  subst hlast
  refine ⟨hu1, hgxe ▸ List.take_prefix _ _, ?_⟩
  intro w hw hpw
  apply hu3 w hw
  have : e <+: ENT.getD (b - 1) [] := by rw [hea]; exact List.prefix_append _ _
  exact this.trans hpw

/-- The position that `getLastLabelPos` computes for a node is its last position. -/
theorem TRepr.lastLabelPos {t : LoudsSparse} {TV : List (List Nat × Nat)}
    {ENT : List (List Nat)} (R : TRepr t TV ENT) (F : FlatTrie TV ENT) {e : List Nat}
    {a b N : Nat} (hn : NodeOf ENT e a b) (hsel : (ones (loOf ENT))[N]? = some a) :
    t.getLastLabelPos N = some (b - 1) := by
  have hl := hn.lt
  have hle := hn.le
  obtain ⟨l1, l2, l3⟩ := F.node_lo hn
  obtain ⟨_, _, hcnt⟩ := filter_range_getElem _ _ _ _ hsel
  have hcb : cntBefore (fun q => (loOf ENT).getD q false) b = N + 1 := by
    rw [cntBefore_gap _ (a + 1) b (by omega) (fun q h1 h2 => l2 q (by omega) h2),
      cntBefore_succ, hcnt, l1]
    simp
  have k1 : check (decide (0 ≤ N + 2)) = some () := by
    simp [check]
  simp only [LoudsSparse.getLastLabelPos, R.ncd, k1, Option.bind_eq_bind, Option.some_bind,
    Nat.sub_zero, R.lo.numOnes_eq]
  by_cases hb : b < ENT.length
  · have hidx := filter_range_index (fun q => (loOf ENT).getD q false) (loOf ENT).length b
      (by rw [loOf_length]; exact hb) (l3 hb)
    rw [hcb] at hidx
    have hlen : N + 1 < (ones (loOf ENT)).length := by
      by_contra hc
      have : (ones (loOf ENT))[N + 1]? = none := List.getElem?_eq_none (by omega)
      rw [ones] at this
      rw [this] at hidx
      exact Option.noConfusion hidx
    have hsl : t.louds_bits_.select (N + 2) = some b := by
      rw [R.lo.select_eq (N + 2) (by omega)]
      exact hidx
    have k2 : check (decide (0 < b)) = some () := by
      have : 0 < b := by omega
      simp [check, this]
    rw [if_neg (by omega)]
    simp only [hsl, Option.some_bind, k2]
  · have hbe : b = ENT.length := by omega
    have hlen : (ones (loOf ENT)).length = N + 1 := by
      rw [ones, filter_range_length, loOf_length, ← hbe]
      exact hcb
    rw [if_pos (by omega), R.numBits_lo]
    simp only [decr32]
    rw [if_neg (by omega), hbe]

end FST

namespace FST

theorem RLanded.of_sameAux_back {t : LoudsSparse} {TV : List (List Nat × Nat)}
    {ENT : List (List Nat)} {it it0 it1 : Iter} {u : List Nat} (s : SameAux it it0)
    (L : RLanded t TV ENT it0 it1 u) : RLanded t TV ENT it it1 u :=
  ⟨L.path, L.ok, L.valid, L.term.trans s.term, L.key, L.vp.trans s.vp, L.vi.trans s.vi⟩

/-- The loop of `moveToRightMostKey`: from an internal path it descends along the last
labels to the greatest key below the path. -/
theorem rightLoop_spec {t : LoudsSparse} {TV : List (List Nat × Nat)} {ENT : List (List Nat)}
    (R : TRepr t TV ENT) (F : FlatTrie TV ENT) (u : List Nat) :
    ∀ (n fuel : Nat) (it : Iter) (e : List Nat) (g : Nat), e.length + n = t.height_ →
      n < fuel → ItOK t it → OnPath ENT it e → g < ENT.length → ENT.getD g [] = e →
      (chOf TV ENT).getD g false = true → IsGreatestWith TV e u →
      ∃ it1, Iter.moveToRightMostKeyLoop t fuel it (e.length - 1) g = some it1 ∧
        RLanded t TV ENT it it1 u := by
  intro n
  induction n with
  | zero =>
    intro fuel it e g hn _ _ _ hg hge hch _
    exfalso
    obtain ⟨a, b, _, hnode⟩ := F.child_node hg hch
    obtain ⟨ha, hea⟩ := F.node_first hnode
    have := R.height _ (getD_mem ENT a ha)
    rw [hea, hge] at this
    simp at this
    omega
  | succ n ih =>
    intro fuel it e g hn hf hok hp hg hge hch hu
    obtain ⟨f, rfl⟩ : ∃ f, fuel = f + 1 := ⟨fuel - 1, by omega⟩
    have hene : e ≠ [] := hge ▸ F.ne_nil hg
    have hpos : 0 < e.length := List.length_pos.mpr hene
    have hlev : e.length - 1 < t.getHeight := by rw [height_eq]; omega
    obtain ⟨a, b, hsel, hnode⟩ := F.child_node hg hch
    rw [hge] at hnode
    obtain ⟨ha, hea⟩ := F.node_last hnode
    have hnk : e ∉ keysOf TV := by
      have := (F.ch_true_iff hg).mp hch
      rw [hge] at this; exact this
    have hu2 := greatest_child F hnode hu hnk
    have hlast : t.getLastLabelPos (t.getChildNodeNum g) = some (b - 1) := by
      rw [R.childNum]; exact R.lastLabelPos F hnode hsel
    have hlab := R.readLab ha
    have h255 := R.term_flag F ha
    obtain ⟨it1, e1, p1, ok1, s1⟩ :=
      hp.append_ok hok ((labOf ENT).getD (b - 1) 0) (b - 1) (by omega) ha hea
    cases hca : (chOf TV ENT).getD (b - 1) false with
    | false =>
      have hleaf : ENT.getD (b - 1) [] ∈ keysOf TV := (F.ch_false_iff ha).mp hca
      have hue : u = ENT.getD (b - 1) [] := greatest_leaf F hleaf hu2
      refine ⟨{ it1 with is_at_terminator_ := it1.is_at_terminator_, is_valid_ := true }, ?_, ?_⟩
      · simp only [Iter.moveToRightMostKeyLoop, hlev, if_true, hlast, hlab, R.readCh ha, hca,
          Option.bind_eq_bind, Option.some_bind, Bool.not_false, e1, h255, Bool.false_eq_true,
          if_false]
      · refine ⟨?_, ⟨ok1.klen, ok1.plen, ok1.vlen, ok1.ilen, ok1.snn⟩, rfl, s1.term,
          hue ▸ hleaf, s1.vp, s1.vi⟩
        rw [hue, hea]
        exact p1
    | true =>
      have hlen2 : (e ++ [(labOf ENT).getD (b - 1) 0]).length = e.length + 1 := by simp
      obtain ⟨it3, e3, L3⟩ := ih f it1 (e ++ [(labOf ENT).getD (b - 1) 0]) (b - 1) (by omega)
        (by omega) ok1 p1 ha hea hca (hea ▸ hu2)
      refine ⟨it3, ?_, L3.of_sameAux_back s1⟩
      rw [hlen2, Nat.add_sub_cancel] at e3
      have hl1 : e.length - 1 + 1 = e.length := by omega
      simp only [Iter.moveToRightMostKeyLoop, hlev, if_true, hlast, hlab, R.readCh ha, hca,
        Option.bind_eq_bind, Option.some_bind, Bool.not_true, Bool.false_eq_true, if_false,
        e1, hl1, e3]

/-- From a path `e` of the trie, `moveToRightMostKey` reaches the greatest stored key that
extends `e`. -/
theorem rightmost_from_path {t : LoudsSparse} {TV : List (List Nat × Nat)}
    {ENT : List (List Nat)} (R : TRepr t TV ENT) (F : FlatTrie TV ENT) (it : Iter)
    (e u : List Nat) (hok : ItOK t it) (hp : OnPath ENT it e) (he : e ≠ [])
    (hu : IsGreatestWith TV e u) :
    ∃ it1, it.moveToRightMostKey t = some it1 ∧ RLanded t TV ENT it it1 u := by
  have hpos : 0 < e.length := List.length_pos.mpr he
  obtain ⟨g, hcur, hg, hge⟩ := hp.cur he
  have hk0 : (it.key_len_ == 0) = false := by
    rw [hp.1, beq_eq_false_iff_ne]; omega
  have hlab := R.readLab hg
  have h255 := R.term_flag F hg
  have hH : e.length ≤ t.height_ := by
    have := R.height _ (getD_mem ENT g hg)
    rw [hge] at this; exact this
  cases hca : (chOf TV ENT).getD g false with
  | false =>
    have hleaf : ENT.getD g [] ∈ keysOf TV := (F.ch_false_iff hg).mp hca
    have hue : u = e := greatest_leaf F (hge ▸ hleaf) hu
    refine ⟨{ it with is_at_terminator_ := it.is_at_terminator_, is_valid_ := true }, ?_, ?_⟩
    · simp only [Iter.moveToRightMostKey, hk0, Bool.false_eq_true, if_false,
        Option.bind_eq_bind, Option.some_bind, hcur, hlab, R.readCh hg, hca, Bool.not_false,
        if_true, h255]
    · subst hue
      exact ⟨hp, ⟨hok.klen, hok.plen, hok.vlen, hok.ilen, hok.snn⟩, rfl, rfl, hge ▸ hleaf,
        rfl, rfl⟩
  | true =>
    obtain ⟨it1, e1, L1⟩ := rightLoop_spec R F u (t.height_ - e.length) (t.getHeight + 1) it e g
      (by omega) (by rw [height_eq]; omega) hok hp hg hge hca hu
    refine ⟨it1, ?_, L1⟩
    have hd : decr32 it.key_len_ = e.length - 1 := by
      rw [hp.1]; simp only [decr32]; rw [if_neg (by omega)]
    rw [hd] at hcur
    simp only [Iter.moveToRightMostKey, hk0, Bool.false_eq_true, if_false, Option.bind_eq_bind,
      Option.some_bind, hd, hcur, hlab, R.readCh hg, hca, Bool.not_true, e1]

/-- From the fresh iterator, `moveToRightMostKey` reaches the greatest stored key. -/
theorem rightmost_fresh {t : LoudsSparse} {TV : List (List Nat × Nat)}
    {ENT : List (List Nat)} (R : TRepr t TV ENT) (F : FlatTrie TV ENT) (it : Iter)
    (u : List Nat) (hok : ItOK t it) (hp : OnPath ENT it []) (hu : IsGreatestWith TV [] u) :
    ∃ it1, it.moveToRightMostKey t = some it1 ∧ RLanded t TV ENT it it1 u := by
  obtain ⟨b, hroot⟩ := F.root_node
  obtain ⟨ha, hea⟩ := F.node_last hroot
  have hnk : [] ∉ keysOf TV := fun h => F.keyne [] h rfl
  have hu2 := greatest_child F hroot hu hnk
  have hsel : (ones (loOf ENT))[0]? = some 0 :=
    FlatTrie.ones_head _ F.lo_zero (by rw [loOf_length]; exact F.length_pos)
  have hfirst : t.getFirstLabelPos it.start_node_num_ = some 0 := by
    rw [hok.snn, R.firstLabelPos]; exact hsel
  have hlast : t.getLastLabelPos it.start_node_num_ = some (b - 1) := by
    rw [hok.snn]; exact R.lastLabelPos F hroot hsel
  have hH : 0 < t.height_ := by
    have := R.height _ (getD_mem ENT (b - 1) ha)
    rw [hea] at this
    simp at this
    omega
  obtain ⟨it0, e0, p0, ok0, s0⟩ :=
    hp.append_ok hok ((labOf ENT).getD (b - 1) 0) (b - 1) (by simpa using hH) ha
      (by simpa using hea)
  simp only [List.nil_append] at p0 hea
  obtain ⟨it1, e1, L1⟩ := rightmost_from_path R F it0 _ u ok0 p0 (by simp) (hea ▸ hu2)
  refine ⟨it1, ?_, L1.of_sameAux_back s0⟩
  have hk0 : (it.key_len_ == 0) = true := by rw [hp.1]; rfl
  have e1b := e1
  simp only [Iter.moveToRightMostKey, Option.bind_eq_bind] at e1b ⊢
  simp only [hk0, if_true, hfirst, hlast, Option.some_bind, R.readLab ha, e0]
  have hk1 : (it0.key_len_ == 0) = false := by rw [p0.1]; rfl
  simp only [hk1, Bool.false_eq_true, if_false, Option.some_bind] at e1b
  exact e1b

end FST

namespace FST

theorem below_init {TV : List (List Nat × Nat)} {ENT : List (List Nat)} (F : FlatTrie TV ENT)
    {t : List Nat} (ht : t ∈ keysOf TV) : Below TV t t.length := by
  intro w hw hlt
  have h1 := take_mono t.length hlt
  rw [List.take_length] at h1 ⊢
  rcases (strLe_iff _ _).mp h1 with h2 | h2
  · exfalso
    have hp : t <+: w := by rw [← h2]; exact List.take_prefix _ _
    have := F.pfree t ht w hw hp
    rw [this, strLt_irrefl] at hlt
    exact Bool.noConfusion hlt
  · exact h2

theorem below_zero {TV : List (List Nat × Nat)} {t : List Nat} (h : Below TV t 0) :
    ∀ w ∈ keysOf TV, ¬ strLt w t = true := by
  intro w hw hlt
  have := h w hw hlt
  simp [strLt] at this

theorem first_of_lo {TV : List (List Nat × Nat)} {ENT : List (List Nat)} (F : FlatTrie TV ENT)
    {g : Nat} (hg : g < ENT.length) (h : (loOf ENT).getD g false = true) :
    FirstInNode ENT g := by
  intro g2 h1 he
  rcases (FlatTrie.lo_true_iff ENT g hg).mp h with h3 | h3
  · omega
  · apply h3
    have := F.par_between (show g2 ≤ g - 1 by omega) (show g - 1 ≤ g by omega) hg he
    show par ENT g = par ENT (g - 1)
    rw [this, he]

theorem prev_sibling_of_lo (ENT : List (List Nat)) {g : Nat} (hg : g < ENT.length)
    (h0 : 0 < g) (h : (loOf ENT).getD g false = false) : par ENT (g - 1) = par ENT g := by
  by_contra hc
  have := (FlatTrie.lo_true_iff ENT g hg).mpr (Or.inr (fun e => hc e.symm))
  rw [h] at this
  exact Bool.noConfusion this

/-- A key below the stored key `t` that agrees with `t` on `m - 1` bytes has its own entry
of length `m`, before the entry of `t`. -/
theorem below_entry {TV : List (List Nat × Nat)} {ENT : List (List Nat)} (F : FlatTrie TV ENT)
    {t w : List Nat} {m g : Nat} (ht : t ∈ keysOf TV) (hm : 1 ≤ m) (hmt : m ≤ t.length)
    (hg : g < ENT.length) (hge : ENT.getD g [] = t.take m) (hw : w ∈ keysOf TV)
    (hlt : strLt (w.take m) (t.take m) = true)
    (heq : t.take (m - 1) = w.take (m - 1)) :
    ∃ g2, g2 < g ∧ ENT.getD g2 [] = w.take m ∧ par ENT g2 = par ENT g := by
  have hwl : m ≤ w.length := by
    by_contra hc
    have h1 : w.length = m - 1 := by
      have := congrArg List.length heq
      simp only [List.length_take] at this
      omega
    have h3 : w = t.take (m - 1) := by
      rw [heq, List.take_of_length_le (by omega)]
    have h4 : w <+: t := by rw [h3]; exact List.take_prefix _ _
    have h5 := F.pfree w hw t ht h4
    rw [h5] at h1
    omega
  have hne : w.take m ≠ [] := by
    intro e
    have := congrArg List.length e
    rw [List.length_take, List.length_nil] at this
    omega
  obtain ⟨g2, hg2, hge2⟩ := F.pos_of_pfx hne hw (List.take_prefix _ _)
  have hlv : lvlLt (ENT.getD g2 []) (ENT.getD g []) := by
    rw [hge, hge2]
    right
    refine ⟨?_, hlt⟩
    rw [List.length_take, List.length_take]; omega
  refine ⟨g2, F.pos_lt_of_lt hg2 hg hlv, hge2, ?_⟩
  simp only [par]
  rw [hge, hge2, List.dropLast_eq_take, List.dropLast_eq_take, List.take_take, List.take_take,
    List.length_take, List.length_take]
  rw [show min (min m w.length - 1) m = m - 1 by omega,
    show min (min m t.length - 1) m = m - 1 by omega]
  exact heq.symm

/-- Leaving a node at its first position keeps every smaller key below. -/
theorem below_pop {TV : List (List Nat × Nat)} {ENT : List (List Nat)} (F : FlatTrie TV ENT)
    {t : List Nat} {m g : Nat} (ht : t ∈ keysOf TV) (hm : 1 ≤ m) (hmt : m ≤ t.length)
    (hg : g < ENT.length) (hge : ENT.getD g [] = t.take m) (hfirst : FirstInNode ENT g)
    (hab : Below TV t m) : Below TV t (m - 1) := by
  intro w hw hlt
  have h0 := hab w hw hlt
  have h1 := take_mono (m - 1) hlt
  rcases (strLe_iff _ _).mp h1 with h2 | h2
  · exfalso
    obtain ⟨g2, a1, _, a4⟩ := below_entry F ht hm hmt hg hge hw h0 h2.symm
    exact hfirst g2 a1 a4
  · exact h2

/-- The greatest key below the previous sibling is the key that precedes. -/
theorem pred_of_sibling {TV : List (List Nat × Nat)} {ENT : List (List Nat)}
    (F : FlatTrie TV ENT) {t u : List Nat} {m g : Nat} (ht : t ∈ keysOf TV) (hm : 1 ≤ m)
    (hmt : m ≤ t.length) (hg : g < ENT.length) (h0 : 0 < g) (hge : ENT.getD g [] = t.take m)
    (hsib : par ENT (g - 1) = par ENT g) (hab : Below TV t m)
    (hu : IsGreatestWith TV (ENT.getD (g - 1) []) u) : IsPred TV t u := by
  obtain ⟨hu1, hu2, hu3⟩ := hu
  have hg1 : g - 1 < ENT.length := by omega
  have hlv := F.lt_of_pos (show g - 1 < g by omega) hg
  have hlen : (ENT.getD (g - 1) []).length = m := by
    have h1 := congrArg List.length hsib
    rw [FlatTrie.par_length, FlatTrie.par_length, hge, List.length_take] at h1
    have h2 := F.ne_nil hg1
    have h3 := List.length_pos.mpr h2
    rw [show min m t.length = m by omega] at h1
    omega
  have hst : strLt (ENT.getD (g - 1) []) (t.take m) = true := by
    rcases hlv with h | ⟨_, h⟩
    · rw [hge, List.length_take, hlen] at h; omega
    · rw [hge] at h; exact h
  have hutake : u.take m = ENT.getD (g - 1) [] := by
    have := (prefix_iff_take _ _).mp hu2
    rw [hlen] at this; exact this
  refine ⟨hu1, ?_, ?_⟩
  · apply strLt_of_take_lt m
    rw [hutake]; exact hst
  · intro w hw hlt
    have hb := hab w hw hlt
    by_contra hc
    have huw : strLt u w = true := by
      cases hbb : strLt u w with
      | true => rfl
      | false => exact absurd hbb hc
    have h1 := take_mono m huw
    rw [hutake] at h1
    have hpre : t.take (m - 1) = w.take (m - 1) := by
      have hp1 : t.take (m - 1) <+: t.take m := take_prefix_take _ _ _ (by omega)
      have hp2 : t.take (m - 1) <+: ENT.getD (g - 1) [] := by
        have : par ENT (g - 1) <+: ENT.getD (g - 1) [] := FlatTrie.par_pfx ENT (g - 1)
        rw [hsib] at this
        simp only [par] at this
        rw [hge, List.dropLast_eq_take, List.take_take, List.length_take] at this
        rw [show min (min m t.length - 1) m = m - 1 by omega] at this
        exact this
      have := prefix_convex h1 (strLe_of_lt hb) hp2 hp1
      have h2 := (prefix_iff_take _ _).mp this
      rw [List.take_take, List.length_take] at h2
      rw [show min (min (m - 1) t.length) m = m - 1 by omega] at h2
      exact h2.symm
    obtain ⟨g2, a1, a3, a4⟩ := below_entry F ht hm hmt hg hge hw hb hpre
    have hl2 : (ENT.getD g2 []).length = m := by
      have h1 := congrArg List.length a4
      rw [FlatTrie.par_length, FlatTrie.par_length, hge, List.length_take] at h1
      have h2 := F.ne_nil (show g2 < ENT.length by omega)
      have h3 := List.length_pos.mpr h2
      rw [show min m t.length = m by omega] at h1
      omega
    have h3 : lvlLe (ENT.getD g2 []) (ENT.getD (g - 1) []) := F.le_of_pos (by omega) hg1
    rcases h3 with h3 | h3
    · have : ENT.getD (g - 1) [] <+: w := by rw [← h3, a3]; exact List.take_prefix _ _
      have := hu3 w hw this
      rw [strLe, huw] at this
      exact Bool.noConfusion this
    · rcases h3 with h3 | ⟨_, h3⟩
      · omega
      · rw [a3] at h3
        rw [strLe, h3] at h1
        exact Bool.noConfusion h1

end FST

namespace FST

/-- The loop of `operator--`: it leaves the nodes whose first position the path holds, and
stops where a sibling precedes; when every level is left there is no smaller key. -/
theorem decrLoop_spec {t : LoudsSparse} {TV : List (List Nat × Nat)} {ENT : List (List Nat)}
    (R : TRepr t TV ENT) (F : FlatTrie TV ENT) (k : List Nat) (hk : k ∈ keysOf TV) :
    ∀ (m fuel : Nat) (it : Iter) (g : Nat), 1 ≤ m → m ≤ k.length → m < fuel →
      ItOK t it → OnPath ENT it (k.take m) → g < ENT.length → ENT.getD g [] = k.take m →
      Below TV k m →
      (∃ m2 it1 g2, 1 ≤ m2 ∧ m2 ≤ m ∧
        Iter.decrLoop t fuel it g = some (it1, some g2) ∧
        OnPath ENT it1 (k.take m2) ∧ ItOK t it1 ∧ SameAux it it1 ∧ 0 < g2 ∧ g2 < ENT.length ∧
        ENT.getD g2 [] = k.take m2 ∧ par ENT (g2 - 1) = par ENT g2 ∧ Below TV k m2) ∨
      (∃ it1, Iter.decrLoop t fuel it g = some (it1, none) ∧ it1.is_valid_ = false ∧
        ItOK t it1 ∧ Below TV k 0) := by
  intro m
  induction m with
  | zero => intro fuel it g h; omega
  | succ m ih =>
    intro fuel it g _ hmk hf hok hp hg hge hab
    obtain ⟨f, rfl⟩ : ∃ f, fuel = f + 1 := ⟨fuel - 1, by omega⟩
    have hlen : (k.take (m + 1)).length = m + 1 := by rw [List.length_take]; omega
    cases hlo : (loOf ENT).getD g false with
    | true =>
      have hfirst := first_of_lo F hg hlo
      have hab2 := below_pop F hk (by omega) hmk hg hge hfirst hab
      rw [Nat.add_sub_cancel] at hab2
      have hp2 := hp.pop (by intro e; rw [e] at hlen; simp at hlen)
      have hdl : (k.take (m + 1)).dropLast = k.take m := by
        rw [List.dropLast_eq_take, hlen, List.take_take]
        simp
      rw [hdl] at hp2
      have hkl : decr32 it.key_len_ = m := by
        rw [hp.1, hlen]; simp [decr32]
      by_cases hm0 : m = 0
      · right
        subst hm0
        refine ⟨{ it with key_len_ := decr32 it.key_len_, is_valid_ := false }, ?_, rfl,
          ⟨hok.klen, hok.plen, hok.vlen, hok.ilen, hok.snn⟩, hab2⟩
        simp only [Iter.decrLoop, R.readLo hg, hlo, Option.bind_eq_bind, Option.some_bind,
          if_true, hkl, beq_self_eq_true]
      · have hk0 : (decr32 it.key_len_ == 0) = false := by
          rw [hkl, beq_eq_false_iff_ne]; exact hm0
        have ok2 : ItOK t { it with key_len_ := decr32 it.key_len_ } :=
          ⟨hok.klen, hok.plen, hok.vlen, hok.ilen, hok.snn⟩
        have hne2 : k.take m ≠ [] := by
          intro e
          have := congrArg List.length e
          rw [List.length_take, List.length_nil] at this
          omega
        obtain ⟨g1, hcur, hg1, hge1⟩ := hp2.cur hne2
        have hcur2 : it.pos_in_trie_[decr32 (decr32 it.key_len_)]? = some g1 := hcur
        rcases ih f { it with key_len_ := decr32 it.key_len_ } g1 (by omega) (by omega)
          (by omega) ok2 hp2 hg1 hge1 hab2 with
          ⟨m2, it1, g2, b1, b2, b3, b4, b5, b6, b7, b8, b9, b10, b11⟩ |
          ⟨it1, b1, b2, b3, b4⟩
        · left
          refine ⟨m2, it1, g2, b1, by omega, ?_, b4, b5,
            ⟨b6.vp, b6.vi, b6.term, b6.valid⟩, b7, b8, b9, b10, b11⟩
          simp only [Iter.decrLoop, R.readLo hg, hlo, Option.bind_eq_bind, Option.some_bind,
            if_true, hk0, Bool.false_eq_true, if_false, hcur2, b3]
        · right
          refine ⟨it1, ?_, b2, b3, b4⟩
          simp only [Iter.decrLoop, R.readLo hg, hlo, Option.bind_eq_bind, Option.some_bind,
            if_true, hk0, Bool.false_eq_true, if_false, hcur2, b1]
    | false =>
      left
      have h0 : 0 < g := by
        by_contra hc
        have : g = 0 := by omega
        rw [this, F.lo_zero] at hlo
        exact Bool.noConfusion hlo
      refine ⟨m + 1, it, g, by omega, Nat.le_refl _, ?_, hp, hok, sameAux_refl it, h0, hg, hge,
        prev_sibling_of_lo ENT hg h0 hlo, hab⟩
      simp only [Iter.decrLoop, R.readLo hg, hlo, Option.bind_eq_bind, Option.some_bind,
        Bool.false_eq_true, if_false]

/-- The contract of `operator--` on an iterator that holds the stored key `k`: it lands on
the stored key that precedes `k`, or, when `k` is the smallest key, becomes invalid. -/
theorem decr_spec {t : LoudsSparse} {TV : List (List Nat × Nat)} {ENT : List (List Nat)}
    (R : TRepr t TV ENT) (F : FlatTrie TV ENT) (it : Iter) (k : List Nat)
    (hok : ItOK t it) (hp : OnPath ENT it k) (hk : k ∈ keysOf TV) :
    (∃ u it1, IsPred TV k u ∧ it.decr t = some it1 ∧
      RLanded t TV ENT { it with is_at_terminator_ := false } it1 u) ∨
    ((∀ w ∈ keysOf TV, ¬ strLt w k = true) ∧ ∃ it1, it.decr t = some it1 ∧
      it1.is_valid_ = false) := by
  have hne : k ≠ [] := F.keyne k hk
  have hpos : 0 < k.length := List.length_pos.mpr hne
  have k1 : check (decide (it.key_len_ > 0)) = some () := by
    have : it.key_len_ > 0 := by rw [hp.1]; exact hpos
    simp only [check, this, decide_True, if_true]
  have hok1 : ItOK t { it with is_at_terminator_ := false } :=
    ⟨hok.klen, hok.plen, hok.vlen, hok.ilen, hok.snn⟩
  have hp1 : OnPath ENT { it with is_at_terminator_ := false } k := hp
  obtain ⟨g, hcur, hg, hge⟩ := hp.cur hne
  have htk : k.take k.length = k := List.take_length k
  have hfuel : it.key_len_ + 1 = k.length + 1 := by rw [hp.1]
  by_cases hg0 : g = 0
  · right
    subst hg0
    have hl1 : k.length = 1 := by rw [← hge]; exact F.first_length
    have hb := below_pop F hk (Nat.le_refl 1) (by omega) hg (by rw [hge, ← hl1, htk])
      (first_of_lo F hg F.lo_zero) (by rw [← hl1]; exact below_init F hk)
    refine ⟨below_zero hb,
      { it with is_at_terminator_ := false, is_valid_ := false }, ?_, rfl⟩
    simp only [Iter.decr, k1, Option.bind_eq_bind, Option.some_bind, hcur, beq_self_eq_true,
      if_true]
  · have hgb : (g == 0) = false := by rw [beq_eq_false_iff_ne]; exact hg0
    rcases decrLoop_spec R F k hk k.length (k.length + 1) { it with is_at_terminator_ := false }
        g hpos (Nat.le_refl _) (Nat.lt_succ_self _) hok1 (by rw [htk]; exact hp1) hg
        (by rw [htk]; exact hge) (below_init F hk) with
      ⟨m2, it1, g2, b1, b2, b3, b4, b5, b6, b7, b8, b9, b10, b11⟩ | ⟨it1, b1, b2, b3, b4⟩
    · left
      have hg2 : g2 - 1 < ENT.length := by omega
      have hne2 : k.take m2 ≠ [] := by
        intro e
        have := congrArg List.length e
        rw [List.length_take, List.length_nil] at this
        omega
      have hH : (k.take m2).length ≤ t.height_ := by
        have := R.height _ (getD_mem ENT g2 b8)
        rw [b9] at this; exact this
      have hent : ENT.getD (g2 - 1) [] =
          (k.take m2).dropLast ++ [(labOf ENT).getD (g2 - 1) 0] := by
        have h1 := F.entry_eq hg2
        rw [b10] at h1
        rw [← b9]
        exact h1
      obtain ⟨it2, c1, c2, c3, c4⟩ := b4.set_ok R b5 hne2 hH _ (g2 - 1) hg2 hent
      rw [← hent] at c2
      obtain ⟨u, hu⟩ := exists_greatest F hg2
      obtain ⟨it3, d1, d2⟩ := rightmost_from_path R F it2 _ u c3 c2 (F.ne_nil hg2) hu
      refine ⟨u, it3, pred_of_sibling F hk b1 b2 b8 b7 b9 b10 b11 hu, ?_,
        RLanded.of_sameAux_back (sameAux_trans b6 c4) d2⟩
      simp only [Iter.decr, k1, Option.bind_eq_bind, Option.some_bind, hcur, hgb,
        Bool.false_eq_true, if_false, hfuel, b3, c1, d1]
    · right
      refine ⟨below_zero b4, it1, ?_, b2⟩
      simp only [Iter.decr, k1, Option.bind_eq_bind, Option.some_bind, hcur, hgb,
        Bool.false_eq_true, if_false, hfuel, b1]

end FST

namespace FST

theorem onKey_getKey {t : LoudsSparse} {TV : List (List Nat × Nat)} {ENT : List (List Nat)}
    {it : Iter} {u : List Nat} (h : OnKey t TV ENT it u) : it.getKey = u := by
  simp only [Iter.getKey, h.valid, h.term, Bool.not_true, Bool.false_eq_true, if_false]
  exact h.path.getKey_eq

/-- The fresh iterator is brought onto the greatest stored key by `moveToRightMostKey`. -/
theorem onKey_last {t : LoudsSparse} {TV : List (List Nat × Nat)} {ENT : List (List Nat)}
    (R : TRepr t TV ENT) (F : FlatTrie TV ENT) (u : List Nat) (hu : u ∈ keysOf TV)
    (hmax : ∀ w ∈ keysOf TV, strLe w u) :
    ∃ it1, (Iter.new t).moveToRightMostKey t = some it1 ∧ OnKey t TV ENT it1 u ∧
      it1.value_pos_ = (Iter.new t).value_pos_ := by
  obtain ⟨hok, hp⟩ := new_ok R
  obtain ⟨it1, h1, h2⟩ := rightmost_fresh R F (Iter.new t) u hok hp
    ⟨hu, List.nil_prefix, fun w hw _ => hmax w hw⟩
  exact ⟨it1, h1, ⟨h2.path, h2.ok, h2.valid, h2.term, h2.key⟩, h2.vp⟩

theorem isPred_unique {TV : List (List Nat × Nat)} {k u u2 : List Nat} (h1 : IsPred TV k u)
    (h2 : IsPred TV k u2) : u = u2 :=
  strLe_antisymm (h2.2.2 u h1.1 h1.2.1) (h1.2.2 u2 h2.1 h2.2.1)

/-- From a stored key, `operator--` goes to the stored key that precedes, and leaves the
value positions as they were. -/
theorem onKey_decr {t : LoudsSparse} {TV : List (List Nat × Nat)} {ENT : List (List Nat)}
    (R : TRepr t TV ENT) (F : FlatTrie TV ENT) {it : Iter} {k u : List Nat}
    (h : OnKey t TV ENT it k) (hs : IsPred TV k u) :
    ∃ it1, it.decr t = some it1 ∧ OnKey t TV ENT it1 u ∧ it1.value_pos_ = it.value_pos_ := by
  rcases decr_spec R F it k h.ok h.path h.key with ⟨u2, it1, a1, a2, a3⟩ | ⟨a1, _⟩
  · have := isPred_unique a1 hs
    subst this
    exact ⟨it1, a2, ⟨a3.path, a3.ok, a3.valid, a3.term, a3.key⟩, a3.vp⟩
  · exact absurd hs.2.1 (a1 u hs.1)

/-- From the smallest stored key, `operator--` makes the iterator invalid. -/
theorem onKey_decr_first {t : LoudsSparse} {TV : List (List Nat × Nat)}
    {ENT : List (List Nat)} (R : TRepr t TV ENT) (F : FlatTrie TV ENT) {it : Iter}
    {k : List Nat} (h : OnKey t TV ENT it k) (hmin : ∀ w ∈ keysOf TV, strLe k w) :
    ∃ it1, it.decr t = some it1 ∧ it1.is_valid_ = false := by
  rcases decr_spec R F it k h.ok h.path h.key with ⟨u2, it1, a1, _, _⟩ | ⟨_, a2⟩
  · exfalso
    have := hmin u2 a1.1
    rw [strLe, a1.2.1] at this
    exact Bool.noConfusion this
  · exact a2

theorem KeysOK.tK_isPred {keys : List (List Nat)} {L : Nat} (K : KeysOK keys L)
    (values : List Nat) (i : Nat) (hi : i + 1 < keys.length) :
    IsPred (tvOf keys values) (tK keys (i + 1)) (tK keys i) := by
  refine ⟨(mem_keysOf_tvOf keys values _).mpr ⟨i, by omega, rfl⟩,
    K.tK_lt i (i + 1) (Nat.lt_succ_self i) hi, ?_⟩
  intro w hw hlt
  obtain ⟨j, hj, rfl⟩ := (mem_keysOf_tvOf keys values _).mp hw
  by_cases hji : j ≤ i
  · exact K.tK_le j i hji (by omega)
  · have := K.tK_le (i + 1) j (by omega) hj
    rw [strLe, hlt] at this
    exact Bool.noConfusion this

/-- Applying `operator--` `i` times to the iterator on the key of index `j` brings it onto
the key of index `j - i`. -/
theorem traverse_back {keys : List (List Nat)} {L : Nat} (K : KeysOK keys L)
    (values : List Nat) {t : LoudsSparse} (R : TRepr t (tvOf keys values) (entOf keys))
    {it0 : Iter} (j : Nat) (hj : j < keys.length)
    (h0 : OnKey t (tvOf keys values) (entOf keys) it0 (tK keys j)) :
    ∀ i, i ≤ j → ∃ it, Iter.decrTimes t i it0 = some it ∧
      OnKey t (tvOf keys values) (entOf keys) it (tK keys (j - i)) ∧
      it.value_pos_ = it0.value_pos_ := by
  intro i
  induction i with
  | zero => intro _; exact ⟨it0, rfl, h0, rfl⟩
  | succ i ih =>
    intro hi
    obtain ⟨it, h1, h2, h5⟩ := ih (by omega)
    have e : j - i = j - (i + 1) + 1 := by omega
    rw [e] at h2
    obtain ⟨it1, h3, h4, h6⟩ := onKey_decr R (K.flatTrie values) h2
      (K.tK_isPred values (j - (i + 1)) (by omega))
    refine ⟨it1, ?_, h4, h6.trans h5⟩
    simp only [Iter.decrTimes, h1, Option.bind_eq_bind, Option.some_bind, h3]

/-- The whole backward traversal of a built trie. -/
theorem backward_traversal (keys : List (List Nat)) (values : List Nat) (L : Nat)
    (K : KeysOK keys L) (hv : values.length = keys.length)
    (hno : TermOK keys) :
    ∃ b t it0, FSTBuilder.new.buildSparse keys values = some b ∧
      LoudsSparse.new b keys = some t ∧ (Iter.new t).moveToRightMostKey t = some it0 ∧
      (∀ i, i < keys.length → ∃ it, Iter.decrTimes t i it0 = some it ∧
        OnKey t (tvOf keys values) (entOf keys) it (tK keys (keys.length - 1 - i))) ∧
      ∃ it, Iter.decrTimes t keys.length it0 = some it ∧ it.is_valid_ = false := by
  obtain ⟨b, t, hb, ht, R, _, _⟩ := build_repr keys values L K hv hno
  have F := K.flatTrie values
  have hn : 0 < keys.length := List.length_pos.mpr K.ne
  obtain ⟨it0, h0, A0, _⟩ := onKey_last R F (tK keys (keys.length - 1))
    ((mem_keysOf_tvOf keys values _).mpr ⟨keys.length - 1, by omega, rfl⟩)
    (K.tK_greatest values)
  have T := traverse_back K values R (keys.length - 1) (by omega) A0
  refine ⟨b, t, it0, hb, ht, h0, ?_, ?_⟩
  · intro i hi
    obtain ⟨it, h1, h2, _⟩ := T i (by omega)
    exact ⟨it, h1, h2⟩
  · obtain ⟨it, h1, h2, _⟩ := T (keys.length - 1) (Nat.le_refl _)
    rw [Nat.sub_self] at h2
    obtain ⟨it1, h3, h4⟩ := onKey_decr_first R F h2 (K.tK_least values)
    refine ⟨it1, ?_, h4⟩
    have e : keys.length = keys.length - 1 + 1 := by omega
    rw [e]
    simp only [Iter.decrTimes, Nat.add_sub_cancel, h1, Option.bind_eq_bind, Option.some_bind, h3]

end FST

namespace FST

/-- The position `searchGreaterThan` reports in the node of the path `c` for a byte `x`
that labels no entry of the node. -/
theorem TRepr.searchGT_node {t : LoudsSparse} {TV : List (List Nat × Nat)}
    {ENT : List (List Nat)} (R : TRepr t TV ENT) (F : FlatTrie TV ENT) {c : List Nat}
    {a b x : Nat} (h : NodeOf ENT c a b) (habs : c ++ [x] ∉ ENT) :
    ∃ g, a ≤ g ∧ g ≤ b ∧ (∀ q, a ≤ q → q < g → (labOf ENT).getD q 0 < x) ∧
      (∀ q, g ≤ q → q < b → x < (labOf ENT).getD q 0) ∧
      t.labels_.searchGreaterThan x a (b - a) =
        some (if g < b then (true, g) else (false, a)) := by
  have hl := h.lt
  have hle := h.le
  have hab : a + (b - a) = b := by omega
  have hincr : IncrOn (labOf ENT) a (a + (b - a)) := by rw [hab]; exact F.node_incr h
  have hne : ∀ q, a ≤ q → q < a + (b - a) → (labOf ENT).getD q 0 ≠ x := by
    intro q h1 h2 hlab
    have hq : q < ENT.length := by omega
    have hpar : par ENT q = c := (h.mem q hq).mpr ⟨h1, by omega⟩
    have := F.entry_eq hq
    rw [hpar, hlab] at this
    exact habs (this ▸ getD_mem ENT q hq)
  obtain ⟨g, g1, g2, g3, g4⟩ := split_exists (labOf ENT) x a (b - a) hincr hne
  rw [hab] at g2 g4
  refine ⟨g, g1, g2, g3, g4, ?_⟩
  have := searchGT_spec R.lab x a (b - a) g (by rw [labOf_length]; omega) (by omega) g1
    (by omega) g3 (by rw [hab]; exact g4)
    (fun _ => R.term_last F h (Nat.le_refl _) (by omega))
  rw [hab] at this
  exact this

/-- A stored key that extends the path `c` of a node has its entry of length `c.length + 1`
in the node. -/
theorem key_in_node {TV : List (List Nat × Nat)} {ENT : List (List Nat)} (F : FlatTrie TV ENT)
    {c w : List Nat} {a b : Nat} (h : NodeOf ENT c a b) (hw : w ∈ keysOf TV) (hcw : c <+: w) :
    ∃ q, a ≤ q ∧ q < b ∧ ENT.getD q [] = w.take (c.length + 1) ∧
      w.take (c.length + 1) = c ++ [(labOf ENT).getD q 0] := by
  have hl := h.lt
  have hle := h.le
  -- `c` is a proper prefix of a stored key, so that it is not a stored key
  have ha : a < ENT.length := by omega
  have hpa : par ENT a = c := (h.mem a ha).mpr ⟨Nat.le_refl _, hl⟩
  obtain ⟨u0, hu0, hpre0⟩ := F.entry_pfx ha
  have hcu0 : c <+: u0 := by
    rw [← hpa]; exact (FlatTrie.par_pfx ENT a).trans hpre0
  have hlu0 : c.length < u0.length := by
    have h1 := hpre0.length_le
    have h2 := FlatTrie.par_length ENT a
    have h3 := List.length_pos.mpr (F.ne_nil ha)
    rw [hpa] at h2
    omega
  have hlen : c.length < w.length := by
    rcases Nat.lt_or_ge c.length w.length with h1 | h1
    · exact h1
    · exfalso
      have e := hcw.eq_of_length_le h1
      rw [← e] at hw
      have := F.pfree c hw u0 hu0 hcu0
      rw [this] at hlu0
      omega
  have hne : w.take (c.length + 1) ≠ [] := by
    intro e
    have := congrArg List.length e
    rw [List.length_take, List.length_nil] at this
    omega
  obtain ⟨q, hq, hqe⟩ := F.pos_of_pfx hne hw (List.take_prefix _ _)
  have hpq : par ENT q = c := by
    simp only [par]
    rw [hqe, List.dropLast_eq_take, List.take_take, List.length_take]
    rw [show min (min (c.length + 1) w.length - 1) (c.length + 1) = c.length by omega]
    exact (prefix_iff_take c w).mp hcw
  obtain ⟨q1, q2⟩ := (h.mem q hq).mp hpq
  refine ⟨q, q1, q2, hqe, ?_⟩
  have := F.entry_eq hq
  rw [hpq, hqe] at this
  exact this

end FST

namespace FST

theorem take_snoc_cons (c : List Nat) (x : Nat) (r : List Nat) :
    (c ++ x :: r).take (c.length + 1) = c ++ [x] := by
  rw [List.take_append_eq_append_take, List.take_of_length_le (by omega)]
  simp

theorem take_left_cons (c : List Nat) (x : Nat) (r : List Nat) :
    (c ++ x :: r).take c.length = c := by
  rw [List.take_append_eq_append_take, List.take_of_length_le (Nat.le_refl _)]
  simp

/-- When every label of the node of `c` is below the byte `x`, every stored key above
`c ++ x :: r` is above it already within the bytes of `c`. -/
theorem above_after_node {TV : List (List Nat × Nat)} {ENT : List (List Nat)}
    (F : FlatTrie TV ENT) {c r : List Nat} {a b x : Nat} (h : NodeOf ENT c a b)
    (hlow : ∀ q, a ≤ q → q < b → (labOf ENT).getD q 0 < x) :
    Above TV (c ++ x :: r) c.length := by
  intro w hw hlt
  have h1 := take_mono c.length hlt
  rw [take_left_cons] at h1 ⊢
  rcases (strLe_iff _ _).mp h1 with h2 | h2
  · exfalso
    have hcw : c <+: w := by rw [h2]; exact List.take_prefix _ _
    obtain ⟨q, q1, q2, _, q4⟩ := key_in_node F h hw hcw
    have hlab := hlow q q1 q2
    have h3 : strLt (w.take (c.length + 1)) ((c ++ x :: r).take (c.length + 1)) = true := by
      rw [q4, take_snoc_cons, strLt_snoc]
      simpa using hlab
    have h4 := strLt_of_take_lt _ h3
    rw [strLt_asymm h4] at hlt
    exact Bool.noConfusion hlt
  · exact h2

/-- The least key below the first entry of the node of `c` with a label above `x` is the
stored key that follows `c ++ x :: r`. -/
theorem succ_of_greater {TV : List (List Nat × Nat)} {ENT : List (List Nat)}
    (F : FlatTrie TV ENT) {c r u : List Nat} {a b x g : Nat} (h : NodeOf ENT c a b)
    (hg1 : a ≤ g) (hg2 : g < b) (hlow : ∀ q, a ≤ q → q < g → (labOf ENT).getD q 0 < x)
    (hhigh : x < (labOf ENT).getD g 0) (hu : IsLeastWith TV (ENT.getD g []) u) :
    IsSucc TV (c ++ x :: r) u := by
  obtain ⟨hu1, hu2, hu3⟩ := hu
  have hle := h.le
  have hg : g < ENT.length := by omega
  have hpar : par ENT g = c := (h.mem g hg).mpr ⟨hg1, hg2⟩
  have hent : ENT.getD g [] = c ++ [(labOf ENT).getD g 0] := by
    have := F.entry_eq hg
    rw [hpar] at this; exact this
  have hutake : u.take (c.length + 1) = c ++ [(labOf ENT).getD g 0] := by
    have := (prefix_iff_take _ _).mp hu2
    rw [hent] at this
    simpa using this
  have hpu : strLt ((c ++ x :: r).take (c.length + 1)) (u.take (c.length + 1)) = true := by
    rw [take_snoc_cons, hutake, strLt_snoc]
    simpa using hhigh
  refine ⟨hu1, strLt_of_take_lt _ hpu, ?_⟩
  intro w hw hlt
  by_contra hc
  have hwu : strLt w u = true := by
    rcases strLt_total u w with h1 | h1 | h1
    · exact absurd (strLe_of_lt h1) hc
    · exact absurd (h1 ▸ strLe_refl u) hc
    · exact h1
  have h1 := take_mono (c.length + 1) hlt
  have h2 := take_mono (c.length + 1) hwu
  rw [take_snoc_cons] at h1
  rw [hutake] at h2
  have hcw : c <+: w :=
    (prefix_convex h1 h2 (List.prefix_append _ _) (List.prefix_append _ _)).trans
      (List.take_prefix _ _)
  obtain ⟨q, q1, q2, q3, q4⟩ := key_in_node F h hw hcw
  rw [q4] at h1 h2
  have hx : ¬ (labOf ENT).getD q 0 < x := by
    intro hh
    have : strLt (c ++ [(labOf ENT).getD q 0]) (c ++ [x]) = true := by
      rw [strLt_snoc]; simpa using hh
    rw [strLe, this] at h1
    exact Bool.noConfusion h1
  have hy : ¬ (labOf ENT).getD g 0 < (labOf ENT).getD q 0 := by
    intro hh
    have : strLt (c ++ [(labOf ENT).getD g 0]) (c ++ [(labOf ENT).getD q 0]) = true := by
      rw [strLt_snoc]; simpa using hh
    rw [strLe, this] at h2
    exact Bool.noConfusion h2
  have hqg : q = g := by
    by_contra hne
    rcases Nat.lt_or_gt_of_ne hne with h3 | h3
    · exact hx (hlow q q1 h3)
    · exact hy (F.node_incr h g q hg1 h3 q2)
  subst hqg
  have : ENT.getD q [] <+: w := by rw [q3]; exact List.take_prefix _ _
  exact hc (hu3 w hw this)

/-- The least key that extends a probe which no stored key is a prefix of is the stored
key that follows the probe. -/
theorem succ_of_internal {TV : List (List Nat × Nat)} {p u : List Nat}
    (hno : ∀ w ∈ keysOf TV, ¬ w <+: p) (hu : IsLeastWith TV p u) : IsSucc TV p u := by
  obtain ⟨hu1, hu2, hu3⟩ := hu
  have hne : p ≠ u := fun e => hno u hu1 (e ▸ List.prefix_refl _)
  refine ⟨hu1, strLt_of_pfx hu2 hne, ?_⟩
  intro w hw hlt
  by_cases hpw : p <+: w
  · exact hu3 w hw hpw
  · have h1 := take_mono p.length hlt
    rw [List.take_length] at h1
    rcases (strLe_iff _ _).mp h1 with h2 | h2
    · exact absurd (h2 ▸ List.take_prefix _ _) hpw
    · apply strLe_of_lt
      apply strLt_of_take_lt p.length
      rw [(prefix_iff_take p u).mp hu2]
      exact h2

end FST

namespace FST

theorem atKey_of_landed_fresh {t : LoudsSparse} {TV : List (List Nat × Nat)}
    {ENT : List (List Nat)} (R : TRepr t TV ENT) (F : FlatTrie TV ENT) {it it1 : Iter}
    {u : List Nat} (L : Landed t TV ENT it it1 u) (hok : ItOK t it)
    (hterm : it.is_at_terminator_ = false) (hv : VInv TV ENT it (fun _ => False)) :
    AtKey t TV ENT it1 u u := by
  apply atKey_of_landed (S := fun _ => False) R F L hok hterm hv (strLe_refl u)
  intro w _
  constructor
  · intro h; exact h.elim
  · rintro ⟨h1, h2⟩
    rw [strLe, h2] at h1
    exact Bool.noConfusion h1

/-- Appending the position of a child, with the label read from the trie. -/
theorem OnPath.appendPos_ok {t : LoudsSparse} {TV : List (List Nat × Nat)}
    {ENT : List (List Nat)} (R : TRepr t TV ENT) {it : Iter} {e : List Nat}
    (h : OnPath ENT it e) (hok : ItOK t it) (g : Nat) (hg : g < ENT.length)
    (hge : ENT.getD g [] = e ++ [(labOf ENT).getD g 0]) :
    ∃ it1, it.appendPos t g = some it1 ∧ OnPath ENT it1 (e ++ [(labOf ENT).getD g 0]) ∧
      ItOK t it1 ∧ SameAux it it1 := by
  have hH : e.length < t.height_ := by
    have := R.height _ (getD_mem ENT g hg)
    rw [hge] at this
    simp at this
    omega
  obtain ⟨it1, e1, p1, ok1, s1⟩ := h.append_ok hok ((labOf ENT).getD g 0) g hH hg hge
  refine ⟨it1, ?_, p1, ok1, s1⟩
  have k1 : check (decide (it.key_len_ < it.key_.length)) = some () := by
    have : it.key_len_ < it.key_.length := by rw [h.1, hok.klen]; exact hH
    simp only [check, this, decide_True, if_true]
  have k2 : check (decide (it.key_len_ < it.pos_in_trie_.length)) = some () := by
    have : it.key_len_ < it.pos_in_trie_.length := by rw [h.1, hok.plen]; exact hH
    simp only [check, this, decide_True, if_true]
  simp only [Iter.append, k1, k2, Option.bind_eq_bind, Option.some_bind] at e1
  simp only [Iter.appendPos, k1, k2, R.readLab hg, Option.bind_eq_bind, Option.some_bind]
  exact e1

/-- The operator `++` on an iterator whose path `e` ends at the last position of a node,
for a probe `p` that shares the bytes of `e` but the last and has all larger keys beyond
these bytes. -/
theorem incr_after_last {t : LoudsSparse} {TV : List (List Nat × Nat)} {ENT : List (List Nat)}
    (R : TRepr t TV ENT) (F : FlatTrie TV ENT) (it : Iter) (e p : List Nat) (g : Nat)
    (hok : ItOK t it) (hp : OnPath ENT it e) (hg : g < ENT.length) (hge : ENT.getD g [] = e)
    (hlast : ENT.length ≤ g + 1 ∨ (loOf ENT).getD (g + 1) false = true)
    (hpe : e.dropLast = p.take (e.length - 1)) (hlen : e.length - 1 ≤ p.length)
    (hab : Above TV p (e.length - 1)) :
    (∃ u it1, IsSucc TV p u ∧ it.incr t = some it1 ∧
      Landed t TV ENT { it with is_at_terminator_ := false } it1 u) ∨
    ((∀ w ∈ keysOf TV, ¬ strLt p w = true) ∧ ∃ it1, it.incr t = some it1 ∧
      it1.is_valid_ = false) := by
  have hne : e ≠ [] := hge ▸ F.ne_nil hg
  have hpos : 0 < e.length := List.length_pos.mpr hne
  have k1 : check (decide (it.key_len_ > 0)) = some () := by
    have : it.key_len_ > 0 := by rw [hp.1]; exact hpos
    simp only [check, this, decide_True, if_true]
  obtain ⟨g0, hcur, hg0, hge0⟩ := hp.cur hne
  have hgg : g0 = g := F.pos_inj hg0 hg (hge0.trans hge.symm)
  subst hgg
  have hfuel : it.key_len_ + 1 = e.length + 1 := by rw [hp.1]
  have hpopv : (if g0 + 1 ≥ t.louds_bits_.numBits then some true
      else t.louds_bits_.readBit (g0 + 1)) = some true := by
    rw [R.numBits_lo]
    rcases hlast with h | h
    · rw [if_pos h]
    · by_cases c : g0 + 1 ≥ ENT.length
      · rw [if_pos c]
      · rw [if_neg c, R.readLo (by omega), h]
  have hkl : decr32 it.key_len_ = e.length - 1 := by
    rw [hp.1]; simp only [decr32]; rw [if_neg (by omega)]
  have hp2 : OnPath ENT { it with is_at_terminator_ := false, key_len_ := decr32 it.key_len_ }
      (p.take (e.length - 1)) := by
    rw [← hpe]; exact hp.pop hne
  have ok2 : ItOK t { it with is_at_terminator_ := false, key_len_ := decr32 it.key_len_ } :=
    ⟨hok.klen, hok.plen, hok.vlen, hok.ilen, hok.snn⟩
  by_cases hm0 : e.length - 1 = 0
  · right
    rw [hm0] at hab
    refine ⟨above_zero hab,
      { it with is_at_terminator_ := false, key_len_ := decr32 it.key_len_, is_valid_ := false },
      ?_, rfl⟩
    have hk0 : (decr32 it.key_len_ == 0) = true := by rw [hkl, hm0]; rfl
    simp only [Iter.incr, k1, Option.bind_eq_bind, Option.some_bind, hcur,
      Iter.incrLoop, hpopv, if_true, hk0]
  · have hk0 : (decr32 it.key_len_ == 0) = false := by
      rw [hkl, beq_eq_false_iff_ne]; exact hm0
    have hne2 : p.take (e.length - 1) ≠ [] := by
      intro h
      have := congrArg List.length h
      rw [List.length_take, List.length_nil] at this
      omega
    obtain ⟨g1, hcur1, hg1, hge1⟩ := hp2.cur hne2
    have hcur2 : it.pos_in_trie_[decr32 (decr32 it.key_len_)]? = some g1 := hcur1
    have hfl : ∀ r, Iter.incrLoop t e.length
          { it with is_at_terminator_ := false, key_len_ := decr32 it.key_len_ } (g1 + 1) = r →
        Iter.incrLoop t it.key_len_
          { it with is_at_terminator_ := false, key_len_ := decr32 it.key_len_ } (g1 + 1) = r :=
      fun r h => (congrArg (fun n => Iter.incrLoop t n
        { it with is_at_terminator_ := false, key_len_ := decr32 it.key_len_ } (g1 + 1))
        hp.1).trans h
    rcases incrLoop_spec R F p (e.length - 1) e.length
        { it with is_at_terminator_ := false, key_len_ := decr32 it.key_len_ } g1
        (by omega) hlen (by omega) ok2 hp2 hg1 hge1 hab with
      ⟨m2, it1, g2, b1, b2, b3, b4, b5, b6, b7, b8, b9, b10⟩ | ⟨it1, b1, b2, b3, b4, b5, b6⟩
    · left
      have hg2 : g2 < ENT.length := by omega
      have hne3 : p.take m2 ≠ [] := by
        intro h
        have := congrArg List.length h
        rw [List.length_take, List.length_nil] at this
        omega
      have hH : (p.take m2).length ≤ t.height_ := by
        have := R.height _ (getD_mem ENT g2 hg2)
        rw [b8] at this; exact this
      have hent : ENT.getD (g2 + 1) [] =
          (p.take m2).dropLast ++ [(labOf ENT).getD (g2 + 1) 0] := by
        have h1 := F.entry_eq b7
        rw [b9] at h1
        rw [← b8]
        exact h1
      obtain ⟨it2, c1, c2, c3, c4⟩ := b4.set_ok R b5 hne3 hH _ (g2 + 1) b7 hent
      rw [← hent] at c2
      obtain ⟨u, hu⟩ := exists_least F b7
      obtain ⟨it3, d1, d2⟩ := leftmost_from_path R F it2 _ u c3 c2 (F.ne_nil b7) hu
      refine ⟨u, it3, succ_of_sibling F b1 (by omega) b7 b8 b9 b10 hu, ?_, ?_⟩
      · simp only [Iter.incr, k1, Option.bind_eq_bind, Option.some_bind, hcur,
          Iter.incrLoop, hpopv, if_true, hk0, Bool.false_eq_true, if_false, hcur2,
          hfl _ b3, c1, d1]
      · have L := Landed.of_sameAux (sameAux_trans b6 c4) d2
        obtain ⟨gv, v1, v2, v3⟩ := L.val
        exact ⟨L.path, L.ok, L.valid, L.term, L.key, gv, v1, v2, v3⟩
    · right
      refine ⟨above_zero b6, it1, ?_, b2⟩
      simp only [Iter.incr, k1, Option.bind_eq_bind, Option.some_bind, hcur,
        Iter.incrLoop, hpopv, if_true, hk0, Bool.false_eq_true, if_false, hcur2, hfl _ b1]

end FST

namespace FST

/-- The move `moveToLeftInNextSubtrie` in the node of the path `c`, for a byte `x` that
labels no entry of the node: the iterator lands on the stored key that follows the probe
`c ++ x :: r`, or becomes invalid when no stored key follows. -/
theorem leftInNext_spec {t : LoudsSparse} {TV : List (List Nat × Nat)} {ENT : List (List Nat)}
    (R : TRepr t TV ENT) (F : FlatTrie TV ENT) {c r : List Nat} {a b x : Nat}
    (h : NodeOf ENT c a b) (habs : c ++ [x] ∉ ENT) (it : Iter) (hok : ItOK t it)
    (hp : OnPath ENT it c) (hterm : it.is_at_terminator_ = false)
    (hv : VInv TV ENT it (fun _ => False)) :
    SearchDone t TV ENT (c ++ x :: r) (t.moveToLeftInNextSubtrie a (b - a) x it) := by
  have hl := h.lt
  have hle := h.le
  obtain ⟨g, g1, g2, g3, g4, hs⟩ := R.searchGT_node F h habs
  by_cases hgb : g < b
  · -- a greater label exists
    have hg : g < ENT.length := by omega
    have hpar : par ENT g = c := (h.mem g hg).mpr ⟨g1, hgb⟩
    have hent : ENT.getD g [] = c ++ [(labOf ENT).getD g 0] := by
      have := F.entry_eq hg
      rw [hpar] at this; exact this
    obtain ⟨it1, e1, p1, ok1, s1⟩ := hp.appendPos_ok R hok g hg hent
    obtain ⟨u, hu⟩ := exists_least F hg
    rw [← hent] at p1
    obtain ⟨it2, e2, L2⟩ := leftmost_from_path R F it1 _ u ok1 p1 (F.ne_nil hg) hu
    left
    refine ⟨u, it2, succ_of_greater F h g1 hgb g3 (g4 g (Nat.le_refl _) hgb) hu, ?_,
      atKey_of_landed_fresh R F (L2.of_sameAux s1) hok hterm hv⟩
    simp only [LoudsSparse.moveToLeftInNextSubtrie, hs, hgb, if_true, Option.bind_eq_bind,
      Option.some_bind, Bool.not_true, Bool.false_eq_true, if_false, e1, e2]
  · -- every label of the node is below `x`
    have hgb2 : g = b := by omega
    subst hgb2
    have hb1 : g - 1 < ENT.length := by omega
    have hpar : par ENT (g - 1) = c := (h.mem (g - 1) hb1).mpr ⟨by omega, by omega⟩
    have hent : ENT.getD (g - 1) [] = c ++ [(labOf ENT).getD (g - 1) 0] := by
      have := F.entry_eq hb1
      rw [hpar] at this; exact this
    obtain ⟨it1, e1, p1, ok1, s1⟩ := hp.appendPos_ok R hok (g - 1) hb1 hent
    obtain ⟨_, _, l3⟩ := F.node_lo h
    have hlast : ENT.length ≤ g - 1 + 1 ∨ (loOf ENT).getD (g - 1 + 1) false = true := by
      rw [show g - 1 + 1 = g by omega]
      by_cases hb : g < ENT.length
      · exact Or.inr (l3 hb)
      · exact Or.inl (by omega)
    have hlen1 : (c ++ [(labOf ENT).getD (g - 1) 0]).length - 1 = c.length := by simp
    have k1 : check (decide (0 < a + (g - a))) = some () := by
      have : 0 < a + (g - a) := by omega
      simp only [check, this, decide_True, if_true]
    have hidx : a + (g - a) - 1 = g - 1 := by omega
    have hrun : t.moveToLeftInNextSubtrie a (g - a) x it = it1.incr t := by
      simp only [LoudsSparse.moveToLeftInNextSubtrie, hs, hgb, if_false, Option.bind_eq_bind,
        Option.some_bind, Bool.not_false, if_true, k1, hidx, e1]
    rw [hrun]
    rcases incr_after_last R F it1 _ (c ++ x :: r) (g - 1) ok1 p1 hb1 hent hlast
        (by rw [hlen1, take_left_cons]; simp) (by rw [hlen1]; simp)
        (by rw [hlen1]; exact above_after_node F h (fun q q1 q2 => g3 q q1 q2)) with
      ⟨u, it2, a1, a2, a3⟩ | ⟨a1, it2, a2, a3⟩
    · left
      refine ⟨u, it2, a1, a2, atKey_of_landed_fresh R F a3
        ⟨ok1.klen, ok1.plen, ok1.vlen, ok1.ilen, ok1.snn⟩ rfl ?_⟩
      have s2 : SameAux it { it1 with is_at_terminator_ := false } :=
        ⟨s1.vp, s1.vi, hterm.symm ▸ rfl, s1.valid⟩
      exact vinv_none_of_sameAux s2 hv
    · right
      exact ⟨a1, it2, a2, a3⟩

/-- The loop of `moveToKeyGreaterThan` on a probe that no stored key is a prefix of: it
returns inside the loop with the search done, or walks the whole probe and ends at its
node. -/
theorem mtkLoop_unstored {t : LoudsSparse} {TV : List (List Nat × Nat)}
    {ENT : List (List Nat)} (R : TRepr t TV ENT) (F : FlatTrie TV ENT)
    (hfit : t.lastNodeInLastWord) (sk : List Nat) (inclusive : Bool) :
    ∀ (rest c : List Nat) (a b : Nat) (it : Iter), NodeOf ENT c a b →
      (∀ w ∈ keysOf TV, ¬ w <+: c ++ rest) → ItOK t it → OnPath ENT it c →
      it.is_at_terminator_ = false → VInv TV ENT it (fun _ => False) →
      (∃ it1, t.moveToKeyGreaterThanLoop sk inclusive rest it a = some (it1, none) ∧
        SearchDone t TV ENT (c ++ rest) (some it1)) ∨
      (∃ it1 a2 b2, t.moveToKeyGreaterThanLoop sk inclusive rest it a = some (it1, some a2) ∧
        NodeOf ENT (c ++ rest) a2 b2 ∧ ItOK t it1 ∧ OnPath ENT it1 (c ++ rest) ∧
        it1.is_at_terminator_ = false ∧ VInv TV ENT it1 (fun _ => False)) := by
  intro rest
  induction rest with
  | nil =>
    intro c a b it hn _ hok hp hterm hv
    right
    rw [List.append_nil]
    exact ⟨it, a, b, rfl, hn, hok, hp, hterm, hv⟩
  | cons x r ih =>
    intro c a b it hn hno hok hp hterm hv
    have hsz := R.nodeSize_exact F hn hfit
    rw [LoudsSparse.moveToKeyGreaterThanLoop]
    by_cases hmem : c ++ [x] ∈ ENT
    · obtain ⟨g, hg, hge⟩ := exists_pos_of_mem ENT _ hmem
      obtain ⟨g1, g2, sz, hs1, hs2⟩ := R.search_entry F hn hg hge
      have hH : c.length < t.height_ := by
        have := R.height _ (getD_mem ENT g hg)
        rw [hge] at this
        simp at this
        omega
      obtain ⟨it1, e1, p1, ok1, s1⟩ := hp.append_ok hok x g hH hg hge
      have hkey : c ++ [x] ∉ keysOf TV := by
        intro hk
        apply hno _ hk
        have e2 : c ++ x :: r = (c ++ [x]) ++ r := by simp
        rw [e2]; exact List.prefix_append _ _
      have hch := (F.ch_true_iff hg).mpr (by rw [hge]; exact hkey)
      obtain ⟨a2, b2, hsel, hn2⟩ := F.child_node hg hch
      rw [hge] at hn2
      have e2 : c ++ x :: r = (c ++ [x]) ++ r := by simp
      have key := ih (c ++ [x]) a2 b2 it1 hn2 (by rw [← e2]; exact hno) ok1 p1
        (s1.term.trans hterm) (vinv_none_of_sameAux s1 hv)
      rw [← e2] at key
      simp only [hs1, hs2, Option.bind_eq_bind, Option.some_bind, Bool.not_true,
        Bool.false_eq_true, if_false, e1, R.readCh hg, hch, R.childNum, R.firstLabelPos, hsel]
      exact key
    · obtain ⟨_, hs2⟩ := R.search_absent F hn hfit hmem
      left
      have hdone := leftInNext_spec (r := r) R F hn hmem it hok hp hterm hv
      rcases hdone with ⟨u, it1, a1, a2, a3⟩ | ⟨a1, it1, a2, a3⟩
      · refine ⟨it1, ?_, Or.inl ⟨u, it1, a1, rfl, a3⟩⟩
        simp only [hsz, hs2, Option.bind_eq_bind, Option.some_bind, Bool.not_false, if_true, a2]
      · refine ⟨it1, ?_, Or.inr ⟨a1, it1, rfl, a3⟩⟩
        simp only [hsz, hs2, Option.bind_eq_bind, Option.some_bind, Bool.not_false, if_true, a2]

end FST

namespace FST

/-- The search `moveToKeyGreaterThan` from the fresh iterator with a probe that no stored
key is a prefix of. -/
theorem mtk_unstored {t : LoudsSparse} {TV : List (List Nat × Nat)} {ENT : List (List Nat)}
    (R : TRepr t TV ENT) (F : FlatTrie TV ENT) (hfit : t.lastNodeInLastWord) (p : List Nat)
    (inclusive : Bool) (hno : ∀ w ∈ keysOf TV, ¬ w <+: p) :
    SearchDone t TV ENT p (t.moveToKeyGreaterThan p inclusive (Iter.new t)) := by
  obtain ⟨hok, hp⟩ := new_ok R
  obtain ⟨b, hroot⟩ := F.root_node
  have hsel : (ones (loOf ENT))[0]? = some 0 :=
    FlatTrie.ones_head _ F.lo_zero (by rw [loOf_length]; exact F.length_pos)
  have hfirst : t.getFirstLabelPos (Iter.new t).start_node_num_ = some 0 := by
    rw [hok.snn, R.firstLabelPos]; exact hsel
  rcases mtkLoop_unstored R F hfit p inclusive p [] 0 b (Iter.new t) hroot
      (by simpa using hno) hok hp rfl (vinv_new t TV ENT) with
    ⟨it1, h1, h2⟩ | ⟨it1, a2, b2, h1, hn, ok1, p1, term1, v1⟩
  · have hrun : t.moveToKeyGreaterThan p inclusive (Iter.new t) = some it1 := by
      simp only [LoudsSparse.moveToKeyGreaterThan, hfirst, Option.bind_eq_bind,
        Option.some_bind, R.start, List.drop_zero, h1]
    rw [hrun]
    simpa using h2
  · simp only [List.nil_append] at hn p1
    have hl := hn.lt
    have hle := hn.le
    have ha2 : a2 < ENT.length := by omega
    -- a stored key extends the probe
    have hex : ∃ w ∈ keysOf TV, p <+: w := by
      obtain ⟨w, hw, hpw⟩ := F.entry_pfx ha2
      have hpa : par ENT a2 = p := (hn.mem a2 ha2).mpr ⟨Nat.le_refl _, hl⟩
      exact ⟨w, hw, by rw [← hpa]; exact (FlatTrie.par_pfx ENT a2).trans hpw⟩
    obtain ⟨u, hu1, hu2, hu3⟩ := exists_least_of_sorted (keysOf TV) (fun w => p <+: w)
      F.sortedT hex
    have hu : IsLeastWith TV p u := ⟨hu1, hu2, hu3⟩
    have hland : ∃ it2, it1.moveToLeftMostKey t = some it2 ∧ Landed t TV ENT it1 it2 u := by
      by_cases hpn : p = []
      · subst hpn
        exact leftmost_fresh R F it1 u ok1 p1 hu
      · exact leftmost_from_path R F it1 p u ok1 p1 hpn hu
    obtain ⟨it2, e2, L2⟩ := hland
    left
    refine ⟨u, it2, succ_of_internal hno hu, ?_, atKey_of_landed_fresh R F L2 ok1 term1 v1⟩
    have hmax : p.length ≤ max 0 p.length := by omega
    simp only [LoudsSparse.moveToKeyGreaterThan, hfirst, Option.bind_eq_bind,
      Option.some_bind, R.start, List.drop_zero, h1, R.readLab ha2,
      Bool.false_eq_true, if_false, hmax, if_true, e2]
    by_cases h5 : (labOf ENT).getD a2 0 = kTerminator
    · have e5 : ((labOf ENT).getD a2 0 == kTerminator) = true := by simpa using h5
      simp only [e5, if_true, R.readCh ha2, R.term_end F ha2 h5, Option.bind_eq_bind,
        Option.some_bind, Bool.not_true, Bool.false_eq_true, if_false]
      cases (chOf TV ENT).getD a2 false <;> simp
    · have e5 : ((labOf ENT).getD a2 0 == kTerminator) = false := by simpa using h5
      simp only [e5, Bool.false_eq_true, if_false]

end FST

namespace FST

theorem qualifies_of_lt (inclusive : Bool) {p k : List Nat} (h : strLt p k = true) :
    qualifies inclusive p k = true := by
  cases inclusive
  · simp [qualifies, h]
  · simp [qualifies, strLt_asymm h]

theorem not_qualifies_of_lt (inclusive : Bool) {p k : List Nat} (h : strLt k p = true) :
    qualifies inclusive p k = false := by
  cases inclusive
  · simp [qualifies, strLt_asymm h]
  · simp [qualifies, h]

namespace KeysOK

variable {keys : List (List Nat)} {L : Nat}

theorem tK_pfx (keys : List (List Nat)) (j : Nat) : tK keys j <+: kAt keys j :=
  List.take_prefix _ _

/-- A key other than `k_i` differs from `k_i` within the stored unique prefix of `k_i`. -/
theorem take_dOf_ne (K : KeysOK keys L) (i j : Nat) (hij : i ≠ j) (hi : i < keys.length)
    (hj : j < keys.length) : (kAt keys j).take (dOf keys i) ≠ tK keys i := by
  intro h
  have := K.take_ne2 i j (dOf keys i) hij hi hj (K.dOf_le i hi) h.symm
  omega

/-- The keys before `k_i` are below every probe that extends the stored prefix of `k_i`. -/
theorem lt_probe_of_lt (K : KeysOK keys L) {p : List Nat} (i j : Nat) (hji : j < i)
    (hi : i < keys.length) (hp : tK keys i <+: p) : strLt (kAt keys j) p = true := by
  have h1 := take_mono (dOf keys i) (K.kAt_lt j i hji hi)
  have hne := K.take_dOf_ne i j (by omega) hi (by omega)
  have hpt : p.take (dOf keys i) = tK keys i := by
    have := (prefix_iff_take _ _).mp hp
    rw [K.tK_length i hi] at this; exact this
  apply strLt_of_take_lt (dOf keys i)
  rw [hpt]
  rcases (strLe_iff _ _).mp h1 with h2 | h2
  · exact absurd h2 hne
  · exact h2

/-- The keys behind `k_i` are above every probe that extends the stored prefix of `k_i`. -/
theorem probe_lt_of_lt (K : KeysOK keys L) {p : List Nat} (i j : Nat) (hij : i < j)
    (hj : j < keys.length) (hp : tK keys i <+: p) : strLt p (kAt keys j) = true := by
  have h1 := take_mono (dOf keys i) (K.kAt_lt i j hij hj)
  have hne := K.take_dOf_ne i j (by omega) (by omega) hj
  have hpt : p.take (dOf keys i) = tK keys i := by
    have := (prefix_iff_take _ _).mp hp
    rw [K.tK_length i (by omega)] at this; exact this
  apply strLt_of_take_lt (dOf keys i)
  rw [hpt]
  rcases (strLe_iff _ _).mp h1 with h2 | h2
  · exact absurd h2.symm hne
  · exact h2

/-- For a probe that extends no stored prefix, a key is above the probe iff its stored
prefix is. -/
theorem lt_full_of_lt_stored {p : List Nat} (j : Nat) (h : strLt p (tK keys j) = true) :
    strLt p (kAt keys j) = true := by
  have hle : strLe (tK keys j) (kAt keys j) := by
    by_cases e : tK keys j = kAt keys j
    · rw [e]; exact strLe_refl _
    · exact strLe_of_lt (strLt_of_pfx (tK_pfx keys j) e)
  exact strLt_of_lt_of_le h hle

theorem full_lt_of_not_lt (K : KeysOK keys L) {p : List Nat} (j : Nat) (hj : j < keys.length)
    (hno : ¬ tK keys j <+: p) (h : strLt p (tK keys j) = false) :
    strLt (kAt keys j) p = true := by
  have hlt : strLt (tK keys j) p = true := by
    rcases strLt_total (tK keys j) p with h1 | h1 | h1
    · exact h1
    · exact absurd (h1 ▸ List.prefix_refl _) hno
    · rw [h1] at h; exact Bool.noConfusion h
  have h1 := take_mono (dOf keys j) hlt
  have e : (tK keys j).take (dOf keys j) = tK keys j := by
    rw [← K.tK_length j hj, List.take_length]
  rw [e] at h1
  apply strLt_of_take_lt (dOf keys j)
  show strLt (tK keys j) _ = true
  rcases (strLe_iff _ _).mp h1 with h2 | h2
  · exact absurd (h2 ▸ List.take_prefix _ _) hno
  · exact h2

end KeysOK

theorem ans_unique {keys : List (List Nat)} {inclusive : Bool} {p : List Nat}
    {o1 o2 : Option Nat} (h1 : Ans keys inclusive p o1) (h2 : Ans keys inclusive p o2) :
    o1 = o2 := by
  cases o1 with
  | none =>
    cases o2 with
    | none => rfl
    | some i =>
      have := h1 i h2.1
      rw [h2.2.1] at this
      exact Bool.noConfusion this
  | some i =>
    cases o2 with
    | none =>
      have := h2 i h1.1
      rw [h1.2.1] at this
      exact Bool.noConfusion this
    | some j =>
      congr 1
      rcases Nat.lt_trichotomy i j with h | h | h
      · have := h2.2.2 i h
        rw [h1.2.1] at this
        exact Bool.noConfusion this
      · exact h
      · have := h1.2.2 j h
        rw [h2.2.1] at this
        exact Bool.noConfusion this

end FST

namespace FST

/-- The search `moveToKeyGreaterThan` on a trie whose values are the indices of the keys,
and whose last node is sized exactly: it ends on the first key that qualifies. -/
theorem search_general (keys : List (List Nat)) (values : List Nat) (L : Nat)
    (K : KeysOK keys L) (hv : values.length = keys.length)
    (hno : TermOK keys) (hidx : ∀ i, i < keys.length → values.getD i 0 = i) :
    ∃ b t, FSTBuilder.new.buildSparse keys values = some b ∧
      LoudsSparse.new b keys = some t ∧
      (t.lastNodeFits = true → ∀ p inclusive, ∃ o, Ans keys inclusive p o ∧
        SearchRes t keys values (t.moveToKeyGreaterThan p inclusive (Iter.new t)) o) := by
  obtain ⟨b, t, hb, ht, R, hk, _⟩ := build_repr keys values L K hv hno
  have F := K.flatTrie values
  have hn : 0 < keys.length := List.length_pos.mpr K.ne
  refine ⟨b, t, hb, ht, ?_⟩
  intro hfit p inclusive
  by_cases hex : ∃ i0, i0 < keys.length ∧ tK keys i0 <+: p
  · obtain ⟨i0, hi0, hpre⟩ := hex
    have hfk : t.keys_[values.getD i0 0]? = some (kAt keys i0) := by
      rw [hk, hidx i0 hi0, kAt, List.getD_eq_getElem?_getD, List.getElem?_eq_getElem hi0]
      rfl
    obtain ⟨it2, H, hterm, e⟩ := mtk_stored R F p inclusive (tK keys i0) _ _
      ((mem_keysOf_tvOf keys values _).mpr ⟨i0, hi0, rfl⟩) (K.lookup_tK values i0 hi0) hfk hpre
    have hbelow : ∀ j, j < i0 → qualifies inclusive p (kAt keys j) = false := fun j hj =>
      not_qualifies_of_lt inclusive (K.lt_probe_of_lt i0 j hj hi0 hpre)
    -- the iterator stays on the key
    have stay : qualifies inclusive p (kAt keys i0) = true →
        t.moveToKeyGreaterThan p inclusive (Iter.new t) = some { it2 with is_valid_ := true } →
        ∃ o, Ans keys inclusive p o ∧
          SearchRes t keys values (t.moveToKeyGreaterThan p inclusive (Iter.new t)) o := by
      intro hq hr
      have A := H.set_valid hterm
      exact ⟨some i0, ⟨hi0, hq, hbelow⟩, _, hr, A.valid, atKey_getKey A,
        atKey_getValue R F A.holds (K.lookup_tK values i0 hi0)⟩
    -- the iterator is advanced
    have next : qualifies inclusive p (kAt keys i0) = false →
        t.moveToKeyGreaterThan p inclusive (Iter.new t) = it2.incr t →
        ∃ o, Ans keys inclusive p o ∧
          SearchRes t keys values (t.moveToKeyGreaterThan p inclusive (Iter.new t)) o := by
      intro hq hr
      by_cases hlast : i0 + 1 < keys.length
      · obtain ⟨it3, h3, A⟩ := atKey_incr R F H (K.tK_isSucc values i0 hlast)
        refine ⟨some (i0 + 1), ⟨hlast,
          qualifies_of_lt inclusive (K.probe_lt_of_lt i0 (i0 + 1) (by omega) hlast hpre), ?_⟩,
          it3, by rw [hr]; exact h3, A.valid, atKey_getKey A,
          atKey_getValue R F A.holds (K.lookup_tK values (i0 + 1) hlast)⟩
        intro j hj
        by_cases hji : j < i0
        · exact hbelow j hji
        · have : j = i0 := by omega
          subst this; exact hq
      · have hi : i0 = keys.length - 1 := by omega
        obtain ⟨it3, h3, h4, _⟩ := atKey_incr_last R F H (by
          rw [hi]; exact K.tK_greatest values)
        refine ⟨none, ?_, it3, by rw [hr]; exact h3, h4⟩
        intro j hj
        by_cases hji : j < i0
        · exact hbelow j hji
        · have : j = i0 := by omega
          subst this; exact hq
    by_cases c1 : strLt p (kAt keys i0) = true
    · apply stay (qualifies_of_lt inclusive c1)
      rw [e, if_pos c1]
    · by_cases c2 : strLt (kAt keys i0) p = true
      · apply next (not_qualifies_of_lt inclusive c2)
        rw [e, if_neg c1, if_pos c2]
      · cases inclusive
        · apply next (by simpa [qualifies] using c1)
          rw [e, if_neg c1, if_neg c2]
          simp
        · apply stay (by simpa [qualifies] using c2)
          rw [e, if_neg c1, if_neg c2]
          simp
  · have hnone : ∀ w ∈ keysOf (tvOf keys values), ¬ w <+: p := by
      intro w hw hp
      obtain ⟨j, hj, rfl⟩ := (mem_keysOf_tvOf keys values w).mp hw
      exact hex ⟨j, hj, hp⟩
    rcases mtk_unstored R F (lastNodeFits_spec t hfit) p inclusive hnone with
      ⟨u, it1, a1, a2, a3⟩ | ⟨a1, it1, a2, a3⟩
    · obtain ⟨i, hi, rfl⟩ := (mem_keysOf_tvOf keys values u).mp a1.1
      refine ⟨some i, ⟨hi, qualifies_of_lt inclusive (KeysOK.lt_full_of_lt_stored i a1.2.1), ?_⟩,
        it1, a2, a3.valid, atKey_getKey a3,
        atKey_getValue R F a3.holds (K.lookup_tK values i hi)⟩
      intro j hj
      apply not_qualifies_of_lt
      apply K.full_lt_of_not_lt j (by omega) (fun h => hex ⟨j, by omega, h⟩)
      cases hb2 : strLt p (tK keys j) with
      | false => rfl
      | true =>
        exfalso
        have h1 := a1.2.2 (tK keys j) ((mem_keysOf_tvOf keys values _).mpr ⟨j, by omega, rfl⟩) hb2
        rw [strLe, K.tK_lt j i hj hi] at h1
        exact Bool.noConfusion h1
    · refine ⟨none, ?_, it1, a2, a3⟩
      intro j hj
      apply not_qualifies_of_lt
      apply K.full_lt_of_not_lt j hj (fun h => hex ⟨j, hj, h⟩)
      cases hb2 : strLt p (tK keys j) with
      | false => rfl
      | true =>
        exact absurd hb2 (a1 _ ((mem_keysOf_tvOf keys values _).mpr ⟨j, hj, rfl⟩))

end FST

namespace FST

theorem no_terminator {keys : List (List Nat)} (hno : ∀ k ∈ keys, ∀ c ∈ k, c < 255) :
    ∀ k ∈ keys, kTerminator ∉ k := by
  intro k hk hc
  have := hno k hk _ hc
  simp [kTerminator] at this

theorem zip_index (keys : List (List Nat)) (values : List Nat) (k : List Nat) (v : Nat)
    (h : (k, v) ∈ keys.zip values) :
    ∃ i, i < keys.length ∧ keys.getD i [] = k ∧ values.getD i 0 = v := by
  obtain ⟨i, hi, e⟩ := List.mem_iff_getElem.mp h
  rw [List.getElem_zip] at e
  simp only [List.length_zip] at hi
  simp only [Prod.mk.injEq] at e
  refine ⟨i, by omega, ?_, ?_⟩
  · rw [List.getD_eq_getElem?_getD, List.getElem?_eq_getElem (by omega)]; exact e.1
  · rw [List.getD_eq_getElem?_getD, List.getElem?_eq_getElem (by omega)]; exact e.2

/-- A key that no stored unique prefix is a prefix of is reported absent, when the size of
the last node is computed exactly. -/
theorem build_absent (keys : List (List Nat)) (values : List Nat) (L : Nat)
    (K : KeysOK keys L) (hv : values.length = keys.length)
    (hno : TermOK keys) :
    ∃ b t, FSTBuilder.new.buildSparse keys values = some b ∧
      LoudsSparse.new b keys = some t ∧
      (t.lastNodeFits = true → ∀ probe offset,
        (∀ i, i < keys.length → ¬ (keys.getD i []).take (dOf keys i) <+: probe) →
        t.lookupKey probe 0 offset = some (false, offset)) := by
  obtain ⟨b, t, hb, ht, R, _, _⟩ := build_repr keys values L K hv hno
  refine ⟨b, t, hb, ht, ?_⟩
  intro hfit probe offset habs
  apply R.lookupKey_notfound (K.flatTrie values) offset (lastNodeFits_spec t hfit) probe
  intro tk htk
  obtain ⟨j, hj, rfl⟩ := (mem_keysOf_tvOf keys values tk).mp htk
  exact habs j hj

/-- A key that extends the stored unique prefix of an inserted key is reported present,
with the value of that key. -/
theorem build_extends (keys : List (List Nat)) (values : List Nat) (L : Nat)
    (K : KeysOK keys L) (hv : values.length = keys.length)
    (hno : TermOK keys) :
    ∃ b t, FSTBuilder.new.buildSparse keys values = some b ∧
      LoudsSparse.new b keys = some t ∧
      ∀ i, i < keys.length → ∀ probe offset,
        (keys.getD i []).take (dOf keys i) <+: probe →
        t.lookupKey probe 0 offset = some (true, values.getD i 0) := by
  obtain ⟨b, t, hb, ht, R, _, _⟩ := build_repr keys values L K hv hno
  refine ⟨b, t, hb, ht, ?_⟩
  intro i hi probe offset hpre
  exact R.lookupKey_found (K.flatTrie values) offset probe (tK keys i) _
    ((mem_keysOf_tvOf keys values _).mpr ⟨i, hi, rfl⟩) (K.lookup_tK values i hi) hpre

/-! ## C1: membership round trip -/

/-- C1 (counterexample): the keys "a" and "ab" are non-empty, strictly sorted, unique and
without the byte 255, and one is a proper prefix of the other; the builder violates the
assertion of `isSameKey` on them (equal lengths), so that no index is built. -/
theorem C1_prefix_keys_rejected :
    List.Pairwise (fun a b => strLt a b = true) [[97], [97, 98]] ∧
    (∀ k ∈ [[97], [97, 98]], ∀ c ∈ k, c < 255) ∧
    FSTBuilder.new.buildSparse [[97], [97, 98]] [1, 2] = none := by
  decide

/-- C1 (amended): for every non-empty, strictly sorted list of keys of one length `L > 0`
without the byte 255, with one value per key, the builder succeeds, the sparse trie is
constructed, and for every inserted pair `(k, v)` the point lookup of `k` returns true
with the value `v`. -/
theorem C1_membership_round_trip (keys : List (List Nat)) (values : List Nat) (L : Nat)
    (hne : keys ≠ []) (hlen : ∀ k ∈ keys, k.length = L) (hL : 0 < L)
    (hsorted : keys.Pairwise (fun a b => strLt a b = true))
    (hv : values.length = keys.length) (hno : ∀ k ∈ keys, ∀ c ∈ k, c < 255) :
    ∃ b t, FSTBuilder.new.buildSparse keys values = some b ∧
      LoudsSparse.new b keys = some t ∧
      ∀ k v, (k, v) ∈ keys.zip values → ∀ offset, t.lookupKey k 0 offset = some (true, v) := by
  obtain ⟨b, t, hb, ht, h⟩ :=
    build_lookup keys values L ⟨hne, hlen, hL, hsorted⟩ hv (Or.inl (no_terminator hno))
  refine ⟨b, t, hb, ht, ?_⟩
  intro k v hkv offset
  obtain ⟨i, hi, rfl, rfl⟩ := zip_index keys values k v hkv
  exact h i hi offset

theorem C1_membership_round_trip_witness :
    ∃ b t, FSTBuilder.new.buildSparse [[97, 97, 97], [97, 97, 98], [98, 99, 100]]
        [10, 20, 30] = some b ∧
      LoudsSparse.new b [[97, 97, 97], [97, 97, 98], [98, 99, 100]] = some t ∧
      ∀ k v, (k, v) ∈ List.zip [[97, 97, 97], [97, 97, 98], [98, 99, 100]] [10, 20, 30] →
        ∀ offset, t.lookupKey k 0 offset = some (true, v) :=
  C1_membership_round_trip [[97, 97, 97], [97, 97, 98], [98, 99, 100]] [10, 20, 30] 3
    (by decide) (by decide) (by decide) (by decide) (by decide) (by decide)

/-! ## C2: lookup of the inserted keys in the sparse encoding -/

/-- C2 (counterexample): the list that holds only the empty key is non-empty, strictly
sorted, and its keys have one length; `skipCommonPrefix` violates its assertion
`level + skip_prefix < key.length()` on the empty key, so that no trie is built. -/
theorem C2_empty_key_rejected :
    ([[]] : List (List Nat)) ≠ [] ∧
    List.Pairwise (fun a b => strLt a b = true) ([[]] : List (List Nat)) ∧
    (∀ k ∈ ([[]] : List (List Nat)), k.length = 0) ∧
    FSTBuilder.new.buildSparse [[]] [7] = none := by
  decide

/-- C2 (amended): for every non-empty, strictly sorted list of keys of one length `L > 0`
(byte strings: every element is below 256, the byte 255 included), with one value per key,
`buildSparse` succeeds, the trie is encoded in the sparse tier from level 0, and
`lookupKey (k_i, 0, offset)` returns true and sets `offset` to `v_i`, for every index `i`
and every initial `offset`. -/
theorem C2_lookupKey_inserted (keys : List (List Nat)) (values : List Nat) (L : Nat)
    (hne : keys ≠ []) (hlen : ∀ k ∈ keys, k.length = L) (hL : 0 < L)
    (hsorted : keys.Pairwise (fun a b => strLt a b = true))
    (hv : values.length = keys.length) (hbyte : ∀ k ∈ keys, ∀ c ∈ k, c < 256) :
    ∃ b t, FSTBuilder.new.buildSparse keys values = some b ∧
      LoudsSparse.new b keys = some t ∧ t.start_level_ = 0 ∧
      ∀ i, i < keys.length → ∀ offset,
        t.lookupKey (keys.getD i []) 0 offset = some (true, values.getD i 0) := by
  obtain ⟨b, t, hb, ht, R, _, _⟩ :=
    build_repr keys values L ⟨hne, hlen, hL, hsorted⟩ hv (Or.inr hbyte)
  have K : KeysOK keys L := ⟨hne, hlen, hL, hsorted⟩
  refine ⟨b, t, hb, ht, R.start, ?_⟩
  intro i hi offset
  exact R.lookupKey_found (K.flatTrie values) offset (kAt keys i) (tK keys i) _
    ((mem_keysOf_tvOf keys values _).mpr ⟨i, hi, rfl⟩) (K.lookup_tK values i hi)
    (List.take_prefix _ _)

/-- C2 (witness): the keys of the integers 246, 255 and 264 of the integer test
(`3 + 9 i` for `i` = 27, 28, 29) with the values 27, 28, 29; the second key ends in the
byte 255. -/
theorem C2_lookupKey_inserted_witness :
    ∃ b t, FSTBuilder.new.buildSparse [[0, 0, 0, 246], [0, 0, 0, 255], [0, 0, 1, 8]]
        [27, 28, 29] = some b ∧
      LoudsSparse.new b [[0, 0, 0, 246], [0, 0, 0, 255], [0, 0, 1, 8]] = some t ∧
      t.start_level_ = 0 ∧
      ∀ i, i < List.length [[0, 0, 0, 246], [0, 0, 0, 255], [0, 0, 1, 8]] → ∀ offset,
        t.lookupKey (List.getD [[0, 0, 0, 246], [0, 0, 0, 255], [0, 0, 1, 8]] i []) 0 offset
          = some (true, List.getD [27, 28, 29] i 0) :=
  C2_lookupKey_inserted [[0, 0, 0, 246], [0, 0, 0, 255], [0, 0, 1, 8]] [27, 28, 29] 4
    (by decide) (by decide) (by decide) (by decide) (by decide) (by decide)

/-- Lookups of keys that hold the byte 255 at the start of a node, inside a node and on a
terminal edge: every inserted key is found with its value. -/
theorem lookup_with_byte_255 :
    ((FSTBuilder.new.buildSparse [[1, 255, 7], [255, 1, 0], [255, 255, 0], [255, 255, 255]]
        [10, 20, 30, 40]).bind fun b =>
      (LoudsSparse.new b [[1, 255, 7], [255, 1, 0], [255, 255, 0], [255, 255, 255]]).map
        fun t => (t.labels_.labels_,
          [t.lookupKey [1, 255, 7] 0 0, t.lookupKey [255, 1, 0] 0 0,
            t.lookupKey [255, 255, 0] 0 0, t.lookupKey [255, 255, 255] 0 0]))
      = some ([1, 255, 1, 255, 0, 255],
          [some (true, 10), some (true, 20), some (true, 30), some (true, 40)]) := by
  decide

/-! ## C3: negative closure -/

/-- C3 (counterexample): with the keys "aaa", "aab", "bcd" (values 10, 20, 30) the key
"bzz" was not inserted and has no byte 255, yet `lookupKey` reports it present, with
the value of "bcd": the trie stores only the unique prefix "b" of "bcd", and the rest
of the key is not compared. -/
theorem C3_absent_key_reported_present :
    [98, 122, 122] ∉ [[97, 97, 97], [97, 97, 98], [98, 99, 100]] ∧
    (∀ c ∈ [98, 122, 122], c < 255) ∧
    ((FSTBuilder.new.buildSparse [[97, 97, 97], [97, 97, 98], [98, 99, 100]]
        [10, 20, 30]).bind fun b =>
      (LoudsSparse.new b [[97, 97, 97], [97, 97, 98], [98, 99, 100]]).bind fun t =>
        t.lookupKey [98, 122, 122] 0 0) = some (true, 30) := by
  decide

/-- C3 (amended): for every index built from a non-empty, strictly sorted list of keys of
one length `L > 0` (bytes 0 to 255), in which the size of the last node is computed
exactly (the last node starts in the last word of the LOUDS bits): a key that does not
extend the stored unique prefix `k_i.take (dOf keys i)` of any inserted key is reported
absent, and the value parameter is left as it was. -/
theorem C3_lookupKey_absent (keys : List (List Nat)) (values : List Nat) (L : Nat)
    (hne : keys ≠ []) (hlen : ∀ k ∈ keys, k.length = L) (hL : 0 < L)
    (hsorted : keys.Pairwise (fun a b => strLt a b = true))
    (hv : values.length = keys.length) (hbyte : ∀ k ∈ keys, ∀ c ∈ k, c < 256) :
    ∃ b t, FSTBuilder.new.buildSparse keys values = some b ∧
      LoudsSparse.new b keys = some t ∧
      (t.lastNodeFits = true → ∀ probe offset,
        (∀ i, i < keys.length → ¬ (keys.getD i []).take (dOf keys i) <+: probe) →
        t.lookupKey probe 0 offset = some (false, offset)) :=
  build_absent keys values L ⟨hne, hlen, hL, hsorted⟩ hv (Or.inr hbyte)

theorem C3_lookupKey_absent_witness :
    ∃ b t, FSTBuilder.new.buildSparse [[97, 97, 97], [97, 97, 98], [98, 99, 100]]
        [10, 20, 30] = some b ∧
      LoudsSparse.new b [[97, 97, 97], [97, 97, 98], [98, 99, 100]] = some t ∧
      t.lastNodeFits = true ∧ t.lookupKey [97, 97, 99] 0 5 = some (false, 5) := by
  obtain ⟨b, t, hb, ht, h⟩ :=
    C3_lookupKey_absent [[97, 97, 97], [97, 97, 98], [98, 99, 100]] [10, 20, 30] 3
      (by decide) (by decide) (by decide) (by decide) (by decide) (by decide)
  have hf : ((FSTBuilder.new.buildSparse [[97, 97, 97], [97, 97, 98], [98, 99, 100]]
        [10, 20, 30]).bind fun b =>
      (LoudsSparse.new b [[97, 97, 97], [97, 97, 98], [98, 99, 100]]).map fun t =>
        t.lastNodeFits) = some true := by decide
  rw [hb, Option.some_bind, ht, Option.map_some', Option.some.injEq] at hf
  exact ⟨b, t, hb, ht, hf, h hf _ _ (by decide)⟩

end FST

namespace FST

theorem getD_take_dOf (keys : List (List Nat)) (i : Nat) :
    (keys.getD i []).take (dOf keys i) = tK keys i := rfl

/-! ## C10: advancing past the end -/

end FST

namespace FST

/-! ## C5: inclusive search of a stored key -/

/-- C5 (counterexample): with the keys "aaa", "aab", "bcd" and the values 0, 1, 2 the
inclusive search of "bcd" yields a valid iterator whose `getKey` is "b", the stored unique
prefix, not "bcd"; with the values 10, 20, 30 the search reads the key list at index 30,
past its end. -/
theorem C5_getKey_is_stored_prefix :
    (((FSTBuilder.new.buildSparse [[97, 97, 97], [97, 97, 98], [98, 99, 100]] [0, 1, 2]).bind
      fun b => (LoudsSparse.new b [[97, 97, 97], [97, 97, 98], [98, 99, 100]]).bind
      fun t => (t.moveToKeyGreaterThan [98, 99, 100] true (Iter.new t)).bind
      fun it => some (it.isValid, it.getKey)) = some (true, [98])) ∧
    (((FSTBuilder.new.buildSparse [[97, 97, 97], [97, 97, 98], [98, 99, 100]] [10, 20, 30]).bind
      fun b => (LoudsSparse.new b [[97, 97, 97], [97, 97, 98], [98, 99, 100]]).map
      fun t => t.moveToKeyGreaterThan [98, 99, 100] true (Iter.new t)) = some none) := by
  decide

/-- C5 (amended): for the trie built from a non-empty, strictly sorted list of keys of one
length `L > 0` (bytes 0 to 255), whose values are the indices of the keys, the
inclusive search `moveToKeyGreaterThan (k_i, true)` from the fresh iterator yields a valid
iterator, for every stored key `k_i`; its `getKey` is the stored unique prefix of `k_i`,
of which `k_i` is an extension, and its `getValue` is `v_i`. -/
theorem C5_search_inclusive (keys : List (List Nat)) (values : List Nat) (L : Nat)
    (hne : keys ≠ []) (hlen : ∀ k ∈ keys, k.length = L) (hL : 0 < L)
    (hsorted : keys.Pairwise (fun a b => strLt a b = true))
    (hv : values.length = keys.length) (hbyte : ∀ k ∈ keys, ∀ c ∈ k, c < 256)
    (hidx : ∀ i, i < keys.length → values.getD i 0 = i) :
    ∃ b t, FSTBuilder.new.buildSparse keys values = some b ∧
      LoudsSparse.new b keys = some t ∧
      ∀ i, i < keys.length → ∃ it,
        t.moveToKeyGreaterThan (keys.getD i []) true (Iter.new t) = some it ∧
        it.isValid = true ∧ it.getKey = (keys.getD i []).take (dOf keys i) ∧
        it.getKey <+: keys.getD i [] ∧ it.getValue t = some (values.getD i 0) := by
  have K : KeysOK keys L := ⟨hne, hlen, hL, hsorted⟩
  obtain ⟨b, t, hb, ht, h1, _, _⟩ := search_stored keys values L K hv (Or.inr hbyte) hidx
  refine ⟨b, t, hb, ht, ?_⟩
  intro i hi
  obtain ⟨it, a1, a2, a3⟩ := h1 i hi
  refine ⟨it, a1, a2.valid, atKey_getKey a2, ?_, a3⟩
  rw [atKey_getKey a2]
  exact List.take_prefix _ _

theorem C5_search_inclusive_witness :
    ∃ b t, FSTBuilder.new.buildSparse [[97, 97, 97], [97, 97, 98], [98, 99, 100]]
        [0, 1, 2] = some b ∧
      LoudsSparse.new b [[97, 97, 97], [97, 97, 98], [98, 99, 100]] = some t ∧
      ∀ i, i < List.length [[97, 97, 97], [97, 97, 98], [98, 99, 100]] → ∃ it,
        t.moveToKeyGreaterThan (List.getD [[97, 97, 97], [97, 97, 98], [98, 99, 100]] i [])
          true (Iter.new t) = some it ∧
        it.isValid = true ∧
        it.getKey = (List.getD [[97, 97, 97], [97, 97, 98], [98, 99, 100]] i []).take
          (dOf [[97, 97, 97], [97, 97, 98], [98, 99, 100]] i) ∧
        it.getKey <+: List.getD [[97, 97, 97], [97, 97, 98], [98, 99, 100]] i [] ∧
        it.getValue t = some (List.getD [0, 1, 2] i 0) :=
  C5_search_inclusive [[97, 97, 97], [97, 97, 98], [98, 99, 100]] [0, 1, 2] 3
    (by decide) (by decide) (by decide) (by decide) (by decide) (by decide) (by decide)

/-! ## C6: exclusive search of a stored key -/

/-- C6 (counterexample): with the keys "a", "b", "c" and the values 2, 1, 0 the exclusive
search of "a" compares the probe with the key of index 2, "c", finds it greater and stops:
the iterator is valid on "a", with the value 2, not on "b". -/
theorem C6_exclusive_search_stays :
    ((FSTBuilder.new.buildSparse [[97], [98], [99]] [2, 1, 0]).bind
      fun b => (LoudsSparse.new b [[97], [98], [99]]).bind
      fun t => (t.moveToKeyGreaterThan [97] false (Iter.new t)).bind
      fun it => some (it.isValid, it.getKey, it.getValue t)) = some (true, [97], some 2) := by
  decide

/-- C6 (amended): for the trie built from a non-empty, strictly sorted list of keys of one
length `L > 0` (bytes 0 to 255), whose values are the indices of the keys, the
exclusive search `moveToKeyGreaterThan (k_i, false)` from the fresh iterator yields a valid
iterator on `k_(i+1)`, with the stored unique prefix of `k_(i+1)` as `getKey` and `v_(i+1)`
as `getValue`, and an invalid iterator when `k_i` is the largest stored key. -/
theorem C6_search_exclusive (keys : List (List Nat)) (values : List Nat) (L : Nat)
    (hne : keys ≠ []) (hlen : ∀ k ∈ keys, k.length = L) (hL : 0 < L)
    (hsorted : keys.Pairwise (fun a b => strLt a b = true))
    (hv : values.length = keys.length) (hbyte : ∀ k ∈ keys, ∀ c ∈ k, c < 256)
    (hidx : ∀ i, i < keys.length → values.getD i 0 = i) :
    ∃ b t, FSTBuilder.new.buildSparse keys values = some b ∧
      LoudsSparse.new b keys = some t ∧
      (∀ i, i + 1 < keys.length → ∃ it,
        t.moveToKeyGreaterThan (keys.getD i []) false (Iter.new t) = some it ∧
        it.isValid = true ∧ it.getKey = (keys.getD (i + 1) []).take (dOf keys (i + 1)) ∧
        it.getValue t = some (values.getD (i + 1) 0)) ∧
      ∃ it, t.moveToKeyGreaterThan (keys.getD (keys.length - 1) []) false (Iter.new t)
        = some it ∧ it.isValid = false := by
  have K : KeysOK keys L := ⟨hne, hlen, hL, hsorted⟩
  obtain ⟨b, t, hb, ht, _, h2, it, h3, h4, _⟩ :=
    search_stored keys values L K hv (Or.inr hbyte) hidx
  refine ⟨b, t, hb, ht, ?_, it, h3, h4⟩
  intro i hi
  obtain ⟨it, a1, a2, a3⟩ := h2 i hi
  exact ⟨it, a1, a2.valid, atKey_getKey a2, a3⟩

theorem C6_search_exclusive_witness :
    ∃ b t, FSTBuilder.new.buildSparse [[1, 2], [1, 3], [4, 0]] [0, 1, 2] = some b ∧
      LoudsSparse.new b [[1, 2], [1, 3], [4, 0]] = some t ∧
      (∀ i, i + 1 < List.length [[1, 2], [1, 3], [4, 0]] → ∃ it,
        t.moveToKeyGreaterThan (List.getD [[1, 2], [1, 3], [4, 0]] i []) false (Iter.new t)
          = some it ∧
        it.isValid = true ∧
        it.getKey = (List.getD [[1, 2], [1, 3], [4, 0]] (i + 1) []).take
          (dOf [[1, 2], [1, 3], [4, 0]] (i + 1)) ∧
        it.getValue t = some (List.getD [0, 1, 2] (i + 1) 0)) ∧
      ∃ it, t.moveToKeyGreaterThan
          (List.getD [[1, 2], [1, 3], [4, 0]] (List.length [[1, 2], [1, 3], [4, 0]] - 1) [])
          false (Iter.new t) = some it ∧ it.isValid = false :=
  C6_search_exclusive [[1, 2], [1, 3], [4, 0]] [0, 1, 2] 2
    (by decide) (by decide) (by decide) (by decide) (by decide) (by decide) (by decide)

end FST

namespace FST

/-! ## C9: values in the backward traversal -/

/-- The backward moves never write a value position: on every key of the backward
traversal from the largest key, `getValue` reads the first sparse value. -/
theorem backward_values (keys : List (List Nat)) (values : List Nat) (L : Nat)
    (K : KeysOK keys L) (hv : values.length = keys.length)
    (hno : ∀ k ∈ keys, kTerminator ∉ k) :
    ∃ b t it0, FSTBuilder.new.buildSparse keys values = some b ∧
      LoudsSparse.new b keys = some t ∧ (Iter.new t).moveToRightMostKey t = some it0 ∧
      ∀ i, i < keys.length → ∃ it, Iter.decrTimes t i it0 = some it ∧ it.isValid = true ∧
        it.getKey = tK keys (keys.length - 1 - i) ∧
        it.getValue t = t.positions_sparse_[0]? := by
  obtain ⟨b, t, hb, ht, R, _, _⟩ := build_repr keys values L K hv (Or.inl hno)
  have F := K.flatTrie values
  have hn : 0 < keys.length := List.length_pos.mpr K.ne
  obtain ⟨it0, h0, A0, hvp⟩ := onKey_last R F (tK keys (keys.length - 1))
    ((mem_keysOf_tvOf keys values _).mpr ⟨keys.length - 1, by omega, rfl⟩)
    (K.tK_greatest values)
  have T := traverse_back K values R (keys.length - 1) (by omega) A0
  refine ⟨b, t, it0, hb, ht, h0, ?_⟩
  intro i hi
  obtain ⟨it, h1, h2, h3⟩ := T i (by omega)
  refine ⟨it, h1, h2.valid, onKey_getKey h2, ?_⟩
  have hpos : 0 < (tK keys (keys.length - 1 - i)).length :=
    List.length_pos.mpr (F.keyne _ h2.key)
  obtain ⟨g, _, hg, hge⟩ := h2.path.cur (F.keyne _ h2.key)
  have hH : (tK keys (keys.length - 1 - i)).length ≤ t.height_ := by
    have := R.height _ (getD_mem _ g hg)
    rw [hge] at this; exact this
  have hd : decr32 it.key_len_ < t.height_ := by
    rw [h2.path.1]; simp only [decr32]; rw [if_neg (by omega)]; omega
  have hz : it.value_pos_[decr32 it.key_len_]? = some 0 := by
    rw [h3, hvp]
    simp only [Iter.new, LoudsSparse.getHeight, LoudsSparse.getStartLevel, R.start,
      Nat.sub_zero, List.getElem?_replicate, if_pos hd]
  simp only [Iter.getValue, hz, Option.bind_eq_bind, Option.some_bind]

/-- C9 (failing input): with the keys "a", "b", "c" and the values 10, 20, 30, the iterator
put on "c" by `moveToRightMostKey` and moved by `--` is valid on "b", and `getValue`
returns 10, the value of "a"; with the values 0, 1, 2 and the iterator put on "c" by the
inclusive search of "c", `getValue` is 2 on "c" and still 2 after `--`, on "b". -/
theorem C9_getValue_stale_after_decr :
    (((FSTBuilder.new.buildSparse [[97], [98], [99]] [10, 20, 30]).bind
      fun b => (LoudsSparse.new b [[97], [98], [99]]).bind
      fun t => ((Iter.new t).moveToRightMostKey t).bind
      fun it0 => (it0.decr t).bind
      fun it => some (it0.getKey, it.isValid, it.getKey, it.getValue t))
      = some ([99], true, [98], some 10)) ∧
    (((FSTBuilder.new.buildSparse [[97], [98], [99]] [0, 1, 2]).bind
      fun b => (LoudsSparse.new b [[97], [98], [99]]).bind
      fun t => (t.moveToKeyGreaterThan [99] true (Iter.new t)).bind
      fun it0 => (it0.decr t).bind
      fun it => some (it0.getKey, it0.getValue t, it.isValid, it.getKey, it.getValue t))
      = some ([99], some 2, true, [98], some 2)) := by
  decide

end FST

namespace FST

/-! ## C4: the search for the first key at or above a probe -/

/-- C4 (counterexample): with the keys "a", "b", "c" and the values 2, 0, 1 the inclusive
search of "b" finds the entry of "b", reads its value 0, compares the probe with the key of
index 0, "a", finds it smaller and advances: the iterator is left on "c", although "b" is
the smallest stored key that is at least the probe. With the values 10, 20, 30 the search
reads the key list at index 20, past its end. -/
theorem C4_search_depends_on_values :
    (((FSTBuilder.new.buildSparse [[97], [98], [99]] [2, 0, 1]).bind
      fun b => (LoudsSparse.new b [[97], [98], [99]]).bind
      fun t => (t.moveToKeyGreaterThan [98] true (Iter.new t)).bind
      fun it => some (it.isValid, it.getKey)) = some (true, [99])) ∧
    (((FSTBuilder.new.buildSparse [[97], [98], [99]] [10, 20, 30]).bind
      fun b => (LoudsSparse.new b [[97], [98], [99]]).map
      fun t => t.moveToKeyGreaterThan [98] true (Iter.new t)) = some none) := by
  decide

/-- C4 (amended): for the trie built from a non-empty, strictly sorted list of keys of one
length `L > 0` (bytes 0 to 255), whose values are the indices of the keys, and whose
last node starts in the last word of the LOUDS bits, for every probe and either value of
the inclusive flag, `moveToKeyGreaterThan` from the fresh iterator returns an iterator that
is invalid exactly when no stored key qualifies (is at least the probe, above it when the
search is exclusive), and that otherwise is valid on the first stored key `k_i` that
qualifies: `getKey` is the stored unique prefix of `k_i` and `getValue` is `v_i`. -/
theorem C4_search_first_qualifying (keys : List (List Nat)) (values : List Nat) (L : Nat)
    (hne : keys ≠ []) (hlen : ∀ k ∈ keys, k.length = L) (hL : 0 < L)
    (hsorted : keys.Pairwise (fun a b => strLt a b = true))
    (hv : values.length = keys.length) (hbyte : ∀ k ∈ keys, ∀ c ∈ k, c < 256)
    (hidx : ∀ i, i < keys.length → values.getD i 0 = i) :
    ∃ b t, FSTBuilder.new.buildSparse keys values = some b ∧
      LoudsSparse.new b keys = some t ∧
      (t.lastNodeFits = true → ∀ p inclusive, ∃ it,
        t.moveToKeyGreaterThan p inclusive (Iter.new t) = some it ∧
        (it.isValid = false ↔
          ∀ j, j < keys.length → qualifies inclusive p (keys.getD j []) = false) ∧
        ∀ i, i < keys.length → qualifies inclusive p (keys.getD i []) = true →
          (∀ j, j < i → qualifies inclusive p (keys.getD j []) = false) →
          it.isValid = true ∧ it.getKey = (keys.getD i []).take (dOf keys i) ∧
          it.getValue t = some (values.getD i 0)) := by
  have K : KeysOK keys L := ⟨hne, hlen, hL, hsorted⟩
  obtain ⟨b, t, hb, ht, h⟩ := search_general keys values L K hv (Or.inr hbyte) hidx
  refine ⟨b, t, hb, ht, ?_⟩
  intro hfit p inclusive
  obtain ⟨o, ho, hr⟩ := h hfit p inclusive
  cases o with
  | none =>
    obtain ⟨it, h1, h2⟩ := hr
    refine ⟨it, h1, ⟨fun _ => ho, fun _ => h2⟩, ?_⟩
    intro i hi hq _
    have := ho i hi
    rw [show kAt keys i = keys.getD i [] from rfl, hq] at this
    exact Bool.noConfusion this
  | some i0 =>
    obtain ⟨it, h1, h2, h3, h4⟩ := hr
    refine ⟨it, h1, ⟨?_, ?_⟩, ?_⟩
    · intro hinv
      rw [h2] at hinv
      exact Bool.noConfusion hinv
    · intro hall
      have := hall i0 ho.1
      rw [show keys.getD i0 [] = kAt keys i0 from rfl, ho.2.1] at this
      exact Bool.noConfusion this
    · intro i hi hq hbelow
      have hoi : Ans keys inclusive p (some i) := ⟨hi, hq, hbelow⟩
      have e : some i0 = some i := ans_unique ho hoi
      have e2 : i0 = i := Option.some.inj e
      subst e2
      exact ⟨h2, h3, h4⟩

theorem C4_search_first_qualifying_witness :
    ∃ b t, FSTBuilder.new.buildSparse [[97, 97, 97], [97, 97, 98], [98, 99, 100]]
        [0, 1, 2] = some b ∧
      LoudsSparse.new b [[97, 97, 97], [97, 97, 98], [98, 99, 100]] = some t ∧
      t.lastNodeFits = true ∧ ∀ p inclusive, ∃ it,
        t.moveToKeyGreaterThan p inclusive (Iter.new t) = some it ∧
        (it.isValid = false ↔
          ∀ j, j < List.length [[97, 97, 97], [97, 97, 98], [98, 99, 100]] →
            qualifies inclusive p
              (List.getD [[97, 97, 97], [97, 97, 98], [98, 99, 100]] j []) = false) ∧
        ∀ i, i < List.length [[97, 97, 97], [97, 97, 98], [98, 99, 100]] →
          qualifies inclusive p
            (List.getD [[97, 97, 97], [97, 97, 98], [98, 99, 100]] i []) = true →
          (∀ j, j < i → qualifies inclusive p
            (List.getD [[97, 97, 97], [97, 97, 98], [98, 99, 100]] j []) = false) →
          it.isValid = true ∧
          it.getKey = (List.getD [[97, 97, 97], [97, 97, 98], [98, 99, 100]] i []).take
            (dOf [[97, 97, 97], [97, 97, 98], [98, 99, 100]] i) ∧
          it.getValue t = some (List.getD [0, 1, 2] i 0) := by
  obtain ⟨b, t, hb, ht, h⟩ :=
    C4_search_first_qualifying [[97, 97, 97], [97, 97, 98], [98, 99, 100]] [0, 1, 2] 3
      (by decide) (by decide) (by decide) (by decide) (by decide) (by decide) (by decide)
  have hf : ((FSTBuilder.new.buildSparse [[97, 97, 97], [97, 97, 98], [98, 99, 100]]
        [0, 1, 2]).bind fun b =>
      (LoudsSparse.new b [[97, 97, 97], [97, 97, 98], [98, 99, 100]]).map fun t =>
        t.lastNodeFits) = some true := by decide
  rw [hb, Option.some_bind, ht, Option.map_some', Option.some.injEq] at hf
  exact ⟨b, t, hb, ht, hf, h hf⟩

end FST

namespace FST

/-! ## The cutoff between the dense and the sparse tier -/

theorem denseMemSpec_succ (nc : List Nat) (n : Nat) :
    denseMemSpec nc (n + 1) = denseMemSpec nc n + denseTerm nc n := by
  simp [denseMemSpec, List.range_succ]

theorem denseMemSpec_mono (nc : List Nat) {m n : Nat} (h : m ≤ n) :
    denseMemSpec nc m ≤ denseMemSpec nc n := by
  induction n with
  | zero =>
    have : m = 0 := by omega
    subst this; exact Nat.le_refl _
  | succ n ih =>
    rcases Nat.lt_or_ge m (n + 1) with h1 | h1
    · have := ih (by omega)
      rw [denseMemSpec_succ]; omega
    · have : m = n + 1 := by omega
      subst this; exact Nat.le_refl _

theorem sparseMemSpec_step (labels : List (List Nat)) (s : Nat) (h : s < labels.length) :
    sparseMemSpec labels s = sparseTerm labels s + sparseMemSpec labels (s + 1) := by
  have e : labels.length - s = (labels.length - (s + 1)) + 1 := by omega
  simp only [sparseMemSpec]
  rw [e, List.range_succ_eq_map]
  simp only [List.map_cons, List.sum_cons, List.map_map, Nat.add_zero]
  congr 2
  apply List.map_congr_left
  intro j _
  simp only [Function.comp, Nat.succ_eq_add_one]
  congr 1; omega

theorem sparseMemSpec_end (labels : List (List Nat)) (s : Nat) (h : labels.length ≤ s) :
    sparseMemSpec labels s = 0 := by
  have e : labels.length - s = 0 := by omega
  simp [sparseMemSpec, e]

theorem sparseMemSpec_anti (labels : List (List Nat)) {m n : Nat} (h : m ≤ n) :
    sparseMemSpec labels n ≤ sparseMemSpec labels m := by
  induction n with
  | zero =>
    have : m = 0 := by omega
    subst this; exact Nat.le_refl _
  | succ n ih =>
    rcases Nat.lt_or_ge m (n + 1) with h1 | h1
    · have h2 := ih (by omega)
      rcases Nat.lt_or_ge n labels.length with h3 | h3
      · rw [sparseMemSpec_step labels n h3] at h2; omega
      · rw [sparseMemSpec_end labels (n + 1) (by omega)]; omega
    · have : m = n + 1 := by omega
      subst this; exact Nat.le_refl _

/-- A `for` loop whose body maps `F x` to `F (x + 1)` maps `F start` to `F (start + n)`. -/
theorem forRange_steps {σ : Type} (body : Nat → σ → Option σ) (F : Nat → σ) :
    ∀ (n start : Nat), (∀ x, start ≤ x → x < start + n → body x (F x) = some (F (x + 1))) →
      forRange body n start (F start) = some (F (start + n)) := by
  intro n
  induction n with
  | zero => intro start _; rfl
  | succ n ih =>
    intro start h
    rw [forRange_succ, h start (Nat.le_refl _) (by omega), Option.some_bind,
      ih (start + 1) (fun x h1 h2 => h x (by omega) (by omega))]
    congr 2; omega

theorem denseLoop_eq (b : FSTBuilder) (R : Nat) (L : LevelsOK b) (N : NoOverflow b R)
    (n : Nat) (hn : n ≤ b.labels_.length) :
      forRange (fun level mem => do
          let nc ← b.node_counts_[level]?
          let mem1 := (mem + (2 * kFanout * nc) % 2 ^ 32) % 2 ^ 64
          if level > 0 then do
            let p ← b.node_counts_[level - 1]?
            some ((mem1 + (p / 8 + 1) % 2 ^ 32) % 2 ^ 64)
          else some mem1) n 0 (denseMemSpec b.node_counts_ 0)
        = some (denseMemSpec b.node_counts_ (0 + n)) := by
  apply forRange_steps _ (denseMemSpec b.node_counts_)
  intro start _ h
  have hg : b.node_counts_[start]? = some (b.node_counts_.getD start 0) :=
    getD_of_lt _ _ _ (by have := L.counts; omega)
  have hb := N.nodes start (by omega)
  have hm := denseMemSpec_mono b.node_counts_ (show start + 1 ≤ b.labels_.length by omega)
  have hd := N.dense
  rw [denseMemSpec_succ] at hm ⊢
  simp only [hg, Option.bind_eq_bind, Option.some_bind, kFanout]
  rcases Nat.eq_zero_or_pos start with h0 | h0
  · subst h0
    simp only [denseTerm, Nat.lt_irrefl, if_false, Nat.add_zero, gt_iff_lt] at hm ⊢
    rw [Nat.mod_eq_of_lt hb, Nat.mod_eq_of_lt (by omega)]
  · have hg2 : b.node_counts_[start - 1]? = some (b.node_counts_.getD (start - 1) 0) :=
      getD_of_lt _ _ _ (by have := L.counts; omega)
    have hb2 := N.nodes (start - 1) (by omega)
    simp only [denseTerm, gt_iff_lt, h0, if_true, hg2, Option.some_bind] at hm ⊢
    have q1 : (b.node_counts_.getD (start - 1) 0 / 8 + 1) % 2 ^ 32
        = b.node_counts_.getD (start - 1) 0 / 8 + 1 := Nat.mod_eq_of_lt (by omega)
    rw [Nat.mod_eq_of_lt hb, q1, Nat.mod_eq_of_lt (by omega), Nat.mod_eq_of_lt (by omega)]
    congr 1; omega

/-- Without overflow `computeDenseMem` returns the estimate of the specification. -/
theorem computeDenseMem_eq (b : FSTBuilder) (R : Nat) (L : LevelsOK b) (N : NoOverflow b R)
    (n : Nat) (h : n ≤ b.labels_.length) :
    b.computeDenseMem n = some (denseMemSpec b.node_counts_ n) := by
  have k1 : check (decide (n ≤ b.getTreeHeight)) = some () := by
    simp [check, FSTBuilder.getTreeHeight, h]
  have := denseLoop_eq b R L N n h
  simp only [Nat.zero_add] at this
  have z : denseMemSpec b.node_counts_ 0 = 0 := rfl
  rw [z] at this
  simp only [FSTBuilder.computeDenseMem, k1, Option.bind_eq_bind, Option.some_bind]
  exact this

theorem sparseLoop_eq (b : FSTBuilder) (R : Nat) (N : NoOverflow b R)
    (s : Nat) (hs : s ≤ b.labels_.length) :
      forRange (fun level mem => do
          let l ← b.labels_[level]?
          let num_items := l.length
          some ((mem + (num_items + (2 * num_items) % 2 ^ 32 / 8 + 1) % 2 ^ 32) % 2 ^ 64))
        (b.labels_.length - s) s
          ((fun x => sparseMemSpec b.labels_ s - sparseMemSpec b.labels_ x) s)
        = some ((fun x => sparseMemSpec b.labels_ s - sparseMemSpec b.labels_ x)
            (s + (b.labels_.length - s))) := by
  apply forRange_steps _ (fun x => sparseMemSpec b.labels_ s - sparseMemSpec b.labels_ x)
  intro start h1 h2
  have hg : b.labels_[start]? = some (b.labels_.getD start []) :=
    getD_of_lt _ _ _ (by omega)
  have hb := N.items start (by omega)
  have a1 := sparseMemSpec_anti b.labels_ h1
  have a2 := sparseMemSpec_anti b.labels_ (Nat.zero_le s)
  have a3 := N.sparse
  have a4 := sparseMemSpec_step b.labels_ start (by omega)
  have e2 : ((b.labels_.getD start []).length
      + 2 * (b.labels_.getD start []).length % 2 ^ 32 / 8 + 1) % 2 ^ 32
      = sparseTerm b.labels_ start := by
    simp only [sparseTerm]
    rw [Nat.mod_eq_of_lt hb, Nat.mod_eq_of_lt (by omega)]
  simp only [hg, Option.bind_eq_bind, Option.some_bind]
  rw [e2, Nat.mod_eq_of_lt (by omega)]
  congr 1; omega

/-- Without overflow `computeSparseMem` returns the estimate of the specification. -/
theorem computeSparseMem_eq (b : FSTBuilder) (R : Nat) (N : NoOverflow b R) (s : Nat) :
    b.computeSparseMem s = some (sparseMemSpec b.labels_ s) := by
  rcases Nat.lt_or_ge b.labels_.length s with h | h
  · have e : b.getTreeHeight - s = 0 := by simp [FSTBuilder.getTreeHeight]; omega
    simp only [FSTBuilder.computeSparseMem, e, forRange_zero]
    rw [sparseMemSpec_end _ _ (by omega)]
  · have hs := sparseMemSpec_anti b.labels_ (Nat.zero_le s)
    have h0 := N.sparse
    have := sparseLoop_eq b R N s h
    have e : s + (b.labels_.length - s) = b.labels_.length := by omega
    simp only [Nat.sub_self, e, sparseMemSpec_end b.labels_ b.labels_.length (Nat.le_refl _),
      Nat.sub_zero] at this
    simp only [FSTBuilder.computeSparseMem, FSTBuilder.getTreeHeight]
    exact this

theorem cutoffLoop_spec (b : FSTBuilder) (R : Nat) (hR : b.sparse_dense_ratio_ = R)
    (L : LevelsOK b) (N : NoOverflow b R) :
    ∀ (fuel c : Nat), c ≤ b.labels_.length → b.labels_.length - c < fuel →
      (∀ l, l < c → denseMemSpec b.node_counts_ l * R < sparseMemSpec b.labels_ l) →
      ∃ c1, b.cutoffLoop fuel c (denseMemSpec b.node_counts_ c) (sparseMemSpec b.labels_ c)
          = some c1 ∧ IsCutoff b.node_counts_ b.labels_ R c1 := by
  intro fuel
  induction fuel with
  | zero => intro c _ h; omega
  | succ fuel ih =>
    intro c hc hf hl
    have hp : denseMemSpec b.node_counts_ c * R < 2 ^ 64 :=
      Nat.lt_of_le_of_lt (Nat.mul_le_mul_right R (denseMemSpec_mono _ hc)) N.prod
    simp only [FSTBuilder.cutoffLoop, hR, Nat.mod_eq_of_lt hp, FSTBuilder.getTreeHeight]
    by_cases hcond : c < b.labels_.length ∧
        denseMemSpec b.node_counts_ c * R < sparseMemSpec b.labels_ c
    · have e : (decide (c < b.labels_.length) &&
          decide (denseMemSpec b.node_counts_ c * R < sparseMemSpec b.labels_ c)) = true := by
        simp [hcond.1, hcond.2]
      rw [if_pos e]
      simp only [computeDenseMem_eq b R L N (c + 1) (by omega), computeSparseMem_eq b R N,
        Option.bind_eq_bind, Option.some_bind]
      apply ih (c + 1) (by omega) (by omega)
      intro l hl2
      rcases Nat.lt_or_ge l c with h1 | h1
      · exact hl l h1
      · have : l = c := by omega
        subst this; exact hcond.2
    · have e : ¬ ((decide (c < b.labels_.length) &&
          decide (denseMemSpec b.node_counts_ c * R < sparseMemSpec b.labels_ c)) = true) := by
        simp only [Bool.and_eq_true, decide_eq_true_eq]; exact hcond
      rw [if_neg e]
      refine ⟨c, rfl, hc, ?_, hl⟩
      rcases Nat.lt_or_ge c b.labels_.length with h1 | h1
      · have : ¬ denseMemSpec b.node_counts_ c * R < sparseMemSpec b.labels_ c :=
          fun h => hcond ⟨h1, h⟩
        omega
      · rw [sparseMemSpec_end _ _ h1]; exact Nat.zero_le _

/-- The cutoff is determined by the estimates. -/
theorem IsCutoff.unique {nc : List Nat} {labels : List (List Nat)} {R c1 c2 : Nat}
    (h1 : IsCutoff nc labels R c1) (h2 : IsCutoff nc labels R c2) : c1 = c2 := by
  rcases Nat.lt_trichotomy c1 c2 with h | h | h
  · have := h2.least c1 h; have := h1.reach; omega
  · exact h
  · have := h1.least c2 h; have := h2.reach; omega

theorem range_getD_take {α : Type} (l : List α) (d : α) :
    ∀ (n s : Nat), s + n ≤ l.length →
      (List.range' s n).map (fun i => l.getD i d) = (l.drop s).take n := by
  intro n
  induction n with
  | zero => intro s _; simp
  | succ n ih =>
    intro s h
    have hs : s < l.length := by omega
    rw [List.range'_succ, List.map_cons, ih (s + 1) (by omega)]
    rw [List.drop_eq_getElem_cons hs, List.take_succ_cons]
    simp [List.getD_eq_getElem?_getD, List.getElem?_eq_getElem hs]

/-- The state after `determineCutoffLevel`: the cutoff is stored, the per-level values are
split at the cutoff and appended to the two flat value vectors, `values_` is cleared. -/
theorem determineCutoffLevel_spec (b : FSTBuilder) (R : Nat) (hR : b.sparse_dense_ratio_ = R)
    (L : LevelsOK b) (N : NoOverflow b R) :
    ∃ c, IsCutoff b.node_counts_ b.labels_ R c ∧
      b.determineCutoffLevel = some { b with
        sparse_start_level_ := c
        values_dense_ := b.values_dense_ ++ (b.values_.take c).flatten
        values_sparse_ := b.values_sparse_ ++ (b.values_.drop c).flatten
        values_ := [] } := by
  obtain ⟨c, h1, h2⟩ := cutoffLoop_spec b R hR L N (b.labels_.length + 1) 0 (by omega)
    (by omega) (fun l hl => by omega)
  refine ⟨c, h2, ?_⟩
  have hv := L.values
  have hc := h2.le
  have e1 := labels_loop b.values_ c 0 b.values_dense_ (by omega)
  have e2 := labels_loop b.values_ (b.values_.length - c) c b.values_sparse_ (by omega)
  rw [range_getD_take _ _ _ _ (by omega)] at e1 e2
  simp only [List.drop_zero] at e1
  rw [List.take_of_length_le (by simp)] at e2
  simp only [FSTBuilder.determineCutoffLevel, computeDenseMem_eq b R L N 0 (by omega),
    computeSparseMem_eq b R N, FSTBuilder.getTreeHeight, h1, Option.bind_eq_bind,
    Option.some_bind]
  rw [e1]
  simp only [Option.some_bind]
  rw [e2]
  rfl

end FST

namespace FST

/-! ## The sparse build as a recursion over the list of (key, value) pairs -/

theorem isSameKey_eq (a b : List Nat) :
    FSTBuilder.isSameKey a b = if a.length = b.length then some (a == b) else none := by
  by_cases h : a.length = b.length
  · simp [FSTBuilder.isSameKey, check, h]
  · simp [FSTBuilder.isSameKey, check, h]

theorem dropSame_length (k : List Nat) :
    ∀ (l r : List (List Nat × Nat)), dropSame k l = some r → r.length ≤ l.length := by
  intro l
  induction l with
  | nil => intro r h; simp [dropSame] at h; subst h; exact Nat.le_refl _
  | cons y rest ih =>
    intro r h
    simp only [dropSame] at h
    split at h
    · exact absurd h (by simp)
    · have := ih r h; simp; omega
    · simp at h; subst h; exact Nat.le_refl _

theorem buildList_fuel :
    ∀ (f1 f2 : Nat) (b : FSTBuilder) (l : List (List Nat × Nat)),
      l.length < f1 → l.length < f2 → buildList f1 b l = buildList f2 b l := by
  intro f1
  induction f1 with
  | zero => intro f2 b l h; omega
  | succ f1 ih =>
    intro f2 b l h1 h2
    obtain ⟨f2, rfl⟩ : ∃ g, f2 = g + 1 := ⟨f2 - 1, by omega⟩
    cases l with
    | nil => rfl
    | cons y rest =>
      simp only [buildList]
      cases hs : b.skipCommonPrefix y.1 0 with
      | none => rfl
      | some p =>
        simp only [Option.some_bind]
        cases hd : dropSame y.1 rest with
        | none => rfl
        | some r =>
          simp only [Option.some_bind]
          have hr := dropSame_length _ _ _ hd
          simp only [List.length_cons] at h1 h2
          cases hi : p.1.insertKeyBytesToTrieUntilUnique y.1 y.2 (nextKey r) p.2 0 with
          | none => rfl
          | some q =>
            simp only [Option.some_bind]
            exact ih f2 q.1 r (by omega) (by omega)

theorem dropSame_dedup (k : List Nat) :
    ∀ (l : List (List Nat × Nat)),
      dropSame k (dedupFrom k l) = (dropSame k l).map firstOfRuns := by
  intro l
  induction l with
  | nil => rfl
  | cons y rest ih =>
    by_cases h : y.1 = k
    · have e : FSTBuilder.isSameKey k y.1 = some true := by
        rw [isSameKey_eq]; simp [h]
      simp only [dedupFrom, h, if_true, dropSame]
      rw [← h] at ih ⊢
      rw [ih]
      simp [isSameKey_eq]
    · simp only [dedupFrom, h, if_false, dropSame]
      rw [isSameKey_eq]
      by_cases hl : k.length = y.1.length
      · have : (k == y.1) = false := by
          simp only [beq_eq_false_iff_ne, ne_eq]
          exact fun e => h e.symm
        simp [hl, this, firstOfRuns]
      · simp [hl]

theorem nextKey_firstOfRuns (l : List (List Nat × Nat)) : nextKey (firstOfRuns l) = nextKey l := by
  cases l <;> rfl

theorem firstOfRuns_length (l : List (List Nat × Nat)) : (firstOfRuns l).length ≤ l.length := by
  have h : ∀ (l : List (List Nat × Nat)) (k : List Nat), (dedupFrom k l).length ≤ l.length := by
    intro l
    induction l with
    | nil => intro k; exact Nat.le_refl _
    | cons y rest ih =>
      intro k
      simp only [dedupFrom]
      split
      · have := ih k; simp; omega
      · have := ih y.1; simp; omega
  cases l with
  | nil => exact Nat.le_refl _
  | cons x rest => have := h rest x.1; simp [firstOfRuns]; omega

/-- Only the first record of every run of equal keys is inserted. -/
theorem buildList_dedup :
    ∀ (fuel : Nat) (b : FSTBuilder) (l : List (List Nat × Nat)), l.length < fuel →
      buildList fuel b l = buildList fuel b (firstOfRuns l) := by
  intro fuel
  induction fuel with
  | zero => intro b l h; omega
  | succ fuel ih =>
    intro b l h
    cases l with
    | nil => rfl
    | cons y rest =>
      simp only [firstOfRuns, buildList]
      cases hs : b.skipCommonPrefix y.1 0 with
      | none => rfl
      | some p =>
        simp only [Option.some_bind]
        rw [dropSame_dedup]
        cases hd : dropSame y.1 rest with
        | none => rfl
        | some r =>
          simp only [Option.some_bind, Option.map_some', nextKey_firstOfRuns]
          have hr := dropSame_length _ _ _ hd
          simp only [List.length_cons] at h
          cases hi : p.1.insertKeyBytesToTrieUntilUnique y.1 y.2 (nextKey r) p.2 0 with
          | none => rfl
          | some q =>
            simp only [Option.some_bind]
            exact ih q.1 r (by omega)

end FST

namespace FST

/-! ## The index loop of `buildSparse` and the recursion over the records -/

theorem zip_drop_cons (keys : List (List Nat)) (values : List Nat) (i : Nat)
    (hk : i < keys.length) (hv : i < values.length) :
    (keys.zip values).drop i
      = (keys.getD i [], values.getD i 0) :: (keys.zip values).drop (i + 1) := by
  have hz : i < (keys.zip values).length := by simp; omega
  rw [List.drop_eq_getElem_cons hz]
  congr 1
  simp [List.getD_eq_getElem?_getD, List.getElem?_eq_getElem hk, List.getElem?_eq_getElem hv]

/-- The inner loop of `buildSparse` skips the records that `dropSame` drops. -/
theorem skipSameKeys_dropSame (keys : List (List Nat)) (values : List Nat)
    (hlen : keys.length ≤ values.length) (c : Nat) (hc : c < keys.length) :
    ∀ (fuel j : Nat), j < keys.length → keys.length - j ≤ fuel →
      (FSTBuilder.skipSameKeys keys c fuel j = none ∧
        dropSame (keys.getD c []) ((keys.zip values).drop (j + 1)) = none) ∨
      ∃ j1, j ≤ j1 ∧ j1 < keys.length ∧ FSTBuilder.skipSameKeys keys c fuel j = some j1 ∧
        dropSame (keys.getD c []) ((keys.zip values).drop (j + 1))
          = some ((keys.zip values).drop (j1 + 1)) := by
  intro fuel
  induction fuel with
  | zero => intro j h1 h2; omega
  | succ fuel ih =>
    intro j hj hf
    have hkc : keys[c]? = some (keys.getD c []) := getD_of_lt _ _ _ hc
    by_cases hn : j + 1 < keys.length
    · have hkn : keys[j + 1]? = some (keys.getD (j + 1) []) := getD_of_lt _ _ _ hn
      rw [zip_drop_cons keys values (j + 1) hn (by omega)]
      simp only [FSTBuilder.skipSameKeys, hn, if_true, hkc, hkn, Option.bind_eq_bind,
        Option.some_bind, dropSame]
      cases hs : FSTBuilder.isSameKey (keys.getD c []) (keys.getD (j + 1) []) with
      | none => left; simp
      | some same =>
        cases same with
        | true =>
          simp only [Option.some_bind, if_true]
          rcases ih (j + 1) hn (by omega) with h | ⟨j1, a1, a2, a3, a4⟩
          · left; exact h
          · right; exact ⟨j1, by omega, a2, a3, a4⟩
        | false =>
          right
          refine ⟨j, Nat.le_refl _, hj, by simp, ?_⟩
          rw [zip_drop_cons keys values (j + 1) hn (by omega)]
    · right
      refine ⟨j, Nat.le_refl _, hj, by simp [FSTBuilder.skipSameKeys, hn], ?_⟩
      have e : (keys.zip values).drop (j + 1) = [] := by
        apply List.drop_eq_nil_of_le
        simp; omega
      rw [e]; rfl

theorem nextKey_drop (keys : List (List Nat)) (values : List Nat)
    (hlen : keys.length ≤ values.length) (j : Nat) :
    nextKey ((keys.zip values).drop (j + 1)) = keys.getD (j + 1) [] := by
  by_cases hn : j + 1 < keys.length
  · rw [zip_drop_cons keys values (j + 1) hn (by omega)]; rfl
  · have e : (keys.zip values).drop (j + 1) = [] := by
      apply List.drop_eq_nil_of_le
      simp; omega
    rw [e, getD_ge _ _ _ (by omega)]; rfl

/-- The loop of `buildSparse` from index `i` on is the recursion over the records from `i`
on. -/
theorem buildSparseLoop_eq_buildList (keys : List (List Nat)) (values : List Nat)
    (hlen : keys.length ≤ values.length) :
    ∀ (fuel : Nat) (b : FSTBuilder) (i : Nat), i ≤ keys.length → keys.length - i < fuel →
      FSTBuilder.buildSparseLoop keys values fuel b i
        = buildList fuel b ((keys.zip values).drop i) := by
  intro fuel
  induction fuel with
  | zero => intro b i h1 h2; omega
  | succ fuel ih =>
    intro b i hi hf
    by_cases hn : i < keys.length
    · have hk : keys[i]? = some (keys.getD i []) := getD_of_lt _ _ _ hn
      have hv : values[i]? = some (values.getD i 0) := getD_of_lt _ _ _ (by omega)
      rw [zip_drop_cons keys values i hn (by omega)]
      simp only [FSTBuilder.buildSparseLoop, hn, if_true, hk, hv, Option.bind_eq_bind,
        Option.some_bind, buildList]
      cases hs : b.skipCommonPrefix (keys.getD i []) 0 with
      | none => rfl
      | some p =>
        obtain ⟨b1, level⟩ := p
        simp only [Option.some_bind]
        rcases skipSameKeys_dropSame keys values hlen i hn (keys.length + 1) i hn (by omega)
          with ⟨h1, h2⟩ | ⟨j, a1, a2, a3, a4⟩
        · rw [h1, h2]; rfl
        · rw [a3, a4]
          simp only [Option.some_bind]
          rw [nextKey_drop keys values hlen j]
          have hins : (if j < keys.length - 1 then
                (keys[j + 1]?).bind fun next_key =>
                  b1.insertKeyBytesToTrieUntilUnique (keys.getD i []) (values.getD i 0)
                    next_key level 0
              else b1.insertKeyBytesToTrieUntilUnique (keys.getD i []) (values.getD i 0) []
                level 0)
              = b1.insertKeyBytesToTrieUntilUnique (keys.getD i []) (values.getD i 0)
                  (keys.getD (j + 1) []) level 0 := by
            by_cases hj : j < keys.length - 1
            · have hk2 : keys[j + 1]? = some (keys.getD (j + 1) []) :=
                getD_of_lt _ _ _ (by omega)
              rw [if_pos hj, hk2]; rfl
            · rw [if_neg hj, getD_ge keys (j + 1) [] (by omega)]
          rw [hins]
          cases hq : b1.insertKeyBytesToTrieUntilUnique (keys.getD i []) (values.getD i 0)
              (keys.getD (j + 1) []) level 0 with
          | none => rfl
          | some q =>
            obtain ⟨b2, l2⟩ := q
            simp only [Option.some_bind]
            exact ih b2 (j + 1) (by omega) (by omega)
    · have e : (keys.zip values).drop i = [] := by
        apply List.drop_eq_nil_of_le
        simp; omega
      rw [e]
      simp [FSTBuilder.buildSparseLoop, hn, buildList]

/-- The sparse build is the recursion over the list of records. -/
theorem buildSparse_eq_buildList (b : FSTBuilder) (keys : List (List Nat)) (values : List Nat)
    (hlen : keys.length ≤ values.length) :
    b.buildSparse keys values = buildList (keys.length + 1) b (keys.zip values) := by
  have := buildSparseLoop_eq_buildList keys values hlen (keys.length + 1) b 0 (by omega)
    (by omega)
  simpa [FSTBuilder.buildSparse] using this

/-- The values past the number of keys are never read. -/
theorem buildSparse_surplus (b : FSTBuilder) (keys : List (List Nat)) (values extra : List Nat)
    (hlen : keys.length ≤ values.length) :
    b.buildSparse keys (values ++ extra) = b.buildSparse keys values := by
  rw [buildSparse_eq_buildList b keys _ (by simp; omega),
    buildSparse_eq_buildList b keys _ hlen]
  congr 1
  have e : keys = keys ++ [] := by simp
  conv_lhs => rw [← List.take_append_drop keys.length values]
  rw [List.append_assoc]
  have h1 : (values.take keys.length).length = keys.length := by simp; omega
  conv_rhs => rw [← List.take_append_drop keys.length values]
  conv_lhs => arg 1; rw [e]
  conv_rhs => arg 1; rw [e]
  rw [List.zip_append h1.symm, List.zip_append h1.symm]
  simp

theorem zip_unzip_records (l : List (List Nat × Nat)) :
    (l.map Prod.fst).zip (l.map Prod.snd) = l := by
  induction l with
  | nil => rfl
  | cons x rest ih => simp [ih]

/-- The sparse build inserts the first record of every run of equal keys only: the result is
the one for the list in which every run is replaced by its first record. -/
theorem buildSparse_firstOfRuns (b : FSTBuilder) (keys : List (List Nat)) (values : List Nat)
    (hlen : keys.length ≤ values.length) :
    b.buildSparse keys values
      = b.buildSparse ((firstOfRuns (keys.zip values)).map Prod.fst)
          ((firstOfRuns (keys.zip values)).map Prod.snd) := by
  have hz : (keys.zip values).length = keys.length := by simp; omega
  have hl := firstOfRuns_length (keys.zip values)
  rw [buildSparse_eq_buildList b keys values hlen,
    buildSparse_eq_buildList b _ _ (by simp), zip_unzip_records,
    buildList_dedup _ b _ (by omega)]
  exact buildList_fuel _ _ b _ (by omega) (by simp)

end FST

namespace FST

/-! ## Keys of different lengths -/

theorem badLen_head (x y : List Nat × Nat) (r : List (List Nat × Nat))
    (h : x.1.length = y.1.length) : BadLen (x :: r) → BadLen (y :: r) := by
  cases r with
  | nil => exact id
  | cons z r => simp only [BadLen]; rw [h]; exact id

theorem dropSame_bad (k : List Nat) (v : Nat) :
    ∀ (rest r : List (List Nat × Nat)), dropSame k rest = some r →
      BadLen ((k, v) :: rest) → BadLen r := by
  intro rest
  induction rest with
  | nil => intro r _ hb; exact absurd hb (by simp [BadLen])
  | cons y rest ih =>
    intro r h hb
    simp only [dropSame, isSameKey_eq] at h
    by_cases hl : k.length = y.1.length
    · simp only [hl, if_true] at h
      simp only [BadLen] at hb
      have hb2 : BadLen (y :: rest) := by
        rcases hb with hb | hb
        · exact absurd hl hb
        · exact hb
      by_cases he : (k == y.1) = true
      · simp only [he] at h
        exact ih r h (badLen_head y (k, v) rest hl.symm hb2)
      · have he2 : (k == y.1) = false := by simpa using he
        simp only [he2] at h
        simp only [Option.some.injEq] at h
        subst h; exact hb2
    · simp [hl] at h

/-- The sparse build fails when two consecutive keys have different lengths. -/
theorem buildList_bad :
    ∀ (fuel : Nat) (b : FSTBuilder) (l : List (List Nat × Nat)), BadLen l →
      buildList fuel b l = none := by
  intro fuel
  induction fuel with
  | zero => intro b l _; rfl
  | succ fuel ih =>
    intro b l hb
    cases l with
    | nil => exact absurd hb (by simp [BadLen])
    | cons y rest =>
      simp only [buildList]
      cases hs : b.skipCommonPrefix y.1 0 with
      | none => rfl
      | some p =>
        simp only [Option.some_bind]
        cases hd : dropSame y.1 rest with
        | none => rfl
        | some r =>
          simp only [Option.some_bind]
          have hr : BadLen r := dropSame_bad y.1 y.2 rest r hd hb
          cases hi : p.1.insertKeyBytesToTrieUntilUnique y.1 y.2 (nextKey r) p.2 0 with
          | none => rfl
          | some q =>
            simp only [Option.some_bind]
            exact ih q.1 r hr

theorem badLen_of_index :
    ∀ (keys : List (List Nat)) (values : List Nat) (i : Nat),
      keys.length ≤ values.length → i + 1 < keys.length →
      (keys.getD i []).length ≠ (keys.getD (i + 1) []).length → BadLen (keys.zip values) := by
  intro keys
  induction keys with
  | nil => intro values i _ h; simp at h
  | cons k keys ih =>
    intro values i hv hi hne
    cases values with
    | nil => simp at hv
    | cons v values =>
      cases keys with
      | nil => simp at hi
      | cons k2 keys =>
        cases values with
        | nil => simp at hv
        | cons v2 values =>
          simp only [List.zip_cons_cons, BadLen]
          cases i with
          | zero => left; simpa using hne
          | succ i =>
            right
            have := ih (v2 :: values) i (by simp at hv ⊢; omega) (by simp at hi ⊢; omega)
              (by simpa using hne)
            simpa using this

/-- The sparse build fails when two consecutive keys have different lengths. -/
theorem buildSparse_bad (b : FSTBuilder) (keys : List (List Nat)) (values : List Nat)
    (hv : keys.length ≤ values.length) (i : Nat) (hi : i + 1 < keys.length)
    (hne : (keys.getD i []).length ≠ (keys.getD (i + 1) []).length) :
    b.buildSparse keys values = none := by
  rw [buildSparse_eq_buildList b keys values hv]
  exact buildList_bad _ b _ (badLen_of_index keys values i hv hi hne)

end FST

namespace FST

/-! ## Sorted lists with duplicates -/

theorem mem_dedupFrom (k : List Nat) :
    ∀ (l : List (List Nat × Nat)) (z : List Nat × Nat), z ∈ dedupFrom k l → z ∈ l := by
  intro l
  induction l generalizing k with
  | nil => intro z h; simp [dedupFrom] at h
  | cons y rest ih =>
    intro z h
    simp only [dedupFrom] at h
    split at h
    · exact List.mem_cons_of_mem _ (ih k z h)
    · rcases List.mem_cons.mp h with h1 | h1
      · rw [h1]; exact List.mem_cons_self _ _
      · exact List.mem_cons_of_mem _ (ih y.1 z h1)

theorem mem_firstOfRuns (l : List (List Nat × Nat)) (z : List Nat × Nat)
    (h : z ∈ firstOfRuns l) : z ∈ l := by
  cases l with
  | nil => simp [firstOfRuns] at h
  | cons x rest =>
    simp only [firstOfRuns] at h
    rcases List.mem_cons.mp h with h1 | h1
    · rw [h1]; exact List.mem_cons_self _ _
    · exact List.mem_cons_of_mem _ (mem_dedupFrom x.1 rest z h1)

/-- After a record with the key `k`, in a list sorted with duplicates, the records that are
kept have keys above `k`, in strictly increasing order. -/
theorem dedupFrom_sorted :
    ∀ (l : List (List Nat × Nat)) (k : List Nat),
      l.Pairwise (fun x y => strLt y.1 x.1 = false) → (∀ y ∈ l, strLt y.1 k = false) →
      (∀ z ∈ dedupFrom k l, strLt k z.1 = true) ∧
      (dedupFrom k l).Pairwise (fun x y => strLt x.1 y.1 = true) := by
  intro l
  induction l with
  | nil => intro k _ _; simp [dedupFrom]
  | cons y rest ih =>
    intro k hs hk
    obtain ⟨h1, h2⟩ := List.pairwise_cons.mp hs
    by_cases e : y.1 = k
    · simp only [dedupFrom, e, if_true]
      exact ih k h2 (fun z hz => hk z (List.mem_cons_of_mem _ hz))
    · simp only [dedupFrom, e, if_false]
      have hky : strLt k y.1 = true := by
        rcases strLt_total k y.1 with h | h | h
        · exact h
        · exact absurd h.symm e
        · have := hk y (List.mem_cons_self _ _)
          rw [h] at this; exact Bool.noConfusion this
      obtain ⟨a1, a2⟩ := ih y.1 h2 (fun z hz => h1 z hz)
      refine ⟨?_, List.pairwise_cons.mpr ⟨a1, a2⟩⟩
      intro z hz
      rcases List.mem_cons.mp hz with h3 | h3
      · rw [h3]; exact hky
      · exact strLt_trans hky (a1 z h3)

/-- The first records of the runs of a list sorted with duplicates are in strictly increasing
order. -/
theorem firstOfRuns_sorted (l : List (List Nat × Nat))
    (hs : l.Pairwise (fun x y => strLt y.1 x.1 = false)) :
    (firstOfRuns l).Pairwise (fun x y => strLt x.1 y.1 = true) := by
  cases l with
  | nil => simp [firstOfRuns]
  | cons x rest =>
    obtain ⟨h1, h2⟩ := List.pairwise_cons.mp hs
    obtain ⟨a1, a2⟩ := dedupFrom_sorted rest x.1 h2 h1
    exact List.pairwise_cons.mpr ⟨a1, a2⟩

theorem zip_pairwise (keys : List (List Nat)) (values : List Nat)
    (hs : keys.Pairwise (fun a b => strLt b a = false)) :
    (keys.zip values).Pairwise (fun x y => strLt y.1 x.1 = false) := by
  induction keys generalizing values with
  | nil => simp
  | cons k keys ih =>
    cases values with
    | nil => simp
    | cons v values =>
      obtain ⟨h1, h2⟩ := List.pairwise_cons.mp hs
      rw [List.zip_cons_cons]
      refine List.pairwise_cons.mpr ⟨?_, ih values h2⟩
      intro z hz
      exact h1 z.1 (List.of_mem_zip hz).1

/-- The sparse build accepts a non-empty list of keys of one length `L > 0` that is sorted
with duplicates. -/
theorem buildSparse_with_duplicates (keys : List (List Nat)) (values : List Nat) (L : Nat)
    (hne : keys ≠ []) (hlen : ∀ k ∈ keys, k.length = L) (hL : 0 < L)
    (hs : keys.Pairwise (fun a b => strLt b a = false))
    (hv : values.length = keys.length) :
    ∃ r, FSTBuilder.new.buildSparse keys values = some r := by
  have K : KeysOK ((firstOfRuns (keys.zip values)).map Prod.fst) L := by
    refine ⟨?_, ?_, hL, ?_⟩
    · cases keys with
      | nil => exact absurd rfl hne
      | cons k keys =>
        cases values with
        | nil => simp at hv
        | cons v values => simp [firstOfRuns]
    · intro k hk
      obtain ⟨z, hz, rfl⟩ := List.mem_map.mp hk
      exact hlen z.1 (List.of_mem_zip (mem_firstOfRuns _ z hz)).1
    · rw [List.pairwise_map]
      exact firstOfRuns_sorted _ (zip_pairwise keys values hs)
  obtain ⟨r, hr, _⟩ := buildSparse_state _ ((firstOfRuns (keys.zip values)).map Prod.snd) L K
    (by simp)
  exact ⟨r, by rw [buildSparse_firstOfRuns FSTBuilder.new keys values (by omega)]; exact hr⟩

end FST

namespace FST

/-! ## Building with a skipped prefix -/

theorem getElem?_drop_add (key : List Nat) (s level : Nat) :
    (key.drop s)[level]? = key[level + s]? := by
  rw [List.getElem?_drop, Nat.add_comm]

/-- The loop of `skipCommonPrefix` with the prefix length `s` is the loop on the key without
its first `s` bytes. -/
theorem skipCommonPrefixLoop_drop (key : List Nat) (s : Nat) :
    ∀ (f1 f2 : Nat) (b : FSTBuilder) (level : Nat),
      key.length - s - level < f1 → key.length - s - level < f2 →
      FSTBuilder.skipCommonPrefixLoop key s f1 b level
        = FSTBuilder.skipCommonPrefixLoop (key.drop s) 0 f2 b level := by
  intro f1
  induction f1 with
  | zero => intro f2 b level h; omega
  | succ f1 ih =>
    intro f2 b level h1 h2
    obtain ⟨f2, rfl⟩ : ∃ g, f2 = g + 1 := ⟨f2 - 1, by omega⟩
    simp only [FSTBuilder.skipCommonPrefixLoop, Nat.add_zero, List.length_drop,
      getElem?_drop_add]
    by_cases hc : level + s < key.length
    · have hc2 : level < key.length - s := by omega
      simp only [hc, hc2, if_true, Option.bind_eq_bind]
      cases key[level + s]? with
      | none => rfl
      | some c =>
        simp only [Option.some_bind]
        cases b.isCharCommonPrefix c level with
        | none => rfl
        | some same =>
          simp only [Option.some_bind]
          cases same with
          | false => rfl
          | true =>
            simp only [if_true]
            cases b.getNumItems level with
            | none => rfl
            | some n =>
              simp only [Option.some_bind]
              cases check (decide (0 < n)) with
              | none => rfl
              | some u =>
                simp only [Option.some_bind]
                cases b.setChildBit level (n - 1) with
                | none => rfl
                | some b1 =>
                  simp only [Option.some_bind]
                  exact ih f2 b1 (level + 1) (by omega) (by omega)
    · have hc2 : ¬ level < key.length - s := by omega
      simp only [hc, hc2, if_false]

theorem skipCommonPrefix_drop (b : FSTBuilder) (key : List Nat) (s : Nat) :
    b.skipCommonPrefix key s = b.skipCommonPrefix (key.drop s) 0 := by
  simp only [FSTBuilder.skipCommonPrefix,
    skipCommonPrefixLoop_drop key s (key.length + 1) ((key.drop s).length + 1) b 0
      (by omega) (by simp), List.length_drop, Nat.add_zero]
  cases FSTBuilder.skipCommonPrefixLoop (key.drop s) 0 (key.length - s + 1) b 0 with
  | none => rfl
  | some p =>
    have e : decide (p.2 + s < key.length) = decide (p.2 < key.length - s) := by
      by_cases h : p.2 + s < key.length
      · have h2 : p.2 < key.length - s := by omega
        simp [h, h2]
      · have h2 : ¬ p.2 < key.length - s := by omega
        simp [h, h2]
    simp only [Option.bind_eq_bind, Option.some_bind, e]

/-- The loop of `insertKeyBytesToTrieUntilUnique` with the prefix length `s` is the loop on
the keys without their first `s` bytes. -/
theorem insertLoop_drop (key next_key : List Nat) (s : Nat) :
    ∀ (f1 f2 : Nat) (b : FSTBuilder) (level : Nat), 0 < level →
      key.length - s - level < f1 → key.length - s - level < f2 →
      FSTBuilder.insertLoop key next_key s f1 b level
        = FSTBuilder.insertLoop (key.drop s) (next_key.drop s) 0 f2 b level := by
  intro f1
  induction f1 with
  | zero => intro f2 b level _ h; omega
  | succ f1 ih =>
    intro f2 b level hl h1 h2
    obtain ⟨f2, rfl⟩ : ∃ g, f2 = g + 1 := ⟨f2 - 1, by omega⟩
    have e1 : (key.drop s)[level - 1]? = key[level + s - 1]? := by
      rw [List.getElem?_drop]; congr 1; omega
    have e2 : (next_key.drop s)[level - 1]? = next_key[level + s - 1]? := by
      rw [List.getElem?_drop]; congr 1; omega
    have k1 : check (decide (0 < level + s)) = some () := by simp [check]; omega
    have k2 : check (decide (0 < level)) = some () := by simp [check, hl]
    simp only [FSTBuilder.insertLoop, Nat.add_zero, List.length_drop, getElem?_drop_add, e1, e2,
      k1, k2, Option.bind_eq_bind, Option.some_bind]
    by_cases hc : level + s < key.length ∧ level + s < next_key.length
    · have c1 : (decide (level + s < key.length) && decide (level + s < next_key.length))
          = true := by simp [hc.1, hc.2]
      have c2 : (decide (level < key.length - s) && decide (level < next_key.length - s))
          = true := by
        have := hc.1; have := hc.2
        simp only [Bool.and_eq_true, decide_eq_true_eq]; omega
      rw [if_pos c1, if_pos c2]
      cases key[level + s - 1]? with
      | none => rfl
      | some x =>
        simp only [Option.some_bind]
        cases next_key[level + s - 1]? with
        | none => rfl
        | some y =>
          simp only [Option.some_bind]
          by_cases hxy : (x == y) = true
          · simp only [hxy, if_true]
            cases key[level + s]? with
            | none => rfl
            | some c =>
              simp only [Option.some_bind]
              cases b.insertKeyByte c level true false with
              | none => rfl
              | some b1 =>
                simp only [Option.some_bind]
                exact ih f2 b1 (level + 1) (by omega) (by omega) (by omega)
          · simp only [hxy, if_false]
            rfl
    · have c1 : ¬ ((decide (level + s < key.length) && decide (level + s < next_key.length))
          = true) := by
        simp only [Bool.and_eq_true, decide_eq_true_eq]; exact hc
      have c2 : ¬ ((decide (level < key.length - s) && decide (level < next_key.length - s))
          = true) := by
        simp only [Bool.and_eq_true, decide_eq_true_eq]
        intro h; exact hc ⟨by omega, by omega⟩
      rw [if_neg c1, if_neg c2]

theorem insertKeyBytesToTrieUntilUnique_drop (b : FSTBuilder) (key next_key : List Nat)
    (value start_level s : Nat) :
    b.insertKeyBytesToTrieUntilUnique key value next_key start_level s
      = b.insertKeyBytesToTrieUntilUnique (key.drop s) value (next_key.drop s) start_level 0 := by
  have e0 : decide (start_level + s < key.length) = decide (start_level < key.length - s) := by
    by_cases h : start_level + s < key.length
    · have h2 : start_level < key.length - s := by omega
      simp [h, h2]
    · have h2 : ¬ start_level < key.length - s := by omega
      simp [h, h2]
  simp only [FSTBuilder.insertKeyBytesToTrieUntilUnique, Nat.add_zero, List.length_drop,
    getElem?_drop_add, List.drop_zero, e0, Option.bind_eq_bind]
  cases check (decide (start_level < key.length - s)) with
  | none => rfl
  | some u =>
    simp only [Option.some_bind]
    cases b.isLevelEmpty start_level with
    | none => rfl
    | some st =>
      simp only [Option.some_bind]
      cases key[start_level + s]? with
      | none => rfl
      | some c =>
        simp only [Option.some_bind]
        cases b.insertKeyByte c start_level st false with
        | none => rfl
        | some b1 =>
          simp only [Option.some_bind]
          by_cases hc : start_level + 1 + s > next_key.length
          · have hc2 : start_level + 1 > next_key.length - s := by omega
            simp only [hc, hc2, if_true]
          · have hc2 : ¬ start_level + 1 > next_key.length - s := by omega
            simp only [hc, hc2, if_false]
            cases FSTBuilder.isSameKey (List.take (start_level + 1) (List.drop s key))
                (List.take (start_level + 1) (List.drop s next_key)) with
            | none => rfl
            | some same =>
              simp only [Option.some_bind]
              cases same with
              | false => rfl
              | true =>
                simp only [Bool.not_true, Bool.false_eq_true, if_false]
                rw [insertLoop_drop key next_key s (key.length + 1) (key.length - s + 1) b1
                  (start_level + 1) (by omega) (by omega) (by omega)]

end FST

namespace FST

/-! ## The span build and the build from the stripped records -/

theorem isSameKeySkip_drop (a n : List Nat) (s : Nat) (ha : s < a.length) (hn : s < n.length) :
    FSTBuilder.isSameKeySkip a n s = FSTBuilder.isSameKey (a.drop s) (n.drop s) := by
  by_cases h : a.length = n.length
  · have h2 : a.length - s = n.length - s := by omega
    simp [FSTBuilder.isSameKeySkip, FSTBuilder.isSameKey, check, h, h2, hn]
  · have h2 : ¬ a.length - s = n.length - s := by omega
    simp [FSTBuilder.isSameKeySkip, FSTBuilder.isSameKey, check, h, h2]

theorem skipSameParts_drop (kvs : List KeyPartValue) (s : Nat) (hs : s < 256)
    (hlen : ∀ kv ∈ kvs, s < kv.key_part.length) (c : Nat) :
    ∀ (fuel j : Nat),
      FSTBuilder.skipSameParts kvs c s fuel j
        = FSTBuilder.skipSameKeys (strippedKeys kvs s) c fuel j := by
  intro fuel
  induction fuel with
  | zero => intro j; rfl
  | succ fuel ih =>
    intro j
    have hm : s % 2 ^ 8 = s := Nat.mod_eq_of_lt hs
    simp only [FSTBuilder.skipSameParts, FSTBuilder.skipSameKeys, strippedKeys, List.length_map,
      List.getElem?_map, hm, Option.bind_eq_bind]
    by_cases hj : j + 1 < kvs.length
    · simp only [hj, if_true]
      cases hc : kvs[c]? with
      | none => rfl
      | some a =>
        cases hn : kvs[j + 1]? with
        | none => rfl
        | some n =>
          have ha := hlen a (List.getElem?_mem hc)
          have hn2 := hlen n (List.getElem?_mem hn)
          simp only [Option.map_some', Option.some_bind, isSameKeySkip_drop _ _ s ha hn2]
          cases FSTBuilder.isSameKey (a.key_part.drop s) (n.key_part.drop s) with
          | none => rfl
          | some same =>
            simp only [Option.some_bind]
            cases same with
            | false => rfl
            | true =>
              simp only [if_true]
              have := ih (j + 1)
              simp only [strippedKeys] at this
              exact this
    · simp only [hj, if_false]

theorem buildSparseSpanLoop_drop (kvs : List KeyPartValue) (s : Nat) (hs : s < 256)
    (hlen : ∀ kv ∈ kvs, s < kv.key_part.length) :
    ∀ (fuel : Nat) (b : FSTBuilder) (i : Nat),
      FSTBuilder.buildSparseSpanLoop kvs s fuel b i
        = FSTBuilder.buildSparseLoop (strippedKeys kvs s) (recordValues kvs) fuel b i := by
  intro fuel
  induction fuel with
  | zero => intro b i; rfl
  | succ fuel ih =>
    intro b i
    have hss := skipSameParts_drop kvs s hs hlen i (kvs.length + 1) i
    have hl : (strippedKeys kvs s).length = kvs.length := by simp [strippedKeys]
    simp only [FSTBuilder.buildSparseSpanLoop, FSTBuilder.buildSparseLoop, hl, hss,
      Option.bind_eq_bind]
    by_cases hi : i < kvs.length
    · simp only [hi, if_true]
      have e1 : (strippedKeys kvs s)[i]? = (kvs[i]?).map (fun kv => kv.key_part.drop s) := by
        simp [strippedKeys]
      have e2 : (recordValues kvs)[i]? = (kvs[i]?).map (fun kv => kv.value) := by
        simp [recordValues]
      rw [e1, e2]
      cases kvs[i]? with
      | none => rfl
      | some kv =>
        simp only [Option.map_some', Option.some_bind, skipCommonPrefix_drop b kv.key_part s]
        cases b.skipCommonPrefix (kv.key_part.drop s) 0 with
        | none => rfl
        | some p =>
          obtain ⟨b1, level⟩ := p
          simp only [Option.some_bind]
          cases FSTBuilder.skipSameKeys (strippedKeys kvs s) i (kvs.length + 1) i with
          | none => rfl
          | some j =>
            simp only [Option.some_bind]
            have e3 : (strippedKeys kvs s)[j + 1]?
                = (kvs[j + 1]?).map (fun kv => kv.key_part.drop s) := by
              simp [strippedKeys]
            rw [e3]
            have hins : (if j < kvs.length - 1 then
                  (kvs[j + 1]?).bind fun next =>
                    b1.insertKeyBytesToTrieUntilUnique kv.key_part kv.value next.key_part level s
                else b1.insertKeyBytesToTrieUntilUnique kv.key_part kv.value [] level s)
                = (if j < kvs.length - 1 then
                  ((kvs[j + 1]?).map (fun kv => kv.key_part.drop s)).bind fun next_key =>
                    b1.insertKeyBytesToTrieUntilUnique (kv.key_part.drop s) kv.value next_key
                      level 0
                else b1.insertKeyBytesToTrieUntilUnique (kv.key_part.drop s) kv.value []
                  level 0) := by
              split
              · cases kvs[j + 1]? with
                | none => rfl
                | some nx =>
                  simp only [Option.some_bind, Option.map_some']
                  exact insertKeyBytesToTrieUntilUnique_drop b1 _ _ _ _ s
              · rw [insertKeyBytesToTrieUntilUnique_drop b1 _ _ _ _ s, List.drop_nil]
            rw [hins]
            cases (if j < kvs.length - 1 then
                  ((kvs[j + 1]?).map (fun kv => kv.key_part.drop s)).bind fun next_key =>
                    b1.insertKeyBytesToTrieUntilUnique (kv.key_part.drop s) kv.value next_key
                      level 0
                else b1.insertKeyBytesToTrieUntilUnique (kv.key_part.drop s) kv.value []
                  level 0) with
            | none => rfl
            | some q =>
              obtain ⟨b2, l2⟩ := q
              simp only [Option.some_bind]
              exact ih b2 (j + 1)
    · simp only [hi, if_false]

/-- For a prefix length below 256 and records whose keys are all longer, the span build is
the build from the records without the first `s` bytes of every key. -/
theorem buildSparseSpan_eq_stripped (b : FSTBuilder) (kvs : List KeyPartValue) (s : Nat)
    (hs : s < 256) (hlen : ∀ kv ∈ kvs, s < kv.key_part.length) :
    b.buildSparseSpan kvs s = b.buildSparse (strippedKeys kvs s) (recordValues kvs) := by
  have hl : (strippedKeys kvs s).length = kvs.length := by simp [strippedKeys]
  simp only [FSTBuilder.buildSparseSpan, FSTBuilder.buildSparse, hl]
  exact buildSparseSpanLoop_drop kvs s hs hlen _ b 0

theorem buildSpan_eq_stripped (b : FSTBuilder) (kvs : List KeyPartValue) (s : Nat)
    (hs : s < 256) (hlen : ∀ kv ∈ kvs, s < kv.key_part.length) :
    b.buildSpan kvs s = b.build (strippedKeys kvs s) (recordValues kvs) := by
  have hl : (strippedKeys kvs s).length = kvs.length := by simp [strippedKeys]
  simp only [FSTBuilder.buildSpan, FSTBuilder.build, hl,
    buildSparseSpan_eq_stripped b kvs s hs hlen]

end FST

namespace FST

/-! ## What the sparse build leaves untouched, and the node counts -/

theorem DenseSame.rfl_same (b : FSTBuilder) : DenseSame b b := ⟨rfl, rfl, rfl, rfl, rfl, rfl, rfl⟩

theorem DenseSame.trans_same {b b1 b2 : FSTBuilder} (h1 : DenseSame b b1) (h2 : DenseSame b1 b2) :
    DenseSame b b2 :=
  ⟨h2.incl.trans h1.incl, h2.ratio.trans h1.ratio, h2.vs.trans h1.vs, h2.vd.trans h1.vd,
    h2.bl.trans h1.bl, h2.bc.trans h1.bc, h2.pk.trans h1.pk⟩

theorem setChildBit_same {b b1 : FSTBuilder} {l pos : Nat} (h : b.setChildBit l pos = some b1) :
    DenseSame b b1 ∧ b1.node_counts_ = b.node_counts_ := by
  simp only [FSTBuilder.setChildBit, Option.bind_eq_bind, Option.bind_eq_some] at h
  obtain ⟨w, _, w1, _, h⟩ := h
  simp only [Option.some.injEq] at h
  subst h
  exact ⟨⟨rfl, rfl, rfl, rfl, rfl, rfl, rfl⟩, rfl⟩

theorem setLoudsBit_same {b b1 : FSTBuilder} {l pos : Nat} (h : b.setLoudsBit l pos = some b1) :
    DenseSame b b1 ∧ b1.node_counts_ = b.node_counts_ := by
  simp only [FSTBuilder.setLoudsBit, Option.bind_eq_bind, Option.bind_eq_some] at h
  obtain ⟨w, _, w1, _, h⟩ := h
  simp only [Option.some.injEq] at h
  subst h
  exact ⟨⟨rfl, rfl, rfl, rfl, rfl, rfl, rfl⟩, rfl⟩

theorem pushValue_same {b b1 : FSTBuilder} {l v : Nat} (h : b.pushValue l v = some b1) :
    DenseSame b b1 ∧ b1.node_counts_ = b.node_counts_ := by
  simp only [FSTBuilder.pushValue, Option.bind_eq_bind, Option.bind_eq_some] at h
  obtain ⟨w, _, h⟩ := h
  simp only [Option.some.injEq] at h
  subst h
  exact ⟨⟨rfl, rfl, rfl, rfl, rfl, rfl, rfl⟩, rfl⟩

theorem moveToNextItemSlot_same {b b1 : FSTBuilder} {l : Nat}
    (h : b.moveToNextItemSlot l = some b1) :
    DenseSame b b1 ∧ b1.node_counts_ = b.node_counts_ := by
  simp only [FSTBuilder.moveToNextItemSlot, Option.bind_eq_bind, Option.bind_eq_some] at h
  obtain ⟨_, _, n, _, h⟩ := h
  split at h
  · simp only [Option.bind_eq_bind, Option.bind_eq_some] at h
    obtain ⟨c, _, lw, _, h⟩ := h
    simp only [Option.some.injEq] at h
    subst h
    exact ⟨⟨rfl, rfl, rfl, rfl, rfl, rfl, rfl⟩, rfl⟩
  · simp only [Option.some.injEq] at h
    subst h
    exact ⟨DenseSame.rfl_same b, rfl⟩

theorem getD_append_zero (l : List Nat) (i : Nat) : (l ++ [0]).getD i 0 = l.getD i 0 := by
  rcases Nat.lt_or_ge i l.length with h | h
  · rw [getD_append_left _ _ _ _ h]
  · rw [getD_ge l i 0 h]
    rcases Nat.eq_or_lt_of_le h with e | e
    · rw [← e]; exact getD_append_self _ _ _
    · exact getD_ge _ _ _ (by simp; omega)

/-- The node counts after `insertKeyByte`: the count of the level goes up by one when the
byte starts a node. -/
theorem insertKeyByte_counts {b b1 : FSTBuilder} {c level : Nat} {start term : Bool}
    (h : b.insertKeyByte c level start term = some b1) :
    DenseSame b b1 ∧ ∀ l, b1.node_counts_.getD l 0
      = b.node_counts_.getD l 0 + (if l = level ∧ start = true then 1 else 0) := by
  simp only [FSTBuilder.insertKeyByte, Option.bind_eq_bind, Option.bind_eq_some] at h
  obtain ⟨_, _, b2, h2, lab, _, b4, h4, _, _, h5⟩ := h
  -- the level that may be added
  have s0 : DenseSame b (if level ≥ b.getTreeHeight then b.addLevel else b) ∧
      ∀ l, (if level ≥ b.getTreeHeight then b.addLevel else b).node_counts_.getD l 0
        = b.node_counts_.getD l 0 := by
    split
    · exact ⟨⟨rfl, rfl, rfl, rfl, rfl, rfl, rfl⟩, fun l => getD_append_zero _ l⟩
    · exact ⟨DenseSame.rfl_same b, fun _ => rfl⟩
  -- the child bit of the parent
  have s2 : DenseSame (if level ≥ b.getTreeHeight then b.addLevel else b) b2 ∧
      b2.node_counts_ = (if level ≥ b.getTreeHeight then b.addLevel else b).node_counts_ := by
    split at h2
    · simp only [Option.bind_eq_bind, Option.bind_eq_some] at h2
      obtain ⟨n, _, _, _, h2⟩ := h2
      exact setChildBit_same h2
    · simp only [Option.some.injEq] at h2
      subst h2
      exact ⟨DenseSame.rfl_same _, rfl⟩
  -- the label and the LOUDS bit
  have s4 : DenseSame b2 b4 ∧ ∀ l, b4.node_counts_.getD l 0
      = b2.node_counts_.getD l 0 + (if l = level ∧ start = true then 1 else 0) := by
    cases start with
    | false =>
      simp only [Bool.false_eq_true, if_false, Option.some.injEq] at h4
      subst h4
      exact ⟨⟨rfl, rfl, rfl, rfl, rfl, rfl, rfl⟩, fun l => by simp⟩
    | true =>
      simp only [if_true, Option.bind_eq_bind, Option.bind_eq_some] at h4
      obtain ⟨n, _, b3a, h3a, nc, hnc, h4⟩ := h4
      simp only [Option.some.injEq] at h4
      subst h4
      obtain ⟨d3, c3⟩ := setLoudsBit_same h3a
      refine ⟨⟨d3.incl, d3.ratio, d3.vs, d3.vd, d3.bl, d3.bc, d3.pk⟩, ?_⟩
      intro l
      have hlt : level < b3a.node_counts_.length := by
        rcases Nat.lt_or_ge level b3a.node_counts_.length with h | h
        · exact h
        · rw [List.getElem?_eq_none h] at hnc; exact absurd hnc (by simp)
      have hv : b3a.node_counts_.getD level 0 = nc := by
        rw [List.getD_eq_getElem?_getD, hnc]; rfl
      show (b3a.node_counts_.set level (nc + 1)).getD l 0 = _
      rw [getD_set _ _ _ _ _ hlt]
      have c3b : b3a.node_counts_ = b2.node_counts_ := c3
      by_cases e : l = level
      · subst e
        simp only [true_and, if_true, and_self]
        rw [← c3b, hv]
      · have e2 : ¬ level = l := fun h => e h.symm
        simp only [e, e2, false_and, if_false, Nat.add_zero]
        rw [c3b]
  obtain ⟨d5, c5⟩ := moveToNextItemSlot_same h5
  refine ⟨s0.1.trans_same (s2.1.trans_same (s4.1.trans_same
    ⟨d5.incl, d5.ratio, d5.vs, d5.vd, d5.bl, d5.bc, d5.pk⟩)), ?_⟩
  intro l
  have c5b : b1.node_counts_ = b4.node_counts_ := c5
  rw [c5b, s4.2 l, s2.2, s0.2 l]

end FST

namespace FST

/-! ## The invariant of the sparse build: packed levels, node counts, node starts -/

theorem BAbs.canon {b : FSTBuilder} {H : Nat} {lab : Nat → List Nat} {ch lo : Nat → List Bool}
    {val : Nat → List Nat} (h : BAbs b H lab ch lo val) :
    lab = labL b ∧ ch = chL b ∧ lo = loL b ∧ val = valL b := by
  obtain ⟨cw, lw, S, _, _, e1, e2⟩ := h
  have a1 : lab = labL b := funext fun l => (S.lab l).symm
  have a4 : val = valL b := funext fun l => (S.val l).symm
  refine ⟨a1, ?_, ?_, a4⟩
  · funext l
    rw [e1 l, chL, S.cw l, S.lab l]
  · funext l
    rw [e2 l, loL, S.lw l, S.lab l]

theorem BAbs.self_abs {b : FSTBuilder} {H : Nat} {lab : Nat → List Nat} {ch lo : Nat → List Bool}
    {val : Nat → List Nat} (h : BAbs b H lab ch lo val) :
    BAbs b H (labL b) (chL b) (loL b) (valL b) := by
  obtain ⟨a1, a2, a3, a4⟩ := h.canon
  subst a1 a2 a3 a4
  exact h

theorem loL_length (b : FSTBuilder) (l : Nat) : (loL b l).length = (labL b l).length := by
  simp [loL, bitsOf_length]

theorem getNumItems_some {b : FSTBuilder} {H : Nat} (A : BAbs b H (labL b) (chL b) (loL b) (valL b))
    {l n : Nat} (h : b.getNumItems l = some n) : l < H ∧ n = (labL b l).length := by
  have hl : l < H := by
    rcases Nat.lt_or_ge l H with h1 | h1
    · exact h1
    · have : b.labels_[l]? = none := List.getElem?_eq_none (by
        have := A.height; simp only [FSTBuilder.getTreeHeight] at this; omega)
      simp [FSTBuilder.getNumItems, this] at h
  refine ⟨hl, ?_⟩
  rw [A.getNumItems_abs hl] at h
  exact (Option.some.inj h).symm

theorem BInv.setChildBit_last {b b1 : FSTBuilder} (I : BInv b) {l n : Nat}
    (hn : b.getNumItems l = some n) (hpos : 0 < n) (h : b.setChildBit l (n - 1) = some b1) :
    BInv b1 := by
  obtain ⟨H, A⟩ := I.packed
  obtain ⟨hl, e⟩ := getNumItems_some A hn
  have hne : labL b l ≠ [] := by
    intro h0; rw [h0] at e; simp at e; omega
  obtain ⟨b2, h2, A2⟩ := A.setChildBit_abs hl hne
  rw [← e, h] at h2
  have eb := Option.some.inj h2
  subst eb
  obtain ⟨a1, _, a3, _⟩ := A2.canon
  have c := (setChildBit_same h).2
  refine ⟨⟨H, A2.self_abs⟩, ?_, ?_, ?_⟩
  · intro l2; rw [c, ← a3]; exact I.counts l2
  · intro l2; rw [← a1, ← a3]; exact I.heads l2
  · intro l2; rw [← a1]; exact I.bytes l2

theorem BInv.pushValue_inv {b b1 : FSTBuilder} (I : BInv b) {l v : Nat}
    (h : b.pushValue l v = some b1) : BInv b1 := by
  obtain ⟨H, A⟩ := I.packed
  have hl : l < H := by
    rcases Nat.lt_or_ge l H with h1 | h1
    · exact h1
    · obtain ⟨cw, lw, S, _⟩ := A
      have : b.values_[l]? = none := List.getElem?_eq_none (by rw [S.lenV]; exact h1)
      simp [FSTBuilder.pushValue, this] at h
  obtain ⟨b2, h2, A2⟩ := A.pushValue_abs hl v
  rw [h] at h2
  have eb := Option.some.inj h2
  subst eb
  obtain ⟨a1, _, a3, _⟩ := A2.canon
  have c := (pushValue_same h).2
  refine ⟨⟨H, A2.self_abs⟩, ?_, ?_, ?_⟩
  · intro l2; rw [c, ← a3]; exact I.counts l2
  · intro l2; rw [← a1, ← a3]; exact I.heads l2
  · intro l2; rw [← a1]; exact I.bytes l2

theorem BInv.insertKeyByte_inv {b b1 : FSTBuilder} (I : BInv b) {c level : Nat} {start : Bool}
    (hc : c < 255) (hstart : labL b level = [] → start = true)
    (h : b.insertKeyByte c level start false = some b1) : BInv b1 := by
  obtain ⟨H, A⟩ := I.packed
  have h0 := h
  simp only [FSTBuilder.insertKeyByte, Option.bind_eq_bind, Option.bind_eq_some] at h0
  obtain ⟨_, hchk, b2, h2, _⟩ := h0
  have hH := A.height
  -- the level exists or is the next one
  have hlev : level ≤ H := by
    by_cases e : level ≥ b.getTreeHeight
    · rw [if_pos e] at hchk
      have : level < b.addLevel.getTreeHeight := by
        simpa [check] using hchk
      have e2 : b.addLevel.getTreeHeight = H + 1 := A.addLevel_abs.height
      omega
    · omega
  -- the parent level is not empty
  have hpar : 0 < level → labL b (level - 1) ≠ [] := by
    intro hpos
    rw [if_pos hpos] at h2
    simp only [Option.bind_eq_bind, Option.bind_eq_some] at h2
    obtain ⟨n, hn, _, hk, _⟩ := h2
    have hn0 : 0 < n := by
      have : ¬ n = 0 := by simpa [check] using hk
      omega
    by_cases e : level ≥ b.getTreeHeight
    · rw [if_pos e] at hn
      have A1 := A.addLevel_abs
      rw [A1.getNumItems_abs (show level - 1 < H + 1 by omega)] at hn
      intro h0; rw [h0] at hn; simp at hn; omega
    · rw [if_neg e] at hn
      rw [A.getNumItems_abs (show level - 1 < H by omega)] at hn
      intro h0; rw [h0] at hn; simp at hn; omega
  obtain ⟨b3, h3, A3⟩ := insertKeyByte_abs c level start A hlev hpar
  rw [h] at h3
  have eb := Option.some.inj h3
  subst eb
  obtain ⟨a1, _, a3, _⟩ := A3.canon
  obtain ⟨_, cnt⟩ := insertKeyByte_counts h
  refine ⟨⟨_, A3.self_abs⟩, ?_, ?_, ?_⟩
  · intro l
    rw [cnt l, ← a3, I.counts l]
    by_cases e : l = level
    · subst e
      rw [Function.update_same, List.count_append]
      cases start <;> simp
    · rw [Function.update_noteq e]
      simp [e]
  · intro l
    rw [← a1, ← a3]
    by_cases e : l = level
    · subst e
      rw [Function.update_same, Function.update_same]
      intro _
      by_cases hl0 : labL b l = []
      · have hlo : loL b l = [] := by
          apply List.eq_nil_of_length_eq_zero
          rw [loL_length, hl0]; rfl
        rw [hlo, hstart hl0]; rfl
      · have := I.heads l hl0
        cases hlo : loL b l with
        | nil => rw [hlo] at this; simp at this
        | cons x xs => rw [hlo] at this; simpa using this
    · rw [Function.update_noteq e, Function.update_noteq e]
      exact I.heads l
  · intro l x
    rw [← a1]
    by_cases e : l = level
    · subst e
      rw [Function.update_same]
      intro hx
      rcases List.mem_append.mp hx with hx | hx
      · exact I.bytes l x hx
      · have : x = c := by simpa using hx
        subst this; exact hc
    · rw [Function.update_noteq e]
      exact I.bytes l x

end FST

namespace FST

/-! ## The invariant along the sparse build -/

theorem BInv.skipLoop_inv (key : List Nat) :
    ∀ (fuel : Nat) (b : FSTBuilder) (level : Nat) (r : FSTBuilder × Nat), BInv b →
      FSTBuilder.skipCommonPrefixLoop key 0 fuel b level = some r →
      BInv r.1 ∧ DenseSame b r.1 := by
  intro fuel
  induction fuel with
  | zero => intro b level r _ h; simp [FSTBuilder.skipCommonPrefixLoop] at h
  | succ fuel ih =>
    intro b level r I h
    simp only [FSTBuilder.skipCommonPrefixLoop] at h
    split at h
    · simp only [Option.bind_eq_bind, Option.bind_eq_some] at h
      obtain ⟨c, _, same, _, h⟩ := h
      split at h
      · simp only [Option.bind_eq_bind, Option.bind_eq_some] at h
        obtain ⟨n, hn, _, hk, b1, h1, h⟩ := h
        have hn0 : 0 < n := by
          have : ¬ n = 0 := by simpa [check] using hk
          omega
        have I1 := I.setChildBit_last hn hn0 h1
        obtain ⟨I2, d2⟩ := ih b1 (level + 1) r I1 h
        exact ⟨I2, (setChildBit_same h1).1.trans_same d2⟩
      · simp only [Option.some.injEq] at h
        subst h; exact ⟨I, DenseSame.rfl_same b⟩
    · simp only [Option.some.injEq] at h
      subst h; exact ⟨I, DenseSame.rfl_same b⟩

theorem BInv.skip_inv {b : FSTBuilder} (I : BInv b) {key : List Nat} {r : FSTBuilder × Nat}
    (h : b.skipCommonPrefix key 0 = some r) : BInv r.1 ∧ DenseSame b r.1 := by
  simp only [FSTBuilder.skipCommonPrefix, Option.bind_eq_bind, Option.bind_eq_some] at h
  obtain ⟨p, hp, _, _, h⟩ := h
  simp only [Option.some.injEq] at h
  subst h
  exact BInv.skipLoop_inv key _ b 0 p I hp

theorem BInv.insertLoop_inv (key next_key : List Nat) (hkey : ∀ c ∈ key, c < 255) :
    ∀ (fuel : Nat) (b : FSTBuilder) (level : Nat) (r : FSTBuilder × Nat), BInv b →
      FSTBuilder.insertLoop key next_key 0 fuel b level = some r →
      BInv r.1 ∧ DenseSame b r.1 := by
  intro fuel
  induction fuel with
  | zero => intro b level r _ h; simp [FSTBuilder.insertLoop] at h
  | succ fuel ih =>
    intro b level r I h
    simp only [FSTBuilder.insertLoop] at h
    split at h
    · simp only [Option.bind_eq_bind, Option.bind_eq_some] at h
      obtain ⟨_, _, x, _, y, _, h⟩ := h
      split at h
      · simp only [Option.bind_eq_bind, Option.bind_eq_some] at h
        obtain ⟨c, hc, b1, h1, h⟩ := h
        have hc2 : c < 255 := hkey c (List.getElem?_mem hc)
        have I1 := I.insertKeyByte_inv hc2 (fun _ => rfl) h1
        obtain ⟨I2, d2⟩ := ih b1 (level + 1) r I1 h
        exact ⟨I2, (insertKeyByte_counts h1).1.trans_same d2⟩
      · simp only [Option.some.injEq] at h
        subst h; exact ⟨I, DenseSame.rfl_same b⟩
    · simp only [Option.some.injEq] at h
      subst h; exact ⟨I, DenseSame.rfl_same b⟩

theorem isLevelEmpty_start {b : FSTBuilder} (I : BInv b) {level : Nat} {st : Bool}
    (h : b.isLevelEmpty level = some st) : labL b level = [] → st = true := by
  obtain ⟨H, A⟩ := I.packed
  intro h0
  rcases Nat.lt_or_ge level H with hl | hl
  · rw [A.isLevelEmpty_lt hl, h0] at h
    exact (Option.some.inj h).symm
  · rw [A.isLevelEmpty_ge hl] at h
    exact (Option.some.inj h).symm

theorem BInv.insertKey_inv {b : FSTBuilder} (I : BInv b) {key next_key : List Nat}
    (hkey : ∀ c ∈ key, c < 255) {value level : Nat} {r : FSTBuilder × Nat}
    (h : b.insertKeyBytesToTrieUntilUnique key value next_key level 0 = some r) :
    BInv r.1 ∧ DenseSame b r.1 := by
  simp only [FSTBuilder.insertKeyBytesToTrieUntilUnique, Option.bind_eq_bind,
    Option.bind_eq_some] at h
  obtain ⟨_, _, st, hst, c, hc, b1, h1, h⟩ := h
  have hc2 : c < 255 := hkey c (List.getElem?_mem hc)
  have I1 := I.insertKeyByte_inv hc2 (isLevelEmpty_start I hst) h1
  have d1 := (insertKeyByte_counts h1).1
  split at h
  · simp only [Option.bind_eq_bind, Option.bind_eq_some] at h
    obtain ⟨b2, h2, h⟩ := h
    simp only [Option.some.injEq] at h
    subst h
    exact ⟨I1.pushValue_inv h2, d1.trans_same (pushValue_same h2).1⟩
  · simp only [Option.bind_eq_bind, Option.bind_eq_some] at h
    obtain ⟨same, _, h⟩ := h
    split at h
    · simp only [Option.bind_eq_bind, Option.bind_eq_some] at h
      obtain ⟨b2, h2, h⟩ := h
      simp only [Option.some.injEq] at h
      subst h
      exact ⟨I1.pushValue_inv h2, d1.trans_same (pushValue_same h2).1⟩
    · simp only [Option.bind_eq_bind, Option.bind_eq_some] at h
      obtain ⟨p, hp, b3, h3, h⟩ := h
      simp only [Option.some.injEq] at h
      subst h
      obtain ⟨I2, d2⟩ := BInv.insertLoop_inv key next_key hkey _ b1 _ p I1 hp
      exact ⟨I2.pushValue_inv h3, d1.trans_same (d2.trans_same (pushValue_same h3).1)⟩

theorem BInv.buildSparseLoop_inv (keys : List (List Nat)) (values : List Nat)
    (hkeys : ∀ k ∈ keys, ∀ c ∈ k, c < 255) :
    ∀ (fuel : Nat) (b : FSTBuilder) (i : Nat) (r : FSTBuilder), BInv b →
      FSTBuilder.buildSparseLoop keys values fuel b i = some r → BInv r ∧ DenseSame b r := by
  intro fuel
  induction fuel with
  | zero => intro b i r _ h; simp [FSTBuilder.buildSparseLoop] at h
  | succ fuel ih =>
    intro b i r I h
    simp only [FSTBuilder.buildSparseLoop] at h
    split at h
    · simp only [Option.bind_eq_bind, Option.bind_eq_some] at h
      obtain ⟨k, _, p, hp, j, _, key, hkey, value, _, q, hq, h⟩ := h
      obtain ⟨I1, d1⟩ := I.skip_inv hp
      have hb := hkeys key (List.getElem?_mem hkey)
      have hq2 : BInv q.1 ∧ DenseSame p.1 q.1 := by
        split at hq
        · simp only [Option.bind_eq_bind, Option.bind_eq_some] at hq
          obtain ⟨nk, _, hq⟩ := hq
          exact I1.insertKey_inv hb hq
        · exact I1.insertKey_inv hb hq
      obtain ⟨I3, d3⟩ := ih q.1 (j + 1) r hq2.1 h
      exact ⟨I3, d1.trans_same (hq2.2.trans_same d3)⟩
    · simp only [Option.some.injEq] at h
      subst h; exact ⟨I, DenseSame.rfl_same b⟩

theorem BInv.mk2_inv (d : Bool) (R : Nat) : BInv (FSTBuilder.mk2 d R) := by
  have A : BAbs (FSTBuilder.mk2 d R) 0 (fun _ => []) (fun _ => []) (fun _ => [])
      (fun _ => []) := by
    refine ⟨fun _ => [], fun _ => [], ?_, ?_, ?_, ?_, ?_⟩
    · refine ⟨rfl, rfl, rfl, rfl, rfl, rfl, ?_, ?_, ?_, ?_, ?_, rfl⟩
      · intro l; simp [labL, FSTBuilder.mk2, FSTBuilder.new]
      · intro l; simp [cwL, FSTBuilder.mk2, FSTBuilder.new]
      · intro l; simp [lwL, FSTBuilder.mk2, FSTBuilder.new]
      · intro l; simp [valL, FSTBuilder.mk2, FSTBuilder.new]
      · intro l hl; omega
    · intro l hl; omega
    · intro l hl; omega
    · intro l; simp [bitsOf]
    · intro l; simp [bitsOf]
  obtain ⟨a1, _, a3, _⟩ := A.canon
  refine ⟨⟨0, A.self_abs⟩, ?_, ?_, ?_⟩
  · intro l; rw [← a3]; simp [FSTBuilder.mk2, FSTBuilder.new]
  · intro l; rw [← a1]; simp
  · intro l c; rw [← a1]; simp

/-- The state after the sparse build satisfies the invariant, and the dense tier and the
configuration are as before. -/
theorem buildSparse_inv (d : Bool) (R : Nat) (keys : List (List Nat)) (values : List Nat)
    (hkeys : ∀ k ∈ keys, ∀ c ∈ k, c < 255) (b : FSTBuilder)
    (h : (FSTBuilder.mk2 d R).buildSparse keys values = some b) :
    BInv b ∧ DenseSame (FSTBuilder.mk2 d R) b :=
  BInv.buildSparseLoop_inv keys values hkeys _ _ 0 b (BInv.mk2_inv d R) h

end FST

namespace FST

/-! ## `determineCutoffLevel` returns -/

/-- A `for` loop whose body keeps an invariant and returns. -/
theorem forRange_inv {σ : Type} (body : Nat → σ → Option σ) (P : Nat → σ → Prop) :
    ∀ (n start : Nat) (s : σ),
      (∀ x s, start ≤ x → x < start + n → P x s → ∃ s1, body x s = some s1 ∧ P (x + 1) s1) →
      P start s → ∃ s1, forRange body n start s = some s1 ∧ P (start + n) s1 := by
  intro n
  induction n with
  | zero => intro start s _ h; exact ⟨s, rfl, h⟩
  | succ n ih =>
    intro start s hb h
    obtain ⟨s1, e1, p1⟩ := hb start s (Nat.le_refl _) (by omega) h
    obtain ⟨s2, e2, p2⟩ := ih (start + 1) s1 (fun x s h1 h2 => hb x s (by omega) (by omega)) p1
    refine ⟨s2, ?_, ?_⟩
    · rw [forRange_succ, e1]; exact e2
    · have : start + (n + 1) = start + 1 + n := by omega
      rw [this]; exact p2

theorem computeDenseMem_total (b : FSTBuilder) (L : LevelsOK b) (n : Nat)
    (h : n ≤ b.labels_.length) : ∃ m, b.computeDenseMem n = some m := by
  have k1 : check (decide (n ≤ b.getTreeHeight)) = some () := by
    simp [check, FSTBuilder.getTreeHeight, h]
  simp only [FSTBuilder.computeDenseMem, k1, Option.bind_eq_bind, Option.some_bind]
  obtain ⟨m, e, _⟩ := forRange_inv (fun level mem => do
      let nc ← b.node_counts_[level]?
      let mem1 := (mem + (2 * kFanout * nc) % 2 ^ 32) % 2 ^ 64
      if level > 0 then do
        let p ← b.node_counts_[level - 1]?
        some ((mem1 + (p / 8 + 1) % 2 ^ 32) % 2 ^ 64)
      else some mem1) (fun _ _ => True) n 0 0 (by
        intro x s _ hx _
        have hc := L.counts
        have hg : b.node_counts_[x]? = some (b.node_counts_.getD x 0) :=
          getD_of_lt _ _ _ (by omega)
        simp only [hg, Option.bind_eq_bind, Option.some_bind]
        by_cases h0 : x > 0
        · have hg2 : b.node_counts_[x - 1]? = some (b.node_counts_.getD (x - 1) 0) :=
            getD_of_lt _ _ _ (by omega)
          simp only [h0, if_true, hg2, Option.some_bind]
          exact ⟨_, rfl, trivial⟩
        · simp only [h0, if_false]
          exact ⟨_, rfl, trivial⟩) trivial
  exact ⟨m, e⟩

theorem computeSparseMem_total (b : FSTBuilder) (s : Nat) :
    ∃ m, b.computeSparseMem s = some m := by
  simp only [FSTBuilder.computeSparseMem]
  obtain ⟨m, e, _⟩ := forRange_inv (fun level mem => do
      let l ← b.labels_[level]?
      let num_items := l.length
      some ((mem + (num_items + (2 * num_items) % 2 ^ 32 / 8 + 1) % 2 ^ 32) % 2 ^ 64))
    (fun _ _ => True) (b.getTreeHeight - s) s 0 (by
      intro x st h1 hx _
      have hg : b.labels_[x]? = some (b.labels_.getD x []) :=
        getD_of_lt _ _ _ (by simp only [FSTBuilder.getTreeHeight] at hx; omega)
      simp only [hg, Option.bind_eq_bind, Option.some_bind]
      exact ⟨_, rfl, trivial⟩) trivial
  exact ⟨m, e⟩

theorem cutoffLoop_total (b : FSTBuilder) (L : LevelsOK b) :
    ∀ (fuel c d s : Nat), c ≤ b.labels_.length → b.labels_.length - c < fuel →
      ∃ c1, b.cutoffLoop fuel c d s = some c1 ∧ c1 ≤ b.labels_.length := by
  intro fuel
  induction fuel with
  | zero => intro c d s _ h; omega
  | succ fuel ih =>
    intro c d s hc hf
    simp only [FSTBuilder.cutoffLoop, FSTBuilder.getTreeHeight]
    by_cases hcond : (decide (c < b.labels_.length) &&
        decide (d * b.sparse_dense_ratio_ % 2 ^ 64 < s)) = true
    · rw [if_pos hcond]
      have hlt : c < b.labels_.length := by
        simp only [Bool.and_eq_true, decide_eq_true_eq] at hcond; exact hcond.1
      obtain ⟨d1, e1⟩ := computeDenseMem_total b L (c + 1) (by omega)
      obtain ⟨s1, e2⟩ := computeSparseMem_total b (c + 1)
      simp only [e1, e2, Option.bind_eq_bind, Option.some_bind]
      exact ih (c + 1) d1 s1 (by omega) (by omega)
    · rw [if_neg hcond]
      exact ⟨c, rfl, hc⟩

/-- On a builder whose per-level vectors have one entry per level `determineCutoffLevel`
returns: it stores a cutoff `c` between 0 and the height, appends the values of the levels
below `c` to the dense values and those of the other levels to the sparse values, and clears
`values_`. -/
theorem determineCutoffLevel_total (b : FSTBuilder) (L : LevelsOK b) :
    ∃ c, c ≤ b.labels_.length ∧
      b.determineCutoffLevel = some { b with
        sparse_start_level_ := c
        values_dense_ := b.values_dense_ ++ (b.values_.take c).flatten
        values_sparse_ := b.values_sparse_ ++ (b.values_.drop c).flatten
        values_ := [] } := by
  obtain ⟨d0, e0⟩ := computeDenseMem_total b L 0 (by omega)
  obtain ⟨s0, f0⟩ := computeSparseMem_total b 0
  obtain ⟨c, h1, hc⟩ := cutoffLoop_total b L (b.labels_.length + 1) 0 d0 s0 (by omega) (by omega)
  refine ⟨c, hc, ?_⟩
  have hv := L.values
  have e1 := labels_loop b.values_ c 0 b.values_dense_ (by omega)
  have e2 := labels_loop b.values_ (b.values_.length - c) c b.values_sparse_ (by omega)
  rw [range_getD_take _ _ _ _ (by omega)] at e1 e2
  simp only [List.drop_zero] at e1
  rw [List.take_of_length_le (by simp)] at e2
  simp only [FSTBuilder.determineCutoffLevel, e0, f0, FSTBuilder.getTreeHeight, h1,
    Option.bind_eq_bind, Option.some_bind]
  rw [e1]
  simp only [Option.some_bind]
  rw [e2]
  rfl

end FST

namespace FST

/-! ## `buildDense` returns -/

theorem withDense_self (b : FSTBuilder) :
    withDense b b.bitmap_labels_ b.bitmap_child_indicator_bits_ b.prefixkey_indicator_bits_
      = b := by
  cases b; rfl

theorem getElem?_append_self {α : Type} (l : List α) (x : α) (n : Nat) (h : l.length = n) :
    (l ++ [x])[n]? = some x := by
  subst h; simp

theorem set_append_self {α : Type} (l : List α) (x y : α) (n : Nat) (h : l.length = n) :
    (l ++ [x]).set n y = l ++ [y] := by
  subst h; simp

theorem replicate_ceil (k : Nat) :
    (if (k % kWordSize == 0) = true then
        List.replicate ((k + 63) / 64) 0 ++ [0] else List.replicate ((k + 63) / 64) 0)
      = List.replicate ((k + 1 + 63) / 64) (0 : Nat) := by
  by_cases h : k % 64 = 0
  · have e : (k + 1 + 63) / 64 = (k + 63) / 64 + 1 := by omega
    simp only [kWordSize, h, beq_self_eq_true, if_true, e, List.replicate_succ']
  · have e : (k + 1 + 63) / 64 = (k + 63) / 64 := by omega
    have hb : (k % kWordSize == 0) = false := by simpa [kWordSize] using h
    simp only [hb, Bool.false_eq_true, if_false, e]

/-- The state after `initDenseVectors`: one more entry in each of the three bitmaps, with
`256 / 64` zero words for every node in the first two and one zero word for every 64 nodes in
the third. -/
theorem initDenseVectors_eq (b : FSTBuilder) (bl bc pk : List (List Nat)) (level : Nat)
    {lab cw lw : List Nat} {nc : Nat} (R : LevelReady b level lab cw lw nc)
    (h1 : bl.length = level) (h2 : bc.length = level) (h3 : pk.length = level) :
    (withDense b bl bc pk).initDenseVectors level
      = some (withDense b (bl ++ [List.replicate (4 * nc) 0]) (bc ++ [List.replicate (4 * nc) 0])
          (pk ++ [List.replicate ((nc + 63) / 64) 0])) := by
  have hn : (withDense b (bl ++ [[]]) (bc ++ [[]]) (pk ++ [[]])).node_counts_[level]? = some nc :=
    R.hnc
  have hstep := forRange_steps (fun nc b => do
      let bl ← b.bitmap_labels_[level]?
      let bc ← b.bitmap_child_indicator_bits_[level]?
      let b2 := { b with
        bitmap_labels_ := b.bitmap_labels_.set level (bl ++ List.replicate (kFanout / kWordSize) 0)
        bitmap_child_indicator_bits_ :=
          b.bitmap_child_indicator_bits_.set level (bc ++ List.replicate (kFanout / kWordSize) 0) }
      if nc % kWordSize == 0 then do
        let pk ← b2.prefixkey_indicator_bits_[level]?
        some { b2 with prefixkey_indicator_bits_ := b2.prefixkey_indicator_bits_.set level (pk ++ [0]) }
      else some b2)
    (fun k => withDense b (bl ++ [List.replicate (4 * k) 0]) (bc ++ [List.replicate (4 * k) 0])
      (pk ++ [List.replicate ((k + 63) / 64) 0])) nc 0 (by
      intro k _ _
      have e4 : kFanout / kWordSize = 4 := by decide
      have a1 : (withDense b (bl ++ [List.replicate (4 * k) 0]) (bc ++ [List.replicate (4 * k) 0])
          (pk ++ [List.replicate ((k + 63) / 64) 0])).bitmap_labels_[level]?
          = some (List.replicate (4 * k) 0) := getElem?_append_self _ _ _ h1
      have a2 : (withDense b (bl ++ [List.replicate (4 * k) 0]) (bc ++ [List.replicate (4 * k) 0])
          (pk ++ [List.replicate ((k + 63) / 64) 0])).bitmap_child_indicator_bits_[level]?
          = some (List.replicate (4 * k) 0) := getElem?_append_self _ _ _ h2
      have r4 : List.replicate (4 * k) (0 : Nat) ++ List.replicate 4 0
          = List.replicate (4 * (k + 1)) 0 := by
        rw [← List.replicate_add]; rfl
      simp only [a1, a2, e4, Option.bind_eq_bind, Option.some_bind]
      by_cases hk : (k % kWordSize == 0) = true
      · have a3 : (pk ++ [List.replicate ((k + 63) / 64) (0 : Nat)])[level]?
            = some (List.replicate ((k + 63) / 64) 0) := getElem?_append_self _ _ _ h3
        have rc := replicate_ceil k
        rw [if_pos hk] at rc
        simp only [hk, if_true, withDense, a3, Option.some_bind, set_append_self _ _ _ _ h1,
          set_append_self _ _ _ _ h2, set_append_self _ _ _ _ h3, r4, rc]
      · have rc := replicate_ceil k
        rw [if_neg hk] at rc
        simp only [hk, if_false, withDense, set_append_self _ _ _ _ h1,
          set_append_self _ _ _ _ h2, r4, rc]
        simp only [Bool.false_eq_true, if_false])
  simp only [Nat.zero_add, Nat.mul_zero, List.replicate_zero, Nat.reduceDiv] at hstep
  have hn3 : (withDense b bl bc pk).node_counts_[level]? = some nc := R.hnc
  simp only [FSTBuilder.initDenseVectors, Option.bind_eq_bind]
  rw [hn3, Option.some_bind]
  exact hstep

end FST

namespace FST

/-! ## The items of a dense level -/

theorem count_bitsOf_mono (ws : List Nat) {m n : Nat} (h : m ≤ n) :
    (bitsOf ws m).count true ≤ (bitsOf ws n).count true := by
  induction n with
  | zero =>
    have : m = 0 := by omega
    subst this; exact Nat.le_refl _
  | succ n ih =>
    rcases Nat.lt_or_ge m (n + 1) with h1 | h1
    · have := ih (by omega)
      rw [bitsOf_succ, List.count_append]; omega
    · have : m = n + 1 := by omega
      subst this; exact Nat.le_refl _

theorem count_bitsOf_succ (ws : List Nat) (n : Nat) :
    (bitsOf ws (n + 1)).count true = (bitsOf ws n).count true + (if bitAt ws n then 1 else 0) := by
  rw [bitsOf_succ, List.count_append]
  cases bitAt ws n <;> simp

variable {b : FSTBuilder} {level : Nat} {lab cw lw : List Nat} {nc : Nat}

theorem LevelReady.isTerminator_false (R : LevelReady b level lab cw lw nc)
    (bl bc pk : List (List Nat)) {pos : Nat} (hpos : pos < lab.length) :
    (withDense b bl bc pk).isTerminator level pos = some false := by
  have h1 : (withDense b bl bc pk).labels_[level]? = some lab := R.hlab
  have h2 : lab[pos]? = some (lab.getD pos 0) := getD_of_lt _ _ _ hpos
  have h3 : lab.getD pos 0 < 255 := R.bytes _ (List.getElem?_mem h2)
  have h4 : (lab.getD pos 0 == kTerminator) = false := by
    simp only [kTerminator, beq_eq_false_iff_ne, ne_eq]; omega
  simp only [FSTBuilder.isTerminator, h1, h2, h4, Option.bind_eq_bind, Option.some_bind,
    Bool.false_eq_true, if_false]

theorem LevelReady.isStartOfNode_eq (R : LevelReady b level lab cw lw nc)
    (bl bc pk : List (List Nat)) {pos : Nat} (hpos : pos < lab.length) :
    (withDense b bl bc pk).isStartOfNode level pos = some (bitAt lw pos) := by
  have h1 : (withDense b bl bc pk).louds_bits_[level]? = some lw := R.hlw
  have hc := R.capl
  simp only [FSTBuilder.isStartOfNode, h1, Option.bind_eq_bind, Option.some_bind]
  exact builder_readBit_eq lw pos (by omega)

/-- The bits of one item are set in the bitmaps of the level: the call returns, and the two
bitmaps keep their lengths. -/
theorem LevelReady.setLabel_total (R : LevelReady b level lab cw lw nc)
    (bl bc pk : List (List Nat)) (x y : List Nat) (hl : bl.length = level)
    (hc : bc.length = level) (hx : x.length = 4 * nc) (hy : y.length = 4 * nc)
    {pos node_num : Nat} (hpos : pos < lab.length) (hnode : node_num < nc) :
    ∃ x1 y1, (withDense b (bl ++ [x]) (bc ++ [y]) pk).setLabelAndChildIndicatorBitmap level
          node_num pos = some (withDense b (bl ++ [x1]) (bc ++ [y1]) pk) ∧
      x1.length = 4 * nc ∧ y1.length = 4 * nc := by
  have h1 : (withDense b (bl ++ [x]) (bc ++ [y]) pk).labels_[level]? = some lab := R.hlab
  have h2 : lab[pos]? = some (lab.getD pos 0) := getD_of_lt _ _ _ hpos
  have h3 : lab.getD pos 0 < 255 := R.bytes _ (List.getElem?_mem h2)
  have h4 : (withDense b (bl ++ [x]) (bc ++ [y]) pk).bitmap_labels_[level]? = some x :=
    getElem?_append_self _ _ _ hl
  have hle : (node_num * kFanout + lab.getD pos 0) % 2 ^ 32 ≤ node_num * kFanout + lab.getD pos 0 :=
    Nat.mod_le _ _
  have hk : kFanout = 256 := rfl
  have hbx : (node_num * kFanout + lab.getD pos 0) % 2 ^ 32 < x.length * 64 := by
    rw [hk] at hle; rw [hk, hx]; omega
  have hby : (node_num * kFanout + lab.getD pos 0) % 2 ^ 32 < y.length * 64 := by
    rw [hk] at hle; rw [hk, hy]; omega
  obtain ⟨x1, e1, l1, _⟩ := setBit_eq x _ hbx
  obtain ⟨y1, e2, l2, _⟩ := setBit_eq y _ hby
  have h5 : (withDense b (bl ++ [x]) (bc ++ [y]) pk).child_indicator_bits_[level]?
      = some cw := R.hcw
  have h6 : FSTBuilder.readBit cw pos = some (bitAt cw pos) :=
    builder_readBit_eq cw pos (by have := R.capc; omega)
  have h7 : (withDense b (bl ++ [x]) (bc ++ [y]) pk).bitmap_child_indicator_bits_[level]?
      = some y := getElem?_append_self _ _ _ hc
  simp only [FSTBuilder.setLabelAndChildIndicatorBitmap, h1, h2, h4, e1, Option.bind_eq_bind,
    Option.some_bind]
  rw [h5, Option.some_bind, h6, Option.some_bind]
  cases bitAt cw pos with
  | false =>
    refine ⟨x1, y, ?_, by omega, hy⟩
    simp only [Bool.false_eq_true, if_false, withDense, set_append_self _ _ _ _ hl]
  | true =>
    refine ⟨x1, y1, ?_, by omega, by omega⟩
    simp only [if_true, h7, e2, Option.bind_eq_bind, Option.some_bind]
    simp only [withDense, set_append_self _ _ _ _ hl, set_append_self _ _ _ _ hc]

theorem LevelReady.item_step (R : LevelReady b level lab cw lw nc)
    (bl bc pk : List (List Nat)) (hl : bl.length = level) (hc : bc.length = level)
    (pos : Nat) (st : FSTBuilder × Nat) (hpos : pos < lab.length)
    (h : ItemInv b bl bc pk lw nc pos st) :
    ∃ st1, FSTBuilder.buildDenseItem level pos st = some st1 ∧
      ItemInv b bl bc pk lw nc (pos + 1) st1 := by
  obtain ⟨x, y, e, hx, hy, hn⟩ := h
  have hcount := count_bitsOf_succ lw pos
  have hmono := count_bitsOf_mono lw (show pos + 1 ≤ lab.length by omega)
  rw [← R.cnt] at hmono
  simp only [FSTBuilder.buildDenseItem, e, R.isStartOfNode_eq _ _ _ hpos,
    R.isTerminator_false _ _ _ hpos, Option.bind_eq_bind, Option.some_bind]
  cases hb : bitAt lw pos with
  | true =>
    rw [hb] at hcount
    simp only [if_true] at hcount
    obtain ⟨x1, y1, e1, l1, l2⟩ := R.setLabel_total bl bc pk x y hl hc hx hy hpos
      (show st.2 + 1 < nc by omega)
    simp only [if_true, Bool.false_eq_true, if_false, e1, Option.some_bind]
    exact ⟨_, rfl, x1, y1, rfl, l1, l2, by simp only; omega⟩
  | false =>
    rw [hb] at hcount
    simp only [Bool.false_eq_true, if_false, Nat.add_zero] at hcount
    obtain ⟨x1, y1, e1, l1, l2⟩ := R.setLabel_total bl bc pk x y hl hc hx hy hpos
      (show st.2 < nc by omega)
    simp only [Bool.false_eq_true, if_false, e1, Option.some_bind]
    exact ⟨_, rfl, x1, y1, rfl, l1, l2, by simp only; omega⟩

/-- One level of the dense tier is built: the call returns and adds one entry to each of the
three bitmaps. -/
theorem LevelReady.buildDenseLevel_total (R : LevelReady b level lab cw lw nc)
    (bl bc pk : List (List Nat)) (h1 : bl.length = level) (h2 : bc.length = level)
    (h3 : pk.length = level) :
    ∃ bl1 bc1 pk1, FSTBuilder.buildDenseLevel level (withDense b bl bc pk)
        = some (withDense b bl1 bc1 pk1) ∧
      bl1.length = level + 1 ∧ bc1.length = level + 1 ∧ pk1.length = level + 1 := by
  have hnum : (withDense b (bl ++ [List.replicate (4 * nc) 0]) (bc ++ [List.replicate (4 * nc) 0])
      (pk ++ [List.replicate ((nc + 63) / 64) 0])).getNumItems level = some lab.length := by
    simp only [FSTBuilder.getNumItems]
    rw [show (withDense b (bl ++ [List.replicate (4 * nc) 0])
      (bc ++ [List.replicate (4 * nc) 0])
      (pk ++ [List.replicate ((nc + 63) / 64) 0])).labels_ = b.labels_ from rfl, R.hlab]
    rfl
  simp only [FSTBuilder.buildDenseLevel, initDenseVectors_eq b bl bc pk level R h1 h2 h3, hnum,
    Option.bind_eq_bind, Option.some_bind]
  by_cases hn0 : lab.length = 0
  · simp only [hn0, beq_self_eq_true, if_true]
    exact ⟨_, _, _, rfl, by simp [h1], by simp [h2], by simp [h3]⟩
  · have hb : (lab.length == 0) = false := by simpa using hn0
    have hpos : 0 < lab.length := by omega
    have hne : lab ≠ [] := by intro h0; rw [h0] at hn0; exact hn0 rfl
    have hhead := R.head hne
    have hone : (bitsOf lw 1).count true = 1 := by
      rw [count_bitsOf_succ lw 0, hhead]; rfl
    have hnc : 0 < nc := by
      have := count_bitsOf_mono lw (show 1 ≤ lab.length by omega)
      rw [← R.cnt, hone] at this; omega
    obtain ⟨x1, y1, e1, l1, l2⟩ := R.setLabel_total bl bc (pk ++ [List.replicate ((nc + 63) / 64) 0])
      (List.replicate (4 * nc) 0) (List.replicate (4 * nc) 0) h1 h2 (by simp) (by simp) hpos hnc
    simp only [hb, Bool.false_eq_true, if_false, R.isTerminator_false _ _ _ hpos, e1,
      Option.some_bind]
    obtain ⟨st, e2, x2, y2, e3, _, _, _⟩ := forRange_inv (FSTBuilder.buildDenseItem level)
      (ItemInv b bl bc (pk ++ [List.replicate ((nc + 63) / 64) 0]) lw nc) (lab.length - 1) 1
      (withDense b (bl ++ [x1]) (bc ++ [y1]) (pk ++ [List.replicate ((nc + 63) / 64) 0]), 0)
      (fun pos st _ hp hi => R.item_step bl bc _ h1 h2 pos st (by omega) hi)
      ⟨x1, y1, rfl, l1, l2, by rw [hone]⟩
    rw [e2, Option.some_bind, e3]
    exact ⟨_, _, _, rfl, by simp [h1], by simp [h2], by simp [h3]⟩

/-- The dense tier is built: `buildDense` returns and changes the three bitmaps only. -/
theorem buildDense_total (b : FSTBuilder)
    (hbl : b.bitmap_labels_ = []) (hbc : b.bitmap_child_indicator_bits_ = [])
    (hpk : b.prefixkey_indicator_bits_ = [])
    (hready : ∀ l, l < b.sparse_start_level_ → ∃ lab cw lw nc, LevelReady b l lab cw lw nc) :
    ∃ bl bc pk, b.buildDense = some (withDense b bl bc pk) := by
  have h0 : b = withDense b [] [] [] := by
    have := withDense_self b
    rw [hbl, hbc, hpk] at this
    exact this.symm
  obtain ⟨st, e, bl, bc, pk, e2, _⟩ := forRange_inv FSTBuilder.buildDenseLevel
    (fun l st => ∃ bl bc pk, st = withDense b bl bc pk ∧ bl.length = l ∧ bc.length = l ∧
      pk.length = l) b.sparse_start_level_ 0 b
    (by
      intro l st _ hl hi
      obtain ⟨bl, bc, pk, e, h1, h2, h3⟩ := hi
      obtain ⟨lab, cw, lw, nc, R⟩ := hready l (by omega)
      obtain ⟨bl1, bc1, pk1, e1, a1, a2, a3⟩ := R.buildDenseLevel_total bl bc pk h1 h2 h3
      exact ⟨_, by rw [e]; exact e1, bl1, bc1, pk1, rfl, a1, a2, a3⟩)
    ⟨[], [], [], h0, rfl, rfl, rfl⟩
  exact ⟨bl, bc, pk, by rw [← e2]; exact e⟩

end FST

namespace FST

/-! ## The whole build -/

theorem BState_init_mk2 (d : Bool) (R : Nat) (keys : List (List Nat)) (values : List Nat) :
    BState keys values 0 (sOf keys 0) (FSTBuilder.mk2 d R) := by
  rw [sOf_zero]
  refine ⟨fun _ => [], fun _ => [], ?_, ?_, ?_, ?_, ?_⟩
  · refine ⟨rfl, rfl, rfl, rfl, rfl, rfl, ?_, ?_, ?_, ?_, ?_, rfl⟩
    · intro l; simp [labL, labS, lvl, FSTBuilder.new, FSTBuilder.mk2]
    · intro l; simp [cwL, FSTBuilder.new, FSTBuilder.mk2]
    · intro l; simp [lwL, FSTBuilder.new, FSTBuilder.mk2]
    · intro l; simp [valL, valS, FSTBuilder.new, FSTBuilder.mk2]
    · intro l hl; simp [HS] at hl
  · intro l hl; simp [HS] at hl
  · intro l hl; simp [HS] at hl
  · intro l; simp [chS, labS, lvl, bitsOf]
  · intro l; simp [loS, labS, lvl, bitsOf]

/-- The sparse build of a configured builder accepts every key list of one length in
strictly increasing order. -/
theorem buildSparse_state_mk2 (d : Bool) (R : Nat) (keys : List (List Nat)) (values : List Nat)
    (L : Nat) (K : KeysOK keys L) (hv : values.length = keys.length) :
    ∃ b, (FSTBuilder.mk2 d R).buildSparse keys values = some b ∧
      BState keys values keys.length 0 b :=
  buildSparseLoop_state keys values L K hv keys.length 0 (keys.length + 1) (FSTBuilder.mk2 d R)
    (by omega) (by omega) (BState_init_mk2 d R keys values)

theorem BInv.levelReady {b : FSTBuilder} (I : BInv b) {l : Nat} (hl : l < b.labels_.length) :
    LevelReady b l (labL b l) (cwL b l) (lwL b l) ((loL b l).count true) := by
  obtain ⟨H, cw, lw, S, p1, p2, _, _⟩ := I.packed
  have hH : l < H := by rw [← S.lenLab]; exact hl
  have c1 := (p1 l hH).len
  have c2 := (p2 l hH).len
  rw [← S.cw l] at c1
  rw [← S.lw l] at c2
  refine ⟨S.labels_get hH, getD_of_lt _ _ _ (by rw [S.lenC]; exact hH),
    getD_of_lt _ _ _ (by rw [S.lenL]; exact hH), ?_, by rw [c1]; omega, by rw [c2]; omega, rfl, ?_,
    I.bytes l⟩
  · rw [getD_of_lt b.node_counts_ l 0 (by rw [S.lenN]; exact hH), I.counts l]
  · intro hne
    have := I.heads l hne
    have hpos : 0 < (labL b l).length := List.length_pos.mpr hne
    rw [loL, bitsOf] at this
    obtain ⟨n, hn⟩ : ∃ n, (labL b l).length = n + 1 := ⟨(labL b l).length - 1, by omega⟩
    rw [hn, List.range_succ_eq_map] at this
    simpa using this

end FST

namespace FST

/-! ## The range scan -/

/-- The search `moveToKeyGreaterThan` on a trie whose values are the indices of the keys,
and whose last node is sized exactly: the iterator it returns is on the first key that
qualifies, in a state from which the traversal can go on. -/
theorem search_at (keys : List (List Nat)) (values : List Nat) (L : Nat)
    (K : KeysOK keys L) (hv : values.length = keys.length)
    (hno : TermOK keys) (hidx : ∀ i, i < keys.length → values.getD i 0 = i) :
    ∃ b t, FSTBuilder.new.buildSparse keys values = some b ∧
      LoudsSparse.new b keys = some t ∧ TRepr t (tvOf keys values) (entOf keys) ∧
      (t.lastNodeFits = true → ∀ p inclusive, ∃ o, Ans keys inclusive p o ∧
        SearchAt t keys values (t.moveToKeyGreaterThan p inclusive (Iter.new t)) o) := by
  obtain ⟨b, t, hb, ht, R, hk, _⟩ := build_repr keys values L K hv hno
  have F := K.flatTrie values
  have hn : 0 < keys.length := List.length_pos.mpr K.ne
  refine ⟨b, t, hb, ht, R, ?_⟩
  intro hfit p inclusive
  by_cases hex : ∃ i0, i0 < keys.length ∧ tK keys i0 <+: p
  · obtain ⟨i0, hi0, hpre⟩ := hex
    have hfk : t.keys_[values.getD i0 0]? = some (kAt keys i0) := by
      rw [hk, hidx i0 hi0, kAt, List.getD_eq_getElem?_getD, List.getElem?_eq_getElem hi0]
      rfl
    obtain ⟨it2, H, hterm, e⟩ := mtk_stored R F p inclusive (tK keys i0) _ _
      ((mem_keysOf_tvOf keys values _).mpr ⟨i0, hi0, rfl⟩) (K.lookup_tK values i0 hi0) hfk hpre
    have hbelow : ∀ j, j < i0 → qualifies inclusive p (kAt keys j) = false := fun j hj =>
      not_qualifies_of_lt inclusive (K.lt_probe_of_lt i0 j hj hi0 hpre)
    -- the iterator stays on the key
    have stay : qualifies inclusive p (kAt keys i0) = true →
        t.moveToKeyGreaterThan p inclusive (Iter.new t) = some { it2 with is_valid_ := true } →
        ∃ o, Ans keys inclusive p o ∧
          SearchAt t keys values (t.moveToKeyGreaterThan p inclusive (Iter.new t)) o := by
      intro hq hr
      have A := H.set_valid hterm
      exact ⟨some i0, ⟨hi0, hq, hbelow⟩, _, _, hr, A⟩
    -- the iterator is advanced
    have next : qualifies inclusive p (kAt keys i0) = false →
        t.moveToKeyGreaterThan p inclusive (Iter.new t) = it2.incr t →
        ∃ o, Ans keys inclusive p o ∧
          SearchAt t keys values (t.moveToKeyGreaterThan p inclusive (Iter.new t)) o := by
      intro hq hr
      by_cases hlast : i0 + 1 < keys.length
      · obtain ⟨it3, h3, A⟩ := atKey_incr R F H (K.tK_isSucc values i0 hlast)
        refine ⟨some (i0 + 1), ⟨hlast,
          qualifies_of_lt inclusive (K.probe_lt_of_lt i0 (i0 + 1) (by omega) hlast hpre), ?_⟩,
          it3, _, by rw [hr]; exact h3, A⟩
        intro j hj
        by_cases hji : j < i0
        · exact hbelow j hji
        · have : j = i0 := by omega
          subst this; exact hq
      · have hi : i0 = keys.length - 1 := by omega
        obtain ⟨it3, h3, h4, _⟩ := atKey_incr_last R F H (by
          rw [hi]; exact K.tK_greatest values)
        refine ⟨none, ?_, it3, by rw [hr]; exact h3, h4⟩
        intro j hj
        by_cases hji : j < i0
        · exact hbelow j hji
        · have : j = i0 := by omega
          subst this; exact hq
    by_cases c1 : strLt p (kAt keys i0) = true
    · apply stay (qualifies_of_lt inclusive c1)
      rw [e, if_pos c1]
    · by_cases c2 : strLt (kAt keys i0) p = true
      · apply next (not_qualifies_of_lt inclusive c2)
        rw [e, if_neg c1, if_pos c2]
      · cases inclusive
        · apply next (by simpa [qualifies] using c1)
          rw [e, if_neg c1, if_neg c2]
          simp
        · apply stay (by simpa [qualifies] using c2)
          rw [e, if_neg c1, if_neg c2]
          simp
  · have hnone : ∀ w ∈ keysOf (tvOf keys values), ¬ w <+: p := by
      intro w hw hp
      obtain ⟨j, hj, rfl⟩ := (mem_keysOf_tvOf keys values w).mp hw
      exact hex ⟨j, hj, hp⟩
    rcases mtk_unstored R F (lastNodeFits_spec t hfit) p inclusive hnone with
      ⟨u, it1, a1, a2, a3⟩ | ⟨a1, it1, a2, a3⟩
    · obtain ⟨i, hi, rfl⟩ := (mem_keysOf_tvOf keys values u).mp a1.1
      refine ⟨some i, ⟨hi, qualifies_of_lt inclusive (KeysOK.lt_full_of_lt_stored i a1.2.1), ?_⟩,
        it1, _, a2, a3⟩
      intro j hj
      apply not_qualifies_of_lt
      apply K.full_lt_of_not_lt j (by omega) (fun h => hex ⟨j, by omega, h⟩)
      cases hb2 : strLt p (tK keys j) with
      | false => rfl
      | true =>
        exfalso
        have h1 := a1.2.2 (tK keys j) ((mem_keysOf_tvOf keys values _).mpr ⟨j, by omega, rfl⟩) hb2
        rw [strLe, K.tK_lt j i hj hi] at h1
        exact Bool.noConfusion h1
    · refine ⟨none, ?_, it1, a2, a3⟩
      intro j hj
      apply not_qualifies_of_lt
      apply K.full_lt_of_not_lt j hj (fun h => hex ⟨j, hj, h⟩)
      cases hb2 : strLt p (tK keys j) with
      | false => rfl
      | true =>
        exact absurd hb2 (a1 _ ((mem_keysOf_tvOf keys values _).mpr ⟨j, hj, rfl⟩))

end FST

namespace FST

/-! ## The iterators of a range scan -/

theorem searchAt_iterAt {t : LoudsSparse} {keys : List (List Nat)} {values : List Nat}
    {r : Option Iter} {o : Option Nat} {inclusive : Bool} {p : List Nat}
    (ho : Ans keys inclusive p o) (h : SearchAt t keys values r o) :
    ∃ it, r = some it ∧ IterAt t keys values it (cutOf keys o) := by
  cases o with
  | none =>
    obtain ⟨it, h1, h2⟩ := h
    exact ⟨it, h1, fun hlt => absurd hlt (Nat.lt_irrefl _), fun _ => h2⟩
  | some i =>
    obtain ⟨it, a, h1, h2⟩ := h
    refine ⟨it, h1, fun _ => ⟨a, h2⟩, fun hge => ?_⟩
    have : i < keys.length := ho.1
    simp only [cutOf, Option.getD_some] at hge
    omega

theorem cutOf_le {keys : List (List Nat)} {o : Option Nat} {inclusive : Bool} {p : List Nat}
    (ho : Ans keys inclusive p o) : cutOf keys o ≤ keys.length := by
  cases o with
  | none => exact Nat.le_refl _
  | some i => exact Nat.le_of_lt ho.1

/-- The keys from the cut of an inclusive search on are the keys that are not below the
probe. -/
theorem cut_inclusive {keys : List (List Nat)} {L : Nat} (K : KeysOK keys L) {o : Option Nat}
    {p : List Nat} (ho : Ans keys true p o) (j : Nat) (hj : j < keys.length) :
    cutOf keys o ≤ j ↔ strLt (kAt keys j) p = false := by
  cases o with
  | none =>
    have h := ho j hj
    simp only [qualifies, if_true, Bool.not_eq_false'] at h
    simp only [cutOf, Option.getD_none, h]
    constructor
    · intro h2; omega
    · intro h2; exact Bool.noConfusion h2
  | some i =>
    obtain ⟨hi, hq, hb⟩ := ho
    simp only [qualifies, if_true, Bool.not_eq_true'] at hq
    simp only [cutOf, Option.getD_some]
    constructor
    · intro hij
      rcases Nat.lt_or_eq_of_le hij with h | h
      · cases hc : strLt (kAt keys j) p with
        | false => rfl
        | true =>
          have := strLt_trans (K.kAt_lt i j h hj) hc
          rw [hq] at this; exact Bool.noConfusion this
      · rw [← h]; exact hq
    · intro hq2
      rcases Nat.lt_or_ge j i with h | h
      · have := hb j h
        simp only [qualifies, if_true, Bool.not_eq_false'] at this
        rw [hq2] at this; exact Bool.noConfusion this
      · exact h

/-- The keys from the cut of an exclusive search on are the keys above the probe. -/
theorem cut_exclusive {keys : List (List Nat)} {L : Nat} (K : KeysOK keys L) {o : Option Nat}
    {p : List Nat} (ho : Ans keys false p o) (j : Nat) (hj : j < keys.length) :
    cutOf keys o ≤ j ↔ strLt p (kAt keys j) = true := by
  cases o with
  | none =>
    have h := ho j hj
    simp only [qualifies, Bool.false_eq_true, if_false] at h
    simp only [cutOf, Option.getD_none, h]
    constructor
    · intro h2; omega
    · intro h2; exact Bool.noConfusion h2
  | some i =>
    obtain ⟨hi, hq, hb⟩ := ho
    simp only [qualifies, Bool.false_eq_true, if_false] at hq
    simp only [cutOf, Option.getD_some]
    constructor
    · intro hij
      rcases Nat.lt_or_eq_of_le hij with h | h
      · exact strLt_trans hq (K.kAt_lt i j h hj)
      · rw [← h]; exact hq
    · intro hq2
      rcases Nat.lt_or_ge j i with h | h
      · have := hb j h
        simp only [qualifies, Bool.false_eq_true, if_false] at this
        rw [hq2] at this; exact Bool.noConfusion this
      · exact h

theorem cut_le_cut {keys : List (List Nat)} {L : Nat} (K : KeysOK keys L) {oa oe : Option Nat}
    {lo hi : List Nat} (ha : Ans keys true lo oa) (he : Ans keys false hi oe)
    (h : strLt hi lo = false) : cutOf keys oa ≤ cutOf keys oe := by
  rcases Nat.lt_or_ge (cutOf keys oe) (cutOf keys oa) with hlt | hge
  · exfalso
    have hn : cutOf keys oe < keys.length := Nat.lt_of_lt_of_le hlt (cutOf_le ha)
    have h1 := (cut_exclusive K he _ hn).mp (Nat.le_refl _)
    have h2 : strLt (kAt keys (cutOf keys oe)) lo = true := by
      cases hc : strLt (kAt keys (cutOf keys oe)) lo with
      | true => rfl
      | false =>
        have := (cut_inclusive K ha _ hn).mpr hc
        omega
    have := strLt_trans h1 h2
    rw [h] at this; exact Bool.noConfusion this
  · exact hge

/-- Two iterators on keys of the same index compare equal, an iterator on a key before the
index of the other one does not. -/
theorem iterAt_equal {t : LoudsSparse} {keys : List (List Nat)} {values : List Nat} {L : Nat}
    (K : KeysOK keys L) {it last : Iter} {i e : Nat} (h1 : IterAt t keys values it i)
    (h2 : IterAt t keys values last e) (hie : i ≤ e) (he : e ≤ keys.length) :
    it.equal last = decide (i = e) := by
  rcases Nat.lt_or_eq_of_le hie with hlt | heq
  · have hin : i < keys.length := by omega
    obtain ⟨a, A⟩ := h1.1 hin
    have hne : decide (i = e) = false := decide_eq_false (by omega)
    rw [hne]
    rcases Nat.lt_or_ge e keys.length with h | h
    · obtain ⟨a2, A2⟩ := h2.1 h
      have hk : (tK keys i == tK keys e) = false := by
        simp only [beq_eq_false_iff_ne, ne_eq]
        exact strLt_ne (K.tK_lt i e hlt h)
      simp only [Iter.equal, A.valid, A2.valid, atKey_getKey A, atKey_getKey A2, hk]
      rfl
    · have hv : last.is_valid_ = false := h2.2 h
      simp only [Iter.equal, A.valid, hv]
      rfl
  · subst heq
    have hd : decide (i = i) = true := decide_eq_true rfl
    rw [hd]
    rcases Nat.lt_or_ge i keys.length with h | h
    · obtain ⟨a, A⟩ := h1.1 h
      obtain ⟨a2, A2⟩ := h2.1 h
      simp only [Iter.equal, A.valid, A2.valid, atKey_getKey A, atKey_getKey A2]
      simp
    · have hv1 : it.is_valid_ = false := h1.2 h
      have hv2 : last.is_valid_ = false := h2.2 h
      simp only [Iter.equal, hv1, hv2]
      rfl

/-- The walk from an iterator on the key of index `a` up to the index `e`. -/
theorem range_walk {keys : List (List Nat)} {L : Nat} (K : KeysOK keys L) (values : List Nat)
    {t : LoudsSparse} (R : TRepr t (tvOf keys values) (entOf keys)) {first : Iter} {a e : Nat}
    (h : IterAt t keys values first a) (he : e ≤ keys.length) :
    ∀ m, a + m ≤ e → ∃ it, Iter.incrTimes t m first = some it ∧
      IterAt t keys values it (a + m) := by
  intro m
  induction m with
  | zero => intro _; exact ⟨first, rfl, h⟩
  | succ m ih =>
    intro hm
    obtain ⟨it, e1, I1⟩ := ih (by omega)
    obtain ⟨a0, A⟩ := I1.1 (by omega)
    by_cases hlast : a + m + 1 < keys.length
    · obtain ⟨it1, h3, A1⟩ := atKey_incr R (K.flatTrie values) A.holds
        (K.tK_isSucc values (a + m) hlast)
      refine ⟨it1, ?_, fun _ => ⟨a0, A1⟩, fun hge => by omega⟩
      simp only [Iter.incrTimes, e1, Option.bind_eq_bind, Option.some_bind, h3]
    · have hi : a + m = keys.length - 1 := by omega
      obtain ⟨it1, h3, h4, _⟩ := atKey_incr_last R (K.flatTrie values) A.holds (by
        rw [hi]; exact K.tK_greatest values)
      refine ⟨it1, ?_, fun hlt => by omega, fun _ => h4⟩
      simp only [Iter.incrTimes, e1, Option.bind_eq_bind, Option.some_bind, h3]

end FST

namespace FST

/-! ## C14: the cutoff level chosen by `determineCutoffLevel` -/

theorem noOverflow_withRatio {b : FSTBuilder} {R R1 : Nat} (N : NoOverflow b R) (R0 : Nat)
    (h : R1 ≤ R) : NoOverflow (withRatio b R0) R1 :=
  ⟨N.nodes, N.items, N.dense, N.sparse,
    Nat.lt_of_le_of_lt (Nat.mul_le_mul_left _ h) N.prod⟩

theorem wideLevels_sparse :
    sparseMemSpec [[0, 1, 2], wideRow] 0 = 517 ∧
    sparseMemSpec [[0, 1, 2], wideRow] 1 = 513 ∧
    sparseMemSpec [[0, 1, 2], wideRow] 2 = 0 := by
  have h : wideRow.length = 410 := List.length_replicate _ _
  simp [sparseMemSpec, sparseTerm, List.range_succ, h]

theorem wideLevels_dense :
    denseMemSpec [1, 3] 0 = 0 ∧ denseMemSpec [1, 3] 1 = 512 ∧ denseMemSpec [1, 3] 2 = 2049 := by
  simp [denseMemSpec, denseTerm, List.range_succ]

theorem wideLevels_noOverflow (R0 R : Nat) (h : R ≤ 2) : NoOverflow (wideLevels R0) R := by
  obtain ⟨s0, s1, s2⟩ := wideLevels_sparse
  obtain ⟨d0, d1, d2⟩ := wideLevels_dense
  refine ⟨?_, ?_, ?_, ?_, ?_⟩
  · intro l hl
    have hl2 : l < 2 := hl
    have : l = 0 ∨ l = 1 := by omega
    rcases this with e | e <;> subst e
    · show 2 * 256 * 1 < 2 ^ 32
      decide
    · show 2 * 256 * 3 < 2 ^ 32
      decide
  · intro l hl
    have hl2 : l < 2 := hl
    have hw : wideRow.length = 410 := List.length_replicate _ _
    have : l = 0 ∨ l = 1 := by omega
    rcases this with e | e <;> subst e
    · show 2 * 3 < 2 ^ 32
      decide
    · show 2 * wideRow.length < 2 ^ 32
      rw [hw]; decide
  · show denseMemSpec [1, 3] 2 < 2 ^ 64
    rw [d2]; decide
  · show sparseMemSpec [[0, 1, 2], wideRow] 0 < 2 ^ 64
    rw [s0]; decide
  · show denseMemSpec [1, 3] 2 * R < 2 ^ 64
    rw [d2]
    have : 2049 * R ≤ 2049 * 2 := Nat.mul_le_mul_left _ h
    omega

theorem wideLevels_cutoff (R c : Nat) (h : R ≤ 2)
    (k : IsCutoff [1, 3] [[0, 1, 2], wideRow] R c) :
    ((wideLevels R).determineCutoffLevel).map (fun b => b.sparse_start_level_) = some c := by
  obtain ⟨c1, k1, e1⟩ := determineCutoffLevel_spec (wideLevels R) R rfl ⟨rfl, rfl⟩
    (wideLevels_noOverflow R R h)
  have : c1 = c := IsCutoff.unique k1 k
  subst this
  rw [e1]; rfl

/-- C14 (counterexample): a larger ratio can yield fewer dense levels.  For the keys "aa",
"ab", "bc" the ratio 0 gives the cutoff 2 and the ratio 16 the cutoff 1; for per-level
vectors with one node and 3 labels on level 0 and 3 nodes and 410 labels on level 1 (dense
estimate 512, sparse estimate 513 at level 1) the ratio 1 gives the cutoff 2 and the ratio 2
the cutoff 1. -/
theorem C14_larger_ratio_fewer_dense_levels :
    (((FSTBuilder.mk2 true 0).buildSparse [[97, 97], [97, 98], [98, 99]] [10, 20, 30]).bind
        (fun b => b.determineCutoffLevel)).map (fun b => b.sparse_start_level_) = some 2 ∧
    (((FSTBuilder.mk2 true 16).buildSparse [[97, 97], [97, 98], [98, 99]] [10, 20, 30]).bind
        (fun b => b.determineCutoffLevel)).map (fun b => b.sparse_start_level_) = some 1 ∧
    ((wideLevels 1).determineCutoffLevel).map (fun b => b.sparse_start_level_) = some 2 ∧
    ((wideLevels 2).determineCutoffLevel).map (fun b => b.sparse_start_level_) = some 1 := by
  refine ⟨by decide, by decide, ?_, ?_⟩
  · obtain ⟨s0, s1, s2⟩ := wideLevels_sparse
    obtain ⟨d0, d1, d2⟩ := wideLevels_dense
    refine wideLevels_cutoff 1 2 (by decide) ⟨by decide, by rw [s2]; exact Nat.zero_le _, ?_⟩
    intro l hl
    have : l = 0 ∨ l = 1 := by omega
    rcases this with e | e <;> subst e
    · rw [d0, s0]; decide
    · rw [d1, s1]; decide
  · obtain ⟨s0, s1, s2⟩ := wideLevels_sparse
    obtain ⟨d0, d1, d2⟩ := wideLevels_dense
    refine wideLevels_cutoff 2 1 (by decide) ⟨by decide, by rw [s1, d1]; decide, ?_⟩
    intro l hl
    have : l = 0 := by omega
    subst this
    rw [d0, s0]; decide

/-- C14 (amended): the cutoff is antitone in the ratio.  For fixed per-level vectors (one
entry per level in `node_counts_` and `values_`) and two ratios `R1 <= R2`, without
arithmetic overflow, `determineCutoffLevel` returns for both ratios and the
`sparse_start_level_` chosen with `R2` is less than or equal to the one chosen with `R1`: a
larger ratio never yields more dense levels. -/
theorem C14_cutoff_antitone (b : FSTBuilder) (R1 R2 : Nat) (h : R1 ≤ R2)
    (hc : b.node_counts_.length = b.labels_.length)
    (hv : b.values_.length = b.labels_.length)
    (hno : NoOverflow b R2) :
    ∃ b1 b2, (withRatio b R1).determineCutoffLevel = some b1 ∧
      (withRatio b R2).determineCutoffLevel = some b2 ∧
      b2.sparse_start_level_ ≤ b1.sparse_start_level_ := by
  obtain ⟨c1, k1, e1⟩ := determineCutoffLevel_spec (withRatio b R1) R1 rfl ⟨hc, hv⟩
    (noOverflow_withRatio hno R1 h)
  obtain ⟨c2, k2, e2⟩ := determineCutoffLevel_spec (withRatio b R2) R2 rfl ⟨hc, hv⟩
    (noOverflow_withRatio hno R2 (Nat.le_refl _))
  refine ⟨_, _, e1, e2, ?_⟩
  show c2 ≤ c1
  rcases Nat.lt_or_ge c1 c2 with hlt | hge
  · have a1 := k2.least c1 hlt
    have a2 := k1.reach
    have a3 : denseMemSpec b.node_counts_ c1 * R1 ≤ denseMemSpec b.node_counts_ c1 * R2 :=
      Nat.mul_le_mul_left _ h
    have a4 : sparseMemSpec b.labels_ c1 ≤ denseMemSpec b.node_counts_ c1 * R1 := a2
    have a5 : denseMemSpec b.node_counts_ c1 * R2 < sparseMemSpec b.labels_ c1 := a1
    omega
  · exact hge

/-- C14 (witness): the per-level vectors of the trie of "aa", "ab", "bc" with the ratios 0
and 16. -/
theorem C14_cutoff_antitone_witness :
    ∃ b1 b2,
      (withRatio (smallLevels 7) 0).determineCutoffLevel = some b1 ∧
      (withRatio (smallLevels 7) 16).determineCutoffLevel = some b2 ∧
      b2.sparse_start_level_ ≤ b1.sparse_start_level_ :=
  C14_cutoff_antitone (smallLevels 7) 0 16 (by decide) (by decide) (by decide)
    ⟨by decide, by decide, by decide, by decide, by decide⟩

end FST

namespace FST

/-! ## C11, C12, C16: what the build checks, duplicate keys, prefix keys -/

/-- C11 (counterexample): the unsorted key list "b", "a" is built without a failure, and so
is the list "a", "b" with three values. -/
theorem C11_unsorted_keys_accepted :
    strLt [98] [97] = false ∧
    (FSTBuilder.new.build [[98], [97]] [1, 2]).isSome = true ∧
    (FSTBuilder.new.build [[97], [98]] [1, 2, 3]).isSome = true := by
  decide

/-- C11 (amended): `build` fails its assertion on an empty key list; it does not compare the
number of values with the number of keys: the values past the number of keys are never
read, the result is the one for the first `keys.size()` values.  (The order of the keys is
not checked either.) -/
theorem C11_build_checks (b : FSTBuilder) (keys : List (List Nat)) (values extra : List Nat)
    (hv : values.length = keys.length) :
    b.build [] values = none ∧
    b.build keys (values ++ extra) = b.build keys values := by
  refine ⟨by simp [FSTBuilder.build, check], ?_⟩
  simp only [FSTBuilder.build, buildSparse_surplus b keys values extra (by omega)]

/-- C11 (witness): the keys "a", "b" with the values 1, 2 and the surplus value 3. -/
theorem C11_build_checks_witness :
    FSTBuilder.new.build [] [1, 2] = none ∧
    FSTBuilder.new.build [[97], [98]] ([1, 2] ++ [3]) = FSTBuilder.new.build [[97], [98]] [1, 2] :=
  C11_build_checks FSTBuilder.new [[97], [98]] [1, 2] [3] (by decide)

/-- C12: for every list of keys with as many values, `buildSparse` gives the same result
(the same labels, child-indicator bits, LOUDS bits, node counts and values, and the same
failure if it fails) as on the list in which every run of bytewise-equal consecutive keys is
replaced by its first (key, value) pair; for a non-empty list of keys of one length `L > 0`
that is sorted with duplicates, the build from the fresh builder returns a result, the same
on both lists. -/
theorem C12_duplicates_first_only (b : FSTBuilder) (keys : List (List Nat)) (values : List Nat)
    (hv : values.length = keys.length) :
    b.buildSparse keys values
      = b.buildSparse ((firstOfRuns (keys.zip values)).map Prod.fst)
          ((firstOfRuns (keys.zip values)).map Prod.snd) ∧
    ∀ L, keys ≠ [] → (∀ k ∈ keys, k.length = L) → 0 < L →
      keys.Pairwise (fun a b => strLt b a = false) →
      ∃ r, FSTBuilder.new.buildSparse keys values = some r ∧
        FSTBuilder.new.buildSparse ((firstOfRuns (keys.zip values)).map Prod.fst)
          ((firstOfRuns (keys.zip values)).map Prod.snd) = some r := by
  refine ⟨buildSparse_firstOfRuns b keys values (by omega), ?_⟩
  intro L hne hlen hL hs
  obtain ⟨r, hr⟩ := buildSparse_with_duplicates keys values L hne hlen hL hs hv
  exact ⟨r, hr, by rw [← buildSparse_firstOfRuns FSTBuilder.new keys values (by omega)]; exact hr⟩

/-- C12 (witness): the keys "aa", "aa", "ab", "ab", "ab", "bb" with the values 1 .. 6 give the
trie of "aa", "ab", "bb" with the values 1, 3, 6. -/
theorem C12_duplicates_first_only_witness :
    FSTBuilder.new.buildSparse [[97, 97], [97, 97], [97, 98], [97, 98], [97, 98], [98, 98]]
        [1, 2, 3, 4, 5, 6]
      = FSTBuilder.new.buildSparse [[97, 97], [97, 98], [98, 98]] [1, 3, 6] ∧
    ∃ r, FSTBuilder.new.buildSparse
        [[97, 97], [97, 97], [97, 98], [97, 98], [97, 98], [98, 98]] [1, 2, 3, 4, 5, 6]
        = some r ∧
      FSTBuilder.new.buildSparse [[97, 97], [97, 98], [98, 98]] [1, 3, 6] = some r :=
  ⟨(C12_duplicates_first_only FSTBuilder.new
      [[97, 97], [97, 97], [97, 98], [97, 98], [97, 98], [98, 98]] [1, 2, 3, 4, 5, 6]
      (by decide)).1,
    (C12_duplicates_first_only FSTBuilder.new
      [[97, 97], [97, 97], [97, 98], [97, 98], [97, 98], [98, 98]] [1, 2, 3, 4, 5, 6]
      (by decide)).2 2 (by decide) (by decide) (by decide) (by decide)⟩

/-- C16 (counterexample): "apple" is a proper prefix of the next key "application"; the
build fails and no terminator edge is made. -/
theorem C16_prefix_key_not_built :
    FSTBuilder.new.buildSparse
      [[97, 112, 112, 108, 101], [97, 112, 112, 108, 105, 99, 97, 116, 105, 111, 110]]
      [1, 2] = none := by
  decide

/-- C16 (amended): when a key of the input is a proper prefix of the key that follows it,
`buildSparse` fails the assertion `a.length() == b.length()` of `isSameKey`: no trie is
built, and no terminator edge is made for the key. -/
theorem C16_prefix_key_rejected (b : FSTBuilder) (keys : List (List Nat)) (values : List Nat)
    (hv : values.length = keys.length) (i : Nat) (hi : i + 1 < keys.length)
    (hp : kAt keys i <+: kAt keys (i + 1)) (hne : kAt keys i ≠ kAt keys (i + 1)) :
    b.buildSparse keys values = none := by
  apply buildSparse_bad b keys values (by omega) i hi
  intro hl
  exact hne (List.IsPrefix.eq_of_length hp hl)

/-- C16 (witness): the keys "a", "ab". -/
theorem C16_prefix_key_rejected_witness :
    FSTBuilder.new.buildSparse [[97], [97, 98]] [1, 2] = none :=
  C16_prefix_key_rejected FSTBuilder.new [[97], [97, 98]] [1, 2] (by decide) 0 (by decide)
    ⟨[98], rfl⟩ (by decide)

end FST

namespace FST

/-! ## C17: a key that is consumed on internal edges -/

theorem lookupKeyLoop_consumed (t : LoudsSparse) (offset : Nat) :
    ∀ (key : List Nat) (pos : Nat), ConsumedOnInternalEdges t key pos →
      t.lookupKeyLoop offset key pos = some (false, offset) := by
  intro key
  induction key with
  | nil => intro pos _; rfl
  | cons c rest ih =>
    intro pos h
    obtain ⟨sz, g, p2, h1, h2, h3, h4, h5⟩ := h
    simp only [LoudsSparse.lookupKeyLoop, h1, h2, h3, h4, Option.bind_eq_bind, Option.some_bind,
      Bool.not_true, Bool.false_eq_true, if_false]
    exact ih p2 h5

/-- C17 (counterexample): in the trie with the labels 'a' | 255 'b' (child bits 1 | 0 0) the
key "a" is consumed on the edge 'a', whose child bit is set, and the first label of the child
node (position 1) is the terminator 255 with child bit 0; the value index of that position
is `1 - rank(1) = 0`, the value 7.  `lookupKey` of "a" returns false (and leaves the offset
0), while "ab" is found with the value 8. -/
theorem C17_terminator_child_not_examined :
    (LoudsSparse.new terminatorLevels []).isSome = true ∧
    ((LoudsSparse.new terminatorLevels []).bind fun t => t.labels_.read 1) = some kTerminator ∧
    ((LoudsSparse.new terminatorLevels []).bind fun t => t.child_indicator_bits_.readBit 0)
      = some true ∧
    ((LoudsSparse.new terminatorLevels []).bind fun t => t.child_indicator_bits_.readBit 1)
      = some false ∧
    ((LoudsSparse.new terminatorLevels []).bind fun t => t.lookupKey [97, 98] 0 0)
      = some (true, 8) ∧
    ((LoudsSparse.new terminatorLevels []).bind fun t => t.lookupKey [97] 0 0)
      = some (false, 0) := by
  decide

/-- C17 (amended): in `LoudsSparse::lookupKey`, if all bytes of the key are consumed on edges
whose child bit is set, the lookup returns false and leaves `offset` unchanged, whatever the
labels of the child node are: a terminator edge at the child node is not examined. -/
theorem C17_consumed_key_not_found (t : LoudsSparse) (key : List Nat)
    (in_node_num offset pos : Nat)
    (hp : t.getFirstLabelPos in_node_num = some pos)
    (h : ConsumedOnInternalEdges t (key.drop t.start_level_) pos) :
    t.lookupKey key in_node_num offset = some (false, offset) := by
  simp only [LoudsSparse.lookupKey, hp, Option.bind_eq_bind, Option.some_bind]
  exact lookupKeyLoop_consumed t offset _ pos h

/-- C17 (witness): the key "a" in the trie with the labels 'a' | 255 'b'. -/
theorem C17_consumed_key_not_found_witness :
    LoudsSparse.new terminatorLevels [] = some terminatorTrie ∧
    terminatorTrie.lookupKey [97] 0 0 = some (false, 0) :=
  ⟨by decide, C17_consumed_key_not_found terminatorTrie [97] 0 0 0 (by decide)
    ⟨1, 0, 1, by decide, by decide, by decide, by decide, trivial⟩⟩

end FST

namespace FST

/-! ## C19: the span build with a skipped prefix -/

set_option maxRecDepth 8000 in
theorem span_256_fails :
    strLt longKeyA longKeyB = true ∧
    strippedKeys [⟨1, longKeyA⟩, ⟨2, longKeyB⟩] 256 = [[97], [97]] ∧
    FSTBuilder.new.buildSpan [⟨1, longKeyA⟩, ⟨2, longKeyB⟩] 256 = none ∧
    (FSTBuilder.new.build [[97], [97]] [1, 2]).isSome = true := by
  decide

/-- C19 (failing input): the prefix length 256 and the sorted records with the keys
`longKeyA` (value 1) and `longKeyB` (value 2), both longer than 256 bytes.  Without their
first 256 bytes both keys are "a": the build from the stripped records succeeds and inserts
"a" once.  `isSameKey(a, b, skip_prefix)` receives the prefix length as a `label_t`, 256
becomes 0 and the keys are compared from byte 0 on: they are not taken for duplicates, and
the span build fails the assertion of `skipCommonPrefix` on the second record. -/
theorem C19_prefix_length_narrowed :
    strLt longKeyA longKeyB = true ∧
    strippedKeys [⟨1, longKeyA⟩, ⟨2, longKeyB⟩] 256 = [[97], [97]] ∧
    FSTBuilder.new.buildSpan [⟨1, longKeyA⟩, ⟨2, longKeyB⟩] 256 = none ∧
    (FSTBuilder.new.build [[97], [97]] [1, 2]).isSome = true :=
  span_256_fails

end FST

namespace FST

/-! ## C18: the serialization round trip -/

/-- The trie that `deSerialize` returns has no values and no keys. -/
theorem deSerialize_no_values (src : List Nat) (t : LoudsSparse)
    (h : LoudsSparse.deSerialize src = some t) : t.positions_sparse_ = [] ∧ t.keys_ = [] := by
  simp only [LoudsSparse.deSerialize, Option.bind_eq_bind, Option.bind_eq_some] at h
  obtain ⟨_, _, _, _, _, _, _, _, p1, _, p2, _, p3, _, h⟩ := h
  simp only [Option.some.injEq] at h
  subst h
  exact ⟨rfl, rfl⟩

/-- A point lookup on a trie without values never reports a key: it reports the absence or
reads `positions_sparse_` outside its bounds. -/
theorem lookupKeyLoop_no_values (t : LoudsSparse) (hv : t.positions_sparse_ = [])
    (offset : Nat) :
    ∀ (key : List Nat) (pos : Nat) (r : Bool × Nat),
      t.lookupKeyLoop offset key pos = some r → r = (false, offset) := by
  intro key
  induction key with
  | nil =>
    intro pos r h
    simp only [LoudsSparse.lookupKeyLoop, Option.some.injEq] at h
    exact h.symm
  | cons c rest ih =>
    intro pos r h
    simp only [LoudsSparse.lookupKeyLoop, Option.bind_eq_bind, Option.bind_eq_some] at h
    obtain ⟨sz, _, p, _, h⟩ := h
    split at h
    · simp only [Option.some.injEq] at h; exact h.symm
    · simp only [Option.bind_eq_bind, Option.bind_eq_some] at h
      obtain ⟨bit, _, h⟩ := h
      split at h
      · simp only [hv, Option.bind_eq_bind, Option.bind_eq_some] at h
        obtain ⟨_, _, v, hv2, _⟩ := h
        simp at hv2
      · simp only [Option.bind_eq_bind, Option.bind_eq_some] at h
        obtain ⟨p2, _, h⟩ := h
        exact ih p2 r h

/-- After a round trip through `serialize` and `deSerialize` no point lookup finds a key. -/
theorem lookupKey_after_round_trip (src : List Nat) (t : LoudsSparse)
    (h : LoudsSparse.deSerialize src = some t) (key : List Nat) (n offset : Nat)
    (r : Bool × Nat) (hr : t.lookupKey key n offset = some r) : r = (false, offset) := by
  simp only [LoudsSparse.lookupKey, Option.bind_eq_bind, Option.bind_eq_some] at hr
  obtain ⟨pos, _, hr⟩ := hr
  exact lookupKeyLoop_no_values t (deSerialize_no_values src t h).1 offset _ pos r hr

/-- C18 (failing input): the index `I` of the keys "a", "b" with the values 10, 20.  `I`
finds "a" with the value 10.  `serialize` writes the header, the labels and the two bit
vectors, `deSerialize` reads them back (the labels, the bit vectors and the header fields are
those of `I`) and leaves `positions_sparse_` empty and `keys_` unset: the lookup of "a" on
the result reads `positions_sparse_[0]` outside the bounds of the vector. -/
theorem C18_round_trip_loses_values :
    (((FSTBuilder.new.buildSparse [[97], [98]] [10, 20]).bind
        fun b => LoudsSparse.new b [[97], [98]]).bind
        fun t => t.lookupKey [97] 0 0) = some (true, 10) ∧
    (((FSTBuilder.new.buildSparse [[97], [98]] [10, 20]).bind
        fun b => LoudsSparse.new b [[97], [98]]).bind
        fun t => (LoudsSparse.deSerialize t.serialize).map
          fun t2 => decide (t2 = { t with positions_sparse_ := [], keys_ := [] })) = some true ∧
    (((FSTBuilder.new.buildSparse [[97], [98]] [10, 20]).bind
        fun b => LoudsSparse.new b [[97], [98]]).bind
        fun t => (LoudsSparse.deSerialize t.serialize).bind
          fun t2 => t2.lookupKey [97] 0 0) = none := by
  decide

end FST

namespace FST

/-! ## C13: the values after the build -/

end FST

namespace FST

/-! ## C20: the range scan -/

/-- C20 (counterexample): with the keys "a", "b", "c" and the values 2, 0, 1 the range scan
from "b" to "c", both included, starts on "c": the key "b" of the range is not visited. -/
theorem C20_range_depends_on_values :
    (((FSTBuilder.new.buildSparse [[97], [98], [99]] [2, 0, 1]).bind
      fun b => (LoudsSparse.new b [[97], [98], [99]]).bind
      fun t => (t.lookupRange [98] true [99] true).map
      fun r => (r.1.isValid, r.1.getKey, r.2.isValid)) = some (true, [99], false)) := by
  decide

/-- C20 (amended): for the trie built from a non-empty, strictly sorted list of keys of one
length `L > 0` (bytes 0 to 255), whose values are the indices of the keys and whose last
node starts in the last word of the LOUDS bits, and for `lo <= hi`: the range scan
`lookupRange(lo, true, hi, true)` returns iterators `first` and `last` and there are indices
`a <= e` such that the keys of the indices `a .. e - 1` are the stored keys `k` with
`lo <= k <= hi`; `first` advanced `m` times by `++`, for `a + m < e`, is valid on `k_(a+m)`
(`getKey` is its stored unique prefix, `getValue` its value) and does not compare equal to
`last`; advanced `e - a` times it compares equal to `last`; `last` is on `k_e`, the first
stored key above `hi`, or is invalid when there is none (`e` is the number of keys). -/
theorem C20_range_scan (keys : List (List Nat)) (values : List Nat) (L : Nat)
    (hne : keys ≠ []) (hlen : ∀ k ∈ keys, k.length = L) (hL : 0 < L)
    (hsorted : keys.Pairwise (fun a b => strLt a b = true))
    (hv : values.length = keys.length) (hbyte : ∀ k ∈ keys, ∀ c ∈ k, c < 256)
    (hidx : ∀ i, i < keys.length → values.getD i 0 = i) :
    ∃ b t, FSTBuilder.new.buildSparse keys values = some b ∧
      LoudsSparse.new b keys = some t ∧
      (t.lastNodeFits = true → ∀ lo hi, strLt hi lo = false →
        ∃ first last a e, t.lookupRange lo true hi true = some (first, last) ∧
          a ≤ e ∧ e ≤ keys.length ∧
          (∀ j, j < keys.length → ((a ≤ j ∧ j < e) ↔
            (strLt (keys.getD j []) lo = false ∧ strLt hi (keys.getD j []) = false))) ∧
          (∀ j, j < keys.length → (e ≤ j ↔ strLt hi (keys.getD j []) = true)) ∧
          (∀ m, a + m < e → ∃ it, Iter.incrTimes t m first = some it ∧
            it.equal last = false ∧ it.isValid = true ∧
            it.getKey = (keys.getD (a + m) []).take (dOf keys (a + m)) ∧
            it.getValue t = some (values.getD (a + m) 0)) ∧
          (∃ it, Iter.incrTimes t (e - a) first = some it ∧ it.equal last = true) ∧
          (e < keys.length → last.isValid = true ∧
            last.getKey = (keys.getD e []).take (dOf keys e)) ∧
          (e = keys.length → last.isValid = false)) := by
  have K : KeysOK keys L := ⟨hne, hlen, hL, hsorted⟩
  obtain ⟨b, t, hb, ht, R, h⟩ := search_at keys values L K hv (Or.inr hbyte) hidx
  have F := K.flatTrie values
  refine ⟨b, t, hb, ht, ?_⟩
  intro hfit lo hi hlohi
  obtain ⟨oa, ha, ra⟩ := h hfit lo true
  obtain ⟨oe, he, re⟩ := h hfit hi false
  obtain ⟨first, e1, I1⟩ := searchAt_iterAt ha ra
  obtain ⟨last, e2, I2⟩ := searchAt_iterAt he re
  have hae := cut_le_cut K ha he hlohi
  have hen := cutOf_le he
  have W := range_walk K values R I1 hen
  refine ⟨first, last, cutOf keys oa, cutOf keys oe, ?_, hae, hen, ?_, ?_, ?_, ?_, ?_, ?_⟩
  · simp only [LoudsSparse.lookupRange, hlohi, Bool.false_eq_true, if_false, e1,
      Bool.not_true, e2, Option.bind_eq_bind, Option.some_bind]
  · intro j hj
    have c1 := cut_inclusive K ha j hj
    have c2 := cut_exclusive K he j hj
    rw [show keys.getD j [] = kAt keys j from rfl]
    constructor
    · intro ⟨h1, h2⟩
      refine ⟨c1.mp h1, ?_⟩
      cases hc : strLt hi (kAt keys j) with
      | false => rfl
      | true => have := c2.mpr hc; omega
    · intro ⟨h1, h2⟩
      refine ⟨c1.mpr h1, ?_⟩
      rcases Nat.lt_or_ge j (cutOf keys oe) with h3 | h3
      · exact h3
      · have := c2.mp h3
        rw [h2] at this; exact Bool.noConfusion this
  · intro j hj
    exact cut_exclusive K he j hj
  · intro m hm
    obtain ⟨it, w1, w2⟩ := W m (by omega)
    have hin : cutOf keys oa + m < keys.length := by omega
    obtain ⟨a0, A⟩ := w2.1 hin
    have heq := iterAt_equal K w2 I2 (by omega) hen
    rw [decide_eq_false (by omega)] at heq
    exact ⟨it, w1, heq, A.valid, atKey_getKey A,
      atKey_getValue R F A.holds (K.lookup_tK values _ hin)⟩
  · obtain ⟨it, w1, w2⟩ := W (cutOf keys oe - cutOf keys oa) (by omega)
    have heq := iterAt_equal K w2 I2 (by omega) hen
    rw [decide_eq_true (by omega)] at heq
    exact ⟨it, w1, heq⟩
  · intro hlt
    obtain ⟨a0, A⟩ := I2.1 hlt
    exact ⟨A.valid, atKey_getKey A⟩
  · intro heq
    exact I2.2 (by omega)

/-- C20 (witness): the keys "aaa", "aab", "bcd" with the values 0, 1, 2. -/
theorem C20_range_scan_witness :
    ∃ b t, FSTBuilder.new.buildSparse [[97, 97, 97], [97, 97, 98], [98, 99, 100]]
        [0, 1, 2] = some b ∧
      LoudsSparse.new b [[97, 97, 97], [97, 97, 98], [98, 99, 100]] = some t ∧
      t.lastNodeFits = true ∧ ∀ lo hi, strLt hi lo = false →
        ∃ first last a e, t.lookupRange lo true hi true = some (first, last) ∧
          a ≤ e ∧ e ≤ List.length [[97, 97, 97], [97, 97, 98], [98, 99, 100]] ∧
          (∀ j, j < List.length [[97, 97, 97], [97, 97, 98], [98, 99, 100]] →
            ((a ≤ j ∧ j < e) ↔
              (strLt (List.getD [[97, 97, 97], [97, 97, 98], [98, 99, 100]] j []) lo = false ∧
                strLt hi (List.getD [[97, 97, 97], [97, 97, 98], [98, 99, 100]] j [])
                  = false))) ∧
          (∀ j, j < List.length [[97, 97, 97], [97, 97, 98], [98, 99, 100]] →
            (e ≤ j ↔
              strLt hi (List.getD [[97, 97, 97], [97, 97, 98], [98, 99, 100]] j []) = true)) ∧
          (∀ m, a + m < e → ∃ it, Iter.incrTimes t m first = some it ∧
            it.equal last = false ∧ it.isValid = true ∧
            it.getKey = (List.getD [[97, 97, 97], [97, 97, 98], [98, 99, 100]] (a + m) []).take
              (dOf [[97, 97, 97], [97, 97, 98], [98, 99, 100]] (a + m)) ∧
            it.getValue t = some (List.getD [0, 1, 2] (a + m) 0)) ∧
          (∃ it, Iter.incrTimes t (e - a) first = some it ∧ it.equal last = true) ∧
          (e < List.length [[97, 97, 97], [97, 97, 98], [98, 99, 100]] →
            last.isValid = true ∧
            last.getKey = (List.getD [[97, 97, 97], [97, 97, 98], [98, 99, 100]] e []).take
              (dOf [[97, 97, 97], [97, 97, 98], [98, 99, 100]] e)) ∧
          (e = List.length [[97, 97, 97], [97, 97, 98], [98, 99, 100]] →
            last.isValid = false) := by
  obtain ⟨b, t, hb, ht, h⟩ :=
    C20_range_scan [[97, 97, 97], [97, 97, 98], [98, 99, 100]] [0, 1, 2] 3
      (by decide) (by decide) (by decide) (by decide) (by decide) (by decide) (by decide)
  have hf : ((FSTBuilder.new.buildSparse [[97, 97, 97], [97, 97, 98], [98, 99, 100]]
        [0, 1, 2]).bind fun b =>
      (LoudsSparse.new b [[97, 97, 97], [97, 97, 98], [98, 99, 100]]).map fun t =>
        t.lastNodeFits) = some true := by decide
  rw [hb, Option.some_bind, ht, Option.map_some', Option.some.injEq] at hf
  exact ⟨b, t, hb, ht, hf, h hf⟩

end FST

namespace FST

/-! ## The label search on a range with an optional leading terminator -/

theorem skipTerminator_eq {lv : LabelVector} {LAB : List Nat} (h : LRepr lv LAB)
    (pos len : Nat) (hin : pos + len ≤ LAB.length) :
    lv.skipTerminator pos len
      = some (searchStart LAB pos len, pos + len - searchStart LAB pos len) := by
  simp only [LabelVector.skipTerminator, searchStart]
  by_cases h1 : 1 < len
  · have hpos : pos < LAB.length := by omega
    rw [if_pos (show len > 1 from h1), h.read_eq, getElem?_of_lt LAB pos hpos]
    simp only [Option.bind_eq_bind, Option.some_bind]
    by_cases h2 : LAB.getD pos 0 = kTerminator
    · have e : (LAB.getD pos 0 == kTerminator) = true := by simpa using h2
      rw [if_pos e, if_pos ⟨h1, h2⟩]
      congr 2; omega
    · have e : (LAB.getD pos 0 == kTerminator) = false := by simpa using h2
      rw [if_neg (by rw [e]; exact Bool.false_ne_true), if_neg (fun hc => h2 hc.2)]
      congr 2; omega
  · rw [if_neg (show ¬ len > 1 from h1), if_neg (fun hc => h1 hc.1)]
    congr 2; omega

/-- A target that the range holds at `g` is found there, by each of the three strategies. -/
theorem search_in_range {lv : LabelVector} {LAB : List Nat} (h : LRepr lv LAB)
    (target pos len g : Nat) (hin : pos + len ≤ LAB.length)
    (hs : IncrOn LAB (searchStart LAB pos len) (pos + len))
    (hg1 : searchStart LAB pos len ≤ g) (hg2 : g < pos + len) (hval : LAB.getD g 0 = target) :
    lv.search target pos len = some (true, g) := by
  have hpre := skipTerminator_eq h pos len hin
  generalize hst : searchStart LAB pos len = s at hpre hs hg1
  have hsp : pos ≤ s := by
    rw [← hst]; simp only [searchStart]; split <;> omega
  generalize hn : pos + len - s = n at hpre
  have hsn : s + n = pos + len := by omega
  rw [← hsn] at hs hg2
  have hget : LAB[g]? = some target := by rw [getElem?_of_lt LAB g (by omega), hval]
  have hnone : NoneIn LAB target s g := by
    have := noneIn_of_incr LAB s g (s + n) hs hg2 (by omega)
    rw [hval] at this; exact this
  simp only [LabelVector.search, Option.bind_eq_bind, hpre, Option.some_bind]
  by_cases h3 : n < 3
  · simp only [h3, if_true, LabelVector.linearSearch]
    exact linear_found h target s g n 0 (by omega) (by omega) hget
      (by intro q a b; exact hnone q (by omega) b)
  · simp only [h3, if_false]
    by_cases h12 : n < 12
    · simp only [h12, if_true, LabelVector.binarySearch]
      exact binary_found h target s g hval (n + 1) s (s + n) (by omega) hg1 hg2 (by omega) hs
    · simp only [h12, if_false, LabelVector.simdSearch]
      exact blocks_found h target s g (by omega) (n + 1) 0 n (by omega) (by omega)
        (by omega) hget (by intro q a b; exact hnone q (by omega) b)

/-- A target that the range does not hold is not found, by each of the three strategies. -/
theorem search_not_in_range {lv : LabelVector} {LAB : List Nat} (h : LRepr lv LAB)
    (target pos len : Nat) (hin : pos + len ≤ LAB.length)
    (habs : ∀ q, searchStart LAB pos len ≤ q → q < pos + len → LAB.getD q 0 ≠ target) :
    lv.search target pos len = some (false, searchStart LAB pos len) := by
  have hpre := skipTerminator_eq h pos len hin
  generalize hst : searchStart LAB pos len = s at hpre habs
  have hsp : pos ≤ s := by
    rw [← hst]; simp only [searchStart]; split <;> omega
  have hsl : s ≤ pos + len := by
    rw [← hst]; simp only [searchStart]; split <;> omega
  generalize hn : pos + len - s = n at hpre
  have hsn : s + n = pos + len := by omega
  rw [← hsn] at habs
  have hnone : NoneIn LAB target s (s + n) := by
    intro q a b
    exact ⟨_, getElem?_of_lt LAB q (by omega), habs q a b⟩
  simp only [LabelVector.search, Option.bind_eq_bind, hpre, Option.some_bind]
  by_cases h3 : n < 3
  · simp only [h3, if_true, LabelVector.linearSearch]
    exact linear_notfound h target s n 0 (by intro q a b; exact hnone q (by omega) (by omega))
  · simp only [h3, if_false]
    by_cases h12 : n < 12
    · simp only [h12, if_true, LabelVector.binarySearch]
      exact binary_notfound h target s (n + 1) s (s + n) (by omega) (by omega) habs
    · simp only [h12, if_false, LabelVector.simdSearch]
      exact blocks_notfound h target s (n + 1) 0 n (by omega)
        (by intro q a b; exact hnone q (by omega) (by omega))

end FST

namespace FST

/-! ## The distance to the previous set bit -/

theorem ctzFrom_spec (w : Nat) :
    ∀ (fuel i : Nat), i + fuel = 64 → (∀ j, j < i → w.testBit j = false) →
      (∃ j, j < 64 ∧ w.testBit j = true) →
      ctzFrom w fuel i < 64 ∧ w.testBit (ctzFrom w fuel i) = true ∧
        ∀ j, j < ctzFrom w fuel i → w.testBit j = false := by
  intro fuel
  induction fuel with
  | zero =>
    intro i hi hz hex
    obtain ⟨j, hj, hb⟩ := hex
    rw [hz j (by omega)] at hb
    exact Bool.noConfusion hb
  | succ fuel ih =>
    intro i hi hz hex
    simp only [ctzFrom]
    by_cases hb : w.testBit i = true
    · rw [if_pos hb]
      exact ⟨by omega, hb, hz⟩
    · rw [if_neg hb]
      apply ih (i + 1) (by omega) _ hex
      intro j hj
      by_cases e : j = i
      · subst e; simpa using hb
      · exact hz j (by omega)

theorem ctz_spec (w : Nat) (hw : w < 2 ^ 64) (h0 : 0 < w) :
    ctzll w < 64 ∧ w.testBit (ctzll w) = true ∧ ∀ j, j < ctzll w → w.testBit j = false := by
  apply ctzFrom_spec w 64 0 (by omega) (fun j hj => by omega)
  have hne : w ≠ 0 := by omega
  obtain ⟨k, hk⟩ := Nat.ne_zero_implies_bit_true hne
  have hk64 : k < 64 := by
    by_contra hc
    have : w.testBit k = false :=
      Nat.testBit_lt_two_pow (lt_of_lt_of_le hw (Nat.pow_le_pow_right (by decide) (by omega)))
    rw [this] at hk
    exact Bool.noConfusion hk
  exact ⟨k, hk64, hk⟩

theorem distancePrevLoop_spec (bv : Bitvector) (hw : Words64 bv.bits_) (p : Nat) :
    ∀ (fuel word_id distance : Nat), word_id < fuel → word_id ≤ bv.bits_.length →
      distance + 64 * word_id = p + 1 →
      (∀ q, 64 * word_id ≤ q → q < p → bitAt bv.bits_ q = false) →
      ∃ d, bv.distancePrevLoop fuel word_id distance = some d ∧ distance ≤ d ∧
        PrevResult bv.bits_ p d := by
  intro fuel
  induction fuel with
  | zero =>
    intro word_id distance h1
    exfalso; omega
  | succ fuel ih =>
    intro word_id distance h1 h2 h3 h4
    rw [Bitvector.distancePrevLoop]
    by_cases h0 : word_id > 0
    · have hi : word_id - 1 < bv.bits_.length := by omega
      simp only [h0, if_true, List.getElem?_eq_getElem hi, Option.bind_eq_bind,
        Option.some_bind, kWordSize]
      have hw1 := hw _ (List.getElem_mem hi)
      by_cases hpos : bv.bits_[word_id - 1] > 0
      · rw [if_pos hpos]
        obtain ⟨c1, c2, c3⟩ := ctz_spec _ hw1 hpos
        refine ⟨_, rfl, by omega, Or.inl ⟨by omega, ?_, ?_⟩⟩
        · have e : p - (distance + ctzll bv.bits_[word_id - 1])
              = 64 * (word_id - 1) + (63 - ctzll bv.bits_[word_id - 1]) := by omega
          rw [e, bitAt_word bv.bits_ (word_id - 1) _ hi (by omega)]
          rw [show 63 - (63 - ctzll bv.bits_[word_id - 1]) = ctzll bv.bits_[word_id - 1] by omega]
          exact c2
        · intro q hq1 hq2
          by_cases hq : 64 * word_id ≤ q
          · exact h4 q hq hq2
          · have e : q = 64 * (word_id - 1) + (q - 64 * (word_id - 1)) := by omega
            rw [e, bitAt_word bv.bits_ (word_id - 1) _ hi (by omega)]
            exact c3 _ (by omega)
      · rw [if_neg hpos]
        have hz : bv.bits_[word_id - 1] = 0 := by omega
        obtain ⟨d, hd, hle, hr⟩ := ih (word_id - 1) (distance + 64) (by omega) (by omega)
          (by omega) (by
            intro q hq1 hq2
            by_cases hq : 64 * word_id ≤ q
            · exact h4 q hq hq2
            · have e : q = 64 * (word_id - 1) + (q - 64 * (word_id - 1)) := by omega
              rw [e, bitAt_word bv.bits_ (word_id - 1) _ hi (by omega), hz]
              exact Nat.zero_testBit _)
        exact ⟨d, hd, by omega, hr⟩
    · rw [if_neg h0]
      have e0 : word_id = 0 := by omega
      subst e0
      exact ⟨distance, rfl, Nat.le_refl _, Or.inr ⟨by omega, fun q hq => h4 q (by omega) hq⟩⟩

/-- The word-level behaviour of `distanceToPrevSetBit` at a position `p > 0`. -/
theorem distancePrev_words (bv : Bitvector) (hlen : bv.bits_.length = bv.numWords)
    (hw : Words64 bv.bits_) (p : Nat) (hp0 : 0 < p) (hp : p ≤ bv.num_bits_) :
    ∃ d, bv.distanceToPrevSetBit p = some d ∧ 1 ≤ d ∧ PrevResult bv.bits_ p d := by
  have hb := numWords_bound bv
  have hi : (p - 1) / 64 < bv.bits_.length := by omega
  have hne : (p == 0) = false := by simp; omega
  have hoff : (p - 1) % 64 < 64 := Nat.mod_lt _ (by decide)
  have hw1 := hw _ (List.getElem_mem hi)
  have hdm : 64 * ((p - 1) / 64) + (p - 1) % 64 = p - 1 := Nat.div_add_mod _ _
  simp only [Bitvector.distanceToPrevSetBit, check, hp, decide_True, if_true,
    Option.bind_eq_bind, Option.some_bind, hne, Bool.false_eq_true, if_false, kWordSize,
    List.getElem?_eq_getElem hi]
  -- the bits of the shifted word are the bits of the word up to the offset
  have hbit : ∀ k, (bv.bits_[(p - 1) / 64] >>> (64 - 1 - (p - 1) % 64)).testBit k
      = (decide (k ≤ (p - 1) % 64) && bitAt bv.bits_ (p - 1 - k)) := by
    intro k
    rw [Nat.testBit_shiftRight]
    by_cases hk : k ≤ (p - 1) % 64
    · have e : p - 1 - k = 64 * ((p - 1) / 64) + ((p - 1) % 64 - k) := by omega
      rw [e, bitAt_word bv.bits_ _ _ hi (by omega)]
      have e2 : 64 - 1 - (p - 1) % 64 + k = 63 - ((p - 1) % 64 - k) := by omega
      simp [hk, e2]
    · rw [testBit_high _ _ hw1 (by omega)]
      simp [hk]
  by_cases hpos : bv.bits_[(p - 1) / 64] >>> (64 - 1 - (p - 1) % 64) > 0
  · rw [if_pos hpos]
    obtain ⟨c1, c2, c3⟩ := ctz_spec _ (shr_lt _ _ hw1) hpos
    generalize ctzll (bv.bits_[(p - 1) / 64] >>> (64 - 1 - (p - 1) % 64)) = c at c1 c2 c3
    have hc := hbit c
    rw [c2] at hc
    have hcle : c ≤ (p - 1) % 64 := by
      by_contra hcon
      simp [hcon] at hc
    refine ⟨_, rfl, by omega, Or.inl ⟨by omega, ?_, ?_⟩⟩
    · have e : p - (1 + c) = p - 1 - c := by omega
      rw [e]
      simp only [hcle, decide_True, Bool.true_and] at hc
      exact hc.symm
    · intro q hq1 hq2
      have hk := hbit (p - 1 - q)
      rw [c3 _ (by omega)] at hk
      have e1 : decide (p - 1 - q ≤ (p - 1) % 64) = true := by apply decide_eq_true; omega
      rw [e1, Bool.true_and, show p - 1 - (p - 1 - q) = q by omega] at hk
      exact hk.symm
  · rw [if_neg hpos]
    have hz : bv.bits_[(p - 1) / 64] >>> (64 - 1 - (p - 1) % 64) = 0 :=
      Nat.le_zero.mp (Nat.not_lt.mp hpos)
    obtain ⟨d, hd, hle, hr⟩ := distancePrevLoop_spec bv hw p ((p - 1) / 64 + 1) ((p - 1) / 64)
      (1 + ((p - 1) % 64 + 1)) (by omega) (by omega) (by omega) (by
        intro q hq1 hq2
        have hk := hbit (p - 1 - q)
        rw [hz, Nat.zero_testBit] at hk
        have e1 : decide (p - 1 - q ≤ (p - 1) % 64) = true := by apply decide_eq_true; omega
        rw [e1, Bool.true_and, show p - 1 - (p - 1 - q) = q by omega] at hk
        exact hk.symm)
    exact ⟨d, hd, by omega, hr⟩

theorem readBit_bitAt (bv : Bitvector) (hlen : bv.bits_.length = bv.numWords) (q : Nat)
    (hq : q < bv.num_bits_) : bv.readBit q = some (bitAt bv.bits_ q) := by
  have hb := numWords_bound bv
  have hi : q / 64 < bv.bits_.length := by omega
  simp only [Bitvector.readBit, check, hq, decide_True, if_true, Option.bind_eq_bind,
    Option.some_bind, kWordSize, List.getElem?_eq_getElem hi, bitAt,
    List.getD_eq_getElem?_getD, Option.getD_some]
  rw [mask_test _ _ (Nat.mod_lt _ (by decide))]

end FST

namespace FST

/-! ## The concatenation of per-level bit vectors of any length -/

theorem zeroFrom_of_bounded (ws : List Nat) (n : Nat)
    (h : ∀ q, q < 64 * ws.length → n ≤ q → bitAt ws q = false) : ZeroFrom ws n := by
  intro q hq
  by_cases h1 : q < 64 * ws.length
  · exact h q h1 hq
  · exact bitAt_of_length_le ws q (by omega)

theorem concatLevel_gen (NW : Nat) (wss : List (List Nat)) (ns : List Nat) (level : Nat)
    (ws : List Nat) (n : Nat) (hws : wss[level]? = some ws) (hn : ns[level]? = some n)
    (hp : LevelOK ws n) (flat : List Bool) (s : Bitvector.ConcatState)
    (hinv : CInv NW flat s) (hroom : flat.length + n ≤ 64 * NW) :
    ∃ s1, Bitvector.concatLevel wss ns level s = some s1 ∧ CInv NW (flat ++ bitsOf ws n) s1 := by
  by_cases hn0 : n = 0
  · subst hn0
    refine ⟨s, by simp [Bitvector.concatLevel, hn], ?_⟩
    simpa [bitsOf] using hinv
  have hbeq : (n == 0) = false := by simpa using hn0
  have hinv0 : CInv NW (flat ++ bitsOf ws (64 * 0)) s := by simpa [bitsOf] using hinv
  obtain ⟨s1, h1, h2⟩ := concatWords_ok NW ws hp.w64 flat (n / 64) 0 s hinv0
    (by have := hp.room; omega) (by omega)
  simp only [Nat.zero_add] at h2
  have hs1 := h2.shift_lt
  have hpos1 := h2.pos
  simp only [List.length_append, bitsOf_length] at hpos1
  by_cases hr : 0 < n - n / 64 * 64
  · have hc : n / 64 < ws.length := by have := hp.room; omega
    have hr64 : n - n / 64 * 64 < 64 := by omega
    have hw : ws[n / 64] < 2 ^ 64 := hp.w64 _ (List.getElem_mem hc)
    have hz := word_zero_of_zeroFrom ws n (n / 64) hp.zero hc (by omega)
    have hbits : bitsOf ws n = bitsOf ws (64 * (n / 64)) ++ (wordBits ws[n / 64]).take (n - n / 64 * 64) := by
      have := bitsOf_word ws (n / 64) (n - n / 64 * 64) hc (by omega)
      rw [← this]; congr 1; omega
    have hz2 : ∀ j, n - n / 64 * 64 ≤ j → j < 64 → ws[n / 64].testBit (63 - j) = false := by
      intro j h3 h4; exact hz j (by omega) h4
    by_cases hcase : s1.bit_shift + (n - n / 64 * 64) ≤ 64
    · obtain ⟨bits1, g1, g3, g4, g5⟩ :=
        write_single NW _ s1 ws[n / 64] (n - n / 64 * 64) h2 hw hcase hz2 (by omega)
      rw [List.append_assoc, ← hbits] at g5
      by_cases hlt : s1.bit_shift + (n - n / 64 * 64) < 64
      · refine ⟨⟨bits1, s1.bit_shift + (n - n / 64 * 64), s1.word_id⟩, ?_, ?_⟩
        · have hr' : n - n / 64 * 64 > 0 := hr
          simp only [Bitvector.concatLevel, hn, hbeq, hws, h1, kWordSize, hr', Option.bind_eq_bind,
            Option.some_bind, List.getElem?_eq_getElem hc, g1, hlt, if_true, Bool.false_eq_true,
            if_false]
        · exact ⟨hlt, g3, g4, by simp only [List.length_append, bitsOf_length]; omega, g5⟩
      · have heq : s1.bit_shift + (n - n / 64 * 64) = 64 := by omega
        refine ⟨⟨bits1, 0, s1.word_id + 1⟩, ?_, ?_⟩
        · have hr' : n - n / 64 * 64 > 0 := hr
          have hbeq2 : (s1.bit_shift + (n - n / 64 * 64) == 64) = true := by simpa using heq
          simp only [Bitvector.concatLevel, hn, hbeq, hws, h1, kWordSize, hr', Option.bind_eq_bind,
            Option.some_bind, List.getElem?_eq_getElem hc, g1, hlt, if_true, Bool.false_eq_true,
            if_false, hbeq2]
        · exact ⟨by show 0 < 64; decide, g3, g4,
            by simp only [List.length_append, bitsOf_length]; omega, g5⟩
    · obtain ⟨bits1, bits2, g1, g2, g3, g4, g5⟩ :=
        write_double NW _ s1 ws[n / 64] (n - n / 64 * 64) h2 hw (by omega) (by omega)
          (by omega) hz2 (by omega)
      rw [List.append_assoc, ← hbits] at g5
      refine ⟨⟨bits2, s1.bit_shift + (n - n / 64 * 64) - 64, s1.word_id + 1⟩, ?_, ?_⟩
      · have hlt : ¬ s1.bit_shift + (n - n / 64 * 64) < 64 := by omega
        have hne : (s1.bit_shift + (n - n / 64 * 64) == 64) = false := by
          simp only [beq_eq_false_iff_ne]; omega
        have hr' : n - n / 64 * 64 > 0 := hr
        simp only [kWordSize] at g2
        simp only [Bitvector.concatLevel, hn, hbeq, hws, h1, kWordSize, hr', Option.bind_eq_bind,
          Option.some_bind, List.getElem?_eq_getElem hc, g1, hlt, if_true, Bool.false_eq_true,
          if_false, hne, g2]
      · exact ⟨by show s1.bit_shift + (n - n / 64 * 64) - 64 < 64; omega, g3, g4,
          by simp only [List.length_append, bitsOf_length]; omega, g5⟩
  · have hdiv : n = 64 * (n / 64) := by omega
    refine ⟨s1, ?_, ?_⟩
    · have hr' : ¬ n - n / 64 * 64 > 0 := hr
      simp only [Bitvector.concatLevel, hn, hbeq, hws, h1, kWordSize, hr', Option.bind_eq_bind,
        Option.some_bind, if_false, Bool.false_eq_true]
    · rw [← hdiv] at h2; exact h2

theorem concatLevels_gen (NW : Nat) (wss : List (List Nat)) (ns : List Nat) :
    ∀ (cnt start : Nat) (flat : List Bool) (s : Bitvector.ConcatState),
      CInv NW flat s →
      (∀ l, start ≤ l → l < start + cnt → ∃ ws n, wss[l]? = some ws ∧ ns[l]? = some n ∧
        LevelOK ws n) →
      flat.length + levelsLen ns start cnt ≤ 64 * NW →
      ∃ s1, forRange (Bitvector.concatLevel wss ns) cnt start s = some s1 ∧
        CInv NW (flat ++ levelsBits wss ns start cnt) s1 := by
  intro cnt
  induction cnt with
  | zero =>
    intro start flat s h _ _
    exact ⟨s, rfl, by simpa [levelsBits] using h⟩
  | succ cnt ih =>
    intro start flat s hinv hlev hroom
    obtain ⟨ws, n, h1, h2, h3⟩ := hlev start (le_refl _) (by omega)
    have hn : ns.getD start 0 = n := by simp [List.getD_eq_getElem?_getD, h2]
    have hw : wss.getD start [] = ws := by simp [List.getD_eq_getElem?_getD, h1]
    rw [levelsLen_succ, hn] at hroom
    obtain ⟨s1, g1, g2⟩ := concatLevel_gen NW wss ns start ws n h1 h2 h3 flat s hinv (by omega)
    obtain ⟨s2, g3, g4⟩ := ih (start + 1) _ s1 g2
      (by intro l hl1 hl2; exact hlev l (by omega) (by omega))
      (by simp only [List.length_append, bitsOf_length]; omega)
    refine ⟨s2, ?_, ?_⟩
    · rw [forRange_succ, g1]; exact g3
    · rw [levelsBits_succ, hn, hw, ← List.append_assoc]; exact g4

theorem levelsLen_add (ns : List Nat) :
    ∀ (k start m : Nat), levelsLen ns start (k + m)
      = levelsLen ns start k + levelsLen ns (start + k) m := by
  intro k
  induction k with
  | zero => intro start m; simp [levelsLen]
  | succ k ih =>
    intro start m
    rw [show k + 1 + m = (k + m) + 1 by omega, levelsLen_succ, levelsLen_succ, ih (start + 1) m]
    rw [show start + 1 + k = start + (k + 1) by omega]
    omega

/-- The bit `i` of the level `start + k` sits in the concatenation after the bits of the
levels `start .. start + k - 1`. -/
theorem levelsBits_getD (wss : List (List Nat)) (ns : List Nat) :
    ∀ (cnt start k i : Nat), k < cnt → i < ns.getD (start + k) 0 →
      (levelsBits wss ns start cnt).getD (levelsLen ns start k + i) false
        = bitAt (wss.getD (start + k) []) i := by
  intro cnt
  induction cnt with
  | zero => intro start k i hk; omega
  | succ cnt ih =>
    intro start k i hk hi
    rw [levelsBits_succ]
    cases k with
    | zero =>
      simp only [levelsLen, List.range'_zero, List.map_nil, List.sum_nil, Nat.zero_add,
        Nat.add_zero] at hi ⊢
      rw [getD_append_left _ _ _ _ (by rw [bitsOf_length]; exact hi)]
      rw [List.getD_eq_getElem?_getD, bitsOf_getElem? _ _ _ hi, Option.getD_some]
    | succ k =>
      rw [levelsLen_succ]
      have e : ns.getD start 0 + levelsLen ns (start + 1) k + i
          = (bitsOf (wss.getD start []) (ns.getD start 0)).length
            + (levelsLen ns (start + 1) k + i) := by
        rw [bitsOf_length]; omega
      rw [e, List.getD_eq_getElem?_getD, List.getElem?_append_right (by omega),
        Nat.add_sub_cancel_left, ← List.getD_eq_getElem?_getD]
      rw [ih (start + 1) k i (by omega) (by rw [show start + 1 + k = start + (k + 1) by omega]; exact hi)]
      rw [show start + 1 + k = start + (k + 1) by omega]

/-- The constructor on any range of levels: it returns the vector that holds the bits of the
levels `start .. endLevel - 1` one after the other. -/
theorem Bitvector_new_gen (wss : List (List Nat)) (ns : List Nat) (start e : Nat)
    (hlev : ∀ l, start ≤ l → l < endLevel wss e →
      ∃ ws n, wss[l]? = some ws ∧ ns[l]? = some n ∧ LevelOK ws n) :
    ∃ bv, Bitvector.new wss ns start e = some bv ∧
      BVRepr bv (levelsBits wss ns start (endLevel wss e - start)) := by
  have hend : (if (e == 0) = true then wss.length else e) = endLevel wss e := by
    simp only [endLevel, beq_iff_eq]
  generalize endLevel wss e = E at hlev hend
  have htot : forRange (fun level num_bits => (ns[level]?).bind fun n => some (num_bits + n))
      (E - start) start 0 = some (levelsLen ns start (E - start)) := by
    by_cases hse : start < E
    · obtain ⟨_, n, _, h2, _⟩ := hlev (E - 1) (by omega) (by omega)
      have hE : E - 1 < ns.length := by
        by_contra hc
        rw [List.getElem?_eq_none (by omega)] at h2
        exact Option.noConfusion h2
      have := totalNumBits_loop ns (E - start) start 0 (by omega)
      simpa using this
    · have e0 : E - start = 0 := by omega
      rw [e0]; simp [forRange_zero, levelsLen]
  let bv0 : Bitvector := { num_bits_ := levelsLen ns start (E - start), bits_ := [] }
  have hb := numWords_bound bv0
  obtain ⟨s1, g1, g2⟩ := concatLevels_gen bv0.numWords wss ns (E - start) start [] _
    (cinv_zero _) (by intro l h1 h2; exact hlev l h1 (by omega))
    (by simpa using hb)
  refine ⟨⟨levelsLen ns start (E - start), s1.bits⟩, ?_, ?_⟩
  · simp only [Bitvector.new, hend, Bitvector.totalNumBits, htot, Option.bind_eq_bind,
      Option.some_bind, Bitvector.concatenateBitvectors, g1]
  · simp only [List.nil_append] at g2
    exact ⟨by simp [levelsBits_length], g2.len, g2.w64, g2.bits⟩

end FST

namespace FST

/-! ## The invariant of the sparse build for keys of any bytes -/

theorem WInv.setChildBit_last_w {b b1 : FSTBuilder} (I : WInv b) {l n : Nat}
    (hn : b.getNumItems l = some n) (hpos : 0 < n) (h : b.setChildBit l (n - 1) = some b1) :
    WInv b1 := by
  obtain ⟨H, A⟩ := I.packed
  obtain ⟨hl, e⟩ := getNumItems_some A hn
  have hne : labL b l ≠ [] := by
    intro h0; rw [h0] at e; simp at e; omega
  obtain ⟨b2, h2, A2⟩ := A.setChildBit_abs hl hne
  rw [← e, h] at h2
  have eb := Option.some.inj h2
  subst eb
  obtain ⟨a1, _, a3, _⟩ := A2.canon
  have c := (setChildBit_same h).2
  refine ⟨⟨H, A2.self_abs⟩, ?_, ?_⟩
  · intro l2; rw [c, ← a3]; exact I.counts l2
  · intro l2; rw [← a1, ← a3]; exact I.heads l2

theorem WInv.pushValue_inv_w {b b1 : FSTBuilder} (I : WInv b) {l v : Nat}
    (h : b.pushValue l v = some b1) : WInv b1 := by
  obtain ⟨H, A⟩ := I.packed
  have hl : l < H := by
    rcases Nat.lt_or_ge l H with h1 | h1
    · exact h1
    · obtain ⟨cw, lw, S, _⟩ := A
      have : b.values_[l]? = none := List.getElem?_eq_none (by rw [S.lenV]; exact h1)
      simp [FSTBuilder.pushValue, this] at h
  obtain ⟨b2, h2, A2⟩ := A.pushValue_abs hl v
  rw [h] at h2
  have eb := Option.some.inj h2
  subst eb
  obtain ⟨a1, _, a3, _⟩ := A2.canon
  have c := (pushValue_same h).2
  refine ⟨⟨H, A2.self_abs⟩, ?_, ?_⟩
  · intro l2; rw [c, ← a3]; exact I.counts l2
  · intro l2; rw [← a1, ← a3]; exact I.heads l2

theorem WInv.insertKeyByte_inv_w {b b1 : FSTBuilder} (I : WInv b) {c level : Nat} {start : Bool}
    (hstart : labL b level = [] → start = true)
    (h : b.insertKeyByte c level start false = some b1) : WInv b1 := by
  obtain ⟨H, A⟩ := I.packed
  have h0 := h
  simp only [FSTBuilder.insertKeyByte, Option.bind_eq_bind, Option.bind_eq_some] at h0
  obtain ⟨_, hchk, b2, h2, _⟩ := h0
  have hH := A.height
  -- the level exists or is the next one
  have hlev : level ≤ H := by
    by_cases e : level ≥ b.getTreeHeight
    · rw [if_pos e] at hchk
      have : level < b.addLevel.getTreeHeight := by
        simpa [check] using hchk
      have e2 : b.addLevel.getTreeHeight = H + 1 := A.addLevel_abs.height
      omega
    · omega
  -- the parent level is not empty
  have hpar : 0 < level → labL b (level - 1) ≠ [] := by
    intro hpos
    rw [if_pos hpos] at h2
    simp only [Option.bind_eq_bind, Option.bind_eq_some] at h2
    obtain ⟨n, hn, _, hk, _⟩ := h2
    have hn0 : 0 < n := by
      have : ¬ n = 0 := by simpa [check] using hk
      omega
    by_cases e : level ≥ b.getTreeHeight
    · rw [if_pos e] at hn
      have A1 := A.addLevel_abs
      rw [A1.getNumItems_abs (show level - 1 < H + 1 by omega)] at hn
      intro h0; rw [h0] at hn; simp at hn; omega
    · rw [if_neg e] at hn
      rw [A.getNumItems_abs (show level - 1 < H by omega)] at hn
      intro h0; rw [h0] at hn; simp at hn; omega
  obtain ⟨b3, h3, A3⟩ := insertKeyByte_abs c level start A hlev hpar
  rw [h] at h3
  have eb := Option.some.inj h3
  subst eb
  obtain ⟨a1, _, a3, _⟩ := A3.canon
  obtain ⟨_, cnt⟩ := insertKeyByte_counts h
  refine ⟨⟨_, A3.self_abs⟩, ?_, ?_⟩
  · intro l
    rw [cnt l, ← a3, I.counts l]
    by_cases e : l = level
    · subst e
      rw [Function.update_same, List.count_append]
      cases start <;> simp
    · rw [Function.update_noteq e]
      simp [e]
  · intro l
    rw [← a1, ← a3]
    by_cases e : l = level
    · subst e
      rw [Function.update_same, Function.update_same]
      intro _
      by_cases hl0 : labL b l = []
      · have hlo : loL b l = [] := by
          apply List.eq_nil_of_length_eq_zero
          rw [loL_length, hl0]; rfl
        rw [hlo, hstart hl0]; rfl
      · have := I.heads l hl0
        cases hlo : loL b l with
        | nil => rw [hlo] at this; simp at this
        | cons x xs => rw [hlo] at this; simpa using this
    · rw [Function.update_noteq e, Function.update_noteq e]
      exact I.heads l

theorem WInv.skipLoop_inv_w (key : List Nat) :
    ∀ (fuel : Nat) (b : FSTBuilder) (level : Nat) (r : FSTBuilder × Nat), WInv b →
      FSTBuilder.skipCommonPrefixLoop key 0 fuel b level = some r →
      WInv r.1 ∧ DenseSame b r.1 := by
  intro fuel
  induction fuel with
  | zero => intro b level r _ h; simp [FSTBuilder.skipCommonPrefixLoop] at h
  | succ fuel ih =>
    intro b level r I h
    simp only [FSTBuilder.skipCommonPrefixLoop] at h
    split at h
    · simp only [Option.bind_eq_bind, Option.bind_eq_some] at h
      obtain ⟨c, _, same, _, h⟩ := h
      split at h
      · simp only [Option.bind_eq_bind, Option.bind_eq_some] at h
        obtain ⟨n, hn, _, hk, b1, h1, h⟩ := h
        have hn0 : 0 < n := by
          have : ¬ n = 0 := by simpa [check] using hk
          omega
        have I1 := I.setChildBit_last_w hn hn0 h1
        obtain ⟨I2, d2⟩ := ih b1 (level + 1) r I1 h
        exact ⟨I2, (setChildBit_same h1).1.trans_same d2⟩
      · simp only [Option.some.injEq] at h
        subst h; exact ⟨I, DenseSame.rfl_same b⟩
    · simp only [Option.some.injEq] at h
      subst h; exact ⟨I, DenseSame.rfl_same b⟩

theorem WInv.skip_inv_w {b : FSTBuilder} (I : WInv b) {key : List Nat} {r : FSTBuilder × Nat}
    (h : b.skipCommonPrefix key 0 = some r) : WInv r.1 ∧ DenseSame b r.1 := by
  simp only [FSTBuilder.skipCommonPrefix, Option.bind_eq_bind, Option.bind_eq_some] at h
  obtain ⟨p, hp, _, _, h⟩ := h
  simp only [Option.some.injEq] at h
  subst h
  exact WInv.skipLoop_inv_w key _ b 0 p I hp

theorem WInv.insertLoop_inv_w (key next_key : List Nat) :
    ∀ (fuel : Nat) (b : FSTBuilder) (level : Nat) (r : FSTBuilder × Nat), WInv b →
      FSTBuilder.insertLoop key next_key 0 fuel b level = some r →
      WInv r.1 ∧ DenseSame b r.1 := by
  intro fuel
  induction fuel with
  | zero => intro b level r _ h; simp [FSTBuilder.insertLoop] at h
  | succ fuel ih =>
    intro b level r I h
    simp only [FSTBuilder.insertLoop] at h
    split at h
    · simp only [Option.bind_eq_bind, Option.bind_eq_some] at h
      obtain ⟨_, _, x, _, y, _, h⟩ := h
      split at h
      · simp only [Option.bind_eq_bind, Option.bind_eq_some] at h
        obtain ⟨c, hc, b1, h1, h⟩ := h
        have I1 := I.insertKeyByte_inv_w (fun _ => rfl) h1
        obtain ⟨I2, d2⟩ := ih b1 (level + 1) r I1 h
        exact ⟨I2, (insertKeyByte_counts h1).1.trans_same d2⟩
      · simp only [Option.some.injEq] at h
        subst h; exact ⟨I, DenseSame.rfl_same b⟩
    · simp only [Option.some.injEq] at h
      subst h; exact ⟨I, DenseSame.rfl_same b⟩

theorem isLevelEmpty_start_w {b : FSTBuilder} (I : WInv b) {level : Nat} {st : Bool}
    (h : b.isLevelEmpty level = some st) : labL b level = [] → st = true := by
  obtain ⟨H, A⟩ := I.packed
  intro h0
  rcases Nat.lt_or_ge level H with hl | hl
  · rw [A.isLevelEmpty_lt hl, h0] at h
    exact (Option.some.inj h).symm
  · rw [A.isLevelEmpty_ge hl] at h
    exact (Option.some.inj h).symm

theorem WInv.insertKey_inv_w {b : FSTBuilder} (I : WInv b) {key next_key : List Nat}
    {value level : Nat} {r : FSTBuilder × Nat}
    (h : b.insertKeyBytesToTrieUntilUnique key value next_key level 0 = some r) :
    WInv r.1 ∧ DenseSame b r.1 := by
  simp only [FSTBuilder.insertKeyBytesToTrieUntilUnique, Option.bind_eq_bind,
    Option.bind_eq_some] at h
  obtain ⟨_, _, st, hst, c, hc, b1, h1, h⟩ := h
  have I1 := I.insertKeyByte_inv_w (isLevelEmpty_start_w I hst) h1
  have d1 := (insertKeyByte_counts h1).1
  split at h
  · simp only [Option.bind_eq_bind, Option.bind_eq_some] at h
    obtain ⟨b2, h2, h⟩ := h
    simp only [Option.some.injEq] at h
    subst h
    exact ⟨I1.pushValue_inv_w h2, d1.trans_same (pushValue_same h2).1⟩
  · simp only [Option.bind_eq_bind, Option.bind_eq_some] at h
    obtain ⟨same, _, h⟩ := h
    split at h
    · simp only [Option.bind_eq_bind, Option.bind_eq_some] at h
      obtain ⟨b2, h2, h⟩ := h
      simp only [Option.some.injEq] at h
      subst h
      exact ⟨I1.pushValue_inv_w h2, d1.trans_same (pushValue_same h2).1⟩
    · simp only [Option.bind_eq_bind, Option.bind_eq_some] at h
      obtain ⟨p, hp, b3, h3, h⟩ := h
      simp only [Option.some.injEq] at h
      subst h
      obtain ⟨I2, d2⟩ := WInv.insertLoop_inv_w key next_key _ b1 _ p I1 hp
      exact ⟨I2.pushValue_inv_w h3, d1.trans_same (d2.trans_same (pushValue_same h3).1)⟩

theorem WInv.buildSparseLoop_inv_w (keys : List (List Nat)) (values : List Nat) :
    ∀ (fuel : Nat) (b : FSTBuilder) (i : Nat) (r : FSTBuilder), WInv b →
      FSTBuilder.buildSparseLoop keys values fuel b i = some r → WInv r ∧ DenseSame b r := by
  intro fuel
  induction fuel with
  | zero => intro b i r _ h; simp [FSTBuilder.buildSparseLoop] at h
  | succ fuel ih =>
    intro b i r I h
    simp only [FSTBuilder.buildSparseLoop] at h
    split at h
    · simp only [Option.bind_eq_bind, Option.bind_eq_some] at h
      obtain ⟨k, _, p, hp, j, _, key, hkey, value, _, q, hq, h⟩ := h
      obtain ⟨I1, d1⟩ := I.skip_inv_w hp
      have hq2 : WInv q.1 ∧ DenseSame p.1 q.1 := by
        split at hq
        · simp only [Option.bind_eq_bind, Option.bind_eq_some] at hq
          obtain ⟨nk, _, hq⟩ := hq
          exact I1.insertKey_inv_w hq
        · exact I1.insertKey_inv_w hq
      obtain ⟨I3, d3⟩ := ih q.1 (j + 1) r hq2.1 h
      exact ⟨I3, d1.trans_same (hq2.2.trans_same d3)⟩
    · simp only [Option.some.injEq] at h
      subst h; exact ⟨I, DenseSame.rfl_same b⟩

theorem WInv.mk2_inv_w (d : Bool) (R : Nat) : WInv (FSTBuilder.mk2 d R) := by
  have A : BAbs (FSTBuilder.mk2 d R) 0 (fun _ => []) (fun _ => []) (fun _ => [])
      (fun _ => []) := by
    refine ⟨fun _ => [], fun _ => [], ?_, ?_, ?_, ?_, ?_⟩
    · refine ⟨rfl, rfl, rfl, rfl, rfl, rfl, ?_, ?_, ?_, ?_, ?_, rfl⟩
      · intro l; simp [labL, FSTBuilder.mk2, FSTBuilder.new]
      · intro l; simp [cwL, FSTBuilder.mk2, FSTBuilder.new]
      · intro l; simp [lwL, FSTBuilder.mk2, FSTBuilder.new]
      · intro l; simp [valL, FSTBuilder.mk2, FSTBuilder.new]
      · intro l hl; omega
    · intro l hl; omega
    · intro l hl; omega
    · intro l; simp [bitsOf]
    · intro l; simp [bitsOf]
  obtain ⟨a1, _, a3, _⟩ := A.canon
  refine ⟨⟨0, A.self_abs⟩, ?_, ?_⟩
  · intro l; rw [← a3]; simp [FSTBuilder.mk2, FSTBuilder.new]
  · intro l; rw [← a1]; simp

/-- The state after the sparse build satisfies the invariant, and the dense tier and the
configuration are as before. -/
theorem buildSparse_inv_w (d : Bool) (R : Nat) (keys : List (List Nat)) (values : List Nat) (b : FSTBuilder)
    (h : (FSTBuilder.mk2 d R).buildSparse keys values = some b) :
    WInv b ∧ DenseSame (FSTBuilder.mk2 d R) b :=
  WInv.buildSparseLoop_inv_w keys values _ _ 0 b (WInv.mk2_inv_w d R) h

end FST

namespace FST

/-! ## What the sparse build accepts, and the state it ends in -/

theorem skipSameKeys_sorted (keys : List (List Nat))
    (hs : keys.Pairwise (fun a b => strLt a b = true)) (i : Nat) :
    ∀ (fuel j : Nat), FSTBuilder.skipSameKeys keys i (fuel + 1) i = some j →
      j = i ∧ (i + 1 < keys.length → (kAt keys i).length = (kAt keys (i + 1)).length) := by
  intro fuel j h
  simp only [FSTBuilder.skipSameKeys] at h
  split at h
  · rename_i hi
    have h1 : keys[i]? = some (kAt keys i) := KeysOK.keys_get i (by omega)
    have h2 : keys[i + 1]? = some (kAt keys (i + 1)) := KeysOK.keys_get (i + 1) hi
    rw [h1, h2] at h
    simp only [Option.bind_eq_bind, Option.some_bind, isSameKey_eq] at h
    by_cases hl : (kAt keys i).length = (kAt keys (i + 1)).length
    · rw [if_pos hl] at h
      simp only [Option.some_bind] at h
      have hne : kAt keys i ≠ kAt keys (i + 1) := by
        apply strLt_ne
        have := List.pairwise_iff_getElem.mp hs i (i + 1) (by omega) hi (by omega)
        simpa [kAt, List.getD_eq_getElem?_getD, List.getElem?_eq_getElem hi,
          List.getElem?_eq_getElem (show i < keys.length by omega)] using this
      have hb : (kAt keys i == kAt keys (i + 1)) = false := by simpa using hne
      rw [hb] at h
      simp only [Bool.false_eq_true, if_false, Option.some.injEq] at h
      exact ⟨h.symm, fun _ => hl⟩
    · rw [if_neg hl] at h
      simp at h
  · rename_i hi
    simp only [Option.some.injEq] at h
    exact ⟨h.symm, fun hc => absurd hc hi⟩

theorem skipCommonPrefix_nonempty {b : FSTBuilder} {key : List Nat} {r : FSTBuilder × Nat}
    (h : b.skipCommonPrefix key 0 = some r) : key ≠ [] := by
  simp only [FSTBuilder.skipCommonPrefix, Option.bind_eq_bind, Option.bind_eq_some] at h
  obtain ⟨p, _, _, hk, _⟩ := h
  intro h0
  subst h0
  simp [check] at hk

/-- A sparse build of strictly sorted keys that returns has read a non-empty key and a value
at every index, and has found every two consecutive keys of the same length. -/
theorem buildSparseLoop_accepts (keys : List (List Nat)) (values : List Nat)
    (hs : keys.Pairwise (fun a b => strLt a b = true)) :
    ∀ (fuel : Nat) (b : FSTBuilder) (i : Nat) (r : FSTBuilder),
      FSTBuilder.buildSparseLoop keys values fuel b i = some r →
      ∀ j, i ≤ j → j < keys.length →
        kAt keys j ≠ [] ∧ j < values.length ∧
        (j + 1 < keys.length → (kAt keys j).length = (kAt keys (j + 1)).length) := by
  intro fuel
  induction fuel with
  | zero => intro b i r h; simp [FSTBuilder.buildSparseLoop] at h
  | succ fuel ih =>
    intro b i r h j hij hj
    simp only [FSTBuilder.buildSparseLoop] at h
    split at h
    · rename_i hi
      have h1 : keys[i]? = some (kAt keys i) := KeysOK.keys_get i hi
      rw [h1] at h
      simp only [Option.bind_eq_bind, Option.some_bind, Option.bind_eq_some] at h
      obtain ⟨p, hp, i2, hi2, value, hv, q, _, h⟩ := h
      obtain ⟨e, hlen⟩ := skipSameKeys_sorted keys hs i _ i2 hi2
      subst e
      by_cases hji : j = i2
      · subst hji
        refine ⟨skipCommonPrefix_nonempty hp, ?_, hlen⟩
        by_contra hc
        rw [List.getElem?_eq_none (by omega)] at hv
        exact Option.noConfusion hv
      · exact ih q.1 (i2 + 1) r h j (by omega) hj
    · omega

theorem buildSparse_accepts (keys : List (List Nat)) (values : List Nat)
    (hs : keys.Pairwise (fun a b => strLt a b = true)) (hne : keys ≠ []) (b : FSTBuilder)
    (h : FSTBuilder.new.buildSparse keys values = some b) :
    ∃ L, KeysOK keys L ∧ keys.length ≤ values.length := by
  have hacc := buildSparseLoop_accepts keys values hs _ _ 0 b h
  have hpos : 0 < keys.length := List.length_pos.mpr hne
  have hall : ∀ j, j < keys.length → (kAt keys j).length = (kAt keys 0).length := by
    intro j
    induction j with
    | zero => intro _; rfl
    | succ j ih =>
      intro hj
      rw [← (hacc j (Nat.zero_le _) (by omega)).2.2 hj]
      exact ih (by omega)
  refine ⟨(kAt keys 0).length, ⟨hne, ?_, ?_, hs⟩, ?_⟩
  · intro k hk
    obtain ⟨j, hj, e⟩ := List.getElem_of_mem hk
    have : kAt keys j = k := by
      simp [kAt, List.getD_eq_getElem?_getD, List.getElem?_eq_getElem hj, e]
    rw [← this]
    exact hall j hj
  · exact List.length_pos.mpr (hacc 0 (Nat.le_refl _) hpos).1
  · have := (hacc (keys.length - 1) (Nat.zero_le _) (by omega)).2.1
    omega

/-- The state in which a sparse build of strictly sorted keys ends, when it returns. -/
theorem buildSparse_final (keys : List (List Nat)) (values : List Nat)
    (hs : keys.Pairwise (fun a b => strLt a b = true)) (hne : keys ≠ []) (b : FSTBuilder)
    (h : FSTBuilder.new.buildSparse keys values = some b) :
    ∃ L, KeysOK keys L ∧ BState keys (values.take keys.length) keys.length 0 b ∧ WInv b := by
  obtain ⟨L, K, hv⟩ := buildSparse_accepts keys values hs hne b h
  have e : values = values.take keys.length ++ values.drop keys.length :=
    (List.take_append_drop _ _).symm
  have hl : (values.take keys.length).length = keys.length := by
    rw [List.length_take]; omega
  have h2 := h
  rw [e, buildSparse_surplus _ _ _ _ (by omega)] at h2
  obtain ⟨b2, g1, g2⟩ := buildSparse_state keys (values.take keys.length) L K hl
  rw [h2] at g1
  have eb := Option.some.inj g1
  subst eb
  have hw : WInv b := (buildSparse_inv_w false 0 keys values b h).1
  exact ⟨L, K, g2, hw⟩

theorem buildSparse_nil (values : List Nat) :
    FSTBuilder.new.buildSparse [] values = some FSTBuilder.new := by
  simp [FSTBuilder.buildSparse, FSTBuilder.buildSparseLoop]

/-- The sparse build of keys of one length `L > 0` in strictly increasing order returns. -/
theorem buildSparse_returns (keys : List (List Nat)) (values : List Nat) (L : Nat)
    (hs : keys.Pairwise (fun a b => strLt a b = true)) (hL : 0 < L)
    (hlen : ∀ k ∈ keys, k.length = L) (hv : values.length = keys.length) :
    ∃ b, FSTBuilder.new.buildSparse keys values = some b := by
  by_cases hne : keys = []
  · subst hne
    exact ⟨_, buildSparse_nil values⟩
  · obtain ⟨b, h, _⟩ := buildSparse_state keys values L ⟨hne, hlen, hL, hs⟩ hv
    exact ⟨b, h⟩

/-! ## The number of set bits of a packed level -/

theorem count_map_range (f : Nat → Bool) (n : Nat) :
    ((List.range n).map f).count true = cntBefore f n := by
  induction n with
  | zero => simp [cntBefore]
  | succ n ih =>
    rw [List.range_succ, List.map_append, List.count_append, ih, cntBefore_succ]
    cases hf : f n <;> simp [hf]

theorem cntBefore_zero_tail (f : Nat → Bool) (n : Nat) (hz : ∀ q, n ≤ q → f q = false) :
    ∀ m, n ≤ m → cntBefore f m = cntBefore f n := by
  intro m hm
  induction m with
  | zero =>
    have : n = 0 := by omega
    subst this; rfl
  | succ m ih =>
    by_cases e : n = m + 1
    · subst e; rfl
    · rw [cntBefore_succ, hz m (by omega), ih (by omega)]
      simp

theorem numSetBits_packed (ws : List Nat) (n : Nat) (hp : PackedOK ws n) :
    numSetBits ws = (bitsOf ws n).count true := by
  have h1 : numSetBits ws = cntBefore (bitAt ws) (64 * ws.length) := by
    simp only [numSetBits, cntBefore]
    congr 1
    apply List.filter_congr
    intro q hq
    rw [List.mem_range] at hq
    rw [builder_readBit_eq ws q (by omega)]
    cases bitAt ws q <;> simp
  rw [h1, bitsOf, count_map_range]
  exact cntBefore_zero_tail _ n hp.zero _ (by have := hp.len; omega)

theorem count_map_filter (xs : List Nat) (p f : Nat → Bool) :
    ((xs.filter p).map f).count true = (xs.filter (fun j => p j && f j)).length := by
  induction xs with
  | nil => rfl
  | cons x xs ih =>
    simp only [List.filter_cons]
    cases hp : p x
    · simp [ih]
    · cases hf : f x
      · simp [ih, hf]
      · simp [ih, hf]

/-- The items of level `l` with a child are as many as the node starts of level `l + 1`. -/
theorem child_count_eq (keys : List (List Nat)) (i l : Nat) :
    (chS keys i 0 l).count true = (loS keys i 0 (l + 1)).count true := by
  rw [chS_end, loS_end, lvl, lvl, count_map_filter, count_map_filter]
  congr 1
  apply List.filter_congr
  intro j _
  have h0 : j = 0 → sOf keys j = 0 := by intro e; subst e; exact sOf_zero keys
  have hd := sOf_lt_dOf keys j
  apply Bool.eq_iff_iff.mpr
  simp only [Bool.and_eq_true, decide_eq_true_eq]
  constructor
  · rintro ⟨⟨a, b⟩, c⟩
    exact ⟨⟨by omega, c⟩, by right; omega⟩
  · rintro ⟨⟨a, b⟩, c⟩
    rcases c with c | c
    · have := h0 c
      exact ⟨⟨by omega, by omega⟩, b⟩
    · exact ⟨⟨by omega, by omega⟩, b⟩

end FST

namespace FST

/-! ## The labels of a node are in increasing order -/

theorem strLt_at_lcp :
    ∀ (a b : List Nat), strLt a b = true → lcp a b < a.length → lcp a b < b.length →
      a.getD (lcp a b) 0 < b.getD (lcp a b) 0 := by
  intro a
  induction a with
  | nil => intro b _ h; simp at h
  | cons x xs ih =>
    intro b hlt h1 h2
    cases b with
    | nil => simp at h2
    | cons y ys =>
      rw [strLt_cons] at hlt
      by_cases e : x = y
      · subst e
        simp only [lcp, if_true] at h1 h2 ⊢
        simp only [Nat.lt_irrefl, decide_False, Bool.false_or, decide_True, Bool.true_and] at hlt
        have := ih ys hlt (by simpa using h1) (by simpa using h2)
        simpa using this
      · simp only [lcp, e, if_false] at h1 h2 ⊢
        simp only [e, decide_False, Bool.false_and, Bool.or_false, decide_eq_true_eq] at hlt
        simpa using hlt

theorem getLast?_getD (xs : List Nat) (j : Nat) (h : xs.getLast? = some j) :
    xs.getD (xs.length - 1) 0 = j := by
  rw [List.getLast?_eq_getElem?] at h
  rw [List.getD_eq_getElem?_getD, h]
  rfl

/-- Two consecutive items of a level of which the second does not start a node have
increasing labels. -/
theorem KeysOK.level_pairs {keys : List (List Nat)} {L : Nat} (K : KeysOK keys L) (l : Nat) :
    ∀ i, i ≤ keys.length → ∀ q, q + 1 < (lvl keys i l).length →
      decide ((lvl keys i l).getD (q + 1) 0 = 0
        ∨ sOf keys ((lvl keys i l).getD (q + 1) 0) < l) = false →
      (kAt keys ((lvl keys i l).getD q 0)).getD l 0
        < (kAt keys ((lvl keys i l).getD (q + 1) 0)).getD l 0 := by
  intro i
  induction i with
  | zero => intro _ q hq; simp [lvl] at hq
  | succ i ih =>
    intro hi q hq hlo
    rw [lvl_succ] at hq hlo ⊢
    by_cases hP : sOf keys i ≤ l ∧ l < dOf keys i
    · rw [if_pos hP] at hq hlo ⊢
      simp only [List.length_append, List.length_singleton] at hq
      by_cases hq2 : q + 1 < (lvl keys i l).length
      · rw [getD_append_left _ _ _ _ hq2] at hlo ⊢
        rw [getD_append_left _ _ _ _ (show q < (lvl keys i l).length by omega)]
        exact ih (by omega) q hq2 hlo
      · have eq1 : q + 1 = (lvl keys i l).length := by omega
        rw [eq1, getD_append_self] at hlo ⊢
        rw [getD_append_left _ _ _ _ (show q < (lvl keys i l).length by omega)]
        have hcond : ¬ (i = 0 ∨ sOf keys i < l) := by simpa using hlo
        have hi0 : 0 < i := by
          rcases Nat.eq_zero_or_pos i with h | h
          · exact absurd (Or.inl h) hcond
          · exact h
        have hs : sOf keys i = l := by
          have : ¬ sOf keys i < l := fun h => hcond (Or.inr h)
          omega
        obtain ⟨j, hj1, hj2, _⟩ := base_last keys i l hi0 (by
          have := sOf_lt_prev keys i hi0; omega)
        have hq3 : q = (lvl keys i l).length - 1 := by omega
        rw [hq3, getLast?_getD _ j hj1, hj2]
        have hlcp := sOf_eq_lcp keys i hi0
        rw [hs] at hlcp
        have hlt := K.kAt_lt (i - 1) i (by omega) (by omega)
        have hl1 : (kAt keys (i - 1)).length = L := K.kAt_len (i - 1) (by omega)
        have hl2 : (kAt keys i).length = L := K.kAt_len i (by omega)
        have hdl := K.dOf_le i (by omega)
        have := strLt_at_lcp _ _ hlt (by rw [← hlcp, hl1]; omega) (by rw [← hlcp, hl2]; omega)
        rw [← hlcp] at this
        exact this
    · rw [if_neg hP, List.append_nil] at hq hlo ⊢
      exact ih (by omega) q hq hlo

/-- Within a node of a level the labels are strictly increasing. -/
theorem KeysOK.level_sorted {keys : List (List Nat)} {L : Nat} (K : KeysOK keys L) (l p : Nat) :
    ∀ q, p < q → q < (labS keys keys.length 0 l).length →
      (∀ r, p < r → r ≤ q → (loS keys keys.length 0 l).getD r false = false) →
      (labS keys keys.length 0 l).getD p 0 < (labS keys keys.length 0 l).getD q 0 := by
  have hmapN : ∀ (xs : List Nat) (f : Nat → Nat) (r : Nat), r < xs.length →
      (xs.map f).getD r 0 = f (xs.getD r 0) := by
    intro xs f r hr
    simp [List.getD_eq_getElem?_getD, List.getElem?_eq_getElem hr]
  have hmapB : ∀ (xs : List Nat) (f : Nat → Bool) (r : Nat), r < xs.length →
      (xs.map f).getD r false = f (xs.getD r 0) := by
    intro xs f r hr
    simp [List.getD_eq_getElem?_getD, List.getElem?_eq_getElem hr]
  have hstep : ∀ q, q + 1 < (labS keys keys.length 0 l).length →
      (loS keys keys.length 0 l).getD (q + 1) false = false →
      (labS keys keys.length 0 l).getD q 0 < (labS keys keys.length 0 l).getD (q + 1) 0 := by
    intro q hq hlo
    rw [labS_end] at hq ⊢
    rw [loS_end] at hlo
    rw [List.length_map] at hq
    rw [hmapB _ _ _ hq] at hlo
    rw [hmapN _ _ _ hq, hmapN _ _ _ (show q < (lvl keys keys.length l).length by omega)]
    exact K.level_pairs l keys.length (Nat.le_refl _) q hq hlo
  intro q
  induction q with
  | zero => intro h; omega
  | succ q ih =>
    intro hpq hq hlo
    have h1 := hstep q hq (hlo (q + 1) (by omega) (Nat.le_refl _))
    by_cases e : p = q
    · subst e; exact h1
    · have h2 := ih (by omega) (by omega) (fun r a b => hlo r a (by omega))
      omega

end FST

namespace FST

/-! ## The bits that `buildDense` sets -/

theorem bitAt_replicate_zero (k q : Nat) : bitAt (List.replicate k 0) q = false := by
  simp only [bitAt, List.getD_eq_getElem?_getD]
  by_cases h : q / 64 < k
  · simp [List.getElem?_replicate, h]
  · simp [List.getElem?_replicate, h]

theorem DenseBits.init (lab cw lw : List Nat) (k1 k2 k3 : Nat) :
    DenseBits lab cw lw 0 (List.replicate k1 0) (List.replicate k2 0) (List.replicate k3 0) := by
  refine ⟨?_, ?_, ?_⟩ <;>
  · intro q
    rw [bitAt_replicate_zero]
    constructor
    · intro h; exact Bool.noConfusion h
    · rintro ⟨p, hp, _⟩; omega

theorem DenseBits.step_label {lab cw lw : List Nat} {pos : Nat} {x y z x1 y1 : List Nat}
    (h : DenseBits lab cw lw pos x y z) (hp : isPrefixItem lab cw lw pos = false)
    (hx : ∀ q, bitAt x1 q = (decide (q = nodeNum lw pos * 256 + lab.getD pos 0) || bitAt x q))
    (hy : ∀ q, bitAt y1 q
      = ((decide (q = nodeNum lw pos * 256 + lab.getD pos 0) && bitAt cw pos) || bitAt y q)) :
    DenseBits lab cw lw (pos + 1) x1 y1 z := by
  refine ⟨?_, ?_, ?_⟩
  · intro q
    rw [hx q, Bool.or_eq_true, decide_eq_true_eq, h.labels q]
    constructor
    · rintro (e | ⟨p, a, b, c⟩)
      · exact ⟨pos, by omega, hp, e⟩
      · exact ⟨p, by omega, b, c⟩
    · rintro ⟨p, a, b, c⟩
      by_cases e : p = pos
      · subst e; exact Or.inl c
      · exact Or.inr ⟨p, by omega, b, c⟩
  · intro q
    rw [hy q, Bool.or_eq_true, Bool.and_eq_true, decide_eq_true_eq, h.child q]
    constructor
    · rintro (⟨e, e2⟩ | ⟨p, a, b, c, d⟩)
      · exact ⟨pos, by omega, hp, e2, e⟩
      · exact ⟨p, by omega, b, c, d⟩
    · rintro ⟨p, a, b, c, d⟩
      by_cases e : p = pos
      · subst e; exact Or.inl ⟨d, c⟩
      · exact Or.inr ⟨p, by omega, b, c, d⟩
  · intro q
    rw [h.pfx q]
    constructor
    · rintro ⟨p, a, b, c⟩
      exact ⟨p, by omega, b, c⟩
    · rintro ⟨p, a, b, c⟩
      by_cases e : p = pos
      · subst e; rw [hp] at b; exact Bool.noConfusion b
      · exact ⟨p, by omega, b, c⟩

theorem DenseBits.step_pfx {lab cw lw : List Nat} {pos : Nat} {x y z z1 : List Nat}
    (h : DenseBits lab cw lw pos x y z) (hp : isPrefixItem lab cw lw pos = true)
    (hz : ∀ q, bitAt z1 q = (decide (q = nodeNum lw pos) || bitAt z q)) :
    DenseBits lab cw lw (pos + 1) x y z1 := by
  refine ⟨?_, ?_, ?_⟩
  · intro q
    rw [h.labels q]
    constructor
    · rintro ⟨p, a, b, c⟩
      exact ⟨p, by omega, b, c⟩
    · rintro ⟨p, a, b, c⟩
      by_cases e : p = pos
      · subst e; rw [hp] at b; exact Bool.noConfusion b
      · exact ⟨p, by omega, b, c⟩
  · intro q
    rw [h.child q]
    constructor
    · rintro ⟨p, a, b, c, d⟩
      exact ⟨p, by omega, b, c, d⟩
    · rintro ⟨p, a, b, c, d⟩
      by_cases e : p = pos
      · subst e; rw [hp] at b; exact Bool.noConfusion b
      · exact ⟨p, by omega, b, c, d⟩
  · intro q
    rw [hz q, Bool.or_eq_true, decide_eq_true_eq, h.pfx q]
    constructor
    · rintro (e | ⟨p, a, b, c⟩)
      · exact ⟨pos, by omega, hp, e⟩
      · exact ⟨p, by omega, b, c⟩
    · rintro ⟨p, a, b, c⟩
      by_cases e : p = pos
      · subst e; exact Or.inl c
      · exact Or.inr ⟨p, by omega, b, c⟩

/-- The state after `initDenseVectors` on a level with `nc` nodes. -/
theorem initDenseVectors_gen (b : FSTBuilder) (bl bc pk : List (List Nat)) (level nc : Nat)
    (hnc : b.node_counts_[level]? = some nc)
    (h1 : bl.length = level) (h2 : bc.length = level) (h3 : pk.length = level) :
    (withDense b bl bc pk).initDenseVectors level
      = some (withDense b (bl ++ [List.replicate (4 * nc) 0]) (bc ++ [List.replicate (4 * nc) 0])
          (pk ++ [List.replicate ((nc + 63) / 64) 0])) := by
  have hstep := forRange_steps (fun nc b => do
      let bl ← b.bitmap_labels_[level]?
      let bc ← b.bitmap_child_indicator_bits_[level]?
      let b2 := { b with
        bitmap_labels_ := b.bitmap_labels_.set level (bl ++ List.replicate (kFanout / kWordSize) 0)
        bitmap_child_indicator_bits_ :=
          b.bitmap_child_indicator_bits_.set level (bc ++ List.replicate (kFanout / kWordSize) 0) }
      if nc % kWordSize == 0 then do
        let pk ← b2.prefixkey_indicator_bits_[level]?
        some { b2 with prefixkey_indicator_bits_ := b2.prefixkey_indicator_bits_.set level (pk ++ [0]) }
      else some b2)
    (fun k => withDense b (bl ++ [List.replicate (4 * k) 0]) (bc ++ [List.replicate (4 * k) 0])
      (pk ++ [List.replicate ((k + 63) / 64) 0])) nc 0 (by
      intro k _ _
      have e4 : kFanout / kWordSize = 4 := by decide
      have a1 : (withDense b (bl ++ [List.replicate (4 * k) 0]) (bc ++ [List.replicate (4 * k) 0])
          (pk ++ [List.replicate ((k + 63) / 64) 0])).bitmap_labels_[level]?
          = some (List.replicate (4 * k) 0) := getElem?_append_self _ _ _ h1
      have a2 : (withDense b (bl ++ [List.replicate (4 * k) 0]) (bc ++ [List.replicate (4 * k) 0])
          (pk ++ [List.replicate ((k + 63) / 64) 0])).bitmap_child_indicator_bits_[level]?
          = some (List.replicate (4 * k) 0) := getElem?_append_self _ _ _ h2
      have r4 : List.replicate (4 * k) (0 : Nat) ++ List.replicate 4 0
          = List.replicate (4 * (k + 1)) 0 := by
        rw [← List.replicate_add]; rfl
      simp only [a1, a2, e4, Option.bind_eq_bind, Option.some_bind]
      by_cases hk : (k % kWordSize == 0) = true
      · have a3 : (pk ++ [List.replicate ((k + 63) / 64) (0 : Nat)])[level]?
            = some (List.replicate ((k + 63) / 64) 0) := getElem?_append_self _ _ _ h3
        have rc := replicate_ceil k
        rw [if_pos hk] at rc
        simp only [hk, if_true, withDense, a3, Option.some_bind, set_append_self _ _ _ _ h1,
          set_append_self _ _ _ _ h2, set_append_self _ _ _ _ h3, r4, rc]
      · have rc := replicate_ceil k
        rw [if_neg hk] at rc
        simp only [hk, if_false, withDense, set_append_self _ _ _ _ h1,
          set_append_self _ _ _ _ h2, r4, rc]
        simp only [Bool.false_eq_true, if_false])
  simp only [Nat.zero_add, Nat.mul_zero, List.replicate_zero, Nat.reduceDiv] at hstep
  have hn3 : (withDense b bl bc pk).node_counts_[level]? = some nc := hnc
  simp only [FSTBuilder.initDenseVectors, Option.bind_eq_bind]
  rw [hn3, Option.some_bind]
  exact hstep

theorem DenseLevel.isTerminator_eq {b : FSTBuilder} {level : Nat} {lab cw lw : List Nat} {nc : Nat}
    (D : DenseLevel b level lab cw lw nc)
    (bl bc pk : List (List Nat)) {pos : Nat} (hpos : pos < lab.length) :
    (withDense b bl bc pk).isTerminator level pos
      = some ((lab.getD pos 0 == kTerminator) && !bitAt cw pos) := by
  have h1 : (withDense b bl bc pk).labels_[level]? = some lab := D.hlab
  have h2 : lab[pos]? = some (lab.getD pos 0) := getD_of_lt _ _ _ hpos
  have h5 : (withDense b bl bc pk).child_indicator_bits_[level]? = some cw := D.hcw
  have h6 : FSTBuilder.readBit cw pos = some (bitAt cw pos) :=
    builder_readBit_eq cw pos (by have := D.capc; omega)
  simp only [FSTBuilder.isTerminator, h1, h2, Option.bind_eq_bind, Option.some_bind]
  cases ht : (lab.getD pos 0 == kTerminator) with
  | true => simp only [if_true, h5, h6, Option.some_bind, Bool.true_and]
  | false => simp only [Bool.false_eq_true, if_false, Bool.false_and]

theorem DenseLevel.isStartOfNode_gen {b : FSTBuilder} {level : Nat} {lab cw lw : List Nat} {nc : Nat}
    (D : DenseLevel b level lab cw lw nc)
    (bl bc pk : List (List Nat)) {pos : Nat} (hpos : pos < lab.length) :
    (withDense b bl bc pk).isStartOfNode level pos = some (bitAt lw pos) := by
  have h1 : (withDense b bl bc pk).louds_bits_[level]? = some lw := D.hlw
  have hc := D.capl
  simp only [FSTBuilder.isStartOfNode, h1, Option.bind_eq_bind, Option.some_bind]
  exact builder_readBit_eq lw pos (by omega)

/-- The bits of one item are set in the label bitmap and, when the item has a child, in the
child bitmap of the level. -/
theorem DenseLevel.setLabel_spec {b : FSTBuilder} {level : Nat} {lab cw lw : List Nat} {nc : Nat}
    (D : DenseLevel b level lab cw lw nc)
    (bl bc pk : List (List Nat)) (x y : List Nat) (hl : bl.length = level)
    (hc : bc.length = level) (hx : x.length = 4 * nc) (hy : y.length = 4 * nc)
    {pos node_num : Nat} (hpos : pos < lab.length) (hnode : node_num < nc) :
    ∃ x1 y1, (withDense b (bl ++ [x]) (bc ++ [y]) pk).setLabelAndChildIndicatorBitmap level
          node_num pos = some (withDense b (bl ++ [x1]) (bc ++ [y1]) pk) ∧
      x1.length = 4 * nc ∧ y1.length = 4 * nc ∧
      (∀ q, bitAt x1 q = (decide (q = node_num * 256 + lab.getD pos 0) || bitAt x q)) ∧
      (∀ q, bitAt y1 q
        = ((decide (q = node_num * 256 + lab.getD pos 0) && bitAt cw pos) || bitAt y q)) := by
  have h1 : (withDense b (bl ++ [x]) (bc ++ [y]) pk).labels_[level]? = some lab := D.hlab
  have h2 : lab[pos]? = some (lab.getD pos 0) := getD_of_lt _ _ _ hpos
  have h3 : lab.getD pos 0 < 256 := D.bytes _ (List.getElem?_mem h2)
  have h4 : (withDense b (bl ++ [x]) (bc ++ [y]) pk).bitmap_labels_[level]? = some x :=
    getElem?_append_self _ _ _ hl
  have hk : kFanout = 256 := rfl
  have hfit := D.fits
  have hmod : (node_num * kFanout + lab.getD pos 0) % 2 ^ 32
      = node_num * 256 + lab.getD pos 0 := by
    rw [hk]; apply Nat.mod_eq_of_lt; omega
  have hbx : node_num * 256 + lab.getD pos 0 < x.length * 64 := by rw [hx]; omega
  have hby : node_num * 256 + lab.getD pos 0 < y.length * 64 := by rw [hy]; omega
  obtain ⟨x1, e1, l1, b1, _⟩ := setBit_eq x _ hbx
  obtain ⟨y1, e2, l2, b2, _⟩ := setBit_eq y _ hby
  have h5 : (withDense b (bl ++ [x]) (bc ++ [y]) pk).child_indicator_bits_[level]?
      = some cw := D.hcw
  have h6 : FSTBuilder.readBit cw pos = some (bitAt cw pos) :=
    builder_readBit_eq cw pos (by have := D.capc; omega)
  have h7 : (withDense b (bl ++ [x]) (bc ++ [y]) pk).bitmap_child_indicator_bits_[level]?
      = some y := getElem?_append_self _ _ _ hc
  simp only [FSTBuilder.setLabelAndChildIndicatorBitmap, h1, h2, h4, hmod, e1,
    Option.bind_eq_bind, Option.some_bind]
  rw [h5, Option.some_bind, h6, Option.some_bind]
  cases hb : bitAt cw pos with
  | false =>
    refine ⟨x1, y, ?_, by omega, hy, b1, ?_⟩
    · simp only [Bool.false_eq_true, if_false, withDense, set_append_self _ _ _ _ hl]
    · intro q; simp
  | true =>
    refine ⟨x1, y1, ?_, by omega, by omega, b1, ?_⟩
    · simp only [if_true, h7, e2, Option.bind_eq_bind, Option.some_bind]
      simp only [withDense, set_append_self _ _ _ _ hl, set_append_self _ _ _ _ hc]
    · intro q; rw [b2 q]; simp

/-- The prefix-key bit of a node is set. -/
theorem setPrefixkeyBit_spec (b : FSTBuilder) (bl bc pk : List (List Nat)) (z : List Nat)
    (level node_num : Nat) (h3 : pk.length = level) (hz : node_num < z.length * 64) :
    ∃ z1, (withDense b bl bc (pk ++ [z])).setPrefixkeyBit level node_num
        = some (withDense b bl bc (pk ++ [z1])) ∧
      z1.length = z.length ∧ ∀ q, bitAt z1 q = (decide (q = node_num) || bitAt z q) := by
  have h1 : (withDense b bl bc (pk ++ [z])).prefixkey_indicator_bits_[level]? = some z :=
    getElem?_append_self _ _ _ h3
  obtain ⟨z1, e1, l1, b1, _⟩ := setBit_eq z _ hz
  refine ⟨z1, ?_, l1, b1⟩
  simp only [FSTBuilder.setPrefixkeyBit, h1, e1, Option.bind_eq_bind, Option.some_bind]
  simp only [withDense, set_append_self _ _ _ _ h3]

theorem DenseLevel.item_bits {b : FSTBuilder} {level : Nat} {lab cw lw : List Nat} {nc : Nat}
    (D : DenseLevel b level lab cw lw nc)
    (bl bc pk : List (List Nat)) (hl : bl.length = level) (hc : bc.length = level)
    (hk : pk.length = level)
    (pos : Nat) (st : FSTBuilder × Nat) (hpos : pos < lab.length)
    (h : ItemBits b bl bc pk lab cw lw nc pos st) :
    ∃ st1, FSTBuilder.buildDenseItem level pos st = some st1 ∧
      ItemBits b bl bc pk lab cw lw nc (pos + 1) st1 := by
  obtain ⟨x, y, z, e, hx, hy, hz, hn, hbits⟩ := h
  have hcount := count_bitsOf_succ lw pos
  have hmono := count_bitsOf_mono lw (show pos + 1 ≤ lab.length by omega)
  rw [← D.cnt] at hmono
  simp only [FSTBuilder.buildDenseItem, e, D.isStartOfNode_gen _ _ _ hpos,
    D.isTerminator_eq _ _ _ hpos, Option.bind_eq_bind, Option.some_bind]
  cases hb : bitAt lw pos with
  | true =>
    rw [hb] at hcount
    simp only [if_true] at hcount
    have hnode : nodeNum lw pos = st.2 + 1 := by simp only [nodeNum]; omega
    cases ht : ((lab.getD pos 0 == kTerminator) && !bitAt cw pos) with
    | true =>
      have hp : isPrefixItem lab cw lw pos = true := by
        simp only [isPrefixItem, hb, ht, Bool.true_and]
      obtain ⟨z1, e1, l1, b1⟩ := setPrefixkeyBit_spec b (bl ++ [x]) (bc ++ [y]) pk z level
        (st.2 + 1) hk (by omega)
      simp only [if_true, e1, Option.some_bind]
      refine ⟨_, rfl, x, y, z1, rfl, hx, hy, by omega, by simp only; omega, ?_⟩
      exact hbits.step_pfx hp (by rw [hnode]; exact b1)
    | false =>
      have hp : isPrefixItem lab cw lw pos = false := by
        simp only [isPrefixItem, hb, ht, Bool.true_and]
      obtain ⟨x1, y1, e1, l1, l2, b1, b2⟩ := D.setLabel_spec bl bc (pk ++ [z]) x y hl hc hx hy
        hpos (show st.2 + 1 < nc by omega)
      simp only [if_true, Bool.false_eq_true, if_false, e1, Option.some_bind]
      refine ⟨_, rfl, x1, y1, z, rfl, l1, l2, hz, by simp only; omega, ?_⟩
      exact hbits.step_label hp (by rw [hnode]; exact b1) (by rw [hnode]; exact b2)
  | false =>
    rw [hb] at hcount
    simp only [Bool.false_eq_true, if_false, Nat.add_zero] at hcount
    have hnode : nodeNum lw pos = st.2 := by simp only [nodeNum]; omega
    have hp : isPrefixItem lab cw lw pos = false := by
      simp only [isPrefixItem, hb, Bool.false_and]
    obtain ⟨x1, y1, e1, l1, l2, b1, b2⟩ := D.setLabel_spec bl bc (pk ++ [z]) x y hl hc hx hy
      hpos (show st.2 < nc by omega)
    simp only [Bool.false_eq_true, if_false, e1, Option.some_bind]
    refine ⟨_, rfl, x1, y1, z, rfl, l1, l2, hz, by simp only; omega, ?_⟩
    exact hbits.step_label hp (by rw [hnode]; exact b1) (by rw [hnode]; exact b2)

/-- One level of the dense tier is built: the call returns and adds to each of the three
bitmaps the entry of the level, with the bits of all its items. -/
theorem DenseLevel.level_bits {b : FSTBuilder} {level : Nat} {lab cw lw : List Nat} {nc : Nat}
    (D : DenseLevel b level lab cw lw nc)
    (bl bc pk : List (List Nat)) (h1 : bl.length = level) (h2 : bc.length = level)
    (h3 : pk.length = level) :
    ∃ x y z, FSTBuilder.buildDenseLevel level (withDense b bl bc pk)
        = some (withDense b (bl ++ [x]) (bc ++ [y]) (pk ++ [z])) ∧
      x.length = 4 * nc ∧ y.length = 4 * nc ∧ z.length = (nc + 63) / 64 ∧
      DenseBits lab cw lw lab.length x y z := by
  have hnum : (withDense b (bl ++ [List.replicate (4 * nc) 0]) (bc ++ [List.replicate (4 * nc) 0])
      (pk ++ [List.replicate ((nc + 63) / 64) 0])).getNumItems level = some lab.length := by
    simp only [FSTBuilder.getNumItems]
    rw [show (withDense b (bl ++ [List.replicate (4 * nc) 0])
      (bc ++ [List.replicate (4 * nc) 0])
      (pk ++ [List.replicate ((nc + 63) / 64) 0])).labels_ = b.labels_ from rfl, D.hlab]
    rfl
  simp only [FSTBuilder.buildDenseLevel, initDenseVectors_gen b bl bc pk level nc D.hnc h1 h2 h3,
    hnum, Option.bind_eq_bind, Option.some_bind]
  by_cases hn0 : lab.length = 0
  · simp only [hn0, beq_self_eq_true, if_true]
    exact ⟨_, _, _, rfl, by simp, by simp, by simp, DenseBits.init lab cw lw _ _ _⟩
  · have hb : (lab.length == 0) = false := by simpa using hn0
    have hpos : 0 < lab.length := by omega
    have hne : lab ≠ [] := by intro h0; rw [h0] at hn0; exact hn0 rfl
    have hhead := D.head hne
    have hone : (bitsOf lw 1).count true = 1 := by
      rw [count_bitsOf_succ lw 0, hhead]; rfl
    have hnc : 0 < nc := by
      have := count_bitsOf_mono lw (show 1 ≤ lab.length by omega)
      rw [← D.cnt, hone] at this; omega
    have hnode : nodeNum lw 0 = 0 := by simp only [nodeNum, Nat.zero_add, hone]
    have hinit := DenseBits.init lab cw lw (4 * nc) (4 * nc) ((nc + 63) / 64)
    simp only [hb, Bool.false_eq_true, if_false, D.isTerminator_eq _ _ _ hpos, Option.some_bind]
    have hfirst : ∃ st0, (if ((lab.getD 0 0 == kTerminator) && !bitAt cw 0) = true then
          (withDense b (bl ++ [List.replicate (4 * nc) 0]) (bc ++ [List.replicate (4 * nc) 0])
            (pk ++ [List.replicate ((nc + 63) / 64) 0])).setPrefixkeyBit level 0
        else
          (withDense b (bl ++ [List.replicate (4 * nc) 0]) (bc ++ [List.replicate (4 * nc) 0])
            (pk ++ [List.replicate ((nc + 63) / 64) 0])).setLabelAndChildIndicatorBitmap
              level 0 0) = some st0 ∧ ItemBits b bl bc pk lab cw lw nc 1 (st0, 0) := by
      cases ht : ((lab.getD 0 0 == kTerminator) && !bitAt cw 0) with
      | true =>
        have hp : isPrefixItem lab cw lw 0 = true := by
          simp only [isPrefixItem, hhead, ht, Bool.true_and]
        obtain ⟨z1, e1, l1, b1⟩ := setPrefixkeyBit_spec b (bl ++ [List.replicate (4 * nc) 0])
          (bc ++ [List.replicate (4 * nc) 0]) pk (List.replicate ((nc + 63) / 64) 0) level 0 h3
          (by simp; omega)
        refine ⟨_, by simp only [if_true]; exact e1, _, _, z1, rfl, by simp, by simp,
          by rw [l1]; simp, by rw [hone], ?_⟩
        exact hinit.step_pfx hp (by rw [hnode]; exact b1)
      | false =>
        have hp : isPrefixItem lab cw lw 0 = false := by
          simp only [isPrefixItem, hhead, ht, Bool.true_and]
        obtain ⟨x1, y1, e1, l1, l2, b1, b2⟩ := D.setLabel_spec bl bc
          (pk ++ [List.replicate ((nc + 63) / 64) 0])
          (List.replicate (4 * nc) 0) (List.replicate (4 * nc) 0) h1 h2 (by simp) (by simp)
          hpos hnc
        refine ⟨_, by simp only [Bool.false_eq_true, if_false]; exact e1, x1, y1, _, rfl, l1, l2,
          by simp, by rw [hone], ?_⟩
        exact hinit.step_label hp (by rw [hnode]; exact b1) (by rw [hnode]; exact b2)
    obtain ⟨st0, e0, I0⟩ := hfirst
    rw [e0, Option.some_bind]
    obtain ⟨st, e2, x2, y2, z2, e3, l1, l2, l3, _, hbits⟩ :=
      forRange_inv (FSTBuilder.buildDenseItem level)
        (ItemBits b bl bc pk lab cw lw nc) (lab.length - 1) 1 (st0, 0)
        (fun pos st _ hp hi => D.item_bits bl bc pk h1 h2 h3 pos st (by omega) hi) I0
    rw [e2, Option.some_bind, e3]
    rw [show 1 + (lab.length - 1) = lab.length by omega] at hbits
    exact ⟨x2, y2, z2, rfl, l1, l2, l3, hbits⟩

/-- The dense tier is built: `buildDense` returns, changes the three bitmaps only, and
leaves in them, for every level below the cutoff, the bits of the items of the level. -/
theorem buildDense_bits (b : FSTBuilder)
    (hbl : b.bitmap_labels_ = []) (hbc : b.bitmap_child_indicator_bits_ = [])
    (hpk : b.prefixkey_indicator_bits_ = [])
    (hlev : ∀ l, l < b.sparse_start_level_ →
      DenseLevel b l (labL b l) (cwL b l) (lwL b l) (b.node_counts_.getD l 0)) :
    ∃ bl bc pk, b.buildDense = some (withDense b bl bc pk) ∧
      bl.length = b.sparse_start_level_ ∧ bc.length = b.sparse_start_level_ ∧
      pk.length = b.sparse_start_level_ ∧
      ∀ l, l < b.sparse_start_level_ →
        (bl.getD l []).length = 4 * b.node_counts_.getD l 0 ∧
        (bc.getD l []).length = 4 * b.node_counts_.getD l 0 ∧
        (pk.getD l []).length = (b.node_counts_.getD l 0 + 63) / 64 ∧
        DenseBits (labL b l) (cwL b l) (lwL b l) (labL b l).length
          (bl.getD l []) (bc.getD l []) (pk.getD l []) := by
  have h0 : b = withDense b [] [] [] := by
    have := withDense_self b
    rw [hbl, hbc, hpk] at this
    exact this.symm
  obtain ⟨st, e, bl, bc, pk, e2, l1, l2, l3, hall⟩ := forRange_inv FSTBuilder.buildDenseLevel
    (fun l st => ∃ bl bc pk, st = withDense b bl bc pk ∧ bl.length = l ∧ bc.length = l ∧
      pk.length = l ∧ ∀ l2, l2 < l →
        (bl.getD l2 []).length = 4 * b.node_counts_.getD l2 0 ∧
        (bc.getD l2 []).length = 4 * b.node_counts_.getD l2 0 ∧
        (pk.getD l2 []).length = (b.node_counts_.getD l2 0 + 63) / 64 ∧
        DenseBits (labL b l2) (cwL b l2) (lwL b l2) (labL b l2).length
          (bl.getD l2 []) (bc.getD l2 []) (pk.getD l2 [])) b.sparse_start_level_ 0 b
    (by
      intro l st _ hl hi
      obtain ⟨bl, bc, pk, e, h1, h2, h3, hprev⟩ := hi
      have D := hlev l (by omega)
      obtain ⟨x, y, z, e1, a1, a2, a3, a4⟩ := D.level_bits bl bc pk h1 h2 h3
      refine ⟨_, by rw [e]; exact e1, _, _, _, rfl, by simp [h1], by simp [h2], by simp [h3], ?_⟩
      intro l2 hl2
      by_cases e3 : l2 = l
      · subst e3
        have g1 : (bl ++ [x]).getD l2 [] = x := by rw [← h1]; exact getD_append_self _ _ _
        have g2 : (bc ++ [y]).getD l2 [] = y := by rw [← h2]; exact getD_append_self _ _ _
        have g3 : (pk ++ [z]).getD l2 [] = z := by rw [← h3]; exact getD_append_self _ _ _
        rw [g1, g2, g3]
        exact ⟨a1, a2, a3, a4⟩
      · have hlt : l2 < l := by omega
        rw [getD_append_left _ _ _ _ (by omega), getD_append_left _ _ _ _ (by omega),
          getD_append_left _ _ _ _ (by omega)]
        exact hprev l2 hlt)
    ⟨[], [], [], h0, rfl, rfl, rfl, fun l2 hl2 => by omega⟩
  simp only [Nat.zero_add] at l1 l2 l3 hall
  exact ⟨bl, bc, pk, by rw [← e2]; exact e, l1, l2, l3, hall⟩

end FST

namespace FST

/-! ## C29, C30: the bit numbering and the label search -/

/-- C29: bits are numbered MSB first. `FSTBuilder::setBit(bits, p)` ORs the mask
`1 << (63 - p mod 64)` into the word `p / 64` and leaves the other words as they are, so that
reading a position `q` afterwards gives true iff `q = p` or the bit at `q` was set before;
`FSTBuilder::readBit` tests the word `q / 64` with the mask `1 << (63 - q mod 64)`, and
`Bitvector::readBit` reads the same word with the same mask. -/
theorem C29_bits_msb_first (bits : List Nat) (p : Nat) (hp : p < 64 * bits.length) :
    FSTBuilder.setBit bits p
        = some (bits.set (p / 64) (bits.getD (p / 64) 0 ||| 1 <<< (63 - p % 64))) ∧
    (∀ q, q < 64 * bits.length →
      FSTBuilder.readBit bits q
          = some ((bits.getD (q / 64) 0 &&& 1 <<< (63 - q % 64)) != 0) ∧
      ∃ bits1 old, FSTBuilder.setBit bits p = some bits1 ∧
        FSTBuilder.readBit bits q = some old ∧
        FSTBuilder.readBit bits1 q = some (decide (q = p) || old)) ∧
    (∀ n q, q < n → q < 64 * bits.length →
      Bitvector.readBit { num_bits_ := n, bits_ := bits } q = FSTBuilder.readBit bits q) := by
  have hmask : ∀ x, x < 64 → kMsbMask >>> x = 1 <<< (63 - x) := by
    intro x hx
    rw [msb_shift x hx, Nat.shiftLeft_eq, Nat.one_mul]
  have hp2 : p < bits.length * 64 := by omega
  refine ⟨?_, ?_, ?_⟩
  · simp only [FSTBuilder.setBit, kWordSize, hp2, if_true]
    rw [hmask _ (Nat.mod_lt _ (by decide))]
  · intro q hq
    have hq2 : q < bits.length * 64 := by omega
    refine ⟨?_, ?_⟩
    · simp only [FSTBuilder.readBit, kWordSize, hq2, if_true]
      rw [hmask _ (Nat.mod_lt _ (by decide))]
    · obtain ⟨bits1, h1, hlen, hbit, _⟩ := setBit_eq bits p hp2
      refine ⟨bits1, bitAt bits q, h1, builder_readBit_eq bits q hq2, ?_⟩
      rw [builder_readBit_eq bits1 q (by rw [hlen]; exact hq2), hbit q]
  · intro n q hqn hq
    have hq2 : q < bits.length * 64 := by omega
    have hw : q / 64 < bits.length := by omega
    simp only [Bitvector.readBit, check, hqn, decide_True, if_true, Option.bind_eq_bind,
      Option.some_bind, kWordSize, FSTBuilder.readBit, hq2]
    rw [List.getElem?_eq_getElem hw]
    simp only [Option.some_bind, List.getD_eq_getElem?_getD, List.getElem?_eq_getElem hw,
      Option.getD_some]

theorem C29_bits_msb_first_witness :
    FSTBuilder.setBit [0, 0] 70
        = some (([0, 0] : List Nat).set (70 / 64)
            (([0, 0] : List Nat).getD (70 / 64) 0 ||| 1 <<< (63 - 70 % 64))) ∧
    (∀ q, q < 64 * ([0, 0] : List Nat).length →
      FSTBuilder.readBit [0, 0] q
          = some ((([0, 0] : List Nat).getD (q / 64) 0 &&& 1 <<< (63 - q % 64)) != 0) ∧
      ∃ bits1 old, FSTBuilder.setBit [0, 0] 70 = some bits1 ∧
        FSTBuilder.readBit [0, 0] q = some old ∧
        FSTBuilder.readBit bits1 q = some (decide (q = 70) || old)) ∧
    (∀ n q, q < n → q < 64 * ([0, 0] : List Nat).length →
      Bitvector.readBit { num_bits_ := n, bits_ := [0, 0] } q = FSTBuilder.readBit [0, 0] q) :=
  C29_bits_msb_first [0, 0] 70 (by decide)

/-- C30: on a range `[pos, pos + len)` inside the label vector whose labels, after a leading
terminator 255 that is skipped when `len > 1`, are strictly increasing, `search` returns true
iff the target occurs in the range after the skipped terminator, and on a hit `pos` is the
index that holds the target; this holds for every `len`, that is for the linear, the binary
and the SIMD strategy alike. -/
theorem C30_search_finds_target (lv : LabelVector)
    (hn : lv.num_bytes_ = lv.labels_.length + 1) (target pos len : Nat)
    (hin : pos + len ≤ lv.labels_.length)
    (hs : IncrOn lv.labels_ (searchStart lv.labels_ pos len) (pos + len)) :
    (∀ g, searchStart lv.labels_ pos len ≤ g → g < pos + len → lv.labels_.getD g 0 = target →
      lv.search target pos len = some (true, g)) ∧
    ((∀ g, searchStart lv.labels_ pos len ≤ g → g < pos + len →
        lv.labels_.getD g 0 ≠ target) →
      lv.search target pos len = some (false, searchStart lv.labels_ pos len)) ∧
    (∃ r, lv.search target pos len = some r ∧
      (r.1 = true ↔ ∃ g, searchStart lv.labels_ pos len ≤ g ∧ g < pos + len ∧
        lv.labels_.getD g 0 = target)) := by
  have h : LRepr lv lv.labels_ := ⟨rfl, hn⟩
  have h1 : ∀ g, searchStart lv.labels_ pos len ≤ g → g < pos + len →
      lv.labels_.getD g 0 = target → lv.search target pos len = some (true, g) :=
    fun g a b c => search_in_range h target pos len g hin hs a b c
  have h2 : (∀ g, searchStart lv.labels_ pos len ≤ g → g < pos + len →
        lv.labels_.getD g 0 ≠ target) →
      lv.search target pos len = some (false, searchStart lv.labels_ pos len) :=
    fun habs => search_not_in_range h target pos len hin habs
  refine ⟨h1, h2, ?_⟩
  by_cases hex : ∃ g, searchStart lv.labels_ pos len ≤ g ∧ g < pos + len ∧
      lv.labels_.getD g 0 = target
  · obtain ⟨g, a, b, c⟩ := hex
    exact ⟨(true, g), h1 g a b c, ⟨fun _ => ⟨g, a, b, c⟩, fun _ => rfl⟩⟩
  · refine ⟨(false, searchStart lv.labels_ pos len), h2 ?_, ?_⟩
    · intro g a b c
      exact hex ⟨g, a, b, c⟩
    · constructor
      · intro hc; simp at hc
      · intro hc; exact absurd hc hex

/-- C30 (witness): the labels 255, 3, 5 as one range of length 3, searched for 5. -/
theorem C30_search_finds_target_witness :
    (∀ g, searchStart [255, 3, 5] 0 3 ≤ g → g < 0 + 3 →
      ([255, 3, 5] : List Nat).getD g 0 = 5 →
      LabelVector.search { num_bytes_ := 4, labels_ := [255, 3, 5] } 5 0 3 = some (true, g)) ∧
    ((∀ g, searchStart [255, 3, 5] 0 3 ≤ g → g < 0 + 3 →
        ([255, 3, 5] : List Nat).getD g 0 ≠ 5) →
      LabelVector.search { num_bytes_ := 4, labels_ := [255, 3, 5] } 5 0 3
        = some (false, searchStart [255, 3, 5] 0 3)) ∧
    (∃ r, LabelVector.search { num_bytes_ := 4, labels_ := [255, 3, 5] } 5 0 3 = some r ∧
      (r.1 = true ↔ ∃ g, searchStart [255, 3, 5] 0 3 ≤ g ∧ g < 0 + 3 ∧
        ([255, 3, 5] : List Nat).getD g 0 = 5)) :=
  C30_search_finds_target { num_bytes_ := 4, labels_ := [255, 3, 5] } rfl 5 0 3 (by decide)
    (by
      intro q1 q2 h1 h2 h3
      have e : searchStart [255, 3, 5] 0 3 = 1 := by decide
      rw [e] at h1
      have e1 : q1 = 1 := by omega
      have e2 : q2 = 2 := by omega
      subst e1 e2
      decide)

end FST

namespace FST

/-! ## C26, C27, C28: the distances to set bits and the concatenation -/

/-- C26: `distanceToNextSetBit` is not the distance to the end of the vector when no set bit
follows a position outside the last word. In a vector of 65 bits with only bit 0 set the
call at position 0 returns 128, the distance to the end of the second word, and not
65 = `n - p`, whereas at position 64, in the last word, the call returns 1 = `n - p`; in a
vector of 64 bits the call at position 63 reads the word with index 1, past the one word of
the vector. -/
theorem C26_distance_past_last_word :
    Bitvector.distanceToNextSetBit { num_bits_ := 65, bits_ := [2 ^ 63, 0] } 0 = some 128 ∧
    Bitvector.distanceToNextSetBit { num_bits_ := 65, bits_ := [2 ^ 63, 0] } 64 = some 1 ∧
    Bitvector.numWords { num_bits_ := 64, bits_ := [1] } = 1 ∧
    Bitvector.distanceToNextSetBit { num_bits_ := 64, bits_ := [1] } 63 = none := by
  decide

/-- C27: for a bit vector of `n` bits and a position `0 < p <= n`, `distanceToPrevSetBit(p)`
returns the smallest `d >= 1` such that bit `p - d` is set, and `p + 1` when no bit below `p`
is set; for `p = 0` it returns 0. -/
theorem C27_distance_to_prev_set_bit (bv : Bitvector) (hlen : bv.bits_.length = bv.numWords)
    (hw : Words64 bv.bits_) (p : Nat) (hp : p ≤ bv.num_bits_) :
    (p = 0 → bv.distanceToPrevSetBit p = some 0) ∧
    (0 < p → ∃ d, bv.distanceToPrevSetBit p = some d ∧ 1 ≤ d ∧
      ((d ≤ p ∧ bv.readBit (p - d) = some true ∧
          ∀ q, p - d < q → q < p → bv.readBit q = some false) ∨
       (d = p + 1 ∧ ∀ q, q < p → bv.readBit q = some false))) := by
  constructor
  · intro h0
    subst h0
    simp [Bitvector.distanceToPrevSetBit, check]
  · intro hp0
    obtain ⟨d, h1, h2, h3⟩ := distancePrev_words bv hlen hw p hp0 hp
    refine ⟨d, h1, h2, ?_⟩
    rcases h3 with ⟨a, b, c⟩ | ⟨a, b⟩
    · refine Or.inl ⟨a, ?_, ?_⟩
      · rw [readBit_bitAt bv hlen _ (by omega), b]
      · intro q hq1 hq2
        rw [readBit_bitAt bv hlen _ (by omega), c q hq1 hq2]
    · refine Or.inr ⟨a, ?_⟩
      intro q hq
      rw [readBit_bitAt bv hlen _ (by omega), b q hq]

/-- C27 (witness): a vector of 70 bits with only bit 63 set, at the position 70. -/
theorem C27_distance_to_prev_set_bit_witness :
    (70 = 0 → Bitvector.distanceToPrevSetBit { num_bits_ := 70, bits_ := [1, 0] } 70
      = some 0) ∧
    (0 < 70 → ∃ d, Bitvector.distanceToPrevSetBit { num_bits_ := 70, bits_ := [1, 0] } 70
        = some d ∧ 1 ≤ d ∧
      ((d ≤ 70 ∧ Bitvector.readBit { num_bits_ := 70, bits_ := [1, 0] } (70 - d) = some true ∧
          ∀ q, 70 - d < q → q < 70 →
            Bitvector.readBit { num_bits_ := 70, bits_ := [1, 0] } q = some false) ∨
       (d = 70 + 1 ∧ ∀ q, q < 70 →
          Bitvector.readBit { num_bits_ := 70, bits_ := [1, 0] } q = some false))) :=
  C27_distance_to_prev_set_bit { num_bits_ := 70, bits_ := [1, 0] } (by decide)
    (by intro w hw; simp at hw; rcases hw with h | h <;> subst h <;> decide) 70 (by decide)

/-- C28: for per-level bit vectors whose bits past `num_bits_per_level[l]` are zero, the
`Bitvector` constructed from the levels `start_level <= l < end_level` (an `end_level` of 0
standing for the number of levels) has `numBits` equal to the sum of the
`num_bits_per_level[l]` of these levels; its bit at the position (the sum of
`num_bits_per_level[j]` for `start_level <= j < l`) `+ i` is bit `i` of level `l`, for every
such `l` and every `i < num_bits_per_level[l]`, whatever the level lengths are; it has
`numWords()` words and all their other bits are zero. -/
theorem C28_concatenation (wss : List (List Nat)) (ns : List Nat) (start e : Nat)
    (hlev : ∀ l, start ≤ l → l < endLevel wss e →
      ∃ ws n, wss[l]? = some ws ∧ ns[l]? = some n ∧ LevelOK ws n) :
    ∃ bv, Bitvector.new wss ns start e = some bv ∧
      bv.numBits = levelsLen ns start (endLevel wss e - start) ∧
      (∀ l i, start ≤ l → l < endLevel wss e → i < ns.getD l 0 →
        bv.readBit (levelsLen ns start (l - start) + i)
          = FSTBuilder.readBit (wss.getD l []) i) ∧
      bv.bits_.length = bv.numWords ∧
      (∀ q, bv.numBits ≤ q → q < 64 * bv.numWords →
        FSTBuilder.readBit bv.bits_ q = some false) := by
  obtain ⟨bv, h1, R⟩ := Bitvector_new_gen wss ns start e hlev
  have hnb : bv.numBits = levelsLen ns start (endLevel wss e - start) := by
    rw [Bitvector.numBits, R.nbits, levelsBits_length]
  refine ⟨bv, h1, hnb, ?_, R.len, ?_⟩
  · intro l i hl1 hl2 hi
    obtain ⟨ws, n, g1, g2, g3⟩ := hlev l hl1 hl2
    have hn : ns.getD l 0 = n := by simp [List.getD_eq_getElem?_getD, g2]
    have hws : wss.getD l [] = ws := by simp [List.getD_eq_getElem?_getD, g1]
    have hk : l - start < endLevel wss e - start := by omega
    have hsl : start + (l - start) = l := by omega
    have hbit := levelsBits_getD wss ns (endLevel wss e - start) start (l - start) i hk
      (by rw [hsl]; exact hi)
    rw [hsl] at hbit
    have hlt : levelsLen ns start (l - start) + i
        < (levelsBits wss ns start (endLevel wss e - start)).length := by
      rw [levelsBits_length]
      have := levelsLen_add ns (l - start) start (endLevel wss e - start - (l - start))
      rw [show l - start + (endLevel wss e - start - (l - start)) = endLevel wss e - start
        by omega, hsl] at this
      have h2 : endLevel wss e - start - (l - start) = (endLevel wss e - l - 1) + 1 := by omega
      rw [h2, levelsLen_succ] at this
      omega
    rw [R.readBit_eq _ hlt, hbit, hws]
    rw [hn] at hi
    rw [builder_readBit_eq ws i (by have := g3.room; omega)]
  · intro q hq1 hq2
    rw [builder_readBit_eq bv.bits_ q (by rw [R.len]; omega), R.bits q]
    rw [getD_false_of_le _ _ (by rw [← R.nbits]; exact hq1)]

/-- C28 (witness): a level of one bit and a level of two bits. -/
theorem C28_concatenation_witness :
    ∃ bv, Bitvector.new [[2 ^ 63], [2 ^ 62]] [1, 2] 0 0 = some bv ∧
      bv.numBits = levelsLen [1, 2] 0 (endLevel [[2 ^ 63], [2 ^ 62]] 0 - 0) ∧
      (∀ l i, 0 ≤ l → l < endLevel [[2 ^ 63], [2 ^ 62]] 0 → i < List.getD [1, 2] l 0 →
        bv.readBit (levelsLen [1, 2] 0 (l - 0) + i)
          = FSTBuilder.readBit (List.getD [[2 ^ 63], [2 ^ 62]] l []) i) ∧
      bv.bits_.length = bv.numWords ∧
      (∀ q, bv.numBits ≤ q → q < 64 * bv.numWords →
        FSTBuilder.readBit bv.bits_ q = some false) :=
  C28_concatenation [[2 ^ 63], [2 ^ 62]] [1, 2] 0 0 (by
    intro l _ hl
    have hl2 : l < 2 := hl
    have hw : ∀ x : Nat, x = 2 ^ 63 ∨ x = 2 ^ 62 → x < 2 ^ 64 := by
      intro x hx; rcases hx with h | h <;> subst h <;> decide
    rcases Nat.lt_or_ge l 1 with h | h
    · have e : l = 0 := by omega
      subst e
      exact ⟨[2 ^ 63], 1, rfl, rfl, by decide,
        fun w hw1 => hw w (Or.inl (by simpa using hw1)),
        zeroFrom_of_bounded _ _ (by decide)⟩
    · have e : l = 1 := by omega
      subst e
      exact ⟨[2 ^ 62], 2, rfl, rfl, by decide,
        fun w hw1 => hw w (Or.inr (by simpa using hw1)),
        zeroFrom_of_bounded _ _ (by decide)⟩)

end FST

namespace FST

/-! ## C21, C22, C23, C25: the state after the sparse build -/

/-- C21 (counterexample): the keys "a", "bc" are strictly sorted, unique, and none is a
prefix of the other; the builder compares the two keys with `isSameKey`, whose assertion
`a.length() == b.length()` fails, and nothing is stored. -/
theorem C21_unequal_lengths_rejected :
    FSTBuilder.new.buildSparse [[97], [98, 99]] [1, 2] = none := by
  decide

/-- C21: for a non-empty strictly sorted list of keys of one length `L > 0`, `buildSparse`
returns, and the levels it leaves hold, for every key `k_j` in turn, one item at each of the
levels `sOf j <= l < dOf j`, where `sOf j = lcp(k_{j-1}, k_j)` is the number of bytes `k_j`
shares with the key before it (the items of these bytes exist already) and
`dOf j = 1 + max(lcp(k_{j-1}, k_j), lcp(k_j, k_{j+1}))`: the label of the item at level `l`
is byte `l` of `k_j`, its child bit is set iff `l + 1 < dOf j` (the item of byte `dOf j - 1`
keeps the child bit 0), its LOUDS bit is set iff it is not the first item `k_j` inserts
(or `j = 0`), and `v_j` is in `values[dOf j - 1]`, in the order of the keys. -/
theorem C21_unique_prefixes_stored (keys : List (List Nat)) (values : List Nat) (L : Nat)
    (K : KeysOK keys L) (hv : values.length = keys.length) :
    ∃ b, FSTBuilder.new.buildSparse keys values = some b ∧
      b.getTreeHeight = HS keys keys.length ∧
      ∀ l,
        labL b l = (lvl keys keys.length l).map (fun j => (kAt keys j).getD l 0) ∧
        chL b l = (lvl keys keys.length l).map (fun j => decide (l + 1 < dOf keys j)) ∧
        loL b l = (lvl keys keys.length l).map (fun j => decide (j = 0 ∨ sOf keys j < l)) ∧
        valL b l = ((List.range keys.length).filter
          (fun j => decide (dOf keys j = l + 1))).map (fun j => values.getD j 0) := by
  obtain ⟨b, h, S⟩ := buildSparse_state keys values L K hv
  have hH := BAbs.height S
  obtain ⟨a1, a2, a3, a4⟩ := BAbs.canon S
  refine ⟨b, h, by rw [hH]; exact Nat.max_eq_left (Nat.zero_le _), ?_⟩
  intro l
  refine ⟨?_, ?_, ?_, ?_⟩
  · rw [← a1, labS_end]
  · rw [← a2, chS_end]
  · rw [← a3, loS_end]
  · rw [← a4]; rfl

/-- C21 (witness): the keys "aaa", "aab", "bcd" with the values 10, 20, 30. -/
theorem C21_unique_prefixes_stored_witness :
    ∃ b, FSTBuilder.new.buildSparse [[97, 97, 97], [97, 97, 98], [98, 99, 100]] [10, 20, 30]
        = some b ∧
      b.getTreeHeight
        = HS [[97, 97, 97], [97, 97, 98], [98, 99, 100]]
            (List.length [[97, 97, 97], [97, 97, 98], [98, 99, 100]]) ∧
      ∀ l,
        labL b l = (lvl [[97, 97, 97], [97, 97, 98], [98, 99, 100]]
            (List.length [[97, 97, 97], [97, 97, 98], [98, 99, 100]]) l).map
          (fun j => (kAt [[97, 97, 97], [97, 97, 98], [98, 99, 100]] j).getD l 0) ∧
        chL b l = (lvl [[97, 97, 97], [97, 97, 98], [98, 99, 100]]
            (List.length [[97, 97, 97], [97, 97, 98], [98, 99, 100]]) l).map
          (fun j => decide (l + 1 < dOf [[97, 97, 97], [97, 97, 98], [98, 99, 100]] j)) ∧
        loL b l = (lvl [[97, 97, 97], [97, 97, 98], [98, 99, 100]]
            (List.length [[97, 97, 97], [97, 97, 98], [98, 99, 100]]) l).map
          (fun j => decide (j = 0 ∨ sOf [[97, 97, 97], [97, 97, 98], [98, 99, 100]] j < l)) ∧
        valL b l = ((List.range (List.length [[97, 97, 97], [97, 97, 98], [98, 99, 100]])).filter
          (fun j => decide (dOf [[97, 97, 97], [97, 97, 98], [98, 99, 100]] j = l + 1))).map
          (fun j => List.getD [10, 20, 30] j 0) :=
  C21_unique_prefixes_stored [[97, 97, 97], [97, 97, 98], [98, 99, 100]] [10, 20, 30] 3
    ⟨by decide, by decide, by decide, by decide⟩ (by decide)

/-- C22: after `buildSparse` on a strictly sorted list of unique keys, for every level `l`
with `l + 1 < height` the number of set bits of `child_indicator_bits_[l]` equals
`node_counts_[l + 1]`, which equals the number of set bits of `louds_bits_[l + 1]`.  This
holds for every state in which the build ends; the build returns for the keys of one length
`L > 0` (it fails an assertion when two keys differ in length). -/
theorem C22_child_count_match (keys : List (List Nat)) (values : List Nat)
    (hs : keys.Pairwise (fun a b => strLt a b = true)) :
    (∀ b, FSTBuilder.new.buildSparse keys values = some b →
      ∀ l, l + 1 < b.getTreeHeight →
        numSetBits (cwL b l) = b.node_counts_.getD (l + 1) 0 ∧
        b.node_counts_.getD (l + 1) 0 = numSetBits (lwL b (l + 1))) ∧
    (∀ L, 0 < L → (∀ k ∈ keys, k.length = L) → values.length = keys.length →
      ∃ b, FSTBuilder.new.buildSparse keys values = some b) := by
  refine ⟨?_, fun L hL hlen hv => buildSparse_returns keys values L hs hL hlen hv⟩
  intro b h l hl
  by_cases hne : keys = []
  · subst hne
    rw [buildSparse_nil] at h
    have e := Option.some.inj h
    subst e
    simp [FSTBuilder.getTreeHeight, FSTBuilder.new] at hl
  · obtain ⟨L, K, S, W⟩ := buildSparse_final keys values hs hne b h
    have hH := BAbs.height S
    obtain ⟨a1, a2, a3, a4⟩ := BAbs.canon S
    obtain ⟨cw, lw, Sh, P1, P2, e1, e2⟩ := S
    rw [hH] at hl
    have c1 : numSetBits (cwL b l) = (chS keys keys.length 0 l).count true := by
      rw [Sh.cw l, numSetBits_packed _ _ (P1 l (by omega)), e1 l]
    have c2 : numSetBits (lwL b (l + 1)) = (loS keys keys.length 0 (l + 1)).count true := by
      rw [Sh.lw (l + 1), numSetBits_packed _ _ (P2 (l + 1) hl), e2 (l + 1)]
    have c3 : b.node_counts_.getD (l + 1) 0 = (loS keys keys.length 0 (l + 1)).count true := by
      rw [W.counts (l + 1), ← a3]
    rw [c1, c2, c3, child_count_eq]
    exact ⟨rfl, rfl⟩

/-- C22 (witness): the keys "aaa", "aab", "bcd". -/
theorem C22_child_count_match_witness :
    (∀ b, FSTBuilder.new.buildSparse [[97, 97, 97], [97, 97, 98], [98, 99, 100]] [10, 20, 30]
        = some b →
      ∀ l, l + 1 < b.getTreeHeight →
        numSetBits (cwL b l) = b.node_counts_.getD (l + 1) 0 ∧
        b.node_counts_.getD (l + 1) 0 = numSetBits (lwL b (l + 1))) ∧
    (∀ L, 0 < L → (∀ k ∈ [[97, 97, 97], [97, 97, 98], [98, 99, 100]], k.length = L) →
      List.length [10, 20, 30] = List.length [[97, 97, 97], [97, 97, 98], [98, 99, 100]] →
      ∃ b, FSTBuilder.new.buildSparse [[97, 97, 97], [97, 97, 98], [98, 99, 100]] [10, 20, 30]
        = some b) :=
  C22_child_count_match [[97, 97, 97], [97, 97, 98], [98, 99, 100]] [10, 20, 30] (by decide)

/-- C23: after `buildSparse` on a strictly sorted key list, within every node of every level
the labels are strictly increasing: two positions `p < q` of a level with no node start at
any of the positions `p + 1 .. q` hold labels `labels[l][p] < labels[l][q]`.  This holds for
every state in which the build ends; the build returns for the keys of one length
`L > 0`. -/
theorem C23_labels_sorted_in_node (keys : List (List Nat)) (values : List Nat)
    (hs : keys.Pairwise (fun a b => strLt a b = true)) :
    (∀ b, FSTBuilder.new.buildSparse keys values = some b →
      ∀ l p q, p < q → q < (labL b l).length →
        (∀ r, p < r → r ≤ q → FSTBuilder.readBit (lwL b l) r = some false) →
        (labL b l).getD p 0 < (labL b l).getD q 0) ∧
    (∀ L, 0 < L → (∀ k ∈ keys, k.length = L) → values.length = keys.length →
      ∃ b, FSTBuilder.new.buildSparse keys values = some b) := by
  refine ⟨?_, fun L hL hlen hv => buildSparse_returns keys values L hs hL hlen hv⟩
  intro b h l p q hpq hq hlo
  by_cases hne : keys = []
  · subst hne
    rw [buildSparse_nil] at h
    have e := Option.some.inj h
    subst e
    simp [labL, FSTBuilder.new] at hq
  · obtain ⟨L, K, S, W⟩ := buildSparse_final keys values hs hne b h
    obtain ⟨a1, a2, a3, a4⟩ := BAbs.canon S
    have hnil := fun (hl : max (HS keys keys.length) 0 ≤ l) => BAbs.lab_nil_abs S hl
    obtain ⟨cw, lw, Sh, P1, P2, e1, e2⟩ := S
    rw [← a1] at hq ⊢
    have hl : l < max (HS keys keys.length) 0 := by
      by_contra hc
      rw [hnil (by omega)] at hq
      simp at hq
    apply K.level_sorted l p q hpq hq
    intro r hr1 hr2
    have hP := P2 l hl
    have hrl : r < (labS keys keys.length 0 l).length := by omega
    have h1 := hlo r hr1 hr2
    rw [Sh.lw l, builder_readBit_eq (lw l) r (by have := hP.len; omega)] at h1
    rw [e2 l, List.getD_eq_getElem?_getD, bitsOf_getElem? _ _ _ hrl, Option.getD_some]
    exact Option.some.inj h1

/-- C23 (witness): the keys "aaa", "aab", "bcd". -/
theorem C23_labels_sorted_in_node_witness :
    (∀ b, FSTBuilder.new.buildSparse [[97, 97, 97], [97, 97, 98], [98, 99, 100]] [10, 20, 30]
        = some b →
      ∀ l p q, p < q → q < (labL b l).length →
        (∀ r, p < r → r ≤ q → FSTBuilder.readBit (lwL b l) r = some false) →
        (labL b l).getD p 0 < (labL b l).getD q 0) ∧
    (∀ L, 0 < L → (∀ k ∈ [[97, 97, 97], [97, 97, 98], [98, 99, 100]], k.length = L) →
      List.length [10, 20, 30] = List.length [[97, 97, 97], [97, 97, 98], [98, 99, 100]] →
      ∃ b, FSTBuilder.new.buildSparse [[97, 97, 97], [97, 97, 98], [98, 99, 100]] [10, 20, 30]
        = some b) :=
  C23_labels_sorted_in_node [[97, 97, 97], [97, 97, 98], [98, 99, 100]] [10, 20, 30]
    (by decide)

set_option maxRecDepth 100000 in
theorem keys65_node_size :
    ((FSTBuilder.new.buildSparse keys65 (List.range 65)).bind fun b =>
      (LoudsSparse.new b keys65).map fun t =>
        (t.louds_bits_.numOnes, t.labels_.labels_.length, t.getFirstLabelPos 0))
      = some (1, 65, some 0) ∧
    ((FSTBuilder.new.buildSparse keys65 (List.range 65)).bind fun b =>
      (LoudsSparse.new b keys65).bind fun t =>
        (t.getFirstLabelPos 0).bind t.nodeSize) = some 128 ∧
    ((FSTBuilder.new.buildSparse keys65 (List.range 65)).bind fun b =>
      (LoudsSparse.new b keys65).map fun t => t.lookupKey [200] 0 0) = some none := by
  decide

/-- C25 (failing input): the sparse tier built from the 65 one-byte keys 0 .. 64 has one
node, the root, which starts at position 0 and holds 65 labels; `nodeSize` at its first
label position returns 128, the distance to the end of the second word of the LOUDS bits.
With this size the lookup of the absent key 200 reads the label vector past its 65 labels. -/
theorem C25_last_node_size_overlong :
    ((FSTBuilder.new.buildSparse keys65 (List.range 65)).bind fun b =>
      (LoudsSparse.new b keys65).map fun t =>
        (t.louds_bits_.numOnes, t.labels_.labels_.length, t.getFirstLabelPos 0))
      = some (1, 65, some 0) ∧
    ((FSTBuilder.new.buildSparse keys65 (List.range 65)).bind fun b =>
      (LoudsSparse.new b keys65).bind fun t =>
        (t.getFirstLabelPos 0).bind t.nodeSize) = some 128 ∧
    ((FSTBuilder.new.buildSparse keys65 (List.range 65)).bind fun b =>
      (LoudsSparse.new b keys65).map fun t => t.lookupKey [200] 0 0) = some none :=
  keys65_node_size

end FST

namespace FST

/-! ## C24: the bitmaps of the dense tier -/

/-- C24 (counterexample): the one-byte keys 1 and 255, built with a dense tier and the ratio
0, give one dense level with the labels 1, 255 in one node (one node start), both with the
child bit 0.  The label 255 at position 1 has the child bit 0, but it is not the first label
of its node: `buildDense` tests `isTerminator` at a node start only, sets bit
`0 * 256 + 255` of the label bitmap and leaves the prefix-key bit 0 of the level unset. -/
theorem C24_terminator_inside_node :
    ((FSTBuilder.mk2 true 0).build [[1], [255]] [10, 20]).map
        (fun b => (b.sparse_start_level_, b.labels_, b.node_counts_))
      = some (1, [[1, 255]], [1]) ∧
    ((FSTBuilder.mk2 true 0).build [[1], [255]] [10, 20]).bind
        (fun b => FSTBuilder.readBit (b.child_indicator_bits_.getD 0 []) 1) = some false ∧
    ((FSTBuilder.mk2 true 0).build [[1], [255]] [10, 20]).bind
        (fun b => FSTBuilder.readBit (b.prefixkey_indicator_bits_.getD 0 []) 0) = some false ∧
    ((FSTBuilder.mk2 true 0).build [[1], [255]] [10, 20]).bind
        (fun b => FSTBuilder.readBit (b.bitmap_labels_.getD 0 []) 255) = some true := by
  decide

/-- C24: on a builder whose dense bitmaps are empty and whose levels below
`sparse_start_level` are well formed (`DenseLevel`: one bit per label in the child and LOUDS
words, `node_counts_` equal to the number of set LOUDS bits, a node start at the first
label, labels that are bytes, bit positions within 32 bits), `buildDense` returns and changes
the three dense bitmaps only.  For every level `l < sparse_start_level`, every label position
`p` of the level and the node `n` that contains `p` (`nodeNum`): if `p` is the first label of
its node and `labels[l][p] = 255` and `child[l][p] = 0` (`isPrefixItem`), the prefix-key bit
`n` of level `l` is set; otherwise bit `n * 256 + labels[l][p]` of the dense label bitmap is
set, and the same bit of the dense child bitmap is set iff `child[l][p] = 1`; no other bit of
the three bitmaps is set. -/
theorem C24_dense_bitmaps (b : FSTBuilder)
    (hbl : b.bitmap_labels_ = []) (hbc : b.bitmap_child_indicator_bits_ = [])
    (hpk : b.prefixkey_indicator_bits_ = [])
    (hlev : ∀ l, l < b.sparse_start_level_ →
      DenseLevel b l (labL b l) (cwL b l) (lwL b l) (b.node_counts_.getD l 0)) :
    ∃ bl bc pk, b.buildDense = some (withDense b bl bc pk) ∧
      ∀ l, l < b.sparse_start_level_ → ∀ q,
        (bitAt (bl.getD l []) q = true ↔ ∃ p, p < (labL b l).length ∧
          isPrefixItem (labL b l) (cwL b l) (lwL b l) p = false ∧
          q = nodeNum (lwL b l) p * 256 + (labL b l).getD p 0) ∧
        (bitAt (bc.getD l []) q = true ↔ ∃ p, p < (labL b l).length ∧
          isPrefixItem (labL b l) (cwL b l) (lwL b l) p = false ∧
          bitAt (cwL b l) p = true ∧
          q = nodeNum (lwL b l) p * 256 + (labL b l).getD p 0) ∧
        (bitAt (pk.getD l []) q = true ↔ ∃ p, p < (labL b l).length ∧
          isPrefixItem (labL b l) (cwL b l) (lwL b l) p = true ∧
          q = nodeNum (lwL b l) p) := by
  obtain ⟨bl, bc, pk, e, _, _, _, hall⟩ := buildDense_bits b hbl hbc hpk hlev
  refine ⟨bl, bc, pk, e, ?_⟩
  intro l hl q
  obtain ⟨_, _, _, D⟩ := hall l hl
  exact ⟨D.labels q, D.child q, D.pfx q⟩

/-- C24 (witness): the builder state `prefixKeySample`. -/
theorem C24_dense_bitmaps_witness :
    ∃ bl bc pk, prefixKeySample.buildDense = some (withDense prefixKeySample bl bc pk) ∧
      ∀ l, l < prefixKeySample.sparse_start_level_ → ∀ q,
        (bitAt (bl.getD l []) q = true ↔ ∃ p, p < (labL prefixKeySample l).length ∧
          isPrefixItem (labL prefixKeySample l) (cwL prefixKeySample l)
            (lwL prefixKeySample l) p = false ∧
          q = nodeNum (lwL prefixKeySample l) p * 256 + (labL prefixKeySample l).getD p 0) ∧
        (bitAt (bc.getD l []) q = true ↔ ∃ p, p < (labL prefixKeySample l).length ∧
          isPrefixItem (labL prefixKeySample l) (cwL prefixKeySample l)
            (lwL prefixKeySample l) p = false ∧
          bitAt (cwL prefixKeySample l) p = true ∧
          q = nodeNum (lwL prefixKeySample l) p * 256 + (labL prefixKeySample l).getD p 0) ∧
        (bitAt (pk.getD l []) q = true ↔ ∃ p, p < (labL prefixKeySample l).length ∧
          isPrefixItem (labL prefixKeySample l) (cwL prefixKeySample l)
            (lwL prefixKeySample l) p = true ∧
          q = nodeNum (lwL prefixKeySample l) p) :=
  C24_dense_bitmaps prefixKeySample rfl rfl rfl (by
    intro l hl
    have hl2 : l < 2 := hl
    rcases Nat.lt_or_ge l 1 with h | h
    · have e : l = 0 := by omega
      subst e
      exact ⟨by decide, by decide, by decide, by decide, by decide, by decide, by decide,
        fun _ => by decide, by decide, by decide⟩
    · have e : l = 1 := by omega
      subst e
      exact ⟨by decide, by decide, by decide, by decide, by decide, by decide, by decide,
        fun _ => by decide, by decide, by decide⟩)

end FST

namespace FST

/-! ## The position after a failed search -/

theorem linearSearch_false_pos (lv : LabelVector) (target pos : Nat) :
    ∀ (n i p : Nat), LabelVector.linearSearch.go lv target pos n i = some (false, p) → p = pos := by
  intro n
  induction n with
  | zero =>
    intro i p h
    simp only [LabelVector.linearSearch.go, Option.some.injEq, Prod.mk.injEq, true_and] at h
    exact h.symm
  | succ n ih =>
    intro i p h
    rw [LabelVector.linearSearch.go] at h
    cases hr : lv.read (pos + i) with
    | none => simp [hr] at h
    | some l =>
      simp only [hr, Option.bind_eq_bind, Option.some_bind] at h
      by_cases ht : (target == l) = true
      · simp [ht] at h
      · simp only [ht, Bool.false_eq_true, if_false] at h
        exact ih _ _ h

theorem binarySearch_false_pos (lv : LabelVector) (target pos : Nat) :
    ∀ (fuel l r p : Nat), LabelVector.binarySearch.go lv target pos fuel l r = some (false, p) →
      p = pos := by
  intro fuel
  induction fuel with
  | zero => intro l r p h; simp [LabelVector.binarySearch.go] at h
  | succ fuel ih =>
    intro l r p h
    rw [LabelVector.binarySearch.go] at h
    by_cases hlr : l < r
    · simp only [hlr, if_true] at h
      cases hr : lv.read ((l + r) >>> 1) with
      | none => simp [hr] at h
      | some x =>
        simp only [hr, Option.bind_eq_bind, Option.some_bind] at h
        by_cases h1 : target < x
        · simp only [h1, if_true] at h; exact ih _ _ _ h
        · simp only [h1, if_false] at h
          by_cases h2 : (target == x) = true
          · simp [h2] at h
          · simp only [h2, Bool.false_eq_true, if_false] at h; exact ih _ _ _ h
    · simp only [hlr, if_false, Option.some.injEq, Prod.mk.injEq, true_and] at h
      exact h.symm

theorem simdTail_false_pos (lv : LabelVector) (target pos : Nat) :
    ∀ (left searched p : Nat),
      LabelVector.simdSearch.tail lv target pos left searched = some (false, p) → p = pos := by
  intro left
  induction left with
  | zero =>
    intro searched p h
    simp only [LabelVector.simdSearch.tail, Option.some.injEq, Prod.mk.injEq, true_and] at h
    exact h.symm
  | succ n ih =>
    intro searched p h
    rw [LabelVector.simdSearch.tail] at h
    by_cases hc : pos + searched < lv.num_bytes_
    · simp only [check, hc, decide_True, if_true, Option.bind_eq_bind, Option.some_bind] at h
      cases hr : lv.read (pos + searched) with
      | none => simp [hr] at h
      | some l =>
        simp only [hr, Option.some_bind] at h
        by_cases ht : (l == target) = true
        · simp [ht] at h
        · simp only [ht, Bool.false_eq_true, if_false] at h
          exact ih _ _ h
    · simp [check, hc] at h

theorem simdBlocks_false_pos (lv : LabelVector) (target pos : Nat) :
    ∀ (fuel searched left p : Nat),
      LabelVector.simdSearch.blocks lv target pos fuel searched left = some (false, p) →
      p = pos := by
  intro fuel
  induction fuel with
  | zero => intro s l p h; simp [LabelVector.simdSearch.blocks] at h
  | succ fuel ih =>
    intro s l p h
    rw [LabelVector.simdSearch.blocks] at h
    by_cases hc : ((l >>> 4) > 0 && pos + s + 15 < lv.num_bytes_) = true
    · simp only [hc, if_true, Option.bind_eq_bind] at h
      cases hk : check (decide (lv.num_bytes_ - (pos + s) ≥ 16)) with
      | none => simp [hk] at h
      | some u =>
        simp only [hk, Option.some_bind] at h
        cases hl : LabelVector.simdLanes lv target (pos + s) 16 0 with
        | none => simp [hl] at h
        | some o =>
          simp only [hl, Option.some_bind] at h
          cases o with
          | none => exact ih _ _ _ h
          | some i => simp at h
    · simp only [hc, Bool.false_eq_true, if_false] at h
      exact simdTail_false_pos lv target pos _ _ _ h

theorem linearGT_false_pos (lv : LabelVector) (target pos : Nat) :
    ∀ (n i p : Nat), LabelVector.linearSearchGreaterThan.go lv target pos n i = some (false, p) →
      p = pos := by
  intro n
  induction n with
  | zero =>
    intro i p h
    simp only [LabelVector.linearSearchGreaterThan.go, Option.some.injEq, Prod.mk.injEq,
      true_and] at h
    exact h.symm
  | succ n ih =>
    intro i p h
    rw [LabelVector.linearSearchGreaterThan.go] at h
    cases hr : lv.read (pos + i) with
    | none => simp [hr] at h
    | some l =>
      simp only [hr, Option.bind_eq_bind, Option.some_bind] at h
      by_cases ht : l > target
      · simp [ht] at h
      · simp only [ht, if_false] at h
        exact ih _ _ h

theorem binaryGT_false_pos (lv : LabelVector) (target pos len : Nat) :
    ∀ (fuel l r p : Nat),
      LabelVector.binarySearchGreaterThan.go lv target pos len fuel l r = some (false, p) →
      p = pos := by
  intro fuel
  induction fuel with
  | zero => intro l r p h; simp [LabelVector.binarySearchGreaterThan.go] at h
  | succ fuel ih =>
    intro l r p h
    rw [LabelVector.binarySearchGreaterThan.go] at h
    by_cases hlr : l < r
    · simp only [hlr, if_true] at h
      cases hr : lv.read ((l + r) >>> 1) with
      | none => simp [hr] at h
      | some x =>
        simp only [hr, Option.bind_eq_bind, Option.some_bind] at h
        by_cases h1 : target < x
        · simp only [h1, if_true] at h; exact ih _ _ _ h
        · simp only [h1, if_false] at h
          by_cases h2 : (target == x) = true
          · simp only [h2, if_true] at h
            by_cases h3 : (l + r) >>> 1 < pos + len - 1
            · simp [h3] at h
            · simp only [h3, if_false, Option.some.injEq, Prod.mk.injEq, true_and] at h
              exact h.symm
          · simp only [h2, Bool.false_eq_true, if_false] at h; exact ih _ _ _ h
    · simp only [hlr, if_false] at h
      by_cases h3 : l < pos + len
      · simp [h3] at h
      · simp only [h3, if_false, Option.some.injEq, Prod.mk.injEq, true_and] at h
        exact h.symm

/-- The start of the range after the first statement of `search`: the position `pos`, or
`pos + 1` when a leading terminator was skipped. -/
theorem skipTerminator_cases (lv : LabelVector) (pos len p l : Nat)
    (h : lv.skipTerminator pos len = some (p, l)) :
    (p = pos ∧ l = len) ∨
      (p = pos + 1 ∧ l = len - 1 ∧ 1 < len ∧ lv.read pos = some kTerminator) := by
  rw [LabelVector.skipTerminator] at h
  by_cases h1 : len > 1
  · simp only [h1, if_true] at h
    cases hr : lv.read pos with
    | none => simp [hr] at h
    | some x =>
      simp only [hr, Option.bind_eq_bind, Option.some_bind] at h
      by_cases hx : (x == kTerminator) = true
      · simp only [hx, if_true, Option.some.injEq, Prod.mk.injEq] at h
        right
        have hx2 : x = kTerminator := by simpa using hx
        exact ⟨h.1.symm, h.2.symm, h1, by rw [hx2]⟩
      · simp only [hx, Bool.false_eq_true, if_false, Option.some.injEq, Prod.mk.injEq] at h
        left; exact ⟨h.1.symm, h.2.symm⟩
  · simp only [h1, if_false, Option.some.injEq, Prod.mk.injEq] at h
    left; exact ⟨h.1.symm, h.2.symm⟩

/-- A failed `search` leaves in `pos` the start of the range after the skip. -/
theorem search_false_pos (lv : LabelVector) (target pos len p : Nat)
    (h : lv.search target pos len = some (false, p)) :
    ∃ l, lv.skipTerminator pos len = some (p, l) := by
  rw [LabelVector.search] at h
  cases hs : lv.skipTerminator pos len with
  | none => simp [hs] at h
  | some r =>
    obtain ⟨p1, l1⟩ := r
    simp only [hs, Option.bind_eq_bind, Option.some_bind] at h
    refine ⟨l1, ?_⟩
    have : p = p1 := by
      by_cases h3 : l1 < 3
      · simp only [h3, if_true] at h
        exact linearSearch_false_pos lv target p1 _ _ _ h
      · simp only [h3, if_false] at h
        by_cases h12 : l1 < 12
        · simp only [h12, if_true] at h
          exact binarySearch_false_pos lv target p1 _ _ _ _ h
        · simp only [h12, if_false] at h
          exact simdBlocks_false_pos lv target p1 _ _ _ _ h
    rw [this]

/-- A failed `searchGreaterThan` leaves in `pos` the start of the range after the skip. -/
theorem searchGT_false_pos (lv : LabelVector) (target pos len p : Nat)
    (h : lv.searchGreaterThan target pos len = some (false, p)) :
    ∃ l, lv.skipTerminator pos len = some (p, l) := by
  rw [LabelVector.searchGreaterThan] at h
  cases hs : lv.skipTerminator pos len with
  | none => simp [hs] at h
  | some r =>
    obtain ⟨p1, l1⟩ := r
    simp only [hs, Option.bind_eq_bind, Option.some_bind] at h
    refine ⟨l1, ?_⟩
    have : p = p1 := by
      by_cases h3 : l1 < 3
      · simp only [h3, if_true] at h
        exact linearGT_false_pos lv target p1 _ _ _ h
      · simp only [h3, if_false] at h
        exact binaryGT_false_pos lv target p1 l1 _ _ _ _ h
    rw [this]

end FST

namespace FST

/-! ## `uint32ToString` -/

theorem toBytes_four (x : Nat) :
    toBytes 4 x = [x % 256, x / 256 % 256, x / 65536 % 256, x / 16777216 % 256] := by
  simp [toBytes, List.range, List.range.loop]

theorem digits_of (d0 d1 d2 d3 : Nat) (h0 : d0 < 256) (h1 : d1 < 256) (h2 : d2 < 256)
    (h3 : d3 < 256) :
    (d0 * 16777216 + d1 * 65536 + d2 * 256 + d3) % 256 = d3 ∧
    (d0 * 16777216 + d1 * 65536 + d2 * 256 + d3) / 256 % 256 = d2 ∧
    (d0 * 16777216 + d1 * 65536 + d2 * 256 + d3) / 65536 % 256 = d1 ∧
    (d0 * 16777216 + d1 * 65536 + d2 * 256 + d3) / 16777216 % 256 = d0 := by
  refine ⟨?_, ?_, ?_, ?_⟩ <;> omega

/-- The string of a 32-bit word: its four bytes, most significant first. -/
theorem uint32ToString_eq (w : Nat) (hw : w < 2 ^ 32) :
    uint32ToString w = [w / 2 ^ 24 % 256, w / 2 ^ 16 % 256, w / 2 ^ 8 % 256, w % 256] := by
  have e : w % 2 ^ 32 = w := Nat.mod_eq_of_lt hw
  rw [uint32ToString, e, toBytes_four, bswap32]
  obtain ⟨e0, e1, e2, e3⟩ := digits_of (w % 256) (w / 2 ^ 8 % 256) (w / 2 ^ 16 % 256)
    (w / 2 ^ 24 % 256) (Nat.mod_lt _ (by omega)) (Nat.mod_lt _ (by omega))
    (Nat.mod_lt _ (by omega)) (Nat.mod_lt _ (by omega))
  norm_num at e0 e1 e2 e3 ⊢
  exact ⟨e0, e1, e2, e3⟩

theorem strLt_four (a3 a2 a1 a0 b3 b2 b1 b0 : Nat) :
    strLt [a3, a2, a1, a0] [b3, b2, b1, b0] =
      (decide (a3 < b3) || (decide (a3 = b3) && (decide (a2 < b2) || (decide (a2 = b2) &&
        (decide (a1 < b1) || (decide (a1 = b1) && (decide (a0 < b0) || (decide (a0 = b0) &&
          false)))))))) := by
  simp [strLt]

theorem word_decomp (w : Nat) (hw : w < 4294967296) :
    w = w / 16777216 % 256 * 16777216 + w / 65536 % 256 * 65536 + w / 256 % 256 * 256
      + w % 256 := by
  omega

theorem lt_digits (a3 a2 a1 a0 b3 b2 b1 b0 : Nat) (h1 : a2 < 256) (h2 : a1 < 256)
    (h3 : a0 < 256) (h4 : b2 < 256) (h5 : b1 < 256) (h6 : b0 < 256) :
    (a3 * 16777216 + a2 * 65536 + a1 * 256 + a0 < b3 * 16777216 + b2 * 65536 + b1 * 256 + b0) ↔
      (a3 < b3 ∨ a3 = b3 ∧ (a2 < b2 ∨ a2 = b2 ∧ (a1 < b1 ∨ a1 = b1 ∧ a0 < b0))) := by
  omega

/-- The order of 32-bit words is the order of their strings. -/
theorem uint32ToString_lt (a b : Nat) (ha : a < 2 ^ 32) (hb : b < 2 ^ 32) :
    strLt (uint32ToString a) (uint32ToString b) = true ↔ a < b := by
  rw [uint32ToString_eq a ha, uint32ToString_eq b hb, strLt_four]
  simp only [Bool.and_false, Bool.or_false, Bool.or_eq_true, Bool.and_eq_true, decide_eq_true_eq]
  norm_num at ha hb ⊢
  have ea := word_decomp a ha
  have eb := word_decomp b hb
  have key := lt_digits (a / 16777216 % 256) (a / 65536 % 256) (a / 256 % 256) (a % 256)
    (b / 16777216 % 256) (b / 65536 % 256) (b / 256 % 256) (b % 256)
    (Nat.mod_lt _ (by omega)) (Nat.mod_lt _ (by omega)) (Nat.mod_lt _ (by omega))
    (Nat.mod_lt _ (by omega)) (Nat.mod_lt _ (by omega)) (Nat.mod_lt _ (by omega))
  rw [← ea, ← eb] at key
  exact key.symm

/-- The strings of strictly increasing 32-bit words are strictly increasing. -/
theorem uint32ToString_sorted (ws : List Nat) (hw : ∀ w ∈ ws, w < 2 ^ 32)
    (hs : ws.Pairwise (fun a b => a < b)) :
    (ws.map uint32ToString).Pairwise (fun a b => strLt a b = true) := by
  rw [List.pairwise_map]
  refine hs.imp_of_mem ?_
  intro a b ha hb hab
  exact (uint32ToString_lt a b (hw a ha) (hw b hb)).mpr hab

theorem uint32ToString_length (w : Nat) : (uint32ToString w).length = 4 := by
  simp [uint32ToString, toBytes]

end FST

namespace FST

/-! ## `lookupKey` reads the key up to the first terminal edge -/

/-- The loop of `lookupKey` over the list of the remaining key bytes is the loop over the
level counter, without the level in its result. -/
theorem lookupKeyLoop_eq_atLoop (t : LoudsSparse) (key : List Nat) (offset : Nat) :
    ∀ (fuel level pos : Nat), key.length ≤ level + fuel →
      t.lookupKeyLoop offset (key.drop level) pos =
        (t.lookupKeyAtLoop key key.length offset (fuel + 1) level pos).map
          (fun r => (r.1, r.2.1)) := by
  intro fuel
  induction fuel with
  | zero =>
    intro level pos h
    have hl : ¬ level < key.length := by omega
    have hd : key.drop level = [] := List.drop_eq_nil_of_le (by omega)
    rw [hd, LoudsSparse.lookupKeyLoop, LoudsSparse.lookupKeyAtLoop]
    simp [hl]
  | succ fuel ih =>
    intro level pos h
    rw [LoudsSparse.lookupKeyAtLoop]
    by_cases hl : level < key.length
    · have hd : key.drop level = key[level] :: key.drop (level + 1) :=
        List.drop_eq_getElem_cons hl
      have hg : key[level]? = some key[level] := List.getElem?_eq_getElem hl
      rw [hd, LoudsSparse.lookupKeyLoop]
      simp only [hl, if_true, hg, Option.bind_eq_bind, Option.some_bind]
      cases h1 : t.nodeSize pos with
      | none => simp
      | some sz =>
        simp only [Option.some_bind]
        cases h2 : t.labels_.search key[level] pos sz with
        | none => simp
        | some fp =>
          obtain ⟨found, p⟩ := fp
          simp only [Option.some_bind]
          cases found with
          | false => simp
          | true =>
            simp only [Bool.not_true, Bool.false_eq_true, if_false]
            cases h3 : t.child_indicator_bits_.readBit p with
            | none => simp
            | some c =>
              simp only [Option.some_bind]
              cases c with
              | false =>
                simp only [Bool.not_false, if_true]
                cases h4 : check (decide (t.child_indicator_bits_.rank p ≤ p)) with
                | none => simp
                | some u =>
                  simp only [Option.some_bind]
                  cases h5 : t.positions_sparse_[p - t.child_indicator_bits_.rank p]? with
                  | none => simp
                  | some v => simp
              | true =>
                simp only [Bool.not_true, Bool.false_eq_true, if_false]
                cases h6 : t.getFirstLabelPos (t.getChildNodeNum p) with
                | none => simp
                | some p2 =>
                  simp only [Option.some_bind]
                  exact ih (level + 1) p2 (by omega)
    · have hd : key.drop level = [] := List.drop_eq_nil_of_le (by omega)
      rw [hd, LoudsSparse.lookupKeyLoop]
      simp [hl]

/-- The function `lookupKey` is `lookupKeyLevel` without the level. -/
theorem lookupKey_eq_level (t : LoudsSparse) (key : List Nat) (n offset : Nat) :
    t.lookupKey key n offset = (t.lookupKeyLevel key n offset).map (fun r => (r.1, r.2.1)) := by
  rw [LoudsSparse.lookupKey, LoudsSparse.lookupKeyLevel]
  cases h1 : t.getFirstLabelPos n with
  | none => simp
  | some pos =>
    simp only [Option.bind_eq_bind, Option.some_bind]
    exact lookupKeyLoop_eq_atLoop t key offset _ _ pos (by omega)

/-- The function `lookupKeyAtNode`, called for the whole key from the level `start_level_`,
is `lookupKey`. -/
theorem lookupKeyAtNode_eq (t : LoudsSparse) (key : List Nat) (n offset : Nat) :
    t.lookupKeyAtNode key key.length n offset t.start_level_ = t.lookupKey key n offset := by
  rw [lookupKey_eq_level, LoudsSparse.lookupKeyAtNode, LoudsSparse.lookupKeyLevel]
  cases h1 : t.getFirstLabelPos n with
  | none => simp
  | some pos =>
    simp only [Option.bind_eq_bind, Option.some_bind]
    cases h2 : t.lookupKeyAtLoop key key.length offset (key.length - t.start_level_ + 1)
        t.start_level_ pos with
    | none => simp
    | some r => obtain ⟨a, b, c⟩ := r; simp

/-- A run of the lookup loop that ends on a terminal edge at the level `L` is repeated by
every key that has the same bytes up to the index `L`. -/
theorem lookupKeyAtLoop_stop (t : LoudsSparse) (k : List Nat) (offset v L : Nat) :
    ∀ (fuel level pos : Nat),
      t.lookupKeyAtLoop k k.length offset fuel level pos = some (true, v, L) →
      level ≤ L ∧ L < k.length ∧
      ∀ (k2 : List Nat) (offset2 fuel2 : Nat), L < k2.length →
        (∀ i, level ≤ i → i ≤ L → k2[i]? = k[i]?) → L < level + fuel2 →
        t.lookupKeyAtLoop k2 k2.length offset2 fuel2 level pos = some (true, v, L) := by
  intro fuel
  induction fuel with
  | zero => intro level pos h; simp [LoudsSparse.lookupKeyAtLoop] at h
  | succ fuel ih =>
    intro level pos h
    rw [LoudsSparse.lookupKeyAtLoop] at h
    by_cases hl : level < k.length
    · simp only [hl, if_true, Option.bind_eq_bind] at h
      obtain ⟨c, hc, h⟩ := Option.bind_eq_some.mp h
      obtain ⟨sz, hsz, h⟩ := Option.bind_eq_some.mp h
      obtain ⟨fp, hfp, h⟩ := Option.bind_eq_some.mp h
      obtain ⟨found, p⟩ := fp
      cases found with
      | false => simp at h
      | true =>
        simp only [Bool.not_true, Bool.false_eq_true, if_false] at h
        obtain ⟨cb, hcb, h⟩ := Option.bind_eq_some.mp h
        cases cb with
        | false =>
          simp only [Bool.not_false, if_true] at h
          obtain ⟨u, hu, h⟩ := Option.bind_eq_some.mp h
          obtain ⟨v1, hv1, h⟩ := Option.bind_eq_some.mp h
          simp only [Option.some.injEq, Prod.mk.injEq, true_and] at h
          obtain ⟨e1, e2⟩ := h
          subst e1 e2
          refine ⟨Nat.le_refl _, hl, ?_⟩
          intro k2 offset2 fuel2 h2 hsame hf
          obtain ⟨f2, rfl⟩ : ∃ f2, fuel2 = f2 + 1 := ⟨fuel2 - 1, by omega⟩
          rw [LoudsSparse.lookupKeyAtLoop]
          have hc2 : k2[level]? = some c := by rw [hsame level (Nat.le_refl _) (Nat.le_refl _), hc]
          simp only [h2, if_true, hc2, Option.bind_eq_bind, Option.some_bind, hsz, hfp,
            Bool.not_true, Bool.false_eq_true, if_false, hcb, Bool.not_false, hu, hv1]
        | true =>
          simp only [Bool.not_true, Bool.false_eq_true, if_false] at h
          obtain ⟨p2, hp2, h⟩ := Option.bind_eq_some.mp h
          obtain ⟨g1, g2, g3⟩ := ih (level + 1) p2 h
          refine ⟨by omega, g2, ?_⟩
          intro k2 offset2 fuel2 h2 hsame hf
          obtain ⟨f2, rfl⟩ : ∃ f2, fuel2 = f2 + 1 := ⟨fuel2 - 1, by omega⟩
          rw [LoudsSparse.lookupKeyAtLoop]
          have hc2 : k2[level]? = some c := by rw [hsame level (Nat.le_refl _) (by omega), hc]
          have hl2 : level < k2.length := by omega
          simp only [hl2, if_true, hc2, Option.bind_eq_bind, Option.some_bind, hsz, hfp,
            Bool.not_true, Bool.false_eq_true, if_false, hcb, hp2]
          exact g3 k2 offset2 f2 h2 (fun i i1 i2 => hsame i (by omega) i2) (by omega)
    · simp [hl] at h

end FST

namespace FST

/-! ## `searchGreaterThan` on a strictly increasing range -/

theorem linearGT_gen {lv : LabelVector} {LAB : List Nat} (h : LRepr lv LAB)
    (target pos len : Nat) (hsz : pos + len ≤ LAB.length) :
    ∀ (cnt i : Nat), i + cnt = len →
      (∀ q, pos ≤ q → q < pos + i → ¬ target < LAB.getD q 0) →
      ∃ r, LabelVector.linearSearchGreaterThan.go lv target pos cnt i = some r ∧
        GTRes LAB target pos len r := by
  intro cnt
  induction cnt with
  | zero =>
    intro i hi hlow
    refine ⟨(false, pos), rfl, Or.inr ⟨rfl, ?_⟩⟩
    intro q q1 q2
    exact hlow q q1 (by omega)
  | succ n ih =>
    intro i hi hlow
    rw [LabelVector.linearSearchGreaterThan.go]
    simp only [h.read_eq, getElem?_of_lt LAB _ (show pos + i < LAB.length by omega),
      Option.bind_eq_bind, Option.some_bind]
    by_cases ht : LAB.getD (pos + i) 0 > target
    · simp only [ht, if_true]
      exact ⟨_, rfl, Or.inl ⟨rfl, by omega, by omega, ht, hlow⟩⟩
    · simp only [ht, if_false]
      apply ih (i + 1) (by omega)
      intro q q1 q2
      by_cases hq : q = pos + i
      · subst hq; exact ht
      · exact hlow q q1 (by omega)

theorem binaryGT_gen {lv : LabelVector} {LAB : List Nat} (h : LRepr lv LAB)
    (target pos len : Nat) (hsz : pos + len ≤ LAB.length) (hs : IncrOn LAB pos (pos + len)) :
    ∀ (fuel l r : Nat), r - l < fuel → pos ≤ l → l ≤ r → r ≤ pos + len →
      (∀ q, pos ≤ q → q < l → ¬ target < LAB.getD q 0) →
      (∀ q, r ≤ q → q < pos + len → target < LAB.getD q 0) →
      ∃ res, LabelVector.binarySearchGreaterThan.go lv target pos len fuel l r = some res ∧
        GTRes LAB target pos len res := by
  intro fuel
  induction fuel with
  | zero => intro l r h1; omega
  | succ fuel ih =>
    intro l r h1 h2 h3 h4 h5 h6
    simp only [LabelVector.binarySearchGreaterThan.go, h.read_eq, shr1]
    by_cases hlr : l < r
    · have hm1 : l ≤ (l + r) / 2 := by omega
      have hm2 : (l + r) / 2 < r := by omega
      simp only [hlr, if_true, getElem?_of_lt LAB _ (show (l + r) / 2 < LAB.length by omega),
        Option.bind_eq_bind, Option.some_bind]
      have hle : ∀ q, pos ≤ q → q ≤ (l + r) / 2 →
          LAB.getD q 0 ≤ LAB.getD ((l + r) / 2) 0 := by
        intro q q1 q2
        by_cases hq : q = (l + r) / 2
        · rw [hq]
        · exact Nat.le_of_lt (hs q _ q1 (by omega) (by omega))
      have hge : ∀ q, (l + r) / 2 ≤ q → q < pos + len →
          LAB.getD ((l + r) / 2) 0 ≤ LAB.getD q 0 := by
        intro q q1 q2
        by_cases hq : q = (l + r) / 2
        · rw [hq]
        · exact Nat.le_of_lt (hs _ q (by omega) (by omega) q2)
      by_cases hlt : target < LAB.getD ((l + r) / 2) 0
      · simp only [hlt, if_true]
        apply ih l ((l + r) / 2) (by omega) h2 hm1 (by omega) h5
        intro q q1 q2
        have := hge q q1 q2
        omega
      · simp only [hlt, if_false]
        by_cases heq : target = LAB.getD ((l + r) / 2) 0
        · have c2 : (target == LAB.getD ((l + r) / 2) 0) = true := by
            rw [beq_iff_eq]; exact heq
          simp only [c2, if_true]
          by_cases hlast : (l + r) / 2 < pos + len - 1
          · simp only [hlast, if_true]
            refine ⟨_, rfl, Or.inl ⟨rfl, by omega, by omega, ?_, ?_⟩⟩
            · have := hs ((l + r) / 2) ((l + r) / 2 + 1) (by omega) (by omega) (by omega)
              show target < LAB.getD ((l + r) / 2 + 1) 0
              omega
            · intro q q1 q2
              have := hle q q1 (by show q ≤ (l + r) / 2; omega)
              omega
          · simp only [hlast, if_false]
            refine ⟨_, rfl, Or.inr ⟨rfl, ?_⟩⟩
            intro q q1 q2
            have := hle q q1 (by omega)
            omega
        · have c2 : (target == LAB.getD ((l + r) / 2) 0) = false := by
            rw [beq_eq_false_iff_ne]; exact heq
          simp only [c2, Bool.false_eq_true, if_false]
          apply ih ((l + r) / 2 + 1) r (by omega) (by omega) (by omega) h4 _ h6
          intro q q1 q2
          have := hle q q1 (by omega)
          omega
    · have hlg : l = r := by omega
      subst hlg
      simp only [hlr, if_false]
      by_cases hl : l < pos + len
      · simp only [hl, if_true]
        exact ⟨_, rfl, Or.inl ⟨rfl, h2, hl, h6 l (Nat.le_refl _) hl, h5⟩⟩
      · simp only [hl, if_false]
        refine ⟨_, rfl, Or.inr ⟨rfl, ?_⟩⟩
        intro q q1 q2
        exact h5 q q1 (by omega)

theorem searchStart_ge (LAB : List Nat) (pos len : Nat) : pos ≤ searchStart LAB pos len := by
  simp only [searchStart]; split <;> omega

theorem searchStart_le (LAB : List Nat) (pos len : Nat) :
    searchStart LAB pos len ≤ pos + len := by
  simp only [searchStart]; split <;> omega

/-- The search starts behind a leading terminator of a range with more than one label. -/
theorem searchStart_skip (LAB : List Nat) (pos len : Nat) (h1 : 1 < len)
    (h2 : LAB.getD pos 0 = kTerminator) : searchStart LAB pos len = pos + 1 := by
  rw [searchStart, if_pos ⟨h1, h2⟩]

/-- A range of bytes that is strictly increasing as a whole has no leading terminator to
skip. -/
theorem searchStart_of_incr (LAB : List Nat) (pos len : Nat)
    (hb : ∀ q, pos ≤ q → q < pos + len → LAB.getD q 0 < 256)
    (hs : IncrOn LAB pos (pos + len)) : searchStart LAB pos len = pos := by
  simp only [searchStart]
  split
  · rename_i hc
    have h1 := hs pos (pos + 1) (Nat.le_refl _) (by omega) (by omega)
    have h2 := hb (pos + 1) (by omega) (by omega)
    rw [hc.2] at h1
    simp only [kTerminator] at h1
    omega
  · rfl

/-- The function `searchGreaterThan` on a range whose labels behind the skipped terminator
are strictly increasing. -/
theorem searchGT_gen {lv : LabelVector} {LAB : List Nat} (h : LRepr lv LAB)
    (target pos len : Nat) (hin : pos + len ≤ LAB.length)
    (hs : IncrOn LAB (searchStart LAB pos len) (pos + len)) :
    ∃ r, lv.searchGreaterThan target pos len = some r ∧
      GTRes LAB target (searchStart LAB pos len) (pos + len - searchStart LAB pos len) r := by
  have hpre := skipTerminator_eq h pos len hin
  have hsp := searchStart_ge LAB pos len
  have hsl := searchStart_le LAB pos len
  generalize searchStart LAB pos len = s at hpre hs hsp hsl
  generalize hn : pos + len - s = n at hpre
  have hsn : s + n = pos + len := by omega
  rw [← hsn] at hs
  simp only [LabelVector.searchGreaterThan, Option.bind_eq_bind, hpre, Option.some_bind]
  by_cases h3 : n < 3
  · simp only [h3, if_true, LabelVector.linearSearchGreaterThan]
    exact linearGT_gen h target s n (by omega) n 0 (by omega) (by intro q q1 q2; omega)
  · simp only [h3, if_false, LabelVector.binarySearchGreaterThan]
    exact binaryGT_gen h target s n (by omega) hs (n + 1) s (s + n) (by omega)
      (Nat.le_refl _) (by omega) (Nat.le_refl _) (by intro q q1 q2; omega)
      (by intro q q1 q2; omega)

end FST

namespace FST

/-! ## The serialized label vector -/

theorem mask_testBit (i : Nat) :
    (0xFFFFFFF8 : Nat).testBit i = (decide (3 ≤ i) && decide (i < 32)) := by
  by_cases h : i < 32
  · interval_cases i <;> decide
  · have : (0xFFFFFFF8 : Nat) < 2 ^ i :=
      Nat.lt_of_lt_of_le (by norm_num) (Nat.pow_le_pow_right (by norm_num) (Nat.le_of_not_lt h))
    rw [Nat.testBit_lt_two_pow this]
    simp [h]

/-- Clearing the low three bits of a 32-bit word rounds it down to a multiple of 8. -/
theorem and_mask8 (x : Nat) (hx : x < 2 ^ 32) : x &&& 0xFFFFFFF8 = x / 8 * 8 := by
  apply Nat.eq_of_testBit_eq
  intro i
  rw [Nat.testBit_and, mask_testBit]
  have e : x / 8 * 8 = (x >>> 3) <<< 3 := by
    rw [Nat.shiftRight_eq_div_pow, Nat.shiftLeft_eq]
  rw [e, Nat.testBit_shiftLeft, Nat.testBit_shiftRight]
  by_cases h3 : 3 ≤ i
  · have e2 : 3 + (i - 3) = i := by omega
    rw [e2]
    by_cases h32 : i < 32
    · simp [h3, h32]
    · have : x < 2 ^ i :=
        Nat.lt_of_lt_of_le hx (Nat.pow_le_pow_right (by norm_num) (Nat.le_of_not_lt h32))
      rw [Nat.testBit_lt_two_pow this]
      simp
  · simp [h3]

/-- Without 32-bit overflow `sizeAlign` gives the next multiple of 8, as `align` does for an
offset. -/
theorem sizeAlign_eq (size : Nat) (h : size + 7 < 2 ^ 32) : sizeAlign size = alignOffset size := by
  rw [sizeAlign, Nat.mod_eq_of_lt h, and_mask8 _ h, alignOffset]

theorem alignOffset_ge (p : Nat) : p ≤ alignOffset p := by
  simp only [alignOffset]; omega

theorem alignOffset_mod (p : Nat) : alignOffset p % 8 = 0 := by
  simp only [alignOffset]; omega

theorem alignOffset_least (p m : Nat) (hm : m % 8 = 0) (hp : p ≤ m) : alignOffset p ≤ m := by
  simp only [alignOffset]; omega

theorem alignOffset_add (p q : Nat) (hp : p % 8 = 0) :
    alignOffset (p + q) = p + alignOffset q := by
  simp only [alignOffset]; omega

theorem alignBuffer_length (dst : List Nat) : (alignBuffer dst).length = alignOffset dst.length := by
  have := alignOffset_ge dst.length
  simp only [alignBuffer, List.length_append, List.length_replicate]
  omega

theorem toBytes_length (n x : Nat) : (toBytes n x).length = n := by
  simp [toBytes]

/-- Reading back the four bytes of a 32-bit word. -/
theorem fromBytes_toBytes (pre rest : List Nat) (x : Nat) (hx : x < 2 ^ 32) :
    fromBytes (pre ++ toBytes 4 x ++ rest) pre.length 4 = some x := by
  have hlen : pre.length + 4 ≤ (pre ++ toBytes 4 x ++ rest).length := by
    simp only [List.length_append, toBytes_length]; omega
  rw [fromBytes, if_pos hlen]
  congr 1
  rw [List.append_assoc, List.drop_left, toBytes_four]
  simp only [List.cons_append, List.nil_append, List.take_succ_cons, List.take_zero,
    List.foldr_cons, List.foldr_nil]
  norm_num at hx
  omega

/-- The bytes `serialize` writes behind `dst`: the length, the labels, the last byte of the
array, and the padding up to the next multiple of 8. -/
theorem LabelVector.serialize_eq (lv : LabelVector) (dst : List Nat)
    (hl : lv.labels_.length = lv.num_bytes_ - 1) :
    lv.serialize dst = dst ++ toBytes 4 lv.num_bytes_ ++ lv.labels_
      ++ List.replicate (lv.num_bytes_ - lv.labels_.length) 0
      ++ List.replicate (alignOffset (dst.length + 4 + lv.num_bytes_)
          - (dst.length + 4 + lv.num_bytes_)) 0 := by
  rw [LabelVector.serialize, alignBuffer]
  simp only [List.length_append, toBytes_length, List.length_replicate]
  have e2 : dst.length + 4 + lv.labels_.length + (lv.num_bytes_ - lv.labels_.length)
      = dst.length + 4 + lv.num_bytes_ := by omega
  rw [e2]

theorem LabelVector.serialize_length (lv : LabelVector) (dst : List Nat)
    (hl : lv.labels_.length = lv.num_bytes_ - 1) :
    (lv.serialize dst).length = alignOffset (dst.length + 4 + lv.num_bytes_) := by
  have := alignOffset_ge (dst.length + 4 + lv.num_bytes_)
  rw [lv.serialize_eq dst hl]
  simp only [List.length_append, toBytes_length, List.length_replicate]
  omega

/-- The method `deSerialize` reads back what `serialize` wrote behind `dst`. -/
theorem LabelVector.deSerialize_serialize (lv : LabelVector) (dst rest : List Nat)
    (hl : lv.labels_.length = lv.num_bytes_ - 1) (hn : lv.num_bytes_ < 2 ^ 32) :
    LabelVector.deSerialize (lv.serialize dst ++ rest) dst.length
      = some (lv, alignOffset (dst.length + 4 + lv.num_bytes_)) := by
  rw [lv.serialize_eq dst hl]
  have hf : fromBytes (dst ++ toBytes 4 lv.num_bytes_ ++ lv.labels_
      ++ List.replicate (lv.num_bytes_ - lv.labels_.length) 0
      ++ List.replicate (alignOffset (dst.length + 4 + lv.num_bytes_)
          - (dst.length + 4 + lv.num_bytes_)) 0 ++ rest) dst.length 4 = some lv.num_bytes_ := by
    have := fromBytes_toBytes dst (lv.labels_
      ++ List.replicate (lv.num_bytes_ - lv.labels_.length) 0
      ++ List.replicate (alignOffset (dst.length + 4 + lv.num_bytes_)
          - (dst.length + 4 + lv.num_bytes_)) 0 ++ rest) lv.num_bytes_ hn
    simpa only [List.append_assoc] using this
  rw [LabelVector.deSerialize]
  simp only [hf, Option.bind_eq_bind, Option.some_bind, Option.some.injEq, Prod.mk.injEq,
    and_true]
  have hd : (dst ++ toBytes 4 lv.num_bytes_ ++ lv.labels_
      ++ List.replicate (lv.num_bytes_ - lv.labels_.length) 0
      ++ List.replicate (alignOffset (dst.length + 4 + lv.num_bytes_)
          - (dst.length + 4 + lv.num_bytes_)) 0 ++ rest).drop (dst.length + 4)
      = lv.labels_ ++ (List.replicate (lv.num_bytes_ - lv.labels_.length) 0
        ++ List.replicate (alignOffset (dst.length + 4 + lv.num_bytes_)
          - (dst.length + 4 + lv.num_bytes_)) 0 ++ rest) := by
    have e : dst.length + 4 = (dst ++ toBytes 4 lv.num_bytes_).length := by
      simp only [List.length_append, toBytes_length]
    rw [e]
    simp only [List.append_assoc]
    rw [← List.append_assoc dst, List.drop_left]
  rw [hd, ← hl, List.take_left]

end FST

namespace FST

/-! ## The reads of `simdSearch` -/

theorem SimdSafe.mono {num_bytes lo hi lo2 : Nat} {acc acc2 : List Access} {a : Access}
    (h : SimdSafe num_bytes lo2 hi acc2 a) (hlo : lo ≤ lo2)
    (hacc : ∀ x ∈ acc2, SimdSafe num_bytes lo hi acc x) : SimdSafe num_bytes lo hi acc a := by
  rcases h with h | ⟨s, h1, h2, h3, h4⟩ | ⟨i, h1, h2, h3, h4⟩
  · exact hacc a h
  · exact Or.inr (Or.inl ⟨s, h1, h2, by omega, h4⟩)
  · exact Or.inr (Or.inr ⟨i, h1, h2, by omega, h4⟩)

theorem simdRunTail_safe (mem : Nat → Nat) (num_bytes target pos : Nat) :
    ∀ (left searched : Nat) (acc : List Access), pos + searched + left ≤ 2 ^ 32 →
      (∀ a ∈ (LabelVector.simdRunTail mem num_bytes target pos left searched acc).accesses,
        SimdSafe num_bytes (pos + searched) (pos + searched + left) acc a) ∧
      (pos + searched + left ≤ num_bytes →
        (LabelVector.simdRunTail mem num_bytes target pos left searched acc).result ≠ none) := by
  intro left
  induction left with
  | zero =>
    intro searched acc _
    simp only [LabelVector.simdRunTail]
    exact ⟨fun a ha => Or.inl ha, fun _ => by simp⟩
  | succ n ih =>
    intro searched acc hw
    have hidx : (pos + searched) % 2 ^ 32 = pos + searched := Nat.mod_eq_of_lt (by omega)
    simp only [LabelVector.simdRunTail, hidx]
    by_cases hc : pos + searched < num_bytes
    · simp only [hc, if_true]
      have hnew : SimdSafe num_bytes (pos + searched) (pos + searched + (n + 1)) acc
          (Access.byte (pos + searched)) :=
        Or.inr (Or.inr ⟨_, rfl, hc, Nat.le_refl _, by omega⟩)
      by_cases ht : (mem (pos + searched) == target) = true
      · simp only [ht, if_true]
        refine ⟨?_, fun _ => by simp⟩
        intro a ha
        rcases List.mem_append.mp ha with h1 | h1
        · exact Or.inl h1
        · rw [List.mem_singleton.mp h1]; exact hnew
      · simp only [ht, Bool.false_eq_true, if_false]
        obtain ⟨i1, i2⟩ := ih (searched + 1) (acc ++ [Access.byte (pos + searched)]) (by omega)
        have e : pos + (searched + 1) + n = pos + searched + (n + 1) := by omega
        rw [e] at i1 i2
        refine ⟨?_, i2⟩
        intro a ha
        refine (i1 a ha).mono (by omega) ?_
        intro x hx
        rcases List.mem_append.mp hx with h1 | h1
        · exact Or.inl h1
        · rw [List.mem_singleton.mp h1]; exact hnew
    · simp only [hc, if_false]
      exact ⟨fun a ha => Or.inl ha, fun h => absurd (show pos + searched < num_bytes by omega) hc⟩

theorem simdRunBlocks_safe (mem : Nat → Nat) (num_bytes target pos : Nat)
    (hnb : num_bytes < 2 ^ 32) :
    ∀ (fuel searched left : Nat) (acc : List Access), left < fuel →
      pos + searched + left ≤ 2 ^ 32 →
      (∀ a ∈ (LabelVector.simdRunBlocks mem num_bytes target pos fuel searched left acc).accesses,
        SimdSafe num_bytes (pos + searched) (pos + searched + left) acc a) ∧
      (pos + searched + left ≤ num_bytes →
        (LabelVector.simdRunBlocks mem num_bytes target pos fuel searched left acc).result
          ≠ none) := by
  intro fuel
  induction fuel with
  | zero => intro searched left acc h; omega
  | succ fuel ih =>
    intro searched left acc hf hw
    rw [LabelVector.simdRunBlocks]
    by_cases hg : (left >>> 4) > 0 ∧ (pos + searched + 15) % 2 ^ 32 < num_bytes
    · have h16 : 16 ≤ left := by
        have := hg.1
        rw [Nat.shiftRight_eq_div_pow] at this
        omega
      have hmod : (pos + searched + 15) % 2 ^ 32 = pos + searched + 15 :=
        Nat.mod_eq_of_lt (by omega)
      have hs : pos + searched + 15 < num_bytes := by rw [← hmod]; exact hg.2
      have hassert : (num_bytes + 2 ^ 64 - (pos + searched)) % 2 ^ 64 ≥ 16 := by
        have e : num_bytes + 2 ^ 64 - (pos + searched) = (num_bytes - (pos + searched)) + 2 ^ 64 := by
          omega
        rw [e, Nat.add_mod_right, Nat.mod_eq_of_lt (by omega)]
        omega
      simp only [hg, and_self, if_true, hassert]
      have hnew : SimdSafe num_bytes (pos + searched) (pos + searched + left) acc
          (Access.block (pos + searched)) :=
        Or.inr (Or.inl ⟨_, rfl, hs, Nat.le_refl _, by omega⟩)
      cases hl : LabelVector.simdFirstLane mem target (pos + searched) 16 0 with
      | some i =>
        simp only
        refine ⟨?_, fun _ => by simp⟩
        intro a ha
        rcases List.mem_append.mp ha with h1 | h1
        · exact Or.inl h1
        · rw [List.mem_singleton.mp h1]; exact hnew
      | none =>
        simp only
        obtain ⟨i1, i2⟩ := ih (searched + 16) (left - 16) (acc ++ [Access.block (pos + searched)])
          (by omega) (by omega)
        have e : pos + (searched + 16) + (left - 16) = pos + searched + left := by omega
        rw [e] at i1 i2
        refine ⟨?_, i2⟩
        intro a ha
        refine (i1 a ha).mono (by omega) ?_
        intro x hx
        rcases List.mem_append.mp hx with h1 | h1
        · exact Or.inl h1
        · rw [List.mem_singleton.mp h1]; exact hnew
    · simp only [hg, if_false]
      exact simdRunTail_safe mem num_bytes target pos left searched acc hw

/-- The reads of `simdSearch` on a range whose end does not wrap around `2 ^ 32`. -/
theorem simdSearchRun_safe (mem : Nat → Nat) (num_bytes target pos len : Nat)
    (hnb : num_bytes < 2 ^ 32) (hw : pos + len ≤ 2 ^ 32) :
    (∀ s, Access.block s ∈ (LabelVector.simdSearchRun mem num_bytes target pos len).accesses →
      s + 15 < num_bytes ∧ pos ≤ s ∧ s + 16 ≤ pos + len) ∧
    (∀ i, Access.byte i ∈ (LabelVector.simdSearchRun mem num_bytes target pos len).accesses →
      i < num_bytes ∧ pos ≤ i ∧ i < pos + len) ∧
    (pos + len ≤ num_bytes →
      (LabelVector.simdSearchRun mem num_bytes target pos len).result ≠ none) := by
  obtain ⟨h1, h2⟩ := simdRunBlocks_safe mem num_bytes target pos hnb (len + 1) 0 len []
    (by omega) (by omega)
  refine ⟨?_, ?_, h2⟩
  · intro s hs
    rcases h1 _ hs with h | ⟨s2, e, a1, a2, a3⟩ | ⟨i, e, _⟩
    · simp at h
    · cases e; exact ⟨a1, a2, a3⟩
    · cases e
  · intro i hi
    rcases h1 _ hi with h | ⟨s2, e, _⟩ | ⟨i2, e, a1, a2, a3⟩
    · simp at h
    · cases e
    · cases e; exact ⟨a1, a2, a3⟩

end FST

namespace FST

/-! ## The run of `simdSearch` with its reads returns what `simdSearch` returns -/

theorem simdFirstLane_lt (mem : Nat → Nat) (target start : Nat) :
    ∀ (n i j : Nat), LabelVector.simdFirstLane mem target start n i = some j →
      i ≤ j ∧ j < i + n := by
  intro n
  induction n with
  | zero => intro i j h; simp [LabelVector.simdFirstLane] at h
  | succ n ih =>
    intro i j h
    rw [LabelVector.simdFirstLane] at h
    by_cases ht : (mem (start + i) == target) = true
    · simp only [ht, if_true, Option.some.injEq] at h
      omega
    · simp only [ht, Bool.false_eq_true, if_false] at h
      have := ih _ _ h
      omega

theorem simdLanes_eq {lv : LabelVector} {LAB : List Nat} (h : LRepr lv LAB)
    (target start : Nat) :
    ∀ (n i : Nat), start + i + n ≤ LAB.length →
      LabelVector.simdLanes lv target start n i =
        some (LabelVector.simdFirstLane (fun q => LAB.getD q 0) target start n i) := by
  intro n
  induction n with
  | zero => intro i _; rfl
  | succ n ih =>
    intro i hi
    rw [LabelVector.simdLanes, LabelVector.simdFirstLane]
    simp only [h.read_eq, getElem?_of_lt LAB _ (show start + i < LAB.length by omega),
      Option.bind_eq_bind, Option.some_bind]
    by_cases ht : (LAB.getD (start + i) 0 == target) = true
    · simp only [ht, if_true]
    · simp only [ht, Bool.false_eq_true, if_false]
      exact ih (i + 1) (by omega)

theorem simdRunTail_result {lv : LabelVector} {LAB : List Nat} (h : LRepr lv LAB)
    (target pos : Nat) (hnb : lv.num_bytes_ < 2 ^ 32) :
    ∀ (left searched : Nat) (acc : List Access), pos + searched + left ≤ LAB.length →
      (LabelVector.simdRunTail (fun q => LAB.getD q 0) lv.num_bytes_ target pos left searched
        acc).result = LabelVector.simdSearch.tail lv target pos left searched := by
  intro left
  induction left with
  | zero => intro searched acc _; rfl
  | succ n ih =>
    intro searched acc hi
    have hb := h.nbytes
    have hidx : (pos + searched) % 2 ^ 32 = pos + searched := Nat.mod_eq_of_lt (by omega)
    have hc : pos + searched < lv.num_bytes_ := by omega
    rw [LabelVector.simdRunTail, LabelVector.simdSearch.tail]
    simp only [hidx, hc, if_true, check, decide_True, Option.bind_eq_bind, Option.some_bind,
      h.read_eq, getElem?_of_lt LAB _ (show pos + searched < LAB.length by omega)]
    by_cases ht : (LAB.getD (pos + searched) 0 == target) = true
    · simp only [ht, if_true]
    · simp only [ht, Bool.false_eq_true, if_false]
      exact ih (searched + 1) _ (by omega)

theorem simdRunBlocks_result {lv : LabelVector} {LAB : List Nat} (h : LRepr lv LAB)
    (target pos : Nat) (hnb : lv.num_bytes_ < 2 ^ 32) :
    ∀ (fuel searched left : Nat) (acc : List Access), pos + searched + left ≤ LAB.length →
      (LabelVector.simdRunBlocks (fun q => LAB.getD q 0) lv.num_bytes_ target pos fuel searched
        left acc).result = LabelVector.simdSearch.blocks lv target pos fuel searched left := by
  intro fuel
  induction fuel with
  | zero => intro searched left acc _; rfl
  | succ fuel ih =>
    intro searched left acc hi
    have hb := h.nbytes
    rw [LabelVector.simdRunBlocks, LabelVector.simdSearch.blocks]
    by_cases h16 : 16 ≤ left
    · have hsh : (left >>> 4) > 0 := by
        rw [Nat.shiftRight_eq_div_pow]
        exact Nat.div_pos h16 (by norm_num)
      have hmod : (pos + searched + 15) % 2 ^ 32 = pos + searched + 15 :=
        Nat.mod_eq_of_lt (by omega)
      have hs : pos + searched + 15 < lv.num_bytes_ := by omega
      have hg : (left >>> 4) > 0 ∧ (pos + searched + 15) % 2 ^ 32 < lv.num_bytes_ :=
        ⟨hsh, by rw [hmod]; exact hs⟩
      have hg2 : ((left >>> 4) > 0 && pos + searched + 15 < lv.num_bytes_) = true := by
        simp only [Bool.and_eq_true, decide_eq_true_eq]; exact ⟨hsh, hs⟩
      have hassert : (lv.num_bytes_ + 2 ^ 64 - (pos + searched)) % 2 ^ 64 ≥ 16 := by
        have e : lv.num_bytes_ + 2 ^ 64 - (pos + searched)
            = (lv.num_bytes_ - (pos + searched)) + 2 ^ 64 := by omega
        rw [e, Nat.add_mod_right, Nat.mod_eq_of_lt (by omega)]
        omega
      have hck : check (decide (lv.num_bytes_ - (pos + searched) ≥ 16)) = some () := by
        have : lv.num_bytes_ - (pos + searched) ≥ 16 := by omega
        simp only [check, this, decide_True, if_true]
      rw [if_pos hg, if_pos hassert, if_pos hg2, hck,
        simdLanes_eq h target (pos + searched) 16 0 (by omega)]
      simp only [Option.bind_eq_bind, Option.some_bind]
      cases hl : LabelVector.simdFirstLane (fun q => LAB.getD q 0) target (pos + searched) 16 0 with
      | some i =>
        have := simdFirstLane_lt _ _ _ _ _ _ hl
        have hm : (pos + (searched + i)) % 2 ^ 32 = pos + (searched + i) :=
          Nat.mod_eq_of_lt (by omega)
        simp only [hm]
      | none =>
        simp only
        exact ih (searched + 16) (left - 16) _ (by omega)
    · have hsh : ¬ (left >>> 4) > 0 := by
        rw [Nat.shiftRight_eq_div_pow]
        have : left / 2 ^ 4 = 0 := Nat.div_eq_of_lt (by omega)
        omega
      have hg : ¬ ((left >>> 4) > 0 ∧ (pos + searched + 15) % 2 ^ 32 < lv.num_bytes_) :=
        fun hc => hsh hc.1
      have hg2 : ¬ ((left >>> 4) > 0 && pos + searched + 15 < lv.num_bytes_) = true := by
        intro hc
        simp only [Bool.and_eq_true, decide_eq_true_eq] at hc
        exact hsh hc.1
      rw [if_neg hg, if_neg hg2]
      exact simdRunTail_result h target pos hnb left searched acc hi

/-- On a range inside the labels, the run of `simdSearch` with its reads returns what the
function `simdSearch` returns. -/
theorem simdSearchRun_result {lv : LabelVector} {LAB : List Nat} (h : LRepr lv LAB)
    (target pos len : Nat) (hnb : lv.num_bytes_ < 2 ^ 32) (hin : pos + len ≤ LAB.length) :
    (LabelVector.simdSearchRun (fun q => LAB.getD q 0) lv.num_bytes_ target pos len).result
      = lv.simdSearch target pos len :=
  simdRunBlocks_result h target pos hnb (len + 1) 0 len [] (by omega)

end FST

namespace FST

/-! ## The range of the cutoff level -/

theorem cutoffLoop_ge (b : FSTBuilder) :
    ∀ (fuel c d s r : Nat), b.cutoffLoop fuel c d s = some r → c ≤ r := by
  intro fuel
  induction fuel with
  | zero => intro c d s r h; simp [FSTBuilder.cutoffLoop] at h
  | succ fuel ih =>
    intro c d s r h
    rw [FSTBuilder.cutoffLoop] at h
    by_cases hcond : (decide (c < b.getTreeHeight) &&
        decide (d * b.sparse_dense_ratio_ % 2 ^ 64 < s)) = true
    · rw [if_pos hcond] at h
      simp only [Option.bind_eq_bind] at h
      obtain ⟨d1, _, h⟩ := Option.bind_eq_some.mp h
      obtain ⟨s1, _, h⟩ := Option.bind_eq_some.mp h
      have := ih _ _ _ _ h
      omega
    · rw [if_neg hcond] at h
      simp only [Option.some.injEq] at h
      omega

theorem cutoffLoop_le (b : FSTBuilder) :
    ∀ (fuel c d s r : Nat), b.cutoffLoop fuel c d s = some r → c ≤ b.getTreeHeight →
      r ≤ b.getTreeHeight := by
  intro fuel
  induction fuel with
  | zero => intro c d s r h; simp [FSTBuilder.cutoffLoop] at h
  | succ fuel ih =>
    intro c d s r h hc
    rw [FSTBuilder.cutoffLoop] at h
    by_cases hcond : (decide (c < b.getTreeHeight) &&
        decide (d * b.sparse_dense_ratio_ % 2 ^ 64 < s)) = true
    · rw [if_pos hcond] at h
      have hlt : c < b.getTreeHeight := by
        simp only [Bool.and_eq_true, decide_eq_true_eq] at hcond; exact hcond.1
      simp only [Option.bind_eq_bind] at h
      obtain ⟨d1, _, h⟩ := Option.bind_eq_some.mp h
      obtain ⟨s1, _, h⟩ := Option.bind_eq_some.mp h
      exact ih _ _ _ _ h (by omega)
    · rw [if_neg hcond] at h
      simp only [Option.some.injEq] at h
      omega

/-- The dense tier down to level 0 is empty: its memory estimate is 0. -/
theorem computeDenseMem_zero (b : FSTBuilder) : b.computeDenseMem 0 = some 0 := by
  simp [FSTBuilder.computeDenseMem, check, forRange]

/-- The memory estimate of a sparse tier with at least one level is positive, when the
32-bit item counts do not wrap. -/
theorem computeSparseMem_pos (b : FSTBuilder) (hne : b.labels_ ≠ [])
    (hsz : ∀ l, 2 * (b.labels_.getD l []).length < 2 ^ 32) (hh : b.labels_.length < 2 ^ 32) :
    ∃ s, b.computeSparseMem 0 = some s ∧ 0 < s := by
  have hpos : 0 < b.labels_.length := List.length_pos.mpr hne
  obtain ⟨s, e, hP⟩ := forRange_inv (fun level mem => do
      let l ← b.labels_[level]?
      let num_items := l.length
      some ((mem + (num_items + (2 * num_items) % 2 ^ 32 / 8 + 1) % 2 ^ 32) % 2 ^ 64))
    (fun level mem => mem ≤ level * 2 ^ 32 ∧ (0 < level → 0 < mem))
    (b.getTreeHeight - 0) 0 0 (by
      intro x st h1 hx hP
      have hx2 : x < b.labels_.length := by
        simp only [FSTBuilder.getTreeHeight] at hx; omega
      have hg : b.labels_[x]? = some (b.labels_.getD x []) := by
        rw [List.getD_eq_getElem?_getD, List.getElem?_eq_getElem hx2]; rfl
      have hs := hsz x
      simp only [hg, Option.bind_eq_bind, Option.some_bind]
      refine ⟨_, rfl, ?_⟩
      generalize (b.labels_.getD x []).length = n at hs
      have e1 : (n + 2 * n % 2 ^ 32 / 8 + 1) % 2 ^ 32 = n + 2 * n / 8 + 1 := by
        rw [Nat.mod_eq_of_lt hs, Nat.mod_eq_of_lt (by omega)]
      rw [e1]
      have hb : st + (n + 2 * n / 8 + 1) < 2 ^ 64 := by
        have h2 : (x + 1) * 2 ^ 32 ≤ 2 ^ 32 * 2 ^ 32 := Nat.mul_le_mul_right _ (by omega)
        have h3 : n + 2 * n / 8 + 1 < 2 ^ 32 := by omega
        have h4 : (x + 1) * 2 ^ 32 = x * 2 ^ 32 + 2 ^ 32 := by ring
        have h5 : (2 : Nat) ^ 32 * 2 ^ 32 = 2 ^ 64 := by norm_num
        omega
      rw [Nat.mod_eq_of_lt hb]
      have h4 : (x + 1) * 2 ^ 32 = x * 2 ^ 32 + 2 ^ 32 := by ring
      exact ⟨by omega, fun _ => by omega⟩) ⟨by omega, fun h => absurd h (by omega)⟩
  refine ⟨s, ?_, hP.2 (by simp only [FSTBuilder.getTreeHeight]; omega)⟩
  rw [FSTBuilder.computeSparseMem]
  exact e

/-- The cutoff that `determineCutoffLevel` stores is the result of its loop; the labels stay
as they are. -/
theorem determineCutoffLevel_parts (b b1 : FSTBuilder) (h : b.determineCutoffLevel = some b1) :
    ∃ d s, b.computeDenseMem 0 = some d ∧ b.computeSparseMem 0 = some s ∧
      b.cutoffLoop (b.getTreeHeight + 1) 0 d s = some b1.sparse_start_level_ ∧
      b1.labels_ = b.labels_ := by
  rw [FSTBuilder.determineCutoffLevel] at h
  simp only [Option.bind_eq_bind] at h
  obtain ⟨d, hd, h⟩ := Option.bind_eq_some.mp h
  obtain ⟨s, hs, h⟩ := Option.bind_eq_some.mp h
  obtain ⟨c, hc, h⟩ := Option.bind_eq_some.mp h
  obtain ⟨vd, _, h⟩ := Option.bind_eq_some.mp h
  obtain ⟨vs, _, h⟩ := Option.bind_eq_some.mp h
  simp only [Option.some.injEq] at h
  subst h
  exact ⟨d, s, hd, hs, hc, rfl⟩

/-- The cutoff of a trie with at least one level lies between 1 and the height. -/
theorem determineCutoffLevel_range (b b1 : FSTBuilder) (hne : b.labels_ ≠ [])
    (hsz : ∀ l, 2 * (b.labels_.getD l []).length < 2 ^ 32) (hh : b.labels_.length < 2 ^ 32)
    (h : b.determineCutoffLevel = some b1) :
    1 ≤ b1.sparse_start_level_ ∧ b1.sparse_start_level_ ≤ b1.getTreeHeight := by
  obtain ⟨d, s, hd, hs, hc, hl⟩ := determineCutoffLevel_parts b b1 h
  have hH : b1.getTreeHeight = b.getTreeHeight := by
    simp only [FSTBuilder.getTreeHeight, hl]
  refine ⟨?_, by rw [hH]; exact cutoffLoop_le b _ _ _ _ _ hc (Nat.zero_le _)⟩
  obtain ⟨s0, hs0, hpos⟩ := computeSparseMem_pos b hne hsz hh
  rw [hs] at hs0
  rw [computeDenseMem_zero] at hd
  simp only [Option.some.injEq] at hs0 hd
  subst hs0 hd
  rw [FSTBuilder.cutoffLoop] at hc
  have hcond : (decide (0 < b.getTreeHeight) &&
      decide (0 * b.sparse_dense_ratio_ % 2 ^ 64 < s)) = true := by
    have : 0 < b.getTreeHeight := by
      simp only [FSTBuilder.getTreeHeight]; exact List.length_pos.mpr hne
    simp only [Nat.zero_mul, Nat.zero_mod, Bool.and_eq_true, decide_eq_true_eq]
    exact ⟨this, hpos⟩
  rw [if_pos hcond] at hc
  simp only [Option.bind_eq_bind] at hc
  obtain ⟨d1, _, hc⟩ := Option.bind_eq_some.mp hc
  obtain ⟨s1, _, hc⟩ := Option.bind_eq_some.mp hc
  exact cutoffLoop_ge b _ _ _ _ _ hc

theorem lvl_length_le (keys : List (List Nat)) (i l : Nat) : (lvl keys i l).length ≤ i := by
  have := List.length_filter_le (fun j => decide (sOf keys j ≤ l ∧ l < dOf keys j)) (List.range i)
  simpa [lvl] using this

theorem HS_le (keys : List (List Nat)) (L : Nat) (K : KeysOK keys L) :
    ∀ i, i ≤ keys.length → HS keys i ≤ L := by
  intro i
  induction i with
  | zero => intro _; simp [HS]
  | succ i ih =>
    intro hi
    have h1 := ih (by omega)
    have h2 := K.dOf_le i (by omega)
    simp only [HS]
    omega

theorem HS_pos (keys : List (List Nat)) (i : Nat) (hi : 0 < i) : 0 < HS keys i := by
  have h1 := dOf_le_HS keys i 0 hi
  have h2 := sOf_lt_dOf keys 0
  omega

/-- The sizes of the state after the sparse build: at least one and at most `L` levels,
with at most one label per key on each. -/
theorem buildSparse_sizes (d : Bool) (R : Nat) (keys : List (List Nat)) (values : List Nat)
    (L : Nat) (K : KeysOK keys L) (hv : values.length = keys.length) :
    ∃ b, (FSTBuilder.mk2 d R).buildSparse keys values = some b ∧ b.labels_ ≠ [] ∧
      b.labels_.length ≤ L ∧ ∀ l, (b.labels_.getD l []).length ≤ keys.length := by
  obtain ⟨b, hb, S⟩ := buildSparse_state_mk2 d R keys values L K hv
  obtain ⟨cw, lw, Sh, _⟩ := S
  have hn : 0 < keys.length := List.length_pos.mpr K.ne
  have hH : max (HS keys keys.length) 0 = HS keys keys.length := by omega
  have hlen := Sh.lenLab
  rw [hH] at hlen
  refine ⟨b, hb, ?_, ?_, ?_⟩
  · have := HS_pos keys keys.length hn
    intro e
    rw [e] at hlen
    simp at hlen
    omega
  · rw [hlen]; exact HS_le keys L K _ (Nat.le_refl _)
  · intro l
    have e := Sh.lab l
    simp only [labL] at e
    rw [e]
    simp only [labS, Nat.not_lt_zero, and_false, if_false, List.append_nil, List.length_map]
    exact lvl_length_le keys _ l

end FST

namespace FST

/-! ## The sizes of the levels after a sparse build of any keys -/

theorem SzInv.mono_sz {b : FSTBuilder} {n lev m n2 lev2 : Nat} (S : SzInv b n lev m)
    (hn : n ≤ n2) (hl : lev ≤ lev2) : SzInv b n2 lev2 m := by
  refine ⟨S.1, fun l => ?_⟩
  have := S.2 l
  by_cases h1 : l < lev
  · rw [if_pos h1] at this
    rw [if_pos (by omega)]; omega
  · rw [if_neg h1] at this
    by_cases h2 : l < lev2
    · rw [if_pos h2]; omega
    · rw [if_neg h2]; omega

theorem SzInv.close_sz {b : FSTBuilder} {n lev m : Nat} (S : SzInv b n lev m) :
    SzInv b (n + 1) 0 m := by
  refine ⟨S.1, fun l => ?_⟩
  have := S.2 l
  rw [if_neg (by omega)]
  by_cases h1 : l < lev
  · rw [if_pos h1] at this; exact this
  · rw [if_neg h1] at this; omega

theorem SzInv.of_labels {b b1 : FSTBuilder} {n lev m : Nat} (S : SzInv b n lev m)
    (e : b1.labels_ = b.labels_) : SzInv b1 n lev m := by
  unfold SzInv labL at *
  rw [e]; exact S

theorem setChildBit_labels {b b1 : FSTBuilder} {l pos : Nat}
    (h : b.setChildBit l pos = some b1) : b1.labels_ = b.labels_ := by
  simp only [FSTBuilder.setChildBit, Option.bind_eq_bind, Option.bind_eq_some] at h
  obtain ⟨w, _, w1, _, h⟩ := h
  simp only [Option.some.injEq] at h
  subst h
  rfl

theorem pushValue_labels {b b1 : FSTBuilder} {l v : Nat}
    (h : b.pushValue l v = some b1) : b1.labels_ = b.labels_ := by
  simp only [FSTBuilder.pushValue, Option.bind_eq_bind, Option.bind_eq_some] at h
  obtain ⟨w, _, h⟩ := h
  simp only [Option.some.injEq] at h
  subst h
  rfl

/-- One key byte inserted at `level`: the level gets one more label, the other levels keep
theirs, and the height is at least `level + 1`. -/
theorem WInv.insertKeyByte_labels {b b1 : FSTBuilder} (I : WInv b) {c level : Nat}
    {start : Bool} (h : b.insertKeyByte c level start false = some b1) :
    b1.labels_.length = max b.labels_.length (level + 1) ∧
    ∀ l, labL b1 l = if l = level then labL b level ++ [c] else labL b l := by
  obtain ⟨H, A⟩ := I.packed
  have h0 := h
  simp only [FSTBuilder.insertKeyByte, Option.bind_eq_bind, Option.bind_eq_some] at h0
  obtain ⟨_, hchk, b2, h2, _⟩ := h0
  have hH := A.height
  have hlev : level ≤ H := by
    by_cases e : level ≥ b.getTreeHeight
    · rw [if_pos e] at hchk
      have : level < b.addLevel.getTreeHeight := by
        simpa [check] using hchk
      have e2 : b.addLevel.getTreeHeight = H + 1 := A.addLevel_abs.height
      omega
    · omega
  have hpar : 0 < level → labL b (level - 1) ≠ [] := by
    intro hpos
    rw [if_pos hpos] at h2
    simp only [Option.bind_eq_bind, Option.bind_eq_some] at h2
    obtain ⟨n, hn, _, hk, _⟩ := h2
    have hn0 : 0 < n := by
      have : ¬ n = 0 := by simpa [check] using hk
      omega
    by_cases e : level ≥ b.getTreeHeight
    · rw [if_pos e] at hn
      have A1 := A.addLevel_abs
      rw [A1.getNumItems_abs (show level - 1 < H + 1 by omega)] at hn
      intro h0; rw [h0] at hn; simp at hn; omega
    · rw [if_neg e] at hn
      rw [A.getNumItems_abs (show level - 1 < H by omega)] at hn
      intro h0; rw [h0] at hn; simp at hn; omega
  obtain ⟨b3, h3, A3⟩ := insertKeyByte_abs c level start A hlev hpar
  rw [h] at h3
  have eb := Option.some.inj h3
  subst eb
  obtain ⟨a1, _, _, _⟩ := A3.canon
  have hh3 := A3.height
  simp only [FSTBuilder.getTreeHeight] at hH hh3
  refine ⟨by rw [hh3, hH], fun l => ?_⟩
  rw [← a1]
  by_cases e : l = level
  · subst e; rw [Function.update_same, if_pos rfl]
  · rw [Function.update_noteq e, if_neg e]

theorem SzInv.insertKeyByte_sz {b b1 : FSTBuilder} (I : WInv b) {n m c level : Nat}
    {start : Bool} (S : SzInv b n level m) (hl : level < m)
    (h : b.insertKeyByte c level start false = some b1) :
    SzInv b1 n (level + 1) m ∧ 0 < b1.labels_.length ∧
      b.labels_.length ≤ b1.labels_.length := by
  obtain ⟨e1, e2⟩ := I.insertKeyByte_labels h
  have hS := S.1
  refine ⟨⟨by rw [e1]; omega, fun l => ?_⟩, by rw [e1]; omega, by rw [e1]; omega⟩
  rw [e2 l]
  have := S.2 l
  by_cases e : l = level
  · subst e
    rw [if_neg (by omega)] at this
    rw [if_pos rfl, if_pos (by omega), List.length_append]
    simp only [List.length_singleton]
    omega
  · rw [if_neg e]
    by_cases h1 : l < level
    · rw [if_pos h1] at this
      rw [if_pos (by omega)]; exact this
    · rw [if_neg h1] at this
      rw [if_neg (by omega)]; exact this

theorem skipCommonPrefixLoop_labels (key : List Nat) :
    ∀ (fuel : Nat) (b : FSTBuilder) (level : Nat) (r : FSTBuilder × Nat),
      FSTBuilder.skipCommonPrefixLoop key 0 fuel b level = some r →
      r.1.labels_ = b.labels_ := by
  intro fuel
  induction fuel with
  | zero => intro b level r h; simp [FSTBuilder.skipCommonPrefixLoop] at h
  | succ fuel ih =>
    intro b level r h
    simp only [FSTBuilder.skipCommonPrefixLoop] at h
    split at h
    · simp only [Option.bind_eq_bind, Option.bind_eq_some] at h
      obtain ⟨c, _, same, _, h⟩ := h
      split at h
      · simp only [Option.bind_eq_bind, Option.bind_eq_some] at h
        obtain ⟨n, hn, _, hk, b1, h1, h⟩ := h
        rw [ih b1 (level + 1) r h, setChildBit_labels h1]
      · simp only [Option.some.injEq] at h
        subst h; rfl
    · simp only [Option.some.injEq] at h
      subst h; rfl

theorem skipCommonPrefix_labels {b : FSTBuilder} {key : List Nat} {r : FSTBuilder × Nat}
    (h : b.skipCommonPrefix key 0 = some r) : r.1.labels_ = b.labels_ := by
  simp only [FSTBuilder.skipCommonPrefix, Option.bind_eq_bind, Option.bind_eq_some] at h
  obtain ⟨p, hp, _, _, h⟩ := h
  simp only [Option.some.injEq] at h
  subst h
  exact skipCommonPrefixLoop_labels key _ b 0 p hp

theorem SzInv.insertLoop_sz (key next_key : List Nat) (n m : Nat) (hm : key.length ≤ m) :
    ∀ (fuel : Nat) (b : FSTBuilder) (level : Nat) (r : FSTBuilder × Nat), WInv b →
      SzInv b n level m →
      FSTBuilder.insertLoop key next_key 0 fuel b level = some r →
      (∃ lev, SzInv r.1 n lev m) ∧ b.labels_.length ≤ r.1.labels_.length := by
  intro fuel
  induction fuel with
  | zero => intro b level r _ _ h; simp [FSTBuilder.insertLoop] at h
  | succ fuel ih =>
    intro b level r I S h
    simp only [FSTBuilder.insertLoop] at h
    split at h
    · rename_i hcond
      simp only [Option.bind_eq_bind, Option.bind_eq_some] at h
      obtain ⟨_, _, x, _, y, _, h⟩ := h
      split at h
      · simp only [Option.bind_eq_bind, Option.bind_eq_some] at h
        obtain ⟨c, hc, b1, h1, h⟩ := h
        have hlt : level < m := by
          simp only [Nat.add_zero, Bool.and_eq_true, decide_eq_true_eq] at hcond
          omega
        have I1 := I.insertKeyByte_inv_w (fun _ => rfl) h1
        obtain ⟨S1, _, g1⟩ := S.insertKeyByte_sz I hlt h1
        obtain ⟨S2, g2⟩ := ih b1 (level + 1) r I1 S1 h
        exact ⟨S2, Nat.le_trans g1 g2⟩
      · simp only [Option.some.injEq] at h
        subst h; exact ⟨⟨level, S⟩, Nat.le_refl _⟩
    · simp only [Option.some.injEq] at h
      subst h; exact ⟨⟨level, S⟩, Nat.le_refl _⟩

/-- One key is inserted: every level gets at most one more label, the height stays within
the length of the key, and the trie has a level. -/
theorem SzInv.insertKey_sz {b : FSTBuilder} (I : WInv b) {key next_key : List Nat}
    {value level n m : Nat} {r : FSTBuilder × Nat} (S : SzInv b n 0 m) (hm : key.length ≤ m)
    (h : b.insertKeyBytesToTrieUntilUnique key value next_key level 0 = some r) :
    SzInv r.1 (n + 1) 0 m ∧ 0 < r.1.labels_.length := by
  simp only [FSTBuilder.insertKeyBytesToTrieUntilUnique, Option.bind_eq_bind,
    Option.bind_eq_some] at h
  obtain ⟨_, hk, st, hst, c, hc, b1, h1, h⟩ := h
  have hlt : level < m := by
    have : level + 0 < key.length := by simpa [check] using hk
    omega
  have I1 := I.insertKeyByte_inv_w (isLevelEmpty_start_w I hst) h1
  obtain ⟨S1, p1, _⟩ := (S.mono_sz (Nat.le_refl n) (Nat.zero_le level)).insertKeyByte_sz I hlt h1
  split at h
  · simp only [Option.bind_eq_bind, Option.bind_eq_some] at h
    obtain ⟨b2, h2, h⟩ := h
    simp only [Option.some.injEq] at h
    subst h
    have e := pushValue_labels h2
    exact ⟨(S1.of_labels e).close_sz, by rw [e]; exact p1⟩
  · simp only [Option.bind_eq_bind, Option.bind_eq_some] at h
    obtain ⟨same, _, h⟩ := h
    split at h
    · simp only [Option.bind_eq_bind, Option.bind_eq_some] at h
      obtain ⟨b2, h2, h⟩ := h
      simp only [Option.some.injEq] at h
      subst h
      have e := pushValue_labels h2
      exact ⟨(S1.of_labels e).close_sz, by rw [e]; exact p1⟩
    · simp only [Option.bind_eq_bind, Option.bind_eq_some] at h
      obtain ⟨p, hp, b3, h3, h⟩ := h
      simp only [Option.some.injEq] at h
      subst h
      obtain ⟨⟨lev, S2⟩, g2⟩ := SzInv.insertLoop_sz key next_key n m hm _ b1 _ p I1 S1 hp
      have e := pushValue_labels h3
      exact ⟨(S2.of_labels e).close_sz, by rw [e]; omega⟩

theorem skipSameKeys_bounds (keys : List (List Nat)) (c : Nat) :
    ∀ (fuel j0 j : Nat), j0 < keys.length →
      FSTBuilder.skipSameKeys keys c fuel j0 = some j → j0 ≤ j ∧ j < keys.length := by
  intro fuel
  induction fuel with
  | zero => intro j0 j _ h; simp [FSTBuilder.skipSameKeys] at h
  | succ fuel ih =>
    intro j0 j hj h
    simp only [FSTBuilder.skipSameKeys] at h
    split at h
    · rename_i hlt
      simp only [Option.bind_eq_bind, Option.bind_eq_some] at h
      obtain ⟨a, _, nx, _, same, _, h⟩ := h
      split at h
      · have := ih (j0 + 1) j hlt h
        omega
      · simp only [Option.some.injEq] at h
        omega
    · simp only [Option.some.injEq] at h
      omega

theorem SzInv.buildSparseLoop_sz (keys : List (List Nat)) (values : List Nat) (m : Nat)
    (hm : ∀ k ∈ keys, k.length ≤ m) :
    ∀ (fuel : Nat) (b : FSTBuilder) (i : Nat) (r : FSTBuilder), WInv b → i ≤ keys.length →
      SzInv b i 0 m → (0 < i → 0 < b.labels_.length) →
      FSTBuilder.buildSparseLoop keys values fuel b i = some r →
      SzInv r keys.length 0 m ∧ (0 < keys.length → 0 < r.labels_.length) := by
  intro fuel
  induction fuel with
  | zero => intro b i r _ _ _ _ h; simp [FSTBuilder.buildSparseLoop] at h
  | succ fuel ih =>
    intro b i r I hi S hpos h
    simp only [FSTBuilder.buildSparseLoop] at h
    split at h
    · rename_i hlt
      simp only [Option.bind_eq_bind, Option.bind_eq_some] at h
      obtain ⟨k, _, p, hp, j, hj, key, hkey, value, _, q, hq, h⟩ := h
      obtain ⟨I1, _⟩ := I.skip_inv_w hp
      have S1 : SzInv p.1 i 0 m := S.of_labels (skipCommonPrefix_labels hp)
      have hkm : key.length ≤ m := hm key (List.getElem?_mem hkey)
      obtain ⟨j1, j2⟩ := skipSameKeys_bounds keys i _ i j hlt hj
      have hq2 : WInv q.1 ∧ SzInv q.1 (i + 1) 0 m ∧ 0 < q.1.labels_.length := by
        split at hq
        · simp only [Option.bind_eq_bind, Option.bind_eq_some] at hq
          obtain ⟨nk, _, hq⟩ := hq
          exact ⟨(I1.insertKey_inv_w hq).1, S1.insertKey_sz I1 hkm hq⟩
        · exact ⟨(I1.insertKey_inv_w hq).1, S1.insertKey_sz I1 hkm hq⟩
      exact ih q.1 (j + 1) r hq2.1 (by omega)
        (hq2.2.1.mono_sz (by omega) (Nat.le_refl _)) (fun _ => hq2.2.2) h
    · rename_i hge
      simp only [Option.some.injEq] at h
      subst h
      have e : i = keys.length := by omega
      subst e
      exact ⟨S, hpos⟩

theorem WInv.levelsOK_w {b : FSTBuilder} (I : WInv b) : LevelsOK b := by
  obtain ⟨H, cw, lw, Sh, _⟩ := I.packed
  exact ⟨Sh.lenN.trans Sh.lenLab.symm, Sh.lenV.trans Sh.lenLab.symm⟩

/-- The sizes of the state after a sparse build of any keys that returns: at most as many
levels as the longest key has bytes, at most one label per key on each level, and at least
one level when there is a key. -/
theorem buildSparse_sizes_any (d : Bool) (R : Nat) (keys : List (List Nat))
    (values : List Nat) (m : Nat) (hm : ∀ k ∈ keys, k.length ≤ m) (b : FSTBuilder)
    (h : (FSTBuilder.mk2 d R).buildSparse keys values = some b) :
    LevelsOK b ∧ b.labels_.length ≤ m ∧
      (∀ l, (b.labels_.getD l []).length ≤ keys.length) ∧ (keys ≠ [] → b.labels_ ≠ []) := by
  have I := (buildSparse_inv_w d R keys values b h).1
  have S0 : SzInv (FSTBuilder.mk2 d R) 0 0 m := by
    refine ⟨by simp [FSTBuilder.mk2, FSTBuilder.new], fun l => ?_⟩
    simp [labL, FSTBuilder.mk2, FSTBuilder.new]
  obtain ⟨S, hp⟩ := SzInv.buildSparseLoop_sz keys values m hm _ _ 0 b (WInv.mk2_inv_w d R)
    (Nat.zero_le _) S0 (fun h0 => absurd h0 (by omega)) h
  refine ⟨I.levelsOK_w, S.1, fun l => ?_, fun hne => ?_⟩
  · have := S.2 l
    rw [if_neg (by omega)] at this
    exact this
  · exact List.length_pos.mp (hp (List.length_pos.mpr hne))

/-! ## `buildDense` leaves the cutoff and the labels -/

theorem forRange_frame {σ : Type} (body : Nat → σ → Option σ) (P : σ → Prop)
    (hb : ∀ x s s1, P s → body x s = some s1 → P s1) :
    ∀ (n start : Nat) (s s1 : σ), P s → forRange body n start s = some s1 → P s1 := by
  intro n
  induction n with
  | zero =>
    intro start s s1 hP h
    have e : forRange body 0 start s = some s := rfl
    rw [e] at h
    exact Option.some.inj h ▸ hP
  | succ n ih =>
    intro start s s1 hP h
    rw [forRange_succ] at h
    obtain ⟨s2, e2, h⟩ := Option.bind_eq_some.mp h
    exact ih (start + 1) s2 s1 (hb start s s2 hP e2) h

theorem setPrefixkeyBit_sameTrie {b b1 : FSTBuilder} {level pos : Nat}
    (h : b.setPrefixkeyBit level pos = some b1) : SameTrie b b1 := by
  simp only [FSTBuilder.setPrefixkeyBit, Option.bind_eq_bind, Option.bind_eq_some] at h
  obtain ⟨w, _, w1, _, h⟩ := h
  simp only [Option.some.injEq] at h
  subst h
  exact ⟨rfl, rfl⟩

theorem setLabelAndChild_sameTrie {b b1 : FSTBuilder} {level node_num pos : Nat}
    (h : b.setLabelAndChildIndicatorBitmap level node_num pos = some b1) : SameTrie b b1 := by
  simp only [FSTBuilder.setLabelAndChildIndicatorBitmap, Option.bind_eq_bind,
    Option.bind_eq_some] at h
  obtain ⟨l, _, label, _, bl, _, bl1, _, c, _, bit, _, h⟩ := h
  split at h
  · simp only [Option.bind_eq_bind, Option.bind_eq_some] at h
    obtain ⟨bc, _, bc1, _, h⟩ := h
    simp only [Option.some.injEq] at h
    subst h
    exact ⟨rfl, rfl⟩
  · simp only [Option.some.injEq] at h
    subst h
    exact ⟨rfl, rfl⟩

theorem SameTrie.trans_trie {a b c : FSTBuilder} (h1 : SameTrie a b) (h2 : SameTrie b c) :
    SameTrie a c :=
  ⟨h2.1.trans h1.1, h2.2.trans h1.2⟩

theorem initDenseVectors_sameTrie {b b1 : FSTBuilder} {level : Nat}
    (h : b.initDenseVectors level = some b1) : SameTrie b b1 := by
  simp only [FSTBuilder.initDenseVectors, Option.bind_eq_bind, Option.bind_eq_some] at h
  obtain ⟨count, _, h⟩ := h
  refine forRange_frame _ (fun s => SameTrie b s) ?_ count 0 _ b1 ?_ h
  swap
  · exact ⟨rfl, rfl⟩
  intro x s s1 hP hs
  simp only [Option.bind_eq_bind, Option.bind_eq_some] at hs
  obtain ⟨bl, _, bc, _, hs⟩ := hs
  split at hs
  · simp only [Option.bind_eq_bind, Option.bind_eq_some] at hs
    obtain ⟨pk, _, hs⟩ := hs
    simp only [Option.some.injEq] at hs
    subst hs
    exact ⟨hP.1, hP.2⟩
  · simp only [Option.some.injEq] at hs
    subst hs
    exact ⟨hP.1, hP.2⟩

theorem buildDenseItem_sameTrie {level pos : Nat} {st st1 : FSTBuilder × Nat}
    (h : FSTBuilder.buildDenseItem level pos st = some st1) : SameTrie st.1 st1.1 := by
  simp only [FSTBuilder.buildDenseItem, Option.bind_eq_bind, Option.bind_eq_some] at h
  obtain ⟨s, _, h⟩ := h
  split at h
  · simp only [Option.bind_eq_bind, Option.bind_eq_some] at h
    obtain ⟨t, _, h⟩ := h
    split at h
    · simp only [Option.bind_eq_bind, Option.bind_eq_some] at h
      obtain ⟨b1, h1, h⟩ := h
      simp only [Option.some.injEq] at h
      subst h
      exact setPrefixkeyBit_sameTrie h1
    · simp only [Option.bind_eq_bind, Option.bind_eq_some] at h
      obtain ⟨b1, h1, h⟩ := h
      simp only [Option.some.injEq] at h
      subst h
      exact setLabelAndChild_sameTrie h1
  · simp only [Option.bind_eq_bind, Option.bind_eq_some] at h
    obtain ⟨b1, h1, h⟩ := h
    simp only [Option.some.injEq] at h
    subst h
    exact setLabelAndChild_sameTrie h1

theorem buildDenseLevel_sameTrie {level : Nat} {b b1 : FSTBuilder}
    (h : b.buildDenseLevel level = some b1) : SameTrie b b1 := by
  simp only [FSTBuilder.buildDenseLevel, Option.bind_eq_bind, Option.bind_eq_some] at h
  obtain ⟨b0, h0, n, _, h⟩ := h
  have T0 := initDenseVectors_sameTrie h0
  split at h
  · simp only [Option.some.injEq] at h
    subst h
    exact T0
  · simp only [Option.bind_eq_bind, Option.bind_eq_some] at h
    obtain ⟨t, _, b2, h2, st, hst, h⟩ := h
    have h := Option.some.inj h
    subst h
    have T2 : SameTrie b0 b2 := by
      split at h2
      · exact setPrefixkeyBit_sameTrie h2
      · exact setLabelAndChild_sameTrie h2
    have T3 := forRange_frame (FSTBuilder.buildDenseItem level)
      (fun s => SameTrie b2 s.1)
      (fun x s s1 hP hs => hP.trans_trie (buildDenseItem_sameTrie hs)) (n - 1) 1 (b2, 0) st
      ⟨rfl, rfl⟩ hst
    exact T0.trans_trie (T2.trans_trie T3)

/-- Whenever `buildDense` returns, the cutoff level and the labels are those of before. -/
theorem buildDense_sameTrie {b b1 : FSTBuilder} (h : b.buildDense = some b1) :
    SameTrie b b1 :=
  forRange_frame FSTBuilder.buildDenseLevel (fun s => SameTrie b s)
    (fun _ _ _ hP hs => hP.trans_trie (buildDenseLevel_sameTrie hs))
    b.sparse_start_level_ 0 b b1 ⟨rfl, rfl⟩ h

/-- The cutoff level of every dense build that returns, of keys of any bytes and lengths:
between 1 and the height. -/
theorem build_cutoff_range (R : Nat) (keys : List (List Nat)) (values : List Nat)
    (hn : keys.length < 2 ^ 31) (hL : ∀ k ∈ keys, k.length < 2 ^ 32) :
    (∀ b1, (FSTBuilder.mk2 true R).buildSparse keys values = some b1 → keys ≠ [] →
      ∃ b2, b1.determineCutoffLevel = some b2 ∧
        1 ≤ b2.sparse_start_level_ ∧ b2.sparse_start_level_ ≤ b2.getTreeHeight) ∧
    (∀ b3, (FSTBuilder.mk2 true R).build keys values = some b3 →
      1 ≤ b3.sparse_start_level_ ∧ b3.sparse_start_level_ ≤ b3.getTreeHeight) := by
  have part1 : ∀ b1, (FSTBuilder.mk2 true R).buildSparse keys values = some b1 → keys ≠ [] →
      ∃ b2, b1.determineCutoffLevel = some b2 ∧
        1 ≤ b2.sparse_start_level_ ∧ b2.sparse_start_level_ ≤ b2.getTreeHeight := by
    intro b1 hb hne
    obtain ⟨LO, hlen, hsz, hnn⟩ := buildSparse_sizes_any true R keys values (2 ^ 32 - 1)
      (fun k hk => by have := hL k hk; omega) b1 hb
    obtain ⟨c, _, hd⟩ := determineCutoffLevel_total b1 LO
    have hr := determineCutoffLevel_range b1 _ (hnn hne)
      (fun l => by have := hsz l; omega) (by omega) hd
    exact ⟨_, hd, hr⟩
  refine ⟨part1, ?_⟩
  intro b3 h
  simp only [FSTBuilder.build, Option.bind_eq_bind, Option.bind_eq_some] at h
  obtain ⟨_, hk, b1, hb, h⟩ := h
  have hne : keys ≠ [] := by
    have : ¬ keys = [] := by simpa [check] using hk
    exact this
  have hi : b1.include_dense_ = true := (buildSparse_inv_w true R keys values b1 hb).2.incl
  rw [if_pos hi] at h
  simp only [Option.bind_eq_bind, Option.bind_eq_some] at h
  obtain ⟨b2, h2, h3⟩ := h
  obtain ⟨b2x, e2, r1, r2⟩ := part1 b1 hb hne
  rw [h2] at e2
  have e := Option.some.inj e2
  subst e
  obtain ⟨t1, t2⟩ := buildDense_sameTrie h3
  simp only [FSTBuilder.getTreeHeight] at r2 ⊢
  rw [t1, t2]
  exact ⟨r1, r2⟩

end FST

namespace FST

/-! ## An iterator that a search or `operator++` returns is valid or empty -/

end FST

namespace FST

/-! ## A failed search over an over-long last node reads past the labels -/

namespace TRepr

variable {t : LoudsSparse} {TV : List (List Nat × Nat)} {ENT : List (List Nat)}

end TRepr

end FST

namespace FST

/-! ## The search along a stored key, for any values -/

end FST

namespace FST

/-! ## The search of a probe that no stored key is a prefix of, for any last node -/

end FST

namespace FST

/-! ## The cached value index along a traversal -/

end FST

namespace FST

/-! ## C34, C38: the tag of `findNextNodeOrValue`, the position after a failed search -/

theorem tagTrie_built :
    (FSTBuilder.new.buildSparse [[97, 97], [97, 98], [98, 97]] [10, 20, 30]).bind
      (fun b => LoudsSparse.new b [[97, 97], [97, 98], [98, 97]]) = some tagTrie := by
  decide

theorem shl2_or (x w b : Nat) (hb : b < 4) (hw : 2 ≤ w) :
    (x <<< 2) % 2 ^ w ||| b = 4 * (x % 2 ^ (w - 2)) + b := by
  have e1 : (x <<< 2) % 2 ^ w = 2 ^ 2 * (x % 2 ^ (w - 2)) := by
    rw [Nat.shiftLeft_eq]
    have e2 : (2 : Nat) ^ w = 2 ^ 2 * 2 ^ (w - 2) := by
      rw [← Nat.pow_add]; congr 1; omega
    rw [e2, Nat.mul_comm x (2 ^ 2), Nat.mul_mod_mul_left]
  rw [e1, ← Nat.mul_add_lt_is_or (by simpa using hb)]

/-- When `findNextNodeOrValue(b, node_num)` returns true, the edge it matched is at a
position `pos` of the label vector, and `node_num` is set as follows: if the child bit of
`pos` is set (the edge leads to a child node), to the child's node number shifted left by 2
with the low two bits 11 (`<< 2 | 3`, a 32-bit expression); if the child bit is clear (the
edge terminates a key), to the stored value shifted left by 2 with the low two bits 01
(`<< 2 | 1`).  The tags are the opposite of those the comment above the function gives. -/
theorem findNextNodeOrValue_tags (t : LoudsSparse) (keyByte node_num r : Nat)
    (h : t.findNextNodeOrValue keyByte node_num = some (true, r)) :
    ∃ pos,
      (t.child_indicator_bits_.readBit pos = some true ∧
        r = 4 * (t.getChildNodeNum pos % 2 ^ 30) + 3 ∧ r % 4 = 3) ∨
      (t.child_indicator_bits_.readBit pos = some false ∧
        ∃ offset, t.positions_sparse_[pos - t.child_indicator_bits_.rank pos]? = some offset ∧
          r = 4 * (offset % 2 ^ 62) + 1 ∧ r % 4 = 1) := by
  rw [LoudsSparse.findNextNodeOrValue] at h
  simp only [Option.bind_eq_bind] at h
  obtain ⟨p0, _, h⟩ := Option.bind_eq_some.mp h
  obtain ⟨sz, _, h⟩ := Option.bind_eq_some.mp h
  obtain ⟨fp, _, h⟩ := Option.bind_eq_some.mp h
  obtain ⟨found, pos⟩ := fp
  cases found with
  | false => simp at h
  | true =>
    simp only [Bool.not_true, Bool.false_eq_true, if_false] at h
    obtain ⟨c, h4, h⟩ := Option.bind_eq_some.mp h
    refine ⟨pos, ?_⟩
    cases c with
    | true =>
      left
      simp only [Bool.not_true, Bool.false_eq_true, if_false, Option.some.injEq,
        Prod.mk.injEq, true_and] at h
      have e := shl2_or (t.getChildNodeNum pos) 32 3 (by omega) (by omega)
      simp only [Nat.reduceSub] at e
      rw [e] at h
      refine ⟨h4, h.symm, ?_⟩
      rw [← h]; omega
    | false =>
      right
      simp only [Bool.not_false, if_true] at h
      obtain ⟨_, _, h⟩ := Option.bind_eq_some.mp h
      obtain ⟨offset, h5, h⟩ := Option.bind_eq_some.mp h
      simp only [Option.some.injEq, Prod.mk.injEq, true_and] at h
      have e := shl2_or offset 64 1 (by omega) (by omega)
      simp only [Nat.reduceSub] at e
      rw [e] at h
      refine ⟨h4, offset, h5, h.symm, ?_⟩
      rw [← h]; omega

/-- C34 (failing input): the index built from "aa", "ab", "ba" with the values 10, 20, 30.
On the root, the byte `a`, whose edge leads to the child node 1, gives `1 << 2 | 3 = 7`
with the low two bits 11, and the byte `b`, whose edge ends a key with the value 30, gives
`30 << 2 | 1 = 121` with the low two bits 01: the tags are the opposite of those the comment
above the function gives.  `getNode` tags the entries of the node in the same way, and a
byte that is no label of the node gives false and leaves `node_num`. -/
theorem C34_tags_swapped :
    (FSTBuilder.new.buildSparse [[97, 97], [97, 98], [98, 97]] [10, 20, 30]).bind
      (fun b => LoudsSparse.new b [[97, 97], [97, 98], [98, 97]]) = some tagTrie ∧
    tagTrie.child_indicator_bits_.readBit 0 = some true ∧
    tagTrie.getChildNodeNum 0 = 1 ∧
    tagTrie.findNextNodeOrValue 97 0 = some (true, 1 * 4 + 3) ∧
    tagTrie.child_indicator_bits_.readBit 1 = some false ∧
    tagTrie.lookupKey [98, 97] 0 0 = some (true, 30) ∧
    tagTrie.findNextNodeOrValue 98 0 = some (true, 30 * 4 + 1) ∧
    tagTrie.findNextNodeOrValue 99 0 = some (false, 0) ∧
    tagTrie.getNode 0 [] [] = some ([97, 98], [1 * 4 + 3, 30 * 4 + 1]) := by
  decide

/-- When `search` or `searchGreaterThan` returns false, the position argument is
either left as it was, or, when the range has more than one label and begins with the
terminator 255, left at the input value plus one: the increment that skips the terminator is
not undone. -/
theorem failed_search_position (lv : LabelVector) (target pos len p : Nat)
    (h : lv.search target pos len = some (false, p) ∨
      lv.searchGreaterThan target pos len = some (false, p)) :
    p = pos ∨ (p = pos + 1 ∧ 1 < len ∧ lv.read pos = some kTerminator) := by
  have hs : ∃ l, lv.skipTerminator pos len = some (p, l) := by
    rcases h with h | h
    · exact search_false_pos lv target pos len p h
    · exact searchGT_false_pos lv target pos len p h
  obtain ⟨l, hs⟩ := hs
  rcases skipTerminator_cases lv pos len p l hs with ⟨h1, _⟩ | ⟨h1, _, h3, h4⟩
  · left; exact h1
  · right; exact ⟨h1, h3, h4⟩

/-- C38 (failing input): the labels 255, 3, 5 as one range of length 3 from the position 0.
`search` of the absent byte 4 and `searchGreaterThan` of the byte 7 return false and leave
the position 1, not 0: the increment that skips the leading terminator is not undone.  On
the labels 2, 3, 5, without a terminator to skip, the failed search leaves the position
0. -/
theorem C38_failed_search_moves_pos :
    LabelVector.search { num_bytes_ := 4, labels_ := [255, 3, 5] } 4 0 3 = some (false, 1) ∧
    LabelVector.searchGreaterThan { num_bytes_ := 4, labels_ := [255, 3, 5] } 7 0 3
      = some (false, 1) ∧
    LabelVector.search { num_bytes_ := 4, labels_ := [2, 3, 5] } 4 0 3 = some (false, 0) ∧
    LabelVector.searchGreaterThan { num_bytes_ := 4, labels_ := [2, 3, 5] } 7 0 3
      = some (false, 0) := by
  decide

end FST

namespace FST

/-! ## C37, C40: the bytes `lookupKey` reads, integer keys -/

/-- C37: `lookupKey` reads the key only up to the first terminal edge it reaches.  If
`lookupKey(k, n)` returns true with the offset `v`, it does so after matching a terminal edge
with a key byte of index `L` (`start_level_ <= L < |k|`, the value of the loop variable
`level` at the return), and for every key `k2` longer than `L` that agrees with `k` on the
byte indices `start_level_ .. L`, whatever its other bytes and the initial value of `offset`
are, `lookupKey(k2, n)` returns true with the same offset at the same level; so does
`lookupKeyAtNode`, started at the level `start_level_`. -/
theorem C37_lookup_stops_at_terminal (t : LoudsSparse) (k : List Nat) (n off v : Nat)
    (h : t.lookupKey k n off = some (true, v)) :
    ∃ L, t.lookupKeyLevel k n off = some (true, v, L) ∧ t.start_level_ ≤ L ∧ L < k.length ∧
      ∀ (k2 : List Nat) (off2 : Nat), L < k2.length →
        (∀ i, t.start_level_ ≤ i → i ≤ L → k2[i]? = k[i]?) →
        t.lookupKey k2 n off2 = some (true, v) ∧
        t.lookupKeyLevel k2 n off2 = some (true, v, L) ∧
        t.lookupKeyAtNode k2 k2.length n off2 t.start_level_ = some (true, v) := by
  rw [lookupKey_eq_level] at h
  obtain ⟨r, hr, hf⟩ := Option.map_eq_some'.mp h
  obtain ⟨f, v1, L⟩ := r
  simp only [Prod.mk.injEq] at hf
  obtain ⟨rfl, rfl⟩ := hf
  refine ⟨L, hr, ?_⟩
  rw [LoudsSparse.lookupKeyLevel] at hr
  simp only [Option.bind_eq_bind] at hr
  obtain ⟨pos, hpos, hr⟩ := Option.bind_eq_some.mp hr
  obtain ⟨g1, g2, g3⟩ := lookupKeyAtLoop_stop t k off v1 L _ _ pos hr
  refine ⟨g1, g2, ?_⟩
  intro k2 off2 h2 hsame
  have e : t.lookupKeyLevel k2 n off2 = some (true, v1, L) := by
    rw [LoudsSparse.lookupKeyLevel]
    simp only [Option.bind_eq_bind, hpos, Option.some_bind]
    exact g3 k2 off2 _ h2 hsame (by omega)
  have e2 : t.lookupKey k2 n off2 = some (true, v1) := by
    rw [lookupKey_eq_level, e]; rfl
  exact ⟨e2, e, by rw [lookupKeyAtNode_eq, e2]⟩

/-- C37 (witness): in the index of "aa", "ab", "ba" with the values 10, 20, 30 the lookup
of "ba" ends on the terminal edge `b` of the root. -/
theorem C37_lookup_stops_at_terminal_witness :
    tagTrie.lookupKey [98, 97] 0 0 = some (true, 30) ∧
    ∃ L, tagTrie.lookupKeyLevel [98, 97] 0 0 = some (true, 30, L) ∧
      tagTrie.start_level_ ≤ L ∧ L < ([98, 97] : List Nat).length ∧
      ∀ (k2 : List Nat) (off2 : Nat), L < k2.length →
        (∀ i, tagTrie.start_level_ ≤ i → i ≤ L → k2[i]? = ([98, 97] : List Nat)[i]?) →
        tagTrie.lookupKey k2 0 off2 = some (true, 30) ∧
        tagTrie.lookupKeyLevel k2 0 off2 = some (true, 30, L) ∧
        tagTrie.lookupKeyAtNode k2 k2.length 0 off2 tagTrie.start_level_ = some (true, 30) :=
  ⟨by decide, C37_lookup_stops_at_terminal tagTrie [98, 97] 0 0 30 (by decide)⟩

/-- The lookups of "ba", of "bzz" and of "b" in the index of "aa", "ab", "ba": all end at
the level 0 with the value of "ba". -/
theorem tagTrie_lookups :
    tagTrie.lookupKeyLevel [98, 97] 0 0 = some (true, 30, 0) ∧
    tagTrie.lookupKeyLevel [98, 122, 122] 0 0 = some (true, 30, 0) ∧
    tagTrie.lookupKeyLevel [98] 0 0 = some (true, 30, 0) ∧
    tagTrie.lookupKeyLevel [97, 98] 0 0 = some (true, 20, 1) := by
  decide

/-- C40: `uint32ToString(a)` is the 4-byte big-endian encoding of the 32-bit word `a`, and
the encoding preserves the order: `a < b` iff the string of `a` precedes the string of `b`
in the bytewise unsigned lexicographic order.  Hence the strings of a strictly increasing
list of words are strictly increasing, of length 4 each: a key list the builder accepts. -/
theorem C40_uint32_keys_sorted (a b : Nat) (ha : a < 2 ^ 32) (hb : b < 2 ^ 32)
    (ws : List Nat) (hne : ws ≠ []) (hws : ∀ w ∈ ws, w < 2 ^ 32)
    (hinc : ws.Pairwise (fun x y => x < y)) :
    uint32ToString a = [a / 2 ^ 24 % 256, a / 2 ^ 16 % 256, a / 2 ^ 8 % 256, a % 256] ∧
    (a < b ↔ strLt (uint32ToString a) (uint32ToString b) = true) ∧
    (ws.map uint32ToString).Pairwise (fun x y => strLt x y = true) ∧
    KeysOK (ws.map uint32ToString) 4 := by
  have hp := uint32ToString_sorted ws hws hinc
  refine ⟨uint32ToString_eq a ha, (uint32ToString_lt a b ha hb).symm, hp, ?_⟩
  refine ⟨by simpa using hne, ?_, by omega, hp⟩
  intro k hk
  obtain ⟨w, _, rfl⟩ := List.mem_map.mp hk
  exact uint32ToString_length w

/-- C40 (witness): the words 3 and 12, and the first keys 3, 12, 21 of the integer test. -/
theorem C40_uint32_keys_sorted_witness :
    uint32ToString 3 = [3 / 2 ^ 24 % 256, 3 / 2 ^ 16 % 256, 3 / 2 ^ 8 % 256, 3 % 256] ∧
    (3 < 12 ↔ strLt (uint32ToString 3) (uint32ToString 12) = true) ∧
    (([3, 12, 21] : List Nat).map uint32ToString).Pairwise (fun x y => strLt x y = true) ∧
    KeysOK (([3, 12, 21] : List Nat).map uint32ToString) 4 :=
  C40_uint32_keys_sorted 3 12 (by decide) (by decide) [3, 12, 21] (by decide) (by decide)
    (by decide)

/-- The keys of the integer test (`value = 3`, `value += 9` for each of the `n` keys) are
accepted by the builder as long as the words do not wrap. -/
theorem int_test_keys (n : Nat) (hn : 0 < n) (hb : 3 + 9 * n ≤ 2 ^ 32) :
    KeysOK ((List.range n).map (fun i => uint32ToString (3 + 9 * i))) 4 := by
  have e : (List.range n).map (fun i => uint32ToString (3 + 9 * i))
      = ((List.range n).map (fun i => 3 + 9 * i)).map uint32ToString := by
    rw [List.map_map]; rfl
  rw [e]
  have hp : ((List.range n).map (fun i => 3 + 9 * i)).Pairwise (fun x y => x < y) := by
    rw [List.pairwise_map]
    exact (List.pairwise_lt_range n).imp (by intro a b h; omega)
  have hw : ∀ w ∈ (List.range n).map (fun i => 3 + 9 * i), w < 2 ^ 32 := by
    intro w h
    obtain ⟨i, hi, rfl⟩ := List.mem_map.mp h
    have := List.mem_range.mp hi
    omega
  have hne : (List.range n).map (fun i => 3 + 9 * i) ≠ [] := by
    intro h
    have := congrArg List.length h
    simp at this
    omega
  refine ⟨by simpa using hne, ?_, by omega, uint32ToString_sorted _ hw hp⟩
  intro k hk
  obtain ⟨w, _, rfl⟩ := List.mem_map.mp hk
  exact uint32ToString_length w

end FST

namespace FST

/-! ## C31: `searchGreaterThan` -/

/-- C31: on a range `[pos, pos + len)` inside the label vector whose labels, behind a
leading terminator 255 that is skipped when `len > 1`, are strictly increasing,
`searchGreaterThan(target, pos, len)` returns true iff some label of the searched range is
greater than `target`, and on a hit `pos` is the smallest index of the searched range whose
label is greater than `target`; a leading terminator (when `len > 1`) is never the reported
position.  A range of bytes that is strictly increasing as a whole has no leading terminator
to skip: the searched range is then `[pos, pos + len)` itself. -/
theorem C31_search_greater_than (lv : LabelVector)
    (hn : lv.num_bytes_ = lv.labels_.length + 1) (target pos len : Nat)
    (hin : pos + len ≤ lv.labels_.length)
    (hs : IncrOn lv.labels_ (searchStart lv.labels_ pos len) (pos + len)) :
    (∃ found p, lv.searchGreaterThan target pos len = some (found, p) ∧
      (found = true ↔ ∃ g, searchStart lv.labels_ pos len ≤ g ∧ g < pos + len ∧
        target < lv.labels_.getD g 0) ∧
      (found = true → searchStart lv.labels_ pos len ≤ p ∧ p < pos + len ∧
        target < lv.labels_.getD p 0 ∧
        ∀ g, searchStart lv.labels_ pos len ≤ g → g < pos + len →
          target < lv.labels_.getD g 0 → p ≤ g) ∧
      (1 < len → lv.labels_.getD pos 0 = kTerminator → found = true → p ≠ pos)) ∧
    ((∀ q, pos ≤ q → q < pos + len → lv.labels_.getD q 0 < 256) →
      IncrOn lv.labels_ pos (pos + len) → searchStart lv.labels_ pos len = pos) := by
  refine ⟨?_, searchStart_of_incr lv.labels_ pos len⟩
  have hsl := searchStart_le lv.labels_ pos len
  obtain ⟨r, hr, hres⟩ := searchGT_gen (LRepr.mk rfl hn) target pos len hin hs
  obtain ⟨found, p⟩ := r
  have e : searchStart lv.labels_ pos len + (pos + len - searchStart lv.labels_ pos len)
      = pos + len := by omega
  rw [GTRes, e] at hres
  refine ⟨found, p, hr, ?_, ?_, ?_⟩
  · rcases hres with ⟨h1, h2, h3, h4, _⟩ | ⟨h1, h2⟩
    · exact ⟨fun _ => ⟨p, h2, h3, h4⟩, fun _ => h1⟩
    · simp only [Prod.mk.injEq] at h1
      constructor
      · intro hf; rw [h1.1] at hf; exact absurd hf (by simp)
      · rintro ⟨g, g1, g2, g3⟩
        exact absurd g3 (h2 g g1 g2)
  · intro hf
    rcases hres with ⟨_, h2, h3, h4, h5⟩ | ⟨h1, _⟩
    · refine ⟨h2, h3, h4, ?_⟩
      intro g g1 g2 g3
      by_contra hc
      exact h5 g g1 (by omega) g3
    · simp only [Prod.mk.injEq] at h1
      rw [h1.1] at hf; exact absurd hf (by simp)
  · intro h1 h2 hf
    rcases hres with ⟨_, h3, _⟩ | ⟨h3, _⟩
    · have := searchStart_skip lv.labels_ pos len h1 h2
      simp only at h3
      omega
    · simp only [Prod.mk.injEq] at h3
      rw [h3.1] at hf; exact absurd hf (by simp)

/-- C31 (witness): the labels 255, 3, 5, 9 as one range of length 4, searched for the first
label above 3. -/
theorem C31_search_greater_than_witness :
    (∃ found p,
      LabelVector.searchGreaterThan { num_bytes_ := 5, labels_ := [255, 3, 5, 9] } 3 0 4
        = some (found, p) ∧
      (found = true ↔ ∃ g, searchStart [255, 3, 5, 9] 0 4 ≤ g ∧ g < 0 + 4 ∧
        3 < ([255, 3, 5, 9] : List Nat).getD g 0) ∧
      (found = true → searchStart [255, 3, 5, 9] 0 4 ≤ p ∧ p < 0 + 4 ∧
        3 < ([255, 3, 5, 9] : List Nat).getD p 0 ∧
        ∀ g, searchStart [255, 3, 5, 9] 0 4 ≤ g → g < 0 + 4 →
          3 < ([255, 3, 5, 9] : List Nat).getD g 0 → p ≤ g) ∧
      (1 < 4 → ([255, 3, 5, 9] : List Nat).getD 0 0 = kTerminator → found = true → p ≠ 0)) ∧
    ((∀ q, 0 ≤ q → q < 0 + 4 → ([255, 3, 5, 9] : List Nat).getD q 0 < 256) →
      IncrOn [255, 3, 5, 9] 0 (0 + 4) → searchStart [255, 3, 5, 9] 0 4 = 0) :=
  C31_search_greater_than { num_bytes_ := 5, labels_ := [255, 3, 5, 9] } rfl 3 0 4 (by decide)
    (by
      intro q1 q2 h1 h2 h3
      have e : searchStart [255, 3, 5, 9] 0 4 = 1 := by decide
      rw [e] at h1
      have h4 : q2 < 4 := h3
      interval_cases q2 <;> interval_cases q1 <;> simp_all)

/-- The three outcomes of `searchGreaterThan` on the labels 255, 3, 5, 9: the label after an
equal one, the first label above an absent target, and no label above the target. -/
theorem searchGreaterThan_sample :
    LabelVector.searchGreaterThan { num_bytes_ := 5, labels_ := [255, 3, 5, 9] } 3 0 4
      = some (true, 2) ∧
    LabelVector.searchGreaterThan { num_bytes_ := 5, labels_ := [255, 3, 5, 9] } 4 0 4
      = some (true, 2) ∧
    LabelVector.searchGreaterThan { num_bytes_ := 5, labels_ := [255, 3, 5, 9] } 9 0 4
      = some (false, 1) ∧
    LabelVector.searchGreaterThan { num_bytes_ := 5, labels_ := [3, 5, 9, 12] } 1 0 4
      = some (true, 0) := by
  decide

end FST

namespace FST

/-! ## C33: the serialized label vector -/

/-- C33: for a label vector `lv` (an array of `num_bytes_` bytes: the labels and one more
byte for a constructed vector, no byte for a default-constructed one; 4 + `num_bytes_` + 7
below `2 ^ 32`, the range of `position_t`) and a destination cursor at an offset `|dst|`
that is a multiple of 8, `serialize` writes the 4 bytes of `num_bytes_`, then the
`num_bytes_` bytes of the array (0 stands for the last one, which is never initialised),
then padding, and advances the cursor by exactly `serializedSize()`, which is the smallest
multiple of 8 that is at least 4 + `num_bytes_`; `deSerialize` at the same offset of that
buffer, whatever follows in it, yields a label vector with the same `num_bytes_` and the
same labels, and advances its cursor by the same amount. -/
theorem C33_label_vector_round_trip (lv : LabelVector) (dst : List Nat)
    (hl : lv.labels_.length = lv.num_bytes_ - 1) (hn : lv.num_bytes_ + 11 < 2 ^ 32)
    (ha : dst.length % 8 = 0) :
    (∃ pad, lv.serialize dst = dst ++ toBytes 4 lv.num_bytes_ ++ lv.labels_
        ++ List.replicate (lv.num_bytes_ - lv.labels_.length) 0 ++ pad ∧
      (toBytes 4 lv.num_bytes_).length = 4 ∧
      (lv.labels_ ++ List.replicate (lv.num_bytes_ - lv.labels_.length) 0).length
        = lv.num_bytes_) ∧
    (lv.serialize dst).length = dst.length + lv.serializedSize ∧
    lv.serializedSize % 8 = 0 ∧ 4 + lv.num_bytes_ ≤ lv.serializedSize ∧
    (∀ m, m % 8 = 0 → 4 + lv.num_bytes_ ≤ m → lv.serializedSize ≤ m) ∧
    (∀ rest, LabelVector.deSerialize (lv.serialize dst ++ rest) dst.length
      = some (lv, dst.length + lv.serializedSize)) := by
  have hs : lv.serializedSize = alignOffset (4 + lv.num_bytes_) := by
    rw [LabelVector.serializedSize, Nat.mod_eq_of_lt (by omega), sizeAlign_eq _ (by omega)]
  have hadd : alignOffset (dst.length + 4 + lv.num_bytes_)
      = dst.length + alignOffset (4 + lv.num_bytes_) := by
    rw [Nat.add_assoc]; exact alignOffset_add _ _ ha
  refine ⟨⟨_, lv.serialize_eq dst hl, toBytes_length 4 _, by simp; omega⟩, ?_, ?_, ?_, ?_, ?_⟩
  · rw [lv.serialize_length dst hl, hadd, hs]
  · rw [hs]; exact alignOffset_mod _
  · rw [hs]; exact alignOffset_ge _
  · intro m h1 h2; rw [hs]; exact alignOffset_least _ m h1 h2
  · intro rest
    rw [lv.deSerialize_serialize dst rest hl (by omega), hadd, hs]

/-- C33 (witness): the labels `a`, `b`, `c` written at the offset 8. -/
theorem C33_label_vector_round_trip_witness :
    (∃ pad, LabelVector.serialize { num_bytes_ := 4, labels_ := [97, 98, 99] }
        [1, 2, 3, 4, 5, 6, 7, 8]
        = [1, 2, 3, 4, 5, 6, 7, 8] ++ toBytes 4 4 ++ [97, 98, 99]
          ++ List.replicate (4 - ([97, 98, 99] : List Nat).length) 0 ++ pad ∧
      (toBytes 4 4).length = 4 ∧
      (([97, 98, 99] : List Nat)
        ++ List.replicate (4 - ([97, 98, 99] : List Nat).length) 0).length = 4) ∧
    (LabelVector.serialize { num_bytes_ := 4, labels_ := [97, 98, 99] }
        [1, 2, 3, 4, 5, 6, 7, 8]).length
      = ([1, 2, 3, 4, 5, 6, 7, 8] : List Nat).length
        + LabelVector.serializedSize { num_bytes_ := 4, labels_ := [97, 98, 99] } ∧
    LabelVector.serializedSize { num_bytes_ := 4, labels_ := [97, 98, 99] } % 8 = 0 ∧
    4 + 4 ≤ LabelVector.serializedSize { num_bytes_ := 4, labels_ := [97, 98, 99] } ∧
    (∀ m, m % 8 = 0 → 4 + 4 ≤ m →
      LabelVector.serializedSize { num_bytes_ := 4, labels_ := [97, 98, 99] } ≤ m) ∧
    (∀ rest, LabelVector.deSerialize
        (LabelVector.serialize { num_bytes_ := 4, labels_ := [97, 98, 99] }
          [1, 2, 3, 4, 5, 6, 7, 8] ++ rest) ([1, 2, 3, 4, 5, 6, 7, 8] : List Nat).length
      = some ({ num_bytes_ := 4, labels_ := [97, 98, 99] },
          ([1, 2, 3, 4, 5, 6, 7, 8] : List Nat).length
            + LabelVector.serializedSize { num_bytes_ := 4, labels_ := [97, 98, 99] })) :=
  C33_label_vector_round_trip { num_bytes_ := 4, labels_ := [97, 98, 99] }
    [1, 2, 3, 4, 5, 6, 7, 8] (by decide) (by decide) (by decide)

/-- The buffer after the labels `a`, `b`, `c` were written at the offset 8, and the sizes
of some label vectors. -/
theorem serialize_sample :
    LabelVector.serialize { num_bytes_ := 4, labels_ := [97, 98, 99] } [1, 2, 3, 4, 5, 6, 7, 8]
      = [1, 2, 3, 4, 5, 6, 7, 8, 4, 0, 0, 0, 97, 98, 99, 0] ∧
    LabelVector.serializedSize { num_bytes_ := 4, labels_ := [97, 98, 99] } = 8 ∧
    LabelVector.serializedSize { num_bytes_ := 5, labels_ := [97, 98, 99, 100] } = 16 ∧
    LabelVector.serializedSize { num_bytes_ := 1, labels_ := [] } = 8 ∧
    LabelVector.serialize { num_bytes_ := 0, labels_ := [] } [] = [0, 0, 0, 0, 0, 0, 0, 0] ∧
    LabelVector.deSerialize [0, 0, 0, 0, 0, 0, 0, 0] 0
      = some ({ num_bytes_ := 0, labels_ := [] }, 8) := by
  decide

end FST

namespace FST

/-! ## C32: the reads of `simdSearch` -/

/-- C32 (counterexample): a label array of 17 bytes searched from the position
`2 ^ 32 - 15` with the length 16.  The guard `pos + num_labels_searched + 15 < num_bytes_`
wraps around to `0 < 17`, and the 16-byte block is loaded from the index `2 ^ 32 - 15`, far
behind the array. -/
theorem C32_guard_wraps :
    Access.block 4294967281 ∈
      (LabelVector.simdSearchRun (fun _ => 0) 17 1 4294967281 16).accesses ∧
    ¬ (4294967281 + 15 < 17) := by
  decide

/-- C32: `simdSearch` on a range `[pos, pos + search_len)` whose end is at most `2 ^ 32`, in
a label array of `num_bytes` bytes (a 32-bit count) with any contents `mem`: each 16-byte
block it loads starts at an index `s` with `s + 15 < num_bytes` and lies in the range; every
label it reads singly is at an index below `num_bytes`, in the range; and when
`pos + search_len <= num_bytes` no assertion fails, so that the function returns.  On a
range inside the labels the run returns what the function `simdSearch` of the label vector
returns. -/
theorem C32_simd_reads_in_bounds (mem : Nat → Nat) (num_bytes target pos search_len : Nat)
    (hnb : num_bytes < 2 ^ 32) (hw : pos + search_len ≤ 2 ^ 32) :
    (∀ s, Access.block s ∈
        (LabelVector.simdSearchRun mem num_bytes target pos search_len).accesses →
      s + 15 < num_bytes ∧ pos ≤ s ∧ s + 16 ≤ pos + search_len) ∧
    (∀ i, Access.byte i ∈
        (LabelVector.simdSearchRun mem num_bytes target pos search_len).accesses →
      i < num_bytes ∧ pos ≤ i ∧ i < pos + search_len) ∧
    (pos + search_len ≤ num_bytes →
      (LabelVector.simdSearchRun mem num_bytes target pos search_len).result ≠ none) ∧
    (∀ lv : LabelVector, lv.num_bytes_ = num_bytes → lv.num_bytes_ = lv.labels_.length + 1 →
      pos + search_len ≤ lv.labels_.length →
      (LabelVector.simdSearchRun (fun q => lv.labels_.getD q 0) num_bytes target pos
        search_len).result = lv.simdSearch target pos search_len) := by
  obtain ⟨h1, h2, h3⟩ := simdSearchRun_safe mem num_bytes target pos search_len hnb hw
  refine ⟨h1, h2, h3, ?_⟩
  intro lv e1 e2 hin
  subst e1
  exact simdSearchRun_result (LRepr.mk rfl e2) target pos search_len hnb hin

/-- C32 (witness): a label array of 40 bytes searched from the position 3 with the length
30. -/
theorem C32_simd_reads_in_bounds_witness :
    (∀ s, Access.block s ∈
        (LabelVector.simdSearchRun (fun q => q % 7) 40 200 3 30).accesses →
      s + 15 < 40 ∧ 3 ≤ s ∧ s + 16 ≤ 3 + 30) ∧
    (∀ i, Access.byte i ∈
        (LabelVector.simdSearchRun (fun q => q % 7) 40 200 3 30).accesses →
      i < 40 ∧ 3 ≤ i ∧ i < 3 + 30) ∧
    (3 + 30 ≤ 40 →
      (LabelVector.simdSearchRun (fun q => q % 7) 40 200 3 30).result ≠ none) ∧
    (∀ lv : LabelVector, lv.num_bytes_ = 40 → lv.num_bytes_ = lv.labels_.length + 1 →
      3 + 30 ≤ lv.labels_.length →
      (LabelVector.simdSearchRun (fun q => lv.labels_.getD q 0) 40 200 3 30).result
        = lv.simdSearch 200 3 30) :=
  C32_simd_reads_in_bounds (fun q => q % 7) 40 200 3 30 (by decide) (by decide)

/-- The reads of two runs: one block and fourteen labels for a range of 30 labels; a range
that ends behind the array fails the assertion of the second loop after the last byte of the
array was read. -/
theorem simd_run_sample :
    (LabelVector.simdSearchRun (fun q => q % 7) 40 200 3 30).accesses
      = Access.block 3 :: (List.range 14).map (fun j => Access.byte (19 + j)) ∧
    (LabelVector.simdSearchRun (fun q => q % 7) 40 200 3 30).result = some (false, 3) ∧
    (LabelVector.simdSearchRun (fun q => q % 7) 20 200 3 30).accesses
      = Access.block 3 :: [Access.byte 19] ∧
    (LabelVector.simdSearchRun (fun q => q % 7) 20 200 3 30).result = none := by
  decide

end FST

namespace FST

/-! ## C39: the range of the cutoff level -/

/-- For a non-empty list of keys of one length `L > 0` in strictly increasing order the
sparse build returns and `determineCutoffLevel` returns on its result with a cutoff between
1 and the height; when no key holds the byte 255 the whole `build` returns with this
cutoff. -/
theorem cutoff_range_sorted (R : Nat) (keys : List (List Nat)) (values : List Nat) (L : Nat)
    (K : KeysOK keys L) (hv : values.length = keys.length) (hn : keys.length < 2 ^ 31)
    (hL : L < 2 ^ 32) :
    ∃ b1 b2, (FSTBuilder.mk2 true R).buildSparse keys values = some b1 ∧
      b1.determineCutoffLevel = some b2 ∧
      1 ≤ b2.sparse_start_level_ ∧ b2.sparse_start_level_ ≤ b2.getTreeHeight ∧
      b2.getTreeHeight ≤ L ∧
      ((∀ k ∈ keys, ∀ c ∈ k, c < 255) →
        ∃ b3, (FSTBuilder.mk2 true R).build keys values = some b3 ∧
          b3.sparse_start_level_ = b2.sparse_start_level_ ∧
          b3.getTreeHeight = b2.getTreeHeight) := by
  obtain ⟨b1, hb, hne, hlen, hsz⟩ := buildSparse_sizes true R keys values L K hv
  obtain ⟨b0, hb0, S⟩ := buildSparse_state_mk2 true R keys values L K hv
  rw [hb] at hb0
  have e0 := Option.some.inj hb0
  subst e0
  obtain ⟨cw, lw, Sh, _⟩ := S
  have LO : LevelsOK b1 := ⟨Sh.lenN.trans Sh.lenLab.symm, Sh.lenV.trans Sh.lenLab.symm⟩
  obtain ⟨c, hc, hd⟩ := determineCutoffLevel_total b1 LO
  have hr := determineCutoffLevel_range b1 _ hne
    (fun l => by have := hsz l; omega) (by omega) hd
  refine ⟨b1, _, hb, hd, hr.1, hr.2, ?_, ?_⟩
  · simp only [FSTBuilder.getTreeHeight]; exact hlen
  · intro hkeys
    obtain ⟨I, D⟩ := buildSparse_inv true R keys values hkeys b1 hb
    obtain ⟨bl, bc, pk, he⟩ := buildDense_total { b1 with
          sparse_start_level_ := c
          values_dense_ := b1.values_dense_ ++ (b1.values_.take c).flatten
          values_sparse_ := b1.values_sparse_ ++ (b1.values_.drop c).flatten
          values_ := [] } D.bl D.bc D.pk (by
        intro l hl
        have hl2 : l < b1.labels_.length := Nat.lt_of_lt_of_le hl hc
        have Rd := I.levelReady hl2
        exact ⟨_, _, _, _, ⟨Rd.hlab, Rd.hcw, Rd.hlw, Rd.hnc, Rd.capc, Rd.capl, Rd.cnt, Rd.head,
          Rd.bytes⟩⟩)
    have k1 : check (decide (keys.length > 0)) = some () := by
      have := List.length_pos.mpr K.ne
      simp [check, this]
    have hi : b1.include_dense_ = true := D.incl
    have hbuild : (FSTBuilder.mk2 true R).build keys values = some (withDense { b1 with
          sparse_start_level_ := c
          values_dense_ := b1.values_dense_ ++ (b1.values_.take c).flatten
          values_sparse_ := b1.values_sparse_ ++ (b1.values_.drop c).flatten
          values_ := [] } bl bc pk) := by
      simp only [FSTBuilder.build, k1, hb, Option.bind_eq_bind, Option.some_bind]
      rw [if_pos hi, hd, Option.some_bind]
      exact he
    exact ⟨_, hbuild, rfl, rfl⟩

/-- C39: for every key list (fewer than `2 ^ 31` keys, each shorter than `2 ^ 32` bytes)
built with `include_dense = true` and any ratio `R`: whenever `build` returns, the state has
`1 <= sparse_start_level_ <= tree height`; on every result of the sparse build of a
non-empty list `determineCutoffLevel` returns with such a cutoff (`computeDenseMem(0)` is 0
and `computeSparseMem(0)` is positive, so the loop always accepts level 0 for the dense
tier, and it stops at the height).  For a non-empty list of keys of one length `L > 0` in
strictly increasing order the sparse build and `determineCutoffLevel` do return, the height
is at most `L`, and when no key holds the byte 255 the whole `build` returns with this
cutoff. -/
theorem C39_cutoff_range (R : Nat) (keys : List (List Nat)) (values : List Nat)
    (hn : keys.length < 2 ^ 31) (hL : ∀ k ∈ keys, k.length < 2 ^ 32) :
    (∀ b3, (FSTBuilder.mk2 true R).build keys values = some b3 →
      1 ≤ b3.sparse_start_level_ ∧ b3.sparse_start_level_ ≤ b3.getTreeHeight) ∧
    (∀ b1, (FSTBuilder.mk2 true R).buildSparse keys values = some b1 → keys ≠ [] →
      ∃ b2, b1.determineCutoffLevel = some b2 ∧
        1 ≤ b2.sparse_start_level_ ∧ b2.sparse_start_level_ ≤ b2.getTreeHeight) ∧
    (∀ L, KeysOK keys L → values.length = keys.length →
      ∃ b1 b2, (FSTBuilder.mk2 true R).buildSparse keys values = some b1 ∧
        b1.determineCutoffLevel = some b2 ∧
        1 ≤ b2.sparse_start_level_ ∧ b2.sparse_start_level_ ≤ b2.getTreeHeight ∧
        b2.getTreeHeight ≤ L ∧
        ((∀ k ∈ keys, ∀ c ∈ k, c < 255) →
          ∃ b3, (FSTBuilder.mk2 true R).build keys values = some b3 ∧
            b3.sparse_start_level_ = b2.sparse_start_level_ ∧
            b3.getTreeHeight = b2.getTreeHeight)) := by
  obtain ⟨p1, p2⟩ := build_cutoff_range R keys values hn hL
  refine ⟨p2, p1, ?_⟩
  intro L K hv
  have hL2 : L < 2 ^ 32 := by
    obtain ⟨k, ks, e⟩ := List.exists_cons_of_ne_nil K.ne
    have hk : k ∈ keys := by rw [e]; exact List.mem_cons_self _ _
    rw [← K.len k hk]
    exact hL k hk
  exact cutoff_range_sorted R keys values L K hv hn hL2

/-- C39 (witness): the keys "aa", "ab", "bc" with the ratio 16. -/
theorem C39_cutoff_range_witness :
    (∀ b3, (FSTBuilder.mk2 true 16).build [[97, 97], [97, 98], [98, 99]] [10, 20, 30]
        = some b3 →
      1 ≤ b3.sparse_start_level_ ∧ b3.sparse_start_level_ ≤ b3.getTreeHeight) ∧
    (∀ b1, (FSTBuilder.mk2 true 16).buildSparse [[97, 97], [97, 98], [98, 99]] [10, 20, 30]
        = some b1 → [[97, 97], [97, 98], [98, 99]] ≠ ([] : List (List Nat)) →
      ∃ b2, b1.determineCutoffLevel = some b2 ∧
        1 ≤ b2.sparse_start_level_ ∧ b2.sparse_start_level_ ≤ b2.getTreeHeight) ∧
    (∀ L, KeysOK [[97, 97], [97, 98], [98, 99]] L →
      ([10, 20, 30] : List Nat).length = [[97, 97], [97, 98], [98, 99]].length →
      ∃ b1 b2, (FSTBuilder.mk2 true 16).buildSparse [[97, 97], [97, 98], [98, 99]]
          [10, 20, 30] = some b1 ∧
        b1.determineCutoffLevel = some b2 ∧
        1 ≤ b2.sparse_start_level_ ∧ b2.sparse_start_level_ ≤ b2.getTreeHeight ∧
        b2.getTreeHeight ≤ L ∧
        ((∀ k ∈ [[97, 97], [97, 98], [98, 99]], ∀ c ∈ k, c < 255) →
          ∃ b3, (FSTBuilder.mk2 true 16).build [[97, 97], [97, 98], [98, 99]] [10, 20, 30]
              = some b3 ∧
            b3.sparse_start_level_ = b2.sparse_start_level_ ∧
            b3.getTreeHeight = b2.getTreeHeight)) :=
  C39_cutoff_range 16 [[97, 97], [97, 98], [98, 99]] [10, 20, 30] (by decide) (by decide)

/-- The cutoff of the keys "aa", "ab", "bc": 1 with the ratio 16 (the dense root costs 512
bytes, more than 16 times the sparse tier), and 2, the height, with the ratio 0; a list with
a repeated key and an unsorted list are built as well, with the cutoff 1. -/
theorem cutoff_sample :
    ((FSTBuilder.mk2 true 16).build [[97, 97], [97, 98], [98, 99]] [10, 20, 30]).map
      (fun b => (b.sparse_start_level_, b.getTreeHeight)) = some (1, 2) ∧
    ((FSTBuilder.mk2 true 0).build [[97, 97], [97, 98], [98, 99]] [10, 20, 30]).map
      (fun b => (b.sparse_start_level_, b.getTreeHeight)) = some (2, 2) ∧
    ((FSTBuilder.mk2 true 16).build [[97, 97], [97, 97], [98, 99]] [10, 20, 30]).map
      (fun b => (b.sparse_start_level_, b.getTreeHeight)) = some (1, 1) ∧
    ((FSTBuilder.mk2 true 16).build [[98], [97]] [10, 20]).map
      (fun b => (b.sparse_start_level_, b.getTreeHeight)) = some (1, 1) := by
  decide

end FST

namespace FST

/-! ## C35, C36: the cached value index, the search with index values -/

/-- The index of "aa", "ab", "ba" with the values 0, 1, 2, searched for "ab" and advanced
once: the terminal positions 3 and 1 with the cached value indices 2 and 0. -/
theorem cached_sample :
    ((FSTBuilder.new.buildSparse [[97, 97], [97, 98], [98, 97]] [0, 1, 2]).bind fun b =>
      (LoudsSparse.new b [[97, 97], [97, 98], [98, 97]]).bind fun t =>
        (t.moveToKeyGreaterThan [97, 98] true (Iter.new t)).bind fun it0 =>
          (it0.incr t).map fun it1 =>
            ((it0.pos_in_trie_[it0.key_len_ - 1]?, it0.value_pos_[it0.key_len_ - 1]?,
              (it0.pos_in_trie_[it0.key_len_ - 1]?).map (valueIndexSpec t)),
             (it1.pos_in_trie_[it1.key_len_ - 1]?, it1.value_pos_[it1.key_len_ - 1]?,
              (it1.pos_in_trie_[it1.key_len_ - 1]?).map (valueIndexSpec t))))
      = some ((some 3, some 2, some 2), (some 1, some 0, some 0)) := by
  decide

set_option maxRecDepth 100000 in
theorem keys65_search :
    ((FSTBuilder.new.buildSparse keys65 (List.range 65)).bind fun b =>
      (LoudsSparse.new b keys65).map fun t => t.labels_.num_bytes_) = some 66 ∧
    ((FSTBuilder.new.buildSparse keys65 (List.range 65)).bind fun b =>
      (LoudsSparse.new b keys65).bind fun t => t.nodeSize 0) = some 128 ∧
    ((FSTBuilder.new.buildSparse keys65 (List.range 65)).bind fun b =>
      (LoudsSparse.new b keys65).bind fun t =>
        (t.moveToKeyGreaterThan [20] true (Iter.new t)).map fun it => it.getKey)
      = some [20] ∧
    ((FSTBuilder.new.buildSparse keys65 (List.range 65)).bind fun b =>
      (LoudsSparse.new b keys65).bind fun t =>
        (t.moveToKeyGreaterThan [64] false (Iter.new t)).map fun it => it.isValid)
      = some false ∧
    ((FSTBuilder.new.buildSparse keys65 (List.range 65)).bind fun b =>
      (LoudsSparse.new b keys65).map fun t => t.labels_.search 200 0 128) = some none ∧
    ((FSTBuilder.new.buildSparse keys65 (List.range 65)).bind fun b =>
      (LoudsSparse.new b keys65).map fun t =>
        (t.moveToKeyGreaterThan [200] true (Iter.new t)).map fun it => it.isValid)
      = some none ∧
    ((FSTBuilder.new.buildSparse keys65 (List.range 65)).bind fun b =>
      (LoudsSparse.new b keys65).map fun t =>
        (t.moveToKeyGreaterThan [200] false (Iter.new t)).map fun it => it.isValid)
      = some none := by
  decide

/-- C36 (failing input): the index of the 65 one-byte keys 0 .. 64 with the values
0 .. 64, the indices of the keys (66 label bytes, `nodeSize` of the root 128).  The search
of the stored key 20 ends on it, and the exclusive search of the largest key 64 leaves the
iterator invalid.  The search of the probe 200, inclusive or not, does not end: with the
size 128 for the 65 labels of the root, the label search of the absent byte 200 reads the
labels up to the last, never written, byte of the array and then fails the assertion
`pos + num_labels_searched < num_bytes_`. -/
theorem C36_search_fails_in_long_last_node :
    ((FSTBuilder.new.buildSparse keys65 (List.range 65)).bind fun b =>
      (LoudsSparse.new b keys65).map fun t => t.labels_.num_bytes_) = some 66 ∧
    ((FSTBuilder.new.buildSparse keys65 (List.range 65)).bind fun b =>
      (LoudsSparse.new b keys65).bind fun t => t.nodeSize 0) = some 128 ∧
    ((FSTBuilder.new.buildSparse keys65 (List.range 65)).bind fun b =>
      (LoudsSparse.new b keys65).bind fun t =>
        (t.moveToKeyGreaterThan [20] true (Iter.new t)).map fun it => it.getKey)
      = some [20] ∧
    ((FSTBuilder.new.buildSparse keys65 (List.range 65)).bind fun b =>
      (LoudsSparse.new b keys65).bind fun t =>
        (t.moveToKeyGreaterThan [64] false (Iter.new t)).map fun it => it.isValid)
      = some false ∧
    ((FSTBuilder.new.buildSparse keys65 (List.range 65)).bind fun b =>
      (LoudsSparse.new b keys65).map fun t => t.labels_.search 200 0 128) = some none ∧
    ((FSTBuilder.new.buildSparse keys65 (List.range 65)).bind fun b =>
      (LoudsSparse.new b keys65).map fun t =>
        (t.moveToKeyGreaterThan [200] true (Iter.new t)).map fun it => it.isValid)
      = some none ∧
    ((FSTBuilder.new.buildSparse keys65 (List.range 65)).bind fun b =>
      (LoudsSparse.new b keys65).map fun t =>
        (t.moveToKeyGreaterThan [200] false (Iter.new t)).map fun it => it.isValid)
      = some none :=
  keys65_search

end FST

namespace FST

/-! ## C7, C8: the traversals of any built index -/

/-- The stored unique prefix of the key `k_i` is a prefix of no other key of the list. -/
theorem tK_owner (keys : List (List Nat)) (L : Nat) (K : KeysOK keys L) (i j : Nat)
    (hi : i < keys.length) (hj : j < keys.length) (h : tK keys i <+: kAt keys j) : j = i := by
  by_contra hne
  have e := List.prefix_iff_eq_take.mp h
  rw [K.tK_length i hi] at e
  exact K.take_dOf_ne i j (fun x => hne x.symm) hi hj e.symm

/-- The values of the keys are the first `keys.length` values. -/
theorem getD_take_values (values : List Nat) (n i : Nat) (hi : i < n) :
    (values.take n).getD i 0 = values.getD i 0 := by
  simp only [List.getD_eq_getElem?_getD, List.getElem?_take, if_pos hi]

/-- A sparse build of sorted keys that returns is the build of keys of one length with one
value per key. -/
theorem buildSparse_trimmed (keys : List (List Nat)) (values : List Nat)
    (hs : keys.Pairwise (fun a b => strLt a b = true)) (hne : keys ≠ []) (b : FSTBuilder)
    (h : FSTBuilder.new.buildSparse keys values = some b) :
    ∃ L, KeysOK keys L ∧ (values.take keys.length).length = keys.length ∧
      FSTBuilder.new.buildSparse keys (values.take keys.length) = some b := by
  obtain ⟨L, K, hvl⟩ := buildSparse_accepts keys values hs hne b h
  have hl : (values.take keys.length).length = keys.length := by
    rw [List.length_take]; omega
  refine ⟨L, K, hl, ?_⟩
  have e : values = values.take keys.length ++ values.drop keys.length :=
    (List.take_append_drop _ _).symm
  rw [e, buildSparse_surplus _ _ _ _ (by omega)] at h
  exact h

/-- The sparse build of keys of one length `L > 0` in strictly increasing order returns when
there is a value for every key. -/
theorem buildSparse_returns_surplus (keys : List (List Nat)) (values : List Nat) (L : Nat)
    (hs : keys.Pairwise (fun a b => strLt a b = true)) (hL : 0 < L)
    (hlen : ∀ k ∈ keys, k.length = L) (hv : keys.length ≤ values.length) :
    ∃ b, FSTBuilder.new.buildSparse keys values = some b := by
  have hl : (values.take keys.length).length = keys.length := by
    rw [List.length_take]; omega
  obtain ⟨b, hb⟩ := buildSparse_returns keys (values.take keys.length) L hs hL hlen hl
  refine ⟨b, ?_⟩
  have e : values = values.take keys.length ++ values.drop keys.length :=
    (List.take_append_drop _ _).symm
  rw [e, buildSparse_surplus _ _ _ _ (by omega)]
  exact hb

/-- C7 (counterexample): the forward traversal of the index of "aaa", "aab", "bcd" with the
values 10, 20, 30.  The three steps have the values 10, 20, 30 and the fourth leaves the
iterator invalid, but the keys the iterator yields are "aaa", "aab" and "b": on the terminal
edge of "bcd" the iterator holds the stored unique prefix "b", and the stored key "bcd" is
never yielded. -/
theorem C7_walk_yields_prefixes :
    ((FSTBuilder.new.buildSparse [[97, 97, 97], [97, 97, 98], [98, 99, 100]]
        [10, 20, 30]).bind fun b =>
      (LoudsSparse.new b [[97, 97, 97], [97, 97, 98], [98, 99, 100]]).bind fun t =>
      ((Iter.new t).moveToLeftMostKey t).bind fun it0 =>
      (it0.incr t).bind fun it1 =>
      (it1.incr t).bind fun it2 =>
      (it2.incr t).map fun it3 =>
        ([it0.getKey, it1.getKey, it2.getKey],
          [it0.getValue t, it1.getValue t, it2.getValue t],
          [it0.isValid, it1.isValid, it2.isValid, it3.isValid]))
      = some ([[97, 97, 97], [97, 97, 98], [98]], [some 10, some 20, some 30],
          [true, true, true, false]) ∧
    ([98] : List Nat) ≠ [98, 99, 100] := by
  decide

/-- C7 (amended): for a non-empty, strictly sorted list of keys (byte strings) and every
index that `buildSparse` and the constructor of `LoudsSparse` produce from it, the fresh
iterator is moved onto the smallest key by `moveToLeftMostKey`, and after `i` applications
of `++`, for every `i < n`, the iterator is valid on the terminal edge of the key `k_i`:
`getKey` is the stored unique prefix of `k_i` (its first `d_i` bytes, not the key itself),
which is a prefix of no other key of the list, and `getValue` is `v_i`.  The prefixes
visited are strictly increasing, and the `++` applied at the largest key, the `n`-th, leaves
the iterator invalid.  The build returns when the keys have one length `L > 0` and there is
a value for every key. -/
theorem C7_forward_traversal (keys : List (List Nat)) (values : List Nat)
    (hne : keys ≠ []) (hsorted : keys.Pairwise (fun a b => strLt a b = true))
    (hbyte : ∀ k ∈ keys, ∀ c ∈ k, c < 256) :
    (∀ b, FSTBuilder.new.buildSparse keys values = some b →
      ∃ t it0, LoudsSparse.new b keys = some t ∧
        (Iter.new t).moveToLeftMostKey t = some it0 ∧
        (∀ i, i < keys.length → ∃ it, Iter.incrTimes t i it0 = some it ∧
          it.isValid = true ∧
          it.getKey = (keys.getD i []).take (dOf keys i) ∧
          (∀ j, j < keys.length → it.getKey <+: keys.getD j [] → j = i) ∧
          it.getValue t = some (values.getD i 0)) ∧
        (∀ i j, i < j → j < keys.length →
          strLt ((keys.getD i []).take (dOf keys i)) ((keys.getD j []).take (dOf keys j))
            = true) ∧
        ∃ it, Iter.incrTimes t keys.length it0 = some it ∧ it.isValid = false) ∧
    (∀ L, (∀ k ∈ keys, k.length = L) → 0 < L → keys.length ≤ values.length →
      ∃ b, FSTBuilder.new.buildSparse keys values = some b) := by
  refine ⟨?_, fun L hlen hL hv => buildSparse_returns_surplus keys values L hsorted hL hlen hv⟩
  intro b hb
  obtain ⟨L, K, hl, hb2⟩ := buildSparse_trimmed keys values hsorted hne b hb
  obtain ⟨b1, t, it0, hb1, ht, h0, h1, it, it1, h2, h3, h4, _⟩ :=
    forward_traversal keys (values.take keys.length) L K hl (Or.inr hbyte)
  rw [hb2] at hb1
  have eb := Option.some.inj hb1
  subst eb
  refine ⟨t, it0, ht, h0, ?_, ?_, it1, ?_, h4⟩
  · intro i hi
    obtain ⟨it2, a1, a2, a3⟩ := h1 i hi
    have hk : it2.getKey = tK keys i := atKey_getKey a2
    refine ⟨it2, a1, a2.valid, hk, ?_, ?_⟩
    · intro j hj hp
      rw [hk] at hp
      exact tK_owner keys L K i j hi hj hp
    · rw [a3, getD_take_values values keys.length i hi]
  · intro i j hij hj
    exact K.tK_lt i j hij hj
  · have hn : 0 < keys.length := List.length_pos.mpr hne
    have e : keys.length = keys.length - 1 + 1 := by omega
    rw [e]
    simp only [Iter.incrTimes, h2, Option.bind_eq_bind, Option.some_bind, h3]

/-- C7 (witness): the keys of the integers 246, 255 and 264 of the integer test with the
values 27, 28, 29; the second key ends in the byte 255. -/
theorem C7_forward_traversal_witness :
    (∀ b, FSTBuilder.new.buildSparse [[0, 0, 0, 246], [0, 0, 0, 255], [0, 0, 1, 8]]
        [27, 28, 29] = some b →
      ∃ t it0, LoudsSparse.new b [[0, 0, 0, 246], [0, 0, 0, 255], [0, 0, 1, 8]] = some t ∧
        (Iter.new t).moveToLeftMostKey t = some it0 ∧
        (∀ i, i < List.length [[0, 0, 0, 246], [0, 0, 0, 255], [0, 0, 1, 8]] →
          ∃ it, Iter.incrTimes t i it0 = some it ∧ it.isValid = true ∧
          it.getKey = (List.getD [[0, 0, 0, 246], [0, 0, 0, 255], [0, 0, 1, 8]] i []).take
            (dOf [[0, 0, 0, 246], [0, 0, 0, 255], [0, 0, 1, 8]] i) ∧
          (∀ j, j < List.length [[0, 0, 0, 246], [0, 0, 0, 255], [0, 0, 1, 8]] →
            it.getKey <+: List.getD [[0, 0, 0, 246], [0, 0, 0, 255], [0, 0, 1, 8]] j [] →
            j = i) ∧
          it.getValue t = some (List.getD [27, 28, 29] i 0)) ∧
        (∀ i j, i < j → j < List.length [[0, 0, 0, 246], [0, 0, 0, 255], [0, 0, 1, 8]] →
          strLt ((List.getD [[0, 0, 0, 246], [0, 0, 0, 255], [0, 0, 1, 8]] i []).take
              (dOf [[0, 0, 0, 246], [0, 0, 0, 255], [0, 0, 1, 8]] i))
            ((List.getD [[0, 0, 0, 246], [0, 0, 0, 255], [0, 0, 1, 8]] j []).take
              (dOf [[0, 0, 0, 246], [0, 0, 0, 255], [0, 0, 1, 8]] j)) = true) ∧
        ∃ it, Iter.incrTimes t (List.length [[0, 0, 0, 246], [0, 0, 0, 255], [0, 0, 1, 8]])
          it0 = some it ∧ it.isValid = false) ∧
    (∀ L, (∀ k ∈ [[0, 0, 0, 246], [0, 0, 0, 255], [0, 0, 1, 8]], k.length = L) → 0 < L →
      List.length [[0, 0, 0, 246], [0, 0, 0, 255], [0, 0, 1, 8]]
        ≤ ([27, 28, 29] : List Nat).length →
      ∃ b, FSTBuilder.new.buildSparse [[0, 0, 0, 246], [0, 0, 0, 255], [0, 0, 1, 8]]
        [27, 28, 29] = some b) :=
  C7_forward_traversal [[0, 0, 0, 246], [0, 0, 0, 255], [0, 0, 1, 8]] [27, 28, 29]
    (by decide) (by decide) (by decide)

/-- C8 (counterexample): the backward traversal of the index of "aaa", "aab", "bcd".  The
iterator put on the largest key by `moveToRightMostKey` and moved by `--` yields the keys
"b", "aab", "aaa" and is invalid after the third `--`: on the terminal edge of "bcd" it
holds the stored unique prefix "b", and the stored key "bcd" is never yielded. -/
theorem C8_walk_yields_prefixes :
    ((FSTBuilder.new.buildSparse [[97, 97, 97], [97, 97, 98], [98, 99, 100]]
        [10, 20, 30]).bind fun b =>
      (LoudsSparse.new b [[97, 97, 97], [97, 97, 98], [98, 99, 100]]).bind fun t =>
      ((Iter.new t).moveToRightMostKey t).bind fun it0 =>
      (it0.decr t).bind fun it1 =>
      (it1.decr t).bind fun it2 =>
      (it2.decr t).map fun it3 =>
        ([it0.getKey, it1.getKey, it2.getKey],
          [it0.isValid, it1.isValid, it2.isValid, it3.isValid]))
      = some ([[98], [97, 97, 98], [97, 97, 97]], [true, true, true, false]) ∧
    ([98] : List Nat) ≠ [98, 99, 100] := by
  decide

/-- C8 (amended): for a non-empty, strictly sorted list of keys (byte strings) and every
index that `buildSparse` and the constructor of `LoudsSparse` produce from it, the fresh
iterator is moved onto the largest key by `moveToRightMostKey`, and after `i` applications
of `--`, for every `i < n`, the iterator is valid on the terminal edge of the key
`k_(n-1-i)`: `getKey` is the stored unique prefix of that key (its first `d` bytes, not the
key itself), which is a prefix of no other key of the list; each `--` moves from `k_j` to
`k_(j-1)`.  The prefixes visited are strictly decreasing, and the `--` applied at the
smallest key, the `n`-th, leaves the iterator invalid.  The build returns when the keys have
one length `L > 0` and there is a value for every key. -/
theorem C8_backward_traversal (keys : List (List Nat)) (values : List Nat)
    (hne : keys ≠ []) (hsorted : keys.Pairwise (fun a b => strLt a b = true))
    (hbyte : ∀ k ∈ keys, ∀ c ∈ k, c < 256) :
    (∀ b, FSTBuilder.new.buildSparse keys values = some b →
      ∃ t it0, LoudsSparse.new b keys = some t ∧
        (Iter.new t).moveToRightMostKey t = some it0 ∧
        (∀ i, i < keys.length → ∃ it, Iter.decrTimes t i it0 = some it ∧
          it.isValid = true ∧
          it.getKey = (keys.getD (keys.length - 1 - i) []).take
            (dOf keys (keys.length - 1 - i)) ∧
          (∀ j, j < keys.length → it.getKey <+: keys.getD j [] →
            j = keys.length - 1 - i)) ∧
        (∀ i j, i < j → j < keys.length →
          strLt ((keys.getD i []).take (dOf keys i)) ((keys.getD j []).take (dOf keys j))
            = true) ∧
        ∃ it, Iter.decrTimes t keys.length it0 = some it ∧ it.isValid = false) ∧
    (∀ L, (∀ k ∈ keys, k.length = L) → 0 < L → keys.length ≤ values.length →
      ∃ b, FSTBuilder.new.buildSparse keys values = some b) := by
  refine ⟨?_, fun L hlen hL hv => buildSparse_returns_surplus keys values L hsorted hL hlen hv⟩
  intro b hb
  obtain ⟨L, K, hl, hb2⟩ := buildSparse_trimmed keys values hsorted hne b hb
  obtain ⟨b1, t, it0, hb1, ht, h0, h1, it, h2, h3⟩ :=
    backward_traversal keys (values.take keys.length) L K hl (Or.inr hbyte)
  rw [hb2] at hb1
  have eb := Option.some.inj hb1
  subst eb
  refine ⟨t, it0, ht, h0, ?_, ?_, it, h2, h3⟩
  · intro i hi
    obtain ⟨it2, a1, a2⟩ := h1 i hi
    have hk : it2.getKey = tK keys (keys.length - 1 - i) := onKey_getKey a2
    refine ⟨it2, a1, a2.valid, hk, ?_⟩
    intro j hj hp
    rw [hk] at hp
    exact tK_owner keys L K (keys.length - 1 - i) j (by omega) hj hp
  · intro i j hij hj
    exact K.tK_lt i j hij hj

/-- C8 (witness): the keys of the integers 246, 255 and 264 of the integer test with the
values 27, 28, 29; the second key ends in the byte 255. -/
theorem C8_backward_traversal_witness :
    (∀ b, FSTBuilder.new.buildSparse [[0, 0, 0, 246], [0, 0, 0, 255], [0, 0, 1, 8]]
        [27, 28, 29] = some b →
      ∃ t it0, LoudsSparse.new b [[0, 0, 0, 246], [0, 0, 0, 255], [0, 0, 1, 8]] = some t ∧
        (Iter.new t).moveToRightMostKey t = some it0 ∧
        (∀ i, i < List.length [[0, 0, 0, 246], [0, 0, 0, 255], [0, 0, 1, 8]] →
          ∃ it, Iter.decrTimes t i it0 = some it ∧ it.isValid = true ∧
          it.getKey = (List.getD [[0, 0, 0, 246], [0, 0, 0, 255], [0, 0, 1, 8]]
              (List.length [[0, 0, 0, 246], [0, 0, 0, 255], [0, 0, 1, 8]] - 1 - i) []).take
            (dOf [[0, 0, 0, 246], [0, 0, 0, 255], [0, 0, 1, 8]]
              (List.length [[0, 0, 0, 246], [0, 0, 0, 255], [0, 0, 1, 8]] - 1 - i)) ∧
          (∀ j, j < List.length [[0, 0, 0, 246], [0, 0, 0, 255], [0, 0, 1, 8]] →
            it.getKey <+: List.getD [[0, 0, 0, 246], [0, 0, 0, 255], [0, 0, 1, 8]] j [] →
            j = List.length [[0, 0, 0, 246], [0, 0, 0, 255], [0, 0, 1, 8]] - 1 - i)) ∧
        (∀ i j, i < j → j < List.length [[0, 0, 0, 246], [0, 0, 0, 255], [0, 0, 1, 8]] →
          strLt ((List.getD [[0, 0, 0, 246], [0, 0, 0, 255], [0, 0, 1, 8]] i []).take
              (dOf [[0, 0, 0, 246], [0, 0, 0, 255], [0, 0, 1, 8]] i))
            ((List.getD [[0, 0, 0, 246], [0, 0, 0, 255], [0, 0, 1, 8]] j []).take
              (dOf [[0, 0, 0, 246], [0, 0, 0, 255], [0, 0, 1, 8]] j)) = true) ∧
        ∃ it, Iter.decrTimes t (List.length [[0, 0, 0, 246], [0, 0, 0, 255], [0, 0, 1, 8]])
          it0 = some it ∧ it.isValid = false) ∧
    (∀ L, (∀ k ∈ [[0, 0, 0, 246], [0, 0, 0, 255], [0, 0, 1, 8]], k.length = L) → 0 < L →
      List.length [[0, 0, 0, 246], [0, 0, 0, 255], [0, 0, 1, 8]]
        ≤ ([27, 28, 29] : List Nat).length →
      ∃ b, FSTBuilder.new.buildSparse [[0, 0, 0, 246], [0, 0, 0, 255], [0, 0, 1, 8]]
        [27, 28, 29] = some b) :=
  C8_backward_traversal [[0, 0, 0, 246], [0, 0, 0, 255], [0, 0, 1, 8]] [27, 28, 29]
    (by decide) (by decide) (by decide)

/-- The traversals of an index whose keys hold the byte 255 at the start of a node, inside a
node and on a terminal edge: the forward walk yields the stored prefixes in increasing
order with their values, the backward walk yields them in decreasing order. -/
theorem walks_with_byte_255 :
    ((FSTBuilder.new.buildSparse [[1, 255, 7], [255, 1, 0], [255, 255, 0], [255, 255, 255]]
        [10, 20, 30, 40]).bind fun b =>
      (LoudsSparse.new b [[1, 255, 7], [255, 1, 0], [255, 255, 0], [255, 255, 255]]).bind
      fun t => ((Iter.new t).moveToLeftMostKey t).bind fun it0 =>
      (it0.incr t).bind fun it1 =>
      (it1.incr t).bind fun it2 =>
      (it2.incr t).bind fun it3 =>
      (it3.incr t).map fun it4 =>
        ([it0.getKey, it1.getKey, it2.getKey, it3.getKey],
          [it0.getValue t, it1.getValue t, it2.getValue t, it3.getValue t],
          it4.isValid))
      = some ([[1], [255, 1], [255, 255, 0], [255, 255, 255]],
          [some 10, some 20, some 30, some 40], false) ∧
    ((FSTBuilder.new.buildSparse [[1, 255, 7], [255, 1, 0], [255, 255, 0], [255, 255, 255]]
        [10, 20, 30, 40]).bind fun b =>
      (LoudsSparse.new b [[1, 255, 7], [255, 1, 0], [255, 255, 0], [255, 255, 255]]).bind
      fun t => ((Iter.new t).moveToRightMostKey t).bind fun it0 =>
      (it0.decr t).bind fun it1 =>
      (it1.decr t).bind fun it2 =>
      (it2.decr t).bind fun it3 =>
      (it3.decr t).map fun it4 =>
        ([it0.getKey, it1.getKey, it2.getKey, it3.getKey], it4.isValid))
      = some ([[255, 255, 255], [255, 255, 0], [255, 1], [1]], false) := by
  decide

/-! ## C15: the memory estimates of the cutoff computation -/

theorem hugeRow_length (n : Nat) : (hugeRow n).length = n := List.length_replicate _ _

/-- The dense estimates of the code on the shape of `hugeLevels`: the term of level 3,
`2 * 256 * 2 ^ 24 = 2 ^ 33`, is 0 in 32 bits. -/
theorem hugeShape_dense {b : FSTBuilder} {r0 r1 r2 r3 r4 : List Nat}
    (H : HugeShape b r0 r1 r2 r3 r4) :
    b.computeDenseMem 0 = some 0 ∧
    b.computeDenseMem 1 = some 512 ∧
    b.computeDenseMem 2 = some 131585 ∧
    b.computeDenseMem 3 = some 33686050 ∧
    b.computeDenseMem 4 = some 33694243 ∧
    b.computeDenseMem 5 = some 35791396 := by
  simp [FSTBuilder.computeDenseMem, FSTBuilder.getTreeHeight, H.labels, H.counts, forRange,
    check, kFanout]

theorem hugeShape_denseSpec {b : FSTBuilder} {r0 r1 r2 r3 r4 : List Nat}
    (H : HugeShape b r0 r1 r2 r3 r4) :
    denseMemSpec b.node_counts_ 0 = 0 ∧
    denseMemSpec b.node_counts_ 1 = 512 ∧
    denseMemSpec b.node_counts_ 2 = 131585 ∧
    denseMemSpec b.node_counts_ 3 = 33686050 ∧
    denseMemSpec b.node_counts_ 4 = 8623628835 := by
  rw [H.counts]
  decide

theorem hugeShape_sparse {b : FSTBuilder} {r0 r1 r2 r3 r4 : List Nat}
    (H : HugeShape b r0 r1 r2 r3 r4) :
    b.computeSparseMem 0 = some 734085445 ∧
    b.computeSparseMem 1 = some 734085124 ∧
    b.computeSparseMem 2 = some 734003203 ∧
    b.computeSparseMem 3 = some 713031682 ∧
    b.computeSparseMem 4 = some 671088641 ∧
    b.computeSparseMem 5 = some 0 := by
  simp [FSTBuilder.computeSparseMem, FSTBuilder.getTreeHeight, H.labels, forRange,
    H.h0, H.h1, H.h2, H.h3, H.h4]

theorem hugeShape_sparseSpec {b : FSTBuilder} {r0 r1 r2 r3 r4 : List Nat}
    (H : HugeShape b r0 r1 r2 r3 r4) :
    sparseMemSpec b.labels_ 0 = 734085445 ∧
    sparseMemSpec b.labels_ 1 = 734085124 ∧
    sparseMemSpec b.labels_ 2 = 734003203 ∧
    sparseMemSpec b.labels_ 3 = 713031682 ∧
    sparseMemSpec b.labels_ 4 = 671088641 := by
  simp [sparseMemSpec, sparseTerm, H.labels, List.range_succ, H.h0, H.h1, H.h2, H.h3, H.h4]

/-- The loop of `determineCutoffLevel` on the shape of `hugeLevels` runs to level 5. -/
theorem hugeShape_cutoff {b : FSTBuilder} {r0 r1 r2 r3 r4 : List Nat}
    (H : HugeShape b r0 r1 r2 r3 r4) :
    b.cutoffLoop (b.getTreeHeight + 1) 0 0 734085445 = some 5 := by
  obtain ⟨d0, d1, d2, d3, d4, d5⟩ := hugeShape_dense H
  obtain ⟨s0, s1, s2, s3, s4, s5⟩ := hugeShape_sparse H
  have hh : b.getTreeHeight = 5 := by simp [FSTBuilder.getTreeHeight, H.labels]
  simp [FSTBuilder.cutoffLoop, hh, H.ratio, d1, d2, d3, d4, d5, s1, s2, s3, s4, s5]

theorem hugeLevels_shape : HugeShape hugeLevels (hugeRow 256) (hugeRow 65536)
    (hugeRow 16777216) (hugeRow 33554432) (hugeRow 536870912) :=
  ⟨rfl, rfl, rfl, hugeRow_length _, hugeRow_length _, hugeRow_length _, hugeRow_length _,
    hugeRow_length _⟩

/-- C15 (counterexample): on the per-level vectors `hugeLevels` (ratio 16; 2 ^ 24 nodes on
level 3) `computeDenseMem 4` returns 33694243, not the sum 8623628835 of the claim: the term
`2 * 256 * node_count[3]` is computed in 32 bits and is 0. `determineCutoffLevel` stores the
cutoff 5, while the smallest level whose sum of the claim times 16 reaches the sparse
estimate is 4. -/
theorem C15_dense_estimate_wraps :
    hugeLevels.node_counts_ = [1, 256, 65536, 16777216, 33554432] ∧
    hugeLevels.labels_.map List.length = [256, 65536, 16777216, 33554432, 536870912] ∧
    hugeLevels.values_.length = hugeLevels.labels_.length ∧
    hugeLevels.computeDenseMem 4 = some 33694243 ∧
    denseMemSpec hugeLevels.node_counts_ 4 = 8623628835 ∧
    hugeLevels.computeSparseMem 4 = some (sparseMemSpec hugeLevels.labels_ 4) ∧
    (∃ b1, hugeLevels.determineCutoffLevel = some b1 ∧ b1.sparse_start_level_ = 5) ∧
    sparseMemSpec hugeLevels.labels_ 4
      ≤ denseMemSpec hugeLevels.node_counts_ 4 * hugeLevels.sparse_dense_ratio_ ∧
    ∀ l, l < 4 →
      denseMemSpec hugeLevels.node_counts_ l * hugeLevels.sparse_dense_ratio_
        < sparseMemSpec hugeLevels.labels_ l := by
  have H := hugeLevels_shape
  obtain ⟨d0, d1, d2, d3, d4, d5⟩ := hugeShape_dense H
  obtain ⟨s0, s1, s2, s3, s4, s5⟩ := hugeShape_sparse H
  obtain ⟨p0, p1, p2, p3, p4⟩ := hugeShape_denseSpec H
  obtain ⟨q0, q1, q2, q3, q4⟩ := hugeShape_sparseSpec H
  have hl : hugeLevels.labels_.map List.length
      = [256, 65536, 16777216, 33554432, 536870912] := by
    rw [H.labels]
    simp only [List.map_cons, List.map_nil, hugeRow_length]
  refine ⟨H.counts, hl, rfl, d4, p4, by rw [s4, q4], ?_, ?_, ?_⟩
  · obtain ⟨c, _, e⟩ := determineCutoffLevel_total hugeLevels ⟨rfl, rfl⟩
    refine ⟨_, e, ?_⟩
    obtain ⟨d, s, hd, hs, hc, _⟩ := determineCutoffLevel_parts _ _ e
    rw [d0] at hd
    rw [s0] at hs
    simp only [Option.some.injEq] at hd hs
    subst hd hs
    rw [hugeShape_cutoff H] at hc
    simp only [Option.some.injEq] at hc
    exact hc.symm
  · rw [q4, p4, H.ratio]
    decide
  · intro l hl4
    rw [H.ratio]
    interval_cases l
    · rw [p0, q0]; decide
    · rw [p1, q1]; decide
    · rw [p2, q2]; decide
    · rw [p3, q3]; decide

/-- C15 (amended): on a builder whose per-level vectors have one entry per level, and whose
32-bit and 64-bit expressions do not wrap (`NoOverflow`), `computeDenseMem` and `computeSparseMem` return the sums of the
specification (`denseMemSpec`, `sparseMemSpec`), and `determineCutoffLevel` returns and sets
`sparse_start_level_` to the smallest level `c` in `[0, height]` with
`computeDenseMem(c) * ratio >= computeSparseMem(c)`. -/
theorem C15_cutoff_is_least (b : FSTBuilder)
    (hc : b.node_counts_.length = b.labels_.length)
    (hv : b.values_.length = b.labels_.length)
    (hno : NoOverflow b b.sparse_dense_ratio_) :
    (∀ l, l ≤ b.getTreeHeight →
      b.computeDenseMem l = some (denseMemSpec b.node_counts_ l) ∧
      b.computeSparseMem l = some (sparseMemSpec b.labels_ l)) ∧
    ∃ b1, b.determineCutoffLevel = some b1 ∧
      b1.sparse_start_level_ ≤ b.getTreeHeight ∧
      sparseMemSpec b.labels_ b1.sparse_start_level_
        ≤ denseMemSpec b.node_counts_ b1.sparse_start_level_ * b.sparse_dense_ratio_ ∧
      ∀ l, l < b1.sparse_start_level_ →
        denseMemSpec b.node_counts_ l * b.sparse_dense_ratio_ < sparseMemSpec b.labels_ l := by
  refine ⟨fun l hl => ⟨computeDenseMem_eq b _ ⟨hc, hv⟩ hno l hl, computeSparseMem_eq b _ hno l⟩,
    ?_⟩
  obtain ⟨c, k, e⟩ := determineCutoffLevel_spec b _ rfl ⟨hc, hv⟩ hno
  exact ⟨_, e, k.le, k.reach, k.least⟩

/-- C15 (witness): the builder state after `buildSparse` on "aa", "ab", "bc" with the
ratio 16. -/
theorem C15_cutoff_is_least_witness :
    (∀ l, l ≤ (smallLevels 16).getTreeHeight →
      (smallLevels 16).computeDenseMem l = some (denseMemSpec [1, 1] l) ∧
      (smallLevels 16).computeSparseMem l = some (sparseMemSpec [[97, 98], [97, 98]] l)) ∧
    ∃ b1, (smallLevels 16).determineCutoffLevel = some b1 ∧
      b1.sparse_start_level_ ≤ 2 ∧
      sparseMemSpec [[97, 98], [97, 98]] b1.sparse_start_level_
        ≤ denseMemSpec [1, 1] b1.sparse_start_level_ * 16 ∧
      ∀ l, l < b1.sparse_start_level_ →
        denseMemSpec [1, 1] l * 16 < sparseMemSpec [[97, 98], [97, 98]] l :=
  C15_cutoff_is_least (smallLevels 16) (by decide) (by decide)
    ⟨by decide, by decide, by decide, by decide, by decide⟩

end FST
